import Mathlib

/-!
# Diffusion on a Ring: pattern codec, primitive basis and rate tables

Shallow embedding of `Diffusion (32 bit).cpp`.  A `Pattern` is represented by its
`Code` (an `unsigned long`, 32 bits wide here); the globals `p` (number of sites)
and `k` (number of atoms) are passed explicitly.  Loops of the source that need not
terminate on every input carry a fuel argument and return `none` when the source
would not return.
-/

namespace Diffusion

/-- Number of values of an `unsigned long` in the 32 bit version. -/
def wordSize : Nat := 4294967296

/-- The table `exp2pow`, filled in `main` for the indices `0..31` with the powers
of two. -/
def exp2pow (i : Nat) : Nat := 2 ^ i

/-- Bitwise complement `~x` of an `unsigned long`. -/
def bitNot (x : Nat) : Nat := 4294967295 - x

namespace Pattern

/-- Source `Pattern::operator++`: rotate to higher values. -/
def rotateUp (p Code : Nat) : Nat :=
  let c := (Code * 2) % wordSize
  if c &&& exp2pow p ≠ 0 then ((c &&& bitNot (exp2pow p)) + 1) % wordSize else c

/-- Source `Pattern::operator--`: rotate to lower values. -/
def rotateDown (p Code : Nat) : Nat :=
  (if Code &&& 1 ≠ 0 then Code ||| exp2pow p else Code) / 2

/-- Loop of `Pattern::AtomNum`: `n` iterations left, running word `zz`, counter `Aux`. -/
def AtomNumLoop : Nat → Nat → Nat → Nat
  | 0, _, Aux => Aux
  | n + 1, zz, Aux => AtomNumLoop n (zz / 2) (if zz % 2 = 1 then Aux + 1 else Aux)

/-- Source `Pattern::AtomNum`: number of atoms among the low `p` bits. -/
def AtomNum (p Code : Nat) : Nat := AtomNumLoop p Code 0

/-- Loop of `Pattern::PatternSum`: `n` iterations left, loop index `i`. -/
def PatternSumLoop : Nat → Nat → Nat → Nat → Nat
  | 0, _, _, Aux => Aux
  | n + 1, i, zz, Aux => PatternSumLoop n (i + 1) (zz / 2) (if zz &&& 1 = 1 then Aux + i else Aux)

/-- Source `Pattern::PatternSum`. -/
def PatternSum (p Code : Nat) : Nat := PatternSumLoop p 0 Code 0 % p

/-- Loop of `Pattern::Primitive`; `none` when the fuel is used up before the
pattern sum vanishes.  Returns the final code and the shift. -/
def PrimitiveLoop (p : Nat) : Nat → Nat → Nat → Option (Nat × Nat)
  | 0, _, _ => none
  | fuel + 1, Code, Aux =>
    if PatternSum p Code ≠ 0 then
      PrimitiveLoop p fuel ((if Code % 2 = 1 then Code ||| exp2pow p else Code) / 2) (Aux + 1)
    else some (Code, Aux % p)

/-- Source `Pattern::Primitive`, run with the given fuel. -/
def Primitive (fuel p Code : Nat) : Option (Nat × Nat) := PrimitiveLoop p fuel Code 0

/-- Loop of `Pattern::Element`.  `cnt` is the number of shifts done, so the source's
`Aux2` is `cnt - 1`.  A 32 bit word is zero after 32 shifts, so a loop still running
then never ends: `none`.  The value `-1` the source returns for `nu = 0` is no site
and is reported as `none` too. -/
def ElementLoop (nu : Nat) : Nat → Nat → Nat → Nat → Option Nat
  | 0, _, Aux1, cnt => if Aux1 < nu then none else if cnt = 0 then none else some (cnt - 1)
  | fuel + 1, zz, Aux1, cnt =>
    if Aux1 < nu then
      ElementLoop nu fuel (zz / 2) (if zz &&& 1 = 1 then Aux1 + 1 else Aux1) (cnt + 1)
    else if cnt = 0 then none else some (cnt - 1)

/-- Source `Pattern::Element`: position of atom number `nu`. -/
def Element (nu Code : Nat) : Option Nat := ElementLoop nu 32 Code 0 0

/-- Source `Pattern::IncrementSiteBlocked`. -/
def IncrementSiteBlocked (p nu Code : Nat) : Option Bool :=
  (Element nu Code).map fun Aux => decide (Code &&& exp2pow ((Aux + 1) % p) ≠ 0)

/-- Source `Pattern::Increment`: the new code and the type of jump. -/
def Increment (p nu Code : Nat) : Option (Nat × Nat) :=
  (Element nu Code).map fun Aux =>
    let c1 := Code &&& bitNot (exp2pow Aux)
    let c2 := c1 ||| exp2pow ((Aux + 1) % p)
    let Aux1 := c2 &&& exp2pow ((Aux + p - 1) % p)
    let Aux2 := c2 &&& exp2pow ((Aux + 2) % p)
    (c2, (if Aux1 ≠ 0 then 1 else 0) + (if Aux2 ≠ 0 then 2 else 0))

/-- Source `Pattern::DecrementSiteBlocked`.  The ordinal `((nu + k - 2) % k) + 1` of the
atom before is computed in `Nat`, which agrees with the `int` of the source as soon as
`nu + k >= 2`; the difference of the two sites is taken in `Int` with the truncating
remainder of C. -/
def DecrementSiteBlocked (p k nu Code : Nat) : Option Bool :=
  (Element nu Code).bind fun (Aux1 : Nat) =>
    (Element (((nu + k - 2) % k) + 1) Code).map fun (Aux2 : Nat) =>
      decide (Int.tmod ((Aux1 : Int) - (Aux2 : Int) + (p : Int)) (p : Int) = 1)

/-- Source `Pattern::Decrement`: the new code and the type of jump. -/
def Decrement (p nu Code : Nat) : Option (Nat × Nat) :=
  (Element nu Code).map fun Aux =>
    let c1 := Code &&& bitNot (exp2pow Aux)
    let c2 := c1 ||| exp2pow ((Aux + p - 1) % p)
    let Aux1 := c2 &&& exp2pow ((Aux + 1) % p)
    let Aux2 := c2 &&& exp2pow ((Aux + p - 2) % p)
    (c2, (if Aux1 ≠ 0 then 1 else 0) + (if Aux2 ≠ 0 then 2 else 0))

/-- Loop of `Pattern::Mirror`: `n` iterations left, loop index `i`. -/
def MirrorLoop (p Code : Nat) : Nat → Nat → Nat → Nat
  | 0, _, Aux => Aux
  | n + 1, i, Aux =>
    MirrorLoop p Code n (i + 1)
      (if Code &&& exp2pow i = exp2pow i then Aux ||| exp2pow (p - i) else Aux)

/-- Source `Pattern::Mirror`. -/
def Mirror (p Code : Nat) : Nat := MirrorLoop p Code (p - 1) 1 (Code &&& 1)

end Pattern

/-- Source `IsPrime`: no `i` with `2 <= i < Test` divides `Test`. -/
def IsPrime (Test : Nat) : Bool :=
  (List.range' 2 (Test - 2)).foldl (fun PrimeTest i => if Test % i = 0 then false else PrimeTest) true

/-- Source `Element(Row, Column)`: array position of a matrix entry. -/
def Element (MatrixDim Row Column : Nat) : Nat := Row * MatrixDim + Column

/-- The real number `PrimNumAux` of `main`, in exact arithmetic: the product of the
`i` with `p-k+1 <= i < p`, divided in turn by `2, ..., k`. -/
def PrimNumAux (p k : Nat) : ℚ :=
  (List.range' 2 (k - 1)).foldl (fun (a : ℚ) (i : Nat) => a / (i : ℚ))
    ((List.range' (p - k + 1) (k - 1)).foldl (fun (a : ℚ) (i : Nat) => a * (i : ℚ)) 1)

/-- The number of primitive patterns of `main`: `(long)(PrimNumAux + 0.5)`. -/
def PrimNum (p k : Nat) : Nat := Int.toNat ⌊PrimNumAux p k + 1 / 2⌋

/-- Loop `while (Current.IncrementSiteBlocked(Num)) ++Num;` of `main`. -/
def FindNum (p Current : Nat) : Nat → Nat → Option Nat
  | 0, _ => none
  | fuel + 1, Num =>
    match Pattern.IncrementSiteBlocked p Num Current with
    | none => none
    | some true => FindNum p Current fuel (Num + 1)
    | some false => some Num

/-- One pass of the body of the selection loop of `main` after the test for a
primitive: the next value of `Current`.  `Num` never passes 32 for a word that
holds an atom it can name, so the fuel 33 is never used up while the inner loop
would still end. -/
def SelectStep (p Current : Nat) : Option Nat :=
  (FindNum p Current 33 1).bind fun Num =>
    (Pattern.Element Num Current).bind fun Pos =>
      (Pattern.Increment p Num Current).map fun r =>
        (r.1 &&& bitNot (exp2pow Pos - 1)) ||| (exp2pow (Num - 1) - 1)

/-- The `do ... while (j < PrimNum)` loop of `main`.  `Prims` is the filled part
`Primitive[0..j)`, so `j = Prims.length`. -/
def SelectLoop (p PrimNum : Nat) : Nat → Nat → List Nat → Option (List Nat)
  | 0, _, _ => none
  | fuel + 1, Current, Prims =>
    let Prims1 := if Pattern.PatternSum p Current = 0 then Prims ++ [Current] else Prims
    match SelectStep p Current with
    | none => none
    | some next => if Prims1.length < PrimNum then SelectLoop p PrimNum fuel next Prims1 else some Prims1

/-- The primitive patterns selected by `main`: the array `Primitive` after the loop. -/
def SelectPrimitives (fuel p k : Nat) : Option (List Nat) :=
  SelectLoop p (PrimNum p k) fuel (exp2pow k - 1) []

/-- Loop of `PatternPosition`: binary search in the ascending array `Primitive`. -/
def PatternPositionLoop (Primitive : List Nat) (Prim : Nat) : Nat → Nat → Nat → Option Nat
  | 0, _, _ => none
  | fuel + 1, Aux1, Aux2 =>
    let Current := (Aux1 + Aux2) / 2
    match Primitive.get? Current with
    | none => none
    | some v =>
      let Aux1n := if Prim > v then Current else Aux1
      let Aux2n := if Prim > v then Aux2 else Current
      if Prim ≠ v then PatternPositionLoop Primitive Prim fuel Aux1n Aux2n else some Current

/-- Source `PatternPosition`, with `PrimNum` the length of the array. -/
def PatternPosition (fuel : Nat) (Primitive : List Nat) (Prim : Nat) : Option Nat :=
  PatternPositionLoop Primitive Prim fuel 0 Primitive.length

/-- Source `struct DecayCoefficients`: one counter for each type of jump.  The counters
are `char` in the source; a counter is raised at most twice for each of the `k <= 30`
atoms of one primitive pattern, so it stays far below 127 and is modelled without wrap. -/
structure DecayCoefficients where
  RateCoeffA : Nat
  RateCoeffB : Nat
  RateCoeffC : Nat
  RateCoeffD : Nat
deriving DecidableEq, Repr

/-- The `switch(Type)` of the rate matrix loop applied to one entry. -/
def DecayCoefficients.bump (d : DecayCoefficients) (JumpType : Nat) : DecayCoefficients :=
  match JumpType with
  | 0 => { d with RateCoeffA := d.RateCoeffA + 1 }
  | 1 => { d with RateCoeffB := d.RateCoeffB + 1 }
  | 2 => { d with RateCoeffC := d.RateCoeffC + 1 }
  | 3 => { d with RateCoeffD := d.RateCoeffD + 1 }
  | _ => d

/-- Read the counter of a type of jump (A, B, C, D = 0, 1, 2, 3). -/
def DecayCoefficients.coeff (d : DecayCoefficients) (JumpType : Nat) : Nat :=
  match JumpType with
  | 0 => d.RateCoeffA
  | 1 => d.RateCoeffB
  | 2 => d.RateCoeffC
  | 3 => d.RateCoeffD
  | _ => 0

/-- The three global arrays `Diagonal`, `Forward`, `Backward`, indexed by position. -/
structure RateTables where
  Diagonal : Nat → DecayCoefficients
  Forward : Nat → DecayCoefficients
  Backward : Nat → DecayCoefficients

/-- The arrays as allocated: the default constructor sets every counter to zero. -/
def RateTables.init : RateTables :=
  ⟨fun _ => ⟨0, 0, 0, 0⟩, fun _ => ⟨0, 0, 0, 0⟩, fun _ => ⟨0, 0, 0, 0⟩⟩

/-- The step `++Table[idx].RateCoeffX`. -/
def bumpAt (Table : Nat → DecayCoefficients) (idx JumpType : Nat) : Nat → DecayCoefficients :=
  fun n => if n = idx then (Table n).bump JumpType else Table n

/-- The increment half of the body of the rate matrix loop, for primitive `i` and atom `j`. -/
def IncrementShift (fuel p : Nat) (Primitive : List Nat) (i j : Nat) (t : RateTables) :
    Option RateTables :=
  (Primitive.get? i).bind fun Current =>
    (Pattern.IncrementSiteBlocked p j Current).bind fun blocked =>
      if blocked = false then
        (Pattern.Increment p j Current).bind fun r =>
          (Pattern.Primitive fuel p r.1).bind fun s =>
            (PatternPosition fuel Primitive s.1).map fun Prim =>
              { t with Diagonal := bumpAt t.Diagonal i r.2,
                       Forward := bumpAt t.Forward (Element Primitive.length Prim i) r.2 }
      else some t

/-- The decrement half of the body of the rate matrix loop, for primitive `i` and atom `j`. -/
def DecrementShift (fuel p k : Nat) (Primitive : List Nat) (i j : Nat) (t : RateTables) :
    Option RateTables :=
  (Primitive.get? i).bind fun Current =>
    (Pattern.DecrementSiteBlocked p k j Current).bind fun blocked =>
      if blocked = false then
        (Pattern.Decrement p j Current).bind fun r =>
          (Pattern.Primitive fuel p r.1).bind fun s =>
            (PatternPosition fuel Primitive s.1).map fun Prim =>
              { t with Diagonal := bumpAt t.Diagonal i r.2,
                       Backward := bumpAt t.Backward (Element Primitive.length Prim i) r.2 }
      else some t

/-- The pairs `(i, j)` in the order the two nested loops of the rate matrix visit them. -/
def ratePairs (PrimNum k : Nat) : List (Nat × Nat) :=
  (List.range PrimNum).flatMap fun i => (List.range' 1 k).map fun j => (i, j)

/-- The rate coefficient matrix loop of `main` over the array `Primitive`. -/
def AssembleRates (fuel p k : Nat) (Primitive : List Nat) : Option RateTables :=
  (ratePairs Primitive.length k).foldlM
    (fun t ij => (IncrementShift fuel p Primitive ij.1 ij.2 t).bind
      (DecrementShift fuel p k Primitive ij.1 ij.2))
    RateTables.init

/-- The part of `main` from the selection of the primitive patterns to the rate tables. -/
def RateMatrix (fuel p k : Nat) : Option (List Nat × RateTables) :=
  (SelectPrimitives fuel p k).bind fun Primitive =>
    (AssembleRates fuel p k Primitive).map fun t => (Primitive, t)

/-! ## Vocabulary of the statements -/

/-- Number of atoms of `c` on the sites `a ≤ i < b`. -/
def bitCount (a b c : Nat) : Nat := ∑ i ∈ Finset.Ico a b, if c.testBit i = true then 1 else 0

/-- Sum of the occupied sites below `n`, before the reduction modulo `p`. -/
def rawSum (n c : Nat) : Nat := ∑ i ∈ Finset.range n, if c.testBit i = true then i else 0

/-- The lowest block of atoms of `c` fills the sites `e ≤ i < t`, and site `t` is empty. -/
structure LowRun (c e t : Nat) : Prop where
  lt : e < t
  below : ∀ i, i < e → c.testBit i = false
  run : ∀ i, e ≤ i → i < t → c.testBit i = true
  stop : c.testBit t = false

/-- The bits of the code the step of the selection loop leaves. -/
def stepBits (c e t p : Nat) (i : Nat) : Bool :=
  (((c.testBit i && (decide (i < 32) && !decide (t - 1 = i))) || decide (t % p = i)) &&
      (decide (i < 32) && !decide (i < t - 1))) || decide (i < t - e - 1)

/-- The successor of a code: the lowest block `e ≤ i < t` is replaced by one atom on
site `t` and the other atoms of the block packed from site 0. -/
structure IsNext (c e t c' : Nat) : Prop where
  run : LowRun c e t
  bits : ∀ i, c'.testBit i =
    (decide (i < t - e - 1) || decide (i = t) || (decide (t < i) && c.testBit i))

/-- The codes of `k` atoms on `p` sites. -/
def codes (p k : Nat) : Finset Nat :=
  (Finset.range (2 ^ p)).filter fun c => Pattern.AtomNum p c = k

/-- The codes of `k` atoms on `p` sites whose pattern sum is `r`. -/
def codesWithSum (p k r : Nat) : Finset Nat :=
  (codes p k).filter fun c => Pattern.PatternSum p c = r

/-- The selection loop of `main` together with the record of the values `Current` has
at the head of each pass: the same loop as `SelectLoop`, returning the array and that
record. -/
def SelectTrace (p PrimNum : Nat) : Nat → Nat → List Nat → Option (List Nat × List Nat)
  | 0, _, _ => none
  | fuel + 1, Current, Prims =>
    let Prims1 := if Pattern.PatternSum p Current = 0 then Prims ++ [Current] else Prims
    match SelectStep p Current with
    | none => none
    | some next =>
      if Prims1.length < PrimNum then
        (SelectTrace p PrimNum fuel next Prims1).map fun r => (r.1, Current :: r.2)
      else some (Prims1, [Current])

/-- The largest code of `k` atoms on `p` sites: the atoms fill the sites `p-k .. p-1`. -/
def topCode (p k : Nat) : Nat := 2 ^ (p - k) * (2 ^ k - 1)

/-- What the increment half of the body of the rate matrix loop does for primitive `i`
and atom `j`: `none` when it would not return, `some none` when the move is blocked,
else the position `Prim` of the primitive pattern reached and the type of jump. -/
def incMove (fuel p : Nat) (Primitive : List Nat) (i j : Nat) : Option (Option (Nat × Nat)) :=
  (Primitive.get? i).bind fun Current =>
    (Pattern.IncrementSiteBlocked p j Current).bind fun blocked =>
      if blocked = false then
        (Pattern.Increment p j Current).bind fun r =>
          (Pattern.Primitive fuel p r.1).bind fun s =>
            (PatternPosition fuel Primitive s.1).map fun Prim => some (Prim, r.2)
      else some none

/-- What the decrement half of the body of the rate matrix loop does for primitive `i`
and atom `j`, as `incMove`. -/
def decMove (fuel p k : Nat) (Primitive : List Nat) (i j : Nat) : Option (Option (Nat × Nat)) :=
  (Primitive.get? i).bind fun Current =>
    (Pattern.DecrementSiteBlocked p k j Current).bind fun blocked =>
      if blocked = false then
        (Pattern.Decrement p j Current).bind fun r =>
          (Pattern.Primitive fuel p r.1).bind fun s =>
            (PatternPosition fuel Primitive s.1).map fun Prim => some (Prim, r.2)
      else some none

/-- The counters an increment raises: `Diagonal[i]` and `Forward[Element(Prim,i)]`. -/
def applyInc (N : Nat) (t : RateTables) (i : Nat) : Option (Nat × Nat) → RateTables
  | none => t
  | some r => { t with Diagonal := bumpAt t.Diagonal i r.2,
                       Forward := bumpAt t.Forward (Element N r.1 i) r.2 }

/-- The counters a decrement raises: `Diagonal[i]` and `Backward[Element(Prim,i)]`. -/
def applyDec (N : Nat) (t : RateTables) (i : Nat) : Option (Nat × Nat) → RateTables
  | none => t
  | some r => { t with Diagonal := bumpAt t.Diagonal i r.2,
                       Backward := bumpAt t.Backward (Element N r.1 i) r.2 }

/-- The type of jump of a move of the rate matrix loop, if the move is made. -/
def moveType (e : Option (Option (Nat × Nat))) : Option Nat := (e.bind id).map Prod.snd

/-- The position in `Forward` or `Backward` and the type of jump of a move out of
primitive `i`, if the move is made. -/
def moveHit (N i : Nat) (e : Option (Option (Nat × Nat))) : Option (Nat × Nat) :=
  (e.bind id).map fun r => (Element N r.1 i, r.2)

/-- Number of atoms `nu` in `1..k` of the code `c` whose increment is not blocked and
has type `T`. -/
def legalIncrements (p k c T : Nat) : Nat :=
  (List.range' 1 k).countP fun nu =>
    decide (Pattern.IncrementSiteBlocked p nu c = some false ∧
      (Pattern.Increment p nu c).map Prod.snd = some T)

/-- Number of atoms `nu` in `1..k` of the code `c` whose decrement is not blocked and
has type `T`. -/
def legalDecrements (p k c T : Nat) : Nat :=
  (List.range' 1 k).countP fun nu =>
    decide (Pattern.DecrementSiteBlocked p k nu c = some false ∧
      (Pattern.Decrement p nu c).map Prod.snd = some T)

/-- An array that holds, in ascending order, the codes of `k` atoms on `p` sites with
pattern sum 0: what the selection loop leaves in `Primitive`. -/
structure GoodPrims (p k : Nat) (L : List Nat) : Prop where
  sorted : L.Pairwise (· < ·)
  mem : ∀ c, c ∈ L ↔ c ∈ codesWithSum p k 0

/-- The code with the atom of site `a` set on site `b`, as `Increment` and `Decrement`
write it. -/
def moveCode (c a b : Nat) : Nat := (c &&& bitNot (exp2pow a)) ||| exp2pow b

/-- The type of jump seen from the other side: B and C change places. -/
def swapBC (T : Nat) : Nat :=
  match T with
  | 1 => 2
  | 2 => 1
  | n => n

/-- The type of jump read off a code: 1 for an atom on site `u`, 2 for one on site `v`. -/
def typeAt (c u v : Nat) : Nat :=
  (if c.testBit u = true then 1 else 0) + (if c.testBit v = true then 2 else 0)

/-- The sites `a` of a code `c` from which an increment that is not blocked has type
`T` and leads, after `m` backward rotations, to the code `d`. -/
def incSites (p m c d T : Nat) : Finset Nat :=
  (Finset.range p).filter fun a => c.testBit a = true ∧
    (!c.testBit ((a + 1) % p) &&
      decide (typeAt (moveCode c a ((a + 1) % p)) ((a + p - 1) % p) ((a + 2) % p) = T) &&
      decide ((Pattern.rotateDown p)^[m] (moveCode c a ((a + 1) % p)) = d)) = true

/-- The sites `a` of a code `c` from which a decrement that is not blocked has type
`T` and leads, after `r` backward rotations, to the code `d`. -/
def decSites (p r c d T : Nat) : Finset Nat :=
  (Finset.range p).filter fun a => c.testBit a = true ∧
    (!c.testBit ((a + p - 1) % p) &&
      decide (typeAt (moveCode c a ((a + p - 1) % p)) ((a + 1) % p) ((a + p - 2) % p) = T) &&
      decide ((Pattern.rotateDown p)^[r] (moveCode c a ((a + p - 1) % p)) = d)) = true

namespace Pattern

/-- The `switch` of `CollapsingNumber` on the type of the jump made: `--CNum` in case 1,
`++CNum` in case 2, nothing otherwise. -/
def CNumStep (CNum : Int) (JumpType : Nat) : Int :=
  match JumpType with
  | 1 => CNum - 1
  | 2 => CNum + 1
  | _ => CNum

/-- The `while` loop of `CollapsingNumber` for the atom `nu`: decrements while the move
is not blocked, each followed by the `switch` on the type of the jump. -/
def CollapseLoop (p k nu : Nat) : Nat → Nat → Int → Option (Nat × Int)
  | 0, _, _ => none
  | fuel + 1, Code, CNum =>
    match DecrementSiteBlocked p k nu Code with
    | none => none
    | some true => some (Code, CNum)
    | some false =>
      match Decrement p nu Code with
      | none => none
      | some r =>
        CollapseLoop p k nu fuel r.1 (CNumStep CNum r.2)

/-- Source `Pattern::CollapsingNumber`: the loop over `nu = 2..k` on a copy of the code;
`fuel` bounds the passes of each `while` loop. -/
def CollapsingNumber (fuel p k Code : Nat) : Option Int :=
  ((List.range' 2 (k - 1)).foldlM
    (fun (s : Nat × Int) (nu : Nat) => CollapseLoop p k nu fuel s.1 s.2) (Code, 0)).map
    Prod.snd

/-- Source `Pattern::IsPalindromic`: the code equals its mirror image. -/
def IsPalindromic (p Code : Nat) : Bool := decide (Mirror p Code = Code)

end Pattern

/-- The loop of `main` that fills the array `MirrorImage` (entry `i` is written in pass
`i`) and counts the palindromic patterns in `PalinNum`. -/
def MirrorImages (fuel p : Nat) (Primitive : List Nat) : Option (List Nat × Nat) :=
  (List.range Primitive.length).foldlM
    (fun (s : List Nat × Nat) (i : Nat) =>
      (Primitive.get? i).bind fun (Current : Nat) =>
        (PatternPosition fuel Primitive (Pattern.Mirror p Current)).map fun (Pos : Nat) =>
          (s.1 ++ [Pos], if Pos = i then s.2 + 1 else s.2))
    ([], 0)

/-- First loop of `EigenSort`: entry `i` of `EVPointer` is set to `i` and `MinEV` becomes
the least of `EVArray[0..MatrixDim-1]`.  The arrays are functions of the position; the
values are of any linearly ordered type. -/
def EigenSortInit {α : Type} [LinearOrder α] (EVArray : Nat → α) (MatrixDim : Nat)
    (EVPointer : Nat → Nat) : (Nat → Nat) × α :=
  (List.range MatrixDim).foldl
    (fun (s : (Nat → Nat) × α) (i : Nat) =>
      (Function.update s.1 i i, if EVArray i < s.2 then EVArray i else s.2))
    (EVPointer, EVArray 0)

/-- Inner comparison loop of `EigenSort` over `j = 0..i-1`: returns `MaxEV` and `Pos`. -/
def EigenSortInner {α : Type} [LinearOrder α] (EVArray : Nat → α) (EVPointer : Nat → Nat)
    (MinEV : α) (i : Nat) : α × Nat :=
  (List.range i).foldl
    (fun (s : α × Nat) (j : Nat) =>
      if EVArray (EVPointer j) > s.1 then (EVArray (EVPointer j), j) else s)
    (MinEV, 0)

/-- Outer comparison loop of `EigenSort`, `i` running down while `i > 1`, with the swap
of the entries `Pos` and `i-1` of `EVPointer`. -/
def EigenSortOuter {α : Type} [LinearOrder α] (EVArray : Nat → α) (MinEV : α) :
    Nat → (Nat → Nat) → (Nat → Nat)
  | 0, EVPointer => EVPointer
  | i + 1, EVPointer =>
    if i + 1 > 1 then
      let Pos := (EigenSortInner EVArray EVPointer MinEV (i + 1)).2
      let Aux := EVPointer Pos
      EigenSortOuter EVArray MinEV i
        (Function.update (Function.update EVPointer Pos (EVPointer i)) i Aux)
    else EVPointer

/-- Source `EigenSort`: returns the two arrays as the routine leaves them. -/
def EigenSort {α : Type} [LinearOrder α] (MatrixDim : Nat) (EVArray : Nat → α)
    (EVPointer : Nat → Nat) : (Nat → α) × (Nat → Nat) :=
  let s := EigenSortInit EVArray MatrixDim EVPointer
  (EVArray, EigenSortOuter EVArray s.2 MatrixDim s.1)

/-- The accuracy goal `Accu = 1e-16` of `QRSymm` and `QRHerm`, as an exact number. -/
def Accu (K : Type) [Field K] : K := 1 / 10 ^ 16

/-- The values a Jacobi rotation of the 2 x 2 split computes: the rotation coefficients
and the two diagonal entries. -/
structure JacobiValues (K : Type) where
  c : K
  s : K
  Diag1 : K
  Diag2 : K

/-- The 2 x 2 split of `QRSymm` on `Diag[i-1]`, `Diag[i]`, `ExDiag[i]` in exact
arithmetic over an ordered field, `sqrt` being the square root of the library: `none`
when the test finds the block diagonal already and nothing is changed, else the values of
the Jacobi rotation.  The rotation of the rows of the transformation matrix, which uses
`c` and `s` and does not touch the diagonal, is left out. -/
def QRSymmSplit {K : Type} [LinearOrderedField K] (sqrt : K → K) (Diag1 Diag2 ExDiag : K) :
    Option (JacobiValues K) :=
  let Aux := ExDiag
  if |Aux| > Accu K * (|Diag1| + |Diag2|) then
    let theta := (Diag1 - Diag2) / (2 * Aux)
    let t := 1 / (|theta| + sqrt (1 + theta * theta))
    let t := if theta < 0 then -t else t
    let c := 1 / sqrt (1 + t * t)
    let s := t * c
    let Aux := Aux * t
    some ⟨c, s, Diag1 + Aux, Diag2 - Aux⟩
  else none

/-- The 2 x 2 split of `QRHerm` on `Diag[i-1]`, `Diag[i]` and the complex entry
`SupDiag[i] = re + i im`, as `QRSymmSplit`; `SuperDiagNorm1` is `norm(SupDiag[i])`, the
square of the modulus. -/
def QRHermSplit {K : Type} [LinearOrderedField K] (sqrt : K → K) (Diag1 Diag2 re im : K) :
    Option (JacobiValues K) :=
  let SuperDiagNorm1 := re * re + im * im
  let Aux := sqrt SuperDiagNorm1
  if Aux > Accu K * (|Diag1| + |Diag2|) then
    let theta := (Diag1 - Diag2) / (2 * Aux)
    let t := 1 / (|theta| + sqrt (1 + theta * theta))
    let t := if theta < 0 then -t else t
    let c := 1 / sqrt (1 + t * t)
    let s := t * c
    let Aux := Aux * t
    some ⟨c, s, Diag1 + Aux, Diag2 - Aux⟩
  else none

/-- First loop of the equilibrium eigenvector in `main`: `EqEV[i]` becomes
`pow(RateB / RateC, Primitive[i].CollapsingNumber())` and `Sum` adds these up, in exact
arithmetic over a field. -/
def EqEVLoop {K : Type} [Field K] (fuel p k : Nat) (RateB RateC : K) (Primitive : List Nat) :
    Option (List K × K) :=
  Primitive.foldlM
    (fun (s : List K × K) (Current : Nat) =>
      (Pattern.CollapsingNumber fuel p k Current).map fun (CNum : Int) =>
        (s.1 ++ [(RateB / RateC) ^ CNum], s.2 + (RateB / RateC) ^ CNum))
    ([], 0)

/-- The equilibrium eigenvector of `main`: after the first loop `Sum = 1.0 / (p * Sum)`,
and the second loop multiplies every entry by it. -/
def EqEV {K : Type} [Field K] (fuel p k : Nat) (RateB RateC : K) (Primitive : List Nat) :
    Option (List K) :=
  (EqEVLoop fuel p k RateB RateC Primitive).map fun (s : List K × K) =>
    let Sum := 1 / ((p : K) * s.2)
    s.1.map fun (x : K) => x * Sum

/-- The sum `RateA * a + RateB * b + RateC * c + RateD * d` over the four counters of
an entry of the rate tables. -/
def DecayCoefficients.rate {K : Type} [Field K] (RateA RateB RateC RateD : K)
    (d : DecayCoefficients) : K :=
  RateA * (d.RateCoeffA : K) + RateB * (d.RateCoeffB : K) + RateC * (d.RateCoeffC : K) +
    RateD * (d.RateCoeffD : K)

/-- The value `main` first stores in `Unitary[Element(i,j)]` for the momentum `q = 0`:
the four rates times the sums of the counters of `Forward` and `Backward`. -/
def RateEntry {K : Type} [Field K] (RateA RateB RateC RateD : K) (t : RateTables)
    (PrimNum i j : Nat) : K :=
  RateA * (((t.Forward (Element PrimNum i j)).RateCoeffA +
      (t.Backward (Element PrimNum i j)).RateCoeffA : Nat) : K) +
    RateB * (((t.Forward (Element PrimNum i j)).RateCoeffB +
      (t.Backward (Element PrimNum i j)).RateCoeffB : Nat) : K) +
    RateC * (((t.Forward (Element PrimNum i j)).RateCoeffC +
      (t.Backward (Element PrimNum i j)).RateCoeffC : Nat) : K) +
    RateD * (((t.Forward (Element PrimNum i j)).RateCoeffD +
      (t.Backward (Element PrimNum i j)).RateCoeffD : Nat) : K)

/-- The loop "Calculate Rate Matrix" of `main` for the momentum `q = 0` on the array
`Unitary`: row `i` is filled with the rate entries, then the decay rate of `Diagonal[i]`
is subtracted from the entry on the diagonal. -/
def ZeroMomentumMatrix {K : Type} [Field K] (RateA RateB RateC RateD : K) (t : RateTables)
    (PrimNum : Nat) (Unitary : Nat → K) : Nat → K :=
  (List.range PrimNum).foldl
    (fun (U : Nat → K) (i : Nat) =>
      let U1 := (List.range PrimNum).foldl
        (fun (V : Nat → K) (j : Nat) =>
          Function.update V (Element PrimNum i j) (RateEntry RateA RateB RateC RateD t PrimNum i j))
        U
      Function.update U1 (Element PrimNum i i)
        (U1 (Element PrimNum i i) - (t.Diagonal i).rate RateA RateB RateC RateD))
    Unitary

/-- The loop "Symmetrization Procedure" of `main` on the array `Unitary`, with the
equilibrium eigenvector as a function of the position and `sqrt` the square root of the
library. -/
def Symmetrize {K : Type} [Field K] (sqrt : K → K) (EqEV : Nat → K) (PrimNum : Nat)
    (Unitary : Nat → K) : Nat → K :=
  (List.range PrimNum).foldl
    (fun (U : Nat → K) (i : Nat) =>
      (List.range' (i + 1) (PrimNum - (i + 1))).foldl
        (fun (V : Nat → K) (j : Nat) =>
          let V1 := Function.update V (Element PrimNum i j)
            (V (Element PrimNum i j) * sqrt (EqEV j / EqEV i))
          Function.update V1 (Element PrimNum j i) (V1 (Element PrimNum i j)))
        U)
    Unitary

/-- The three arrays of `HouseholderSymm`: the matrix, stored by rows with
`Element(Row,Column)`, and the vectors of the diagonal and the extradiagonal elements. -/
structure Tridiag (K : Type) where
  Matr : Nat → K
  Diag : Nat → K
  ExDiag : Nat → K

/-- Loop "Calculate Norm of Partial Row/Column; Symmetrize Matrix" of `HouseholderSymm`
for the row `i`: entry `(i,k)` takes the value of entry `(k,i)` and `Sum` adds up the
squares.  Returns the matrix and `Sum`. -/
def HouseholderNorm {K : Type} [Field K] (n i : Nat) (Matr : Nat → K) : (Nat → K) × K :=
  (List.range i).foldl
    (fun (s : (Nat → K) × K) (k : Nat) =>
      let M := Function.update s.1 (Element n i k) (s.1 (Element n k i))
      (M, s.2 + M (Element n i k) * M (Element n i k)))
    (Matr, 0)

/-- Loop "Partial Vector p = Matrix * u / Norm" of `HouseholderSymm`, stored in
`ExDiag[0..i-1]`. -/
def HouseholderP {K : Type} [Field K] (n i : Nat) (Aux : K) (Matr ExDiag : Nat → K) :
    Nat → K :=
  (List.range i).foldl
    (fun (E : Nat → K) (k : Nat) =>
      let E1 := Function.update E k 0
      let E2 := (List.range i).foldl
        (fun (F : Nat → K) (j : Nat) =>
          Function.update F k (F k + Matr (Element n k j) * Matr (Element n j i)))
        E1
      Function.update E2 k (E2 k * Aux))
    ExDiag

/-- Loop "Scalar s = u^+ * p / Norm" of `HouseholderSymm`, before the factor. -/
def HouseholderScalar {K : Type} [Field K] (n i : Nat) (Matr ExDiag : Nat → K) : K :=
  (List.range i).foldl (fun (s : K) (k : Nat) => s + Matr (Element n i k) * ExDiag k) 0

/-- Loop "Vector q = p - s * u" of `HouseholderSymm`, in `ExDiag[0..i-1]`. -/
def HouseholderQ {K : Type} [Field K] (n i : Nat) (Scalar : K) (Matr ExDiag : Nat → K) :
    Nat → K :=
  (List.range i).foldl
    (fun (E : Nat → K) (k : Nat) =>
      Function.update E k (E k - Scalar * Matr (Element n k i)))
    ExDiag

/-- Loop "Householder Transformation on Partial Matrix" of `HouseholderSymm`. -/
def HouseholderUpdate {K : Type} [Field K] (n i : Nat) (Matr ExDiag : Nat → K) : Nat → K :=
  (List.range i).foldl
    (fun (M : Nat → K) (k : Nat) =>
      (List.range i).foldl
        (fun (V : Nat → K) (j : Nat) =>
          Function.update V (Element n j k)
            (V (Element n j k) -
              (V (Element n j i) * ExDiag k + V (Element n i k) * ExDiag j)))
        M)
    Matr

/-- One pass of the loop "Perform Householder Transformations" of `HouseholderSymm`, for
the row `i`, in exact arithmetic over an ordered field with `sqrt` the square root of the
library. -/
def HouseholderStep {K : Type} [LinearOrderedField K] (sqrt : K → K) (n i : Nat)
    (s : Tridiag K) : Tridiag K :=
  let Diag := Function.update s.Diag i (s.Matr (Element n i i))
  let r := HouseholderNorm n i s.Matr
  let Matr := r.1
  let Sum := r.2
  if Sum = 0 then
    ⟨Function.update Matr (Element n i i) 0, Diag,
      Function.update s.ExDiag i (Matr (Element n (i - 1) i))⟩
  else
    let Aux := |Matr (Element n (i - 1) i)|
    let Sign := if Aux > 0 then Matr (Element n (i - 1) i) / Aux else 1
    let ExDiag := Function.update s.ExDiag i (-sqrt Sum * Sign)
    let Matr := Function.update Matr (Element n (i - 1) i)
      (Matr (Element n (i - 1) i) - ExDiag i)
    let Matr := Function.update Matr (Element n i (i - 1))
      (Matr (Element n i (i - 1)) - ExDiag i)
    let Aux := 1 / (Sum + sqrt Sum * Aux)
    let Matr := Function.update Matr (Element n i i) Aux
    let ExDiag := HouseholderP n i Aux Matr ExDiag
    let Scalar := HouseholderScalar n i Matr ExDiag * (1 / 2 * Aux)
    let ExDiag := HouseholderQ n i Scalar Matr ExDiag
    ⟨HouseholderUpdate n i Matr ExDiag, Diag, ExDiag⟩

/-- One pass of the loop "Recursive Multiplication" of `HouseholderSymm`, for the row
`i`: the rows `j < i` are multiplied by the reflection stored in row and column `i`, which
are then cleared. -/
def HouseholderAccumulate {K : Type} [Field K] (n i : Nat) (Matr : Nat → K) : Nat → K :=
  let Aux := Matr (Element n i i)
  let M1 := (List.range i).foldl
    (fun (M : Nat → K) (j : Nat) =>
      let Scalar := (List.range i).foldl
        (fun (s : K) (k : Nat) => s + M (Element n j k) * M (Element n k i)) 0 * Aux
      (List.range i).foldl
        (fun (V : Nat → K) (k : Nat) =>
          Function.update V (Element n j k) (V (Element n j k) - Scalar * V (Element n i k)))
        M)
    Matr
  let M2 := (List.range i).foldl
    (fun (M : Nat → K) (j : Nat) =>
      Function.update (Function.update M (Element n i j) 0) (Element n j i) 0)
    M1
  Function.update M2 (Element n i i) 1

/-- Source `HouseholderSymm` on the arrays `Matr`, `Diag`, `ExDiag` with
`MatrixDim = n >= 1`: the reflections for the rows `n-1` down to 2, the readout of the
leftover 2 x 2 matrix, and, unless `EigenvaluesOnly`, the assembly of the transformation
matrix in `Matr`. -/
def HouseholderSymm {K : Type} [LinearOrderedField K] (sqrt : K → K) ( EigenvaluesOnly : Bool)
    (n : Nat) (s : Tridiag K) : Tridiag K :=
  let s1 := (List.range' 2 (n - 2)).reverse.foldl
    (fun (s : Tridiag K) (i : Nat) => HouseholderStep sqrt n i s) s
  let Diag := Function.update s1.Diag 0 (s1.Matr (Element n 0 0))
  let ExDiag := Function.update s1.ExDiag 0 0
  let Diag := if n > 1 then Function.update Diag 1 (s1.Matr (Element n 1 1)) else Diag
  let ExDiag := if n > 1 then Function.update ExDiag 1 (s1.Matr (Element n 0 1)) else ExDiag
  if EigenvaluesOnly = false then
    let M := Function.update s1.Matr (Element n 0 0) 1
    let M := if n > 1 then
        Function.update (Function.update (Function.update M (Element n 1 0) 0)
          (Element n 0 1) 0) (Element n 1 1) 1
      else M
    let M := (List.range' 2 (n - 2)).foldl
      (fun (M : Nat → K) (i : Nat) => HouseholderAccumulate n i M) M
    ⟨M, Diag, ExDiag⟩
  else ⟨s1.Matr, Diag, ExDiag⟩

/-! ## Vocabulary of the lookup -/

/-- The loop of `PatternPosition` together with the record of the positions `Current` it
reads from the array: the same loop as `PatternPositionLoop`, returning the positions
read in the first `fuel` passes (all of them when the loop ends earlier). -/
def PatternPositionProbes (Primitive : List Nat) (Prim : Nat) : Nat → Nat → Nat → List Nat
  | 0, _, _ => []
  | fuel + 1, Aux1, Aux2 =>
    let Current := (Aux1 + Aux2) / 2
    match Primitive.get? Current with
    | none => [Current]
    | some v =>
      let Aux1n := if Prim > v then Current else Aux1
      let Aux2n := if Prim > v then Aux2 else Current
      if Prim ≠ v then Current :: PatternPositionProbes Primitive Prim fuel Aux1n Aux2n
      else [Current]

/-- The `while` loop of `CollapsingNumber` for the atom `nu` with the record of the types
of the jumps it makes: the same loop as `Pattern.CollapseLoop`, returning the code it
leaves and the types of its decrements in the order they are made. -/
def CollapseTrace (p k nu : Nat) : Nat → Nat → List Nat → Option (Nat × List Nat)
  | 0, _, _ => none
  | fuel + 1, Code, Types =>
    match Pattern.DecrementSiteBlocked p k nu Code with
    | none => none
    | some true => some (Code, Types)
    | some false =>
      match Pattern.Decrement p nu Code with
      | none => none
      | some r => CollapseTrace p k nu fuel r.1 (Types ++ [r.2])

/-- The loops of `CollapsingNumber` with the record of the types of all the jumps made:
the code left at the end and the types, in the order of the moves. -/
def CollapsingTrace (fuel p k Code : Nat) : Option (Nat × List Nat) :=
  (List.range' 2 (k - 1)).foldlM
    (fun (s : Nat × List Nat) (nu : Nat) => CollapseTrace p k nu fuel s.1 s.2) (Code, [])

/-- Number of pairs of neighbouring sites of the ring that are both occupied. -/
def bonds (p c : Nat) : Nat :=
  ∑ i ∈ Finset.range p, if c.testBit i = true ∧ c.testBit ((i + 1) % p) = true then 1 else 0

/-- What a jump of type `T` adds to the number of bonds: a jump of type B (1) breaks one,
a jump of type C (2) forms one, the types A (0) and D (3) keep the number. -/
def bondChange (T : Nat) : Int :=
  match T with
  | 1 => -1
  | 2 => 1
  | _ => 0

/-- A code of `k` atoms on `p` sites whose lowest atom sits on site `a` and whose first
`m` atoms fill the sites `a .. a+m-1`: what `CollapsingNumber` has reached when the atoms
`2..m` are done. -/
structure PackedTo (p k a m c : Nat) : Prop where
  lt : c < 2 ^ p
  atoms : Pattern.AtomNum p c = k
  below : ∀ i, i < a → c.testBit i = false
  block : ∀ i, a ≤ i → i < a + m → c.testBit i = true

/-- The array `EqEV` as a function of the position. -/
def EqEVAt {K : Type} [Field K] (E : List K) (i : Nat) : K := E.getD i 0

/-- The `n x n` matrix an array holds, stored by rows with `Element(Row,Column)`. -/
def asMatrix {K : Type} (n : Nat) (M : Nat → K) : Matrix (Fin n) (Fin n) K :=
  Matrix.of fun (a b : Fin n) => M (Element n a b)

/-- The vector `u` of the reflection for the row `r`, as `HouseholderSymm` stores it in
column `r` of the array: the entries above the diagonal, and 0 from `r` on. -/
def reflVec {K : Type} [Field K] (n r : Nat) (M : Nat → K) : Fin n → K :=
  fun a => if (a : Nat) < r then M (Element n a r) else 0

/-- The reflection `1 - beta u u^T` for the row `r`, with `u` stored in column `r` of the
array and `beta` in its entry `(r, r)`. -/
def reflection {K : Type} [Field K] (n : Nat) (M : Nat → K) (r : Nat) :
    Matrix (Fin n) (Fin n) K :=
  1 - M (Element n r r) • Matrix.vecMulVec (reflVec n r M) (reflVec n r M)

/-- The product of the reflections for the rows of a list, in the order of the list. -/
def reflProd {K : Type} [Field K] (n : Nat) (M : Nat → K) (rows : List Nat) :
    Matrix (Fin n) (Fin n) K :=
  (rows.map (reflection n M)).prod

/-- The symmetric tridiagonal matrix with the diagonal `Diag[0..n-1]` and the entries
`ExDiag[i]` in the places `(i-1, i)` and `(i, i-1)`. -/
def tridiagonal {K : Type} [Field K] (n : Nat) (Diag ExDiag : Nat → K) :
    Matrix (Fin n) (Fin n) K :=
  Matrix.of fun (a b : Fin n) =>
    if (a : Nat) = b then Diag a
    else if (b : Nat) = a + 1 then ExDiag b
    else if (a : Nat) = b + 1 then ExDiag a
    else 0

/-- The matrix `HouseholderSymm` has reached when the rows from `i` on are done: the
entries of the array in the rows and columns below `i`, the tridiagonal matrix of `Diag`
and `ExDiag` elsewhere. -/
def partialTridiag {K : Type} [Field K] (n i : Nat) (s : Tridiag K) :
    Matrix (Fin n) (Fin n) K :=
  Matrix.of fun (a b : Fin n) =>
    if (a : Nat) < i ∧ (b : Nat) < i then s.Matr (Element n a b)
    else tridiagonal n s.Diag s.ExDiag a b

/-! ## Patterns as strings, and the checks of `main` -/

namespace Pattern

/-- Loop of `Pattern::Pattern(string)`: `i` characters are left to read, from the
character `i - 1` down to the first; `Aux` is the substring of length one at `i - 1`
(`none` for the empty substring).  A symbol other than `.` and `o` ends the program:
the error message is returned. -/
def assignLoop (Graphics : List Char) : Nat → Nat → Except String Nat
  | 0, Code => .ok Code
  | i + 1, Code =>
    let Aux := Graphics.get? i
    let Code := (Code * 2) % wordSize
    if Aux = some '.' ∨ Aux = some 'o' then
      assignLoop Graphics i (if Aux = some 'o' then (Code + 1) % wordSize else Code)
    else .error "Illegal Symbol in Pattern"

/-- Source `Pattern::Pattern(string Graphics)` and, with the same body,
`Pattern::operator=(string Graphics)`: the code of a graphical string for `p` sites, or
the error message the program ends with. -/
def assign (p : Nat) (Graphics : List Char) : Except String Nat :=
  if Graphics.length ≠ p then .error "Illegal Pattern Size"
  else assignLoop Graphics p 0

/-- Loop of `Pattern::Match` that builds `AtomCode` and `HoleCode` from the comparison
string, read from the character `i - 1` down to the first. -/
def MatchLoop (Comparison : List Char) : Nat → Nat → Nat → Except String (Nat × Nat)
  | 0, AtomCode, HoleCode => .ok (AtomCode, HoleCode)
  | i + 1, AtomCode, HoleCode =>
    let Aux := Comparison.get? i
    let AtomCode := (AtomCode * 2) % wordSize
    let HoleCode := (HoleCode * 2) % wordSize
    if Aux ≠ some '.' ∧ Aux ≠ some 'o' ∧ Aux ≠ some 'x' then
      .error "Illegal Symbol in Pattern"
    else
      MatchLoop Comparison i (if Aux = some 'o' then (AtomCode + 1) % wordSize else AtomCode)
        (if Aux = some '.' then (HoleCode + 1) % wordSize else HoleCode)

/-- Source `Pattern::Match`: does the code match the comparison string, in which `x`
stands for either type of site. -/
def Match (p Code : Nat) (Comparison : List Char) : Except String Bool :=
  if Comparison.length ≠ p then .error "Comparison pattern does not match size"
  else
    match MatchLoop Comparison p 0 0 with
    | .error e => .error e
    | .ok (AtomCode, HoleCode) =>
      .ok (decide (Code &&& AtomCode = AtomCode ∧ Code &&& HoleCode = 0))

/-- Source `Pattern::Graphics`: the graphical string of a code, site 0 first. -/
def Graphics (p Code : Nat) : List Char :=
  (List.range p).foldl
    (fun (Comp : List Char) (i : Nat) =>
      if Code &&& exp2pow i = exp2pow i then Comp ++ ['o'] else Comp ++ ['.'])
    []

end Pattern

/-- Source `TestPattern`: every symbol has to be `.`, `o` or `x`, and `x` is allowed in
the indefinite mode only; `ErrorMessage` ends the program with the message returned. -/
def TestPattern : List Char → Bool → Except String Unit
  | [], _ => .ok ()
  | Aux :: AtomPattern, IsIndefinite =>
    if Aux ≠ '.' ∧ Aux ≠ 'o' ∧ Aux ≠ 'x' then .error "Illegal Symbol in Pattern"
    else if IsIndefinite = false ∧ Aux = 'x' then .error "Illegal Symbol in Pattern"
    else TestPattern AtomPattern IsIndefinite

/-- Section "Fetch and test initial state" of `main`: the number of sites `p`, the code
of the initial pattern and the number of atoms `k`, or the message of the `ErrorMessage`
that ends the program there, before the section "Select primitive patterns" and all
that follows it. -/
def FetchInitialState (InitialState : List Char) : Except String (Nat × Nat × Nat) :=
  match TestPattern InitialState false with
  | .error e => .error e
  | .ok _ =>
    let p := InitialState.length
    if p < 3 then .error "At least three sites required"
    else if p > 31 then .error "At most 31 sites permitted"
    else if IsPrime p = false then .error "Number of sites must be prime"
    else
      match Pattern.assign p InitialState with
      | .error e => .error e
      | .ok InitState =>
        let k := Pattern.AtomNum p InitState
        if k = 0 ∨ k = p then .error "No atoms (holes) present"
        else .ok (p, InitState, k)

/-- The parameter set at the head of a block data file, in the order in which "Save
block data" writes it and "Check block data file" reads it: two `long`, four `double`. -/
structure BlockHeader (K : Type) where
  p : Int
  k : Int
  RateA : K
  RateB : K
  RateC : K
  RateD : K

/-- The parameter set "Save block data" of `main` writes at the head of the file. -/
def SaveBlockHeader {K : Type} (p k : Int) (RateA RateB RateC RateD : K) : BlockHeader K :=
  ⟨p, k, RateA, RateB, RateC, RateD⟩

/-- Section "Check block data file if required" of `main`: `BlockLoad` is the parameter
set at the head of the file, `none` when the file cannot be opened.  The result is the
message of the `ErrorMessage` that ends the program, or `()` when the run goes on. -/
def CheckBlockData {K : Type} [DecidableEq K] (LoadBlockData : Bool)
    (BlockLoad : Option (BlockHeader K)) (p k : Int) (RateA RateB RateC RateD : K) :
    Except String Unit :=
  if LoadBlockData = true then
    match BlockLoad with
    | none => .error "Could Not Open Block Data File"
    | some h =>
      let SameParameterSet := true
      let SameParameterSet := if h.p ≠ p then false else SameParameterSet
      let SameParameterSet := if h.k ≠ k then false else SameParameterSet
      let SameParameterSet := if h.RateA ≠ RateA then false else SameParameterSet
      let SameParameterSet := if h.RateB ≠ RateB then false else SameParameterSet
      let SameParameterSet := if h.RateC ≠ RateC then false else SameParameterSet
      let SameParameterSet := if h.RateD ≠ RateD then false else SameParameterSet
      if SameParameterSet = false then .error "Incompatible Parameter Sets"
      else .ok ()
  else .ok ()

/-! ## Vocabulary of the strings -/

/-- The word with the bit `i` set exactly where the character `i` of the string is the
symbol `ch`. -/
def symbolMask (ch : Char) : List Char → Nat
  | [] => 0
  | c :: s => (if c = ch then 1 else 0) + 2 * symbolMask ch s

/-! ## Complex numbers and the packed transformation matrices -/

/-- A `complex<double>` in exact arithmetic over the field `K` of the real numbers: real
and imaginary part. -/
structure Cplx (K : Type) where
  re : K
  im : K

namespace Cplx

/-- Sum of two complex numbers. -/
def add {K : Type} [Field K] (a b : Cplx K) : Cplx K := ⟨a.re + b.re, a.im + b.im⟩

/-- Difference of two complex numbers. -/
def sub {K : Type} [Field K] (a b : Cplx K) : Cplx K := ⟨a.re - b.re, a.im - b.im⟩

/-- Product of two complex numbers. -/
def mul {K : Type} [Field K] (a b : Cplx K) : Cplx K :=
  ⟨a.re * b.re - a.im * b.im, a.re * b.im + a.im * b.re⟩

/-- Product of a complex number with a `double`. -/
def scale {K : Type} [Field K] (a : Cplx K) (x : K) : Cplx K := ⟨a.re * x, a.im * x⟩

/-- Quotient of a complex number by a `double`. -/
def divide {K : Type} [Field K] (a : Cplx K) (x : K) : Cplx K := ⟨a.re / x, a.im / x⟩

/-- Library `conj`. -/
def conj {K : Type} [Field K] (a : Cplx K) : Cplx K := ⟨a.re, -a.im⟩

/-- Library `norm`: the squared modulus. -/
def norm {K : Type} [Field K] (a : Cplx K) : K := a.re * a.re + a.im * a.im

end Cplx

/-- Loop body of "Encode transformation matrix elements into unitary storage" of `main`,
for the row `i` and the column `j`: the element is stored in `Unitary` as one real number
and `qNonZero` is adapted "for testing purposes". -/
def EncodeStep {K : Type} [Field K] (PrimNum OffsetM : Nat) (MirrorImage : Nat → Nat)
    (i j : Nat) (s : (Nat → K) × (Nat → Cplx K)) : (Nat → K) × (Nat → Cplx K) :=
  let Unitary := s.1
  let qNonZero := s.2
  if j = MirrorImage j then
    let Unitary := Function.update Unitary (OffsetM + Element PrimNum i j)
      (qNonZero (Element PrimNum i j)).re
    (Unitary, Function.update qNonZero (Element PrimNum i j)
      ⟨Unitary (OffsetM + Element PrimNum i j), 0⟩)
  else if j < MirrorImage j then
    (Function.update Unitary (OffsetM + Element PrimNum i j)
      (1 / 2 * ((qNonZero (Element PrimNum i j)).re +
        (qNonZero (Element PrimNum i (MirrorImage j))).re)), qNonZero)
  else
    let Unitary := Function.update Unitary (OffsetM + Element PrimNum i j)
      (1 / 2 * ((qNonZero (Element PrimNum i j)).im -
        (qNonZero (Element PrimNum i (MirrorImage j))).im))
    let qNonZero := Function.update qNonZero (Element PrimNum i j)
      ⟨Unitary (OffsetM + Element PrimNum i (MirrorImage j)),
        Unitary (OffsetM + Element PrimNum i j)⟩
    (Unitary, Function.update qNonZero (Element PrimNum i (MirrorImage j))
      (Cplx.conj (qNonZero (Element PrimNum i j))))

/-- Loops "Encode transformation matrix elements into unitary storage" of `main` on the
arrays `Unitary` and `qNonZero`. -/
def EncodeUnitary {K : Type} [Field K] (PrimNum OffsetM : Nat) (MirrorImage : Nat → Nat)
    (s : (Nat → K) × (Nat → Cplx K)) : (Nat → K) × (Nat → Cplx K) :=
  (List.range PrimNum).foldl
    (fun s i => (List.range PrimNum).foldl
      (fun s j => EncodeStep PrimNum OffsetM MirrorImage i j s) s)
    s

/-- The value "Project initial state on eigenstates - nonzero momentum" of `main` stores
in `InitialNonZeroVec[OffsetV + i]`: the prefactor `AuxC` times the element `(i, State)`
of the transformation matrix, extracted from `Unitary`. -/
def InitialEntry {K : Type} [Field K] (PrimNum OffsetM : Nat) (MirrorImage : Nat → Nat)
    (Unitary : Nat → K) (State : Nat) (AuxC : Cplx K) (i : Nat) : Cplx K :=
  if State = MirrorImage State then
    Cplx.scale AuxC (Unitary (OffsetM + Element PrimNum i State))
  else if State < MirrorImage State then
    Cplx.mul AuxC ⟨Unitary (OffsetM + Element PrimNum i State),
      -Unitary (OffsetM + Element PrimNum i (MirrorImage State))⟩
  else
    Cplx.mul AuxC ⟨Unitary (OffsetM + Element PrimNum i (MirrorImage State)),
      Unitary (OffsetM + Element PrimNum i State)⟩

/-- The value `AuxC` that "Projection on final momentum states - nonzero momentum" of
`main` adds to `FinalNonZeroVec[OffsetV + i]` in the pass `j`: the value `AuxC` before
the extraction times the element `(j, i)` extracted from `Unitary`. -/
def FinalEntry {K : Type} [Field K] (PrimNum OffsetM : Nat) (MirrorImage : Nat → Nat)
    (Unitary : Nat → K) (AuxC : Cplx K) (j i : Nat) : Cplx K :=
  if i = MirrorImage i then
    Cplx.scale AuxC (Unitary (OffsetM + Element PrimNum j i))
  else if i < MirrorImage i then
    Cplx.mul AuxC ⟨Unitary (OffsetM + Element PrimNum j i),
      Unitary (OffsetM + Element PrimNum j (MirrorImage i))⟩
  else
    Cplx.mul AuxC ⟨Unitary (OffsetM + Element PrimNum j (MirrorImage i)),
      -Unitary (OffsetM + Element PrimNum j i)⟩

/-! ## The QR routines -/

/-- The constant `MaxIter` of `QRSymm` and `QRHerm`. -/
def MaxIter : Nat := 30

/-- How a QR routine ends: it returns, or it ends the program with the message "No
convergence"; in both cases with the values its variables have then. -/
inductive QREnd (σ : Type) where
  | Return : σ → QREnd σ
  | NoConvergence : σ → QREnd σ

/-- The values of a convergence test of the QR routines. -/
structure QRTest (K : Type) where
  SuperDiagNorm1 : K
  Ratio : K
  Flag : Bool

/-- The arrays of `QRSymm`, and the number of progress dots "." it has written to
`cerr`, one at the end of every sweep. -/
structure QRSymmState (K : Type) where
  Matr : Nat → K
  Diag : Nat → K
  ExDiag : Nat → K
  Dots : Nat

/-- The convergence test of `QRSymm` for the index `i`. -/
def QRSymmTest {K : Type} [LinearOrderedField K] (ExDiag : Nat → K) (i : Nat) : QRTest K :=
  let SuperDiagNorm1 := |ExDiag i|
  let SuperDiagNorm2 := |ExDiag (i - 1)|
  let Ratio := 1 / (SuperDiagNorm1 + SuperDiagNorm2 + Accu K)
  if SuperDiagNorm1 < SuperDiagNorm2 then ⟨SuperDiagNorm1, Ratio * SuperDiagNorm1, true⟩
  else ⟨SuperDiagNorm1, Ratio * SuperDiagNorm2, false⟩

/-- The explicit shift of a sweep of the QR routines; `Norm` is
`SuperDiagNorm1 * SuperDiagNorm1` in `QRSymm` and `SuperDiagNorm1` in `QRHerm`. -/
def QRShift {K : Type} [LinearOrderedField K] (sqrt : K → K) (Diag : Nat → K) (i : Nat)
    (Norm : K) : K :=
  let Aux := 1 / 2 * (Diag i - Diag (i - 1))
  let Shift := 1 / 2 * (Diag i + Diag (i - 1))
  let SquareRoot := sqrt (Aux * Aux + Norm)
  if Aux > 0 then Shift + SquareRoot else Shift - SquareRoot

/-- The loop "Shift all diagonal elements" of the QR routines. -/
def QRShiftDiag {K : Type} [Field K] (i : Nat) (Shift : K) (Diag : Nat → K) : Nat → K :=
  (List.range (i + 1)).foldl
    (fun (D : Nat → K) (j : Nat) => Function.update D j (D j - Shift)) Diag

/-- The loop "Shift all diagonal elements back" of the QR routines. -/
def QRShiftBack {K : Type} [Field K] (i : Nat) (Shift : K) (Diag : Nat → K) : Nat → K :=
  (List.range (i + 1)).foldl
    (fun (D : Nat → K) (j : Nat) => Function.update D j (D j + Shift)) Diag

/-- The variables of the loop "Sequence of Givens rotations to annihilate lower
subdiagonal" of `QRSymm`. -/
structure GivensSymm (K : Type) where
  Diag : Nat → K
  Cosine : Nat → K
  Sine : Nat → K
  OffDiag : Nat → K
  OldCos : K

/-- One pass of the loop "Sequence of Givens rotations to annihilate lower subdiagonal"
of `QRSymm`. -/
def QRSymmGivens {K : Type} [LinearOrderedField K] (sqrt : K → K) (ExDiag : Nat → K) (j : Nat)
    (g : GivensSymm K) : GivensSymm K :=
  if ExDiag (j + 1) * ExDiag (j + 1) > 0 then
    let Aux := 1 / sqrt (ExDiag (j + 1) * ExDiag (j + 1) + g.Diag j * g.Diag j)
    let Cosine := Function.update g.Cosine j (g.Diag j * Aux)
    let Sine := Function.update g.Sine j (ExDiag (j + 1) * Aux)
    let OffDiag := Function.update g.OffDiag j
      (Cosine j * g.OldCos * ExDiag (j + 1) + Sine j * g.Diag (j + 1))
    let Diag := Function.update g.Diag j (Cosine j * g.Diag j + Sine j * ExDiag (j + 1))
    let Diag := Function.update Diag (j + 1)
      (Cosine j * Diag (j + 1) - Sine j * g.OldCos * ExDiag (j + 1))
    ⟨Diag, Cosine, Sine, OffDiag, Cosine j⟩
  else
    ⟨g.Diag, Function.update g.Cosine j 1, Function.update g.Sine j 0,
      Function.update g.OffDiag j 0, 1⟩

/-- The loop "Perform rotation in unitary transformation matrix" of `QRSymm` on the rows
`j` and `j + 1`.  In the pass `k` the two pointers of the source (`Ptr` and `pPtr` in a
sweep, `mPtr` and `Ptr` in the Jacobi rotation) stand at `Element(j, k)` and
`Element(j + 1, k)`. -/
def QRSymmRows {K : Type} [Field K] (n j : Nat) (c s : K) (Matr : Nat → K) : Nat → K :=
  (List.range n).foldl
    (fun (M : Nat → K) (k : Nat) =>
      let Aux := c * M (Element n (j + 1) k) - s * M (Element n j k)
      let M := Function.update M (Element n j k)
        (c * M (Element n j k) + s * M (Element n (j + 1) k))
      Function.update M (Element n (j + 1) k) Aux)
    Matr

/-- One pass of the loop "Sequence of conjugate Givens rotations to complete orthogonal
transform" of `QRSymm`. -/
def QRSymmRotate {K : Type} [Field K] ( EigenvaluesOnly : Bool) (n : Nat)
    (Cosine Sine OffDiag : Nat → K) (j : Nat) (s : QRSymmState K) : QRSymmState K :=
  let Diag := Function.update s.Diag j (Cosine j * s.Diag j + Sine j * OffDiag j)
  let ExDiag := Function.update s.ExDiag (j + 1) (Sine j * Diag (j + 1))
  let Diag := Function.update Diag (j + 1) (Diag (j + 1) * Cosine j)
  let Matr := if EigenvaluesOnly = false then QRSymmRows n j (Cosine j) (Sine j) s.Matr
    else s.Matr
  ⟨Matr, Diag, ExDiag, s.Dots⟩

/-- One sweep of `QRSymm` for the index `i`, from the guess for the shift to the shift
back; the arrays `Cosine`, `Sine`, `OffDiag` are written before they are read, and start
here with zeros. -/
def QRSymmSweep {K : Type} [LinearOrderedField K] (sqrt : K → K) ( EigenvaluesOnly : Bool)
    (n i : Nat) (SuperDiagNorm1 : K) (s : QRSymmState K) : QRSymmState K :=
  let Shift := QRShift sqrt s.Diag i (SuperDiagNorm1 * SuperDiagNorm1)
  let Diag := QRShiftDiag i Shift s.Diag
  let g := (List.range i).foldl (fun g j => QRSymmGivens sqrt s.ExDiag j g)
    (⟨Diag, fun _ => 0, fun _ => 0, fun _ => 0, 1⟩ : GivensSymm K)
  let s := (List.range i).foldl
    (fun s j => QRSymmRotate EigenvaluesOnly n g.Cosine g.Sine g.OffDiag j s)
    (⟨s.Matr, g.Diag, s.ExDiag, s.Dots⟩ : QRSymmState K)
  ⟨s.Matr, QRShiftBack i Shift s.Diag, s.ExDiag, s.Dots⟩

/-- The inner `while` loop of `QRSymm` for the index `i`: `Count` sweeps are done, `t` is
the last convergence test; `none` when the fuel is used up. -/
def QRSymmInner {K : Type} [LinearOrderedField K] (sqrt : K → K) ( EigenvaluesOnly : Bool)
    (n i : Nat) : Nat → Nat → QRTest K → QRSymmState K →
    Option (QREnd (QRTest K × QRSymmState K))
  | 0, _, _, _ => none
  | fuel + 1, Count, t, s =>
    if i > 1 ∧ t.Ratio > Accu K then
      let Count := Count + 1
      if Count > MaxIter then some (.NoConvergence (t, s))
      else
        let s := QRSymmSweep sqrt EigenvaluesOnly n i t.SuperDiagNorm1 s
        QRSymmInner sqrt EigenvaluesOnly n i fuel Count (QRSymmTest s.ExDiag i)
          ⟨s.Matr, s.Diag, s.ExDiag, s.Dots + 1⟩
    else some (.Return (t, s))

/-- The end of a stage of `QRSymm` that splits off a 2 x 2 matrix: the Jacobi rotation of
`QRSymmSplit`, if required, in `Diag` and in the rows `i - 1` and `i` of the
transformation matrix. -/
def QRSymmJacobi {K : Type} [LinearOrderedField K] (sqrt : K → K) ( EigenvaluesOnly : Bool)
    (n i : Nat) (s : QRSymmState K) : QRSymmState K :=
  match QRSymmSplit sqrt (s.Diag (i - 1)) (s.Diag i) (s.ExDiag i) with
  | none => s
  | some v =>
    let Diag := Function.update s.Diag (i - 1) v.Diag1
    let Diag := Function.update Diag i v.Diag2
    let Matr := if EigenvaluesOnly = false then QRSymmRows n (i - 1) v.c v.s s.Matr
      else s.Matr
    ⟨Matr, Diag, s.ExDiag, s.Dots⟩

/-- The outer `while` loop of `QRSymm`; the inner loop gets the fuel `F`. -/
def QRSymmOuter {K : Type} [LinearOrderedField K] (sqrt : K → K) ( EigenvaluesOnly : Bool)
    (n F : Nat) : Nat → Int → QRSymmState K → Option (QREnd (QRSymmState K))
  | 0, _, _ => none
  | fuel + 1, i, s =>
    if i > 0 then
      match QRSymmInner sqrt EigenvaluesOnly n i.toNat F 0 (QRSymmTest s.ExDiag i.toNat) s with
      | none => none
      | some (.NoConvergence r) => some (.NoConvergence r.2)
      | some (.Return r) =>
        if r.1.Flag = true then QRSymmOuter sqrt EigenvaluesOnly n F fuel (i - 1) r.2
        else QRSymmOuter sqrt EigenvaluesOnly n F fuel (i - 2)
          (QRSymmJacobi sqrt EigenvaluesOnly n i.toNat r.2)
    else some (.Return s)

/-- Source `QRSymm` for `MatrixDim = n`, in exact arithmetic over an ordered field with
`sqrt` the square root of the library, run with the given fuel for each of its two
`while` loops. -/
def QRSymm {K : Type} [LinearOrderedField K] (sqrt : K → K) ( EigenvaluesOnly : Bool)
    (n fuel : Nat) (s : QRSymmState K) : Option (QREnd (QRSymmState K)) :=
  QRSymmOuter sqrt EigenvaluesOnly n fuel fuel ((n : Int) - 1)
    ⟨s.Matr, s.Diag, Function.update s.ExDiag 0 0, s.Dots⟩

/-- The arrays of `QRHerm`, and the number of progress dots "." it has written to
`cerr`, one at the end of every sweep. -/
structure QRHermState (K : Type) where
  Matr : Nat → Cplx K
  Diag : Nat → K
  SupDiag : Nat → Cplx K
  Dots : Nat

/-- The convergence test of `QRHerm` for the index `i`. -/
def QRHermTest {K : Type} [LinearOrderedField K] (SupDiag : Nat → Cplx K) (i : Nat) :
    QRTest K :=
  let SuperDiagNorm1 := Cplx.norm (SupDiag i)
  let SuperDiagNorm2 := Cplx.norm (SupDiag (i - 1))
  let Ratio := 1 / (SuperDiagNorm1 + SuperDiagNorm2 + Accu K * Accu K)
  if SuperDiagNorm1 < SuperDiagNorm2 then ⟨SuperDiagNorm1, Ratio * SuperDiagNorm1, true⟩
  else ⟨SuperDiagNorm1, Ratio * SuperDiagNorm2, false⟩

/-- The variables of the loop "Sequence of Givens rotations to annihilate lower
subdiagonal" of `QRHerm`. -/
structure GivensHerm (K : Type) where
  Diag : Nat → K
  SupDiag : Nat → Cplx K
  Cosine : Nat → K
  Sine : Nat → K
  OffDiag : Nat → K
  OldCos : K

/-- One pass of the loop "Sequence of Givens rotations to annihilate lower subdiagonal"
of `QRHerm`. -/
def QRHermGivens {K : Type} [LinearOrderedField K] (sqrt : K → K) (j : Nat)
    (g : GivensHerm K) : GivensHerm K :=
  let SuperDiagNorm := sqrt (Cplx.norm (g.SupDiag (j + 1)))
  if SuperDiagNorm > Accu K * |g.Diag j| then
    let Aux := 1 / sqrt (SuperDiagNorm * SuperDiagNorm + g.Diag j * g.Diag j)
    let Cosine := Function.update g.Cosine j (g.Diag j * Aux)
    let Sine := Function.update g.Sine j (SuperDiagNorm * Aux)
    let OffDiag := Function.update g.OffDiag j
      (Cosine j * g.OldCos * SuperDiagNorm + Sine j * g.Diag (j + 1))
    let SupDiag := Function.update g.SupDiag (j + 1) (Cplx.scale (g.SupDiag (j + 1)) Aux)
    let Diag := Function.update g.Diag j (Cosine j * g.Diag j + Sine j * SuperDiagNorm)
    let Diag := Function.update Diag (j + 1)
      (Cosine j * Diag (j + 1) - Sine j * g.OldCos * SuperDiagNorm)
    ⟨Diag, SupDiag, Cosine, Sine, OffDiag, Cosine j⟩
  else
    ⟨g.Diag, Function.update g.SupDiag (j + 1) ⟨0, 0⟩, Function.update g.Cosine j 1,
      Function.update g.Sine j 0, Function.update g.OffDiag j 0, 1⟩

/-- The loop "Perform rotation in unitary transformation matrix" of `QRHerm` on the rows
`j` and `j + 1`, with the real `c` and the complex `z` (`Cosine[j]` and `SupDiag[j+1]` in
a sweep, `c` and `AuxC1` in the Jacobi rotation).  In the pass `k` the two pointers of
the source stand at `Element(j, k)` and `Element(j + 1, k)`. -/
def QRHermRows {K : Type} [Field K] (n j : Nat) (c : K) (z : Cplx K) (Matr : Nat → Cplx K) :
    Nat → Cplx K :=
  (List.range n).foldl
    (fun (M : Nat → Cplx K) (k : Nat) =>
      let AuxC2 := Cplx.sub (Cplx.scale (M (Element n (j + 1) k)) c)
        (Cplx.mul (Cplx.conj z) (M (Element n j k)))
      let M := Function.update M (Element n j k)
        (Cplx.add (Cplx.scale (M (Element n j k)) c) (Cplx.mul z (M (Element n (j + 1) k))))
      Function.update M (Element n (j + 1) k) AuxC2)
    Matr

/-- One pass of the loop "Sequence of conjugate Givens rotations to complete unitary
transform" of `QRHerm`. -/
def QRHermRotate {K : Type} [Field K] ( EigenvaluesOnly : Bool) (n : Nat)
    (Cosine Sine OffDiag : Nat → K) (j : Nat) (s : QRHermState K) : QRHermState K :=
  let Matr := if EigenvaluesOnly = false then
      QRHermRows n j (Cosine j) (s.SupDiag (j + 1)) s.Matr
    else s.Matr
  let Diag := Function.update s.Diag j (Cosine j * s.Diag j + Sine j * OffDiag j)
  let SupDiag := Function.update s.SupDiag (j + 1)
    (Cplx.scale (s.SupDiag (j + 1)) (Diag (j + 1)))
  let Diag := Function.update Diag (j + 1) (Diag (j + 1) * Cosine j)
  ⟨Matr, Diag, SupDiag, s.Dots⟩

/-- One sweep of `QRHerm` for the index `i`, from the guess for the shift to the shift
back; the arrays `Cosine`, `Sine`, `OffDiag` are written before they are read, and start
here with zeros. -/
def QRHermSweep {K : Type} [LinearOrderedField K] (sqrt : K → K) ( EigenvaluesOnly : Bool)
    (n i : Nat) (SuperDiagNorm1 : K) (s : QRHermState K) : QRHermState K :=
  let Shift := QRShift sqrt s.Diag i SuperDiagNorm1
  let Diag := QRShiftDiag i Shift s.Diag
  let g := (List.range i).foldl (fun g j => QRHermGivens sqrt j g)
    (⟨Diag, s.SupDiag, fun _ => 0, fun _ => 0, fun _ => 0, 1⟩ : GivensHerm K)
  let s := (List.range i).foldl
    (fun s j => QRHermRotate EigenvaluesOnly n g.Cosine g.Sine g.OffDiag j s)
    (⟨s.Matr, g.Diag, g.SupDiag, s.Dots⟩ : QRHermState K)
  ⟨s.Matr, QRShiftBack i Shift s.Diag, s.SupDiag, s.Dots⟩

/-- The inner `while` loop of `QRHerm` for the index `i`: `Count` sweeps are done, `t` is
the last convergence test; `none` when the fuel is used up. -/
def QRHermInner {K : Type} [LinearOrderedField K] (sqrt : K → K) ( EigenvaluesOnly : Bool)
    (n i : Nat) : Nat → Nat → QRTest K → QRHermState K →
    Option (QREnd (QRTest K × QRHermState K))
  | 0, _, _, _ => none
  | fuel + 1, Count, t, s =>
    if i > 1 ∧ t.Ratio > Accu K * Accu K then
      let Count := Count + 1
      if Count > MaxIter then some (.NoConvergence (t, s))
      else
        let s := QRHermSweep sqrt EigenvaluesOnly n i t.SuperDiagNorm1 s
        QRHermInner sqrt EigenvaluesOnly n i fuel Count (QRHermTest s.SupDiag i)
          ⟨s.Matr, s.Diag, s.SupDiag, s.Dots + 1⟩
    else some (.Return (t, s))

/-- The end of a stage of `QRHerm` that splits off a 2 x 2 matrix: the Jacobi rotation of
`QRHermSplit`, if required, in `Diag` and, with the phase `ph = SupDiag[i] / Aux`, in the
rows `i - 1` and `i` of the transformation matrix. -/
def QRHermJacobi {K : Type} [LinearOrderedField K] (sqrt : K → K) ( EigenvaluesOnly : Bool)
    (n i : Nat) (s : QRHermState K) : QRHermState K :=
  match QRHermSplit sqrt (s.Diag (i - 1)) (s.Diag i) (s.SupDiag i).re (s.SupDiag i).im with
  | none => s
  | some v =>
    let Aux := sqrt (Cplx.norm (s.SupDiag i))
    let ph := Cplx.divide (s.SupDiag i) Aux
    let Diag := Function.update s.Diag (i - 1) v.Diag1
    let Diag := Function.update Diag i v.Diag2
    let Matr := if EigenvaluesOnly = false then
        QRHermRows n (i - 1) v.c (Cplx.scale ph v.s) s.Matr
      else s.Matr
    ⟨Matr, Diag, s.SupDiag, s.Dots⟩

/-- The outer `while` loop of `QRHerm`; the inner loop gets the fuel `F`. -/
def QRHermOuter {K : Type} [LinearOrderedField K] (sqrt : K → K) ( EigenvaluesOnly : Bool)
    (n F : Nat) : Nat → Int → QRHermState K → Option (QREnd (QRHermState K))
  | 0, _, _ => none
  | fuel + 1, i, s =>
    if i > 0 then
      match QRHermInner sqrt EigenvaluesOnly n i.toNat F 0 (QRHermTest s.SupDiag i.toNat) s with
      | none => none
      | some (.NoConvergence r) => some (.NoConvergence r.2)
      | some (.Return r) =>
        if r.1.Flag = true then QRHermOuter sqrt EigenvaluesOnly n F fuel (i - 1) r.2
        else QRHermOuter sqrt EigenvaluesOnly n F fuel (i - 2)
          (QRHermJacobi sqrt EigenvaluesOnly n i.toNat r.2)
    else some (.Return s)

/-- Source `QRHerm` for `MatrixDim = n`, in exact arithmetic over an ordered field with
`sqrt` the square root of the library, run with the given fuel for each of its two
`while` loops. -/
def QRHerm {K : Type} [LinearOrderedField K] (sqrt : K → K) ( EigenvaluesOnly : Bool)
    (n fuel : Nat) (s : QRHermState K) : Option (QREnd (QRHermState K)) :=
  QRHermOuter sqrt EigenvaluesOnly n fuel fuel ((n : Int) - 1)
    ⟨s.Matr, s.Diag, Function.update s.SupDiag 0 ⟨0, 0⟩, s.Dots⟩

/-! ## The evolution of the initial state -/

/-- The constant `Pi = 4.0 * atan(1.0)` of the source, `atan` being the function of the
library. -/
def Pi {K : Type} [Field K] (atan : K → K) : K := 4 * atan 1

/-- Loop "Calculate complex roots of unity" of `main`:
`UnityRoot[i] = polar(1.0, 2.0 * i * Pi / p)` for `i = 0..p`, with `cos` and `sin` the
functions of the library. -/
def UnityRoots {K : Type} [Field K] (cos sin : K → K) (Pi : K) (p : Nat) : Nat → Cplx K :=
  (List.range (p + 1)).foldl
    (fun (U : Nat → Cplx K) (i : Nat) =>
      Function.update U i ⟨cos (2 * (i : K) * Pi / (p : K)), sin (2 * (i : K) * Pi / (p : K))⟩)
    (fun _ => ⟨0, 0⟩)

/-- The variables of `main` that the evolution of the initial state reads. -/
structure Setup (K : Type) where
  p : Nat
  PrimNum : Nat
  State : Nat
  Shift : Nat
  MirrorImage : Nat → Nat
  Unitary : Nat → K
  EqEV : Nat → K
  Diag : Nat → K
  UnityRoot : Nat → Cplx K

/-- Loop "Project initial state on eigenstates - zero momentum" of `main`; the array is
written before it is read and starts here with zeros, as the arrays below. -/
def InitialZeroVec {K : Type} [Field K] (sqrt : K → K) (g : Setup K) : Nat → K :=
  let Aux := 1 / sqrt ((g.p : K) * g.EqEV g.State)
  (List.range g.PrimNum).foldl
    (fun (V : Nat → K) (i : Nat) =>
      Function.update V i (Aux * g.Unitary (Element g.PrimNum i g.State)))
    (fun _ => 0)

/-- Loops "Project initial state on eigenstates - nonzero momentum" of `main`. -/
def InitialNonZeroVec {K : Type} [Field K] (sqrt : K → K) (g : Setup K) : Nat → Cplx K :=
  (List.range' 1 ((g.p - 1) / 2)).foldl
    (fun (V : Nat → Cplx K) (q : Nat) =>
      let OffsetV := (q - 1) * g.PrimNum
      let OffsetM := q * g.PrimNum * g.PrimNum
      let AuxC := Cplx.divide (g.UnityRoot (g.p - (g.Shift * q) % g.p))
        (sqrt ((g.p : K) * g.EqEV g.State))
      (List.range g.PrimNum).foldl
        (fun (V : Nat → Cplx K) (i : Nat) =>
          Function.update V (OffsetV + i)
            (InitialEntry g.PrimNum OffsetM g.MirrorImage g.Unitary g.State AuxC i))
        V)
    (fun _ => ⟨0, 0⟩)

/-- Loop "Weigh eigenstates by individual decay rates - zero momentum" of `main` at the
time `Time`, with `exp` the function of the library. -/
def IntermediateZeroVec {K : Type} [Field K] (exp : K → K) (g : Setup K)
    (ShowDeviation : Bool) (EqEVIndex : Nat) (Time : K) (InitialZeroVec : Nat → K) :
    Nat → K :=
  (List.range g.PrimNum).foldl
    (fun (V : Nat → K) (i : Nat) =>
      Function.update V i
        (if i = EqEVIndex then
          (if ShowDeviation = true then 0 else InitialZeroVec i)
        else exp (g.Diag i * Time) * InitialZeroVec i))
    (fun _ => 0)

/-- Loops "Weigh eigenstates by individual decay rates - nonzero momentum" of `main`. -/
def IntermediateNonZeroVec {K : Type} [Field K] (exp : K → K) (g : Setup K) (Time : K)
    (InitialNonZeroVec : Nat → Cplx K) : Nat → Cplx K :=
  (List.range' 1 ((g.p - 1) / 2)).foldl
    (fun (V : Nat → Cplx K) (q : Nat) =>
      let OffsetV := (q - 1) * g.PrimNum
      (List.range g.PrimNum).foldl
        (fun (V : Nat → Cplx K) (i : Nat) =>
          Function.update V (OffsetV + i)
            (Cplx.scale (InitialNonZeroVec (OffsetV + i))
              (exp (g.Diag (OffsetV + g.PrimNum + i) * Time))))
        V)
    (fun _ => ⟨0, 0⟩)

/-- Loops "Projection on final momentum states - zero momentum" of `main`. -/
def FinalZeroVec {K : Type} [Field K] (sqrt : K → K) (g : Setup K)
    (IntermediateZeroVec : Nat → K) : Nat → K :=
  (List.range g.PrimNum).foldl
    (fun (V : Nat → K) (i : Nat) =>
      (List.range g.PrimNum).foldl
        (fun (V : Nat → K) (j : Nat) =>
          Function.update V i
            (V i + sqrt (g.EqEV i / (g.p : K)) * g.Unitary (Element g.PrimNum j i) *
              IntermediateZeroVec j))
        (Function.update V i 0))
    (fun _ => 0)

/-- Loops "Projection on final momentum states - nonzero momentum" of `main`. -/
def FinalNonZeroVec {K : Type} [Field K] (sqrt : K → K) (g : Setup K)
    (IntermediateNonZeroVec : Nat → Cplx K) : Nat → Cplx K :=
  (List.range' 1 ((g.p - 1) / 2)).foldl
    (fun (V : Nat → Cplx K) (q : Nat) =>
      let OffsetV := (q - 1) * g.PrimNum
      let OffsetM := q * g.PrimNum * g.PrimNum
      (List.range g.PrimNum).foldl
        (fun (V : Nat → Cplx K) (i : Nat) =>
          (List.range g.PrimNum).foldl
            (fun (V : Nat → Cplx K) (j : Nat) =>
              let AuxC := Cplx.scale (IntermediateNonZeroVec (OffsetV + j))
                (sqrt (g.EqEV i / (g.p : K)))
              Function.update V (OffsetV + i)
                (Cplx.add (V (OffsetV + i))
                  (FinalEntry g.PrimNum OffsetM g.MirrorImage g.Unitary AuxC j i)))
            (Function.update V (OffsetV + i) ⟨0, 0⟩))
        V)
    (fun _ => ⟨0, 0⟩)

/-- Loops "Translation into physical result vector" of `main`. -/
def ResultVec {K : Type} [Field K] (g : Setup K) (FinalZeroVec : Nat → K)
    (FinalNonZeroVec : Nat → Cplx K) : Nat → K :=
  (List.range g.PrimNum).foldl
    (fun (R : Nat → K) (i : Nat) =>
      (List.range g.p).foldl
        (fun (R : Nat → K) (nu : Nat) =>
          (List.range' 1 ((g.p - 1) / 2)).foldl
            (fun (R : Nat → K) (q : Nat) =>
              Function.update R (nu * g.PrimNum + i)
                (R (nu * g.PrimNum + i) +
                  2 * (Cplx.mul (g.UnityRoot ((q * nu) % g.p))
                    (FinalNonZeroVec ((q - 1) * g.PrimNum + i))).re))
            (Function.update R (nu * g.PrimNum + i) (FinalZeroVec i)))
        R)
    (fun _ => 0)

/-- The result vector of one pass of the loop "Temporal evolution" of `main`, at the time
`Time`. -/
def Evolution {K : Type} [Field K] (sqrt exp : K → K) (g : Setup K) (ShowDeviation : Bool)
    (EqEVIndex : Nat) (Time : K) : Nat → K :=
  ResultVec g
    (FinalZeroVec sqrt g
      (IntermediateZeroVec exp g ShowDeviation EqEVIndex Time (InitialZeroVec sqrt g)))
    (FinalNonZeroVec sqrt g (IntermediateNonZeroVec exp g Time (InitialNonZeroVec sqrt g)))

/-- Loops "Loop over primitive patterns", "Loop over all possible rotations" of the
averages of `main` for one comparison pattern: the sum `Aux` and the counter. -/
def AverageSum {K : Type} [Field K] (PrimNum p : Nat) (DoesMatch : Nat → Bool)
    (ResultVec : Nat → K) (Counter : Nat) : K × Nat :=
  (List.range PrimNum).foldl
    (fun (s : K × Nat) (j : Nat) =>
      (List.range p).foldl
        (fun (s : K × Nat) (nu : Nat) =>
          (s.1 + (if DoesMatch s.2 = true then 1 else 0) * ResultVec (nu * PrimNum + j),
            s.2 + 1))
        s)
    (0, Counter)

/-- Loop "Loop over comparison patterns" of `main`: the averages written to the data
file, in their order, and the counter. -/
def Averages {K : Type} [LinearOrderedField K] (PrimNum p AveragePatternNumber : Nat)
    (ShowDeviation : Bool) (DoesMatch : Nat → Bool) (ResultVec : Nat → K) : List K × Nat :=
  (List.range AveragePatternNumber).foldl
    (fun (s : List K × Nat) (_ : Nat) =>
      let r := AverageSum PrimNum p DoesMatch ResultVec s.2
      let Aux := if ShowDeviation = false then (if r.1 < 0 then 0 else r.1) else r.1
      (s.1 ++ [Aux], r.2))
    ([], 0)

/-- Loop "Create one-atom averaging patterns" of `main`: the pattern for the site `i`. -/
def OneAtomPattern (p i : Nat) : List Char :=
  List.replicate i 'x' ++ List.replicate 1 'o' ++ List.replicate (p - i - 1) 'x'

/-- The innermost loop of "Assign flags" of `main` for one comparison pattern and one
primitive pattern: `m` rotations are left; the flags, the pattern `Primitive[j]` and the
counter. -/
def AssignFlagsShifts (p : Nat) (Comparison : List Char) :
    Nat → (Nat → Bool) × Nat × Nat → Except String ((Nat → Bool) × Nat × Nat)
  | 0, s => .ok s
  | m + 1, s =>
    match Pattern.Match p s.2.1 Comparison with
    | .error e => .error e
    | .ok b =>
      AssignFlagsShifts p Comparison m
        (Function.update s.1 s.2.2 b, Pattern.rotateUp p s.2.1, s.2.2 + 1)

/-- The loop over the primitive patterns of "Assign flags" of `main` for one comparison
pattern: `m` primitive patterns are left, from `j` on; the flags, the array `Primitive`
and the counter. -/
def AssignFlagsPrims (p : Nat) (Comparison : List Char) :
    Nat → Nat → (Nat → Bool) × (Nat → Nat) × Nat →
    Except String ((Nat → Bool) × (Nat → Nat) × Nat)
  | 0, _, s => .ok s
  | m + 1, j, s =>
    match AssignFlagsShifts p Comparison p (s.1, s.2.1 j, s.2.2) with
    | .error e => .error e
    | .ok r =>
      AssignFlagsPrims p Comparison m (j + 1) (r.1, Function.update s.2.1 j r.2.1, r.2.2)

/-- Loops "Assign flags" of `main`: the flags `DoesMatch`, the array `Primitive` and the
counter after the comparison patterns of the list. -/
def AssignFlags (p PrimNum : Nat) :
    List (List Char) → (Nat → Bool) × (Nat → Nat) × Nat →
    Except String ((Nat → Bool) × (Nat → Nat) × Nat)
  | [], s => .ok s
  | Comparison :: AveragePattern, s =>
    match AssignFlagsPrims p Comparison PrimNum 0 s with
    | .error e => .error e
    | .ok r => AssignFlags p PrimNum AveragePattern r

/-! ## Vocabulary of the evolution -/

/-- A complex number of the model as a complex number of the library. -/
def Cplx.toComplex (a : Cplx ℝ) : ℂ := ⟨a.re, a.im⟩

/-- The transformation matrix of the momentum `q`, with `OffsetM = q PrimNum^2`, as the
initial projection extracts its elements from `Unitary`: the element `(i, j)` is the
factor of `AuxC` in `InitialEntry` for the state `j`. -/
def storedTransform {K : Type} [Field K] (PrimNum OffsetM : Nat) (MirrorImage : Nat → Nat)
    (Unitary : Nat → K) : Matrix (Fin PrimNum) (Fin PrimNum) (Cplx K) :=
  Matrix.of fun (i j : Fin PrimNum) =>
    InitialEntry PrimNum OffsetM MirrorImage Unitary j ⟨1, 0⟩ i

/-! ## Modulo division, multiplicities and the matrices of the momenta `q != 0` -/

/-- The value a `long` of 32 bits holds after an operation with the exact result `x`:
the number in `-2^31 .. 2^31 - 1` that differs from `x` by a multiple of `2^32`. -/
def toLong (x : Int) : Int := (x + 2147483648) % 4294967296 - 2147483648

/-- The `while` loop of `ModuloDiv` on its variables `Result` and `Aux`, both `long`:
the sum `Aux + Denominator` and the count `++Result` are taken in 32 bits, and `%` is the
remainder of C++, which has the sign of the dividend; `fuel` bounds the number of tests
of the loop. -/
def ModuloDivLoop (p Numerator Denominator : Int) : Nat → Int → Int → Option Int
  | 0, _, _ => none
  | fuel + 1, Result, Aux =>
    if Aux ≠ Numerator then
      ModuloDivLoop p Numerator Denominator fuel (toLong (Result + 1))
        ((toLong (Aux + Denominator)).tmod p)
    else some Result

/-- Source `ModuloDiv(Numerator, Denominator)`, with the global number `p` of sites. -/
def ModuloDiv (fuel : Nat) (p Numerator Denominator : Int) : Option Int :=
  ModuloDivLoop p Numerator Denominator fuel 0 0

namespace Pattern

/-- The loop of `Pattern::Multiplicity`: `n` passes left, the copy of the code and the
number of matches; a pass can end the program inside `Match`. -/
def MultiplicityLoop (p : Nat) (Comparison : List Char) : Nat → Nat → Nat → Except String Nat
  | 0, _, Number => .ok Number
  | n + 1, Copy, Number =>
    match Match p Copy Comparison with
    | .error e => .error e
    | .ok b => MultiplicityLoop p Comparison n (rotateUp p Copy) (if b = true then Number + 1 else Number)

/-- Source `Pattern::Multiplicity`: the loop runs on the copy `Copy` of the code. -/
def Multiplicity (p Code : Nat) (Comparison : List Char) : Except String Nat :=
  MultiplicityLoop p Comparison p Code 0

end Pattern

/-- The loop of `EqAverage` from the primitive pattern `i` on, `n` passes left, with the
arrays `Primitive` and `EqEV` as functions of the position. -/
def EqAverageLoop {K : Type} [Field K] (p : Nat) (Primitive : Nat → Nat) (EqEV : Nat → K)
    (Test : List Char) : Nat → Nat → K → Except String K
  | 0, _, Sum => .ok Sum
  | n + 1, i, Sum =>
    match Pattern.Multiplicity p (Primitive i) Test with
    | .error e => .error e
    | .ok m => EqAverageLoop p Primitive EqEV Test n (i + 1) (Sum + EqEV i * (m : K))

/-- Source `EqAverage(Test)`, in exact arithmetic over a field. -/
def EqAverage {K : Type} [Field K] (p PrimNum : Nat) (Primitive : Nat → Nat) (EqEV : Nat → K)
    (Test : List Char) : Except String K :=
  EqAverageLoop p Primitive EqEV Test PrimNum 0 0

/-- The index `i` of the prefactors of the momentum `q` in `main`:
`i = ((m * q) % p); if (i < 0) i += p;` with the product of the two `long` taken in 32
bits and `%` the remainder of C++. -/
def PrefactorIndex (p m q : Int) : Int :=
  let i := (toLong (m * q)).tmod p
  if i < 0 then i + p else i

/-- The index `(q * nu) % p` at which the projection vector for the single-site average
and the result vector read `UnityRoot`: the product of the two `long` is taken in 32
bits, `%` is the remainder of C++. -/
def ProjectionIndex (p q nu : Int) : Int := (toLong (q * nu)).tmod p

/-- The index `p - ((Shift * q) % p)` at which the weight of the initial state reads
`UnityRoot`: the product of the `int` and the `long` is taken in 32 bits, `%` is the
remainder of C++. -/
def WeightIndex (p Shift q : Int) : Int := p - (toLong (Shift * q)).tmod p

/-- The value the loop "Fill submatrix with momentum q" of `main` stores in
`qNonZero[Element(i,j)]`: `ForwardRoot` times the rates of `Forward[Element(i,j)]` plus
`BackwardRoot` times the rates of `Backward[Element(i,j)]`. -/
def NonZeroEntry {K : Type} [Field K] (RateA RateB RateC RateD : K) (t : RateTables)
    (PrimNum : Nat) (ForwardRoot BackwardRoot : Cplx K) (i j : Nat) : Cplx K :=
  Cplx.add
    (Cplx.scale ForwardRoot ((t.Forward (Element PrimNum i j)).rate RateA RateB RateC RateD))
    (Cplx.scale BackwardRoot ((t.Backward (Element PrimNum i j)).rate RateA RateB RateC RateD))

/-- The loop "Fill submatrix with momentum q" of `main` on the array `qNonZero`: row `i`
is filled, then the decay rate of `Diagonal[i]` is subtracted from the entry on the
diagonal. -/
def NonZeroMomentumMatrix {K : Type} [Field K] (RateA RateB RateC RateD : K) (t : RateTables)
    (PrimNum : Nat) (ForwardRoot BackwardRoot : Cplx K) (qNonZero : Nat → Cplx K) :
    Nat → Cplx K :=
  (List.range PrimNum).foldl
    (fun (U : Nat → Cplx K) (i : Nat) =>
      let U1 := (List.range PrimNum).foldl
        (fun (V : Nat → Cplx K) (j : Nat) =>
          Function.update V (Element PrimNum i j)
            (NonZeroEntry RateA RateB RateC RateD t PrimNum ForwardRoot BackwardRoot i j))
        U
      Function.update U1 (Element PrimNum i i)
        (Cplx.sub (U1 (Element PrimNum i i))
          ⟨(t.Diagonal i).rate RateA RateB RateC RateD, 0⟩))
    qNonZero

/-- The loop "Symmetrization Procedure" of `main` on the array `qNonZero`: the entry
above the diagonal is multiplied by `sqrt(EqEV[j] / EqEV[i])`, the entry below it
becomes its conjugate. -/
def SymmetrizeHerm {K : Type} [Field K] (sqrt : K → K) (EqEV : Nat → K) (PrimNum : Nat)
    (qNonZero : Nat → Cplx K) : Nat → Cplx K :=
  (List.range PrimNum).foldl
    (fun (U : Nat → Cplx K) (i : Nat) =>
      (List.range' (i + 1) (PrimNum - (i + 1))).foldl
        (fun (V : Nat → Cplx K) (j : Nat) =>
          let V1 := Function.update V (Element PrimNum i j)
            (Cplx.scale (V (Element PrimNum i j)) (sqrt (EqEV j / EqEV i)))
          Function.update V1 (Element PrimNum j i) (Cplx.conj (V1 (Element PrimNum i j))))
        U)
    qNonZero

/-! ## Vocabulary of the clusters and the palindromic codes -/

/-- Number of cyclic clusters of a code: the occupied sites whose site before on the
ring is empty. -/
def clusters (p c : Nat) : Nat :=
  ∑ i ∈ Finset.range p,
    if c.testBit i = true ∧ c.testBit ((i + p - 1) % p) = false then 1 else 0

/-- The rotation of the low `p` bits of a code by one site to higher values, for any
number `p` of sites. -/
def turnUp (p c : Nat) : Nat := 2 * (c % 2 ^ (p - 1)) + c / 2 ^ (p - 1)

/-- The rotation of the low `p` bits of a code by one site to lower values, for any
number `p` of sites. -/
def turnDown (p c : Nat) : Nat := c / 2 + 2 ^ (p - 1) * (c % 2)

/-- The codes of `k` atoms on `p` sites that equal their mirror image. -/
def palindromes (p k : Nat) : Finset Nat :=
  (codes p k).filter fun c => Pattern.Mirror p c = c

/-! ## The prefactors of a momentum `q` -/

/-- The prefactor `BackwardRoot = UnityRoot[i]` of the momentum `q` in `main`, with the
index `i = (m * q) % p` corrected to a value that is not negative. -/
def BackwardRoot {K : Type} (UnityRoot : Nat → Cplx K) (p m q : Int) : Cplx K :=
  UnityRoot (PrefactorIndex p m q).toNat

/-- The prefactor `ForwardRoot = UnityRoot[p - i]` of the momentum `q` in `main`, with
the same index `i`. -/
def ForwardRoot {K : Type} (UnityRoot : Nat → Cplx K) (p m q : Int) : Cplx K :=
  UnityRoot (p - PrefactorIndex p m q).toNat

/-! ## One pass of the inner loops of the QR routines -/

/-- One pass of the inner `while` loop of `QRSymm` for the index `i` that does not end
the program, on the last convergence test and the arrays: the sweep, the progress dot
and the new convergence test. -/
def QRSymmPass {K : Type} [LinearOrderedField K] (sqrt : K → K) ( EigenvaluesOnly : Bool)
    (n i : Nat) (r : QRTest K × QRSymmState K) : QRTest K × QRSymmState K :=
  let s := QRSymmSweep sqrt EigenvaluesOnly n i r.1.SuperDiagNorm1 r.2
  (QRSymmTest s.ExDiag i, ⟨s.Matr, s.Diag, s.ExDiag, s.Dots + 1⟩)

/-- One pass of the inner `while` loop of `QRHerm` for the index `i` that does not end
the program, as `QRSymmPass`. -/
def QRHermPass {K : Type} [LinearOrderedField K] (sqrt : K → K) ( EigenvaluesOnly : Bool)
    (n i : Nat) (r : QRTest K × QRHermState K) : QRTest K × QRHermState K :=
  let s := QRHermSweep sqrt EigenvaluesOnly n i r.1.SuperDiagNorm1 r.2
  (QRHermTest s.SupDiag i, ⟨s.Matr, s.Diag, s.SupDiag, s.Dots + 1⟩)

/-! ## Bits of the machine operations -/

theorem testBit_bitNot {x : Nat} (hx : x < 2 ^ 32) (i : Nat) :
    (bitNot x).testBit i = (decide (i < 32) && !x.testBit i) := by
  have h : bitNot x = 2 ^ 32 - (x + 1) := by
    unfold bitNot; omega
  rw [h, Nat.testBit_two_pow_sub_succ hx]

theorem and_exp2pow_ne_zero (c i : Nat) : c &&& exp2pow i ≠ 0 ↔ c.testBit i = true := by
  unfold exp2pow
  rw [Nat.and_two_pow]
  cases h : c.testBit i <;> simp

theorem and_exp2pow_eq_self (c i : Nat) : c &&& exp2pow i = exp2pow i ↔ c.testBit i = true := by
  unfold exp2pow
  rw [Nat.and_two_pow]
  have := Nat.two_pow_pos i
  cases h : c.testBit i
  · simp
    omega
  · simp

theorem and_one_eq_one (c : Nat) : c &&& 1 = 1 ↔ c.testBit 0 = true := by
  simp [Nat.and_one_is_mod]

theorem exp2pow_lt_word {i : Nat} (h : i < 32) : exp2pow i < 2 ^ 32 := by
  unfold exp2pow
  exact Nat.pow_lt_pow_right (by norm_num) h

theorem testBit_exp2pow (i j : Nat) : (exp2pow i).testBit j = decide (i = j) := by
  unfold exp2pow; exact Nat.testBit_two_pow

theorem lt_two_pow_of_bits {n c : Nat} (h : ∀ i, n ≤ i → c.testBit i = false) : c < 2 ^ n :=
  Nat.lt_pow_two_of_testBit c h

theorem testBit_of_lt {n c i : Nat} (hc : c < 2 ^ n) (hi : n ≤ i) : c.testBit i = false :=
  Nat.testBit_lt_two_pow (lt_of_lt_of_le hc (Nat.pow_le_pow_right (by norm_num) hi))

theorem testBit_succ_of_even {x : Nat} (hx : x % 2 = 0) (i : Nat) :
    (x + 1).testBit i = if i = 0 then true else x.testBit i := by
  cases i with
  | zero => simp [Nat.testBit_zero]; omega
  | succ i =>
    simp only [Nat.testBit_succ, Nat.succ_ne_zero, if_false]
    have : (x + 1) / 2 = x / 2 := by omega
    rw [this]

theorem testBit_mul_two (c i : Nat) :
    (c * 2).testBit i = if i = 0 then false else c.testBit (i - 1) := by
  cases i with
  | zero => simp [Nat.testBit_zero]
  | succ i => simp [Nat.testBit_succ]

namespace Pattern

/-- Bits of the forward rotation of a code of `p` sites. -/
theorem testBit_rotateUp {p c : Nat} (hp1 : 1 ≤ p) (hp : p ≤ 31) (hc : c < 2 ^ p) (i : Nat) :
    (rotateUp p c).testBit i =
      if i = 0 then c.testBit (p - 1) else (decide (i < p) && c.testBit (i - 1)) := by
  have hpw : (2:Nat) ^ p ≤ 2 ^ 31 := Nat.pow_le_pow_right (by norm_num) hp
  have hc2 : c * 2 < 4294967296 := by
    have : (2:Nat) ^ 31 = 2147483648 := by norm_num
    omega
  have hmod : c * 2 % wordSize = c * 2 := Nat.mod_eq_of_lt hc2
  have hbitp : (c * 2).testBit p = c.testBit (p - 1) := by
    rw [testBit_mul_two]; simp; omega
  unfold rotateUp
  simp only [hmod]
  by_cases hb : c.testBit (p - 1) = true
  · have hcond : c * 2 &&& exp2pow p ≠ 0 := (and_exp2pow_ne_zero _ _).2 (by rw [hbitp]; exact hb)
    rw [if_pos hcond]
    have hx : ∀ j, (c * 2 &&& bitNot (exp2pow p)).testBit j =
        ((c * 2).testBit j && (decide (j < 32) && !decide (p = j))) := by
      intro j
      rw [Nat.testBit_land, testBit_bitNot (exp2pow_lt_word (by omega)), testBit_exp2pow]
    have hlt : c * 2 &&& bitNot (exp2pow p) < 2 ^ p := by
      apply lt_two_pow_of_bits
      intro j hj
      rw [hx, testBit_mul_two]
      rcases Nat.eq_or_lt_of_le hj with h | h
      · simp [h]
      · have : c.testBit (j - 1) = false := testBit_of_lt hc (by omega)
        simp [this]
    have heven : (c * 2 &&& bitNot (exp2pow p)) % 2 = 0 := by
      have h0 : (c * 2 &&& bitNot (exp2pow p)).testBit 0 = false := by
        rw [hx, testBit_mul_two]; simp
      rw [Nat.testBit_zero] at h0
      have h1 : ¬ (c * 2 &&& bitNot (exp2pow p)) % 2 = 1 := by
        intro h2
        rw [h2] at h0
        simp at h0
      omega
    have hsmall : (c * 2 &&& bitNot (exp2pow p)) + 1 < wordSize := by
      have : (2:Nat) ^ 31 = 2147483648 := by norm_num
      unfold wordSize; omega
    rw [Nat.mod_eq_of_lt hsmall, testBit_succ_of_even heven, hx, testBit_mul_two]
    by_cases hi : i = 0
    · simp [hi, hb]
    · simp only [hi, if_false]
      by_cases hip : i < p
      · have h1 : i < 32 := by omega
        have h2 : ¬ p = i := by omega
        simp [hip, h1, h2]
      · rcases Nat.eq_or_lt_of_le (Nat.le_of_not_lt hip) with h | h
        · simp [h]
        · have : c.testBit (i - 1) = false := testBit_of_lt hc (by omega)
          simp [this]
  · have hb' : c.testBit (p - 1) = false := by simpa using hb
    have hcond : ¬ (c * 2 &&& exp2pow p ≠ 0) := by
      rw [and_exp2pow_ne_zero, hbitp, hb']; simp
    rw [if_neg hcond, testBit_mul_two]
    by_cases hi : i = 0
    · simp [hi, hb']
    · simp only [hi, if_false]
      by_cases hip : i < p
      · simp [hip]
      · have : c.testBit (i - 1) = false := by
          rcases Nat.eq_or_lt_of_le (Nat.le_of_not_lt hip) with h | h
          · rw [← h]; exact hb'
          · exact testBit_of_lt hc (by omega)
        simp [this]

/-- Bits of the backward rotation of a code of `p` sites. -/
theorem testBit_rotateDown {p c : Nat} (hp1 : 1 ≤ p) (hc : c < 2 ^ p) (i : Nat) :
    (rotateDown p c).testBit i =
      if i = p - 1 then c.testBit 0 else (decide (i < p) && c.testBit (i + 1)) := by
  unfold rotateDown
  rw [Nat.testBit_div_two]
  by_cases hb : c.testBit 0 = true
  · have hcond : c &&& 1 ≠ 0 := by
      have := (and_exp2pow_ne_zero c 0).2 hb
      simpa [exp2pow] using this
    rw [if_pos hcond, Nat.testBit_or, testBit_exp2pow]
    by_cases hi : i = p - 1
    · have : p = i + 1 := by omega
      simp [hi, hb]; omega
    · simp only [hi, if_false]
      have h2 : ¬ p = i + 1 := by omega
      by_cases hip : i < p
      · simp [hip, h2]
      · have : c.testBit (i + 1) = false := testBit_of_lt hc (by omega)
        simp [this, h2]
  · have hb' : c.testBit 0 = false := by simpa using hb
    have hcond : ¬ (c &&& 1 ≠ 0) := by
      have := (and_exp2pow_ne_zero c 0)
      simp only [exp2pow, pow_zero] at this
      rw [this, hb']; simp
    rw [if_neg hcond]
    by_cases hi : i = p - 1
    · have : c.testBit (i + 1) = false := testBit_of_lt hc (by omega)
      simp [hi, hb']
      have h3 : p - 1 + 1 = p := by omega
      rw [h3]; exact testBit_of_lt hc (le_refl _)
    · simp only [hi, if_false]
      by_cases hip : i < p
      · simp [hip]
      · have : c.testBit (i + 1) = false := testBit_of_lt hc (by omega)
        simp [this]

theorem rotateUp_lt {p c : Nat} (hp1 : 1 ≤ p) (hp : p ≤ 31) (hc : c < 2 ^ p) :
    rotateUp p c < 2 ^ p := by
  apply lt_two_pow_of_bits
  intro i hi
  rw [testBit_rotateUp hp1 hp hc]
  have h1 : i ≠ 0 := by omega
  have h2 : ¬ i < p := by omega
  simp [h1, h2]

theorem rotateDown_lt {p c : Nat} (hp1 : 1 ≤ p) (hc : c < 2 ^ p) :
    rotateDown p c < 2 ^ p := by
  apply lt_two_pow_of_bits
  intro i hi
  rw [testBit_rotateDown hp1 hc]
  have h1 : i ≠ p - 1 := by omega
  have h2 : ¬ i < p := by omega
  simp [h1, h2]

theorem rotateDown_rotateUp {p c : Nat} (hp1 : 1 ≤ p) (hp : p ≤ 31) (hc : c < 2 ^ p) :
    rotateDown p (rotateUp p c) = c := by
  apply Nat.eq_of_testBit_eq
  intro i
  rw [testBit_rotateDown hp1 (rotateUp_lt hp1 hp hc), testBit_rotateUp hp1 hp hc,
    testBit_rotateUp hp1 hp hc]
  by_cases hi : i = p - 1
  · simp [hi]
  · simp only [hi, if_false]
    by_cases hip : i < p
    · have : i + 1 < p := by omega
      simp [hip, this]
    · have : c.testBit i = false := testBit_of_lt hc (by omega)
      simp [hip, this]

theorem rotateUp_rotateDown {p c : Nat} (hp1 : 1 ≤ p) (hp : p ≤ 31) (hc : c < 2 ^ p) :
    rotateUp p (rotateDown p c) = c := by
  apply Nat.eq_of_testBit_eq
  intro i
  rw [testBit_rotateUp hp1 hp (rotateDown_lt hp1 hc), testBit_rotateDown hp1 hc,
    testBit_rotateDown hp1 hc]
  by_cases hi : i = 0
  · simp [hi]
  · simp only [hi, if_false]
    by_cases hip : i < p
    · have h1 : i - 1 ≠ p - 1 := by omega
      have h2 : i - 1 < p := by omega
      have h3 : i - 1 + 1 = i := by omega
      simp [hip, h1, h2, h3]
    · have : c.testBit i = false := testBit_of_lt hc (by omega)
      simp [hip, this]

end Pattern

/-! ## Atom numbers and pattern sums as sums over the sites -/

theorem bitCount_split {a b d : Nat} (c : Nat) (h1 : a ≤ b) (h2 : b ≤ d) :
    bitCount a d c = bitCount a b c + bitCount b d c := by
  unfold bitCount
  rw [Finset.sum_Ico_consecutive _ h1 h2]

theorem bitCount_congr {a b c d : Nat} (h : ∀ i, a ≤ i → i < b → c.testBit i = d.testBit i) :
    bitCount a b c = bitCount a b d := by
  unfold bitCount
  apply Finset.sum_congr rfl
  intro i hi
  rw [Finset.mem_Ico] at hi
  rw [h i hi.1 hi.2]

theorem bitCount_all {a b c : Nat} (h : ∀ i, a ≤ i → i < b → c.testBit i = true) :
    bitCount a b c = b - a := by
  unfold bitCount
  rw [Finset.sum_congr rfl (g := fun _ => 1)]
  · simp
  · intro i hi
    rw [Finset.mem_Ico] at hi
    rw [if_pos (h i hi.1 hi.2)]

theorem bitCount_none {a b c : Nat} (h : ∀ i, a ≤ i → i < b → c.testBit i = false) :
    bitCount a b c = 0 := by
  unfold bitCount
  apply Finset.sum_eq_zero
  intro i hi
  rw [Finset.mem_Ico] at hi
  simp [h i hi.1 hi.2]

theorem bitCount_le (a b c : Nat) : bitCount a b c ≤ b - a := by
  unfold bitCount
  calc (∑ i ∈ Finset.Ico a b, if c.testBit i = true then 1 else 0)
      ≤ ∑ _i ∈ Finset.Ico a b, 1 := by
        apply Finset.sum_le_sum
        intro i _
        split <;> omega
    _ = b - a := by simp

theorem bitCount_single (a c : Nat) :
    bitCount a (a + 1) c = if c.testBit a = true then 1 else 0 := by
  unfold bitCount
  rw [Nat.Ico_succ_singleton, Finset.sum_singleton]

theorem bitCount_self (a c : Nat) : bitCount a a c = 0 := by
  unfold bitCount
  simp

namespace Pattern

theorem AtomNumLoop_eq (n : Nat) : ∀ zz Aux : Nat,
    AtomNumLoop n zz Aux = Aux + ∑ i ∈ Finset.range n, if zz.testBit i = true then 1 else 0 := by
  induction n with
  | zero => intro zz Aux; simp [AtomNumLoop]
  | succ n ih =>
    intro zz Aux
    rw [AtomNumLoop, ih, Finset.sum_range_succ']
    simp only [Nat.testBit_div_two, Nat.testBit_zero]
    by_cases h : zz % 2 = 1
    · simp [h]; omega
    · simp [h]

theorem AtomNum_eq (n c : Nat) : AtomNum n c = bitCount 0 n c := by
  unfold AtomNum bitCount
  rw [AtomNumLoop_eq, Nat.zero_add, Finset.range_eq_Ico]

theorem PatternSumLoop_eq (n : Nat) : ∀ i0 zz Aux : Nat,
    PatternSumLoop n i0 zz Aux =
      Aux + ∑ i ∈ Finset.range n, if zz.testBit i = true then i0 + i else 0 := by
  induction n with
  | zero => intro i0 zz Aux; simp [PatternSumLoop]
  | succ n ih =>
    intro i0 zz Aux
    rw [PatternSumLoop, ih, Finset.sum_range_succ']
    simp only [Nat.testBit_div_two, Nat.testBit_zero, Nat.and_one_is_mod]
    have hsum : (∑ i ∈ Finset.range n, if zz.testBit (i + 1) = true then i0 + 1 + i else 0) =
        ∑ i ∈ Finset.range n, if zz.testBit (i + 1) = true then i0 + (i + 1) else 0 := by
      apply Finset.sum_congr rfl
      intro i _
      have : i0 + 1 + i = i0 + (i + 1) := by omega
      rw [this]
    rw [hsum]
    by_cases h : zz % 2 = 1
    · simp [h]; omega
    · simp [h]

theorem PatternSum_eq (p c : Nat) : PatternSum p c = rawSum p c % p := by
  unfold PatternSum rawSum
  rw [PatternSumLoop_eq]
  simp

/-- A forward rotation keeps the number of atoms. -/
theorem AtomNum_rotateUp {p c : Nat} (hp1 : 1 ≤ p) (hp : p ≤ 31) (hc : c < 2 ^ p) :
    AtomNum p (rotateUp p c) = AtomNum p c := by
  obtain ⟨n, rfl⟩ : ∃ n, p = n + 1 := ⟨p - 1, by omega⟩
  rw [AtomNum_eq, AtomNum_eq]
  unfold bitCount
  rw [← Finset.range_eq_Ico, Finset.sum_range_succ', Finset.sum_range_succ]
  have h0 : (rotateUp (n + 1) c).testBit 0 = c.testBit n := by
    rw [testBit_rotateUp hp1 hp hc]; simp
  have hs : ∀ i ∈ Finset.range n,
      (if (rotateUp (n + 1) c).testBit (i + 1) = true then 1 else 0) =
        if c.testBit i = true then 1 else 0 := by
    intro i hi
    rw [Finset.mem_range] at hi
    rw [testBit_rotateUp hp1 hp hc]
    simp [hi]
  rw [Finset.sum_congr rfl hs, h0]

/-- A forward rotation adds the number of atoms to the sum of the occupied sites and
takes off `p` when the last site was occupied. -/
theorem rawSum_rotateUp {p c : Nat} (hp1 : 1 ≤ p) (hp : p ≤ 31) (hc : c < 2 ^ p) :
    rawSum p (rotateUp p c) + (if c.testBit (p - 1) = true then p else 0) =
      rawSum p c + AtomNum p c := by
  obtain ⟨n, rfl⟩ : ∃ n, p = n + 1 := ⟨p - 1, by omega⟩
  rw [AtomNum_eq]
  unfold bitCount rawSum
  rw [← Finset.range_eq_Ico, Finset.sum_range_succ', Finset.sum_range_succ, Finset.sum_range_succ]
  have hs : ∀ i ∈ Finset.range n,
      (if (rotateUp (n + 1) c).testBit (i + 1) = true then i + 1 else 0) =
        (if c.testBit i = true then i else 0) + if c.testBit i = true then 1 else 0 := by
    intro i hi
    rw [Finset.mem_range] at hi
    rw [testBit_rotateUp hp1 hp hc]
    by_cases h : c.testBit i = true <;> simp [hi, h]
  rw [Finset.sum_congr rfl hs, Finset.sum_add_distrib]
  simp only [Nat.add_sub_cancel]
  by_cases h : c.testBit n = true
  · simp [h]; omega
  · simp [h]

theorem PatternSum_rotateUp {p c : Nat} (hp1 : 1 ≤ p) (hp : p ≤ 31) (hc : c < 2 ^ p) :
    PatternSum p (rotateUp p c) = (PatternSum p c + AtomNum p c) % p := by
  have h := rawSum_rotateUp hp1 hp hc
  rw [PatternSum_eq, PatternSum_eq, Nat.mod_add_mod, ← h]
  by_cases hb : c.testBit (p - 1) = true
  · simp [hb]
  · simp [hb]

theorem AtomNum_rotateDown {p c : Nat} (hp1 : 1 ≤ p) (hp : p ≤ 31) (hc : c < 2 ^ p) :
    AtomNum p (rotateDown p c) = AtomNum p c := by
  have h := AtomNum_rotateUp hp1 hp (rotateDown_lt hp1 hc)
  rw [rotateUp_rotateDown hp1 hp hc] at h
  exact h.symm

theorem PatternSum_rotateDown {p c : Nat} (hp1 : 1 ≤ p) (hp : p ≤ 31) (hc : c < 2 ^ p) :
    (PatternSum p (rotateDown p c) + AtomNum p c) % p = PatternSum p c := by
  have h := PatternSum_rotateUp hp1 hp (rotateDown_lt hp1 hc)
  rw [rotateUp_rotateDown hp1 hp hc, AtomNum_rotateDown hp1 hp hc] at h
  exact h.symm

theorem PatternSum_lt {p : Nat} (hp1 : 1 ≤ p) (c : Nat) : PatternSum p c < p := by
  rw [PatternSum_eq]
  exact Nat.mod_lt _ hp1

end Pattern

theorem bitCount_zero_succ (j zz : Nat) :
    bitCount 0 (j + 1) zz = (if zz.testBit 0 = true then 1 else 0) + bitCount 0 j (zz / 2) := by
  unfold bitCount
  rw [← Finset.range_eq_Ico, Finset.sum_range_succ']
  simp only [Nat.testBit_div_two]
  omega

theorem bitCount_succ_right (a c : Nat) :
    bitCount 0 (a + 1) c = bitCount 0 a c + if c.testBit a = true then 1 else 0 := by
  rw [bitCount_split c (Nat.zero_le a) (Nat.le_succ a), bitCount_single]

/-- Below a site count at least `nu` there is a site holding atom number `nu`. -/
theorem exists_nth_bit {nu c : Nat} (hnu : 1 ≤ nu) :
    ∀ n : Nat, nu ≤ bitCount 0 n c →
      ∃ a, a < n ∧ c.testBit a = true ∧ bitCount 0 a c + 1 = nu := by
  intro n
  induction n with
  | zero =>
    intro h
    rw [bitCount_self] at h
    omega
  | succ n ih =>
    intro h
    by_cases hn : nu ≤ bitCount 0 n c
    · obtain ⟨a, ha, h1, h2⟩ := ih hn
      exact ⟨a, by omega, h1, h2⟩
    · rw [bitCount_succ_right] at h
      by_cases hb : c.testBit n = true
      · rw [if_pos hb] at h
        exact ⟨n, by omega, hb, by omega⟩
      · rw [if_neg hb] at h
        omega

/-- The position of atom number `nu` is determined by the code. -/
theorem nth_bit_unique {nu c a b : Nat}
    (ha : c.testBit a = true) (ha2 : bitCount 0 a c + 1 = nu)
    (hb : c.testBit b = true) (hb2 : bitCount 0 b c + 1 = nu) : a = b := by
  by_contra hne
  rcases Nat.lt_or_gt_of_ne hne with h | h
  · have h1 := bitCount_split c (Nat.zero_le (a + 1)) (Nat.succ_le_of_lt h)
    have h2 := bitCount_succ_right a c
    rw [if_pos ha] at h2
    omega
  · have h1 := bitCount_split c (Nat.zero_le (b + 1)) (Nat.succ_le_of_lt h)
    have h2 := bitCount_succ_right b c
    rw [if_pos hb] at h2
    omega

namespace Pattern

theorem ElementLoop_done {nu Aux1 : Nat} (h : ¬ Aux1 < nu) (fuel zz cnt : Nat) :
    ElementLoop nu fuel zz Aux1 (cnt + 1) = some cnt := by
  cases fuel <;> simp [ElementLoop, h]

theorem ElementLoop_spec (nu : Nat) : ∀ fuel zz Aux1 cnt j : Nat,
    Aux1 < nu → zz.testBit j = true → bitCount 0 j zz + Aux1 + 1 = nu → j < fuel →
      ElementLoop nu fuel zz Aux1 cnt = some (cnt + j) := by
  intro fuel
  induction fuel with
  | zero => intro zz Aux1 cnt j _ _ _ h; omega
  | succ fuel ih =>
    intro zz Aux1 cnt j hlt hbit hcount hj
    rw [ElementLoop, if_pos hlt]
    cases j with
    | zero =>
      rw [bitCount_self] at hcount
      have h1 : zz &&& 1 = 1 := (and_one_eq_one zz).2 hbit
      rw [if_pos h1, ElementLoop_done (by omega)]
      rfl
    | succ j =>
      rw [bitCount_zero_succ] at hcount
      rw [Nat.testBit_succ] at hbit
      have key : ElementLoop nu fuel (zz / 2) (if zz &&& 1 = 1 then Aux1 + 1 else Aux1) (cnt + 1) =
          some (cnt + 1 + j) := by
        by_cases h0 : zz.testBit 0 = true
        · rw [if_pos h0] at hcount
          rw [if_pos ((and_one_eq_one zz).2 h0)]
          exact ih _ _ _ _ (by omega) hbit (by omega) (by omega)
        · rw [if_neg h0] at hcount
          have h1 : ¬ zz &&& 1 = 1 := fun h => h0 ((and_one_eq_one zz).1 h)
          rw [if_neg h1]
          exact ih _ _ _ _ hlt hbit (by omega) (by omega)
      rw [key]
      congr 1
      omega

/-- `Element(nu)` returns the site that holds an atom and has `nu - 1` atoms below it. -/
theorem Element_eq {nu c a : Nat} (ha : a < 32) (h1 : c.testBit a = true)
    (h2 : bitCount 0 a c + 1 = nu) : Element nu c = some a := by
  unfold Element
  rw [ElementLoop_spec nu 32 c 0 0 a (by omega) h1 (by omega) ha]
  simp

/-- In a code of `k` atoms on `p` sites every atom number `1..k` has its site. -/
theorem Element_exists {p k c nu : Nat} (hp : p ≤ 32) (hk : AtomNum p c = k)
    (h1 : 1 ≤ nu) (h2 : nu ≤ k) :
    ∃ a, a < p ∧ c.testBit a = true ∧ bitCount 0 a c + 1 = nu ∧ Element nu c = some a := by
  rw [AtomNum_eq] at hk
  obtain ⟨a, ha, hb, hn⟩ := exists_nth_bit (c := c) h1 p (by omega)
  exact ⟨a, ha, hb, hn, Element_eq (by omega) hb hn⟩

/-- What `Element(nu)` returns on a code of `k` atoms, for `nu` in `1..k`. -/
theorem Element_some {p k c nu a : Nat} (hp : p ≤ 32) (hk : AtomNum p c = k)
    (h1 : 1 ≤ nu) (h2 : nu ≤ k) (h : Element nu c = some a) :
    a < p ∧ c.testBit a = true ∧ bitCount 0 a c + 1 = nu := by
  obtain ⟨b, hb, hbit, hcnt, he⟩ := Element_exists hp hk h1 h2
  rw [he] at h
  cases h
  exact ⟨hb, hbit, hcnt⟩

end Pattern

/-! ## The step of the selection loop -/

theorem exists_lowRun {c : Nat} (hc : c ≠ 0) : ∃ e t, LowRun c e t := by
  classical
  have h1 : ∃ i, c.testBit i = true := by
    obtain ⟨i, hi⟩ := Nat.ne_implies_bit_diff hc
    refine ⟨i, ?_⟩
    simpa using hi
  have h2 : ∃ j, Nat.find h1 ≤ j ∧ c.testBit j = false := by
    refine ⟨max (Nat.find h1) c, le_max_left _ _, ?_⟩
    apply Nat.testBit_lt_two_pow
    calc c < 2 ^ c := Nat.lt_two_pow c
      _ ≤ 2 ^ max (Nat.find h1) c := Nat.pow_le_pow_right (by norm_num) (le_max_right _ _)
  refine ⟨Nat.find h1, Nat.find h2, ?_, ?_, ?_, ?_⟩
  · have h3 := (Nat.find_spec h2).1
    rcases Nat.eq_or_lt_of_le h3 with h | h
    · have h4 := (Nat.find_spec h2).2
      rw [← h, Nat.find_spec h1] at h4
      exact absurd h4 (by simp)
    · exact h
  · intro i hi
    have := Nat.find_min h1 hi
    simpa using this
  · intro i hi1 hi2
    have := Nat.find_min h2 hi2
    by_contra hcon
    exact this ⟨hi1, by simpa using hcon⟩
  · exact (Nat.find_spec h2).2

theorem LowRun.le_of_lt {c e t p : Nat} (h : LowRun c e t) (hc : c < 2 ^ p) : t ≤ p := by
  by_contra hcon
  have h1 : c.testBit p = true := by
    by_cases hp : e ≤ p
    · exact h.run p hp (by omega)
    · have h2 := h.run e (le_refl _) h.lt
      rw [testBit_of_lt hc (by omega)] at h2
      exact absurd h2 (by simp)
  rw [testBit_of_lt hc (le_refl _)] at h1
  exact absurd h1 (by simp)

theorem LowRun.bitCount_run {c e t : Nat} (h : LowRun c e t) {a : Nat} (h1 : e ≤ a) (h2 : a ≤ t) :
    bitCount 0 a c = a - e := by
  rw [bitCount_split c (Nat.zero_le e) h1, bitCount_none (fun i _ hi => h.below i hi),
    bitCount_all (fun i hi1 hi2 => h.run i hi1 (by omega))]
  omega

theorem LowRun.element {c e t j : Nat} (h : LowRun c e t) (ht : t ≤ 32) (h1 : 1 ≤ j)
    (h2 : j ≤ t - e) : Pattern.Element j c = some (e + j - 1) := by
  apply Pattern.Element_eq (by omega) (h.run _ (by omega) (by omega))
  rw [h.bitCount_run (by omega) (by omega)]
  omega

/-- An atom of the lowest block other than its last one cannot move up. -/
theorem LowRun.blocked {c e t j p : Nat} (h : LowRun c e t) (hc : c < 2 ^ p) (hp : p ≤ 31)
    (h1 : 1 ≤ j) (h2 : j < t - e) : Pattern.IncrementSiteBlocked p j c = some true := by
  have htp := h.le_of_lt hc
  unfold Pattern.IncrementSiteBlocked
  rw [h.element (by omega) h1 (by omega)]
  have hmod : (e + j - 1 + 1) % p = e + j := by
    rw [Nat.mod_eq_of_lt (by omega)]; omega
  simp only [Option.map_some', hmod]
  congr 1
  rw [decide_eq_true_iff, and_exp2pow_ne_zero]
  exact h.run _ (by omega) (by omega)

/-- The last atom of the lowest block can move up, unless the code is full. -/
theorem LowRun.free {c e t p : Nat} (h : LowRun c e t) (hc : c < 2 ^ p) (hp : p ≤ 31)
    (hfull : t = p → 0 < e) : Pattern.IncrementSiteBlocked p (t - e) c = some false := by
  have htp := h.le_of_lt hc
  have hlt := h.lt
  unfold Pattern.IncrementSiteBlocked
  rw [h.element (by omega) (by omega) (le_refl _)]
  have hidx : e + (t - e) - 1 + 1 = t := by omega
  simp only [Option.map_some', hidx]
  congr 1
  rw [decide_eq_false_iff_not, and_exp2pow_ne_zero]
  rcases Nat.eq_or_lt_of_le htp with heq | hlt2
  · rw [heq, Nat.mod_self, h.below 0 (hfull heq)]
    simp
  · rw [Nat.mod_eq_of_lt hlt2, h.stop]
    simp

theorem LowRun.findNum {c e t p : Nat} (h : LowRun c e t) (hc : c < 2 ^ p) (hp : p ≤ 31)
    (hfull : t = p → 0 < e) : ∀ d fuel : Nat, d < t - e → d < fuel →
      FindNum p c fuel (t - e - d) = some (t - e) := by
  intro d
  induction d with
  | zero =>
    intro fuel _ hf
    obtain ⟨f, rfl⟩ : ∃ f, fuel = f + 1 := ⟨fuel - 1, by omega⟩
    rw [FindNum, Nat.sub_zero, h.free hc hp hfull]
  | succ d ih =>
    intro fuel hd hf
    obtain ⟨f, rfl⟩ : ∃ f, fuel = f + 1 := ⟨fuel - 1, by omega⟩
    rw [FindNum, h.blocked hc hp (by omega) (by omega)]
    have : t - e - (d + 1) + 1 = t - e - d := by omega
    simp only [this]
    exact ih f (by omega) (by omega)

theorem LowRun.selectStep {c e t p : Nat} (h : LowRun c e t) (hc : c < 2 ^ p) (hp : p ≤ 31)
    (hfull : t = p → 0 < e) :
    ∃ c', SelectStep p c = some c' ∧ ∀ i, c'.testBit i = stepBits c e t p i := by
  have htp := h.le_of_lt hc
  have hlt := h.lt
  have hfind := h.findNum hc hp hfull (t - e - 1) 33 (by omega) (by omega)
  have h1 : t - e - (t - e - 1) = 1 := by omega
  rw [h1] at hfind
  have helem := h.element (j := t - e) (by omega) (by omega) (le_refl _)
  have hpos : e + (t - e) - 1 = t - 1 := by omega
  rw [hpos] at helem
  unfold SelectStep
  unfold Pattern.Increment
  simp only [hfind, helem, Option.bind_some, Option.some_bind, Option.map_some']
  refine ⟨_, rfl, ?_⟩
  intro i
  have hpw : exp2pow (t - 1) - 1 < 2 ^ 32 := by
    have := exp2pow_lt_word (i := t - 1) (by omega)
    omega
  have hidx : t - 1 + 1 = t := by omega
  rw [Nat.testBit_or, Nat.testBit_land, Nat.testBit_or, Nat.testBit_land,
    testBit_bitNot (exp2pow_lt_word (by omega)), testBit_bitNot hpw, testBit_exp2pow,
    testBit_exp2pow, hidx]
  unfold exp2pow stepBits
  rw [Nat.testBit_two_pow_sub_one, Nat.testBit_two_pow_sub_one]

/-- Two different numbers differ in a highest bit, which belongs to the larger one. -/
theorem exists_top_diff {n m : Nat} (h : n < m) :
    ∃ i, n.testBit i = false ∧ m.testBit i = true ∧ ∀ j, i < j → n.testBit j = m.testBit j := by
  have hne : n ^^^ m ≠ 0 := by
    intro h0
    have : n = m := Nat.xor_eq_zero.1 h0
    omega
  obtain ⟨i, hi, hj⟩ := Nat.exists_most_significant_bit hne
  have habove : ∀ j, i < j → n.testBit j = m.testBit j := by
    intro j hij
    have := hj j hij
    rw [Nat.testBit_xor] at this
    cases h1 : n.testBit j <;> cases h2 : m.testBit j <;> simp_all
  rw [Nat.testBit_xor] at hi
  cases h1 : n.testBit i <;> cases h2 : m.testBit i
  · simp [h1, h2] at hi
  · exact ⟨i, h1, h2, habove⟩
  · have := Nat.lt_of_testBit i h2 h1 (fun j hij => (habove j hij).symm)
    omega
  · simp [h1, h2] at hi

/-- The atoms below `p` counted around one site `i`. -/
theorem bitCount_three {i p : Nat} (d : Nat) (hi : i < p) :
    bitCount 0 p d =
      bitCount 0 i d + (if d.testBit i = true then 1 else 0) + bitCount (i + 1) p d := by
  rw [bitCount_split d (Nat.zero_le (i + 1)) (by omega : i + 1 ≤ p), bitCount_succ_right]

theorem LowRun.stepBits_eq {c e t p : Nat} (h : LowRun c e t) (hc : c < 2 ^ p) (hp : p ≤ 31)
    (ht : t < p) (i : Nat) :
    stepBits c e t p i =
      (decide (i < t - e - 1) || decide (i = t) || (decide (t < i) && c.testBit i)) := by
  have hlt := h.lt
  unfold stepBits
  rw [Nat.mod_eq_of_lt ht]
  rcases Nat.lt_trichotomy i t with hi | hi | hi
  · have h1 : ¬ t = i := by omega
    have h2 : ¬ i = t := by omega
    have h3 : ¬ t < i := by omega
    by_cases h4 : i < t - 1
    · simp [h1, h2, h3, h4]
    · have h5 : t - 1 = i := by omega
      have h6 : ¬ i < t - e - 1 := by omega
      simp [h1, h2, h3, h4, h5, h6]
  · subst hi
    have h1 : ¬ i < i - 1 := by omega
    have h2 : i < 32 := by omega
    simp [h1, h2]
  · have h1 : ¬ t = i := by omega
    have h2 : ¬ i = t := by omega
    have h3 : ¬ i < t - 1 := by omega
    have h4 : ¬ t - 1 = i := by omega
    have h5 : ¬ i < t - e - 1 := by omega
    by_cases h6 : c.testBit i = true
    · have h7 : i < 32 := by
        by_contra hcon
        rw [testBit_of_lt hc (by omega)] at h6
        exact absurd h6 (by simp)
      simp [h1, h2, h3, h4, h5, h6, h7, hi]
    · simp [h1, h2, h3, h4, h5, h6]

theorem IsNext.lt {c e t c' : Nat} (h : IsNext c e t c') : c < c' := by
  apply Nat.lt_of_testBit t h.run.stop
  · rw [h.bits]; simp
  · intro j hj
    have h1 : ¬ j < t - e - 1 := by omega
    have h2 : ¬ j = t := by omega
    rw [h.bits]; simp [h1, h2, hj]

theorem IsNext.lt_two_pow {c e t c' p : Nat} (h : IsNext c e t c') (hc : c < 2 ^ p)
    (ht : t < p) : c' < 2 ^ p := by
  apply lt_two_pow_of_bits
  intro i hi
  have h1 : ¬ i < t - e - 1 := by omega
  have h2 : ¬ i = t := by omega
  rw [h.bits, testBit_of_lt hc hi]; simp [h1, h2]

theorem IsNext.bitCount_low {c e t c' : Nat} (h : IsNext c e t c') :
    bitCount 0 (t + 1) c' = t - e := by
  have hlt := h.run.lt
  rw [bitCount_split c' (Nat.zero_le (t - e - 1)) (by omega : t - e - 1 ≤ t + 1),
    bitCount_split c' (by omega : t - e - 1 ≤ t) (Nat.le_succ t), bitCount_single,
    bitCount_all, bitCount_none]
  · rw [h.bits]; simp; omega
  · intro i hi1 hi2
    have h1 : ¬ i < t - e - 1 := by omega
    have h2 : ¬ i = t := by omega
    have h3 : ¬ t < i := by omega
    rw [h.bits]; simp [h1, h2, h3]
  · intro i _ hi2
    rw [h.bits]; simp [hi2]

theorem IsNext.bitCount_eq {c e t c' p : Nat} (h : IsNext c e t c') (ht : t < p) :
    bitCount 0 p c' = bitCount 0 p c := by
  have hlt := h.run.lt
  rw [bitCount_split c' (Nat.zero_le (t + 1)) (by omega : t + 1 ≤ p),
    bitCount_split c (Nat.zero_le (t + 1)) (by omega : t + 1 ≤ p), h.bitCount_low,
    bitCount_succ_right, h.run.bitCount_run (Nat.le_of_lt hlt) (le_refl _), h.run.stop]
  have : bitCount (t + 1) p c' = bitCount (t + 1) p c := by
    apply bitCount_congr
    intro i hi1 hi2
    have h1 : ¬ i < t - e - 1 := by omega
    have h2 : ¬ i = t := by omega
    have h3 : t < i := by omega
    rw [h.bits]; simp [h1, h2, h3]
  rw [this]; simp

/-- No code with the same number of atoms lies strictly between a code and its successor. -/
theorem IsNext.least {c e t c' p d : Nat} (h : IsNext c e t c') (ht : t < p)
    (hd : bitCount 0 p d = bitCount 0 p c) (hcd : c < d) : c' ≤ d := by
  by_contra hcon
  have hdc : d < c' := Nat.lt_of_not_le hcon
  have hlt := h.run.lt
  obtain ⟨i, hci, hdi, hab⟩ := exists_top_diff hcd
  obtain ⟨i', hdi', hci', hab'⟩ := exists_top_diff hdc
  rcases Nat.lt_trichotomy i t with hi | hi | hi
  · -- the atom of `d` on site `i` comes on top of all atoms of `c`
    have hie : i < e := by
      by_contra hge
      rw [h.run.run i (by omega) hi] at hci
      exact absurd hci (by simp)
    have h1 := bitCount_three d (by omega : i < p)
    have h2 : bitCount 0 p c = bitCount 0 (i + 1) c + bitCount (i + 1) p c :=
      bitCount_split c (Nat.zero_le _) (by omega)
    have h3 : bitCount 0 (i + 1) c = 0 := bitCount_none (fun j _ hj => h.run.below j (by omega))
    have h4 : bitCount (i + 1) p d = bitCount (i + 1) p c :=
      bitCount_congr (fun j hj1 _ => (hab j (by omega)).symm)
    rw [if_pos hdi] at h1
    omega
  · subst hi
    have hi't : i' < i := by
      by_contra hge
      rcases Nat.eq_or_lt_of_le (Nat.le_of_not_lt hge) with heq | hgt
      · rw [← heq, hdi] at hdi'
        exact absurd hdi' (by simp)
      · have h1 := hab i' hgt
        have h2 : c'.testBit i' = c.testBit i' := by
          have h3 : ¬ i' < i - e - 1 := by omega
          have h4 : ¬ i' = i := by omega
          rw [h.bits]; simp [h3, h4, hgt]
        rw [hci', h1, hdi'] at h2
        exact absurd h2 (by simp)
    have hi'm : i' < i - e - 1 := by
      by_contra hge
      have h3 : ¬ i' = i := by omega
      have h4 : ¬ i < i' := by omega
      rw [h.bits] at hci'
      simp [hge, h3, h4] at hci'
    have h1 := bitCount_three d (by omega : i' < p)
    have h2 := bitCount_three c' (by omega : i' < p)
    have h3 : bitCount (i' + 1) p d = bitCount (i' + 1) p c' :=
      bitCount_congr (fun j hj1 _ => hab' j (by omega))
    have h4 : bitCount 0 i' c' = i' - 0 := by
      apply bitCount_all
      intro j _ hj
      have : j < i - e - 1 := by omega
      rw [h.bits]; simp [this]
    have h5 := bitCount_le 0 i' d
    have h6 := h.bitCount_eq ht
    rw [if_pos hci'] at h2
    rw [hdi'] at h1
    simp at h1
    omega
  · have h1 : c'.testBit i = c.testBit i := by
      have h3 : ¬ i < t - e - 1 := by omega
      have h4 : ¬ i = t := by omega
      rw [h.bits]; simp [h3, h4, hi]
    have h2 : c' < d := by
      apply Nat.lt_of_testBit i (by rw [h1]; exact hci) hdi
      intro j hj
      have h3 : ¬ j < t - e - 1 := by omega
      have h4 : ¬ j = t := by omega
      have h5 : t < j := by omega
      rw [h.bits, ← hab j hj]; simp [h3, h4, h5]
    omega

/-- A code whose lowest block reaches the last site is the largest with its number of atoms. -/
theorem LowRun.greatest {c e p d : Nat} (h : LowRun c e p) (hdp : d < 2 ^ p)
    (hd : bitCount 0 p d = bitCount 0 p c) : d ≤ c := by
  by_contra hcon
  have hcd : c < d := Nat.lt_of_not_le hcon
  obtain ⟨i, hci, hdi, hab⟩ := exists_top_diff hcd
  have hlt := h.lt
  have hip : i < p := by
    by_contra hge
    rw [testBit_of_lt hdp (by omega)] at hdi
    exact absurd hdi (by simp)
  have hie : i < e := by
    by_contra hge
    rw [h.run i (by omega) hip] at hci
    exact absurd hci (by simp)
  have h1 := bitCount_three d (by omega : i < p)
  have h2 : bitCount 0 p c = bitCount 0 (i + 1) c + bitCount (i + 1) p c :=
    bitCount_split c (Nat.zero_le _) (by omega)
  have h3 : bitCount 0 (i + 1) c = 0 := bitCount_none (fun j _ hj => h.below j (by omega))
  have h4 : bitCount (i + 1) p d = bitCount (i + 1) p c :=
    bitCount_congr (fun j hj1 _ => (hab j (by omega)).symm)
  rw [if_pos hdi] at h1
  omega

/-- The block of `k` atoms on the lowest sites, the first value of `Current`. -/
theorem bitCount_start {k p : Nat} (hk : k ≤ p) : bitCount 0 p (exp2pow k - 1) = k := by
  unfold exp2pow
  rw [bitCount_split _ (Nat.zero_le k) hk, bitCount_all, bitCount_none]
  · omega
  · intro i hi _
    rw [Nat.testBit_two_pow_sub_one]; simp; omega
  · intro i _ hi
    rw [Nat.testBit_two_pow_sub_one]; simp [hi]

theorem start_lt {k p : Nat} (hk : k ≤ p) : exp2pow k - 1 < 2 ^ p := by
  unfold exp2pow
  have : (2:Nat) ^ k ≤ 2 ^ p := Nat.pow_le_pow_right (by norm_num) hk
  have := Nat.two_pow_pos k
  omega

/-- The first value of `Current` is the least code with `k` atoms. -/
theorem start_least {k p d : Nat} (hk : k ≤ p) (hd : bitCount 0 p d = k) :
    exp2pow k - 1 ≤ d := by
  by_contra hcon
  have hlt : d < exp2pow k - 1 := Nat.lt_of_not_le hcon
  obtain ⟨i, hdi, hsi, hab⟩ := exists_top_diff hlt
  unfold exp2pow at hsi hab
  rw [Nat.testBit_two_pow_sub_one] at hsi
  have hik : i < k := by simpa using hsi
  have h1 := bitCount_three d (by omega : i < p)
  have h2 : bitCount (i + 1) p d = bitCount (i + 1) p (2 ^ k - 1) :=
    bitCount_congr (fun j hj1 _ => hab j (by omega))
  have h3 : bitCount (i + 1) p (2 ^ k - 1) = bitCount (i + 1) k (2 ^ k - 1) + bitCount k p (2 ^ k - 1) :=
    bitCount_split _ (by omega) hk
  have h4 : bitCount k p (2 ^ k - 1) = 0 := by
    apply bitCount_none
    intro j hj _
    rw [Nat.testBit_two_pow_sub_one]; simp; omega
  have h5 := bitCount_le (i + 1) k (2 ^ k - 1)
  have h6 := bitCount_le 0 i d
  rw [hdi] at h1
  simp at h1
  omega

/-! ## Counting the codes and the primitive patterns -/

theorem mem_codes {p k c : Nat} : c ∈ codes p k ↔ c < 2 ^ p ∧ Pattern.AtomNum p c = k := by
  unfold codes
  rw [Finset.mem_filter, Finset.mem_range]

theorem mem_codesWithSum {p k r c : Nat} :
    c ∈ codesWithSum p k r ↔
      (c < 2 ^ p ∧ Pattern.AtomNum p c = k) ∧ Pattern.PatternSum p c = r := by
  unfold codesWithSum
  rw [Finset.mem_filter, mem_codes]

theorem bitCount_of_lt {p c : Nat} (hc : c < 2 ^ p) :
    bitCount 0 (p + 1) c = bitCount 0 p c := by
  rw [bitCount_succ_right, testBit_of_lt hc (le_refl _)]
  simp

theorem bitCount_two_pow_add {p x : Nat} (hx : x < 2 ^ p) :
    bitCount 0 (p + 1) (2 ^ p + x) = bitCount 0 p x + 1 := by
  rw [bitCount_succ_right, Nat.testBit_two_pow_add_eq, testBit_of_lt hx (le_refl _)]
  have : bitCount 0 p (2 ^ p + x) = bitCount 0 p x :=
    bitCount_congr (fun i _ hi => Nat.testBit_two_pow_add_gt hi x)
  rw [this]
  simp

theorem codes_zero_right (p : Nat) : codes p 0 = {0} := by
  ext c
  rw [mem_codes, Finset.mem_singleton, Pattern.AtomNum_eq]
  constructor
  · rintro ⟨hc, h0⟩
    apply Nat.eq_of_testBit_eq
    intro i
    rw [Nat.zero_testBit]
    by_cases hi : i < p
    · by_contra hb
      have hb' : c.testBit i = true := by simpa using hb
      have h1 := bitCount_three c hi
      rw [if_pos hb'] at h1
      omega
    · exact testBit_of_lt hc (by omega)
  · rintro rfl
    refine ⟨Nat.two_pow_pos p, ?_⟩
    apply bitCount_none
    intro i _ _
    exact Nat.zero_testBit i

theorem codes_zero_left (k : Nat) : codes 0 (k + 1) = ∅ := by
  ext c
  rw [mem_codes, Pattern.AtomNum_eq, bitCount_self]
  simp

theorem codes_succ (p k : Nat) :
    codes (p + 1) (k + 1) = codes p (k + 1) ∪ (codes p k).image (fun x => 2 ^ p + x) := by
  ext c
  rw [Finset.mem_union, Finset.mem_image, mem_codes, mem_codes, Pattern.AtomNum_eq,
    Pattern.AtomNum_eq]
  constructor
  · rintro ⟨hc, hk⟩
    by_cases hlt : c < 2 ^ p
    · left
      rw [bitCount_of_lt hlt] at hk
      exact ⟨hlt, hk⟩
    · right
      have hx : c - 2 ^ p < 2 ^ p := by
        rw [pow_succ] at hc; omega
      refine ⟨c - 2 ^ p, ?_, by omega⟩
      rw [mem_codes, Pattern.AtomNum_eq]
      have hc' : c = 2 ^ p + (c - 2 ^ p) := by omega
      rw [hc', bitCount_two_pow_add hx] at hk
      exact ⟨hx, by omega⟩
  · rintro (⟨hc, hk⟩ | ⟨x, hx, rfl⟩)
    · rw [bitCount_of_lt hc]
      refine ⟨?_, hk⟩
      rw [pow_succ]; omega
    · rw [mem_codes, Pattern.AtomNum_eq] at hx
      rw [bitCount_two_pow_add hx.1, hx.2]
      refine ⟨?_, rfl⟩
      rw [pow_succ]; omega

/-- There are `C(p,k)` codes of `k` atoms on `p` sites. -/
theorem card_codes (p : Nat) : ∀ k, (codes p k).card = Nat.choose p k := by
  induction p with
  | zero =>
    intro k
    cases k with
    | zero => rw [codes_zero_right]; simp
    | succ k => rw [codes_zero_left]; simp
  | succ p ih =>
    intro k
    cases k with
    | zero => rw [codes_zero_right]; simp
    | succ k =>
      rw [codes_succ, Finset.card_union_of_disjoint, ih, Finset.card_image_of_injective, ih,
        Nat.choose_succ_succ, Nat.add_comm]
      · intro a b hab
        simpa using hab
      · rw [Finset.disjoint_left]
        intro c hc hc2
        rw [Finset.mem_image] at hc2
        obtain ⟨x, _, rfl⟩ := hc2
        rw [mem_codes] at hc
        omega

/-- Rotation carries the codes of pattern sum `r` onto those of pattern sum `r + k`. -/
theorem card_codesWithSum_add {p k r : Nat} (hp1 : 1 ≤ p) (hp : p ≤ 31) (hr : r < p) :
    (codesWithSum p k r).card = (codesWithSum p k ((r + k) % p)).card := by
  apply Finset.card_nbij' (Pattern.rotateUp p) (Pattern.rotateDown p)
  · intro c hc
    rw [mem_codesWithSum] at hc ⊢
    obtain ⟨⟨hc1, hc2⟩, hc3⟩ := hc
    refine ⟨⟨Pattern.rotateUp_lt hp1 hp hc1, ?_⟩, ?_⟩
    · rw [Pattern.AtomNum_rotateUp hp1 hp hc1, hc2]
    · rw [Pattern.PatternSum_rotateUp hp1 hp hc1, hc2, hc3]
  · intro c hc
    rw [mem_codesWithSum] at hc ⊢
    obtain ⟨⟨hc1, hc2⟩, hc3⟩ := hc
    refine ⟨⟨Pattern.rotateDown_lt hp1 hc1, ?_⟩, ?_⟩
    · rw [Pattern.AtomNum_rotateDown hp1 hp hc1, hc2]
    · have h1 := Pattern.PatternSum_rotateDown hp1 hp hc1
      rw [hc2, hc3] at h1
      have h2 := Pattern.PatternSum_lt hp1 (Pattern.rotateDown p c)
      have h3 : (Pattern.PatternSum p (Pattern.rotateDown p c) + k) ≡ r + k [MOD p] := h1
      have h4 := Nat.ModEq.add_right_cancel' k h3
      unfold Nat.ModEq at h4
      rw [Nat.mod_eq_of_lt h2, Nat.mod_eq_of_lt hr] at h4
      exact h4
  · intro c hc
    rw [mem_codesWithSum] at hc
    exact Pattern.rotateDown_rotateUp hp1 hp hc.1.1
  · intro c hc
    rw [mem_codesWithSum] at hc
    exact Pattern.rotateUp_rotateDown hp1 hp hc.1.1

theorem card_codesWithSum_mul {p k : Nat} (hp1 : 1 ≤ p) (hp : p ≤ 31) (j : Nat) :
    (codesWithSum p k ((j * k) % p)).card = (codesWithSum p k 0).card := by
  induction j with
  | zero => simp
  | succ j ih =>
    have h1 : (j + 1) * k % p = (j * k % p + k) % p := by
      rw [Nat.mod_add_mod]
      congr 1
      ring
    rw [h1, ← card_codesWithSum_add hp1 hp (Nat.mod_lt _ hp1), ih]

/-- For a prime number of sites every pattern sum occurs equally often. -/
theorem card_codesWithSum_eq {p k r : Nat} (hprime : Nat.Prime p) (hp : p ≤ 31)
    (hk0 : 0 < k) (hkp : k < p) (hr : r < p) :
    (codesWithSum p k r).card = (codesWithSum p k 0).card := by
  have hp1 : 1 ≤ p := hprime.one_lt.le
  have hco : Nat.Coprime k p := (Nat.coprime_of_lt_prime hk0 hkp hprime).symm
  obtain ⟨m, hm⟩ := Nat.exists_mul_emod_eq_one_of_coprime hco hprime.one_lt
  have h := card_codesWithSum_mul (k := k) hp1 hp (m * r)
  have h2 : m * r * k % p = r := by
    have : m * r * k = k * m * r := by ring
    rw [this, Nat.mul_mod, hm, Nat.one_mul, Nat.mod_mod, Nat.mod_eq_of_lt hr]
  rw [h2] at h
  exact h

/-- The primitive patterns are one in `p` of the codes. -/
theorem card_primitive_mul {p k : Nat} (hprime : Nat.Prime p) (hp : p ≤ 31)
    (hk0 : 0 < k) (hkp : k < p) :
    p * (codesWithSum p k 0).card = Nat.choose p k := by
  have hp1 : 1 ≤ p := hprime.one_lt.le
  rw [← card_codes p k]
  have h := Finset.card_eq_sum_card_fiberwise (f := Pattern.PatternSum p) (s := codes p k)
    (t := Finset.range p) (fun c _ => Finset.mem_range.2 (Pattern.PatternSum_lt hp1 c))
  rw [h]
  have h2 : ∀ r ∈ Finset.range p,
      (Finset.filter (fun a => Pattern.PatternSum p a = r) (codes p k)).card =
        (codesWithSum p k 0).card := by
    intro r hr
    exact card_codesWithSum_eq hprime hp hk0 hkp (Finset.mem_range.1 hr)
  rw [Finset.sum_congr rfl h2]
  simp

/-! ## The number `PrimNum` -/

theorem foldl_mul_range' (n : Nat) : ∀ (s : Nat) (a : ℚ), 1 ≤ s →
    (List.range' s n).foldl (fun (a : ℚ) (i : Nat) => a * (i : ℚ)) a * ((s - 1).factorial : ℚ) =
      a * ((s + n - 1).factorial : ℚ) := by
  induction n with
  | zero => intro s a _; simp
  | succ n ih =>
    intro s a hs
    rw [List.range'_succ, List.foldl_cons]
    have h := ih (s + 1) (a * (s : ℚ)) (by omega)
    have h1 : s + 1 - 1 = s := by omega
    have h2 : s + 1 + n - 1 = s + (n + 1) - 1 := by omega
    rw [h1, h2] at h
    have h3 : (s.factorial : ℚ) = (s : ℚ) * ((s - 1).factorial : ℚ) := by
      obtain ⟨m, rfl⟩ : ∃ m, s = m + 1 := ⟨s - 1, by omega⟩
      rw [Nat.factorial_succ]; push_cast; simp
    rw [h3] at h
    have hs0 : (s : ℚ) ≠ 0 := by
      have : s ≠ 0 := by omega
      exact_mod_cast this
    have h4 : (s : ℚ) * (List.foldl (fun (a : ℚ) (i : Nat) => a * (i : ℚ)) (a * (s : ℚ)) (List.range' (s + 1) n) *
        ((s - 1).factorial : ℚ)) = (s : ℚ) * (a * ((s + (n + 1) - 1).factorial : ℚ)) := by
      linear_combination h
    exact mul_left_cancel₀ hs0 h4

theorem foldl_div_range' (n : Nat) : ∀ (s : Nat) (a : ℚ), 1 ≤ s →
    (List.range' s n).foldl (fun (a : ℚ) (i : Nat) => a / (i : ℚ)) a * ((s + n - 1).factorial : ℚ) =
      a * ((s - 1).factorial : ℚ) := by
  induction n with
  | zero => intro s a _; simp
  | succ n ih =>
    intro s a hs
    rw [List.range'_succ, List.foldl_cons]
    have h := ih (s + 1) (a / (s : ℚ)) (by omega)
    have h1 : s + 1 - 1 = s := by omega
    have h2 : s + 1 + n - 1 = s + (n + 1) - 1 := by omega
    rw [h1, h2] at h
    have h3 : (s.factorial : ℚ) = (s : ℚ) * ((s - 1).factorial : ℚ) := by
      obtain ⟨m, rfl⟩ : ∃ m, s = m + 1 := ⟨s - 1, by omega⟩
      rw [Nat.factorial_succ]; push_cast; simp
    have hs0 : (s : ℚ) ≠ 0 := by
      have : s ≠ 0 := by omega
      exact_mod_cast this
    rw [h, h3]
    field_simp
    ring

/-- In exact arithmetic `PrimNumAux * p` is the binomial coefficient `C(p,k)`. -/
theorem PrimNumAux_mul {p k : Nat} (hk0 : 0 < k) (hkp : k ≤ p) :
    PrimNumAux p k * (p : ℚ) = (Nat.choose p k : ℚ) := by
  unfold PrimNumAux
  have hG := foldl_mul_range' (k - 1) (p - k + 1) 1 (by omega)
  have hD := foldl_div_range' (k - 1) 2
    ((List.range' (p - k + 1) (k - 1)).foldl (fun (a : ℚ) (i : Nat) => a * (i : ℚ)) 1) (by omega)
  have e1 : p - k + 1 - 1 = p - k := by omega
  have e2 : p - k + 1 + (k - 1) - 1 = p - 1 := by omega
  have e3 : 2 + (k - 1) - 1 = k := by omega
  rw [e1, e2] at hG
  rw [e3] at hD
  simp only [Nat.factorial, Nat.cast_one, mul_one, one_mul] at hD hG
  have hc := Nat.choose_mul_factorial_mul_factorial hkp
  have hpf : (p.factorial : ℚ) = (p : ℚ) * ((p - 1).factorial : ℚ) := by
    obtain ⟨m, rfl⟩ : ∃ m, p = m + 1 := ⟨p - 1, by omega⟩
    rw [Nat.factorial_succ]; push_cast; simp
  have hc' : (Nat.choose p k : ℚ) * (k.factorial : ℚ) * ((p - k).factorial : ℚ) =
      (p : ℚ) * ((p - 1).factorial : ℚ) := by
    rw [← hpf]; exact_mod_cast hc
  have hk1 : (k.factorial : ℚ) ≠ 0 := by exact_mod_cast Nat.factorial_ne_zero k
  have hk2 : ((p - k).factorial : ℚ) ≠ 0 := by exact_mod_cast Nat.factorial_ne_zero (p - k)
  have key : (List.foldl (fun (a : ℚ) (i : Nat) => a / (i : ℚ))
      (List.foldl (fun (a : ℚ) (i : Nat) => a * (i : ℚ)) 1 (List.range' (p - k + 1) (k - 1)))
      (List.range' 2 (k - 1)) * (p : ℚ)) * ((k.factorial : ℚ) * ((p - k).factorial : ℚ)) =
      (Nat.choose p k : ℚ) * ((k.factorial : ℚ) * ((p - k).factorial : ℚ)) := by
    linear_combination (p : ℚ) * ((p - k).factorial : ℚ) * hD + (p : ℚ) * hG - hc'
  exact mul_right_cancel₀ (mul_ne_zero hk1 hk2) key

theorem PrimNum_of_mul {p k n : Nat} (hk0 : 0 < k) (hkp : k ≤ p) (h : p * n = Nat.choose p k) :
    PrimNum p k = n := by
  have hp0 : (p : ℚ) ≠ 0 := by
    have : p ≠ 0 := by omega
    exact_mod_cast this
  have h1 := PrimNumAux_mul hk0 hkp
  have h2 : PrimNumAux p k = (n : ℚ) := by
    have h3 : (Nat.choose p k : ℚ) = (p : ℚ) * (n : ℚ) := by exact_mod_cast h.symm
    rw [h3] at h1
    have h4 : (p : ℚ) * PrimNumAux p k = (p : ℚ) * (n : ℚ) := by linear_combination h1
    exact mul_left_cancel₀ hp0 h4
  unfold PrimNum
  rw [h2]
  have h5 : ⌊(n : ℚ) + 1 / 2⌋ = (n : ℤ) := by
    rw [Int.floor_eq_iff]
    constructor
    · push_cast; linarith
    · push_cast; linarith
  rw [h5]
  simp

/-- The number `PrimNum` computed by `main` is the number of codes with `k` atoms and
pattern sum 0. -/
theorem PrimNum_eq_card {p k : Nat} (hprime : Nat.Prime p) (hp : p ≤ 31)
    (hk0 : 0 < k) (hkp : k < p) : PrimNum p k = (codesWithSum p k 0).card :=
  PrimNum_of_mul hk0 (Nat.le_of_lt hkp) (card_primitive_mul hprime hp hk0 hkp)

theorem PrimNum_eq_choose_div {p k : Nat} (hprime : Nat.Prime p) (hp : p ≤ 31)
    (hk0 : 0 < k) (hkp : k < p) : PrimNum p k = Nat.choose p k / p := by
  rw [PrimNum_eq_card hprime hp hk0 hkp, ← card_primitive_mul hprime hp hk0 hkp,
    Nat.mul_div_cancel_left _ hprime.pos]

/-! ## The selection loop -/

theorem SelectTrace_fst (p N : Nat) : ∀ fuel Current Prims,
    (SelectTrace p N fuel Current Prims).map Prod.fst = SelectLoop p N fuel Current Prims := by
  intro fuel
  induction fuel with
  | zero => intro _ _; rfl
  | succ fuel ih =>
    intro Current Prims
    rw [SelectTrace, SelectLoop]
    cases hs : SelectStep p Current with
    | none => rfl
    | some next =>
      simp only
      generalize (if Pattern.PatternSum p Current = 0 then Prims ++ [Current] else Prims) = Prims1
      by_cases h : Prims1.length < N
      · rw [if_pos h, if_pos h, ← ih, Option.map_map]
        rfl
      · rw [if_neg h, if_neg h]
        rfl

/-- Every code of `k` atoms, `0 < k < p`, has a next value under the step of the loop. -/
theorem selectStep_isSome {p k c : Nat} (hp : p ≤ 31) (hk0 : 0 < k) (hkp : k < p)
    (hc : c ∈ codes p k) :
    ∃ e t c', LowRun c e t ∧ t ≤ p ∧ SelectStep p c = some c' ∧
      (t < p → IsNext c e t c') := by
  rw [mem_codes, Pattern.AtomNum_eq] at hc
  have hne : c ≠ 0 := by
    rintro rfl
    have : bitCount 0 p 0 = 0 := bitCount_none (fun i _ _ => Nat.zero_testBit i)
    omega
  obtain ⟨e, t, hrun⟩ := exists_lowRun hne
  have htp := hrun.le_of_lt hc.1
  have hfull : t = p → 0 < e := by
    intro h
    have := hrun.bitCount_run (Nat.le_of_lt hrun.lt) (le_refl t)
    rw [h] at this
    omega
  obtain ⟨c', hstep, hbits⟩ := hrun.selectStep hc.1 hp hfull
  refine ⟨e, t, c', hrun, htp, hstep, fun ht => ⟨hrun, fun i => ?_⟩⟩
  rw [hbits, hrun.stepBits_eq hc.1 hp ht]

theorem SelectTrace_spec {p k : Nat} (hp : p ≤ 31) (hk0 : 0 < k) (hkp : k < p) :
    ∀ fuel Current Prims, 2 ^ p ≤ Current + fuel → Current ∈ codes p k →
      Prims.Pairwise (· < ·) →
      (∀ c, c ∈ Prims ↔ c ∈ codesWithSum p k 0 ∧ c < Current) →
      ∃ L V, SelectTrace p (codesWithSum p k 0).card fuel Current Prims = some (L, V) ∧
        L.Pairwise (· < ·) ∧ (∀ c, c ∈ L ↔ c ∈ codesWithSum p k 0) ∧
        V.Pairwise (· < ·) ∧ (∀ v ∈ V, Current ≤ v ∧ v ∈ codes p k) ∧
        V.head? = some Current ∧ V.Chain' (fun v v' => SelectStep p v = some v' ∧ v < v') := by
  intro fuel
  induction fuel with
  | zero =>
    intro Current Prims hfuel hcur _ _
    rw [mem_codes] at hcur
    omega
  | succ fuel ih =>
    intro Current Prims hfuel hcur hsorted hmem
    obtain ⟨e, t, c', hrun, htp, hstep, hnext⟩ := selectStep_isSome hp hk0 hkp hcur
    have hcur' := hcur
    rw [mem_codes, Pattern.AtomNum_eq] at hcur'
    -- the array after the test of `Current`
    obtain ⟨Prims1, hP1, hsorted1, hmem1⟩ : ∃ Prims1,
        (if Pattern.PatternSum p Current = 0 then Prims ++ [Current] else Prims) = Prims1 ∧
        Prims1.Pairwise (· < ·) ∧
        (∀ c, c ∈ Prims1 ↔ c ∈ codesWithSum p k 0 ∧ c ≤ Current) := by
      by_cases hsum : Pattern.PatternSum p Current = 0
      · refine ⟨_, rfl, ?_, ?_⟩
        · rw [if_pos hsum, List.pairwise_append]
          refine ⟨hsorted, List.pairwise_singleton _ _, ?_⟩
          intro a ha b hb
          rw [List.mem_singleton] at hb
          rw [hb]
          exact ((hmem a).1 ha).2
        · intro c
          rw [if_pos hsum, List.mem_append, List.mem_singleton, hmem]
          constructor
          · rintro (⟨h1, h2⟩ | rfl)
            · exact ⟨h1, Nat.le_of_lt h2⟩
            · exact ⟨mem_codesWithSum.2 ⟨mem_codes.1 hcur, hsum⟩, le_refl _⟩
          · rintro ⟨h1, h2⟩
            rcases Nat.eq_or_lt_of_le h2 with h | h
            · exact Or.inr h
            · exact Or.inl ⟨h1, h⟩
      · refine ⟨_, rfl, ?_, ?_⟩
        · rw [if_neg hsum]; exact hsorted
        · intro c
          rw [if_neg hsum, hmem]
          constructor
          · rintro ⟨h1, h2⟩
            exact ⟨h1, Nat.le_of_lt h2⟩
          · rintro ⟨h1, h2⟩
            refine ⟨h1, ?_⟩
            rcases Nat.eq_or_lt_of_le h2 with h | h
            · rw [h] at h1
              exact absurd (mem_codesWithSum.1 h1).2 hsum
            · exact h
    have hsub : Prims1.toFinset ⊆ codesWithSum p k 0 := by
      intro c hc
      rw [List.mem_toFinset] at hc
      exact ((hmem1 c).1 hc).1
    have hcard : Prims1.toFinset.card = Prims1.length :=
      List.toFinset_card_of_nodup (hsorted1.imp (fun h => Nat.ne_of_lt h))
    rw [SelectTrace, hstep]
    simp only [hP1]
    by_cases hlen : Prims1.length < (codesWithSum p k 0).card
    · rw [if_pos hlen]
      -- some primitive pattern is still ahead
      obtain ⟨z, hz, hzn⟩ : ∃ z, z ∈ codesWithSum p k 0 ∧ z ∉ Prims1.toFinset := by
        by_contra hcon
        have hsub2 : codesWithSum p k 0 ⊆ Prims1.toFinset := by
          intro z hz
          by_contra hzn
          exact hcon ⟨z, hz, hzn⟩
        have := Finset.card_le_card hsub2
        omega
      rw [List.mem_toFinset, hmem1] at hzn
      have hzc : Current < z := by
        by_contra hcon
        exact hzn ⟨hz, Nat.le_of_not_lt hcon⟩
      have hz' := (mem_codesWithSum.1 hz).1
      rw [Pattern.AtomNum_eq] at hz'
      have ht : t < p := by
        rcases Nat.eq_or_lt_of_le htp with h | h
        · subst h
          have := hrun.greatest hz'.1 (by rw [hz'.2, hcur'.2])
          omega
        · exact h
      have hn := hnext ht
      have hc'mem : c' ∈ codes p k := by
        rw [mem_codes, Pattern.AtomNum_eq]
        exact ⟨hn.lt_two_pow hcur'.1 ht, by rw [hn.bitCount_eq ht]; exact hcur'.2⟩
      have hlt := hn.lt
      obtain ⟨L, V, hrec, hL1, hL2, hV1, hV2, hV3, hV4⟩ := ih c' Prims1 (by omega) hc'mem hsorted1 (by
        intro c
        rw [hmem1]
        constructor
        · rintro ⟨h1, h2⟩
          exact ⟨h1, by omega⟩
        · rintro ⟨h1, h2⟩
          refine ⟨h1, ?_⟩
          by_contra hcon
          have hc1 := (mem_codesWithSum.1 h1).1
          rw [Pattern.AtomNum_eq] at hc1
          have := hn.least ht (by rw [hc1.2, hcur'.2]) (Nat.lt_of_not_le hcon)
          omega)
      refine ⟨L, Current :: V, ?_, hL1, hL2, ?_, ?_, rfl, ?_⟩
      rotate_left 3
      · rw [List.chain'_cons']
        refine ⟨fun y hy => ?_, hV4⟩
        rw [hV3] at hy
        cases hy
        exact ⟨hstep, hlt⟩
      · rw [hrec]; rfl
      · rw [List.pairwise_cons]
        refine ⟨fun v hv => ?_, hV1⟩
        have := (hV2 v hv).1
        omega
      · intro v hv
        rw [List.mem_cons] at hv
        rcases hv with rfl | hv
        · exact ⟨le_refl _, hcur⟩
        · exact ⟨by have := (hV2 v hv).1; omega, (hV2 v hv).2⟩
    · rw [if_neg hlen]
      refine ⟨Prims1, [Current], rfl, hsorted1, ?_, List.pairwise_singleton _ _, ?_, rfl,
        List.chain'_singleton _⟩
      · intro c
        have heq : Prims1.toFinset = codesWithSum p k 0 :=
          Finset.eq_of_subset_of_card_le hsub (by omega)
        rw [← heq, List.mem_toFinset]
      · intro v hv
        rw [List.mem_singleton] at hv
        rw [hv]
        exact ⟨le_refl _, hcur⟩

theorem lowRun_topCode {p k : Nat} (hk0 : 0 < k) (hkp : k ≤ p) : LowRun (topCode p k) (p - k) p := by
  unfold topCode
  refine ⟨by omega, ?_, ?_, ?_⟩
  · intro i hi
    rw [Nat.testBit_mul_pow_two]
    have : ¬ i ≥ p - k := by omega
    simp [this]
  · intro i hi1 hi2
    rw [Nat.testBit_mul_pow_two, Nat.testBit_two_pow_sub_one]
    have : i - (p - k) < k := by omega
    simp [hi1, this]
  · rw [Nat.testBit_mul_pow_two, Nat.testBit_two_pow_sub_one]
    have : ¬ p - (p - k) < k := by omega
    simp [this]

/-- No code of `k` atoms on `p` sites is larger than `topCode p k`. -/
theorem le_topCode {p k c : Nat} (hk0 : 0 < k) (hkp : k ≤ p) (hc : c ∈ codes p k) :
    c ≤ topCode p k := by
  rw [mem_codes, Pattern.AtomNum_eq] at hc
  have hrun := lowRun_topCode hk0 hkp
  apply hrun.greatest hc.1
  rw [hc.2, hrun.bitCount_run (by omega) (le_refl p)]
  omega

/-- The run of the selection loop of `main` for a prime number `p <= 31` of sites and
`0 < k < p` atoms: with fuel `2^p` or more it ends, the array holds the codes of `k`
atoms with pattern sum 0 in ascending order, and `Current` climbs through codes of `k`
atoms. -/
theorem selectPrimitives_run {p k fuel : Nat} (hprime : Nat.Prime p) (hp : p ≤ 31)
    (hk0 : 0 < k) (hkp : k < p) (hfuel : 2 ^ p ≤ fuel) :
    ∃ L V, SelectTrace p (PrimNum p k) fuel (exp2pow k - 1) [] = some (L, V) ∧
      SelectPrimitives fuel p k = some L ∧
      L.Pairwise (· < ·) ∧ (∀ c, c ∈ L ↔ c ∈ codesWithSum p k 0) ∧
      L.length = PrimNum p k ∧
      V.Pairwise (· < ·) ∧ (∀ v ∈ V, v ∈ codes p k) ∧
      V.Chain' (fun v v' => SelectStep p v = some v' ∧ v < v') := by
  have hstart : exp2pow k - 1 ∈ codes p k := by
    rw [mem_codes, Pattern.AtomNum_eq]
    exact ⟨start_lt (Nat.le_of_lt hkp), bitCount_start (Nat.le_of_lt hkp)⟩
  obtain ⟨L, V, hrun, hL1, hL2, hV1, hV2, _, hV4⟩ :=
    SelectTrace_spec hp hk0 hkp fuel (exp2pow k - 1) [] (by omega) hstart List.Pairwise.nil (by
      intro c
      constructor
      · intro h; simp at h
      · rintro ⟨h1, h2⟩
        have hc := (mem_codesWithSum.1 h1).1
        rw [Pattern.AtomNum_eq] at hc
        have := start_least (Nat.le_of_lt hkp) hc.2
        omega)
  rw [← PrimNum_eq_card hprime hp hk0 hkp] at hrun
  have hlen : L.length = PrimNum p k := by
    rw [PrimNum_eq_card hprime hp hk0 hkp,
      ← List.toFinset_card_of_nodup (hL1.imp (fun h => Nat.ne_of_lt h))]
    congr 1
    ext c
    rw [List.mem_toFinset, hL2]
  refine ⟨L, V, hrun, ?_, hL1, hL2, hlen, hV1, fun v hv => (hV2 v hv).2, hV4⟩
  unfold SelectPrimitives
  rw [← SelectTrace_fst, hrun]
  rfl

/-! ## Rotations and the primitive pattern of a code -/

namespace Pattern

/-- The rotation written out in `Pattern::Primitive` is `operator--`. -/
theorem primitive_rotation (p Code : Nat) :
    (if Code % 2 = 1 then Code ||| exp2pow p else Code) / 2 = rotateDown p Code := by
  unfold rotateDown
  rw [Nat.and_one_is_mod]
  by_cases h : Code % 2 = 1
  · rw [if_pos h, if_pos (by omega)]
  · rw [if_neg h, if_neg (by omega)]

theorem iterate_rotateUp {p k c : Nat} (hp1 : 1 ≤ p) (hp : p ≤ 31) (hc : c < 2 ^ p)
    (hk : AtomNum p c = k) (j : Nat) :
    (rotateUp p)^[j] c < 2 ^ p ∧ AtomNum p ((rotateUp p)^[j] c) = k ∧
      PatternSum p ((rotateUp p)^[j] c) = (PatternSum p c + j * k) % p := by
  induction j with
  | zero =>
    refine ⟨hc, hk, ?_⟩
    simp only [Function.iterate_zero, id_eq, Nat.zero_mul, Nat.add_zero]
    exact (Nat.mod_eq_of_lt (PatternSum_lt hp1 c)).symm
  | succ j ih =>
    obtain ⟨h1, h2, h3⟩ := ih
    rw [Function.iterate_succ_apply']
    refine ⟨rotateUp_lt hp1 hp h1, ?_, ?_⟩
    · rw [AtomNum_rotateUp hp1 hp h1, h2]
    · rw [PatternSum_rotateUp hp1 hp h1, h2, h3, Nat.mod_add_mod]
      congr 1
      ring

theorem iterate_rotateDown {p k c : Nat} (hp1 : 1 ≤ p) (hp : p ≤ 31) (hc : c < 2 ^ p)
    (hk : AtomNum p c = k) (j : Nat) :
    (rotateDown p)^[j] c < 2 ^ p ∧ AtomNum p ((rotateDown p)^[j] c) = k ∧
      (PatternSum p ((rotateDown p)^[j] c) + j * k) % p = PatternSum p c ∧
      (rotateUp p)^[j] ((rotateDown p)^[j] c) = c := by
  induction j with
  | zero =>
    refine ⟨hc, hk, ?_, rfl⟩
    simp only [Function.iterate_zero, id_eq, Nat.zero_mul, Nat.add_zero]
    exact Nat.mod_eq_of_lt (PatternSum_lt hp1 c)
  | succ j ih =>
    obtain ⟨h1, h2, h3, h4⟩ := ih
    rw [Function.iterate_succ_apply']
    refine ⟨rotateDown_lt hp1 h1, ?_, ?_, ?_⟩
    · rw [AtomNum_rotateDown hp1 hp h1, h2]
    · have h5 := PatternSum_rotateDown hp1 hp h1
      rw [h2] at h5
      rw [← h3, ← h5, Nat.mod_add_mod]
      congr 1
      ring
    · rw [Function.iterate_succ_apply, rotateUp_rotateDown hp1 hp h1, h4]

end Pattern

/-- Modulo a prime `p` the multiples `j * k`, `j < p`, of a `k` with `0 < k < p` are
pairwise different. -/
theorem mul_mod_injective {p k i j : Nat} (hprime : Nat.Prime p) (hk0 : 0 < k) (hkp : k < p)
    (hi : i < p) (hj : j < p) (h : i * k % p = j * k % p) : i = j := by
  have hco : Nat.gcd p k = 1 := Nat.coprime_of_lt_prime hk0 hkp hprime
  have h1 : i ≡ j [MOD p] := Nat.ModEq.cancel_right_of_coprime hco h
  unfold Nat.ModEq at h1
  rw [Nat.mod_eq_of_lt hi, Nat.mod_eq_of_lt hj] at h1
  exact h1

/-- Modulo a prime `p` every residue is a multiple `j * k`, `j < p`, of a `k` with
`0 < k < p`. -/
theorem exists_mul_mod_eq {p k r : Nat} (hprime : Nat.Prime p) (hk0 : 0 < k) (hkp : k < p)
    (hr : r < p) : ∃ j, j < p ∧ j * k % p = r := by
  have hco : Nat.Coprime k p := (Nat.coprime_of_lt_prime hk0 hkp hprime).symm
  obtain ⟨m, hm⟩ := Nat.exists_mul_emod_eq_one_of_coprime hco hprime.one_lt
  refine ⟨(m * r) % p, Nat.mod_lt _ hprime.pos, ?_⟩
  rw [Nat.mod_mul_mod]
  have : m * r * k = k * m * r := by ring
  rw [this, Nat.mul_mod, hm, Nat.one_mul, Nat.mod_mod, Nat.mod_eq_of_lt hr]

namespace Pattern

theorem PrimitiveLoop_spec {p k : Nat} (hp1 : 1 ≤ p) (hp : p ≤ 31) :
    ∀ n fuel c Aux : Nat, c < 2 ^ p → AtomNum p c = k →
      PatternSum p ((rotateDown p)^[n] c) = 0 →
      (∀ j, j < n → PatternSum p ((rotateDown p)^[j] c) ≠ 0) → n < fuel →
      PrimitiveLoop p fuel c Aux = some ((rotateDown p)^[n] c, (Aux + n) % p) := by
  intro n
  induction n with
  | zero =>
    intro fuel c Aux _ _ h0 _ hf
    obtain ⟨f, rfl⟩ : ∃ f, fuel = f + 1 := ⟨fuel - 1, by omega⟩
    simp only [Function.iterate_zero, id_eq] at h0
    rw [PrimitiveLoop, if_neg (by simp [h0])]
    rfl
  | succ n ih =>
    intro fuel c Aux hc hk h0 hmin hf
    obtain ⟨f, rfl⟩ : ∃ f, fuel = f + 1 := ⟨fuel - 1, by omega⟩
    have hne : PatternSum p c ≠ 0 := hmin 0 (by omega)
    rw [PrimitiveLoop, if_pos hne, primitive_rotation]
    rw [Function.iterate_succ_apply] at h0
    rw [ih f (rotateDown p c) (Aux + 1) (rotateDown_lt hp1 hc)
      (by rw [AtomNum_rotateDown hp1 hp hc, hk]) h0
      (fun j hj => by
        have := hmin (j + 1) (by omega)
        rw [Function.iterate_succ_apply] at this
        exact this)
      (by omega), Function.iterate_succ_apply]
    congr 3
    omega

/-- The zero of the pattern sum among the backward rotations: the number of rotations
`Primitive()` makes. -/
theorem exists_primitive_shift {p k c : Nat} (hprime : Nat.Prime p) (hp : p ≤ 31)
    (hk0 : 0 < k) (hkp : k < p) (hc : c < 2 ^ p) (hk : AtomNum p c = k) :
    ∃ s, s < p ∧ PatternSum p ((rotateDown p)^[s] c) = 0 ∧
      ∀ j, j < s → PatternSum p ((rotateDown p)^[j] c) ≠ 0 := by
  classical
  have hp1 : 1 ≤ p := hprime.one_lt.le
  obtain ⟨j0, hj0, hj0'⟩ := exists_mul_mod_eq hprime hk0 hkp (PatternSum_lt hp1 c)
  have hex : ∃ s, PatternSum p ((rotateDown p)^[s] c) = 0 := by
    refine ⟨j0, ?_⟩
    have h := (iterate_rotateDown hp1 hp hc hk j0).2.2.1
    rw [← hj0'] at h
    have h2 : PatternSum p ((rotateDown p)^[j0] c) + j0 * k ≡ 0 + j0 * k [MOD p] := by
      unfold Nat.ModEq
      rw [h, Nat.zero_add]
    have h3 := Nat.ModEq.add_right_cancel' _ h2
    unfold Nat.ModEq at h3
    rw [Nat.mod_eq_of_lt (PatternSum_lt hp1 _), Nat.zero_mod] at h3
    exact h3
  refine ⟨Nat.find hex, ?_, Nat.find_spec hex, fun j hj => Nat.find_min hex hj⟩
  have : PatternSum p ((rotateDown p)^[j0] c) = 0 := by
    have h := (iterate_rotateDown hp1 hp hc hk j0).2.2.1
    rw [← hj0'] at h
    have h2 : PatternSum p ((rotateDown p)^[j0] c) + j0 * k ≡ 0 + j0 * k [MOD p] := by
      unfold Nat.ModEq
      rw [h, Nat.zero_add]
    have h3 := Nat.ModEq.add_right_cancel' _ h2
    unfold Nat.ModEq at h3
    rw [Nat.mod_eq_of_lt (PatternSum_lt hp1 _), Nat.zero_mod] at h3
    exact h3
  have := Nat.find_min' hex this
  omega

/-- Two backward rotations by fewer than `p` steps that both reach pattern sum 0 are
the same. -/
theorem primitive_shift_unique {p k c s s' : Nat} (hprime : Nat.Prime p) (hp : p ≤ 31)
    (hk0 : 0 < k) (hkp : k < p) (hc : c < 2 ^ p) (hk : AtomNum p c = k)
    (hs : s < p) (hs' : s' < p) (h : PatternSum p ((rotateDown p)^[s] c) = 0)
    (h' : PatternSum p ((rotateDown p)^[s'] c) = 0) : s = s' := by
  have hp1 : 1 ≤ p := hprime.one_lt.le
  have h1 := (iterate_rotateDown hp1 hp hc hk s).2.2.1
  have h2 := (iterate_rotateDown hp1 hp hc hk s').2.2.1
  rw [h, Nat.zero_add] at h1
  rw [h', Nat.zero_add] at h2
  exact mul_mod_injective hprime hk0 hkp hs hs' (by rw [h1, h2])

/-- The `p` forward rotations of a code of `k` atoms, `0 < k < p`, `p` prime, are
pairwise different. -/
theorem rotations_distinct {p k c i j : Nat} (hprime : Nat.Prime p) (hp : p ≤ 31)
    (hk0 : 0 < k) (hkp : k < p) (hc : c < 2 ^ p) (hk : AtomNum p c = k)
    (hi : i < p) (hj : j < p) (h : (rotateUp p)^[i] c = (rotateUp p)^[j] c) : i = j := by
  have hp1 : 1 ≤ p := hprime.one_lt.le
  have h1 := (iterate_rotateUp hp1 hp hc hk i).2.2
  have h2 := (iterate_rotateUp hp1 hp hc hk j).2.2
  rw [h, h2] at h1
  have h3 : PatternSum p c + j * k ≡ PatternSum p c + i * k [MOD p] := h1
  have h4 := Nat.ModEq.add_left_cancel' _ h3
  exact (mul_mod_injective hprime hk0 hkp hj hi h4).symm

/-- Exactly one of the `p` forward rotations has pattern sum 0. -/
theorem exists_unique_rotation {p k c : Nat} (hprime : Nat.Prime p) (hp : p ≤ 31)
    (hk0 : 0 < k) (hkp : k < p) (hc : c < 2 ^ p) (hk : AtomNum p c = k) :
    ∃! j, j < p ∧ PatternSum p ((rotateUp p)^[j] c) = 0 := by
  have hp1 : 1 ≤ p := hprime.one_lt.le
  have hsum := fun j => (iterate_rotateUp hp1 hp hc hk j).2.2
  -- the residue to reach is `-PatternSum`
  obtain ⟨j0, hj0, hj0'⟩ := exists_mul_mod_eq hprime hk0 hkp
    (Nat.mod_lt (p - PatternSum p c) hprime.pos)
  have hlt := PatternSum_lt hp1 c
  refine ⟨j0, ⟨hj0, ?_⟩, ?_⟩
  · rw [hsum, Nat.add_mod, hj0', Nat.add_mod_mod, Nat.mod_add_mod]
    have : PatternSum p c + (p - PatternSum p c) = p := by omega
    rw [this, Nat.mod_self]
  · rintro j ⟨hj, hj2⟩
    rw [hsum] at hj2
    have h0 : (PatternSum p c + j0 * k) % p = 0 := by
      rw [Nat.add_mod, hj0', Nat.add_mod_mod, Nat.mod_add_mod]
      have : PatternSum p c + (p - PatternSum p c) = p := by omega
      rw [this, Nat.mod_self]
    have h3 : PatternSum p c + j * k ≡ PatternSum p c + j0 * k [MOD p] := by
      unfold Nat.ModEq
      rw [hj2, h0]
    exact mul_mod_injective hprime hk0 hkp hj hj0 (Nat.ModEq.add_left_cancel' _ h3)

end Pattern

namespace Pattern

theorem iterate_rotateDown_rotateUp {p x : Nat} (hp1 : 1 ≤ p) (hp : p ≤ 31) (hx : x < 2 ^ p)
    (j : Nat) : (rotateDown p)^[j] ((rotateUp p)^[j] x) = x := by
  induction j with
  | zero => rfl
  | succ j ih =>
    rw [Function.iterate_succ_apply, Function.iterate_succ_apply',
      rotateDown_rotateUp hp1 hp (iterate_rotateUp hp1 hp hx rfl j).1, ih]

/-- What `Primitive()` does on a code of `k` atoms, `0 < k < p`, `p <= 31` prime. -/
theorem primitive_run {p k c : Nat} (hprime : Nat.Prime p) (hp : p ≤ 31)
    (hk0 : 0 < k) (hkp : k < p) (hc : c < 2 ^ p) (hk : AtomNum p c = k) :
    ∃ s, s < p ∧ (∀ fuel, s < fuel → Primitive fuel p c = some ((rotateDown p)^[s] c, s)) ∧
      PatternSum p ((rotateDown p)^[s] c) = 0 ∧ (rotateDown p)^[s] c < 2 ^ p ∧
      AtomNum p ((rotateDown p)^[s] c) = k ∧ (rotateUp p)^[s] ((rotateDown p)^[s] c) = c := by
  have hp1 : 1 ≤ p := hprime.one_lt.le
  obtain ⟨s, hs, h0, hmin⟩ := exists_primitive_shift hprime hp hk0 hkp hc hk
  obtain ⟨h1, h2, _, h4⟩ := iterate_rotateDown hp1 hp hc hk s
  refine ⟨s, hs, ?_, h0, h1, h2, h4⟩
  intro fuel hf
  unfold Primitive
  rw [PrimitiveLoop_spec hp1 hp s fuel c 0 hc hk h0 hmin hf, Nat.zero_add, Nat.mod_eq_of_lt hs]

end Pattern

/-! ## Mirror images and single moves -/

namespace Pattern

theorem testBit_MirrorLoop (p c : Nat) : ∀ n i0 Aux : Nat, 1 ≤ i0 → i0 + n ≤ p → ∀ j,
    (MirrorLoop p c n i0 Aux).testBit j =
      (Aux.testBit j ||
        (decide (1 ≤ j ∧ j < p ∧ i0 ≤ p - j ∧ p - j < i0 + n) && c.testBit (p - j))) := by
  intro n
  induction n with
  | zero =>
    intro i0 Aux _ _ j
    have : ¬ (1 ≤ j ∧ j < p ∧ i0 ≤ p - j ∧ p - j < i0 + 0) := by omega
    simp [MirrorLoop, this]
  | succ n ih =>
    intro i0 Aux h1 h2 j
    rw [MirrorLoop, ih (i0 + 1) _ (by omega) (by omega) j]
    by_cases hb : c.testBit i0 = true
    · rw [if_pos ((and_exp2pow_eq_self c i0).2 hb), Nat.testBit_or, testBit_exp2pow]
      by_cases hj : p - i0 = j
      · have h3 : 1 ≤ j ∧ j < p ∧ i0 ≤ p - j ∧ p - j < i0 + (n + 1) := by omega
        have h4 : p - j = i0 := by omega
        simp [hj, h3, h4, hb]
      · by_cases h5 : 1 ≤ j ∧ j < p ∧ i0 + 1 ≤ p - j ∧ p - j < i0 + 1 + n
        · have h6 : 1 ≤ j ∧ j < p ∧ i0 ≤ p - j ∧ p - j < i0 + (n + 1) := by omega
          simp [hj, h5, h6]
        · have h6 : ¬ (1 ≤ j ∧ j < p ∧ i0 ≤ p - j ∧ p - j < i0 + (n + 1)) := by omega
          simp [hj, h5, h6]
    · rw [if_neg (fun h => hb ((and_exp2pow_eq_self c i0).1 h))]
      have hb' : c.testBit i0 = false := by simpa using hb
      by_cases h5 : 1 ≤ j ∧ j < p ∧ i0 + 1 ≤ p - j ∧ p - j < i0 + 1 + n
      · have h6 : 1 ≤ j ∧ j < p ∧ i0 ≤ p - j ∧ p - j < i0 + (n + 1) := by omega
        simp [h5, h6]
      · by_cases h6 : 1 ≤ j ∧ j < p ∧ i0 ≤ p - j ∧ p - j < i0 + (n + 1)
        · have h7 : p - j = i0 := by omega
          simp [h5, h6, h7, hb']
        · simp [h5, h6]

/-- Bits of the mirror image: site 0 stays, site `j` takes the atom of site `p - j`. -/
theorem testBit_Mirror {p : Nat} (hp1 : 1 ≤ p) (c j : Nat) :
    (Mirror p c).testBit j =
      if j = 0 then c.testBit 0 else (decide (j < p) && c.testBit (p - j)) := by
  unfold Mirror
  rw [testBit_MirrorLoop p c (p - 1) 1 _ (le_refl 1) (by omega)]
  have h1 : ∀ i, (c &&& 1).testBit i = (decide (i = 0) && c.testBit 0) := by
    intro i
    rw [Nat.testBit_land]
    have : (1 : Nat).testBit i = decide (i = 0) := by
      have := testBit_exp2pow 0 i
      simp only [exp2pow, pow_zero] at this
      rw [this]
      by_cases h : i = 0
      · simp [h]
      · have : ¬ 0 = i := by omega
        simp [h, this]
    rw [this]
    by_cases h : i = 0
    · simp [h]
    · simp [h]
  rw [h1]
  by_cases hj : j = 0
  · have : ¬ (1 ≤ j ∧ j < p ∧ 1 ≤ p - j ∧ p - j < 1 + (p - 1)) := by omega
    simp [hj]
  · by_cases hjp : j < p
    · have : 1 ≤ j ∧ j < p ∧ 1 ≤ p - j ∧ p - j < 1 + (p - 1) := by omega
      simp [hj, hjp, this]
    · have : ¬ (1 ≤ j ∧ j < p ∧ 1 ≤ p - j ∧ p - j < 1 + (p - 1)) := by omega
      simp [hj, hjp, this]

theorem Mirror_lt {p : Nat} (hp1 : 1 ≤ p) (c : Nat) : Mirror p c < 2 ^ p := by
  apply lt_two_pow_of_bits
  intro i hi
  rw [testBit_Mirror hp1]
  have h1 : i ≠ 0 := by omega
  have h2 : ¬ i < p := by omega
  simp [h1, h2]

theorem AtomNum_Mirror {p : Nat} (hp1 : 1 ≤ p) (c : Nat) :
    AtomNum p (Mirror p c) = AtomNum p c := by
  obtain ⟨n, rfl⟩ : ∃ n, p = n + 1 := ⟨p - 1, by omega⟩
  rw [AtomNum_eq, AtomNum_eq]
  unfold bitCount
  rw [← Finset.range_eq_Ico, Finset.sum_range_succ', Finset.sum_range_succ']
  congr 1
  · rw [← Finset.sum_range_reflect]
    apply Finset.sum_congr rfl
    intro i hi
    rw [Finset.mem_range] at hi
    rw [testBit_Mirror hp1]
    have h1 : n - 1 - i + 1 ≠ 0 := by omega
    have h2 : n - 1 - i + 1 < n + 1 := by omega
    have h3 : n + 1 - (n - 1 - i + 1) = i + 1 := by omega
    simp [h2, h3]
  · rw [testBit_Mirror hp1]
    simp

end Pattern

/-- Moving one atom from an occupied site `a` to an empty site `b` keeps the number
of atoms. -/
theorem bitCount_move {p a b c c' : Nat} (ha : a < p) (hb : b < p)
    (hca : c.testBit a = true) (hcb : c.testBit b = false)
    (hbits : ∀ i, c'.testBit i = (decide (i = b) || (c.testBit i && !decide (i = a)))) :
    bitCount 0 p c' = bitCount 0 p c := by
  have hab : a ≠ b := by
    rintro rfl
    rw [hca] at hcb
    exact absurd hcb (by simp)
  have key : bitCount 0 p c' + (∑ i ∈ Finset.Ico 0 p, if i = a then 1 else 0) =
      bitCount 0 p c + ∑ i ∈ Finset.Ico 0 p, if i = b then 1 else 0 := by
    unfold bitCount
    rw [← Finset.sum_add_distrib, ← Finset.sum_add_distrib]
    apply Finset.sum_congr rfl
    intro i _
    rw [hbits]
    by_cases h1 : i = b
    · have h2 : ¬ i = a := by omega
      simp [h1, hcb, Ne.symm hab]
    · by_cases h2 : i = a
      · simp [h2, hca, hab]
      · by_cases h3 : c.testBit i = true <;> simp [h1, h2, h3]
  have h1 : (∑ i ∈ Finset.Ico 0 p, if i = a then 1 else 0) = 1 := by
    rw [Finset.sum_ite_eq' (Finset.Ico 0 p) a (fun _ => 1)]
    simp [ha]
  have h2 : (∑ i ∈ Finset.Ico 0 p, if i = b then 1 else 0) = 1 := by
    rw [Finset.sum_ite_eq' (Finset.Ico 0 p) b (fun _ => 1)]
    simp [hb]
  omega

/-- The code `Increment` and `Decrement` write: the atom of site `a` set on site `b`. -/
theorem testBit_move {p a b c : Nat} (hp : p ≤ 31) (hc : c < 2 ^ p) (ha : a < p) (i : Nat) :
    ((c &&& bitNot (exp2pow a)) ||| exp2pow b).testBit i =
      (decide (i = b) || (c.testBit i && !decide (i = a))) := by
  rw [Nat.testBit_or, Nat.testBit_land, testBit_bitNot (exp2pow_lt_word (by omega)),
    testBit_exp2pow, testBit_exp2pow, Bool.or_comm]
  have e1 : decide (b = i) = decide (i = b) := by
    by_cases h : i = b
    · simp [h]
    · have : ¬ b = i := fun h' => h h'.symm
      simp [h, this]
  have e2 : decide (a = i) = decide (i = a) := by
    by_cases h : i = a
    · simp [h]
    · have : ¬ a = i := fun h' => h h'.symm
      simp [h, this]
  rw [e1, e2]
  by_cases h32 : i < 32
  · simp [h32]
  · have : c.testBit i = false := testBit_of_lt hc (by omega)
    simp [this]

theorem move_lt {p a b c : Nat} (hp : p ≤ 31) (hc : c < 2 ^ p) (ha : a < p) (hb : b < p) :
    (c &&& bitNot (exp2pow a)) ||| exp2pow b < 2 ^ p := by
  apply lt_two_pow_of_bits
  intro i hi
  rw [testBit_move hp hc ha]
  have h1 : ¬ i = b := by omega
  simp [h1, testBit_of_lt hc hi]

/-! ## Blocked moves -/

theorem bitCount_mono {a b : Nat} (c : Nat) (h : a ≤ b) : bitCount 0 a c ≤ bitCount 0 b c := by
  rw [bitCount_split c (Nat.zero_le a) h]
  omega

theorem testBit_of_bitCount_zero {a c i : Nat} (h : bitCount 0 a c = 0) (hi : i < a) :
    c.testBit i = false := by
  by_contra hb
  have hb' : c.testBit i = true := by simpa using hb
  have := bitCount_three c hi
  rw [if_pos hb'] at this
  omega

theorem tmod_sites {a a2 p : Nat} (h2 : a2 < p) :
    Int.tmod ((a : Int) - (a2 : Int) + (p : Int)) (p : Int) = (((a + p - a2) % p : Nat) : Int) := by
  have h : (a : Int) - (a2 : Int) + (p : Int) = ((a + p - a2 : Nat) : Int) := by omega
  rw [h, Int.ofNat_tmod]

namespace Pattern

theorem IncrementSiteBlocked_eq {p nu c a : Nat} (h : Element nu c = some a) :
    IncrementSiteBlocked p nu c = some (c.testBit ((a + 1) % p)) := by
  unfold IncrementSiteBlocked
  rw [h, Option.map_some']
  congr 1
  by_cases hb : c.testBit ((a + 1) % p) = true
  · rw [hb, decide_eq_true_iff, and_exp2pow_ne_zero]
    exact hb
  · have hb' : c.testBit ((a + 1) % p) = false := by simpa using hb
    rw [hb', decide_eq_false_iff_not, and_exp2pow_ne_zero, hb']
    simp

/-- `DecrementSiteBlocked(nu)` tells whether the site before atom `nu` is occupied. -/
theorem DecrementSiteBlocked_eq {p k nu c a : Nat} (hp2 : 2 ≤ p) (hp : p ≤ 31)
    (hk : AtomNum p c = k) (h1 : 1 ≤ nu) (h2 : nu ≤ k)
    (h : Element nu c = some a) :
    DecrementSiteBlocked p k nu c = some (c.testBit ((a + p - 1) % p)) := by
  obtain ⟨hap, hbit, hcnt⟩ := Element_some (by omega) hk h1 h2 h
  have hpred1 : 1 ≤ (nu + k - 2) % k + 1 := by omega
  have hpred2 : (nu + k - 2) % k + 1 ≤ k := by
    have := Nat.mod_lt (nu + k - 2) (by omega : k > 0)
    omega
  obtain ⟨a2, ha2p, hbit2, hcnt2, helem2⟩ := Element_exists (by omega) hk hpred1 hpred2
  have hk' := hk
  rw [AtomNum_eq] at hk'
  unfold DecrementSiteBlocked
  rw [h, helem2]
  simp only [Option.bind_some, Option.some_bind, Option.map_some', tmod_sites ha2p]
  congr 1
  by_cases hnu : 2 ≤ nu
  · -- the atom before is atom `nu - 1`
    have hpred : (nu + k - 2) % k + 1 = nu - 1 := by
      have : nu + k - 2 = nu - 2 + k := by omega
      rw [this, Nat.add_mod_right, Nat.mod_eq_of_lt (by omega)]
      omega
    rw [hpred] at hcnt2
    have hlt : a2 < a := by
      by_contra hcon
      have := bitCount_mono c (Nat.le_of_not_lt hcon)
      omega
    have hmod1 : (a + p - a2) % p = a - a2 := by
      have : a + p - a2 = a - a2 + p := by omega
      rw [this, Nat.add_mod_right, Nat.mod_eq_of_lt (by omega)]
    have hmod2 : (a + p - 1) % p = a - 1 := by
      have : a + p - 1 = a - 1 + p := by omega
      rw [this, Nat.add_mod_right, Nat.mod_eq_of_lt (by omega)]
    rw [hmod1, hmod2]
    by_cases hb : c.testBit (a - 1) = true
    · have hcnt3 : bitCount 0 (a - 1) c + 1 = nu - 1 := by
        have := bitCount_succ_right (a - 1) c
        rw [if_pos hb] at this
        have e : a - 1 + 1 = a := by omega
        rw [e] at this
        omega
      have := nth_bit_unique hb hcnt3 hbit2 hcnt2
      rw [hb, decide_eq_true_iff]
      omega
    · have hb' : c.testBit (a - 1) = false := by simpa using hb
      rw [hb', decide_eq_false_iff_not]
      intro hcon
      have : a2 = a - 1 := by omega
      rw [this, hb'] at hbit2
      exact absurd hbit2 (by simp)
  · -- atom 1: the atom before is atom `k`
    have hnu1 : nu = 1 := by omega
    subst hnu1
    have hpred : (1 + k - 2) % k + 1 = k := by
      have : 1 + k - 2 = k - 1 := by omega
      rw [this, Nat.mod_eq_of_lt (by omega)]
      omega
    rw [hpred] at hcnt2
    have hzero : bitCount 0 a c = 0 := by omega
    have hle : a ≤ a2 := by
      by_contra hcon
      have h3 := bitCount_mono c (by omega : a2 + 1 ≤ a)
      have h4 := bitCount_succ_right a2 c
      rw [if_pos hbit2] at h4
      omega
    by_cases ha0 : a = 0
    · subst ha0
      have hmod2 : (0 + p - 1) % p = p - 1 := by
        rw [Nat.zero_add, Nat.mod_eq_of_lt (by omega)]
      rw [hmod2]
      by_cases hb : c.testBit (p - 1) = true
      · have hcnt3 : bitCount 0 (p - 1) c + 1 = k := by
          have := bitCount_succ_right (p - 1) c
          rw [if_pos hb] at this
          have e : p - 1 + 1 = p := by omega
          rw [e] at this
          omega
        have := nth_bit_unique hb hcnt3 hbit2 hcnt2
        rw [hb, decide_eq_true_iff, ← this]
        have e : 0 + p - (p - 1) = 1 := by omega
        rw [e, Nat.mod_eq_of_lt (by omega)]
        rfl
      · have hb' : c.testBit (p - 1) = false := by simpa using hb
        rw [hb', decide_eq_false_iff_not]
        intro hcon
        have hne : a2 ≠ p - 1 := by
          intro h5
          rw [h5, hb'] at hbit2
          exact absurd hbit2 (by simp)
        by_cases h6 : a2 = 0
        · rw [h6] at hcon
          simp at hcon
        · rw [Nat.mod_eq_of_lt (by omega)] at hcon
          omega
    · have hmod2 : (a + p - 1) % p = a - 1 := by
        have : a + p - 1 = a - 1 + p := by omega
        rw [this, Nat.add_mod_right, Nat.mod_eq_of_lt (by omega)]
      rw [hmod2, testBit_of_bitCount_zero hzero (by omega), decide_eq_false_iff_not]
      intro hcon
      by_cases h6 : a2 = a
      · rw [h6] at hcon
        have e : a + p - a = p := by omega
        rw [e, Nat.mod_self] at hcon
        omega
      · rw [Nat.mod_eq_of_lt (by omega)] at hcon
        omega

/-- `Increment(nu)` on a code of `p` sites: the atom of site `a` is set on the next
site and the type of jump is read off the new code. -/
theorem Increment_eq {p nu c a : Nat} (h : Element nu c = some a) :
    Increment p nu c = some ((c &&& bitNot (exp2pow a)) ||| exp2pow ((a + 1) % p),
      (if ((c &&& bitNot (exp2pow a)) ||| exp2pow ((a + 1) % p)).testBit ((a + p - 1) % p) = true
        then 1 else 0) +
      (if ((c &&& bitNot (exp2pow a)) ||| exp2pow ((a + 1) % p)).testBit ((a + 2) % p) = true
        then 2 else 0)) := by
  unfold Increment
  rw [h, Option.map_some']
  simp only [and_exp2pow_ne_zero]

/-- `Decrement(nu)` on a code of `p` sites: the atom of site `a` is set on the site
before and the type of jump is read off the new code. -/
theorem Decrement_eq {p nu c a : Nat} (h : Element nu c = some a) :
    Decrement p nu c = some ((c &&& bitNot (exp2pow a)) ||| exp2pow ((a + p - 1) % p),
      (if ((c &&& bitNot (exp2pow a)) ||| exp2pow ((a + p - 1) % p)).testBit ((a + 1) % p) = true
        then 1 else 0) +
      (if ((c &&& bitNot (exp2pow a)) ||| exp2pow ((a + p - 1) % p)).testBit ((a + p - 2) % p) = true
        then 2 else 0)) := by
  unfold Decrement
  rw [h, Option.map_some']
  simp only [and_exp2pow_ne_zero]

end Pattern

/-! ## Neighbouring sites on the ring -/

theorem site_add_one {a p : Nat} (ha : a < p) : (a + 1) % p = if a + 1 = p then 0 else a + 1 := by
  split
  · next h => rw [h, Nat.mod_self]
  · next h => exact Nat.mod_eq_of_lt (by omega)

theorem site_add_two {a p : Nat} (ha : a < p) (hp : 2 ≤ p) :
    (a + 2) % p = if a + 2 < p then a + 2 else a + 2 - p := by
  split
  · next h => exact Nat.mod_eq_of_lt h
  · next h =>
    have : a + 2 = a + 2 - p + p := by omega
    rw [this, Nat.add_mod_right, Nat.mod_eq_of_lt (by omega)]
    omega

theorem site_sub_one {a p : Nat} (ha : a < p) :
    (a + p - 1) % p = if a = 0 then p - 1 else a - 1 := by
  split
  · next h =>
    subst h
    rw [Nat.zero_add, Nat.mod_eq_of_lt (by omega)]
  · next h =>
    have : a + p - 1 = a - 1 + p := by omega
    rw [this, Nat.add_mod_right, Nat.mod_eq_of_lt (by omega)]

theorem site_sub_two {a p : Nat} (ha : a < p) (hp : 2 ≤ p) :
    (a + p - 2) % p = if 2 ≤ a then a - 2 else a + p - 2 := by
  split
  · next h =>
    have : a + p - 2 = a - 2 + p := by omega
    rw [this, Nat.add_mod_right, Nat.mod_eq_of_lt (by omega)]
  · next h => exact Nat.mod_eq_of_lt (by omega)

namespace Pattern

theorem PrimitiveLoop_valid {p k : Nat} (hp1 : 1 ≤ p) (hp : p ≤ 31) :
    ∀ fuel c Aux c' s : Nat, PrimitiveLoop p fuel c Aux = some (c', s) → c < 2 ^ p →
      AtomNum p c = k → c' < 2 ^ p ∧ AtomNum p c' = k := by
  intro fuel
  induction fuel with
  | zero => intro c Aux c' s h; simp [PrimitiveLoop] at h
  | succ fuel ih =>
    intro c Aux c' s h hc hk
    rw [PrimitiveLoop] at h
    by_cases h0 : PatternSum p c ≠ 0
    · rw [if_pos h0, primitive_rotation] at h
      exact ih _ _ _ _ h (rotateDown_lt hp1 hc) (by rw [AtomNum_rotateDown hp1 hp hc, hk])
    · rw [if_neg h0] at h
      simp only [Option.some.injEq, Prod.mk.injEq] at h
      rw [← h.1]
      exact ⟨hc, hk⟩

/-- An increment that is not blocked moves the atom of site `a` to the empty next site. -/
theorem Increment_valid {p k nu c : Nat} (hp2 : 2 ≤ p) (hp : p ≤ 31) (hc : c < 2 ^ p)
    (hk : AtomNum p c = k) (h1 : 1 ≤ nu) (h2 : nu ≤ k)
    (hfree : IncrementSiteBlocked p nu c = some false) :
    ∃ a c' T, Element nu c = some a ∧ a < p ∧ c.testBit a = true ∧
      c.testBit ((a + 1) % p) = false ∧ Increment p nu c = some (c', T) ∧
      c' = (c &&& bitNot (exp2pow a)) ||| exp2pow ((a + 1) % p) ∧
      c' < 2 ^ p ∧ AtomNum p c' = k := by
  obtain ⟨a, hap, hbit, _, helem⟩ := Element_exists (by omega) hk h1 h2
  rw [IncrementSiteBlocked_eq helem] at hfree
  have hempty : c.testBit ((a + 1) % p) = false := by simpa using hfree
  have hb : (a + 1) % p < p := Nat.mod_lt _ (by omega)
  refine ⟨a, _, _, helem, hap, hbit, hempty, Increment_eq helem, rfl, move_lt hp hc hap hb, ?_⟩
  rw [AtomNum_eq, bitCount_move hap hb hbit hempty (testBit_move hp hc hap), ← AtomNum_eq, hk]

/-- A decrement that is not blocked moves the atom of site `a` to the empty site before. -/
theorem Decrement_valid {p k nu c : Nat} (hp2 : 2 ≤ p) (hp : p ≤ 31) (hc : c < 2 ^ p)
    (hk : AtomNum p c = k) (h1 : 1 ≤ nu) (h2 : nu ≤ k)
    (hfree : DecrementSiteBlocked p k nu c = some false) :
    ∃ a c' T, Element nu c = some a ∧ a < p ∧ c.testBit a = true ∧
      c.testBit ((a + p - 1) % p) = false ∧ Decrement p nu c = some (c', T) ∧
      c' = (c &&& bitNot (exp2pow a)) ||| exp2pow ((a + p - 1) % p) ∧
      c' < 2 ^ p ∧ AtomNum p c' = k := by
  obtain ⟨a, hap, hbit, _, helem⟩ := Element_exists (by omega) hk h1 h2
  rw [DecrementSiteBlocked_eq hp2 hp hk h1 h2 helem] at hfree
  have hempty : c.testBit ((a + p - 1) % p) = false := by simpa using hfree
  have hb : (a + p - 1) % p < p := Nat.mod_lt _ (by omega)
  refine ⟨a, _, _, helem, hap, hbit, hempty, Decrement_eq helem, rfl, move_lt hp hc hap hb, ?_⟩
  rw [AtomNum_eq, bitCount_move hap hb hbit hempty (testBit_move hp hc hap), ← AtomNum_eq, hk]

end Pattern

/-! ## Looking up a primitive pattern -/

theorem pairwise_lt_get {L : List Nat} (hL : L.Pairwise (· < ·)) {i j : Nat} {x y : Nat}
    (hi : L.get? i = some x) (hj : L.get? j = some y) (hij : i < j) : x < y := by
  rw [List.get?_eq_getElem?, List.getElem?_eq_some] at hi hj
  obtain ⟨h1, rfl⟩ := hi
  obtain ⟨h2, rfl⟩ := hj
  exact List.pairwise_iff_getElem.1 hL i j h1 h2 hij

theorem PatternPositionLoop_spec {L : List Nat} (hL : L.Pairwise (· < ·)) {x idx : Nat}
    (hidx : L.get? idx = some x) :
    ∀ fuel Aux1 Aux2 : Nat, Aux1 ≤ idx → idx < Aux2 → Aux2 ≤ L.length → Aux2 - Aux1 ≤ fuel →
      PatternPositionLoop L x fuel Aux1 Aux2 = some idx := by
  intro fuel
  induction fuel with
  | zero => intro Aux1 Aux2 h1 h2 _ h4; omega
  | succ fuel ih =>
    intro Aux1 Aux2 h1 h2 h3 h4
    have hcur : (Aux1 + Aux2) / 2 < L.length := by omega
    obtain ⟨v, hv⟩ : ∃ v, L.get? ((Aux1 + Aux2) / 2) = some v := by
      rw [List.get?_eq_getElem?]
      exact ⟨L[(Aux1 + Aux2) / 2], List.getElem?_eq_getElem hcur⟩
    rw [PatternPositionLoop]
    simp only [hv]
    rcases Nat.lt_trichotomy x v with hlt | heq | hgt
    · have hi : idx < (Aux1 + Aux2) / 2 := by
        by_contra hcon
        rcases Nat.eq_or_lt_of_le (Nat.le_of_not_lt hcon) with h | h
        · rw [h, hidx] at hv
          cases hv
          omega
        · have := pairwise_lt_get hL hv hidx h
          omega
      rw [if_pos (by omega : x ≠ v), if_neg (by omega : ¬ x > v), if_neg (by omega : ¬ x > v)]
      exact ih _ _ h1 hi (by omega) (by omega)
    · rw [if_neg (by omega : ¬ x ≠ v)]
      congr 1
      by_contra hne
      rcases Nat.lt_or_gt_of_ne hne with h | h
      · have := pairwise_lt_get hL hv hidx h
        omega
      · have := pairwise_lt_get hL hidx hv h
        omega
    · have hi : (Aux1 + Aux2) / 2 < idx := by
        by_contra hcon
        rcases Nat.eq_or_lt_of_le (Nat.le_of_not_lt hcon) with h | h
        · rw [h, hv] at hidx
          cases hidx
          omega
        · have := pairwise_lt_get hL hidx hv h
          omega
      rw [if_pos (by omega : x ≠ v), if_pos hgt, if_pos hgt]
      exact ih _ _ (by omega) h2 h3 (by omega)

/-- In a strictly ascending array `PatternPosition` finds every code that occurs, with
fuel the length of the array or more. -/
theorem PatternPosition_spec {L : List Nat} (hL : L.Pairwise (· < ·)) {x idx fuel : Nat}
    (hidx : L.get? idx = some x) (hfuel : L.length ≤ fuel) :
    PatternPosition fuel L x = some idx := by
  have hlt : idx < L.length := by
    rw [List.get?_eq_getElem?, List.getElem?_eq_some] at hidx
    exact hidx.1
  exact PatternPositionLoop_spec hL hidx fuel 0 L.length (Nat.zero_le _) hlt (le_refl _) (by omega)

theorem exists_get_of_mem {L : List Nat} {x : Nat} (h : x ∈ L) :
    ∃ idx, idx < L.length ∧ L.get? idx = some x := by
  obtain ⟨n, hn, rfl⟩ := List.getElem_of_mem h
  exact ⟨n, hn, by rw [List.get?_eq_getElem?]; exact List.getElem?_eq_getElem hn⟩

/-! ## The rate tables -/

theorem IncrementShift_eq (fuel p : Nat) (L : List Nat) (i j : Nat) (t : RateTables) :
    IncrementShift fuel p L i j t = (incMove fuel p L i j).map (applyInc L.length t i) := by
  unfold IncrementShift incMove
  cases L.get? i with
  | none => rfl
  | some c =>
    simp only [Option.some_bind, Option.bind_some]
    cases Pattern.IncrementSiteBlocked p j c with
    | none => rfl
    | some b =>
      simp only [Option.some_bind, Option.bind_some]
      cases b with
      | true => simp [applyInc]
      | false =>
        simp only [if_true]
        cases Pattern.Increment p j c with
        | none => rfl
        | some r =>
          simp only [Option.some_bind, Option.bind_some]
          cases Pattern.Primitive fuel p r.1 with
          | none => rfl
          | some s =>
            simp only [Option.some_bind, Option.bind_some]
            cases PatternPosition fuel L s.1 with
            | none => rfl
            | some P => rfl

theorem DecrementShift_eq (fuel p k : Nat) (L : List Nat) (i j : Nat) (t : RateTables) :
    DecrementShift fuel p k L i j t = (decMove fuel p k L i j).map (applyDec L.length t i) := by
  unfold DecrementShift decMove
  cases L.get? i with
  | none => rfl
  | some c =>
    simp only [Option.some_bind, Option.bind_some]
    cases Pattern.DecrementSiteBlocked p k j c with
    | none => rfl
    | some b =>
      simp only [Option.some_bind, Option.bind_some]
      cases b with
      | true => simp [applyDec]
      | false =>
        simp only [if_true]
        cases Pattern.Decrement p j c with
        | none => rfl
        | some r =>
          simp only [Option.some_bind, Option.bind_some]
          cases Pattern.Primitive fuel p r.1 with
          | none => rfl
          | some s =>
            simp only [Option.some_bind, Option.bind_some]
            cases PatternPosition fuel L s.1 with
            | none => rfl
            | some P => rfl

theorem coeff_bump {T' : Nat} (hT : T' < 4) (d : DecayCoefficients) (T : Nat) :
    (d.bump T).coeff T' = d.coeff T' + if T = T' then 1 else 0 := by
  match T, T', hT with
  | 0, 0, _ => rfl
  | 0, 1, _ => rfl
  | 0, 2, _ => rfl
  | 0, 3, _ => rfl
  | 1, 0, _ => rfl
  | 1, 1, _ => rfl
  | 1, 2, _ => rfl
  | 1, 3, _ => rfl
  | 2, 0, _ => rfl
  | 2, 1, _ => rfl
  | 2, 2, _ => rfl
  | 2, 3, _ => rfl
  | 3, 0, _ => rfl
  | 3, 1, _ => rfl
  | 3, 2, _ => rfl
  | 3, 3, _ => rfl
  | T + 4, 0, _ => rfl
  | T + 4, 1, _ => rfl
  | T + 4, 2, _ => rfl
  | T + 4, 3, _ => rfl

theorem coeff_bumpAt {T' : Nat} (hT : T' < 4) (tbl : Nat → DecayCoefficients) (idx T n : Nat) :
    (bumpAt tbl idx T n).coeff T' = (tbl n).coeff T' + if (n = idx ∧ T = T') then 1 else 0 := by
  unfold bumpAt
  by_cases h : n = idx
  · rw [if_pos h, coeff_bump hT]
    by_cases h2 : T = T' <;> simp [h, h2]
  · rw [if_neg h]
    simp [h]

theorem coeff_applyInc {T' : Nat} (hT : T' < 4) (N : Nat) (t : RateTables) (i : Nat)
    (e : Option (Nat × Nat)) (n : Nat) :
    ((applyInc N t i e).Diagonal n).coeff T' =
        (t.Diagonal n).coeff T' + (if (i = n ∧ moveType (some e) = some T') then 1 else 0) ∧
    ((applyInc N t i e).Forward n).coeff T' =
        (t.Forward n).coeff T' + (if moveHit N i (some e) = some (n, T') then 1 else 0) ∧
    ((applyInc N t i e).Backward n).coeff T' = (t.Backward n).coeff T' := by
  cases e with
  | none => simp [applyInc, moveType, moveHit]
  | some r =>
    simp only [applyInc, moveType, moveHit, Option.some_bind, Option.bind_some, id_eq,
      Option.map_some', Option.some.injEq, Prod.mk.injEq]
    refine ⟨?_, ?_, trivial⟩
    · rw [coeff_bumpAt hT]
      by_cases h : n = i ∧ r.2 = T'
      · rw [if_pos h, if_pos ⟨h.1.symm, h.2⟩]
      · rw [if_neg h, if_neg (fun h' => h ⟨h'.1.symm, h'.2⟩)]
    · rw [coeff_bumpAt hT]
      by_cases h : n = Element N r.1 i ∧ r.2 = T'
      · rw [if_pos h, if_pos ⟨h.1.symm, h.2⟩]
      · rw [if_neg h, if_neg (fun h' => h ⟨h'.1.symm, h'.2⟩)]

theorem coeff_applyDec {T' : Nat} (hT : T' < 4) (N : Nat) (t : RateTables) (i : Nat)
    (e : Option (Nat × Nat)) (n : Nat) :
    ((applyDec N t i e).Diagonal n).coeff T' =
        (t.Diagonal n).coeff T' + (if (i = n ∧ moveType (some e) = some T') then 1 else 0) ∧
    ((applyDec N t i e).Forward n).coeff T' = (t.Forward n).coeff T' ∧
    ((applyDec N t i e).Backward n).coeff T' =
        (t.Backward n).coeff T' + (if moveHit N i (some e) = some (n, T') then 1 else 0) := by
  cases e with
  | none => simp [applyDec, moveType, moveHit]
  | some r =>
    simp only [applyDec, moveType, moveHit, Option.some_bind, Option.bind_some, id_eq,
      Option.map_some', Option.some.injEq, Prod.mk.injEq]
    refine ⟨?_, trivial, ?_⟩
    · rw [coeff_bumpAt hT]
      by_cases h : n = i ∧ r.2 = T'
      · rw [if_pos h, if_pos ⟨h.1.symm, h.2⟩]
      · rw [if_neg h, if_neg (fun h' => h ⟨h'.1.symm, h'.2⟩)]
    · rw [coeff_bumpAt hT]
      by_cases h : n = Element N r.1 i ∧ r.2 = T'
      · rw [if_pos h, if_pos ⟨h.1.symm, h.2⟩]
      · rw [if_neg h, if_neg (fun h' => h ⟨h'.1.symm, h'.2⟩)]

/-- The rate matrix loop over a list of pairs `(i, j)`: when every move returns, the
loop returns, and each counter has risen by the number of moves that hit it. -/
theorem assemble_fold (fuel p k : Nat) (L : List Nat) : ∀ (ps : List (Nat × Nat)) (t0 : RateTables),
    (∀ ij ∈ ps, (∃ e, incMove fuel p L ij.1 ij.2 = some e) ∧
      (∃ e, decMove fuel p k L ij.1 ij.2 = some e)) →
    ∃ t, ps.foldlM (fun t ij => (IncrementShift fuel p L ij.1 ij.2 t).bind
        (DecrementShift fuel p k L ij.1 ij.2)) t0 = some t ∧
      ∀ n T', T' < 4 →
        (t.Diagonal n).coeff T' = (t0.Diagonal n).coeff T' +
          ps.countP (fun ij => decide (ij.1 = n ∧
            moveType (incMove fuel p L ij.1 ij.2) = some T')) +
          ps.countP (fun ij => decide (ij.1 = n ∧
            moveType (decMove fuel p k L ij.1 ij.2) = some T')) ∧
        (t.Forward n).coeff T' = (t0.Forward n).coeff T' +
          ps.countP (fun ij => decide
            (moveHit L.length ij.1 (incMove fuel p L ij.1 ij.2) = some (n, T'))) ∧
        (t.Backward n).coeff T' = (t0.Backward n).coeff T' +
          ps.countP (fun ij => decide
            (moveHit L.length ij.1 (decMove fuel p k L ij.1 ij.2) = some (n, T'))) := by
  intro ps
  induction ps with
  | nil =>
    intro t0 _
    exact ⟨t0, rfl, fun n T' _ => by simp⟩
  | cons ij ps ih =>
    intro t0 hall
    obtain ⟨⟨e1, he1⟩, ⟨e2, he2⟩⟩ := hall ij (List.mem_cons_self _ _)
    obtain ⟨t, hfold, hcount⟩ := ih (applyDec L.length (applyInc L.length t0 ij.1 e1) ij.1 e2)
      (fun x hx => hall x (List.mem_cons_of_mem _ hx))
    refine ⟨t, ?_, ?_⟩
    · rw [List.foldlM_cons, IncrementShift_eq, he1, Option.map_some', Option.some_bind,
        DecrementShift_eq, he2, Option.map_some']
      exact hfold
    · intro n T' hT
      obtain ⟨h1, h2, h3⟩ := hcount n T' hT
      obtain ⟨a1, a2, a3⟩ := coeff_applyInc hT L.length t0 ij.1 e1 n
      obtain ⟨b1, b2, b3⟩ :=
        coeff_applyDec hT L.length (applyInc L.length t0 ij.1 e1) ij.1 e2 n
      rw [h1, h2, h3, b1, b2, b3, a1, a2, a3, List.countP_cons, List.countP_cons,
        List.countP_cons, List.countP_cons, he1, he2]
      simp only [decide_eq_true_eq]
      refine ⟨by omega, by omega, by omega⟩

theorem GoodPrims.valid {p k : Nat} {L : List Nat} (hL : GoodPrims p k L) {i c : Nat}
    (hi : L.get? i = some c) :
    c < 2 ^ p ∧ Pattern.AtomNum p c = k ∧ Pattern.PatternSum p c = 0 := by
  have hmem : c ∈ L := by
    rw [List.get?_eq_getElem?, List.getElem?_eq_some] at hi
    obtain ⟨h, rfl⟩ := hi
    exact List.getElem_mem h
  have := mem_codesWithSum.1 ((hL.mem c).1 hmem)
  exact ⟨this.1.1, this.1.2, this.2⟩

/-- The primitive pattern of a code of `k` atoms is found in a good array. -/
theorem GoodPrims.lookup {p k fuel : Nat} {L : List Nat} (hL : GoodPrims p k L)
    (hprime : Nat.Prime p) (hp : p ≤ 31) (hk0 : 0 < k) (hkp : k < p)
    (hf1 : p ≤ fuel) (hf2 : L.length ≤ fuel) {c' : Nat} (hc : c' < 2 ^ p)
    (hk : Pattern.AtomNum p c' = k) :
    ∃ s P, s < p ∧ Pattern.Primitive fuel p c' = some ((Pattern.rotateDown p)^[s] c', s) ∧
      Pattern.PatternSum p ((Pattern.rotateDown p)^[s] c') = 0 ∧ P < L.length ∧
      L.get? P = some ((Pattern.rotateDown p)^[s] c') ∧
      PatternPosition fuel L ((Pattern.rotateDown p)^[s] c') = some P := by
  obtain ⟨s, hs, hrun, h0, h1, h2, _⟩ := Pattern.primitive_run hprime hp hk0 hkp hc hk
  have hmem : (Pattern.rotateDown p)^[s] c' ∈ L :=
    (hL.mem _).2 (mem_codesWithSum.2 ⟨⟨h1, h2⟩, h0⟩)
  obtain ⟨P, hP, hget⟩ := exists_get_of_mem hmem
  exact ⟨s, P, hs, hrun fuel (by omega), h0, hP, hget, PatternPosition_spec hL.sorted hget hf2⟩

/-- The increment half of the loop body on a good array: the move is blocked, or it is
made and leads to a primitive pattern of the array. -/
theorem incMove_spec {p k fuel : Nat} {L : List Nat} (hL : GoodPrims p k L)
    (hprime : Nat.Prime p) (hp : p ≤ 31) (hk0 : 0 < k) (hkp : k < p)
    (hf1 : p ≤ fuel) (hf2 : L.length ≤ fuel) {i c nu : Nat} (hi : L.get? i = some c)
    (h1 : 1 ≤ nu) (h2 : nu ≤ k) :
    (Pattern.IncrementSiteBlocked p nu c = some true ∧ incMove fuel p L i nu = some none) ∨
    (Pattern.IncrementSiteBlocked p nu c = some false ∧
      ∃ a c' T s P, Pattern.Element nu c = some a ∧ a < p ∧ c.testBit a = true ∧
        c.testBit ((a + 1) % p) = false ∧
        Pattern.Increment p nu c = some (c', T) ∧
        c' = (c &&& bitNot (exp2pow a)) ||| exp2pow ((a + 1) % p) ∧ s < p ∧
        Pattern.PatternSum p ((Pattern.rotateDown p)^[s] c') = 0 ∧ P < L.length ∧
        L.get? P = some ((Pattern.rotateDown p)^[s] c') ∧
        incMove fuel p L i nu = some (some (P, T))) := by
  obtain ⟨hc, hk, _⟩ := hL.valid hi
  obtain ⟨a, hap, hbit, _, helem⟩ := Pattern.Element_exists (by omega) hk h1 h2
  have hblk := Pattern.IncrementSiteBlocked_eq (p := p) helem
  cases hb : c.testBit ((a + 1) % p) with
  | true =>
    left
    rw [hb] at hblk
    refine ⟨hblk, ?_⟩
    unfold incMove
    rw [hi, Option.some_bind, hblk, Option.some_bind]
    rfl
  | false =>
    right
    rw [hb] at hblk
    refine ⟨hblk, ?_⟩
    obtain ⟨a', c', T, helem', _, _, _, hinc, hc'eq, hc'lt, hc'k⟩ :=
      Pattern.Increment_valid (by have := hprime.two_le; omega) hp hc hk h1 h2 hblk
    rw [helem] at helem'
    cases helem'
    obtain ⟨s, P, hs, hprim, h0, hP, hget, hpos⟩ :=
      hL.lookup hprime hp hk0 hkp hf1 hf2 hc'lt hc'k
    refine ⟨a, c', T, s, P, helem, hap, hbit, hb, hinc, hc'eq, hs, h0, hP, hget, ?_⟩
    unfold incMove
    rw [hi, Option.some_bind, hblk, Option.some_bind, if_pos rfl, hinc, Option.some_bind,
      hprim, Option.some_bind, hpos]
    rfl

/-- The decrement half of the loop body on a good array, as `incMove_spec`. -/
theorem decMove_spec {p k fuel : Nat} {L : List Nat} (hL : GoodPrims p k L)
    (hprime : Nat.Prime p) (hp : p ≤ 31) (hk0 : 0 < k) (hkp : k < p)
    (hf1 : p ≤ fuel) (hf2 : L.length ≤ fuel) {i c nu : Nat} (hi : L.get? i = some c)
    (h1 : 1 ≤ nu) (h2 : nu ≤ k) :
    (Pattern.DecrementSiteBlocked p k nu c = some true ∧
      decMove fuel p k L i nu = some none) ∨
    (Pattern.DecrementSiteBlocked p k nu c = some false ∧
      ∃ a c' T s P, Pattern.Element nu c = some a ∧ a < p ∧ c.testBit a = true ∧
        c.testBit ((a + p - 1) % p) = false ∧
        Pattern.Decrement p nu c = some (c', T) ∧
        c' = (c &&& bitNot (exp2pow a)) ||| exp2pow ((a + p - 1) % p) ∧ s < p ∧
        Pattern.PatternSum p ((Pattern.rotateDown p)^[s] c') = 0 ∧ P < L.length ∧
        L.get? P = some ((Pattern.rotateDown p)^[s] c') ∧
        decMove fuel p k L i nu = some (some (P, T))) := by
  obtain ⟨hc, hk, _⟩ := hL.valid hi
  have hp2 : 2 ≤ p := hprime.two_le
  obtain ⟨a, hap, hbit, _, helem⟩ := Pattern.Element_exists (by omega) hk h1 h2
  have hblk := Pattern.DecrementSiteBlocked_eq hp2 hp hk h1 h2 helem
  cases hb : c.testBit ((a + p - 1) % p) with
  | true =>
    left
    rw [hb] at hblk
    refine ⟨hblk, ?_⟩
    unfold decMove
    rw [hi, Option.some_bind, hblk, Option.some_bind]
    rfl
  | false =>
    right
    rw [hb] at hblk
    refine ⟨hblk, ?_⟩
    obtain ⟨a', c', T, helem', _, _, _, hdec, hc'eq, hc'lt, hc'k⟩ :=
      Pattern.Decrement_valid hp2 hp hc hk h1 h2 hblk
    rw [helem] at helem'
    cases helem'
    obtain ⟨s, P, hs, hprim, h0, hP, hget, hpos⟩ :=
      hL.lookup hprime hp hk0 hkp hf1 hf2 hc'lt hc'k
    refine ⟨a, c', T, s, P, helem, hap, hbit, hb, hdec, hc'eq, hs, h0, hP, hget, ?_⟩
    unfold decMove
    rw [hi, Option.some_bind, hblk, Option.some_bind, if_pos rfl, hdec, Option.some_bind,
      hprim, Option.some_bind, hpos]
    rfl

theorem mem_ratePairs {N k : Nat} {ij : Nat × Nat} :
    ij ∈ ratePairs N k ↔ ij.1 < N ∧ 1 ≤ ij.2 ∧ ij.2 ≤ k := by
  unfold ratePairs
  rw [List.mem_flatMap]
  constructor
  · rintro ⟨i, hi, hmem⟩
    rw [List.mem_map] at hmem
    obtain ⟨j, hj, rfl⟩ := hmem
    rw [List.mem_range] at hi
    rw [List.mem_range'] at hj
    obtain ⟨d, hd, rfl⟩ := hj
    exact ⟨hi, by simp, by simp; omega⟩
  · rintro ⟨h1, h2, h3⟩
    refine ⟨ij.1, List.mem_range.2 h1, ?_⟩
    rw [List.mem_map]
    refine ⟨ij.2, ?_, rfl⟩
    rw [List.mem_range']
    exact ⟨ij.2 - 1, by omega, by omega⟩

theorem ratePairs_succ (N k : Nat) :
    ratePairs (N + 1) k = ratePairs N k ++ (List.range' 1 k).map fun j => (N, j) := by
  unfold ratePairs
  rw [List.range_succ, List.flatMap_append]
  simp

/-- Counting, over all pairs of the rate matrix loop, moves that belong to primitive `i`
is counting over the atoms `1..k`. -/
theorem countP_ratePairs {k i M : Nat} (f : Nat × Nat → Bool)
    (hf : ∀ ij ∈ ratePairs M k, f ij = true → ij.1 = i) : ∀ N, N ≤ M → i < N →
      (ratePairs N k).countP f = (List.range' 1 k).countP fun nu => f (i, nu) := by
  intro N
  induction N with
  | zero => intro _ h; omega
  | succ N ih =>
    intro hNM hi
    rw [ratePairs_succ, List.countP_append, List.countP_map]
    rcases Nat.eq_or_lt_of_le (Nat.le_of_lt_succ hi) with h | h
    · subst h
      have h0 : (ratePairs i k).countP f = 0 := by
        rw [List.countP_eq_zero]
        intro ij hij hfij
        have h1 := mem_ratePairs.1 hij
        have := hf ij (mem_ratePairs.2 ⟨by omega, h1.2⟩) hfij
        omega
      rw [h0, Nat.zero_add]
      rfl
    · rw [ih (by omega) h]
      have h0 : (List.range' 1 k).countP (f ∘ fun j => (N, j)) = 0 := by
        rw [List.countP_eq_zero]
        intro j hj hfj
        rw [List.mem_range'] at hj
        obtain ⟨d, hd, rfl⟩ := hj
        have := hf (N, 1 + 1 * d) (mem_ratePairs.2 ⟨by simp; omega, by simp, by simp; omega⟩) hfj
        simp at this
        omega
      rw [h0, Nat.add_zero]

/-- Summing over the rows `j` the moves that lead to row `j` counts every move once. -/
theorem sum_countP_rows {N T' : Nat} (g : Nat → Option (Option (Nat × Nat))) :
    ∀ l : List Nat, (∀ nu ∈ l, ∀ r, g nu = some (some r) → r.1 < N) →
      (∑ j ∈ Finset.range N, l.countP fun nu => decide (g nu = some (some (j, T')))) =
        l.countP fun nu => decide (moveType (g nu) = some T') := by
  intro l
  induction l with
  | nil => intro _; simp
  | cons nu l ih =>
    intro hall
    simp only [List.countP_cons]
    rw [Finset.sum_add_distrib, ih (fun x hx => hall x (List.mem_cons_of_mem _ hx))]
    congr 1
    simp only [decide_eq_true_eq]
    cases hg : g nu with
    | none => simp [moveType]
    | some e =>
      cases e with
      | none => simp [moveType]
      | some r =>
        have hr := hall nu (List.mem_cons_self _ _) r hg
        simp only [moveType, Option.some_bind, Option.bind_some, id_eq, Option.map_some',
          Option.some.injEq]
        by_cases hT : r.2 = T'
        · rw [if_pos hT]
          have : ∀ j, (r = (j, T')) ↔ (r.1 = j) := by
            intro j
            constructor
            · intro h; rw [h]
            · intro h; exact Prod.ext h hT
          simp only [this]
          rw [Finset.sum_ite_eq]
          simp [hr]
        · rw [if_neg hT]
          apply Finset.sum_eq_zero
          intro j _
          rw [if_neg]
          intro h
          rw [h] at hT
          exact hT rfl

theorem Element_inj {N P i j i' : Nat} (hi : i < N) (hi' : i' < N)
    (h : Element N P i' = Element N j i) : P = j ∧ i' = i := by
  unfold Element at h
  have h1 : (P * N + i') / N = (j * N + i) / N := by rw [h]
  have h2 : (P * N + i') % N = (j * N + i) % N := by rw [h]
  rw [Nat.mul_comm P N, Nat.mul_comm j N, Nat.mul_add_div (by omega), Nat.mul_add_div (by omega),
    Nat.div_eq_of_lt hi', Nat.div_eq_of_lt hi] at h1
  rw [Nat.mul_comm P N, Nat.mul_comm j N, Nat.mul_add_mod, Nat.mul_add_mod,
    Nat.mod_eq_of_lt hi', Nat.mod_eq_of_lt hi] at h2
  exact ⟨by omega, h2⟩

theorem init_coeff (n T' : Nat) :
    (RateTables.init.Diagonal n).coeff T' = 0 ∧ (RateTables.init.Forward n).coeff T' = 0 ∧
      (RateTables.init.Backward n).coeff T' = 0 := by
  unfold RateTables.init DecayCoefficients.coeff
  refine ⟨?_, ?_, ?_⟩ <;> (simp only; split <;> rfl)

theorem mem_range'_one {k nu : Nat} : nu ∈ List.range' 1 k ↔ 1 ≤ nu ∧ nu ≤ k := by
  rw [List.mem_range']
  constructor
  · rintro ⟨d, hd, rfl⟩
    omega
  · rintro ⟨h1, h2⟩
    exact ⟨nu - 1, by omega, by omega⟩

/-- The moves out of a primitive counted by type: through `incMove` and through the
codec functions. -/
theorem countP_incMove {p k fuel : Nat} {L : List Nat} (hL : GoodPrims p k L)
    (hprime : Nat.Prime p) (hp : p ≤ 31) (hk0 : 0 < k) (hkp : k < p)
    (hf1 : p ≤ fuel) (hf2 : L.length ≤ fuel) {i c : Nat} (hi : L.get? i = some c) (T' : Nat) :
    ((List.range' 1 k).countP fun nu => decide (moveType (incMove fuel p L i nu) = some T')) =
      legalIncrements p k c T' := by
  unfold legalIncrements
  apply List.countP_congr
  intro nu hnu
  rw [mem_range'_one] at hnu
  simp only [decide_eq_true_eq]
  rcases incMove_spec hL hprime hp hk0 hkp hf1 hf2 hi hnu.1 hnu.2 with
    ⟨hb, hm⟩ | ⟨hb, a, c', T, s, P, _, _, _, _, hinc, _, _, _, _, _, hm⟩
  · rw [hm, hb]
    simp [moveType]
  · rw [hm, hb, hinc]
    simp [moveType]

theorem countP_decMove {p k fuel : Nat} {L : List Nat} (hL : GoodPrims p k L)
    (hprime : Nat.Prime p) (hp : p ≤ 31) (hk0 : 0 < k) (hkp : k < p)
    (hf1 : p ≤ fuel) (hf2 : L.length ≤ fuel) {i c : Nat} (hi : L.get? i = some c) (T' : Nat) :
    ((List.range' 1 k).countP fun nu =>
        decide (moveType (decMove fuel p k L i nu) = some T')) =
      legalDecrements p k c T' := by
  unfold legalDecrements
  apply List.countP_congr
  intro nu hnu
  rw [mem_range'_one] at hnu
  simp only [decide_eq_true_eq]
  rcases decMove_spec hL hprime hp hk0 hkp hf1 hf2 hi hnu.1 hnu.2 with
    ⟨hb, hm⟩ | ⟨hb, a, c', T, s, P, _, _, _, _, hdec, _, _, _, _, _, hm⟩
  · rw [hm, hb]
    simp [moveType]
  · rw [hm, hb, hdec]
    simp [moveType]

theorem incMove_row_lt {p k fuel : Nat} {L : List Nat} (hL : GoodPrims p k L)
    (hprime : Nat.Prime p) (hp : p ≤ 31) (hk0 : 0 < k) (hkp : k < p)
    (hf1 : p ≤ fuel) (hf2 : L.length ≤ fuel) {i c nu : Nat} (hi : L.get? i = some c)
    (h1 : 1 ≤ nu) (h2 : nu ≤ k) {r : Nat × Nat} (h : incMove fuel p L i nu = some (some r)) :
    r.1 < L.length := by
  rcases incMove_spec hL hprime hp hk0 hkp hf1 hf2 hi h1 h2 with
    ⟨_, hm⟩ | ⟨_, a, c', T, s, P, _, _, _, _, _, _, _, _, hP, _, hm⟩
  · rw [hm] at h; cases h
  · rw [hm] at h; cases h; exact hP

theorem decMove_row_lt {p k fuel : Nat} {L : List Nat} (hL : GoodPrims p k L)
    (hprime : Nat.Prime p) (hp : p ≤ 31) (hk0 : 0 < k) (hkp : k < p)
    (hf1 : p ≤ fuel) (hf2 : L.length ≤ fuel) {i c nu : Nat} (hi : L.get? i = some c)
    (h1 : 1 ≤ nu) (h2 : nu ≤ k) {r : Nat × Nat} (h : decMove fuel p k L i nu = some (some r)) :
    r.1 < L.length := by
  rcases decMove_spec hL hprime hp hk0 hkp hf1 hf2 hi h1 h2 with
    ⟨_, hm⟩ | ⟨_, a, c', T, s, P, _, _, _, _, _, _, _, _, hP, _, hm⟩
  · rw [hm] at h; cases h
  · rw [hm] at h; cases h; exact hP

theorem get_of_lt {L : List Nat} {i : Nat} (h : i < L.length) : ∃ c, L.get? i = some c :=
  ⟨L[i], by rw [List.get?_eq_getElem?]; exact List.getElem?_eq_getElem h⟩

theorem lt_of_get {L : List Nat} {i c : Nat} (h : L.get? i = some c) : i < L.length := by
  rw [List.get?_eq_getElem?, List.getElem?_eq_some] at h
  exact h.1

theorem moveHit_eq_iff {N i j T' : Nat} (hi : i < N) {e : Option (Option (Nat × Nat))}
    (he : ∀ r, e = some (some r) → r.1 < N) :
    moveHit N i e = some (Element N j i, T') ↔ e = some (some (j, T')) := by
  cases e with
  | none => simp [moveHit]
  | some e' =>
    cases e' with
    | none => simp [moveHit]
    | some r =>
      simp only [moveHit, Option.some_bind, Option.bind_some, id_eq, Option.map_some',
        Option.some.injEq, Prod.mk.injEq]
      constructor
      · rintro ⟨h1, h2⟩
        have := (Element_inj hi hi h1).1
        exact Prod.ext this h2
      · intro h
        rw [h]
        exact ⟨rfl, rfl⟩

/-- The rate tables the loop of `main` builds over a good array: the loop returns, and
each counter holds the number of moves that hit it. -/
theorem assembleRates_spec {p k fuel : Nat} {L : List Nat} (hL : GoodPrims p k L)
    (hprime : Nat.Prime p) (hp : p ≤ 31) (hk0 : 0 < k) (hkp : k < p)
    (hf1 : p ≤ fuel) (hf2 : L.length ≤ fuel) :
    ∃ t, AssembleRates fuel p k L = some t ∧
      ∀ i c, L.get? i = some c → ∀ T', T' < 4 →
        (t.Diagonal i).coeff T' = legalIncrements p k c T' + legalDecrements p k c T' ∧
        (∀ j, j < L.length → (t.Forward (Element L.length j i)).coeff T' =
          (List.range' 1 k).countP fun nu =>
            decide (incMove fuel p L i nu = some (some (j, T')))) ∧
        (∀ j, j < L.length → (t.Backward (Element L.length j i)).coeff T' =
          (List.range' 1 k).countP fun nu =>
            decide (decMove fuel p k L i nu = some (some (j, T')))) ∧
        (∑ j ∈ Finset.range L.length, (t.Forward (Element L.length j i)).coeff T') =
          legalIncrements p k c T' ∧
        (∑ j ∈ Finset.range L.length, (t.Backward (Element L.length j i)).coeff T') =
          legalDecrements p k c T' := by
  have hall : ∀ ij ∈ ratePairs L.length k, (∃ e, incMove fuel p L ij.1 ij.2 = some e) ∧
      (∃ e, decMove fuel p k L ij.1 ij.2 = some e) := by
    intro ij hij
    obtain ⟨h1, h2, h3⟩ := mem_ratePairs.1 hij
    obtain ⟨c, hc⟩ := get_of_lt h1
    constructor
    · rcases incMove_spec hL hprime hp hk0 hkp hf1 hf2 hc h2 h3 with
        ⟨_, hm⟩ | ⟨_, a, c', T, s, P, _, _, _, _, _, _, _, _, _, _, hm⟩
      · exact ⟨_, hm⟩
      · exact ⟨_, hm⟩
    · rcases decMove_spec hL hprime hp hk0 hkp hf1 hf2 hc h2 h3 with
        ⟨_, hm⟩ | ⟨_, a, c', T, s, P, _, _, _, _, _, _, _, _, _, _, hm⟩
      · exact ⟨_, hm⟩
      · exact ⟨_, hm⟩
  obtain ⟨t, hfold, hcount⟩ := assemble_fold fuel p k L (ratePairs L.length k) RateTables.init hall
  refine ⟨t, hfold, ?_⟩
  intro i c hi T' hT
  have hiN := lt_of_get hi
  obtain ⟨hD, hF, hB⟩ := hcount i T' hT
  obtain ⟨z1, _, _⟩ := init_coeff i T'
  -- rows of `Forward` and `Backward`
  have hFrow : ∀ j, j < L.length → (t.Forward (Element L.length j i)).coeff T' =
      (List.range' 1 k).countP fun nu =>
        decide (incMove fuel p L i nu = some (some (j, T'))) := by
    intro j _
    obtain ⟨_, hF', _⟩ := hcount (Element L.length j i) T' hT
    obtain ⟨_, z2, _⟩ := init_coeff (Element L.length j i) T'
    rw [hF', z2, Nat.zero_add, countP_ratePairs _ _ L.length (le_refl _) hiN]
    · apply List.countP_congr
      intro nu hnu
      rw [mem_range'_one] at hnu
      simp only [decide_eq_true_eq]
      exact moveHit_eq_iff hiN
        (fun r hr => incMove_row_lt hL hprime hp hk0 hkp hf1 hf2 hi hnu.1 hnu.2 hr)
    · intro ij hij hf
      obtain ⟨h1, h2, h3⟩ := mem_ratePairs.1 hij
      obtain ⟨c', hc'⟩ := get_of_lt h1
      simp only [decide_eq_true_eq] at hf
      cases he : incMove fuel p L ij.1 ij.2 with
      | none => rw [he] at hf; simp [moveHit] at hf
      | some e' =>
        cases e' with
        | none => rw [he] at hf; simp [moveHit] at hf
        | some r =>
          have hr := incMove_row_lt hL hprime hp hk0 hkp hf1 hf2 hc' h2 h3 he
          rw [he] at hf
          simp only [moveHit, Option.some_bind, Option.bind_some, id_eq, Option.map_some',
            Option.some.injEq, Prod.mk.injEq] at hf
          exact (Element_inj hiN h1 hf.1).2
  have hBrow : ∀ j, j < L.length → (t.Backward (Element L.length j i)).coeff T' =
      (List.range' 1 k).countP fun nu =>
        decide (decMove fuel p k L i nu = some (some (j, T'))) := by
    intro j _
    obtain ⟨_, _, hB'⟩ := hcount (Element L.length j i) T' hT
    obtain ⟨_, _, z3⟩ := init_coeff (Element L.length j i) T'
    rw [hB', z3, Nat.zero_add, countP_ratePairs _ _ L.length (le_refl _) hiN]
    · apply List.countP_congr
      intro nu hnu
      rw [mem_range'_one] at hnu
      simp only [decide_eq_true_eq]
      exact moveHit_eq_iff hiN
        (fun r hr => decMove_row_lt hL hprime hp hk0 hkp hf1 hf2 hi hnu.1 hnu.2 hr)
    · intro ij hij hf
      obtain ⟨h1, h2, h3⟩ := mem_ratePairs.1 hij
      obtain ⟨c', hc'⟩ := get_of_lt h1
      simp only [decide_eq_true_eq] at hf
      cases he : decMove fuel p k L ij.1 ij.2 with
      | none => rw [he] at hf; simp [moveHit] at hf
      | some e' =>
        cases e' with
        | none => rw [he] at hf; simp [moveHit] at hf
        | some r =>
          have hr := decMove_row_lt hL hprime hp hk0 hkp hf1 hf2 hc' h2 h3 he
          rw [he] at hf
          simp only [moveHit, Option.some_bind, Option.bind_some, id_eq, Option.map_some',
            Option.some.injEq, Prod.mk.injEq] at hf
          exact (Element_inj hiN h1 hf.1).2
  refine ⟨?_, hFrow, hBrow, ?_, ?_⟩
  · rw [hD, z1, Nat.zero_add,
      countP_ratePairs _ (fun ij _ h => by simp only [decide_eq_true_eq] at h; exact h.1)
        L.length (le_refl _) hiN,
      countP_ratePairs _ (fun ij _ h => by simp only [decide_eq_true_eq] at h; exact h.1)
        L.length (le_refl _) hiN]
    simp only [true_and]
    rw [countP_incMove hL hprime hp hk0 hkp hf1 hf2 hi,
      countP_decMove hL hprime hp hk0 hkp hf1 hf2 hi]
  · rw [Finset.sum_congr rfl (fun j hj => hFrow j (Finset.mem_range.1 hj)),
      sum_countP_rows (incMove fuel p L i) (List.range' 1 k) (fun nu hnu r hr => by
        rw [mem_range'_one] at hnu
        exact incMove_row_lt hL hprime hp hk0 hkp hf1 hf2 hi hnu.1 hnu.2 hr),
      countP_incMove hL hprime hp hk0 hkp hf1 hf2 hi]
  · rw [Finset.sum_congr rfl (fun j hj => hBrow j (Finset.mem_range.1 hj)),
      sum_countP_rows (decMove fuel p k L i) (List.range' 1 k) (fun nu hnu r hr => by
        rw [mem_range'_one] at hnu
        exact decMove_row_lt hL hprime hp hk0 hkp hf1 hf2 hi hnu.1 hnu.2 hr),
      countP_decMove hL hprime hp hk0 hkp hf1 hf2 hi]

/-- The array the selection loop leaves is a good array, no longer than `2^p`. -/
theorem selectPrimitives_good {p k fuel : Nat} (hprime : Nat.Prime p) (hp : p ≤ 31)
    (hk0 : 0 < k) (hkp : k < p) (hfuel : 2 ^ p ≤ fuel) :
    ∃ L, SelectPrimitives fuel p k = some L ∧ GoodPrims p k L ∧ L.length = PrimNum p k ∧
      L.length ≤ 2 ^ p := by
  obtain ⟨L, V, _, hsel, hL1, hL2, hlen, _, _, _⟩ := selectPrimitives_run hprime hp hk0 hkp hfuel
  refine ⟨L, hsel, ⟨hL1, hL2⟩, hlen, ?_⟩
  rw [hlen, PrimNum_eq_card hprime hp hk0 hkp]
  calc (codesWithSum p k 0).card ≤ (codes p k).card := Finset.card_filter_le _ _
    _ ≤ (Finset.range (2 ^ p)).card := Finset.card_filter_le _ _
    _ = 2 ^ p := Finset.card_range _

/-- The run of `main` up to the rate tables. -/
theorem rateMatrix_run {p k fuel : Nat} (hprime : Nat.Prime p) (hp : p ≤ 31)
    (hk0 : 0 < k) (hkp : k < p) (hfuel : 2 ^ p ≤ fuel) :
    ∃ L t, RateMatrix fuel p k = some (L, t) ∧ SelectPrimitives fuel p k = some L ∧
      AssembleRates fuel p k L = some t ∧ GoodPrims p k L ∧ L.length = PrimNum p k ∧
      p ≤ fuel ∧ L.length ≤ fuel := by
  obtain ⟨L, hsel, hgood, hlen, hle⟩ := selectPrimitives_good hprime hp hk0 hkp hfuel
  have hf1 : p ≤ fuel := by
    have := Nat.lt_two_pow p
    omega
  obtain ⟨t, hasm, _⟩ := assembleRates_spec hgood hprime hp hk0 hkp hf1 (by omega)
  refine ⟨L, t, ?_, hsel, hasm, hgood, hlen, hf1, by omega⟩
  unfold RateMatrix
  rw [hsel, Option.some_bind, hasm]
  rfl

/-! ## Moves and rotations -/

theorem testBit_moveCode {p a b c : Nat} (hp : p ≤ 31) (hc : c < 2 ^ p) (ha : a < p) (i : Nat) :
    (moveCode c a b).testBit i = (decide (i = b) || (c.testBit i && !decide (i = a))) :=
  testBit_move hp hc ha i

theorem moveCode_lt {p a b c : Nat} (hp : p ≤ 31) (hc : c < 2 ^ p) (ha : a < p) (hb : b < p) :
    moveCode c a b < 2 ^ p :=
  move_lt hp hc ha hb

/-- Moving an atom and moving it back gives the code back. -/
theorem moveCode_back {p a b c : Nat} (hp : p ≤ 31) (hc : c < 2 ^ p) (ha : a < p) (hb : b < p)
    (hca : c.testBit a = true) (hcb : c.testBit b = false) :
    moveCode (moveCode c a b) b a = c := by
  have hab : a ≠ b := by
    rintro rfl
    rw [hca] at hcb
    exact absurd hcb (by simp)
  apply Nat.eq_of_testBit_eq
  intro i
  rw [testBit_moveCode hp (moveCode_lt hp hc ha hb) hb, testBit_moveCode hp hc ha]
  by_cases h1 : i = a
  · simp [h1, hca]
  · by_cases h2 : i = b
    · simp [h2, hcb, Ne.symm hab]
    · simp [h1, h2]

/-- A move changes the sum of the occupied sites by the difference of the two sites. -/
theorem rawSum_moveCode {p a b c : Nat} (hp : p ≤ 31) (hc : c < 2 ^ p) (ha : a < p)
    (hb : b < p) (hca : c.testBit a = true) (hcb : c.testBit b = false) :
    rawSum p (moveCode c a b) + a = rawSum p c + b := by
  have hab : a ≠ b := by
    rintro rfl
    rw [hca] at hcb
    exact absurd hcb (by simp)
  have key : rawSum p (moveCode c a b) + (∑ i ∈ Finset.range p, if i = a then i else 0) =
      rawSum p c + ∑ i ∈ Finset.range p, if i = b then i else 0 := by
    unfold rawSum
    rw [← Finset.sum_add_distrib, ← Finset.sum_add_distrib]
    apply Finset.sum_congr rfl
    intro i _
    rw [testBit_moveCode hp hc ha]
    by_cases h1 : i = b
    · have h2 : ¬ i = a := by omega
      simp [h1, hcb, Ne.symm hab]
    · by_cases h2 : i = a
      · simp [h2, hca, hab]
      · by_cases h3 : c.testBit i = true <;> simp [h1, h2, h3]
  have h1 : (∑ i ∈ Finset.range p, if i = a then i else 0) = a := by
    rw [Finset.sum_ite_eq' (Finset.range p) a (fun i => i)]
    simp [ha]
  have h2 : (∑ i ∈ Finset.range p, if i = b then i else 0) = b := by
    rw [Finset.sum_ite_eq' (Finset.range p) b (fun i => i)]
    simp [hb]
  omega

namespace Pattern

/-- Bits of a code rotated backward `n` times. -/
theorem testBit_iterate_rotateDown {p : Nat} (hp1 : 1 ≤ p) (hp : p ≤ 31) :
    ∀ (n : Nat) {x : Nat}, x < 2 ^ p → ∀ i, i < p →
      ((rotateDown p)^[n] x).testBit i = x.testBit ((i + n) % p) := by
  intro n
  induction n with
  | zero =>
    intro x _ i hi
    rw [Function.iterate_zero, id_eq, Nat.add_zero, Nat.mod_eq_of_lt hi]
  | succ n ih =>
    intro x hx i hi
    rw [Function.iterate_succ_apply',
      testBit_rotateDown hp1 (iterate_rotateDown hp1 hp hx rfl n).1]
    by_cases hlast : i = p - 1
    · rw [if_pos hlast, ih hx 0 (by omega)]
      congr 1
      have : i + (n + 1) = 0 + n + p := by omega
      rw [this, Nat.add_mod_right]
    · rw [if_neg hlast, ih hx (i + 1) (by omega)]
      simp only [hi, decide_True, Bool.true_and]
      congr 2
      omega

/-- After `p` backward rotations the code is back. -/
theorem iterate_rotateDown_period {p x : Nat} (hp1 : 1 ≤ p) (hp : p ≤ 31) (hx : x < 2 ^ p) :
    (rotateDown p)^[p] x = x := by
  apply Nat.eq_of_testBit_eq
  intro i
  by_cases hi : i < p
  · rw [testBit_iterate_rotateDown hp1 hp p hx i hi, Nat.add_mod_right, Nat.mod_eq_of_lt hi]
  · rw [testBit_of_lt (iterate_rotateDown hp1 hp hx rfl p).1 (by omega),
      testBit_of_lt hx (by omega)]

end Pattern

theorem shift_site_inj {p n i i' : Nat} (hi : i < p) (hi' : i' < p)
    (h : (i + n) % p = (i' + n) % p) : i = i' := by
  have h1 : i + n ≡ i' + n [MOD p] := h
  have h2 := Nat.ModEq.add_right_cancel' n h1
  unfold Nat.ModEq at h2
  rw [Nat.mod_eq_of_lt hi, Nat.mod_eq_of_lt hi'] at h2
  exact h2

/-- A move commutes with the rotations: rotating the moved code is moving, in the
rotated code, between the rotated sites. -/
theorem iterate_rotateDown_moveCode {p n x u v u' v' : Nat} (hp1 : 1 ≤ p) (hp : p ≤ 31)
    (hx : x < 2 ^ p) (hu : u < p) (hv : v < p) (hu' : u' < p) (hv' : v' < p)
    (hun : (u' + n) % p = u) (hvn : (v' + n) % p = v) :
    (Pattern.rotateDown p)^[n] (moveCode x u v) =
      moveCode ((Pattern.rotateDown p)^[n] x) u' v' := by
  have hx' := (Pattern.iterate_rotateDown hp1 hp hx rfl n).1
  have hm := moveCode_lt hp hx hu hv
  apply Nat.eq_of_testBit_eq
  intro i
  by_cases hi : i < p
  · rw [Pattern.testBit_iterate_rotateDown hp1 hp n hm i hi, testBit_moveCode hp hx hu,
      testBit_moveCode hp hx' hu', Pattern.testBit_iterate_rotateDown hp1 hp n hx i hi]
    have e1 : ((i + n) % p = v) ↔ (i = v') := by
      constructor
      · intro h
        exact shift_site_inj hi hv' (by rw [h, hvn])
      · intro h
        rw [h, hvn]
    have e2 : ((i + n) % p = u) ↔ (i = u') := by
      constructor
      · intro h
        exact shift_site_inj hi hu' (by rw [h, hun])
      · intro h
        rw [h, hun]
    simp only [e1, e2]
  · rw [testBit_of_lt (Pattern.iterate_rotateDown hp1 hp hm rfl n).1 (by omega),
      testBit_of_lt (moveCode_lt hp hx' hu' hv') (by omega)]

/-! ## From ordinals to sites -/

/-- Counting over the ordinals `1..k` of a code a property of the site of the atom is
counting the occupied sites with that property. -/
theorem ord_site_count (c : Nat) (Q : Nat → Bool) : ∀ n, n ≤ 32 →
    ((List.range' 1 (bitCount 0 n c)).countP fun nu =>
        match Pattern.Element nu c with
        | some a => Q a
        | none => false) =
      ((Finset.range n).filter fun a => c.testBit a = true ∧ Q a = true).card := by
  intro n
  induction n with
  | zero =>
    intro _
    rw [bitCount_self]
    simp
  | succ n ih =>
    intro hn
    have ih' := ih (by omega)
    rw [bitCount_succ_right, Finset.range_succ, Finset.filter_insert]
    by_cases hb : c.testBit n = true
    · rw [if_pos hb, List.range'_concat, List.countP_append, ih', Nat.one_mul]
      have helem : Pattern.Element (1 + bitCount 0 n c) c = some n :=
        Pattern.Element_eq (by omega) hb (by omega)
      simp only [List.countP_cons, List.countP_nil, helem, Nat.zero_add]
      by_cases hq : Q n = true
      · rw [if_pos hq, if_pos ⟨hb, hq⟩, Finset.card_insert_of_not_mem]
        intro hmem
        rw [Finset.mem_filter, Finset.mem_range] at hmem
        omega
      · rw [if_neg hq, if_neg (fun h => hq h.2), Nat.add_zero]
    · rw [if_neg hb, if_neg (fun h => hb h.1), Nat.add_zero, ih']

theorem get_inj {L : List Nat} (hL : L.Pairwise (· < ·)) {i j x : Nat}
    (hi : L.get? i = some x) (hj : L.get? j = some x) : i = j := by
  by_contra hne
  rcases Nat.lt_or_gt_of_ne hne with h | h
  · have := pairwise_lt_get hL hi hj h
    omega
  · have := pairwise_lt_get hL hj hi h
    omega

namespace Pattern

/-- An increment raises the pattern sum by one. -/
theorem PatternSum_increment {p a c : Nat} (hp2 : 2 ≤ p) (hp : p ≤ 31) (hc : c < 2 ^ p)
    (ha : a < p) (hca : c.testBit a = true) (hcb : c.testBit ((a + 1) % p) = false) :
    PatternSum p (moveCode c a ((a + 1) % p)) = (PatternSum p c + 1) % p := by
  have hb : (a + 1) % p < p := Nat.mod_lt _ (by omega)
  have h := rawSum_moveCode hp hc ha hb hca hcb
  have hbv := site_add_one ha
  rw [PatternSum_eq, PatternSum_eq, Nat.mod_add_mod]
  generalize (a + 1) % p = b at h hbv
  by_cases hw : a + 1 = p
  · rw [if_pos hw] at hbv
    have : rawSum p c + 1 = rawSum p (moveCode c a b) + p := by omega
    rw [this, Nat.add_mod_right]
  · rw [if_neg hw] at hbv
    have : rawSum p (moveCode c a b) = rawSum p c + 1 := by omega
    rw [this]

/-- A decrement lowers the pattern sum by one. -/
theorem PatternSum_decrement {p a c : Nat} (hp2 : 2 ≤ p) (hp : p ≤ 31) (hc : c < 2 ^ p)
    (ha : a < p) (hca : c.testBit a = true) (hcb : c.testBit ((a + p - 1) % p) = false) :
    (PatternSum p (moveCode c a ((a + p - 1) % p)) + 1) % p = PatternSum p c := by
  have hb : (a + p - 1) % p < p := Nat.mod_lt _ (by omega)
  have h := rawSum_moveCode hp hc ha hb hca hcb
  have hbv := site_sub_one ha
  rw [PatternSum_eq, PatternSum_eq, Nat.mod_add_mod]
  generalize (a + p - 1) % p = b at h hbv
  by_cases hw : a = 0
  · rw [if_pos hw] at hbv
    have : rawSum p (moveCode c a b) + 1 = rawSum p c + p := by omega
    rw [this, Nat.add_mod_right]
  · rw [if_neg hw] at hbv
    have : rawSum p (moveCode c a b) + 1 = rawSum p c := by omega
    rw [this]

end Pattern

/-- The number of backward rotations `Primitive()` makes after an increment out of a
primitive pattern: the inverse `m` of `k` modulo `p`. -/
theorem shift_after_increment {p k m s x : Nat} (hprime : Nat.Prime p) (hp : p ≤ 31)
    (hk0 : 0 < k) (hkp : k < p) (hm : m < p) (hmk : m * k % p = 1) (hx : x < 2 ^ p)
    (hxk : Pattern.AtomNum p x = k) (hsum : Pattern.PatternSum p x = 1) (hs : s < p)
    (h0 : Pattern.PatternSum p ((Pattern.rotateDown p)^[s] x) = 0) : s = m := by
  have h := (Pattern.iterate_rotateDown hprime.one_lt.le hp hx hxk s).2.2.1
  rw [h0, Nat.zero_add, hsum] at h
  exact mul_mod_injective hprime hk0 hkp hs hm (by rw [h, hmk])

/-- The number of backward rotations `Primitive()` makes after a decrement out of a
primitive pattern: `p - m`. -/
theorem shift_after_decrement {p k m s x : Nat} (hprime : Nat.Prime p) (hp : p ≤ 31)
    (hk0 : 0 < k) (hkp : k < p) (hm : m < p) (hmk : m * k % p = 1) (hx : x < 2 ^ p)
    (hxk : Pattern.AtomNum p x = k) (hsum : (Pattern.PatternSum p x + 1) % p = 0) (hs : s < p)
    (h0 : Pattern.PatternSum p ((Pattern.rotateDown p)^[s] x) = 0) : s = p - m := by
  have hp1 : 1 ≤ p := hprime.one_lt.le
  have hm0 : 0 < m := by
    rcases Nat.eq_zero_or_pos m with h | h
    · rw [h, Nat.zero_mul, Nat.zero_mod] at hmk
      omega
    · exact h
  have h := (Pattern.iterate_rotateDown hp1 hp hx hxk s).2.2.1
  rw [h0, Nat.zero_add] at h
  -- `s * k + 1` and `(p - m) * k + 1` are both multiples of `p`
  have h1 : (s * k + 1) % p = 0 := by
    rw [← Nat.mod_add_mod, h, hsum]
  have h2 : ((p - m) * k + 1) % p = 0 := by
    have e : (p - m) * k + m * k = p * k := by
      rw [← Nat.add_mul]
      congr 1
      omega
    have h3 : ((p - m) * k + m * k) % p = 0 := by
      rw [e, Nat.mul_mod_right]
    rw [Nat.add_mod, hmk, Nat.mod_add_mod] at h3
    exact h3
  have h4 : s * k + 1 ≡ (p - m) * k + 1 [MOD p] := by
    unfold Nat.ModEq
    rw [h1, h2]
  exact mul_mod_injective hprime hk0 hkp hs (by omega) (Nat.ModEq.add_right_cancel' 1 h4)

/-- An entry of `Forward`, counted over the sites: the increments out of primitive `i`
of type `T` that lead to primitive `j`. -/
theorem countP_incMove_sites {p k fuel m : Nat} {L : List Nat} (hL : GoodPrims p k L)
    (hprime : Nat.Prime p) (hp : p ≤ 31) (hk0 : 0 < k) (hkp : k < p)
    (hf1 : p ≤ fuel) (hf2 : L.length ≤ fuel) (hm : m < p) (hmk : m * k % p = 1)
    {i j ci cj : Nat} (hi : L.get? i = some ci) (hj : L.get? j = some cj) (T : Nat) :
    ((List.range' 1 k).countP fun nu =>
        decide (incMove fuel p L i nu = some (some (j, T)))) =
      (incSites p m ci cj T).card := by
  obtain ⟨hc, hk, hsum0⟩ := hL.valid hi
  have hp2 : 2 ≤ p := hprime.two_le
  have hk' := hk
  rw [Pattern.AtomNum_eq] at hk'
  unfold incSites
  rw [← ord_site_count ci _ p (by omega), hk']
  apply List.countP_congr
  intro nu hnu
  rw [mem_range'_one] at hnu
  simp only [decide_eq_true_eq]
  rcases incMove_spec hL hprime hp hk0 hkp hf1 hf2 hi hnu.1 hnu.2 with
    ⟨hb, hmv⟩ | ⟨hb, a, c', T0, s, P, helem, hap, hbit, hempty, hinc, hc'eq, hs, h0, hP, hget, hmv⟩
  · obtain ⟨a, _, _, _, helem⟩ := Pattern.Element_exists (by omega : p ≤ 32) hk hnu.1 hnu.2
    rw [Pattern.IncrementSiteBlocked_eq helem] at hb
    have hocc : ci.testBit ((a + 1) % p) = true := by simpa using hb
    rw [hmv, helem]
    simp [hocc]
  · obtain ⟨a', c'', T'', helem', _, _, _, hinc', _, hc'lt, hc'k⟩ :=
      Pattern.Increment_valid hp2 hp hc hk hnu.1 hnu.2 hb
    rw [hinc] at hinc'
    cases hinc'
    have hT0 : T0 = typeAt c' ((a + p - 1) % p) ((a + 2) % p) := by
      have := Pattern.Increment_eq (p := p) helem
      rw [hinc] at this
      simp only [Option.some.injEq, Prod.mk.injEq] at this
      rw [this.2, hc'eq]
      rfl
    have hsum1 : Pattern.PatternSum p c' = 1 := by
      have := Pattern.PatternSum_increment hp2 hp hc hap hbit hempty
      have h1p : 1 % p = 1 := Nat.mod_eq_of_lt (by omega)
      rw [hsum0, Nat.zero_add, h1p] at this
      rw [hc'eq]
      exact this
    have hsm : s = m :=
      shift_after_increment hprime hp hk0 hkp hm hmk hc'lt hc'k hsum1 hs h0
    subst hsm
    have hc'm : moveCode ci a ((a + 1) % p) = c' := by rw [hc'eq]; rfl
    rw [hmv, helem]
    simp only [hempty, hc'm, Bool.not_false, Bool.true_and, Bool.and_eq_true,
      decide_eq_true_eq, Option.some.injEq, Prod.mk.injEq]
    constructor
    · rintro ⟨h1, h2⟩
      refine ⟨by rw [← hT0]; exact h2, ?_⟩
      rw [h1, hj] at hget
      simp only [Option.some.injEq] at hget
      exact hget.symm
    · rintro ⟨h1, h2⟩
      refine ⟨?_, by rw [hT0]; exact h1⟩
      rw [h2] at hget
      exact get_inj hL.sorted hget hj

/-- An entry of `Backward`, counted over the sites: the decrements out of primitive `i`
of type `T` that lead to primitive `j`. -/
theorem countP_decMove_sites {p k fuel m : Nat} {L : List Nat} (hL : GoodPrims p k L)
    (hprime : Nat.Prime p) (hp : p ≤ 31) (hk0 : 0 < k) (hkp : k < p)
    (hf1 : p ≤ fuel) (hf2 : L.length ≤ fuel) (hm : m < p) (hmk : m * k % p = 1)
    {i j ci cj : Nat} (hi : L.get? i = some ci) (hj : L.get? j = some cj) (T : Nat) :
    ((List.range' 1 k).countP fun nu =>
        decide (decMove fuel p k L i nu = some (some (j, T)))) =
      (decSites p (p - m) ci cj T).card := by
  obtain ⟨hc, hk, hsum0⟩ := hL.valid hi
  have hp2 : 2 ≤ p := hprime.two_le
  have hk' := hk
  rw [Pattern.AtomNum_eq] at hk'
  unfold decSites
  rw [← ord_site_count ci _ p (by omega), hk']
  apply List.countP_congr
  intro nu hnu
  rw [mem_range'_one] at hnu
  simp only [decide_eq_true_eq]
  rcases decMove_spec hL hprime hp hk0 hkp hf1 hf2 hi hnu.1 hnu.2 with
    ⟨hb, hmv⟩ | ⟨hb, a, c', T0, s, P, helem, hap, hbit, hempty, hdec, hc'eq, hs, h0, hP, hget, hmv⟩
  · obtain ⟨a, _, _, _, helem⟩ := Pattern.Element_exists (by omega : p ≤ 32) hk hnu.1 hnu.2
    rw [Pattern.DecrementSiteBlocked_eq hp2 hp hk hnu.1 hnu.2 helem] at hb
    have hocc : ci.testBit ((a + p - 1) % p) = true := by simpa using hb
    rw [hmv, helem]
    simp [hocc]
  · obtain ⟨a', c'', T'', helem', _, _, _, hdec', _, hc'lt, hc'k⟩ :=
      Pattern.Decrement_valid hp2 hp hc hk hnu.1 hnu.2 hb
    rw [hdec] at hdec'
    cases hdec'
    have hT0 : T0 = typeAt c' ((a + 1) % p) ((a + p - 2) % p) := by
      have := Pattern.Decrement_eq (p := p) helem
      rw [hdec] at this
      simp only [Option.some.injEq, Prod.mk.injEq] at this
      rw [this.2, hc'eq]
      rfl
    have hsum1 : (Pattern.PatternSum p c' + 1) % p = 0 := by
      have := Pattern.PatternSum_decrement hp2 hp hc hap hbit hempty
      rw [hsum0] at this
      rw [hc'eq]
      exact this
    have hsm : s = p - m :=
      shift_after_decrement hprime hp hk0 hkp hm hmk hc'lt hc'k hsum1 hs h0
    subst hsm
    have hc'm : moveCode ci a ((a + p - 1) % p) = c' := by rw [hc'eq]; rfl
    rw [hmv, helem]
    simp only [hempty, hc'm, Bool.not_false, Bool.true_and, Bool.and_eq_true,
      decide_eq_true_eq, Option.some.injEq, Prod.mk.injEq]
    constructor
    · rintro ⟨h1, h2⟩
      refine ⟨by rw [← hT0]; exact h2, ?_⟩
      rw [h1, hj] at hget
      simp only [Option.some.injEq] at hget
      exact hget.symm
    · rintro ⟨h1, h2⟩
      refine ⟨?_, by rw [hT0]; exact h1⟩
      rw [h2] at hget
      exact get_inj hL.sorted hget hj

/-! ## Reversing a move -/

theorem mod_eq_of_add_mul {p A B : Nat} (q q' : Nat) (h : A + p * q = B + p * q') :
    A % p = B % p := by
  have h1 : (A + p * q) % p = (B + p * q') % p := by rw [h]
  rw [Nat.add_mul_mod_self_left, Nat.add_mul_mod_self_left] at h1
  exact h1

theorem swapBC_swapBC (T : Nat) : swapBC (swapBC T) = T := by
  match T with
  | 0 => rfl
  | 1 => rfl
  | 2 => rfl
  | n + 3 => rfl

theorem typeAt_swap (c u v : Nat) : typeAt c v u = swapBC (typeAt c u v) := by
  unfold typeAt
  by_cases h1 : c.testBit u = true <;> by_cases h2 : c.testBit v = true <;>
    simp [h1, h2, swapBC]

theorem typeAt_congr {c d u v u' v' : Nat} (hu : c.testBit u = d.testBit u')
    (hv : c.testBit v = d.testBit v') : typeAt c u v = typeAt d u' v' := by
  unfold typeAt
  rw [hu, hv]

theorem mem_incSites {p m c d T a : Nat} :
    a ∈ incSites p m c d T ↔ a < p ∧ c.testBit a = true ∧ c.testBit ((a + 1) % p) = false ∧
      typeAt (moveCode c a ((a + 1) % p)) ((a + p - 1) % p) ((a + 2) % p) = T ∧
      (Pattern.rotateDown p)^[m] (moveCode c a ((a + 1) % p)) = d := by
  unfold incSites
  rw [Finset.mem_filter, Finset.mem_range]
  simp only [Bool.and_eq_true, Bool.not_eq_true', decide_eq_true_eq]
  tauto

theorem mem_decSites {p r c d T a : Nat} :
    a ∈ decSites p r c d T ↔ a < p ∧ c.testBit a = true ∧
      c.testBit ((a + p - 1) % p) = false ∧
      typeAt (moveCode c a ((a + p - 1) % p)) ((a + 1) % p) ((a + p - 2) % p) = T ∧
      (Pattern.rotateDown p)^[r] (moveCode c a ((a + p - 1) % p)) = d := by
  unfold decSites
  rw [Finset.mem_filter, Finset.mem_range]
  simp only [Bool.and_eq_true, Bool.not_eq_true', decide_eq_true_eq]
  tauto

/-- The two sites that decide the type of an increment are not touched by the move. -/
theorem typeAt_increment {p a c : Nat} (hp3 : 3 ≤ p) (hp : p ≤ 31) (hc : c < 2 ^ p)
    (ha : a < p) :
    typeAt (moveCode c a ((a + 1) % p)) ((a + p - 1) % p) ((a + 2) % p) =
      typeAt c ((a + p - 1) % p) ((a + 2) % p) := by
  have e1 := site_add_one ha
  have e2 := site_add_two ha (by omega : 2 ≤ p)
  have e3 := site_sub_one ha
  have n1 : (a + p - 1) % p ≠ (a + 1) % p := by rw [e1, e3]; split <;> split <;> omega
  have n2 : (a + p - 1) % p ≠ a := by rw [e3]; split <;> omega
  have n3 : (a + 2) % p ≠ (a + 1) % p := by rw [e1, e2]; split <;> split <;> omega
  have n4 : (a + 2) % p ≠ a := by rw [e2]; split <;> omega
  apply typeAt_congr
  · rw [testBit_moveCode hp hc ha]; simp [n1, n2]
  · rw [testBit_moveCode hp hc ha]; simp [n3, n4]

/-- The two sites that decide the type of a decrement are not touched by the move. -/
theorem typeAt_decrement {p a c : Nat} (hp3 : 3 ≤ p) (hp : p ≤ 31) (hc : c < 2 ^ p)
    (ha : a < p) :
    typeAt (moveCode c a ((a + p - 1) % p)) ((a + 1) % p) ((a + p - 2) % p) =
      typeAt c ((a + 1) % p) ((a + p - 2) % p) := by
  have e1 := site_add_one ha
  have e3 := site_sub_one ha
  have e4 := site_sub_two ha (by omega : 2 ≤ p)
  have n1 : (a + 1) % p ≠ (a + p - 1) % p := by rw [e1, e3]; split <;> split <;> omega
  have n5 : (a + 1) % p ≠ a := by rw [e1]; split <;> omega
  have n6 : (a + p - 2) % p ≠ (a + p - 1) % p := by rw [e3, e4]; split <;> split <;> omega
  have n7 : (a + p - 2) % p ≠ a := by rw [e4]; split <;> omega
  apply typeAt_congr
  · rw [testBit_moveCode hp hc ha]; simp [n1, n5]
  · rw [testBit_moveCode hp hc ha]; simp [n6, n7]

/-- A move seen after `n` backward rotations, and undone there: with `n + n'` a multiple
of `p`, the sites `u`, `v` of the move become `(u + n') mod p`, `(v + n') mod p`. -/
theorem move_transport {p n n' x u v : Nat} (hp1 : 1 ≤ p) (hp : p ≤ 31) (hx : x < 2 ^ p)
    (hu : u < p) (hv : v < p) (hxu : x.testBit u = true) (hxv : x.testBit v = false)
    (hn : (n + n') % p = 0) :
    ((Pattern.rotateDown p)^[n] (moveCode x u v)).testBit ((v + n') % p) = true ∧
    ((Pattern.rotateDown p)^[n] (moveCode x u v)).testBit ((u + n') % p) = false ∧
    moveCode ((Pattern.rotateDown p)^[n] (moveCode x u v)) ((v + n') % p) ((u + n') % p) =
      (Pattern.rotateDown p)^[n] x ∧
    (∀ w, w < p → ((Pattern.rotateDown p)^[n] x).testBit ((w + n') % p) = x.testBit w) ∧
    (Pattern.rotateDown p)^[n'] ((Pattern.rotateDown p)^[n] x) = x := by
  have hback : ∀ w, w < p → ((w + n') % p + n) % p = w := by
    intro w hw
    rw [Nat.mod_add_mod, Nat.add_assoc, Nat.add_comm n' n, Nat.add_mod, hn, Nat.add_zero,
      Nat.mod_mod, Nat.mod_eq_of_lt hw]
  have hz := (Pattern.iterate_rotateDown hp1 hp hx rfl n).1
  have hu' : (u + n') % p < p := Nat.mod_lt _ (by omega)
  have hv' : (v + n') % p < p := Nat.mod_lt _ (by omega)
  have hbits : ∀ w, w < p →
      ((Pattern.rotateDown p)^[n] x).testBit ((w + n') % p) = x.testBit w := by
    intro w hw
    rw [Pattern.testBit_iterate_rotateDown hp1 hp n hx _ (Nat.mod_lt _ (by omega)), hback w hw]
  have hd := iterate_rotateDown_moveCode (n := n) hp1 hp hx hu hv hu' hv' (hback u hu) (hback v hv)
  have hzu : ((Pattern.rotateDown p)^[n] x).testBit ((u + n') % p) = true := by
    rw [hbits u hu, hxu]
  have hzv : ((Pattern.rotateDown p)^[n] x).testBit ((v + n') % p) = false := by
    rw [hbits v hv, hxv]
  have hne : (u + n') % p ≠ (v + n') % p := by
    intro h
    rw [h, hzv] at hzu
    exact absurd hzu (by simp)
  refine ⟨?_, ?_, ?_, hbits, ?_⟩
  · rw [hd, testBit_moveCode hp hz hu']
    simp
  · rw [hd, testBit_moveCode hp hz hu']
    simp [hne]
  · rw [hd]
    exact moveCode_back hp hz hu' hv' hzu hzv
  · rw [← Function.iterate_add_apply]
    apply Nat.eq_of_testBit_eq
    intro i
    by_cases hi : i < p
    · rw [Pattern.testBit_iterate_rotateDown hp1 hp (n' + n) hx i hi, Nat.add_comm n' n,
        Nat.add_mod, hn, Nat.add_zero, Nat.mod_mod, Nat.mod_eq_of_lt hi]
    · rw [testBit_of_lt (Pattern.iterate_rotateDown hp1 hp hx rfl (n' + n)).1 (by omega),
        testBit_of_lt hx (by omega)]

/-- The reverse of an increment: from the code reached, the decrement of the same atom
leads back, with the types B and C exchanged. -/
theorem incSites_to_decSites {p m r ci cj T a : Nat} (hp3 : 3 ≤ p) (hp : p ≤ 31)
    (hmr : m + r = p) (hci : ci < 2 ^ p) (ha : a ∈ incSites p m ci cj T) :
    (a + 1 + r) % p ∈ decSites p r cj ci (swapBC T) := by
  obtain ⟨hap, hbit, hempty, htype, hrot⟩ := mem_incSites.1 ha
  have hp1 : 1 ≤ p := by omega
  have hb : (a + 1) % p < p := Nat.mod_lt _ (by omega)
  obtain ⟨g1, g2, g3, g4, g5⟩ := @move_transport p m r ci a ((a + 1) % p) hp1 hp hci hap hb hbit hempty
    (by rw [hmr, Nat.mod_self])
  rw [hrot] at g1 g2 g3
  have ev : ((a + 1) % p + r) % p = (a + 1 + r) % p := Nat.mod_add_mod _ _ _
  have eu : ((a + 1 + r) % p + p - 1) % p = (a + r) % p := by
    rw [Nat.add_sub_assoc (by omega), Nat.mod_add_mod]
    exact mod_eq_of_add_mul 0 1 (by omega)
  have e1 : ((a + 1 + r) % p + 1) % p = ((a + 2) % p + r) % p := by
    rw [Nat.mod_add_mod, Nat.mod_add_mod]
    exact mod_eq_of_add_mul 0 0 (by omega)
  have e2 : ((a + 1 + r) % p + p - 2) % p = ((a + p - 1) % p + r) % p := by
    rw [Nat.add_sub_assoc (by omega), Nat.mod_add_mod, Nat.mod_add_mod]
    exact mod_eq_of_add_mul 0 0 (by omega)
  rw [ev] at g1 g3
  rw [mem_decSites, eu]
  refine ⟨Nat.mod_lt _ (by omega), g1, g2, ?_, ?_⟩
  · rw [g3, e1, e2, typeAt_congr (g4 _ (Nat.mod_lt _ (by omega))) (g4 _ (Nat.mod_lt _ (by omega))),
      typeAt_swap, ← typeAt_increment hp3 hp hci hap, htype]
  · rw [g3]
    exact g5

/-- The reverse of a decrement: from the code reached, the increment of the same atom
leads back, with the types B and C exchanged. -/
theorem decSites_to_incSites {p m r ci cj T a : Nat} (hp3 : 3 ≤ p) (hp : p ≤ 31)
    (hmr : m + r = p) (hcj : cj < 2 ^ p) (ha : a ∈ decSites p r cj ci (swapBC T)) :
    (a + m + (p - 1)) % p ∈ incSites p m ci cj T := by
  obtain ⟨hap, hbit, hempty, htype, hrot⟩ := mem_decSites.1 ha
  have hp1 : 1 ≤ p := by omega
  have hb : (a + p - 1) % p < p := Nat.mod_lt _ (by omega)
  obtain ⟨g1, g2, g3, g4, g5⟩ := @move_transport p r m cj a ((a + p - 1) % p) hp1 hp hcj hap hb hbit hempty
    (by rw [Nat.add_comm, hmr, Nat.mod_self])
  rw [hrot] at g1 g2 g3
  have ev : ((a + p - 1) % p + m) % p = (a + m + (p - 1)) % p := by
    rw [Nat.mod_add_mod]
    exact mod_eq_of_add_mul 0 0 (by omega)
  have eu : ((a + m + (p - 1)) % p + 1) % p = (a + m) % p := by
    rw [Nat.mod_add_mod]
    exact mod_eq_of_add_mul 0 1 (by omega)
  have e1 : ((a + m + (p - 1)) % p + p - 1) % p = ((a + p - 2) % p + m) % p := by
    rw [Nat.add_sub_assoc (by omega), Nat.mod_add_mod, Nat.mod_add_mod]
    exact mod_eq_of_add_mul 0 1 (by omega)
  have e2 : ((a + m + (p - 1)) % p + 2) % p = ((a + 1) % p + m) % p := by
    rw [Nat.mod_add_mod, Nat.mod_add_mod]
    exact mod_eq_of_add_mul 0 1 (by omega)
  rw [ev] at g1 g3
  rw [mem_incSites, eu]
  refine ⟨Nat.mod_lt _ (by omega), g1, g2, ?_, ?_⟩
  · rw [g3, e1, e2, typeAt_congr (g4 _ (Nat.mod_lt _ (by omega))) (g4 _ (Nat.mod_lt _ (by omega))),
      typeAt_swap, ← typeAt_decrement hp3 hp hcj hap, htype, swapBC_swapBC]
  · rw [g3]
    exact g5

/-- As many increments of type `T` lead from `ci` to `cj` as decrements of the swapped
type lead from `cj` to `ci`. -/
theorem card_incSites_eq {p m r ci cj T : Nat} (hp3 : 3 ≤ p) (hp : p ≤ 31)
    (hmr : m + r = p) (hci : ci < 2 ^ p) (hcj : cj < 2 ^ p) :
    (incSites p m ci cj T).card = (decSites p r cj ci (swapBC T)).card := by
  apply Finset.card_nbij' (fun a => (a + 1 + r) % p) (fun a => (a + m + (p - 1)) % p)
  · intro a ha
    exact incSites_to_decSites hp3 hp hmr hci ha
  · intro a ha
    exact decSites_to_incSites hp3 hp hmr hcj ha
  · intro a ha
    have hap := (mem_incSites.1 ha).1
    rw [Nat.add_assoc ((a + 1 + r) % p), Nat.mod_add_mod]
    have : (a + 1 + r + (m + (p - 1))) % p = a % p := mod_eq_of_add_mul 0 2 (by omega)
    rw [this, Nat.mod_eq_of_lt hap]
  · intro a ha
    have hap := (mem_decSites.1 ha).1
    rw [Nat.add_assoc ((a + m + (p - 1)) % p), Nat.mod_add_mod]
    have : (a + m + (p - 1) + (1 + r)) % p = a % p := mod_eq_of_add_mul 0 2 (by omega)
    rw [this, Nat.mod_eq_of_lt hap]

/-- Exchanging B and C keeps the types of jump. -/
theorem swapBC_lt {T : Nat} (hT : T < 4) : swapBC T < 4 := by
  match T, hT with
  | 0, _ => decide
  | 1, _ => decide
  | 2, _ => decide
  | 3, _ => decide

/-! ## The passes of the lookup -/

/-- A code that does not occur in the array is never found: the loop of the lookup is
still running after any number of passes, and every position it reads lies in the
array. -/
theorem probes_absent {L : List Nat} {x : Nat} (hx : x ∉ L) :
    ∀ fuel Aux1 Aux2 : Nat, Aux1 < L.length → Aux2 ≤ L.length →
      PatternPositionLoop L x fuel Aux1 Aux2 = none ∧
      (PatternPositionProbes L x fuel Aux1 Aux2).length = fuel ∧
      ∀ c ∈ PatternPositionProbes L x fuel Aux1 Aux2, c < L.length := by
  intro fuel
  induction fuel with
  | zero =>
    intro Aux1 Aux2 _ _
    simp [PatternPositionLoop, PatternPositionProbes]
  | succ fuel ih =>
    intro Aux1 Aux2 h1 h2
    have hcur : (Aux1 + Aux2) / 2 < L.length := by omega
    obtain ⟨v, hv⟩ := get_of_lt hcur
    have hne : x ≠ v := by
      intro h
      apply hx
      rw [h]
      exact List.get?_mem hv
    rw [PatternPositionLoop, PatternPositionProbes]
    simp only [hv, if_pos hne]
    obtain ⟨ih1, ih2, ih3⟩ := ih (if x > v then (Aux1 + Aux2) / 2 else Aux1)
      (if x > v then Aux2 else (Aux1 + Aux2) / 2) (by split <;> omega) (by split <;> omega)
    refine ⟨ih1, by rw [List.length_cons, ih2], ?_⟩
    intro c hc
    rcases List.mem_cons.1 hc with h | h
    · rw [h]; exact hcur
    · exact ih3 c h

/-- A code that occurs in the strictly ascending array: the loop of the lookup ends
within as many passes as the bracket is wide, and every position read lies in the
array. -/
theorem probes_present {L : List Nat} (hL : L.Pairwise (· < ·)) {x idx : Nat}
    (hidx : L.get? idx = some x) :
    ∀ fuel Aux1 Aux2 : Nat, Aux1 ≤ idx → idx < Aux2 → Aux2 ≤ L.length →
      (PatternPositionProbes L x fuel Aux1 Aux2).length ≤ Aux2 - Aux1 ∧
      ∀ c ∈ PatternPositionProbes L x fuel Aux1 Aux2, c < L.length := by
  intro fuel
  induction fuel with
  | zero =>
    intro Aux1 Aux2 _ _ _
    simp [PatternPositionProbes]
  | succ fuel ih =>
    intro Aux1 Aux2 h1 h2 h3
    have hcur : (Aux1 + Aux2) / 2 < L.length := by omega
    obtain ⟨v, hv⟩ := get_of_lt hcur
    rw [PatternPositionProbes]
    simp only [hv]
    rcases Nat.lt_trichotomy x v with hlt | heq | hgt
    · have hi : idx < (Aux1 + Aux2) / 2 := by
        by_contra hcon
        rcases Nat.eq_or_lt_of_le (Nat.le_of_not_lt hcon) with h | h
        · rw [h, hidx] at hv
          cases hv
          omega
        · have := pairwise_lt_get hL hv hidx h
          omega
      rw [if_pos (by omega : x ≠ v), if_neg (by omega : ¬ x > v), if_neg (by omega : ¬ x > v)]
      obtain ⟨ih1, ih2⟩ := ih Aux1 ((Aux1 + Aux2) / 2) h1 hi (by omega)
      refine ⟨by rw [List.length_cons]; omega, ?_⟩
      intro c hc
      rcases List.mem_cons.1 hc with h | h
      · rw [h]; exact hcur
      · exact ih2 c h
    · rw [if_neg (by omega : ¬ x ≠ v)]
      refine ⟨by rw [List.length_singleton]; omega, ?_⟩
      intro c hc
      rw [List.mem_singleton.1 hc]
      exact hcur
    · have hi : (Aux1 + Aux2) / 2 < idx := by
        by_contra hcon
        rcases Nat.eq_or_lt_of_le (Nat.le_of_not_lt hcon) with h | h
        · rw [h, hv] at hidx
          cases hidx
          omega
        · have := pairwise_lt_get hL hidx hv h
          omega
      rw [if_pos (by omega : x ≠ v), if_pos hgt, if_pos hgt]
      obtain ⟨ih1, ih2⟩ := ih ((Aux1 + Aux2) / 2) Aux2 (by omega) h2 h3
      refine ⟨by rw [List.length_cons]; omega, ?_⟩
      intro c hc
      rcases List.mem_cons.1 hc with h | h
      · rw [h]; exact hcur
      · exact ih2 c h

/-! ## The mirror image of a primitive pattern -/

namespace Pattern

/-- Mirroring twice gives the code back. -/
theorem Mirror_Mirror {p c : Nat} (hp1 : 1 ≤ p) (hc : c < 2 ^ p) :
    Mirror p (Mirror p c) = c := by
  apply Nat.eq_of_testBit_eq
  intro j
  rw [testBit_Mirror hp1]
  by_cases hj0 : j = 0
  · rw [if_pos hj0, testBit_Mirror hp1, if_pos rfl, hj0]
  · rw [if_neg hj0, testBit_Mirror hp1]
    by_cases hjp : j < p
    · have h1 : p - j ≠ 0 := by omega
      have h2 : p - j < p := by omega
      have h3 : p - (p - j) = j := by omega
      simp [hjp, h1, h2, h3]
    · have : c.testBit j = false := testBit_of_lt hc (by omega)
      simp [hjp, this]

/-- The occupied sites of a code and of its mirror image add up to a multiple of `p`. -/
theorem rawSum_Mirror {p : Nat} (hp1 : 1 ≤ p) (c : Nat) :
    rawSum p (Mirror p c) + rawSum p c = p * bitCount 1 p c := by
  obtain ⟨n, rfl⟩ : ∃ n, p = n + 1 := ⟨p - 1, by omega⟩
  unfold rawSum bitCount
  rw [Finset.sum_range_succ', Finset.sum_range_succ', Finset.sum_Ico_eq_sum_range,
    Nat.add_sub_cancel, Finset.mul_sum]
  have hm : (∑ i ∈ Finset.range n,
        if (Mirror (n + 1) c).testBit (i + 1) = true then i + 1 else 0) =
      ∑ i ∈ Finset.range n, if c.testBit (i + 1) = true then n - i else 0 := by
    rw [← Finset.sum_range_reflect]
    apply Finset.sum_congr rfl
    intro i hi
    rw [Finset.mem_range] at hi
    rw [testBit_Mirror hp1]
    have h1 : n - 1 - i + 1 ≠ 0 := by omega
    have h2 : n - 1 - i + 1 < n + 1 := by omega
    have h3 : n + 1 - (n - 1 - i + 1) = i + 1 := by omega
    have h4 : n - 1 - i + 1 = n - i := by omega
    simp only [if_neg h1, h2, h3, decide_True, Bool.true_and]
    rw [h4]
  rw [hm]
  simp only [Nat.zero_add, ite_self, Nat.add_zero]
  rw [← Finset.sum_add_distrib]
  apply Finset.sum_congr rfl
  intro i hi
  rw [Finset.mem_range] at hi
  rw [Nat.add_comm 1 i]
  by_cases hb : c.testBit (i + 1) = true
  · simp only [hb, if_true]
    have : n - i + (i + 1) = n + 1 := by omega
    rw [this, Nat.mul_one]
  · simp [hb]

/-- The mirror image of a code of pattern sum 0 has pattern sum 0. -/
theorem PatternSum_Mirror {p c : Nat} (hp1 : 1 ≤ p) (h0 : PatternSum p c = 0) :
    PatternSum p (Mirror p c) = 0 := by
  rw [PatternSum_eq] at h0 ⊢
  have h := rawSum_Mirror hp1 c
  have h1 : (rawSum p (Mirror p c) + rawSum p c) % p = 0 := by
    rw [h]; exact Nat.mul_mod_right _ _
  rw [Nat.add_mod, h0, Nat.add_zero, Nat.mod_mod] at h1
  exact h1

end Pattern

/-- The mirror image of a pattern of a good array is found in the array. -/
theorem GoodPrims.mirror {p k fuel : Nat} {L : List Nat} (hL : GoodPrims p k L)
    (hp1 : 1 ≤ p) (hf2 : L.length ≤ fuel) {i c : Nat} (hi : L.get? i = some c) :
    ∃ mi, mi < L.length ∧ L.get? mi = some (Pattern.Mirror p c) ∧
      PatternPosition fuel L (Pattern.Mirror p c) = some mi := by
  obtain ⟨hc, hk, h0⟩ := hL.valid hi
  have hmem : Pattern.Mirror p c ∈ L :=
    (hL.mem _).2 (mem_codesWithSum.2 ⟨⟨Pattern.Mirror_lt hp1 c,
      by rw [Pattern.AtomNum_Mirror hp1, hk]⟩, Pattern.PatternSum_Mirror hp1 h0⟩)
  obtain ⟨mi, hmi, hget⟩ := exists_get_of_mem hmem
  exact ⟨mi, hmi, hget, PatternPosition_spec hL.sorted hget hf2⟩

/-- A loop that appends one value in each pass: when every pass returns, the loop
returns the list of the values, in the order of the passes. -/
theorem foldlM_append_spec (g : Nat → Option Nat) :
    ∀ n : Nat, (∀ i, i < n → ∃ v, g i = some v) →
      ∃ M cnt, (List.range n).foldlM
          (fun (s : List Nat × Nat) (i : Nat) =>
            (g i).map fun (Pos : Nat) => (s.1 ++ [Pos], if Pos = i then s.2 + 1 else s.2))
          ([], 0) = some (M, cnt) ∧ M.length = n ∧ ∀ i, i < n → M.get? i = g i := by
  intro n
  induction n with
  | zero =>
    intro _
    exact ⟨[], 0, rfl, rfl, fun i hi => by omega⟩
  | succ n ih =>
    intro hall
    obtain ⟨M, cnt, hrun, hlen, hget⟩ := ih (fun i hi => hall i (by omega))
    obtain ⟨v, hv⟩ := hall n (by omega)
    refine ⟨M ++ [v], if v = n then cnt + 1 else cnt, ?_, by simp [hlen], ?_⟩
    · rw [List.range_succ, List.foldlM_append, hrun]
      simp [hv]
    · intro i hi
      rw [List.get?_eq_getElem?] 
      by_cases hin : i < n
      · rw [List.getElem?_append_left (by omega), ← List.get?_eq_getElem?]
        exact hget i hin
      · have : i = n := by omega
        rw [this, hv, List.getElem?_append_right (by omega), hlen]
        simp

/-! ## Sorting the eigenvalues -/

/-- The first loop of `EigenSort` writes `i` into entry `i` for `i < n` and finds a lower
bound of the values `EVArray[0..n-1]`. -/
theorem EigenSortInit_spec {α : Type} [LinearOrder α] (E : Nat → α) (P : Nat → Nat) :
    ∀ n : Nat, (EigenSortInit E n P).1 = (fun i => if i < n then i else P i) ∧
      (EigenSortInit E n P).2 ≤ E 0 ∧ ∀ i, i < n → (EigenSortInit E n P).2 ≤ E i := by
  intro n
  induction n with
  | zero =>
    refine ⟨?_, le_refl _, fun i hi => by omega⟩
    funext i
    simp [EigenSortInit]
  | succ n ih =>
    obtain ⟨h1, h2, h3⟩ := ih
    have hstep : EigenSortInit E (n + 1) P =
        (Function.update (EigenSortInit E n P).1 n n,
          if E n < (EigenSortInit E n P).2 then E n else (EigenSortInit E n P).2) := by
      unfold EigenSortInit
      rw [List.range_succ, List.foldl_append]
      rfl
    rw [hstep]
    refine ⟨?_, ?_, ?_⟩
    · funext i
      simp only [h1, Function.update_apply]
      by_cases hi : i = n
      · rw [if_pos hi, if_pos (by omega)]; exact hi.symm
      · rw [if_neg hi]
        by_cases hin : i < n
        · rw [if_pos hin, if_pos (by omega)]
        · rw [if_neg hin, if_neg (by omega)]
    · show (if E n < (EigenSortInit E n P).2 then E n else (EigenSortInit E n P).2) ≤ E 0
      split
      · next h => exact le_trans (le_of_lt h) h2
      · exact h2
    · intro i hi
      show (if E n < (EigenSortInit E n P).2 then E n else (EigenSortInit E n P).2) ≤ E i
      by_cases hin : i < n
      · split
        · next h => exact le_trans (le_of_lt h) (h3 i hin)
        · exact h3 i hin
      · have : i = n := by omega
        rw [this]
        split
        · exact le_refl _
        · next h => exact le_of_not_lt h

/-- The inner loop of `EigenSort`: `MaxEV` bounds the values seen, and it is the value
under `Pos` unless nothing exceeded `MinEV`. -/
theorem EigenSortInner_inv {α : Type} [LinearOrder α] (E : Nat → α) (P : Nat → Nat) (m : α) :
    ∀ i : Nat, (∀ j, j < i → E (P j) ≤ (EigenSortInner E P m i).1) ∧
      ((EigenSortInner E P m i).2 < i ∨ (EigenSortInner E P m i).2 = 0) ∧
      ((EigenSortInner E P m i).1 = E (P (EigenSortInner E P m i).2) ∨
        ((EigenSortInner E P m i).1 = m ∧ (EigenSortInner E P m i).2 = 0)) := by
  intro i
  induction i with
  | zero =>
    refine ⟨fun j hj => by omega, Or.inr rfl, Or.inr ⟨rfl, rfl⟩⟩
  | succ i ih =>
    obtain ⟨h1, h2, h3⟩ := ih
    have hstep : EigenSortInner E P m (i + 1) =
        if E (P i) > (EigenSortInner E P m i).1 then (E (P i), i)
        else EigenSortInner E P m i := by
      unfold EigenSortInner
      rw [List.range_succ, List.foldl_append]
      rfl
    rw [hstep]
    by_cases hgt : E (P i) > (EigenSortInner E P m i).1
    · rw [if_pos hgt]
      refine ⟨?_, Or.inl (by show i < i + 1; omega), Or.inl rfl⟩
      intro j hj
      by_cases hji : j < i
      · exact le_trans (h1 j hji) (le_of_lt hgt)
      · have : j = i := by omega
        rw [this]
    · rw [if_neg hgt]
      refine ⟨?_, ?_, h3⟩
      · intro j hj
        by_cases hji : j < i
        · exact h1 j hji
        · have : j = i := by omega
          rw [this]
          exact le_of_not_lt hgt
      · rcases h2 with h | h
        · exact Or.inl (by omega)
        · exact Or.inr h

/-- The inner loop of `EigenSort` finds a position of the greatest of the first `i`
values, when `MinEV` is not above the first of them. -/
theorem EigenSortInner_spec {α : Type} [LinearOrder α] (E : Nat → α) (P : Nat → Nat) (m : α)
    {i : Nat} (hi : 1 ≤ i) (hm : m ≤ E (P 0)) :
    (EigenSortInner E P m i).2 < i ∧
      ∀ j, j < i → E (P j) ≤ E (P (EigenSortInner E P m i).2) := by
  obtain ⟨h1, h2, h3⟩ := EigenSortInner_inv E P m i
  refine ⟨by omega, ?_⟩
  have heq : (EigenSortInner E P m i).1 = E (P (EigenSortInner E P m i).2) := by
    rcases h3 with h | ⟨ha, hb⟩
    · exact h
    · rw [hb]
      apply le_antisymm
      · rw [ha]; exact hm
      · exact h1 0 (by omega)
  intro j hj
  rw [← heq]
  exact h1 j hj

/-- The swap of two entries, as the two assignments of `EigenSort` perform it. -/
theorem update_swap (P : Nat → Nat) (a b x : Nat) :
    Function.update (Function.update P a (P b)) b (P a) x = P (Equiv.swap a b x) := by
  simp only [Function.update_apply, Equiv.swap_apply_def]
  by_cases hb : x = b
  · rw [if_pos hb]
    by_cases ha : x = a
    · rw [if_pos ha, ← ha, ← hb]
    · rw [if_neg ha, if_pos hb]
  · rw [if_neg hb]
    by_cases ha : x = a
    · rw [if_pos ha, if_pos ha]
    · rw [if_neg ha, if_neg ha, if_neg hb]

theorem swap_lt {a b x n : Nat} (ha : a < n) (hb : b < n) (hx : x < n) :
    Equiv.swap a b x < n := by
  rw [Equiv.swap_apply_def]
  split
  · exact hb
  · split
    · exact ha
    · exact hx

theorem swap_le {a b x i : Nat} (ha : a ≤ i) (hb : b ≤ i) (hx : x ≤ i) :
    Equiv.swap a b x ≤ i := by
  rw [Equiv.swap_apply_def]
  split
  · exact hb
  · split
    · exact ha
    · exact hx

/-- The outer loop of `EigenSort`, started with the entries from `i` on in their final
order, leaves a sorted arrangement of the same pointers. -/
theorem EigenSortOuter_spec {α : Type} [LinearOrder α] (E : Nat → α) (m : α) (n : Nat)
    (hm : ∀ v, v < n → m ≤ E v) :
    ∀ (i : Nat) (P : Nat → Nat), i ≤ n → (∀ a, a < n → P a < n) →
      (∀ a b, a < n → b < n → P a = P b → a = b) →
      (∀ a b, a ≤ b → i ≤ b → b < n → E (P a) ≤ E (P b)) →
      (∀ a, a < n → EigenSortOuter E m i P a < n) ∧
      (∀ a b, a < n → b < n → EigenSortOuter E m i P a = EigenSortOuter E m i P b → a = b) ∧
      (∀ a b, a ≤ b → b < n → E (EigenSortOuter E m i P a) ≤ E (EigenSortOuter E m i P b)) ∧
      (∀ a, n ≤ a → EigenSortOuter E m i P a = P a) := by
  intro i
  induction i with
  | zero =>
    intro P _ h1 h2 h3
    exact ⟨h1, h2, fun a b hab hb => h3 a b hab (Nat.zero_le _) hb, fun a _ => rfl⟩
  | succ i ih =>
    intro P hin h1 h2 h3
    rw [EigenSortOuter]
    by_cases hi : i + 1 > 1
    · rw [if_pos hi]
      obtain ⟨hpos, hmax⟩ := EigenSortInner_spec E P m (by omega : 1 ≤ i + 1)
        (hm (P 0) (h1 0 (by omega)))
      have hP : Function.update (Function.update P (EigenSortInner E P m (i + 1)).2 (P i)) i
          (P (EigenSortInner E P m (i + 1)).2) =
          fun x => P (Equiv.swap (EigenSortInner E P m (i + 1)).2 i x) := by
        funext x
        exact update_swap P _ i x
      simp only [hP]
      generalize (EigenSortInner E P m (i + 1)).2 = Pos at hpos hmax
      obtain ⟨r1, r2, r3, r4⟩ := ih (fun x => P (Equiv.swap Pos i x)) (by omega)
        (fun a ha => h1 _ (swap_lt (by omega) (by omega) ha))
        (fun a b ha hb hab => (Equiv.swap Pos i).injective
          (h2 _ _ (swap_lt (by omega) (by omega) ha) (swap_lt (by omega) (by omega) hb) hab))
        (by
          intro a b hab hib hb
          show E (P (Equiv.swap Pos i a)) ≤ E (P (Equiv.swap Pos i b))
          by_cases hbi : b = i
          · rw [hbi, Equiv.swap_apply_right]
            exact hmax _ (Nat.lt_succ_of_le (swap_le (by omega) (le_refl i) (by omega)))
          · have hb' : Equiv.swap Pos i b = b :=
              Equiv.swap_apply_of_ne_of_ne (by omega) hbi
            rw [hb']
            exact h3 _ b (swap_le (by omega) (by omega) hab) (by omega) hb)
      refine ⟨r1, r2, r3, ?_⟩
      intro a ha
      rw [r4 a ha]
      show P (Equiv.swap Pos i a) = P a
      rw [Equiv.swap_apply_of_ne_of_ne (by omega) (by omega)]
    · rw [if_neg hi]
      refine ⟨h1, h2, ?_, fun a _ => rfl⟩
      intro a b hab hb
      by_cases hb0 : b = 0
      · have : a = 0 := by omega
        rw [this, hb0]
      · exact h3 a b hab (by omega) hb

/-- The inner loop of `EigenSort` reads the values only through the pointers. -/
theorem EigenSortInner_congr {α : Type} [LinearOrder α] (E E' : Nat → α) (P P' : Nat → Nat)
    (m : α) : ∀ i : Nat, (∀ j, j < i → E (P j) = E' (P' j)) →
      EigenSortInner E P m i = EigenSortInner E' P' m i := by
  intro i
  induction i with
  | zero => intro _; rfl
  | succ i ih =>
    intro h
    have hstep : ∀ (F : Nat → α) (Q : Nat → Nat), EigenSortInner F Q m (i + 1) =
        if F (Q i) > (EigenSortInner F Q m i).1 then (F (Q i), i)
        else EigenSortInner F Q m i := by
      intro F Q
      unfold EigenSortInner
      rw [List.range_succ, List.foldl_append]
      rfl
    rw [hstep E P, hstep E' P', ih (fun j hj => h j (by omega)), h i (by omega)]

/-- The outer loop of `EigenSort` on two runs whose values and pointers agree below `n`. -/
theorem EigenSortOuter_congr {α : Type} [LinearOrder α] (E E' : Nat → α) (m : α) (n : Nat)
    (hE : ∀ v, v < n → E v = E' v) :
    ∀ (i : Nat) (P P' : Nat → Nat), i ≤ n → (∀ a, a < n → P a < n) →
      (∀ a, a < n → P a = P' a) →
      ∀ a, a < n → EigenSortOuter E m i P a = EigenSortOuter E' m i P' a := by
  intro i
  induction i with
  | zero =>
    intro P P' _ _ h a ha
    exact h a ha
  | succ i ih =>
    intro P P' hin h1 h a ha
    rw [EigenSortOuter, EigenSortOuter]
    by_cases hi : i + 1 > 1
    · rw [if_pos hi, if_pos hi]
      have hinner : EigenSortInner E P m (i + 1) = EigenSortInner E' P' m (i + 1) :=
        EigenSortInner_congr E E' P P' m (i + 1) (fun j hj => by
          rw [← h j (by omega)]
          exact hE _ (h1 j (by omega)))
      obtain ⟨_, hpos, _⟩ := EigenSortInner_inv E P m (i + 1)
      simp only [← hinner]
      generalize (EigenSortInner E P m (i + 1)).2 = Pos at hpos
      have hPos : Pos < n := by omega
      apply ih _ _ (by omega) _ _ a ha
      · intro x hx
        rw [update_swap]
        exact h1 _ (swap_lt hPos (by omega) hx)
      · intro x hx
        rw [update_swap, update_swap]
        exact h _ (swap_lt hPos (by omega) hx)
    · rw [if_neg hi, if_neg hi]
      exact h a ha

/-- The least value found by the first loop of `EigenSort` depends on the values below
`n` only. -/
theorem EigenSortInit_congr {α : Type} [LinearOrder α] (E E' : Nat → α) (P P' : Nat → Nat)
    (h0 : E 0 = E' 0) : ∀ n : Nat, (∀ v, v < n → E v = E' v) →
      (EigenSortInit E n P).2 = (EigenSortInit E' n P').2 := by
  intro n
  induction n with
  | zero => intro _; exact h0
  | succ n ih =>
    intro h
    have hstep : ∀ (F : Nat → α) (Q : Nat → Nat), (EigenSortInit F (n + 1) Q).2 =
        if F n < (EigenSortInit F n Q).2 then F n else (EigenSortInit F n Q).2 := by
      intro F Q
      unfold EigenSortInit
      rw [List.range_succ, List.foldl_append]
      rfl
    rw [hstep E P, hstep E' P', ih (fun v hv => h v (by omega)), h n (by omega)]

/-! ## The Jacobi rotation of the 2 x 2 split -/

/-- The tangent of the rotation angle solves `t^2 + 2 theta t = 1`. -/
theorem jacobi_tangent {K : Type} [LinearOrderedField K] (theta r : K)
    (hr : r * r = 1 + theta * theta) (hr0 : 0 ≤ r) :
    (if theta < 0 then -(1 / (|theta| + r)) else 1 / (|theta| + r)) *
        (if theta < 0 then -(1 / (|theta| + r)) else 1 / (|theta| + r)) +
      2 * theta * (if theta < 0 then -(1 / (|theta| + r)) else 1 / (|theta| + r)) = 1 := by
  have hrpos : 0 < r := by
    rcases eq_or_lt_of_le hr0 with h | h
    · rw [← h] at hr
      nlinarith [mul_self_nonneg theta]
    · exact h
  by_cases hneg : theta < 0
  · rw [if_pos hneg, abs_of_neg hneg]
    have hd : -theta + r ≠ 0 := by linarith
    field_simp
    nlinarith
  · rw [if_neg hneg, abs_of_nonneg (le_of_not_lt hneg)]
    have hd : theta + r ≠ 0 := by linarith [le_of_not_lt hneg]
    field_simp
    nlinarith

/-- The values of the Jacobi rotation from an off-diagonal entry `a` with `a^2 = n2`:
the sum of the diagonal entries is kept, their product is that of the eigenvalues, and
`c`, `s` are a cosine and a sine. -/
theorem jacobi_values {K : Type} [LinearOrderedField K] (sqrt : K → K)
    (hsq : ∀ x, 0 ≤ x → 0 ≤ sqrt x ∧ sqrt x * sqrt x = x) (d1 d2 a n2 t c : K)
    (ha : a ≠ 0) (hn : a * a = n2)
    (ht : t = if (d1 - d2) / (2 * a) < 0
      then -(1 / (|(d1 - d2) / (2 * a)| +
        sqrt (1 + (d1 - d2) / (2 * a) * ((d1 - d2) / (2 * a)))))
      else 1 / (|(d1 - d2) / (2 * a)| +
        sqrt (1 + (d1 - d2) / (2 * a) * ((d1 - d2) / (2 * a)))))
    (hc : c = 1 / sqrt (1 + t * t)) :
    (d1 + a * t) + (d2 - a * t) = d1 + d2 ∧
      (d1 + a * t) * (d2 - a * t) = d1 * d2 - n2 ∧ c * c + (t * c) * (t * c) = 1 := by
  have h1 : (0 : K) ≤ 1 + (d1 - d2) / (2 * a) * ((d1 - d2) / (2 * a)) := by
    nlinarith [mul_self_nonneg ((d1 - d2) / (2 * a))]
  obtain ⟨hr0, hr⟩ := hsq _ h1
  have htan := jacobi_tangent ((d1 - d2) / (2 * a)) _ hr hr0
  rw [← ht] at htan
  have h2 : (0 : K) ≤ 1 + t * t := by nlinarith [mul_self_nonneg t]
  obtain ⟨hs0, hs⟩ := hsq _ h2
  have hspos : sqrt (1 + t * t) ≠ 0 := by
    intro h
    rw [h] at hs
    nlinarith [mul_self_nonneg t]
  refine ⟨by ring, ?_, ?_⟩
  · have hth : d1 - d2 = 2 * a * ((d1 - d2) / (2 * a)) := by
      field_simp
    have : (d1 + a * t) * (d2 - a * t) =
        d1 * d2 - a * a * (t * t + 2 * ((d1 - d2) / (2 * a)) * t) := by
      have e1 : (d1 + a * t) * (d2 - a * t) = d1 * d2 - a * t * (d1 - d2) - a * a * (t * t) := by
        ring
      rw [e1]
      nth_rewrite 1 [hth]
      ring
    rw [this, htan, hn]
    ring
  · rw [hc]
    have : 1 / sqrt (1 + t * t) * (1 / sqrt (1 + t * t)) +
        t * (1 / sqrt (1 + t * t)) * (t * (1 / sqrt (1 + t * t))) =
        (1 + t * t) / (sqrt (1 + t * t) * sqrt (1 + t * t)) := by
      field_simp
    rw [this, hs]
    exact div_self (by nlinarith [mul_self_nonneg t])

theorem Accu_pos (K : Type) [LinearOrderedField K] : 0 < Accu K := by
  unfold Accu
  positivity

/-- The 2 x 2 split of `QRSymm` when the rotation is performed. -/
theorem QRSymmSplit_spec {K : Type} [LinearOrderedField K] (sqrt : K → K)
    (hsq : ∀ x, 0 ≤ x → 0 ≤ sqrt x ∧ sqrt x * sqrt x = x) (d1 d2 e : K)
    (hg : |e| > Accu K * (|d1| + |d2|)) :
    ∃ r, QRSymmSplit sqrt d1 d2 e = some r ∧ r.Diag1 + r.Diag2 = d1 + d2 ∧
      r.Diag1 * r.Diag2 = d1 * d2 - e * e ∧ r.c * r.c + r.s * r.s = 1 := by
  have he : e ≠ 0 := by
    intro h
    rw [h, abs_zero] at hg
    have := mul_nonneg (Accu_pos K).le (add_nonneg (abs_nonneg d1) (abs_nonneg d2))
    linarith
  unfold QRSymmSplit
  simp only [if_pos hg]
  exact ⟨_, rfl, jacobi_values sqrt hsq d1 d2 e (e * e) _ _ he rfl rfl rfl⟩

/-- The 2 x 2 split of `QRHerm` when the rotation is performed. -/
theorem QRHermSplit_spec {K : Type} [LinearOrderedField K] (sqrt : K → K)
    (hsq : ∀ x, 0 ≤ x → 0 ≤ sqrt x ∧ sqrt x * sqrt x = x) (d1 d2 re im : K)
    (hg : sqrt (re * re + im * im) > Accu K * (|d1| + |d2|)) :
    ∃ r, QRHermSplit sqrt d1 d2 re im = some r ∧ r.Diag1 + r.Diag2 = d1 + d2 ∧
      r.Diag1 * r.Diag2 = d1 * d2 - (re * re + im * im) ∧ r.c * r.c + r.s * r.s = 1 := by
  have ha : sqrt (re * re + im * im) ≠ 0 := by
    intro h
    rw [h] at hg
    have := mul_nonneg (Accu_pos K).le (add_nonneg (abs_nonneg d1) (abs_nonneg d2))
    linarith
  have hn := (hsq (re * re + im * im)
    (add_nonneg (mul_self_nonneg re) (mul_self_nonneg im))).2
  unfold QRHermSplit
  simp only [if_pos hg]
  exact ⟨_, rfl, jacobi_values sqrt hsq d1 d2 _ _ _ _ ha hn rfl rfl⟩

/-! ## Bonds: neighbouring pairs of atoms -/

/-- Two sums that differ in three terms only. -/
theorem sum_three_change {S : Finset Nat} {f g : Nat → Nat} {x y z : Nat} (hx : x ∈ S)
    (hy : y ∈ S) (hz : z ∈ S) (hxy : x ≠ y) (hxz : x ≠ z) (hyz : y ≠ z)
    (h : ∀ i, i ∈ S → i ≠ x → i ≠ y → i ≠ z → f i = g i) :
    (∑ i ∈ S, f i) + (g x + g y + g z) = (∑ i ∈ S, g i) + (f x + f y + f z) := by
  have hy' : y ∈ S.erase x := Finset.mem_erase.2 ⟨fun e => hxy e.symm, hy⟩
  have hz' : z ∈ (S.erase x).erase y :=
    Finset.mem_erase.2 ⟨fun e => hyz e.symm, Finset.mem_erase.2 ⟨fun e => hxz e.symm, hz⟩⟩
  have hrest : (∑ i ∈ ((S.erase x).erase y).erase z, f i) =
      ∑ i ∈ ((S.erase x).erase y).erase z, g i := by
    apply Finset.sum_congr rfl
    intro i hi
    obtain ⟨h3, hi⟩ := Finset.mem_erase.1 hi
    obtain ⟨h2, hi⟩ := Finset.mem_erase.1 hi
    obtain ⟨h1, hi⟩ := Finset.mem_erase.1 hi
    exact h i hi h1 h2 h3
  have ef : (∑ i ∈ S, f i) = f x + (f y + (f z + ∑ i ∈ ((S.erase x).erase y).erase z, f i)) := by
    rw [Finset.add_sum_erase _ f hz', Finset.add_sum_erase _ f hy', Finset.add_sum_erase _ f hx]
  have eg : (∑ i ∈ S, g i) = g x + (g y + (g z + ∑ i ∈ ((S.erase x).erase y).erase z, g i)) := by
    rw [Finset.add_sum_erase _ g hz', Finset.add_sum_erase _ g hy', Finset.add_sum_erase _ g hx]
  rw [ef, eg, hrest]
  omega

/-- The neighbouring sites on the ring, in a form for linear arithmetic. -/
theorem site_cases {a p : Nat} (ha : a < p) (hp2 : 2 ≤ p) :
    ((a + 1) % p = a + 1 ∧ a + 1 < p ∨ (a + 1) % p = 0 ∧ a + 1 = p) ∧
    ((a + p - 1) % p = a - 1 ∧ 1 ≤ a ∨ (a + p - 1) % p = p - 1 ∧ a = 0) ∧
    ((a + 2) % p = a + 2 ∧ a + 2 < p ∨ (a + 2) % p = a + 2 - p ∧ p ≤ a + 2) ∧
    ((a + p - 2) % p = a - 2 ∧ 2 ≤ a ∨ (a + p - 2) % p = a + p - 2 ∧ a < 2) := by
  refine ⟨?_, ?_, ?_, ?_⟩
  · rw [site_add_one ha]; split <;> omega
  · rw [site_sub_one ha]; split <;> omega
  · rw [site_add_two ha hp2]; split <;> omega
  · rw [site_sub_two ha hp2]; split <;> omega

/-- The site before the one that follows a site, on a ring. -/
theorem site_pred_unique {a p i : Nat} (hp3 : 3 ≤ p) (ha : a < p) (hi : i < p) :
    ((i + 1) % p = a → i = (a + p - 1) % p) ∧ ((i + 1) % p = (a + 1) % p → i = a) := by
  have hp2 : 2 ≤ p := by omega
  obtain ⟨h1, h2, _, _⟩ := site_cases ha hp2
  obtain ⟨hi1, _, _, _⟩ := site_cases hi hp2
  generalize (a + p - 1) % p = X at h2 ⊢
  generalize (a + 1) % p = Z at h1 ⊢
  generalize (i + 1) % p = I at hi1 ⊢
  clear * - h1 h2 hi1 hp3 ha hi
  omega

/-- The neighbours of a site on a ring of three sites or more. -/
theorem ring_sites {a p : Nat} (hp3 : 3 ≤ p) (ha : a < p) :
    (a + p - 1) % p < p ∧ (a + 1) % p < p ∧ (a + p - 1) % p ≠ a ∧ (a + 1) % p ≠ a ∧
      (a + p - 1) % p ≠ (a + 1) % p ∧ ((a + p - 1) % p + 1) % p = a ∧
      ((a + 1) % p + 1) % p = (a + 2) % p ∧ (a + 2) % p ≠ a ∧ (a + 2) % p ≠ (a + 1) % p := by
  have hp2 : 2 ≤ p := by omega
  obtain ⟨h1, h2, h3, _⟩ := site_cases ha hp2
  have hxlt : (a + p - 1) % p < p := Nat.mod_lt _ (by omega)
  have hzlt : (a + 1) % p < p := Nat.mod_lt _ (by omega)
  obtain ⟨hx1, _, _, _⟩ := site_cases hxlt hp2
  obtain ⟨hz1, _, _, _⟩ := site_cases hzlt hp2
  generalize ((a + p - 1) % p + 1) % p = X1 at hx1 ⊢
  generalize ((a + 1) % p + 1) % p = Z1 at hz1 ⊢
  generalize (a + p - 1) % p = X at h2 hxlt hx1 ⊢
  generalize (a + 1) % p = Z at h1 hzlt hz1 ⊢
  generalize (a + 2) % p = W at h3 ⊢
  clear * - h1 h2 h3 hx1 hz1 hxlt hzlt hp3 ha
  omega

/-- An increment that is not blocked breaks the bond with the atom behind, if there is
one, and forms a bond with the atom ahead, if there is one. -/
theorem bonds_increment {p a c : Nat} (hp3 : 3 ≤ p) (hp : p ≤ 31) (hc : c < 2 ^ p) (ha : a < p)
    (hca : c.testBit a = true) (hcb : c.testBit ((a + 1) % p) = false) :
    bonds p (moveCode c a ((a + 1) % p)) +
        (if c.testBit ((a + p - 1) % p) = true then 1 else 0) =
      bonds p c + (if c.testBit ((a + 2) % p) = true then 1 else 0) := by
  obtain ⟨hxlt, hzlt, hxa, hza, hxz, hx1, hz1, h2a, h2z⟩ := ring_sites hp3 ha
  have hbit := testBit_moveCode (b := (a + 1) % p) hp hc ha
  have hsum := sum_three_change (S := Finset.range p)
    (f := fun i => if (moveCode c a ((a + 1) % p)).testBit i = true ∧
      (moveCode c a ((a + 1) % p)).testBit ((i + 1) % p) = true then 1 else 0)
    (g := fun i => if c.testBit i = true ∧ c.testBit ((i + 1) % p) = true then 1 else 0)
    (Finset.mem_range.2 hxlt) (Finset.mem_range.2 ha) (Finset.mem_range.2 hzlt) hxa
    hxz (fun e => hza e.symm) (by
      intro i hi h1 h2 h3
      rw [Finset.mem_range] at hi
      have e1 : (i + 1) % p ≠ a := fun e => h1 ((site_pred_unique hp3 ha hi).1 e)
      have e2 : (i + 1) % p ≠ (a + 1) % p := fun e => h2 ((site_pred_unique hp3 ha hi).2 e)
      simp only [hbit, h2, h3, e1, e2, decide_False, Bool.false_or, Bool.not_false,
        Bool.and_true])
  have hca' : (moveCode c a ((a + 1) % p)).testBit a = false := by
    rw [hbit]; simp [hza.symm]
  have hcz' : (moveCode c a ((a + 1) % p)).testBit ((a + 1) % p) = true := by
    rw [hbit]; simp
  have hcw' : (moveCode c a ((a + 1) % p)).testBit ((a + 2) % p) = c.testBit ((a + 2) % p) := by
    rw [hbit]; simp [h2a, h2z]
  simp only [hx1, hz1, hca', hcz', hcw', hca, hcb, and_true, true_and, false_and, and_false,
    if_false, Bool.false_eq_true, Nat.add_zero, Nat.zero_add] at hsum
  unfold bonds
  omega

/-- The change of the number of bonds read off the two neighbours a jump looks at. -/
theorem bondChange_typeAt (c u v : Nat) :
    bondChange (typeAt c u v) =
      (if c.testBit v = true then (1 : Int) else 0) - (if c.testBit u = true then 1 else 0) := by
  unfold typeAt
  by_cases hu : c.testBit u = true <;> by_cases hv : c.testBit v = true <;>
    simp [hu, hv, bondChange]

/-- An increment that is not blocked changes the number of bonds as its type says. -/
theorem bonds_increment_type {p a c : Nat} (hp3 : 3 ≤ p) (hp : p ≤ 31) (hc : c < 2 ^ p)
    (ha : a < p) (hca : c.testBit a = true) (hcb : c.testBit ((a + 1) % p) = false) :
    (bonds p (moveCode c a ((a + 1) % p)) : Int) = bonds p c +
      bondChange (typeAt (moveCode c a ((a + 1) % p)) ((a + p - 1) % p) ((a + 2) % p)) := by
  have h := bonds_increment hp3 hp hc ha hca hcb
  rw [typeAt_increment hp3 hp hc ha, bondChange_typeAt]
  by_cases hu : c.testBit ((a + p - 1) % p) = true <;>
    by_cases hv : c.testBit ((a + 2) % p) = true <;>
    simp only [hu, hv, if_true, if_false, Bool.false_eq_true] at h ⊢ <;> omega

/-- Sites two steps back and one step ahead, seen from the site one step back. -/
theorem ring_sites_back {a p : Nat} (hp3 : 3 ≤ p) (ha : a < p) :
    ((a + p - 1) % p + p - 1) % p = (a + p - 2) % p ∧
      ((a + p - 1) % p + 2) % p = (a + 1) % p := by
  have hp2 : 2 ≤ p := by omega
  obtain ⟨h1, h2, _, h4⟩ := site_cases ha hp2
  have hxlt : (a + p - 1) % p < p := Nat.mod_lt _ (by omega)
  obtain ⟨_, hx2, hx3, _⟩ := site_cases hxlt hp2
  generalize ((a + p - 1) % p + p - 1) % p = X1 at hx2 ⊢
  generalize ((a + p - 1) % p + 2) % p = X2 at hx3 ⊢
  generalize (a + p - 1) % p = X at h2 hxlt hx2 hx3 ⊢
  generalize (a + 1) % p = Z at h1 ⊢
  generalize (a + p - 2) % p = V at h4 ⊢
  clear * - h1 h2 h4 hx2 hx3 hxlt hp3 ha
  omega

/-- A decrement that is not blocked changes the number of bonds as its type says. -/
theorem bonds_decrement_type {p a c : Nat} (hp3 : 3 ≤ p) (hp : p ≤ 31) (hc : c < 2 ^ p)
    (ha : a < p) (hca : c.testBit a = true) (hcb : c.testBit ((a + p - 1) % p) = false) :
    (bonds p (moveCode c a ((a + p - 1) % p)) : Int) = bonds p c +
      bondChange (typeAt (moveCode c a ((a + p - 1) % p)) ((a + 1) % p) ((a + p - 2) % p)) := by
  obtain ⟨hxlt, _, hxa, _, _, hx1, _, _, _⟩ := ring_sites hp3 ha
  obtain ⟨e1, e2⟩ := ring_sites_back hp3 ha
  have hbit := testBit_moveCode (b := (a + p - 1) % p) hp hc ha
  have hc' : moveCode c a ((a + p - 1) % p) < 2 ^ p := moveCode_lt hp hc ha hxlt
  have hx' : (moveCode c a ((a + p - 1) % p)).testBit ((a + p - 1) % p) = true := by
    rw [hbit]; simp
  have ha' : (moveCode c a ((a + p - 1) % p)).testBit (((a + p - 1) % p + 1) % p) = false := by
    rw [hx1, hbit]; simp [hxa.symm]
  have h := bonds_increment_type hp3 hp hc' hxlt hx' ha'
  rw [hx1, moveCode_back hp hc ha hxlt hca hcb, e1, e2] at h
  have hsw : ∀ u v, bondChange (typeAt c u v) = - bondChange (typeAt c v u) := by
    intro u v
    rw [bondChange_typeAt, bondChange_typeAt]
    ring
  rw [hsw] at h
  rw [typeAt_decrement hp3 hp hc ha]
  omega

/-- The number of bonds of a block of `k` atoms that does not fill the ring. -/
theorem bonds_block {p k a c : Nat} (hk1 : 1 ≤ k) (hkp : k < p) (hak : a + k ≤ p)
    (hbits : ∀ i, c.testBit i = decide (a ≤ i ∧ i < a + k)) : bonds p c = k - 1 := by
  unfold bonds
  have hterm : ∀ i ∈ Finset.range p,
      (if c.testBit i = true ∧ c.testBit ((i + 1) % p) = true then 1 else 0) =
        if a ≤ i ∧ i + 1 < a + k then 1 else 0 := by
    intro i hi
    rw [Finset.mem_range] at hi
    rw [hbits, hbits]
    obtain ⟨h1, _, _, _⟩ := site_cases hi (by omega : 2 ≤ p)
    generalize (i + 1) % p = I at h1 ⊢
    simp only [decide_eq_true_eq]
    by_cases h : a ≤ i ∧ i + 1 < a + k
    · rw [if_pos h, if_pos (by omega)]
    · rw [if_neg h, if_neg (by omega)]
  rw [Finset.sum_congr rfl hterm, Finset.sum_boole]
  have : (Finset.range p).filter (fun i => a ≤ i ∧ i + 1 < a + k) = Finset.Ico a (a + k - 1) := by
    ext i
    rw [Finset.mem_filter, Finset.mem_range, Finset.mem_Ico]
    omega
  rw [this, Nat.card_Ico]
  simp only [Nat.cast_id]
  omega

namespace Pattern

/-- A rotation keeps the number of bonds. -/
theorem bonds_iterate_rotateDown {p x : Nat} (hp1 : 1 ≤ p) (hp : p ≤ 31) (hx : x < 2 ^ p)
    (n : Nat) : bonds p ((rotateDown p)^[n] x) = bonds p x := by
  unfold bonds
  have hterm : ∀ i ∈ Finset.range p,
      (if ((rotateDown p)^[n] x).testBit i = true ∧
          ((rotateDown p)^[n] x).testBit ((i + 1) % p) = true then 1 else 0) =
        (fun j => if x.testBit j = true ∧ x.testBit ((j + 1) % p) = true then 1 else 0)
          ((i + n) % p) := by
    intro i hi
    rw [Finset.mem_range] at hi
    rw [testBit_iterate_rotateDown hp1 hp n hx i hi,
      testBit_iterate_rotateDown hp1 hp n hx _ (Nat.mod_lt _ (by omega))]
    have : ((i + 1) % p + n) % p = ((i + n) % p + 1) % p := by
      rw [Nat.mod_add_mod, Nat.mod_add_mod]
      congr 1
      omega
    rw [this]
  rw [Finset.sum_congr rfl hterm]
  have hinj : Set.InjOn (fun i => (i + n) % p) (Finset.range p : Set Nat) := by
    intro i hi j hj h
    exact shift_site_inj (Finset.mem_coe.1 hi |> Finset.mem_range.1)
      (Finset.mem_coe.1 hj |> Finset.mem_range.1) h
  have himg : (Finset.range p).image (fun i => (i + n) % p) = Finset.range p := by
    apply Finset.eq_of_subset_of_card_le
    · intro j hj
      obtain ⟨i, _, rfl⟩ := Finset.mem_image.1 hj
      exact Finset.mem_range.2 (Nat.mod_lt _ (by omega))
    · rw [Finset.card_image_of_injOn hinj]
  rw [← Finset.sum_image (f := fun j =>
    if x.testBit j = true ∧ x.testBit ((j + 1) % p) = true then 1 else 0) hinj, himg]

end Pattern

/-! ## The collapsing number -/

/-- Below the block and in it the atoms are counted by the sites. -/
theorem PackedTo.count {p k a m c : Nat} (h : PackedTo p k a m c) :
    bitCount 0 (a + m) c = m := by
  rw [bitCount_split c (Nat.zero_le a) (Nat.le_add_right a m),
    bitCount_none (fun i _ hi => h.below i hi), bitCount_all (fun i h1 h2 => h.block i h1 h2)]
  omega

/-- The block lies on the ring. -/
theorem PackedTo.le {p k a m c : Nat} (h : PackedTo p k a m c) (hm : 1 ≤ m) : a + m ≤ p := by
  by_contra hcon
  have h1 := h.block (a + m - 1) (by omega) (by omega)
  rw [testBit_of_lt h.lt (by omega)] at h1
  exact Bool.noConfusion h1

/-- The next atom sits at the end of the block or beyond it, with no atom between. -/
theorem PackedTo.next {p k a m c b : Nat} (h : PackedTo p k a m c)
    (hb1 : c.testBit b = true) (hb2 : bitCount 0 b c + 1 = m + 1) :
    a + m ≤ b ∧ ∀ i, a + m ≤ i → i < b → c.testBit i = false := by
  have hcnt := h.count
  have hle : a + m ≤ b := by
    by_contra hcon
    by_cases hba : b < a
    · rw [h.below b hba] at hb1
      exact Bool.noConfusion hb1
    · have : bitCount 0 b c = b - a := by
        rw [bitCount_split c (Nat.zero_le a) (by omega : a ≤ b),
          bitCount_none (fun i _ hi => h.below i hi),
          bitCount_all (fun i h1 h2 => h.block i h1 (by omega))]
        omega
      omega
  refine ⟨hle, ?_⟩
  intro i hi1 hi2
  by_contra hcon
  have h1 := bitCount_succ_right i c
  rw [if_pos (by simpa using hcon)] at h1
  have h2 := bitCount_mono c (by omega : a + m ≤ i)
  have h3 := bitCount_mono c (by omega : i + 1 ≤ b)
  omega

/-- When all the atoms are packed the code is the block. -/
theorem PackedTo.bits {p k a c : Nat} (h : PackedTo p k a k c) (hk : 1 ≤ k) :
    a + k ≤ p ∧ ∀ i, c.testBit i = decide (a ≤ i ∧ i < a + k) := by
  have hle := h.le hk
  refine ⟨hle, ?_⟩
  intro i
  by_cases h1 : i < a
  · rw [h.below i h1]
    simp
    omega
  · by_cases h2 : i < a + k
    · rw [h.block i (by omega) h2]
      simp
      omega
    · have hf : decide (a ≤ i ∧ i < a + k) = false := by simp; omega
      rw [hf]
      by_cases h3 : p ≤ i
      · exact testBit_of_lt h.lt h3
      · by_contra hcon
        have e1 := bitCount_succ_right i c
        rw [if_pos (by simpa using hcon)] at e1
        have e2 := bitCount_mono c (by omega : a + k ≤ i)
        have e3 := bitCount_mono c (by omega : i + 1 ≤ p)
        have e4 := h.count
        have e5 := h.atoms
        rw [Pattern.AtomNum_eq] at e5
        omega

/-- The update of `CNum` in `CollapsingNumber` adds the change of the number of bonds. -/
theorem cnum_update (T : Nat) (CNum : Int) :
    Pattern.CNumStep CNum T = CNum + bondChange T := by
  unfold Pattern.CNumStep
  match T with
  | 0 => simp [bondChange]
  | 1 => simp [bondChange]; ring
  | 2 => simp [bondChange]
  | n + 3 => simp [bondChange]

/-- The count of the jumps of type C less that of type B, over a record of types. -/
theorem count_cons_types (T : Nat) (ts : List Nat) :
    (((T :: ts).count 2 : Nat) : Int) - ((T :: ts).count 1 : Nat) =
      bondChange T + ((ts.count 2 : Nat) - (ts.count 1 : Nat)) := by
  match T with
  | 0 => simp [bondChange]
  | 1 => simp [bondChange]; ring
  | 2 => simp [bondChange]; ring
  | n + 3 => simp [bondChange]

/-- The `while` loop of `CollapsingNumber` for the atom `m+1`, the atoms `1..m` being
packed: the atom is moved down to the block in `d` decrements, `d` its distance from the
block, and `CNum` grows by the change of the number of bonds, which is the number of
jumps of type C less the number of jumps of type B among these decrements. -/
theorem CollapseLoop_spec {p k a m : Nat} (hp : p ≤ 31) (hm1 : 1 ≤ m) (hmk : m < k)
    (hkp : k < p) :
    ∀ (d fuel c : Nat) (CNum : Int) (Types : List Nat) (b : Nat), PackedTo p k a m c →
      Pattern.Element (m + 1) c = some b → b = a + m + d → d < fuel →
      ∃ c' ts, PackedTo p k a (m + 1) c' ∧
        Pattern.CollapseLoop p k (m + 1) fuel c CNum =
          some (c', CNum + ((bonds p c' : Int) - bonds p c)) ∧
        CollapseTrace p k (m + 1) fuel c Types = some (c', Types ++ ts) ∧
        ((ts.count 2 : Nat) : Int) - (ts.count 1 : Nat) = (bonds p c' : Int) - bonds p c ∧
        ts.length = d := by
  have hp3 : 3 ≤ p := by omega
  intro d
  induction d with
  | zero =>
    intro fuel c CNum Types b hpk hel hb hfuel
    obtain ⟨fuel, rfl⟩ : ∃ f, fuel = f + 1 := ⟨fuel - 1, by omega⟩
    obtain ⟨hbp, hbit, hcnt⟩ := Pattern.Element_some (by omega) hpk.atoms (by omega)
      (by omega) hel
    have hblk := Pattern.DecrementSiteBlocked_eq (by omega) hp hpk.atoms (by omega)
      (by omega) hel
    have hsite : (b + p - 1) % p = b - 1 := by
      rw [site_sub_one hbp, if_neg (by omega)]
    rw [hsite, hpk.block (b - 1) (by omega) (by omega)] at hblk
    refine ⟨c, [], ⟨hpk.lt, hpk.atoms, hpk.below, ?_⟩, ?_, ?_, by simp, rfl⟩
    · intro i h1 h2
      by_cases hi : i < a + m
      · exact hpk.block i h1 hi
      · have : i = b := by omega
        rw [this]
        exact hbit
    · rw [Pattern.CollapseLoop]
      simp only [hblk]
      simp
    · rw [CollapseTrace]
      simp only [hblk]
      simp
  | succ d ih =>
    intro fuel c CNum Types b hpk hel hb hfuel
    obtain ⟨fuel, rfl⟩ : ∃ f, fuel = f + 1 := ⟨fuel - 1, by omega⟩
    obtain ⟨hbp, hbit, hcnt⟩ := Pattern.Element_some (by omega) hpk.atoms (by omega)
      (by omega) hel
    obtain ⟨_, hgap⟩ := hpk.next hbit hcnt
    have hblk := Pattern.DecrementSiteBlocked_eq (by omega) hp hpk.atoms (by omega)
      (by omega) hel
    have hsite : (b + p - 1) % p = b - 1 := by
      rw [site_sub_one hbp, if_neg (by omega)]
    have hfree : c.testBit (b - 1) = false := hgap (b - 1) (by omega) (by omega)
    have hdec := Pattern.Decrement_eq (p := p) hel
    rw [hsite] at hblk hdec
    rw [hfree] at hblk
    have hmv : ∀ i, (moveCode c b (b - 1)).testBit i =
        (decide (i = b - 1) || (c.testBit i && !decide (i = b))) :=
      testBit_moveCode hp hpk.lt hbp
    have hpk1 : PackedTo p k a m (moveCode c b (b - 1)) := by
      refine ⟨moveCode_lt hp hpk.lt hbp (by omega), ?_, ?_, ?_⟩
      · rw [Pattern.AtomNum_eq, bitCount_move hbp (by omega : b - 1 < p) hbit hfree hmv,
          ← Pattern.AtomNum_eq]
        exact hpk.atoms
      · intro i hi
        rw [hmv, hpk.below i hi]
        have : ¬ i = b - 1 := by omega
        simp [this]
      · intro i h1 h2
        rw [hmv, hpk.block i h1 h2]
        have : ¬ i = b := by omega
        simp [this]
    have hel1 : Pattern.Element (m + 1) (moveCode c b (b - 1)) = some (b - 1) := by
      apply Pattern.Element_eq (by omega)
      · rw [hmv]; simp
      · have e1 : bitCount 0 (b - 1) (moveCode c b (b - 1)) = bitCount 0 (b - 1) c := by
          apply bitCount_congr
          intro i _ hi
          rw [hmv]
          have h1 : ¬ i = b - 1 := by omega
          have h2 : ¬ i = b := by omega
          simp [h1, h2]
        have e2 := bitCount_succ_right (b - 1) c
        rw [show b - 1 + 1 = b by omega, hfree] at e2
        simp only [Bool.false_eq_true, if_false, Nat.add_zero] at e2
        omega
    have hbond := bonds_decrement_type hp3 hp hpk.lt hbp hbit (by rw [hsite]; exact hfree)
    rw [hsite] at hbond
    obtain ⟨c', ts, hpk', hrun, htr, hcount, hlen⟩ := ih fuel (moveCode c b (b - 1))
      (CNum + bondChange (typeAt (moveCode c b (b - 1)) ((b + 1) % p) ((b + p - 2) % p)))
      (Types ++ [typeAt (moveCode c b (b - 1)) ((b + 1) % p) ((b + p - 2) % p)])
      (b - 1) hpk1 hel1 (by omega) (by omega)
    refine ⟨c', typeAt (moveCode c b (b - 1)) ((b + 1) % p) ((b + p - 2) % p) :: ts, hpk',
      ?_, ?_, ?_, by rw [List.length_cons, hlen]⟩
    · rw [Pattern.CollapseLoop]
      simp only [hblk, hdec, cnum_update]
      show Pattern.CollapseLoop p k (m + 1) fuel (moveCode c b (b - 1))
        (CNum + bondChange (typeAt (moveCode c b (b - 1)) ((b + 1) % p) ((b + p - 2) % p))) = _
      rw [hrun]
      congr 2
      omega
    · rw [CollapseTrace]
      simp only [hblk, hdec]
      show CollapseTrace p k (m + 1) fuel (moveCode c b (b - 1))
        (Types ++ [typeAt (moveCode c b (b - 1)) ((b + 1) % p) ((b + p - 2) % p)]) = _
      rw [htr, List.append_assoc]
      rfl
    · rw [count_cons_types, hcount]
      omega

/-- The loop over the atoms of `CollapsingNumber`, from the atom `m+1` on. -/
theorem collapse_fold {p k a : Nat} (hp : p ≤ 31) (hkp : k < p) {fuel : Nat}
    (hfuel : p ≤ fuel) :
    ∀ (n m c : Nat) (CNum : Int) (Types : List Nat), 1 ≤ m → m + n = k → PackedTo p k a m c →
      ∃ c' ts, PackedTo p k a k c' ∧
        (List.range' (m + 1) n).foldlM
          (fun (s : Nat × Int) (nu : Nat) => Pattern.CollapseLoop p k nu fuel s.1 s.2)
          (c, CNum) = some (c', CNum + ((bonds p c' : Int) - bonds p c)) ∧
        (List.range' (m + 1) n).foldlM
          (fun (s : Nat × List Nat) (nu : Nat) => CollapseTrace p k nu fuel s.1 s.2)
          (c, Types) = some (c', Types ++ ts) ∧
        ((ts.count 2 : Nat) : Int) - (ts.count 1 : Nat) = (bonds p c' : Int) - bonds p c := by
  intro n
  induction n with
  | zero =>
    intro m c CNum Types _ hmn hpk
    have : m = k := by omega
    subst this
    exact ⟨c, [], hpk, by simp [List.range'], by simp [List.range'], by simp⟩
  | succ n ih =>
    intro m c CNum Types hm1 hmn hpk
    obtain ⟨b, hbp, hbit, hcnt, hel⟩ := @Pattern.Element_exists p k c (m + 1) (by omega)
      hpk.atoms (by omega) (by omega)
    obtain ⟨hle, _⟩ := hpk.next hbit hcnt
    obtain ⟨c1, ts1, hpk1, hrun1, htr1, hcount1, _⟩ :=
      CollapseLoop_spec hp hm1 (by omega) hkp (b - (a + m)) fuel c CNum Types b hpk hel
        (by omega) (by omega)
    obtain ⟨c', ts, hpk', hrun, htr, hcount⟩ := ih (m + 1) c1
      (CNum + ((bonds p c1 : Int) - bonds p c)) (Types ++ ts1) (by omega) (by omega) hpk1
    refine ⟨c', ts1 ++ ts, hpk', ?_, ?_, ?_⟩
    · rw [List.range'_succ, List.foldlM_cons]
      show (Pattern.CollapseLoop p k (m + 1) fuel c CNum).bind _ = _
      rw [hrun1, Option.some_bind, hrun]
      congr 2
      omega
    · rw [List.range'_succ, List.foldlM_cons]
      show (CollapseTrace p k (m + 1) fuel c Types).bind _ = _
      rw [htr1, Option.some_bind, htr, List.append_assoc]
    · rw [List.count_append, List.count_append]
      push_cast
      omega

/-- What `CollapsingNumber` does on a code of `k` atoms: the atoms `2..k` are packed
against the lowest atom, and the number returned is the number of jumps of type C less
the number of jumps of type B among the decrements made, which is `k - 1` less the
number of bonds of the code. -/
theorem collapsingNumber_spec {p k c fuel : Nat} (hp2 : 2 ≤ p) (hp : p ≤ 31) (hk1 : 1 ≤ k)
    (hkp : k < p) (hc : c < 2 ^ p) (hk : Pattern.AtomNum p c = k) (hfuel : p ≤ fuel) :
    ∃ a final ts, Pattern.Element 1 c = some a ∧ a + k ≤ p ∧
      (∀ i, final.testBit i = decide (a ≤ i ∧ i < a + k)) ∧
      CollapsingTrace fuel p k c = some (final, ts) ∧
      Pattern.CollapsingNumber fuel p k c =
        some (((ts.count 2 : Nat) : Int) - (ts.count 1 : Nat)) ∧
      Pattern.CollapsingNumber fuel p k c = some ((k : Int) - 1 - bonds p c) := by
  obtain ⟨a, hap, hbit, hcnt, hel⟩ := @Pattern.Element_exists p k c 1 (by omega) hk
    (le_refl 1) hk1
  have hpk : PackedTo p k a 1 c := by
    refine ⟨hc, hk, ?_, ?_⟩
    · intro i hi
      exact testBit_of_bitCount_zero (by omega) hi
    · intro i h1 h2
      have : i = a := by omega
      rw [this]
      exact hbit
  obtain ⟨final, ts, hpk', hrun, htr, hcount⟩ :=
    collapse_fold hp hkp hfuel (k - 1) 1 c 0 [] (le_refl 1) (by omega) hpk
  obtain ⟨hle, hbits⟩ := hpk'.bits hk1
  have hbond := bonds_block hk1 hkp hle hbits
  have hCN : Pattern.CollapsingNumber fuel p k c =
      some ((bonds p final : Int) - bonds p c) := by
    unfold Pattern.CollapsingNumber
    rw [hrun]
    simp
  refine ⟨a, final, ts, hel, hle, hbits, ?_, ?_, ?_⟩
  · unfold CollapsingTrace
    rw [htr]
    simp
  · rw [hCN, hcount]
  · rw [hCN, hbond]
    congr 1
    omega

/-! ## The equilibrium eigenvector -/

/-- The first loop of the equilibrium eigenvector, when every collapsing number is
returned. -/
theorem eqEVLoop_fold {K : Type} [Field K] (g : Nat → Option Int) (h : Nat → Int) (x : K) :
    ∀ (L : List Nat) (E0 : List K) (S0 : K), (∀ c, c ∈ L → g c = some (h c)) →
      L.foldlM
        (fun (s : List K × K) (Current : Nat) =>
          (g Current).map fun (CNum : Int) => (s.1 ++ [x ^ CNum], s.2 + x ^ CNum))
        (E0, S0) =
      some (E0 ++ L.map (fun c => x ^ h c), S0 + (L.map (fun c => x ^ h c)).sum) := by
  intro L
  induction L with
  | nil => intro E0 S0 _; simp
  | cons c L ih =>
    intro E0 S0 hall
    rw [List.foldlM_cons, hall c (List.mem_cons_self _ _)]
    show (some (E0 ++ [x ^ h c], S0 + x ^ h c)).bind _ = _
    rw [Option.some_bind, ih _ _ (fun d hd => hall d (List.mem_cons_of_mem _ hd))]
    simp [add_assoc]

/-- The equilibrium eigenvector over an array of codes of `k` atoms: entry `i` is the
weight `(RateB/RateC)^(k - 1 - bonds)` of `Primitive[i]` times a positive factor `Sum`,
the same for all entries, and the entries add up to `1/p`. -/
theorem eqEV_spec {K : Type} [LinearOrderedField K] {p k fuel : Nat} {L : List Nat}
    (hL : GoodPrims p k L) (hp2 : 2 ≤ p) (hp : p ≤ 31) (hk0 : 0 < k) (hkp : k < p)
    (hf : p ≤ fuel) (hne : L ≠ []) {RateB RateC : K} (hB : 0 < RateB) (hC : 0 < RateC) :
    ∃ (E : List K) (N : K), EqEV fuel p k RateB RateC L = some E ∧ 0 < N ∧
      E.length = L.length ∧
      (∀ i c, L.get? i = some c →
        E.get? i = some ((RateB / RateC) ^ ((k : Int) - 1 - bonds p c) * N)) ∧
      E.sum = 1 / (p : K) := by
  have hx : 0 < RateB / RateC := div_pos hB hC
  have hall : ∀ c, c ∈ L → Pattern.CollapsingNumber fuel p k c =
      some ((fun c => (k : Int) - 1 - bonds p c) c) := by
    intro c hc
    obtain ⟨i, _, hi⟩ := exists_get_of_mem hc
    obtain ⟨h1, h2, _⟩ := hL.valid hi
    obtain ⟨_, _, _, _, _, _, _, _, h3⟩ := collapsingNumber_spec hp2 hp hk0 hkp h1 h2 hf
    exact h3
  have hloop := eqEVLoop_fold (fun c => Pattern.CollapsingNumber fuel p k c)
    (fun c => (k : Int) - 1 - bonds p c) (RateB / RateC) L [] 0 hall
  have hS : 0 < (L.map (fun c => (RateB / RateC) ^ ((k : Int) - 1 - bonds p c))).sum := by
    apply List.sum_pos
    · intro y hy
      obtain ⟨c, _, rfl⟩ := List.mem_map.1 hy
      exact zpow_pos hx _
    · simpa using hne
  have hpK : (0 : K) < (p : K) := by exact_mod_cast (by omega : 0 < p)
  refine ⟨(L.map (fun c => (RateB / RateC) ^ ((k : Int) - 1 - bonds p c))).map
      (fun y => y * (1 / ((p : K) * (0 +
        (L.map (fun c => (RateB / RateC) ^ ((k : Int) - 1 - bonds p c))).sum)))),
    1 / ((p : K) * (0 + (L.map (fun c => (RateB / RateC) ^ ((k : Int) - 1 - bonds p c))).sum)),
    ?_, ?_, by simp, ?_, ?_⟩
  · unfold EqEV EqEVLoop
    rw [hloop]
    simp
  · rw [zero_add]
    exact one_div_pos.2 (mul_pos hpK hS)
  · intro i c hi
    rw [List.get?_eq_getElem?] at hi ⊢
    rw [List.getElem?_map, List.getElem?_map, hi]
    rfl
  · rw [List.sum_map_mul_right, zero_add]
    simp only [List.map_id']
    generalize (L.map (fun c => (RateB / RateC) ^ ((k : Int) - 1 - bonds p c))).sum = S at hS
    have h1 : S ≠ 0 := ne_of_gt hS
    have h2 : (p : K) ≠ 0 := ne_of_gt hpK
    field_simp
    ring

/-- There is at least one primitive pattern. -/
theorem GoodPrims.ne_nil {p k : Nat} {L : List Nat} (hL : GoodPrims p k L)
    (hprime : Nat.Prime p) (hp : p ≤ 31) (hk0 : 0 < k) (hkp : k < p) : L ≠ [] := by
  have h1 := card_primitive_mul hprime hp hk0 hkp
  have h2 : 0 < Nat.choose p k := Nat.choose_pos hkp.le
  have h3 : 0 < (codesWithSum p k 0).card := by
    rcases Nat.eq_zero_or_pos (codesWithSum p k 0).card with h | h
    · rw [h, Nat.mul_zero] at h1
      omega
    · exact h
  obtain ⟨c, hc⟩ := Finset.card_pos.1 h3
  intro hnil
  have := (hL.mem c).2 hc
  rw [hnil] at this
  exact List.not_mem_nil _ this

/-- The run of `main` up to the equilibrium eigenvector. -/
theorem eqEV_run {K : Type} [LinearOrderedField K] {p k fuel : Nat} (hprime : Nat.Prime p)
    (hp : p ≤ 31) (hk0 : 0 < k) (hkp : k < p) (hfuel : 2 ^ p ≤ fuel) {RateB RateC : K}
    (hB : 0 < RateB) (hC : 0 < RateC) :
    ∃ (L : List Nat) (t : RateTables) (E : List K) (N : K),
      RateMatrix fuel p k = some (L, t) ∧ SelectPrimitives fuel p k = some L ∧
      AssembleRates fuel p k L = some t ∧ GoodPrims p k L ∧ L.length = PrimNum p k ∧
      p ≤ fuel ∧ L.length ≤ fuel ∧ L ≠ [] ∧
      EqEV fuel p k RateB RateC L = some E ∧ 0 < N ∧ E.length = L.length ∧
      (∀ i c, L.get? i = some c →
        E.get? i = some ((RateB / RateC) ^ ((k : Int) - 1 - bonds p c) * N)) ∧
      (∀ c, c ∈ L → Pattern.CollapsingNumber fuel p k c = some ((k : Int) - 1 - bonds p c)) ∧
      E.sum = 1 / (p : K) := by
  obtain ⟨L, t, hrate, hsel, hasm, hgood, hlen, hf1, hf2⟩ :=
    rateMatrix_run hprime hp hk0 hkp hfuel
  have hne := hgood.ne_nil hprime hp hk0 hkp
  obtain ⟨E, N, hE, hN, hElen, hEget, hsum⟩ :=
    eqEV_spec hgood hprime.two_le hp hk0 hkp hf1 hne hB hC
  refine ⟨L, t, E, N, hrate, hsel, hasm, hgood, hlen, hf1, hf2, hne, hE, hN, hElen, hEget,
    ?_, hsum⟩
  intro c hc
  obtain ⟨i, _, hi⟩ := exists_get_of_mem hc
  obtain ⟨h1, h2, _⟩ := hgood.valid hi
  obtain ⟨_, _, _, _, _, _, _, _, h3⟩ :=
    collapsingNumber_spec hprime.two_le hp hk0 hkp h1 h2 hf1
  exact h3

/-! ## Detailed balance -/

/-- An increment changes the number of bonds as its type says, also after the rotation
to the primitive pattern. -/
theorem bonds_of_incSite {p m c d T a : Nat} (hp3 : 3 ≤ p) (hp : p ≤ 31) (hc : c < 2 ^ p)
    (ha : a ∈ incSites p m c d T) : (bonds p d : Int) = bonds p c + bondChange T := by
  obtain ⟨hap, hbit, hfree, htype, hrot⟩ := mem_incSites.1 ha
  rw [← hrot, Pattern.bonds_iterate_rotateDown (by omega) hp
    (moveCode_lt hp hc hap (Nat.mod_lt _ (by omega))), ← htype]
  exact bonds_increment_type hp3 hp hc hap hbit hfree

/-- A decrement changes the number of bonds as its type says, also after the rotation
to the primitive pattern. -/
theorem bonds_of_decSite {p r c d T a : Nat} (hp3 : 3 ≤ p) (hp : p ≤ 31) (hc : c < 2 ^ p)
    (ha : a ∈ decSites p r c d T) : (bonds p d : Int) = bonds p c + bondChange T := by
  obtain ⟨hap, hbit, hfree, htype, hrot⟩ := mem_decSites.1 ha
  rw [← hrot, Pattern.bonds_iterate_rotateDown (by omega) hp
    (moveCode_lt hp hc hap (Nat.mod_lt _ (by omega))), ← htype]
  exact bonds_decrement_type hp3 hp hc hap hbit hfree

/-- The entries of `Forward` and `Backward` count sites: entry `(r, s)` counts the moves
from the pattern `s` that lead to the pattern `r`. -/
theorem rate_tables_sites {p k fuel : Nat} {L : List Nat} {t : RateTables}
    (hL : GoodPrims p k L) (hprime : Nat.Prime p) (hp : p ≤ 31) (hk0 : 0 < k) (hkp : k < p)
    (hf1 : p ≤ fuel) (hf2 : L.length ≤ fuel) (hasm : AssembleRates fuel p k L = some t) :
    ∃ m, m < p ∧ 0 < m ∧ ∀ r s cr cs, L.get? r = some cr → L.get? s = some cs →
      ∀ T, T < 4 →
        (t.Forward (Element L.length r s)).coeff T = (incSites p m cs cr T).card ∧
        (t.Backward (Element L.length r s)).coeff T = (decSites p (p - m) cs cr T).card := by
  obtain ⟨t', hasm', hspec⟩ := assembleRates_spec hL hprime hp hk0 hkp hf1 hf2
  rw [hasm] at hasm'
  cases hasm'
  obtain ⟨m, hm, hmk⟩ := exists_mul_mod_eq hprime hk0 hkp hprime.one_lt
  have hm0 : 0 < m := by
    rcases Nat.eq_zero_or_pos m with h | h
    · rw [h, Nat.zero_mul, Nat.zero_mod] at hmk
      omega
    · exact h
  refine ⟨m, hm, hm0, ?_⟩
  intro r s cr cs hr hs T hT
  obtain ⟨_, hF, hB, _, _⟩ := hspec s cs hs T hT
  rw [hF r (lt_of_get hr), hB r (lt_of_get hr),
    countP_incMove_sites hL hprime hp hk0 hkp hf1 hf2 hm hmk hs hr T,
    countP_decMove_sites hL hprime hp hk0 hkp hf1 hf2 hm hmk hs hr T]
  exact ⟨rfl, rfl⟩

/-- The algebra of detailed balance: moves of type A and D join patterns with the same
number of bonds, a move of type B leads to one bond less and one of type C to one more,
and the reverse of a move of type B has type C. -/
theorem balance_algebra {K : Type} [LinearOrderedField K] (A B C D N : K) (hB : 0 < B)
    (hC : 0 < C) (n0 n1 n2 n3 k bi bj : Nat) (h0 : 0 < n0 → bi = bj) (h3 : 0 < n3 → bi = bj)
    (h1 : 0 < n1 → (bi : Int) = bj - 1) (h2 : 0 < n2 → (bi : Int) = bj + 1) :
    (A * (n0 : K) + B * (n1 : K) + C * (n2 : K) + D * (n3 : K)) *
        ((B / C) ^ ((k : Int) - 1 - bj) * N) =
      (A * (n0 : K) + C * (n1 : K) + B * (n2 : K) + D * (n3 : K)) *
        ((B / C) ^ ((k : Int) - 1 - bi) * N) := by
  have hx : B / C ≠ 0 := ne_of_gt (div_pos hB hC)
  have hC0 : C ≠ 0 := ne_of_gt hC
  have e0 : A * (n0 : K) * ((B / C) ^ ((k : Int) - 1 - bj) * N) =
      A * (n0 : K) * ((B / C) ^ ((k : Int) - 1 - bi) * N) := by
    rcases Nat.eq_zero_or_pos n0 with h | h
    · rw [h]; simp
    · rw [h0 h]
  have e3 : D * (n3 : K) * ((B / C) ^ ((k : Int) - 1 - bj) * N) =
      D * (n3 : K) * ((B / C) ^ ((k : Int) - 1 - bi) * N) := by
    rcases Nat.eq_zero_or_pos n3 with h | h
    · rw [h]; simp
    · rw [h3 h]
  have e1 : B * (n1 : K) * ((B / C) ^ ((k : Int) - 1 - bj) * N) =
      C * (n1 : K) * ((B / C) ^ ((k : Int) - 1 - bi) * N) := by
    rcases Nat.eq_zero_or_pos n1 with h | h
    · rw [h]; simp
    · have : (k : Int) - 1 - bi = ((k : Int) - 1 - bj) + 1 := by have := h1 h; omega
      rw [this, zpow_add_one₀ hx]
      field_simp
      ring
  have e2 : C * (n2 : K) * ((B / C) ^ ((k : Int) - 1 - bj) * N) =
      B * (n2 : K) * ((B / C) ^ ((k : Int) - 1 - bi) * N) := by
    rcases Nat.eq_zero_or_pos n2 with h | h
    · rw [h]; simp
    · have : (k : Int) - 1 - bj = ((k : Int) - 1 - bi) + 1 := by have := h2 h; omega
      rw [this, zpow_add_one₀ hx]
      field_simp
      ring
  linear_combination e0 + e1 + e2 + e3

/-- The entry of the rate matrix in terms of the counters read by type. -/
theorem RateEntry_coeff {K : Type} [Field K] (A B C D : K) (t : RateTables) (N i j : Nat) :
    RateEntry A B C D t N i j =
      A * (((t.Forward (Element N i j)).coeff 0 + (t.Backward (Element N i j)).coeff 0 : Nat) : K) +
      B * (((t.Forward (Element N i j)).coeff 1 + (t.Backward (Element N i j)).coeff 1 : Nat) : K) +
      C * (((t.Forward (Element N i j)).coeff 2 + (t.Backward (Element N i j)).coeff 2 : Nat) : K) +
      D * (((t.Forward (Element N i j)).coeff 3 + (t.Backward (Element N i j)).coeff 3 : Nat) : K) :=
  rfl

/-- Detailed balance of the entries of the rate matrix against the weights
`(RateB/RateC)^(k - 1 - bonds)`. -/
theorem rateEntry_balance {K : Type} [LinearOrderedField K] {p k fuel : Nat} {L : List Nat}
    {t : RateTables} (hL : GoodPrims p k L) (hprime : Nat.Prime p) (hp3 : 3 ≤ p) (hp : p ≤ 31)
    (hk0 : 0 < k) (hkp : k < p) (hf1 : p ≤ fuel) (hf2 : L.length ≤ fuel)
    (hasm : AssembleRates fuel p k L = some t) (A B C D N : K) (hB : 0 < B) (hC : 0 < C)
    {i j ci cj : Nat} (hi : L.get? i = some ci) (hj : L.get? j = some cj) :
    RateEntry A B C D t L.length i j * ((B / C) ^ ((k : Int) - 1 - bonds p cj) * N) =
      RateEntry A B C D t L.length j i * ((B / C) ^ ((k : Int) - 1 - bonds p ci) * N) := by
  obtain ⟨m, hm, hm0, hsites⟩ := rate_tables_sites hL hprime hp hk0 hkp hf1 hf2 hasm
  have hci := (hL.valid hi).1
  have hcj := (hL.valid hj).1
  have hmr : m + (p - m) = p := by omega
  -- the entries of row `j`, column `i` are those of row `i`, column `j` with B and C exchanged
  have hrev : ∀ T, T < 4 →
      (t.Forward (Element L.length j i)).coeff T + (t.Backward (Element L.length j i)).coeff T =
        (t.Forward (Element L.length i j)).coeff (swapBC T) +
          (t.Backward (Element L.length i j)).coeff (swapBC T) := by
    intro T hT
    obtain ⟨h1, h2⟩ := hsites j i cj ci hj hi T hT
    obtain ⟨h3, h4⟩ := hsites i j ci cj hi hj (swapBC T) (swapBC_lt hT)
    rw [h1, h2, h3, h4, card_incSites_eq hp3 hp hmr hci hcj,
      card_incSites_eq (T := swapBC T) hp3 hp hmr hcj hci, swapBC_swapBC]
    omega
  -- a move from `cj` to `ci` of type `T` fixes the difference of the bonds
  have hbond : ∀ T, T < 4 →
      0 < (t.Forward (Element L.length i j)).coeff T +
        (t.Backward (Element L.length i j)).coeff T →
      (bonds p ci : Int) = bonds p cj + bondChange T := by
    intro T hT hpos
    obtain ⟨h1, h2⟩ := hsites i j ci cj hi hj T hT
    rw [h1, h2] at hpos
    rcases Nat.eq_zero_or_pos (incSites p m cj ci T).card with hz | hz
    · have : 0 < (decSites p (p - m) cj ci T).card := by omega
      obtain ⟨a, ha⟩ := Finset.card_pos.1 this
      exact bonds_of_decSite hp3 hp hcj ha
    · obtain ⟨a, ha⟩ := Finset.card_pos.1 hz
      exact bonds_of_incSite hp3 hp hcj ha
  rw [RateEntry_coeff, RateEntry_coeff, hrev 0 (by omega), hrev 1 (by omega), hrev 2 (by omega),
    hrev 3 (by omega)]
  have hb0 := hbond 0 (by omega)
  have hb1 := hbond 1 (by omega)
  have hb2 := hbond 2 (by omega)
  have hb3 := hbond 3 (by omega)
  simp only [swapBC, bondChange] at hb0 hb1 hb2 hb3 ⊢
  have := balance_algebra A B C D N hB hC _ _ _ _ k (bonds p ci) (bonds p cj)
    (fun h => by have := hb0 h; omega) (fun h => by have := hb3 h; omega)
    (fun h => by have := hb1 h; omega) (fun h => by have := hb2 h; omega)
  rw [this]
  ring

/-- The entries of a column of the rate matrix add up to the decay rate of `Diagonal`. -/
theorem rateEntry_column_sum {K : Type} [Field K] {p k fuel : Nat} {L : List Nat}
    {t : RateTables} (hL : GoodPrims p k L) (hprime : Nat.Prime p) (hp : p ≤ 31)
    (hk0 : 0 < k) (hkp : k < p) (hf1 : p ≤ fuel) (hf2 : L.length ≤ fuel)
    (hasm : AssembleRates fuel p k L = some t) (A B C D : K) {i : Nat} (hi : i < L.length) :
    (∑ j ∈ Finset.range L.length, RateEntry A B C D t L.length j i) =
      (t.Diagonal i).rate A B C D := by
  obtain ⟨t', hasm', hspec⟩ := assembleRates_spec hL hprime hp hk0 hkp hf1 hf2
  rw [hasm] at hasm'
  cases hasm'
  obtain ⟨c, hc⟩ := get_of_lt hi
  have hcol : ∀ T, T < 4 →
      (∑ j ∈ Finset.range L.length,
        (((t.Forward (Element L.length j i)).coeff T +
          (t.Backward (Element L.length j i)).coeff T : Nat) : K)) =
        (((t.Diagonal i).coeff T : Nat) : K) := by
    intro T hT
    obtain ⟨h1, _, _, h4, h5⟩ := hspec i c hc T hT
    rw [← Nat.cast_sum, Finset.sum_add_distrib, h4, h5, h1]
  simp only [RateEntry_coeff]
  rw [Finset.sum_add_distrib, Finset.sum_add_distrib, Finset.sum_add_distrib,
    ← Finset.mul_sum, ← Finset.mul_sum, ← Finset.mul_sum, ← Finset.mul_sum,
    hcol 0 (by omega), hcol 1 (by omega), hcol 2 (by omega), hcol 3 (by omega)]
  rfl

/-! ## The matrix of the momentum `q = 0` -/

theorem Element_eq_iff {N a b a' b' : Nat} (hb : b < N) (hb' : b' < N) :
    Element N a b = Element N a' b' ↔ a = a' ∧ b = b' := by
  constructor
  · intro h
    exact Element_inj hb' hb h
  · rintro ⟨rfl, rfl⟩
    rfl

/-- The loop that fills one row of the rate matrix. -/
theorem fill_row {K : Type} (N i : Nat) (e : Nat → K) (U : Nat → K) :
    ∀ n, n ≤ N → ∀ a b, b < N →
      (List.range n).foldl (fun (V : Nat → K) (j : Nat) =>
        Function.update V (Element N i j) (e j)) U (Element N a b) =
        if a = i ∧ b < n then e b else U (Element N a b) := by
  intro n
  induction n with
  | zero =>
    intro _ a b _
    simp
  | succ n ih =>
    intro hn a b hb
    rw [List.range_succ, List.foldl_append, List.foldl_cons, List.foldl_nil,
      Function.update_apply, ih (by omega) a b hb]
    by_cases h : a = i ∧ b = n
    · obtain ⟨rfl, rfl⟩ := h
      rw [if_pos rfl, if_pos ⟨rfl, by omega⟩]
    · rw [if_neg (fun e' => h ((Element_eq_iff hb (by omega)).1 e'))]
      by_cases h2 : a = i ∧ b < n
      · rw [if_pos h2, if_pos ⟨h2.1, by omega⟩]
      · rw [if_neg h2, if_neg (by omega)]

/-- One pass of the loop "Calculate Rate Matrix": row `i` is filled and the decay rate
is subtracted on the diagonal. -/
theorem fill_row_diag {K : Type} [Field K] (N i : Nat) (hi : i < N) (e : Nat → K) (l : K)
    (U : Nat → K) (a b : Nat) (hb : b < N) :
    Function.update
        ((List.range N).foldl (fun (V : Nat → K) (j : Nat) =>
          Function.update V (Element N i j) (e j)) U)
        (Element N i i)
        ((List.range N).foldl (fun (V : Nat → K) (j : Nat) =>
          Function.update V (Element N i j) (e j)) U (Element N i i) - l) (Element N a b) =
      if a = i then e b - (if a = b then l else 0) else U (Element N a b) := by
  have h1 := fill_row N i e U N (le_refl N) i i hi
  have h2 := fill_row N i e U N (le_refl N) a b hb
  rw [Function.update_apply, h1, h2]
  have hii : (i = i ∧ i < N) := ⟨rfl, hi⟩
  rw [if_pos hii]
  by_cases h : a = i ∧ b = i
  · obtain ⟨ha, hb'⟩ := h
    subst ha
    subst hb'
    simp
  · have hne : ¬ Element N a b = Element N i i := fun e' => h ((Element_eq_iff hb hi).1 e')
    rw [if_neg hne]
    by_cases har : a = i
    · subst har
      have hab : ¬ a = b := fun e' => h ⟨rfl, e'.symm⟩
      simp [hb, hab]
    · simp [har]

/-- The value the loop "Calculate Rate Matrix" leaves in `Unitary[Element(i,j)]`. -/
theorem ZeroMomentumMatrix_rows {K : Type} [Field K] (A B C D : K) (t : RateTables)
    (N : Nat) (U : Nat → K) :
    ∀ r, r ≤ N → ∀ a b, b < N →
      (List.range r).foldl
        (fun (U : Nat → K) (i : Nat) =>
          let U1 := (List.range N).foldl
            (fun (V : Nat → K) (j : Nat) =>
              Function.update V (Element N i j) (RateEntry A B C D t N i j)) U
          Function.update U1 (Element N i i)
            (U1 (Element N i i) - (t.Diagonal i).rate A B C D)) U (Element N a b) =
        if a < r then RateEntry A B C D t N a b -
            (if a = b then (t.Diagonal a).rate A B C D else 0)
        else U (Element N a b) := by
  intro r
  induction r with
  | zero =>
    intro _ a b _
    simp
  | succ r ih =>
    intro hr a b hb
    rw [List.range_succ, List.foldl_append, List.foldl_cons, List.foldl_nil]
    simp only []
    rw [fill_row_diag N r (by omega) (fun j => RateEntry A B C D t N r j) _ _ a b hb]
    by_cases har : a = r
    · subst har
      simp
    · rw [if_neg har, ih (by omega) a b hb]
      by_cases h2 : a < r
      · have h3 : a < r + 1 := by omega
        simp only [if_pos h2, if_pos h3]
      · have h3 : ¬ a < r + 1 := by omega
        simp only [if_neg h2, if_neg h3]

theorem ZeroMomentumMatrix_apply {K : Type} [Field K] (A B C D : K) (t : RateTables)
    (N : Nat) (U : Nat → K) {i j : Nat} (hi : i < N) (hj : j < N) :
    ZeroMomentumMatrix A B C D t N U (Element N i j) =
      RateEntry A B C D t N i j - (if i = j then (t.Diagonal i).rate A B C D else 0) := by
  unfold ZeroMomentumMatrix
  rw [ZeroMomentumMatrix_rows A B C D t N U N (le_refl N) i j hj, if_pos hi]

/-- The inner loop of the symmetrization for the row `i`: the entries `(i, j)` and
`(j, i)`, `j > i`, both become the entry `(i, j)` times the square root. -/
theorem sym_row {K : Type} [Field K] (sqrt : K → K) (E : Nat → K) (N i : Nat) (hi : i < N)
    (U : Nat → K) :
    ∀ n, i + 1 + n ≤ N → ∀ a b, a < N → b < N →
      (List.range' (i + 1) n).foldl
        (fun (V : Nat → K) (j : Nat) =>
          let V1 := Function.update V (Element N i j) (V (Element N i j) * sqrt (E j / E i))
          Function.update V1 (Element N j i) (V1 (Element N i j))) U (Element N a b) =
        if a = i ∧ i < b ∧ b < i + 1 + n then U (Element N i b) * sqrt (E b / E i)
        else if b = i ∧ i < a ∧ a < i + 1 + n then U (Element N i a) * sqrt (E a / E i)
        else U (Element N a b) := by
  intro n
  induction n with
  | zero =>
    intro _ a b _ _
    have h1 : ¬ (a = i ∧ i < b ∧ b < i + 1 + 0) := by omega
    have h2 : ¬ (b = i ∧ i < a ∧ a < i + 1 + 0) := by omega
    simp only [List.range'_zero, List.foldl_nil, if_neg h1, if_neg h2]
  | succ n ih =>
    intro hn a b ha hb
    rw [List.range'_1_concat, List.foldl_append, List.foldl_cons, List.foldl_nil]
    have ihn := ih (by omega)
    generalize List.foldl _ U (List.range' (i + 1) n) = V at ihn ⊢
    have hcur := ihn i (i + 1 + n) hi (by omega)
    have hc1 : ¬ (i = i ∧ i < i + 1 + n ∧ i + 1 + n < i + 1 + n) := by omega
    have hc2 : ¬ (i + 1 + n = i ∧ i < i ∧ i < i + 1 + n) := by omega
    rw [if_neg hc1, if_neg hc2] at hcur
    simp only [Function.update_same]
    rw [Function.update_apply, Function.update_apply, hcur, ihn a b ha hb]
    by_cases h1 : a = i + 1 + n ∧ b = i
    · obtain ⟨h1a, h1b⟩ := h1
      have e1 : Element N a b = Element N (i + 1 + n) i := by rw [h1a, h1b]
      have e2 : ¬ (a = i ∧ i < b ∧ b < i + 1 + (n + 1)) := by omega
      have e3 : b = i ∧ i < a ∧ a < i + 1 + (n + 1) := by omega
      rw [if_pos e1, if_neg e2, if_pos e3, h1a]
    · have e1 : ¬ Element N a b = Element N (i + 1 + n) i :=
        fun e' => h1 ((Element_eq_iff hb hi).1 e')
      rw [if_neg e1]
      by_cases h2 : a = i ∧ b = i + 1 + n
      · obtain ⟨h2a, h2b⟩ := h2
        have e2 : Element N a b = Element N i (i + 1 + n) := by rw [h2a, h2b]
        have e3 : a = i ∧ i < b ∧ b < i + 1 + (n + 1) := by omega
        rw [if_pos e2, if_pos e3, h2b]
      · have e2 : ¬ Element N a b = Element N i (i + 1 + n) :=
          fun e' => h2 ((Element_eq_iff hb (by omega)).1 e')
        rw [if_neg e2]
        by_cases h3 : a = i ∧ i < b ∧ b < i + 1 + n
        · have e3 : a = i ∧ i < b ∧ b < i + 1 + (n + 1) := by omega
          rw [if_pos h3, if_pos e3]
        · have e3 : ¬ (a = i ∧ i < b ∧ b < i + 1 + (n + 1)) := by omega
          rw [if_neg h3, if_neg e3]
          by_cases h4 : b = i ∧ i < a ∧ a < i + 1 + n
          · have e4 : b = i ∧ i < a ∧ a < i + 1 + (n + 1) := by omega
            rw [if_pos h4, if_pos e4]
          · have e4 : ¬ (b = i ∧ i < a ∧ a < i + 1 + (n + 1)) := by omega
            rw [if_neg h4, if_neg e4]

/-- The value the loop "Symmetrization Procedure" leaves in `Unitary[Element(a,b)]`. -/
theorem Symmetrize_rows {K : Type} [Field K] (sqrt : K → K) (E : Nat → K) (N : Nat)
    (U : Nat → K) :
    ∀ r, r ≤ N → ∀ a b, a < N → b < N →
      (List.range r).foldl
        (fun (U : Nat → K) (i : Nat) =>
          (List.range' (i + 1) (N - (i + 1))).foldl
            (fun (V : Nat → K) (j : Nat) =>
              let V1 := Function.update V (Element N i j)
                (V (Element N i j) * sqrt (E j / E i))
              Function.update V1 (Element N j i) (V1 (Element N i j)))
            U) U (Element N a b) =
        if a < b ∧ a < r then U (Element N a b) * sqrt (E b / E a)
        else if b < a ∧ b < r then U (Element N b a) * sqrt (E a / E b)
        else U (Element N a b) := by
  intro r
  induction r with
  | zero =>
    intro _ a b _ _
    have h1 : ¬ (a < b ∧ a < 0) := by omega
    have h2 : ¬ (b < a ∧ b < 0) := by omega
    simp only [List.range_zero, List.foldl_nil, if_neg h1, if_neg h2]
  | succ r ih =>
    intro hr a b ha hb
    rw [List.range_succ, List.foldl_append, List.foldl_cons, List.foldl_nil,
      sym_row sqrt E N r (by omega) _ (N - (r + 1)) (by omega) a b ha hb]
    by_cases h1 : a = r ∧ r < b ∧ b < r + 1 + (N - (r + 1))
    · rw [if_pos h1, ih (by omega) r b (by omega) hb]
      have e1 : ¬ (r < b ∧ r < r) := by omega
      have e2 : ¬ (b < r ∧ b < r) := by omega
      have e3 : a < b ∧ a < r + 1 := by omega
      rw [if_neg e1, if_neg e2, if_pos e3, h1.1]
    · rw [if_neg h1]
      by_cases h2 : b = r ∧ r < a ∧ a < r + 1 + (N - (r + 1))
      · rw [if_pos h2, ih (by omega) r a (by omega) ha]
        have e1 : ¬ (r < a ∧ r < r) := by omega
        have e2 : ¬ (a < r ∧ a < r) := by omega
        have e3 : ¬ (a < b ∧ a < r + 1) := by omega
        have e4 : b < a ∧ b < r + 1 := by omega
        rw [if_neg e1, if_neg e2, if_neg e3, if_pos e4, h2.1]
      · rw [if_neg h2, ih (by omega) a b ha hb]
        by_cases h3 : a < b ∧ a < r
        · have e3 : a < b ∧ a < r + 1 := by omega
          rw [if_pos h3, if_pos e3]
        · have e3 : ¬ (a < b ∧ a < r + 1) := by omega
          rw [if_neg h3, if_neg e3]
          by_cases h4 : b < a ∧ b < r
          · have e4 : b < a ∧ b < r + 1 := by omega
            rw [if_pos h4, if_pos e4]
          · have e4 : ¬ (b < a ∧ b < r + 1) := by omega
            rw [if_neg h4, if_neg e4]

theorem Symmetrize_apply {K : Type} [Field K] (sqrt : K → K) (E : Nat → K) (N : Nat)
    (U : Nat → K) {a b : Nat} (ha : a < N) (hb : b < N) :
    Symmetrize sqrt E N U (Element N a b) =
      if a < b then U (Element N a b) * sqrt (E b / E a)
      else if b < a then U (Element N b a) * sqrt (E a / E b)
      else U (Element N a b) := by
  unfold Symmetrize
  rw [Symmetrize_rows sqrt E N U N (le_refl N) a b ha hb]
  by_cases h1 : a < b
  · rw [if_pos ⟨h1, ha⟩, if_pos h1]
  · have e1 : ¬ (a < b ∧ a < N) := fun h => h1 h.1
    rw [if_neg e1, if_neg h1]
    by_cases h2 : b < a
    · rw [if_pos ⟨h2, hb⟩, if_pos h2]
    · have e2 : ¬ (b < a ∧ b < N) := fun h => h2 h.1
      rw [if_neg e2, if_neg h2]

/-! ## Detailed balance and the stationary state -/

/-- An entry of the array `EqEV` read as a function of the position. -/
theorem EqEVAt_of_get {K : Type} [Field K] {E : List K} {i : Nat} {x : K}
    (h : E.get? i = some x) : EqEVAt E i = x := by
  unfold EqEVAt
  rw [List.get?_eq_getElem?] at h
  rw [List.getD_eq_getElem?_getD, h]
  rfl

/-- With two sites and one atom there is one primitive pattern. -/
theorem GoodPrims.length_two {k : Nat} {L : List Nat} (hL : GoodPrims 2 k L) (hk0 : 0 < k)
    (hkp : k < 2) (hlen : L.length = PrimNum 2 k) : L.length = 1 := by
  have hk : k = 1 := by omega
  subst hk
  rw [hlen, PrimNum_eq_choose_div Nat.prime_two (by omega) (by omega) (by omega)]
  decide

/-- Detailed balance of the rate matrix against the equilibrium eigenvector, for all
pairs of primitive patterns. -/
theorem balance_run {K : Type} [LinearOrderedField K] {p k fuel : Nat} {L : List Nat}
    {t : RateTables} (hL : GoodPrims p k L) (hprime : Nat.Prime p) (hp : p ≤ 31)
    (hk0 : 0 < k) (hkp : k < p) (hf1 : p ≤ fuel) (hf2 : L.length ≤ fuel)
    (hlen : L.length = PrimNum p k)
    (hasm : AssembleRates fuel p k L = some t) (A B C D N : K) (hB : 0 < B) (hC : 0 < C)
    {i j ci cj : Nat} (hi : L.get? i = some ci) (hj : L.get? j = some cj) :
    RateEntry A B C D t L.length i j * ((B / C) ^ ((k : Int) - 1 - bonds p cj) * N) =
      RateEntry A B C D t L.length j i * ((B / C) ^ ((k : Int) - 1 - bonds p ci) * N) := by
  by_cases hp3 : 3 ≤ p
  · exact rateEntry_balance hL hprime hp3 hp hk0 hkp hf1 hf2 hasm A B C D N hB hC hi hj
  · have hp2 : p = 2 := by have := hprime.two_le; omega
    subst hp2
    have h1 := hL.length_two hk0 hkp hlen
    have hi' := lt_of_get hi
    have hj' := lt_of_get hj
    have hij : i = j := by omega
    subst hij
    rw [hi] at hj
    cases hj
    rfl

/-- The run of `main` up to the symmetrized matrix of the momentum `q = 0`, in exact real
arithmetic: the equilibrium eigenvector is positive, the rate matrix is in detailed
balance with it, every column of the rate matrix adds up to the decay rate, and the
symmetrized matrix is the rate matrix with the decay rates subtracted, conjugated by the
square roots of the equilibrium eigenvector. -/
theorem q0_run {p k fuel : Nat} (hprime : Nat.Prime p) (hp : p ≤ 31) (hk0 : 0 < k)
    (hkp : k < p) (hfuel : 2 ^ p ≤ fuel) {A B C D : ℝ} (hB : 0 < B) (hC : 0 < C)
    (Unitary : Nat → ℝ) :
    ∃ (L : List Nat) (t : RateTables) (E : List ℝ), RateMatrix fuel p k = some (L, t) ∧
      L.length = PrimNum p k ∧ EqEV fuel p k B C L = some E ∧ E.length = L.length ∧
      (∀ i, i < L.length → 0 < EqEVAt E i) ∧
      (∀ i j, i < L.length → j < L.length →
        RateEntry A B C D t L.length i j * EqEVAt E j =
          RateEntry A B C D t L.length j i * EqEVAt E i) ∧
      (∀ i, i < L.length → (∑ j ∈ Finset.range L.length, RateEntry A B C D t L.length j i) =
        (t.Diagonal i).rate A B C D) ∧
      (∀ i j, i < L.length → j < L.length →
        ZeroMomentumMatrix A B C D t L.length Unitary (Element L.length i j) =
          RateEntry A B C D t L.length i j -
            (if i = j then (t.Diagonal i).rate A B C D else 0)) ∧
      (∀ i j, i < L.length → j < L.length →
        Symmetrize Real.sqrt (EqEVAt E) L.length
            (ZeroMomentumMatrix A B C D t L.length Unitary) (Element L.length i j) =
          ZeroMomentumMatrix A B C D t L.length Unitary (Element L.length i j) *
            Real.sqrt (EqEVAt E j) / Real.sqrt (EqEVAt E i)) := by
  obtain ⟨L, t, E, N, hrate, _, hasm, hgood, hlen, hf1, hf2, _, hE, hN, hElen, hEget, _, _⟩ :=
    eqEV_run hprime hp hk0 hkp hfuel hB hC
  have hx : 0 < B / C := div_pos hB hC
  have hpi : ∀ i c, L.get? i = some c →
      EqEVAt E i = (B / C) ^ ((k : Int) - 1 - bonds p c) * N :=
    fun i c hc => EqEVAt_of_get (hEget i c hc)
  have hpos : ∀ i, i < L.length → 0 < EqEVAt E i := by
    intro i hi
    obtain ⟨c, hc⟩ := get_of_lt hi
    rw [hpi i c hc]
    exact mul_pos (zpow_pos hx _) hN
  have hbal : ∀ i j, i < L.length → j < L.length →
      RateEntry A B C D t L.length i j * EqEVAt E j =
        RateEntry A B C D t L.length j i * EqEVAt E i := by
    intro i j hi hj
    obtain ⟨ci, hci⟩ := get_of_lt hi
    obtain ⟨cj, hcj⟩ := get_of_lt hj
    rw [hpi i ci hci, hpi j cj hcj]
    exact balance_run hgood hprime hp hk0 hkp hf1 hf2 hlen hasm A B C D N hB hC hci hcj
  have hG : ∀ i j, i < L.length → j < L.length →
      ZeroMomentumMatrix A B C D t L.length Unitary (Element L.length i j) =
        RateEntry A B C D t L.length i j -
          (if i = j then (t.Diagonal i).rate A B C D else 0) :=
    fun i j hi hj => ZeroMomentumMatrix_apply A B C D t L.length Unitary hi hj
  refine ⟨L, t, E, hrate, hlen, hE, hElen, hpos, hbal,
    fun i hi => rateEntry_column_sum hgood hprime hp hk0 hkp hf1 hf2 hasm A B C D hi, hG, ?_⟩
  intro i j hi hj
  have hpi0 := hpos i hi
  have hpj0 := hpos j hj
  have hsi : 0 < Real.sqrt (EqEVAt E i) := Real.sqrt_pos.2 hpi0
  have hsj : 0 < Real.sqrt (EqEVAt E j) := Real.sqrt_pos.2 hpj0
  have hsi2 : Real.sqrt (EqEVAt E i) * Real.sqrt (EqEVAt E i) = EqEVAt E i :=
    Real.mul_self_sqrt hpi0.le
  have hsj2 : Real.sqrt (EqEVAt E j) * Real.sqrt (EqEVAt E j) = EqEVAt E j :=
    Real.mul_self_sqrt hpj0.le
  rw [Symmetrize_apply Real.sqrt (EqEVAt E) L.length _ hi hj]
  by_cases h1 : i < j
  · rw [if_pos h1, Real.sqrt_div hpj0.le, mul_div_assoc]
  · rw [if_neg h1]
    by_cases h2 : j < i
    · rw [if_pos h2, Real.sqrt_div hpi0.le, hG j i hj hi, hG i j hi hj,
        if_neg (by omega), if_neg (by omega), sub_zero, sub_zero]
      have hb := hbal i j hi hj
      rw [← hsi2, ← hsj2] at hb
      field_simp
      linear_combination (-1 : ℝ) * hb
    · rw [if_neg h2]
      have : i = j := by omega
      rw [this]
      field_simp

/-- A matrix conjugated by a diagonal matrix of nonzero entries has the entries
`M i j * d j / d i`, and the same spectrum. -/
theorem diagonal_conj {n : Nat} (M S : Matrix (Fin n) (Fin n) ℝ) (d : Fin n → ℝ)
    (hd : ∀ i, d i ≠ 0) (hS : ∀ i j, S i j = M i j * d j / d i) :
    S = Matrix.diagonal (fun i => (d i)⁻¹) * M * Matrix.diagonal d ∧
      spectrum ℝ S = spectrum ℝ M := by
  have h1 : S = Matrix.diagonal (fun i => (d i)⁻¹) * M * Matrix.diagonal d := by
    ext i j
    rw [Matrix.mul_diagonal, Matrix.diagonal_mul, hS i j]
    field_simp [hd i]
  have hinv1 : Matrix.diagonal (fun i => (d i)⁻¹) * Matrix.diagonal d = 1 := by
    rw [Matrix.diagonal_mul_diagonal]
    have : (fun i => (d i)⁻¹ * d i) = fun _ => (1 : ℝ) := by
      funext i
      exact inv_mul_cancel₀ (hd i)
    rw [this, Matrix.diagonal_one]
  have hinv2 : Matrix.diagonal d * Matrix.diagonal (fun i => (d i)⁻¹) = 1 := by
    rw [Matrix.diagonal_mul_diagonal]
    have : (fun i => d i * (d i)⁻¹) = fun _ => (1 : ℝ) := by
      funext i
      exact mul_inv_cancel₀ (hd i)
    rw [this, Matrix.diagonal_one]
  refine ⟨h1, ?_⟩
  have hu := spectrum.units_conjugate (R := ℝ) (a := M)
    (u := (⟨Matrix.diagonal (fun i => (d i)⁻¹), Matrix.diagonal d, hinv1, hinv2⟩ :
      (Matrix (Fin n) (Fin n) ℝ)ˣ))
  rw [h1]
  exact hu

/-! ## Loops over arrays -/

/-- A loop that adds up terms. -/
theorem foldl_add_sum {K : Type} [Field K] (f : Nat → K) (s0 : K) :
    ∀ n, (List.range n).foldl (fun (s : K) (k : Nat) => s + f k) s0 =
      s0 + ∑ k ∈ Finset.range n, f k := by
  intro n
  induction n with
  | zero => simp
  | succ n ih =>
    rw [List.range_succ, List.foldl_append, List.foldl_cons, List.foldl_nil, ih,
      Finset.sum_range_succ, add_assoc]

/-- A loop that writes one cell of an array in each pass, the cells being distinct and
the value written depending only on the old value of the cell and on cells the loop does
not write: every cell written gets the value computed from the array at the start. -/
theorem foldl_cells {α K : Type} (key : α → Nat) (F : (Nat → K) → α → K) :
    ∀ (l : List α) (V0 : Nat → K), l.Nodup → (∀ x x', x ∈ l → x' ∈ l → key x = key x' → x = x') →
      (∀ V x, x ∈ l → V (key x) = V0 (key x) →
        (∀ y, (∀ x', x' ∈ l → y ≠ key x') → V y = V0 y) → F V x = F V0 x) →
      (∀ x, x ∈ l →
        l.foldl (fun (V : Nat → K) (x : α) => Function.update V (key x) (F V x)) V0 (key x) =
          F V0 x) ∧
      (∀ y, (∀ x, x ∈ l → y ≠ key x) →
        l.foldl (fun (V : Nat → K) (x : α) => Function.update V (key x) (F V x)) V0 y =
          V0 y) := by
  intro l
  induction l with
  | nil =>
    intro V0 _ _ _
    exact ⟨fun x hx => absurd hx (List.not_mem_nil x), fun y _ => rfl⟩
  | cons x l ih =>
    intro V0 hnd hinj hF
    have hxl : x ∉ l := (List.nodup_cons.1 hnd).1
    have hkx : ∀ x', x' ∈ l → key x' ≠ key x := by
      intro x' hx' h
      have := hinj x' x (List.mem_cons_of_mem _ hx') (List.mem_cons_self _ _) h
      rw [this] at hx'
      exact hxl hx'
    have hV1 : ∀ y, y ≠ key x → Function.update V0 (key x) (F V0 x) y = V0 y :=
      fun y hy => Function.update_noteq hy _ _
    have hF0 : ∀ x', x' ∈ l → F (Function.update V0 (key x) (F V0 x)) x' = F V0 x' := by
      intro x' hx'
      apply hF _ x' (List.mem_cons_of_mem _ hx') (hV1 _ (hkx x' hx'))
      intro y hy
      exact hV1 y (hy x (List.mem_cons_self _ _))
    obtain ⟨ih1, ih2⟩ := ih (Function.update V0 (key x) (F V0 x)) (List.nodup_cons.1 hnd).2
      (fun a b ha hb => hinj a b (List.mem_cons_of_mem _ ha) (List.mem_cons_of_mem _ hb))
      (by
        intro V x' hx' hv hrest
        rw [hF0 x' hx']
        apply hF V x' (List.mem_cons_of_mem _ hx')
        · rw [hv, hV1 _ (hkx x' hx')]
        · intro y hy
          rw [hrest y (fun z hz => hy z (List.mem_cons_of_mem _ hz)),
            hV1 y (hy x (List.mem_cons_self _ _))])
    constructor
    · intro z hz
      rw [List.foldl_cons]
      rcases List.mem_cons.1 hz with h | h
      · rw [h, ih2 (key x) (fun x' hx' => (hkx x' hx').symm), Function.update_same]
      · rw [ih1 z h, hF0 z h]
    · intro y hy
      rw [List.foldl_cons, ih2 y (fun z hz => hy z (List.mem_cons_of_mem _ hz)),
        hV1 y (hy x (List.mem_cons_self _ _))]

/-- Two nested loops are one loop over the pairs. -/
theorem foldl_nested {α β γ : Type} (f : γ → α → β → γ) (l2 : List β) :
    ∀ (l1 : List α) (g0 : γ),
      l1.foldl (fun (g : γ) (a : α) => l2.foldl (fun (h : γ) (b : β) => f h a b) g) g0 =
        (l1 ×ˢ l2).foldl (fun (g : γ) (ab : α × β) => f g ab.1 ab.2) g0 := by
  intro l1
  induction l1 with
  | nil => intro g0; rfl
  | cons a l1 ih =>
    intro g0
    rw [List.foldl_cons, ih, List.product_cons, List.foldl_append, List.foldl_map]

/-- A loop that adds terms to one entry of an array. -/
theorem foldl_add_entry {K : Type} [Field K] (g : Nat → K) (k : Nat) (E : Nat → K) :
    ∀ n, (List.range n).foldl (fun (F : Nat → K) (j : Nat) =>
        Function.update F k (F k + g j)) E =
      Function.update E k (E k + ∑ j ∈ Finset.range n, g j) := by
  intro n
  induction n with
  | zero => simp
  | succ n ih =>
    rw [List.range_succ, List.foldl_append, List.foldl_cons, List.foldl_nil, ih,
      Function.update_same, Function.update_idem, Finset.sum_range_succ, add_assoc]

/-! ## The loops of the Householder reduction -/

/-- The loop that symmetrizes row `i` and computes the norm of the partial column. -/
theorem HouseholderNorm_spec {K : Type} [Field K] {n i : Nat} (hi : i < n) (M : Nat → K) :
    (∀ a b, b < n → (HouseholderNorm n i M).1 (Element n a b) =
      if a = i ∧ b < i then M (Element n b i) else M (Element n a b)) ∧
    (HouseholderNorm n i M).2 =
      ∑ k ∈ Finset.range i, M (Element n k i) * M (Element n k i) := by
  unfold HouseholderNorm
  have key : ∀ m, m ≤ i →
      (∀ a b, b < n →
        ((List.range m).foldl
          (fun (s : (Nat → K) × K) (k : Nat) =>
            let M := Function.update s.1 (Element n i k) (s.1 (Element n k i))
            (M, s.2 + M (Element n i k) * M (Element n i k))) (M, 0)).1 (Element n a b) =
          if a = i ∧ b < m then M (Element n b i) else M (Element n a b)) ∧
      ((List.range m).foldl
          (fun (s : (Nat → K) × K) (k : Nat) =>
            let M := Function.update s.1 (Element n i k) (s.1 (Element n k i))
            (M, s.2 + M (Element n i k) * M (Element n i k))) (M, 0)).2 =
        ∑ k ∈ Finset.range m, M (Element n k i) * M (Element n k i) := by
    intro m
    induction m with
    | zero =>
      intro _
      refine ⟨fun a b _ => ?_, by simp⟩
      have : ¬ (a = i ∧ b < 0) := by omega
      simp only [List.range_zero, List.foldl_nil, if_neg this]
    | succ m ih =>
      intro hm
      obtain ⟨ih1, ih2⟩ := ih (by omega)
      rw [List.range_succ, List.foldl_append, List.foldl_cons, List.foldl_nil]
      generalize (List.range m).foldl _ (M, (0 : K)) = s at ih1 ih2 ⊢
      have hread : s.1 (Element n m i) = M (Element n m i) := by
        rw [ih1 m i hi, if_neg (by omega)]
      simp only [Function.update_same]
      refine ⟨?_, ?_⟩
      · intro a b hb
        rw [Function.update_apply, hread, ih1 a b hb]
        by_cases h : a = i ∧ b = m
        · obtain ⟨h1, h2⟩ := h
          have e1 : Element n a b = Element n i m := by rw [h1, h2]
          have e2 : a = i ∧ b < m + 1 := by omega
          rw [if_pos e1, if_pos e2, h2]
        · have e1 : ¬ Element n a b = Element n i m :=
            fun e' => h ((Element_eq_iff hb (by omega)).1 e')
          rw [if_neg e1]
          by_cases h2 : a = i ∧ b < m
          · have e2 : a = i ∧ b < m + 1 := by omega
            rw [if_pos h2, if_pos e2]
          · have e2 : ¬ (a = i ∧ b < m + 1) := by omega
            rw [if_neg h2, if_neg e2]
      · rw [hread, ih2, Finset.sum_range_succ]
  exact key i (le_refl i)

/-- The loop that computes the vector `p`. -/
theorem HouseholderP_spec {K : Type} [Field K] (n i : Nat) (Aux : K) (M Ex : Nat → K)
    (x : Nat) :
    HouseholderP n i Aux M Ex x =
      if x < i then (∑ j ∈ Finset.range i, M (Element n x j) * M (Element n j i)) * Aux
      else Ex x := by
  unfold HouseholderP
  have hstep : (fun (E : Nat → K) (k : Nat) =>
      let E1 := Function.update E k 0
      let E2 := (List.range i).foldl
        (fun (F : Nat → K) (j : Nat) =>
          Function.update F k (F k + M (Element n k j) * M (Element n j i))) E1
      Function.update E2 k (E2 k * Aux)) =
      fun (E : Nat → K) (k : Nat) => Function.update E (id k)
        ((fun (_ : Nat → K) (k : Nat) =>
          (∑ j ∈ Finset.range i, M (Element n k j) * M (Element n j i)) * Aux) E k) := by
    funext E k
    simp only [foldl_add_entry, Function.update_same, Function.update_idem, zero_add, id]
  rw [hstep]
  obtain ⟨h1, h2⟩ := foldl_cells (K := K) id
    (fun (_ : Nat → K) (k : Nat) =>
      (∑ j ∈ Finset.range i, M (Element n k j) * M (Element n j i)) * Aux)
    (List.range i) Ex (List.nodup_range i) (fun _ _ _ _ h => h) (fun _ _ _ _ _ => rfl)
  by_cases hx : x < i
  · rw [if_pos hx]
    exact h1 x (List.mem_range.2 hx)
  · rw [if_neg hx]
    apply h2 x
    intro k hk h
    rw [List.mem_range] at hk
    rw [h] at hx
    exact hx hk

/-- The loop that computes the vector `q`. -/
theorem HouseholderQ_spec {K : Type} [Field K] (n i : Nat) (Scalar : K) (M Ex : Nat → K)
    (x : Nat) :
    HouseholderQ n i Scalar M Ex x =
      if x < i then Ex x - Scalar * M (Element n x i) else Ex x := by
  unfold HouseholderQ
  obtain ⟨h1, h2⟩ := foldl_cells (K := K) id
    (fun (E : Nat → K) (k : Nat) => E k - Scalar * M (Element n k i))
    (List.range i) Ex (List.nodup_range i) (fun _ _ _ _ h => h)
    (fun V k _ hv _ => by
      show V k - _ = Ex k - _
      rw [show V k = Ex k from hv])
  by_cases hx : x < i
  · rw [if_pos hx]
    exact h1 x (List.mem_range.2 hx)
  · rw [if_neg hx]
    apply h2 x
    intro k hk h
    rw [List.mem_range] at hk
    rw [h] at hx
    exact hx hk

/-- The loop that computes the scalar `s`, before the factor. -/
theorem HouseholderScalar_spec {K : Type} [Field K] (n i : Nat) (M Ex : Nat → K) :
    HouseholderScalar n i M Ex = ∑ k ∈ Finset.range i, M (Element n i k) * Ex k := by
  unfold HouseholderScalar
  rw [foldl_add_sum, zero_add]

/-- The loop that transforms the partial matrix. -/
theorem HouseholderUpdate_spec {K : Type} [Field K] {n i : Nat} (hi : i < n)
    (M Ex : Nat → K) (a b : Nat) (hb : b < n) :
    HouseholderUpdate n i M Ex (Element n a b) =
      if a < i ∧ b < i then
        M (Element n a b) - (M (Element n a i) * Ex b + M (Element n i b) * Ex a)
      else M (Element n a b) := by
  unfold HouseholderUpdate
  rw [foldl_nested (fun (V : Nat → K) (k j : Nat) =>
    Function.update V (Element n j k)
      (V (Element n j k) - (V (Element n j i) * Ex k + V (Element n i k) * Ex j)))]
  obtain ⟨h1, h2⟩ := foldl_cells (K := K) (fun (kj : Nat × Nat) => Element n kj.2 kj.1)
    (fun (V : Nat → K) (kj : Nat × Nat) =>
      V (Element n kj.2 kj.1) -
        (V (Element n kj.2 i) * Ex kj.1 + V (Element n i kj.1) * Ex kj.2))
    (List.range i ×ˢ List.range i) M
    (List.Nodup.product (List.nodup_range i) (List.nodup_range i))
    (by
      intro x x' hx hx' h
      rw [List.mem_product, List.mem_range, List.mem_range] at hx hx'
      obtain ⟨e1, e2⟩ := (Element_eq_iff (by omega) (by omega)).1 h
      exact Prod.ext e2 e1)
    (by
      intro V x hx hv hrest
      rw [List.mem_product, List.mem_range, List.mem_range] at hx
      have r1 : V (Element n x.2 i) = M (Element n x.2 i) := by
        apply hrest
        intro x' hx' h
        rw [List.mem_product, List.mem_range, List.mem_range] at hx'
        have := ((Element_eq_iff hi (by omega)).1 h).2
        omega
      have r2 : V (Element n i x.1) = M (Element n i x.1) := by
        apply hrest
        intro x' hx' h
        rw [List.mem_product, List.mem_range, List.mem_range] at hx'
        have := ((Element_eq_iff (by omega) (by omega)).1 h).1
        omega
      show V (Element n x.2 x.1) - _ = M (Element n x.2 x.1) - _
      rw [show V (Element n x.2 x.1) = M (Element n x.2 x.1) from hv, r1, r2])
  by_cases hab : a < i ∧ b < i
  · rw [if_pos hab]
    exact h1 (b, a) (List.mem_product.2 ⟨List.mem_range.2 hab.2, List.mem_range.2 hab.1⟩)
  · rw [if_neg hab]
    apply h2
    intro x hx h
    rw [List.mem_product, List.mem_range, List.mem_range] at hx
    obtain ⟨e1, e2⟩ := (Element_eq_iff hb (by omega)).1 h
    omega

/-- The loop that multiplies one row by the reflection. -/
theorem accumulate_row {K : Type} [Field K] {n i j : Nat} (hi : i < n) (hj : j < i) (c : K)
    (M : Nat → K) (a b : Nat) (hb : b < n) :
    (List.range i).foldl
        (fun (V : Nat → K) (k : Nat) =>
          Function.update V (Element n j k) (V (Element n j k) - c * V (Element n i k)))
        M (Element n a b) =
      if a = j ∧ b < i then M (Element n j b) - c * M (Element n i b)
      else M (Element n a b) := by
  obtain ⟨h1, h2⟩ := foldl_cells (K := K) (fun (k : Nat) => Element n j k)
    (fun (V : Nat → K) (k : Nat) => V (Element n j k) - c * V (Element n i k))
    (List.range i) M (List.nodup_range i)
    (by
      intro x x' hx hx' h
      rw [List.mem_range] at hx hx'
      exact ((Element_eq_iff (by omega) (by omega)).1 h).2)
    (by
      intro V x hx hv hrest
      rw [List.mem_range] at hx
      have r1 : V (Element n i x) = M (Element n i x) := by
        apply hrest
        intro x' hx' h
        rw [List.mem_range] at hx'
        have := ((Element_eq_iff (by omega) (by omega)).1 h).1
        omega
      show V (Element n j x) - _ = M (Element n j x) - _
      rw [show V (Element n j x) = M (Element n j x) from hv, r1])
  by_cases hab : a = j ∧ b < i
  · rw [if_pos hab, hab.1]
    exact h1 b (List.mem_range.2 hab.2)
  · rw [if_neg hab]
    apply h2
    intro x hx h
    rw [List.mem_range] at hx
    obtain ⟨e1, e2⟩ := (Element_eq_iff hb (by omega)).1 h
    omega

/-- The loop over the rows of the recursive multiplication. -/
theorem accumulate_rows {K : Type} [Field K] {n i : Nat} (hi : i < n) (Aux : K)
    (M : Nat → K) :
    ∀ m, m ≤ i → ∀ a b, b < n →
      (List.range m).foldl
        (fun (M : Nat → K) (j : Nat) =>
          let Scalar := (List.range i).foldl
            (fun (s : K) (k : Nat) => s + M (Element n j k) * M (Element n k i)) 0 * Aux
          (List.range i).foldl
            (fun (V : Nat → K) (k : Nat) =>
              Function.update V (Element n j k)
                (V (Element n j k) - Scalar * V (Element n i k)))
            M)
        M (Element n a b) =
      if a < m ∧ b < i then
        M (Element n a b) -
          (∑ k ∈ Finset.range i, M (Element n a k) * M (Element n k i)) * Aux *
            M (Element n i b)
      else M (Element n a b) := by
  intro m
  induction m with
  | zero =>
    intro _ a b _
    have : ¬ (a < 0 ∧ b < i) := by omega
    simp only [List.range_zero, List.foldl_nil, if_neg this]
  | succ m ih =>
    intro hm a b hb
    have ihm := ih (by omega)
    rw [List.range_succ, List.foldl_append, List.foldl_cons, List.foldl_nil]
    generalize (List.range m).foldl _ M = W at ihm ⊢
    rw [accumulate_row hi (by omega : m < i) _ W a b hb, foldl_add_sum, zero_add]
    have hrow : ∀ k, k < n → W (Element n m k) = M (Element n m k) := by
      intro k hk
      rw [ihm m k hk, if_neg (by omega)]
    have hcol : ∀ k, W (Element n k i) = M (Element n k i) := by
      intro k
      rw [ihm k i hi, if_neg (by omega)]
    have hrowi : ∀ k, k < n → W (Element n i k) = M (Element n i k) := by
      intro k hk
      rw [ihm i k hk, if_neg (by omega)]
    have hsum : (∑ k ∈ Finset.range i, W (Element n m k) * W (Element n k i)) =
        ∑ k ∈ Finset.range i, M (Element n m k) * M (Element n k i) := by
      apply Finset.sum_congr rfl
      intro k hk
      rw [Finset.mem_range] at hk
      rw [hrow k (by omega), hcol k]
    by_cases h : a = m ∧ b < i
    · have e : a < m + 1 ∧ b < i := by omega
      rw [if_pos h, if_pos e, hsum, hrow b hb, hrowi b hb, h.1]
    · rw [if_neg h, ihm a b hb]
      by_cases h2 : a < m ∧ b < i
      · have e : a < m + 1 ∧ b < i := by omega
        rw [if_pos h2, if_pos e]
      · have e : ¬ (a < m + 1 ∧ b < i) := by omega
        rw [if_neg h2, if_neg e]

/-- The loop that clears row and column `i`. -/
theorem accumulate_clear {K : Type} [Field K] {n i : Nat} (hi : i < n) (M : Nat → K) :
    ∀ m, m ≤ i → ∀ a b, b < n →
      (List.range m).foldl
        (fun (M : Nat → K) (j : Nat) =>
          Function.update (Function.update M (Element n i j) 0) (Element n j i) 0)
        M (Element n a b) =
      if (a = i ∧ b < m) ∨ (b = i ∧ a < m) then 0 else M (Element n a b) := by
  intro m
  induction m with
  | zero =>
    intro _ a b _
    have : ¬ ((a = i ∧ b < 0) ∨ (b = i ∧ a < 0)) := by omega
    simp only [List.range_zero, List.foldl_nil, if_neg this]
  | succ m ih =>
    intro hm a b hb
    have ihm := ih (by omega)
    rw [List.range_succ, List.foldl_append, List.foldl_cons, List.foldl_nil]
    generalize (List.range m).foldl _ M = W at ihm ⊢
    rw [Function.update_apply, Function.update_apply, ihm a b hb]
    by_cases h1 : a = m ∧ b = i
    · have e1 : Element n a b = Element n m i := by rw [h1.1, h1.2]
      have e2 : (a = i ∧ b < m + 1) ∨ (b = i ∧ a < m + 1) := by omega
      rw [if_pos e1, if_pos e2]
    · have e1 : ¬ Element n a b = Element n m i :=
        fun e' => h1 ((Element_eq_iff hb hi).1 e')
      rw [if_neg e1]
      by_cases h2 : a = i ∧ b = m
      · have e2 : Element n a b = Element n i m := by rw [h2.1, h2.2]
        have e3 : (a = i ∧ b < m + 1) ∨ (b = i ∧ a < m + 1) := by omega
        rw [if_pos e2, if_pos e3]
      · have e2 : ¬ Element n a b = Element n i m :=
          fun e' => h2 ((Element_eq_iff hb (by omega)).1 e')
        rw [if_neg e2]
        by_cases h3 : (a = i ∧ b < m) ∨ (b = i ∧ a < m)
        · have e3 : (a = i ∧ b < m + 1) ∨ (b = i ∧ a < m + 1) := by omega
          rw [if_pos h3, if_pos e3]
        · have e3 : ¬ ((a = i ∧ b < m + 1) ∨ (b = i ∧ a < m + 1)) := by omega
          rw [if_neg h3, if_neg e3]

/-- One pass of the recursive multiplication: the rows and columns below `i` are
multiplied by the reflection stored in row and column `i`, which become those of the unit
matrix. -/
theorem HouseholderAccumulate_spec {K : Type} [Field K] {n i : Nat} (hi : i < n)
    (M : Nat → K) (a b : Nat) (hb : b < n) :
    HouseholderAccumulate n i M (Element n a b) =
      if a < i ∧ b < i then
        M (Element n a b) -
          (∑ k ∈ Finset.range i, M (Element n a k) * M (Element n k i)) *
            M (Element n i i) * M (Element n i b)
      else if a = i ∧ b = i then 1
      else if (a = i ∧ b < i) ∨ (b = i ∧ a < i) then 0
      else M (Element n a b) := by
  unfold HouseholderAccumulate
  simp only []
  rw [Function.update_apply, accumulate_clear hi _ i (le_refl i) a b hb,
    accumulate_rows hi _ M i (le_refl i) a b hb]
  by_cases h1 : a = i ∧ b = i
  · have e1 : Element n a b = Element n i i := by rw [h1.1, h1.2]
    have e2 : ¬ (a < i ∧ b < i) := by omega
    simp only [if_pos e1, if_neg e2, if_pos h1]
  · have e1 : ¬ Element n a b = Element n i i := fun e' => h1 ((Element_eq_iff hb hi).1 e')
    by_cases h2 : a < i ∧ b < i
    · have e2 : ¬ ((a = i ∧ b < i) ∨ (b = i ∧ a < i)) := by omega
      simp only [if_neg e1, if_neg e2, if_pos h2]
    · by_cases h3 : (a = i ∧ b < i) ∨ (b = i ∧ a < i)
      · simp only [if_neg e1, if_neg h2, if_neg h1, if_pos h3]
      · simp only [if_neg e1, if_neg h2, if_neg h1, if_neg h3]

/-! ## One reflection of the Householder reduction -/

/-- A sum of squares of real numbers that is 0 has all its terms 0. -/
theorem sq_sum_zero {i : Nat} {f : Nat → ℝ} (h : (∑ k ∈ Finset.range i, f k * f k) = 0)
    {a : Nat} (ha : a < i) : f a = 0 := by
  have h1 := (Finset.sum_eq_zero_iff_of_nonneg (fun k _ => mul_self_nonneg (f k))).1 h a
    (Finset.mem_range.2 ha)
  exact mul_self_eq_zero.1 h1

/-- A sum with one term changed. -/
theorem sum_ite_sub {i j : Nat} (hj : j < i) (f g : Nat → ℝ) (E : ℝ) :
    (∑ k ∈ Finset.range i, f k * (if k = j then g k - E else g k)) =
      (∑ k ∈ Finset.range i, f k * g k) - f j * E := by
  have : ∀ k ∈ Finset.range i, f k * (if k = j then g k - E else g k) =
      f k * g k - (if k = j then f j * E else 0) := by
    intro k _
    by_cases h : k = j
    · rw [if_pos h, if_pos h, h]; ring
    · rw [if_neg h, if_neg h]; ring
  rw [Finset.sum_congr rfl this, Finset.sum_sub_distrib, Finset.sum_ite_eq',
    if_pos (Finset.mem_range.2 hj)]

/-- The sign factor of the reflection times the entry it comes from. -/
theorem sign_mul_abs (c : ℝ) :
    (if |c| > 0 then c / |c| else 1) * c = |c| ∧
      (if |c| > 0 then c / |c| else 1) * (if |c| > 0 then c / |c| else 1) = 1 := by
  by_cases h : |c| > 0
  · rw [if_pos h]
    have h0 : |c| ≠ 0 := ne_of_gt h
    constructor
    · rw [div_mul_eq_mul_div, ← abs_mul_abs_self c, mul_div_assoc, div_self h0, mul_one]
    · rw [div_mul_div_comm, ← abs_mul_abs_self c, div_self (mul_ne_zero h0 h0)]
  · rw [if_neg h]
    have : c = 0 := by
      by_contra hc
      exact h (abs_pos.2 hc)
    rw [this]
    simp

/-- The pass for the row `i` when the partial column is empty. -/
theorem HouseholderStep_degenerate {K : Type} [LinearOrderedField K] (sqrt : K → K)
    (n i : Nat) (s : Tridiag K) (h : (HouseholderNorm n i s.Matr).2 = 0) :
    HouseholderStep sqrt n i s =
      ⟨Function.update (HouseholderNorm n i s.Matr).1 (Element n i i) 0,
        Function.update s.Diag i (s.Matr (Element n i i)),
        Function.update s.ExDiag i ((HouseholderNorm n i s.Matr).1 (Element n (i - 1) i))⟩ := by
  unfold HouseholderStep
  simp only [h, if_true]

/-- The pass for the row `i` when the partial column is not empty, loop by loop. -/
theorem HouseholderStep_regular {K : Type} [LinearOrderedField K] (sqrt : K → K)
    (n i : Nat) (s : Tridiag K) (h : (HouseholderNorm n i s.Matr).2 ≠ 0) :
    ∃ (M1 M3 Ex1 Ex2 Ex3 : Nat → K) (Sum c E β : K),
      M1 = (HouseholderNorm n i s.Matr).1 ∧ Sum = (HouseholderNorm n i s.Matr).2 ∧
      c = M1 (Element n (i - 1) i) ∧
      E = -sqrt Sum * (if |c| > 0 then c / |c| else 1) ∧
      β = 1 / (Sum + sqrt Sum * |c|) ∧
      Ex1 = Function.update s.ExDiag i E ∧
      M3 = Function.update
        (Function.update (Function.update M1 (Element n (i - 1) i) (c - E)) (Element n i (i - 1))
          (Function.update M1 (Element n (i - 1) i) (c - E) (Element n i (i - 1)) - E))
        (Element n i i) β ∧
      Ex2 = HouseholderP n i β M3 Ex1 ∧
      Ex3 = HouseholderQ n i (HouseholderScalar n i M3 Ex2 * (1 / 2 * β)) M3 Ex2 ∧
      HouseholderStep sqrt n i s =
        ⟨HouseholderUpdate n i M3 Ex3, Function.update s.Diag i (s.Matr (Element n i i)),
          Ex3⟩ := by
  refine ⟨_, _, _, _, _, _, _, _, _, rfl, rfl, rfl, rfl, rfl, rfl, rfl, rfl, rfl, ?_⟩
  unfold HouseholderStep
  simp only [if_neg h, Function.update_same]

/-- The entries of the array when the vector of the reflection has been set up. -/
theorem setup_cells {K : Type} [Field K] {n i : Nat} (hi1 : 1 ≤ i) (hi : i < n)
    (M1 : Nat → K) (c E β : K) (a b : Nat) (hb : b < n) :
    Function.update
        (Function.update (Function.update M1 (Element n (i - 1) i) (c - E)) (Element n i (i - 1))
          (Function.update M1 (Element n (i - 1) i) (c - E) (Element n i (i - 1)) - E))
        (Element n i i) β (Element n a b) =
      if a = i ∧ b = i then β
      else if a = i ∧ b = i - 1 then M1 (Element n i (i - 1)) - E
      else if a = i - 1 ∧ b = i then c - E
      else M1 (Element n a b) := by
  have hne : Element n i (i - 1) ≠ Element n (i - 1) i := by
    intro h
    have := ((Element_eq_iff (by omega) hi).1 h).1
    omega
  rw [Function.update_noteq hne]
  simp only [Function.update_apply, Element_eq_iff hb hi,
    Element_eq_iff hb (by omega : i - 1 < n)]

/-- What one pass of the Householder reduction leaves, in exact real arithmetic: the
vector `u` and the factor `beta` of a reflection in row and column `i`, the new
extradiagonal element `E`, and the partial matrix transformed with the vector `q`. -/
theorem HouseholderStep_facts {n i : Nat} (hi1 : 1 ≤ i) (hi : i < n) (s : Tridiag ℝ) :
    ∃ (u q : Nat → ℝ) (β E : ℝ),
      (∀ a b, b < n → (HouseholderStep Real.sqrt n i s).Matr (Element n a b) =
        if a < i ∧ b < i then s.Matr (Element n a b) - (u a * q b + u b * q a)
        else if a = i ∧ b = i then β
        else if a = i ∧ b < i then u b
        else if b = i ∧ a < i then u a
        else s.Matr (Element n a b)) ∧
      (HouseholderStep Real.sqrt n i s).Diag =
        Function.update s.Diag i (s.Matr (Element n i i)) ∧
      (HouseholderStep Real.sqrt n i s).ExDiag i = E ∧
      (∀ x, i < x → (HouseholderStep Real.sqrt n i s).ExDiag x = s.ExDiag x) ∧
      (∀ k, k < i → q k = β * (∑ j ∈ Finset.range i, s.Matr (Element n k j) * u j) -
        (β * β * (∑ m ∈ Finset.range i,
          u m * ∑ j ∈ Finset.range i, s.Matr (Element n m j) * u j) / 2) * u k) ∧
      (∀ a, a < i → s.Matr (Element n a i) -
        β * u a * (∑ k ∈ Finset.range i, s.Matr (Element n k i) * u k) =
          if a = i - 1 then E else 0) ∧
      (β = 0 ∨ β * (∑ k ∈ Finset.range i, u k * u k) = 2) ∧
      ((∑ k ∈ Finset.range i, s.Matr (Element n k i) * s.Matr (Element n k i)) = 0 →
        β = 0 ∧ E = s.Matr (Element n (i - 1) i) ∧ ∀ k, k < i → u k = 0) := by
  obtain ⟨hM1, hSum⟩ := HouseholderNorm_spec hi s.Matr
  by_cases hS : (HouseholderNorm n i s.Matr).2 = 0
  · -- the partial column is empty
    rw [HouseholderStep_degenerate Real.sqrt n i s hS]
    rw [hSum] at hS
    have hcol : ∀ a, a < i → s.Matr (Element n a i) = 0 := fun a ha => sq_sum_zero hS ha
    refine ⟨fun k => s.Matr (Element n k i), fun _ => 0, 0,
      (HouseholderNorm n i s.Matr).1 (Element n (i - 1) i), ?_, rfl, ?_, ?_, ?_, ?_,
      Or.inl rfl, ?_⟩
    · intro a b hb
      show Function.update _ _ _ _ = _
      rw [Function.update_apply, hM1 a b hb]
      by_cases h1 : a = i ∧ b = i
      · have e1 : Element n a b = Element n i i := by rw [h1.1, h1.2]
        have e2 : ¬ (a < i ∧ b < i) := by omega
        simp only [if_pos e1, if_neg e2, if_pos h1]
      · have e1 : ¬ Element n a b = Element n i i :=
          fun e' => h1 ((Element_eq_iff hb hi).1 e')
        by_cases h2 : a < i ∧ b < i
        · have e2 : ¬ (a = i ∧ b < i) := by omega
          simp only [if_neg e1, if_neg e2, if_pos h2]
          ring
        · by_cases h3 : a = i ∧ b < i
          · simp only [if_neg e1, if_neg h2, if_neg h1, if_pos h3]
          · by_cases h4 : b = i ∧ a < i
            · simp only [if_neg e1, if_neg h2, if_neg h1, if_neg h3, if_pos h4]
              rw [h4.1]
            · simp only [if_neg e1, if_neg h2, if_neg h1, if_neg h3, if_neg h4]
    · show Function.update _ _ _ _ = _
      rw [Function.update_same]
    · intro x hx
      show Function.update _ _ _ _ = _
      rw [Function.update_noteq (by omega : x ≠ i)]
    · intro k _
      ring
    · intro a ha
      rw [hM1 (i - 1) i hi, if_neg (by omega : ¬ (i - 1 = i ∧ i < i)), hcol a ha,
        hcol (i - 1) (by omega)]
      simp
    · intro _
      refine ⟨rfl, ?_, hcol⟩
      rw [hM1 (i - 1) i hi, if_neg (by omega : ¬ (i - 1 = i ∧ i < i))]
  · -- the reflection
    obtain ⟨M1, M3, Ex1, Ex2, Ex3, Sum, c, E, β, hM1', hSum', hc, hE, hβ, hEx1, hM3, hEx2, hEx3,
      hstep⟩ := HouseholderStep_regular Real.sqrt n i s hS
    rw [hstep]
    rw [← hM1'] at hM1
    rw [← hSum'] at hSum hS
    have hc' : c = s.Matr (Element n (i - 1) i) := by
      rw [hc, hM1 (i - 1) i hi, if_neg (by omega : ¬ (i - 1 = i ∧ i < i))]
    -- the entries of the array with the vector set up
    have hM3c : ∀ a b, b < n → M3 (Element n a b) =
        if a = i ∧ b = i then β
        else if a = i ∧ b < i then
          (if b = i - 1 then s.Matr (Element n b i) - E else s.Matr (Element n b i))
        else if b = i ∧ a < i then
          (if a = i - 1 then s.Matr (Element n a i) - E else s.Matr (Element n a i))
        else s.Matr (Element n a b) := by
      intro a b hb
      rw [hM3, setup_cells hi1 hi M1 c E β a b hb, hM1 i (i - 1) (by omega),
        if_pos (⟨rfl, by omega⟩ : i = i ∧ i - 1 < i), hM1 a b hb, hc']
      have hne : ¬ (i - 1 = i) := by omega
      have hlt : i - 1 < i := by omega
      by_cases ha : a = i
      · subst ha
        by_cases hb1 : b = a
        · subst hb1
          simp
        · by_cases hb2 : b = a - 1
          · subst hb2
            simp [hne, hlt]
          · by_cases hb3 : b < a
            · simp [hb1, hb2, hb3, hne]
            · simp [hb1, hb2, hb3, hne]
      · by_cases hb1 : b = i
        · subst hb1
          by_cases ha2 : a = b - 1
          · subst ha2
            simp [hne, hlt]
          · by_cases ha3 : a < b
            · simp [ha, ha2, ha3]
            · simp [ha, ha2, ha3]
        · simp [ha, hb1]
    have hblock : ∀ a b, a < i → b < i → M3 (Element n a b) = s.Matr (Element n a b) := by
      intro a b ha hb
      rw [hM3c a b (by omega), if_neg (by omega : ¬ (a = i ∧ b = i)),
        if_neg (by omega : ¬ (a = i ∧ b < i)), if_neg (by omega : ¬ (b = i ∧ a < i))]
    have hcolu : ∀ a, a < i → M3 (Element n a i) =
        if a = i - 1 then s.Matr (Element n a i) - E else s.Matr (Element n a i) := by
      intro a ha
      rw [hM3c a i hi, if_neg (by omega : ¬ (a = i ∧ i = i)),
        if_neg (by omega : ¬ (a = i ∧ i < i)), if_pos (⟨rfl, ha⟩ : i = i ∧ a < i)]
    have hrowu : ∀ b, b < i → M3 (Element n i b) =
        if b = i - 1 then s.Matr (Element n b i) - E else s.Matr (Element n b i) := by
      intro b hb
      rw [hM3c i b (by omega), if_neg (by omega : ¬ (i = i ∧ b = i)),
        if_pos (⟨rfl, hb⟩ : i = i ∧ b < i)]
    -- the vectors `p` and `q`
    have hp : ∀ k, k < i → Ex2 k = (∑ j ∈ Finset.range i, s.Matr (Element n k j) *
        (if j = i - 1 then s.Matr (Element n j i) - E else s.Matr (Element n j i))) * β := by
      intro k hk
      rw [hEx2, HouseholderP_spec, if_pos hk]
      congr 1
      apply Finset.sum_congr rfl
      intro j hj
      rw [Finset.mem_range] at hj
      rw [hblock k j hk hj, hcolu j hj]
    have hq : ∀ k, k < i → Ex3 k =
        β * (∑ j ∈ Finset.range i, s.Matr (Element n k j) *
          (if j = i - 1 then s.Matr (Element n j i) - E else s.Matr (Element n j i))) -
        (β * β * (∑ m ∈ Finset.range i,
          (if m = i - 1 then s.Matr (Element n m i) - E else s.Matr (Element n m i)) *
            ∑ j ∈ Finset.range i, s.Matr (Element n m j) *
              (if j = i - 1 then s.Matr (Element n j i) - E else s.Matr (Element n j i))) / 2) *
          (if k = i - 1 then s.Matr (Element n k i) - E else s.Matr (Element n k i)) := by
      intro k hk
      rw [hEx3, HouseholderQ_spec, if_pos hk, HouseholderScalar_spec, hcolu k hk, hp k hk]
      have hsc : (∑ m ∈ Finset.range i, M3 (Element n i m) * Ex2 m) =
          (∑ m ∈ Finset.range i,
            (if m = i - 1 then s.Matr (Element n m i) - E else s.Matr (Element n m i)) *
              ∑ j ∈ Finset.range i, s.Matr (Element n m j) *
                (if j = i - 1 then s.Matr (Element n j i) - E
                  else s.Matr (Element n j i))) * β := by
        rw [Finset.sum_mul]
        apply Finset.sum_congr rfl
        intro m hm
        rw [Finset.mem_range] at hm
        rw [hrowu m hm, hp m hm]
        ring
      rw [hsc]
      ring
    -- the norm of the partial column
    have hSum0 : 0 < Sum := by
      rw [hSum] at hS ⊢
      exact lt_of_le_of_ne (Finset.sum_nonneg (fun k _ => mul_self_nonneg _)) (Ne.symm hS)
    have hsq : Real.sqrt Sum * Real.sqrt Sum = Sum := Real.mul_self_sqrt hSum0.le
    obtain ⟨hsign1, hsign2⟩ := sign_mul_abs c
    have hD : 0 < Sum + Real.sqrt Sum * |c| :=
      add_pos_of_pos_of_nonneg hSum0 (mul_nonneg (Real.sqrt_nonneg _) (abs_nonneg _))
    have hcE : - (c * E) = Real.sqrt Sum * |c| := by
      calc - (c * E) = Real.sqrt Sum * ((if |c| > 0 then c / |c| else 1) * c) := by
            rw [hE]
            ring
        _ = Real.sqrt Sum * |c| := by rw [hsign1]
    have hEE : E * E = Sum := by
      rw [hE]
      calc -Real.sqrt Sum * (if |c| > 0 then c / |c| else 1) *
            (-Real.sqrt Sum * (if |c| > 0 then c / |c| else 1))
          = (Real.sqrt Sum * Real.sqrt Sum) *
            ((if |c| > 0 then c / |c| else 1) * (if |c| > 0 then c / |c| else 1)) := by ring
        _ = Sum := by rw [hsq, hsign2, mul_one]
    have hdot : (∑ k ∈ Finset.range i, s.Matr (Element n k i) *
        (if k = i - 1 then s.Matr (Element n k i) - E else s.Matr (Element n k i))) =
        Sum + Real.sqrt Sum * |c| := by
      rw [sum_ite_sub (by omega : i - 1 < i), ← hSum, ← hc', ← hcE]
      ring
    have hβD : β * (Sum + Real.sqrt Sum * |c|) = 1 := by
      rw [hβ]
      field_simp
    refine ⟨fun k => if k = i - 1 then s.Matr (Element n k i) - E else s.Matr (Element n k i),
      Ex3, β, E, ?_, rfl, ?_, ?_, hq, ?_, Or.inr ?_, ?_⟩
    · intro a b hb
      show HouseholderUpdate n i M3 Ex3 (Element n a b) = _
      rw [HouseholderUpdate_spec hi M3 Ex3 a b hb]
      by_cases h1 : a < i ∧ b < i
      · simp only [if_pos h1]
        rw [hblock a b h1.1 h1.2, hcolu a h1.1, hrowu b h1.2]
      · rw [if_neg h1, if_neg h1, hM3c a b hb]
    · show Ex3 i = E
      rw [hEx3, HouseholderQ_spec, if_neg (by omega : ¬ i < i), hEx2, HouseholderP_spec,
        if_neg (by omega : ¬ i < i), hEx1, Function.update_same]
    · intro x hx
      show Ex3 x = _
      rw [hEx3, HouseholderQ_spec, if_neg (by omega : ¬ x < i), hEx2, HouseholderP_spec,
        if_neg (by omega : ¬ x < i), hEx1, Function.update_noteq (by omega : x ≠ i)]
    · intro a ha
      simp only []
      rw [hdot, mul_assoc, mul_comm _ (Sum + Real.sqrt Sum * |c|), ← mul_assoc, hβD, one_mul]
      by_cases h : a = i - 1
      · rw [if_pos h, if_pos h]; ring
      · rw [if_neg h, if_neg h]; ring
    · simp only []
      have hnorm : (∑ k ∈ Finset.range i,
          (if k = i - 1 then s.Matr (Element n k i) - E else s.Matr (Element n k i)) *
            (if k = i - 1 then s.Matr (Element n k i) - E else s.Matr (Element n k i))) =
          2 * (Sum + Real.sqrt Sum * |c|) := by
        rw [sum_ite_sub (by omega : i - 1 < i)]
        have h1 : (∑ k ∈ Finset.range i,
            (if k = i - 1 then s.Matr (Element n k i) - E else s.Matr (Element n k i)) *
              s.Matr (Element n k i)) = Sum + Real.sqrt Sum * |c| := by
          rw [← hdot]
          apply Finset.sum_congr rfl
          intro k _
          ring
        rw [h1, if_pos rfl, ← hc']
        have : (c - E) * E = Real.sqrt Sum * |c| * (-1) - Sum := by
          rw [← hcE, ← hEE]; ring
        rw [this]
        ring
      rw [hnorm, ← mul_assoc, mul_comm β 2, mul_assoc, hβD, mul_one]
    · intro h0
      rw [← hSum] at h0
      exact absurd h0 (ne_of_gt hSum0)

/-- A sum over the indices of a matrix, of a term that vanishes from `i` on, is the sum
over the numbers below `i`. -/
theorem sum_fin_lt {M : Type} [AddCommMonoid M] {n i : Nat} (hi : i ≤ n) (f : Nat → M) :
    (∑ k : Fin n, if (k : Nat) < i then f k else 0) = ∑ k ∈ Finset.range i, f k := by
  rw [Fin.sum_univ_eq_sum_range (fun k => if k < i then f k else 0) n, Finset.sum_ite,
    Finset.sum_const_zero, add_zero]
  congr 1
  ext k
  simp only [Finset.mem_filter, Finset.mem_range]
  omega

/-- A sum over all the indices of a matrix as a sum over the numbers below `n`. -/
theorem sum_fin_range {M : Type} [AddCommMonoid M] (n : Nat) (f : Nat → M) :
    (∑ k : Fin n, f k) = ∑ k ∈ Finset.range n, f k :=
  Fin.sum_univ_eq_sum_range f n

/-- The entries of a reflection times a matrix. -/
theorem refl_mul_apply {n : Nat} (β : ℝ) (u : Fin n → ℝ) (C : Matrix (Fin n) (Fin n) ℝ)
    (a b : Fin n) :
    ((1 - β • Matrix.vecMulVec u u) * C) a b = C a b - β * u a * ∑ k, u k * C k b := by
  rw [Matrix.sub_mul, Matrix.one_mul, Matrix.sub_apply]
  congr 1
  simp only [Matrix.mul_apply, Matrix.smul_apply, Matrix.vecMulVec_apply, smul_eq_mul,
    Finset.mul_sum]
  apply Finset.sum_congr rfl
  intro k _
  ring

/-- The entries of a matrix times a reflection. -/
theorem mul_refl_apply {n : Nat} (β : ℝ) (u : Fin n → ℝ) (C : Matrix (Fin n) (Fin n) ℝ)
    (a b : Fin n) :
    (C * (1 - β • Matrix.vecMulVec u u)) a b = C a b - β * (∑ k, C a k * u k) * u b := by
  rw [Matrix.mul_sub, Matrix.mul_one, Matrix.sub_apply]
  congr 1
  simp only [Matrix.mul_apply, Matrix.smul_apply, Matrix.vecMulVec_apply, smul_eq_mul,
    Finset.mul_sum, Finset.sum_mul]
  apply Finset.sum_congr rfl
  intro k _
  ring

/-- The entries of a matrix transformed with a reflection on both sides. -/
theorem refl_conj_apply {n : Nat} (β : ℝ) (u : Fin n → ℝ) (C : Matrix (Fin n) (Fin n) ℝ)
    (a b : Fin n) :
    ((1 - β • Matrix.vecMulVec u u) * C * (1 - β • Matrix.vecMulVec u u)) a b =
      C a b - β * u a * (∑ k, u k * C k b) - β * (∑ k, C a k * u k) * u b +
        β * β * u a * (∑ k, (∑ l, u l * C l k) * u k) * u b := by
  rw [mul_refl_apply, refl_mul_apply]
  have h : (∑ k, ((1 - β • Matrix.vecMulVec u u) * C) a k * u k) =
      (∑ k, C a k * u k) - β * u a * ∑ k, (∑ l, u l * C l k) * u k := by
    rw [Finset.mul_sum, ← Finset.sum_sub_distrib]
    apply Finset.sum_congr rfl
    intro k _
    rw [refl_mul_apply]
    ring
  rw [h]
  ring

/-- A reflection is a symmetric matrix. -/
theorem refl_transpose {n : Nat} (β : ℝ) (u : Fin n → ℝ) :
    (1 - β • Matrix.vecMulVec u u : Matrix (Fin n) (Fin n) ℝ).transpose =
      1 - β • Matrix.vecMulVec u u := by
  ext a b
  simp only [Matrix.transpose_apply, Matrix.sub_apply, Matrix.smul_apply,
    Matrix.vecMulVec_apply, Matrix.one_apply, smul_eq_mul]
  rw [mul_comm (u b) (u a)]
  congr 1
  by_cases h : a = b
  · rw [if_pos h, if_pos h.symm]
  · rw [if_neg h, if_neg (Ne.symm h)]

/-- A reflection `1 - beta u u^T` with `beta = 0` or `beta |u|^2 = 2` is its own inverse. -/
theorem refl_mul_self {n : Nat} (β : ℝ) (u : Fin n → ℝ)
    (h : β = 0 ∨ β * (∑ k, u k * u k) = 2) :
    (1 - β • Matrix.vecMulVec u u : Matrix (Fin n) (Fin n) ℝ) *
      (1 - β • Matrix.vecMulVec u u) = 1 := by
  ext a b
  rw [mul_refl_apply]
  have h1 : (∑ k, (1 - β • Matrix.vecMulVec u u : Matrix (Fin n) (Fin n) ℝ) a k * u k) =
      u a - β * u a * ∑ k, u k * u k := by
    have : ∀ k, (1 - β • Matrix.vecMulVec u u : Matrix (Fin n) (Fin n) ℝ) a k * u k =
        (if a = k then u k else 0) - β * u a * (u k * u k) := by
      intro k
      simp only [Matrix.sub_apply, Matrix.smul_apply, Matrix.vecMulVec_apply,
        Matrix.one_apply, smul_eq_mul]
      by_cases h : a = k
      · rw [if_pos h, if_pos h]; ring
      · rw [if_neg h, if_neg h]; ring
    simp only [this]
    rw [Finset.sum_sub_distrib, Finset.sum_ite_eq, if_pos (Finset.mem_univ _),
      ← Finset.mul_sum]
  rw [h1]
  simp only [Matrix.sub_apply, Matrix.smul_apply, Matrix.vecMulVec_apply, smul_eq_mul]
  rcases h with h | h
  · rw [h]; ring
  · linear_combination (β * u a * u b) * h

theorem partialTridiag_block {n j : Nat} (s : Tridiag ℝ) (a b : Fin n)
    (ha : (a : Nat) < j) (hb : (b : Nat) < j) :
    partialTridiag n j s a b = s.Matr (Element n a b) := by
  unfold partialTridiag
  rw [Matrix.of_apply, if_pos ⟨ha, hb⟩]

theorem partialTridiag_out {n j : Nat} (s : Tridiag ℝ) (a b : Fin n)
    (h : ¬ ((a : Nat) < j ∧ (b : Nat) < j)) :
    partialTridiag n j s a b = tridiagonal n s.Diag s.ExDiag a b := by
  unfold partialTridiag
  rw [Matrix.of_apply, if_neg h]

theorem tridiagonal_apply {n : Nat} (D X : Nat → ℝ) (a b : Fin n) :
    tridiagonal n D X a b =
      if (a : Nat) = b then D a
      else if (b : Nat) = a + 1 then X b
      else if (a : Nat) = b + 1 then X a
      else 0 := by
  unfold tridiagonal
  rw [Matrix.of_apply]

theorem tridiagonal_far {n : Nat} (D X : Nat → ℝ) (a b : Fin n)
    (h : (a : Nat) + 2 ≤ b ∨ (b : Nat) + 2 ≤ a) : tridiagonal n D X a b = 0 := by
  rw [tridiagonal_apply, if_neg (by omega : ¬ ((a : Nat) = b)),
    if_neg (by omega : ¬ ((b : Nat) = a + 1)), if_neg (by omega : ¬ ((a : Nat) = b + 1))]

/-- Two tridiagonal matrices agree in an entry when their diagonals agree at its row and
their extradiagonals at the larger of its row and column. -/
theorem tridiagonal_congr {n : Nat} (D X D1 X1 : Nat → ℝ) (a b : Fin n)
    (hD : (a : Nat) = b → D a = D1 a) (hX1 : (b : Nat) = a + 1 → X b = X1 b)
    (hX2 : (a : Nat) = b + 1 → X a = X1 a) :
    tridiagonal n D X a b = tridiagonal n D1 X1 a b := by
  rw [tridiagonal_apply, tridiagonal_apply]
  by_cases h1 : (a : Nat) = b
  · rw [if_pos h1, if_pos h1, hD h1]
  · rw [if_neg h1, if_neg h1]
    by_cases h2 : (b : Nat) = a + 1
    · rw [if_pos h2, if_pos h2, hX1 h2]
    · rw [if_neg h2, if_neg h2]
      by_cases h3 : (a : Nat) = b + 1
      · rw [if_pos h3, if_pos h3, hX2 h3]
      · rw [if_neg h3, if_neg h3]

/-- The column `k < i` of the partial matrix at the level `i + 1`. -/
theorem partialTridiag_col {n i : Nat} (s : Tridiag ℝ) (a k : Fin n) (hk : (k : Nat) < i) :
    partialTridiag n (i + 1) s a k =
      if (a : Nat) ≤ i then s.Matr (Element n a k) else 0 := by
  by_cases ha : (a : Nat) ≤ i
  · rw [if_pos ha, partialTridiag_block s a k (by omega) (by omega)]
  · rw [if_neg ha, partialTridiag_out s a k (by omega), tridiagonal_far _ _ _ _ (by omega)]

/-- The row `k < i` of the partial matrix at the level `i + 1`. -/
theorem partialTridiag_row {n i : Nat} (s : Tridiag ℝ) (k b : Fin n) (hk : (k : Nat) < i) :
    partialTridiag n (i + 1) s k b =
      if (b : Nat) ≤ i then s.Matr (Element n k b) else 0 := by
  by_cases hb : (b : Nat) ≤ i
  · rw [if_pos hb, partialTridiag_block s k b (by omega) (by omega)]
  · rw [if_neg hb, partialTridiag_out s k b (by omega), tridiagonal_far _ _ _ _ (by omega)]

/-- The sums of the transformation with a reflection whose vector vanishes from `i` on,
over the partial matrix at the level `i + 1`. -/
theorem refl_sums {n i : Nat} (hi : i < n) (s : Tridiag ℝ) (u : Nat → ℝ) :
    (∀ b : Fin n, (∑ k : Fin n, (if (k : Nat) < i then u k else 0) *
        partialTridiag n (i + 1) s k b) =
      if (b : Nat) ≤ i then ∑ k ∈ Finset.range i, u k * s.Matr (Element n k b) else 0) ∧
    (∀ a : Fin n, (∑ k : Fin n, partialTridiag n (i + 1) s a k *
        (if (k : Nat) < i then u k else 0)) =
      if (a : Nat) ≤ i then ∑ k ∈ Finset.range i, s.Matr (Element n a k) * u k else 0) := by
  constructor
  · intro b
    obtain ⟨g, hg⟩ : ∃ g : Nat → ℝ,
      g = fun k : Nat => if (b : Nat) ≤ i then u k * s.Matr (Element n k b) else 0 := ⟨_, rfl⟩
    have h : ∀ k : Fin n, (if (k : Nat) < i then u k else 0) *
        partialTridiag n (i + 1) s k b = if (k : Nat) < i then g k else 0 := by
      intro k
      by_cases hk : (k : Nat) < i
      · rw [if_pos hk, if_pos hk, partialTridiag_row s k b hk, hg]
        by_cases hb : (b : Nat) ≤ i
        · simp only [if_pos hb]
        · simp only [if_neg hb, mul_zero]
      · rw [if_neg hk, if_neg hk, zero_mul]
    rw [Finset.sum_congr rfl (fun k _ => h k), sum_fin_lt hi.le g, hg]
    by_cases hb : (b : Nat) ≤ i
    · simp only [if_pos hb]
    · simp only [if_neg hb, Finset.sum_const_zero]
  · intro a
    obtain ⟨g, hg⟩ : ∃ g : Nat → ℝ,
      g = fun k : Nat => if (a : Nat) ≤ i then s.Matr (Element n a k) * u k else 0 := ⟨_, rfl⟩
    have h : ∀ k : Fin n, partialTridiag n (i + 1) s a k *
        (if (k : Nat) < i then u k else 0) = if (k : Nat) < i then g k else 0 := by
      intro k
      by_cases hk : (k : Nat) < i
      · rw [if_pos hk, if_pos hk, partialTridiag_col s a k hk, hg]
        by_cases ha : (a : Nat) ≤ i
        · simp only [if_pos ha]
        · simp only [if_neg ha, zero_mul]
      · rw [if_neg hk, if_neg hk, mul_zero]
    rw [Finset.sum_congr rfl (fun k _ => h k), sum_fin_lt hi.le g, hg]
    by_cases ha : (a : Nat) ≤ i
    · simp only [if_pos ha]
    · simp only [if_neg ha, Finset.sum_const_zero]

/-- One pass of the reduction transforms the partial matrix with the reflection it stores
in row and column `i`: `H_i C_(i+1) H_i = C_i`. -/
theorem step_conj {n i : Nat} (hi1 : 1 ≤ i) (hi : i < n) (s : Tridiag ℝ)
    (hsym : ∀ a b, a ≤ i → b ≤ i → s.Matr (Element n a b) = s.Matr (Element n b a)) :
    reflection n (HouseholderStep Real.sqrt n i s).Matr i * partialTridiag n (i + 1) s *
      reflection n (HouseholderStep Real.sqrt n i s).Matr i =
        partialTridiag n i (HouseholderStep Real.sqrt n i s) := by
  obtain ⟨u, q, β, E, F1, FD, FE, FX, Fq, F4, _, _⟩ := HouseholderStep_facts hi1 hi s
  have hβ : (HouseholderStep Real.sqrt n i s).Matr (Element n i i) = β := by
    rw [F1 i i hi, if_neg (by omega : ¬ (i < i ∧ i < i)), if_pos ⟨rfl, rfl⟩]
  have hu : reflVec n i (HouseholderStep Real.sqrt n i s).Matr =
      fun a : Fin n => if (a : Nat) < i then u a else 0 := by
    funext a
    unfold reflVec
    by_cases ha : (a : Nat) < i
    · rw [if_pos ha, if_pos ha, F1 a i hi, if_neg (by omega : ¬ ((a : Nat) < i ∧ i < i)),
        if_neg (by omega : ¬ ((a : Nat) = i ∧ i = i)),
        if_neg (by omega : ¬ ((a : Nat) = i ∧ i < i)), if_pos ⟨rfl, ha⟩]
    · rw [if_neg ha, if_neg ha]
  obtain ⟨W, hW⟩ : ∃ W : Nat → ℝ,
    W = fun x => ∑ k ∈ Finset.range i, s.Matr (Element n x k) * u k := ⟨_, rfl⟩
  obtain ⟨hS1, hS2⟩ := refl_sums hi s u
  have hS1' : ∀ b : Fin n, (∑ k : Fin n, (if (k : Nat) < i then u k else 0) *
      partialTridiag n (i + 1) s k b) = if (b : Nat) ≤ i then W b else 0 := by
    intro b
    rw [hS1 b]
    by_cases hb : (b : Nat) ≤ i
    · rw [if_pos hb, if_pos hb, hW]
      apply Finset.sum_congr rfl
      intro k hk
      rw [Finset.mem_range] at hk
      rw [hsym k b (by omega) hb, mul_comm]
    · rw [if_neg hb, if_neg hb]
  have hS2' : ∀ a : Fin n, (∑ k : Fin n, partialTridiag n (i + 1) s a k *
      (if (k : Nat) < i then u k else 0)) = if (a : Nat) ≤ i then W a else 0 := by
    intro a
    rw [hS2 a, hW]
  have hS3 : (∑ k : Fin n, (∑ l : Fin n, (if (l : Nat) < i then u l else 0) *
      partialTridiag n (i + 1) s l k) * (if (k : Nat) < i then u k else 0)) =
      ∑ k ∈ Finset.range i, u k * W k := by
    rw [← sum_fin_lt hi.le (fun k => u k * W k)]
    apply Finset.sum_congr rfl
    intro k _
    rw [hS1' k]
    by_cases hk : (k : Nat) < i
    · rw [if_pos hk, if_pos hk, if_pos (by omega : (k : Nat) ≤ i), mul_comm]
    · rw [if_neg hk, if_neg hk, mul_zero]
  have hWi : W i = ∑ k ∈ Finset.range i, s.Matr (Element n k i) * u k := by
    rw [hW]
    apply Finset.sum_congr rfl
    intro k hk
    rw [Finset.mem_range] at hk
    rw [hsym i k (le_refl i) (by omega)]
  have hq : ∀ k, k < i → q k = β * W k - (β * β * (∑ m ∈ Finset.range i, u m * W m) / 2) * u k := by
    intro k hk
    rw [Fq k hk, hW]
  unfold reflection
  rw [hβ, hu]
  ext a b
  rw [refl_conj_apply, hS1' b, hS2' a, hS3]
  by_cases ha : (a : Nat) < i
  · by_cases hb : (b : Nat) < i
    · -- inside the block
      rw [if_pos ha, if_pos hb, if_pos (by omega : (a : Nat) ≤ i),
        if_pos (by omega : (b : Nat) ≤ i), partialTridiag_block s a b (by omega) (by omega),
        partialTridiag_block _ a b ha hb, F1 a b b.2, if_pos ⟨ha, hb⟩, hq a ha, hq b hb]
      ring
    · by_cases hb' : (b : Nat) = i
      · -- the column `i`
        rw [if_pos ha, if_neg hb, if_pos (by omega : (b : Nat) ≤ i),
          if_pos (by omega : (a : Nat) ≤ i),
          partialTridiag_block s a b (by omega) (by omega),
          partialTridiag_out _ a b (by omega), tridiagonal_apply,
          if_neg (by omega : ¬ ((a : Nat) = b)), hb', FE, hWi]
        have h4 := F4 a ha
        by_cases h : (a : Nat) = i - 1
        · rw [if_pos h] at h4
          rw [if_pos (by omega : i = (a : Nat) + 1)]
          linarith
        · rw [if_neg h] at h4
          rw [if_neg (by omega : ¬ (i = (a : Nat) + 1)),
            if_neg (by omega : ¬ ((a : Nat) = i + 1))]
          linarith
      · -- beyond the column `i`
        rw [if_neg hb, if_neg (by omega : ¬ ((b : Nat) ≤ i)),
          partialTridiag_out s a b (by omega), partialTridiag_out _ a b (by omega),
          tridiagonal_far _ _ a b (by omega), tridiagonal_far _ _ a b (by omega)]
        ring
  · by_cases ha' : (a : Nat) = i
    · by_cases hb : (b : Nat) < i
      · -- the row `i`
        rw [if_neg ha, if_pos hb, if_pos (by omega : (b : Nat) ≤ i),
          if_pos (by omega : (a : Nat) ≤ i),
          partialTridiag_block s a b (by omega) (by omega),
          partialTridiag_out _ a b (by omega), tridiagonal_apply,
          if_neg (by omega : ¬ ((a : Nat) = b)), ha', FE, hWi,
          hsym i b (le_refl i) (by omega)]
        have h4 := F4 b hb
        by_cases h : (b : Nat) = i - 1
        · rw [if_pos h] at h4
          rw [if_neg (by omega : ¬ ((b : Nat) = i + 1)),
            if_pos (by omega : i = (b : Nat) + 1)]
          linarith
        · rw [if_neg h] at h4
          rw [if_neg (by omega : ¬ ((b : Nat) = i + 1)),
            if_neg (by omega : ¬ (i = (b : Nat) + 1))]
          linarith
      · by_cases hb' : (b : Nat) = i
        · -- the diagonal element
          rw [if_neg ha, if_neg hb, partialTridiag_block s a b (by omega) (by omega),
            partialTridiag_out _ a b (by omega), tridiagonal_apply,
            if_pos (by omega : (a : Nat) = b), FD, ha', hb', Function.update_same]
          ring
        · rw [if_neg ha, if_neg hb, partialTridiag_out s a b (by omega),
            partialTridiag_out _ a b (by omega)]
          rw [tridiagonal_congr s.Diag s.ExDiag (HouseholderStep Real.sqrt n i s).Diag
            (HouseholderStep Real.sqrt n i s).ExDiag a b
            (fun h => by omega) (fun h => (FX b (by omega)).symm) (fun h => by omega)]
          ring
    · -- below the row `i`
      rw [if_neg ha, if_neg (by omega : ¬ ((a : Nat) ≤ i)),
        partialTridiag_out s a b (by omega), partialTridiag_out _ a b (by omega)]
      rw [tridiagonal_congr s.Diag s.ExDiag (HouseholderStep Real.sqrt n i s).Diag
        (HouseholderStep Real.sqrt n i s).ExDiag a b
        (fun h => by rw [FD, Function.update_noteq (by omega : (a : Nat) ≠ i)])
        (fun h => (FX b (by omega)).symm) (fun h => (FX a (by omega)).symm)]
      ring

theorem reflection_congr {n r : Nat} (M1 M2 : Nat → ℝ)
    (hd : M1 (Element n r r) = M2 (Element n r r))
    (hc : ∀ a, a < r → a < n → M1 (Element n a r) = M2 (Element n a r)) :
    reflection n M1 r = reflection n M2 r := by
  have hv : reflVec n r M1 = reflVec n r M2 := by
    funext a
    unfold reflVec
    by_cases ha : (a : Nat) < r
    · rw [if_pos ha, if_pos ha, hc a ha a.2]
    · rw [if_neg ha, if_neg ha]
  unfold reflection
  rw [hd, hv]

theorem reflProd_congr {n : Nat} (M1 M2 : Nat → ℝ) (l : List Nat)
    (h : ∀ r, r ∈ l → reflection n M1 r = reflection n M2 r) :
    reflProd n M1 l = reflProd n M2 l := by
  unfold reflProd
  rw [List.map_congr_left h]

theorem reflProd_cons {n : Nat} (M : Nat → ℝ) (r : Nat) (l : List Nat) :
    reflProd n M (r :: l) = reflection n M r * reflProd n M l := by
  unfold reflProd
  rw [List.map_cons, List.prod_cons]

theorem reflProd_nil {n : Nat} (M : Nat → ℝ) : reflProd n M [] = 1 := rfl

theorem reflection_transpose {n : Nat} (M : Nat → ℝ) (r : Nat) :
    (reflection n M r).transpose = reflection n M r :=
  refl_transpose _ _

/-- The squared length of the vector of a reflection, as a sum over the column of the
array that holds it. -/
theorem reflVec_norm {n r : Nat} (hr : r < n) (M : Nat → ℝ) :
    (∑ k : Fin n, reflVec n r M k * reflVec n r M k) =
      ∑ k ∈ Finset.range r, M (Element n k r) * M (Element n k r) := by
  rw [← sum_fin_lt hr.le (fun k => M (Element n k r) * M (Element n k r))]
  apply Finset.sum_congr rfl
  intro k _
  unfold reflVec
  by_cases hk : (k : Nat) < r
  · rw [if_pos hk, if_pos hk]
  · rw [if_neg hk, if_neg hk, mul_zero]

/-- The cells one pass of the reduction leaves alone: those beyond its row or column. -/
theorem HouseholderStep_unchanged {n i : Nat} (hi1 : 1 ≤ i) (hi : i < n) (s : Tridiag ℝ)
    (a b : Nat) (hb : b < n) (h : i < a ∨ i < b) :
    (HouseholderStep Real.sqrt n i s).Matr (Element n a b) = s.Matr (Element n a b) := by
  obtain ⟨u, q, β, E, F1, _⟩ := HouseholderStep_facts hi1 hi s
  rw [F1 a b hb, if_neg (by omega : ¬ (a < i ∧ b < i)), if_neg (by omega : ¬ (a = i ∧ b = i)),
    if_neg (by omega : ¬ (a = i ∧ b < i)), if_neg (by omega : ¬ (b = i ∧ a < i))]

/-- The reflection stored by one pass of the reduction: its factor is 0 or 2 over the
squared length of its vector, and its vector is stored in the row as in the column. -/
theorem HouseholderStep_stored {n i : Nat} (hi1 : 1 ≤ i) (hi : i < n) (s : Tridiag ℝ) :
    ((HouseholderStep Real.sqrt n i s).Matr (Element n i i) = 0 ∨
      (HouseholderStep Real.sqrt n i s).Matr (Element n i i) *
        (∑ k ∈ Finset.range i, (HouseholderStep Real.sqrt n i s).Matr (Element n k i) *
          (HouseholderStep Real.sqrt n i s).Matr (Element n k i)) = 2) ∧
    ∀ k, k < i → (HouseholderStep Real.sqrt n i s).Matr (Element n i k) =
      (HouseholderStep Real.sqrt n i s).Matr (Element n k i) := by
  obtain ⟨u, q, β, E, F1, _, _, _, _, _, F5, _⟩ := HouseholderStep_facts hi1 hi s
  have hβ : (HouseholderStep Real.sqrt n i s).Matr (Element n i i) = β := by
    rw [F1 i i hi, if_neg (by omega : ¬ (i < i ∧ i < i)), if_pos ⟨rfl, rfl⟩]
  have hcol : ∀ k, k < i → (HouseholderStep Real.sqrt n i s).Matr (Element n k i) = u k := by
    intro k hk
    rw [F1 k i hi, if_neg (by omega : ¬ (k < i ∧ i < i)),
      if_neg (by omega : ¬ (k = i ∧ i = i)), if_neg (by omega : ¬ (k = i ∧ i < i)),
      if_pos ⟨rfl, hk⟩]
  have hrow : ∀ k, k < i → (HouseholderStep Real.sqrt n i s).Matr (Element n i k) = u k := by
    intro k hk
    rw [F1 i k (by omega), if_neg (by omega : ¬ (i < i ∧ k < i)),
      if_neg (by omega : ¬ (i = i ∧ k = i)), if_pos ⟨rfl, hk⟩]
  refine ⟨?_, fun k hk => by rw [hrow k hk, hcol k hk]⟩
  rw [hβ]
  rcases F5 with h | h
  · exact Or.inl h
  · right
    rw [← h]
    congr 1
    apply Finset.sum_congr rfl
    intro k hk
    rw [Finset.mem_range] at hk
    rw [hcol k hk]

/-- One pass of the reduction keeps the partial matrix symmetric. -/
theorem HouseholderStep_symm {n i : Nat} (hi1 : 1 ≤ i) (hi : i < n) (s : Tridiag ℝ)
    (hsym : ∀ a b, a < i → b < i → s.Matr (Element n a b) = s.Matr (Element n b a))
    (a b : Nat) (ha : a < i) (hb : b < i) :
    (HouseholderStep Real.sqrt n i s).Matr (Element n a b) =
      (HouseholderStep Real.sqrt n i s).Matr (Element n b a) := by
  obtain ⟨u, q, β, E, F1, _⟩ := HouseholderStep_facts hi1 hi s
  rw [F1 a b (by omega), F1 b a (by omega), if_pos ⟨ha, hb⟩, if_pos ⟨hb, ha⟩, hsym a b ha hb]
  ring

/-- The reduction loop of `HouseholderSymm` after the rows `i + m - 1` down to `i`: the
partial matrix is symmetric, every row done holds a reflection, and the product of the
reflections transforms the input into the partial tridiagonal matrix. -/
theorem reduction_inv {n : Nat} (s : Tridiag ℝ)
    (hsym : ∀ a b, a < n → b < n → s.Matr (Element n a b) = s.Matr (Element n b a)) :
    ∀ (m i : Nat), 1 ≤ i → (i + m = n ∨ (m = 0 ∧ n ≤ i)) →
      (∀ a b, a < i → b < i → a < n → b < n →
        (List.foldr (fun i t => HouseholderStep Real.sqrt n i t) s
          (List.range' i m)).Matr (Element n a b) =
        (List.foldr (fun i t => HouseholderStep Real.sqrt n i t) s
          (List.range' i m)).Matr (Element n b a)) ∧
      (∀ r, i ≤ r → r < n →
        ((List.foldr (fun i t => HouseholderStep Real.sqrt n i t) s
            (List.range' i m)).Matr (Element n r r) = 0 ∨
          (List.foldr (fun i t => HouseholderStep Real.sqrt n i t) s
            (List.range' i m)).Matr (Element n r r) *
          (∑ k ∈ Finset.range r,
            (List.foldr (fun i t => HouseholderStep Real.sqrt n i t) s
              (List.range' i m)).Matr (Element n k r) *
            (List.foldr (fun i t => HouseholderStep Real.sqrt n i t) s
              (List.range' i m)).Matr (Element n k r)) = 2) ∧
        ∀ k, k < r →
          (List.foldr (fun i t => HouseholderStep Real.sqrt n i t) s
            (List.range' i m)).Matr (Element n r k) =
          (List.foldr (fun i t => HouseholderStep Real.sqrt n i t) s
            (List.range' i m)).Matr (Element n k r)) ∧
      reflProd n (List.foldr (fun i t => HouseholderStep Real.sqrt n i t) s
          (List.range' i m)).Matr (List.range' i m) * asMatrix n s.Matr *
        (reflProd n (List.foldr (fun i t => HouseholderStep Real.sqrt n i t) s
          (List.range' i m)).Matr (List.range' i m)).transpose =
        partialTridiag n i (List.foldr (fun i t => HouseholderStep Real.sqrt n i t) s
          (List.range' i m)) := by
  intro m
  induction m with
  | zero =>
    intro i _ h
    have hni : n ≤ i := by omega
    refine ⟨fun a b _ _ ha hb => hsym a b ha hb, fun r h1 h2 => by omega, ?_⟩
    show reflProd n s.Matr [] * asMatrix n s.Matr * (reflProd n s.Matr []).transpose =
      partialTridiag n i s
    rw [reflProd_nil, Matrix.transpose_one, Matrix.one_mul, Matrix.mul_one]
    ext a b
    rw [partialTridiag_block s a b (by omega) (by omega)]
    rfl
  | succ m ih =>
    intro i hi1 h
    have hi : i < n := by omega
    obtain ⟨I1, I2, I3⟩ := ih (i + 1) (by omega) (Or.inl (by omega))
    have hl : List.range' i (m + 1) = i :: List.range' (i + 1) m := List.range'_succ _ _ _
    rw [hl, List.foldr_cons]
    generalize List.foldr (fun i t => HouseholderStep Real.sqrt n i t) s
      (List.range' (i + 1) m) = t at I1 I2 I3 ⊢
    have hmem : ∀ r, r ∈ List.range' (i + 1) m → i < r ∧ r < n := by
      intro r hr
      rw [List.mem_range'_1] at hr
      omega
    refine ⟨fun a b ha hb _ _ => HouseholderStep_symm hi1 hi t
      (fun a b ha hb => I1 a b (by omega) (by omega) (by omega) (by omega)) a b ha hb, ?_, ?_⟩
    · intro r hr1 hr2
      by_cases hr : r = i
      · rw [hr]
        exact HouseholderStep_stored hi1 hi t
      · obtain ⟨J1, J2⟩ := I2 r (by omega) hr2
        have hu : ∀ k, k ≤ r → (HouseholderStep Real.sqrt n i t).Matr (Element n k r) =
            t.Matr (Element n k r) :=
          fun k _ => HouseholderStep_unchanged hi1 hi t k r hr2 (Or.inr (by omega))
        have hv : ∀ k, k < r → (HouseholderStep Real.sqrt n i t).Matr (Element n r k) =
            t.Matr (Element n r k) :=
          fun k hk => HouseholderStep_unchanged hi1 hi t r k (by omega) (Or.inl (by omega))
        refine ⟨?_, fun k hk => by rw [hu k hk.le, hv k hk, J2 k hk]⟩
        rw [hu r (le_refl r)]
        have hs : (∑ k ∈ Finset.range r,
            (HouseholderStep Real.sqrt n i t).Matr (Element n k r) *
              (HouseholderStep Real.sqrt n i t).Matr (Element n k r)) =
            ∑ k ∈ Finset.range r, t.Matr (Element n k r) * t.Matr (Element n k r) := by
          apply Finset.sum_congr rfl
          intro k hk
          rw [Finset.mem_range] at hk
          rw [hu k hk.le]
        rw [hs]
        exact J1
    · have hP : reflProd n (HouseholderStep Real.sqrt n i t).Matr (List.range' (i + 1) m) =
          reflProd n t.Matr (List.range' (i + 1) m) := by
        apply reflProd_congr
        intro r hr
        obtain ⟨h1, h2⟩ := hmem r hr
        exact reflection_congr _ _
          (HouseholderStep_unchanged hi1 hi t r r h2 (Or.inl h1))
          (fun a _ _ => HouseholderStep_unchanged hi1 hi t a r h2 (Or.inr h1))
      rw [reflProd_cons, hP, Matrix.transpose_mul, reflection_transpose]
      rw [← step_conj hi1 hi t (fun a b ha hb => I1 a b (by omega) (by omega) (by omega)
        (by omega)), ← I3]
      simp only [Matrix.mul_assoc]

theorem reflProd_concat {n : Nat} (M : Nat → ℝ) (l : List Nat) (r : Nat) :
    reflProd n M (l ++ [r]) = reflProd n M l * reflection n M r := by
  unfold reflProd
  rw [List.map_append, List.prod_append, List.map_singleton, List.prod_singleton]

/-- A reflection whose factor is 0 or 2 over the squared length of its vector is its own
inverse. -/
theorem reflection_mul_self {n r : Nat} (hr : r < n) (M : Nat → ℝ)
    (h : M (Element n r r) = 0 ∨ M (Element n r r) *
      (∑ k ∈ Finset.range r, M (Element n k r) * M (Element n k r)) = 2) :
    reflection n M r * reflection n M r = 1 := by
  unfold reflection
  apply refl_mul_self
  rw [reflVec_norm hr]
  exact h

/-- A product of such reflections is an orthogonal matrix. -/
theorem reflProd_orthogonal {n : Nat} (M : Nat → ℝ) (l : List Nat)
    (h : ∀ r, r ∈ l → r < n ∧ (M (Element n r r) = 0 ∨ M (Element n r r) *
      (∑ k ∈ Finset.range r, M (Element n k r) * M (Element n k r)) = 2)) :
    reflProd n M l * (reflProd n M l).transpose = 1 := by
  induction l with
  | nil => rw [reflProd_nil, Matrix.transpose_one, Matrix.one_mul]
  | cons r l ih =>
    have h1 := h r (List.mem_cons_self _ _)
    rw [reflProd_cons, Matrix.transpose_mul, reflection_transpose,
      Matrix.mul_assoc, ← Matrix.mul_assoc (reflProd n M l),
      ih (fun x hx => h x (List.mem_cons_of_mem _ hx)), Matrix.one_mul,
      reflection_mul_self h1.1 M h1.2]

/-- A product of reflections for rows below `j` is the unit matrix outside the rows and
columns below `j`. -/
theorem reflProd_outside {n j : Nat} (M : Nat → ℝ) (l : List Nat)
    (h : ∀ r, r ∈ l → r < j) (a b : Fin n) (hab : ¬ ((a : Nat) < j ∧ (b : Nat) < j)) :
    reflProd n M l a b = (1 : Matrix (Fin n) (Fin n) ℝ) a b := by
  induction l generalizing a b with
  | nil => rw [reflProd_nil]
  | cons r l ih =>
    have hr : r < j := h r (List.mem_cons_self _ _)
    have ih1 := ih (fun x hx => h x (List.mem_cons_of_mem _ hx))
    rw [reflProd_cons]
    unfold reflection
    rw [refl_mul_apply, ih1 a b hab]
    by_cases ha : (a : Nat) < j
    · have hb : ¬ (b : Nat) < j := fun hb => hab ⟨ha, hb⟩
      have hs : (∑ k : Fin n, reflVec n r M k * reflProd n M l k b) = 0 := by
        apply Finset.sum_eq_zero
        intro k _
        rw [ih1 k b (fun hh => hb hh.2), Matrix.one_apply]
        by_cases hk : k = b
        · rw [if_pos hk, mul_one]
          unfold reflVec
          rw [if_neg (by rw [hk]; omega)]
        · rw [if_neg hk, mul_zero]
      rw [hs, mul_zero, sub_zero]
    · have hv : reflVec n r M a = 0 := by
        unfold reflVec
        rw [if_neg (by omega)]
      rw [hv, mul_zero, zero_mul, sub_zero]

/-- The accumulation loop of `HouseholderSymm` after the rows 2 to `m + 1`: the rows and
columns below `m + 2` of the array hold the product of the reflections for these rows,
the rest of the array is untouched. -/
theorem accumulate_inv {n : Nat} (M0 : Nat → ℝ)
    (h00 : M0 (Element n 0 0) = 1) (h01 : M0 (Element n 0 1) = 0)
    (h10 : M0 (Element n 1 0) = 0) (h11 : M0 (Element n 1 1) = 1)
    (hrow : ∀ r, 2 ≤ r → r < n → ∀ k, k < r → M0 (Element n r k) = M0 (Element n k r)) :
    ∀ m, 2 + m ≤ n → ∀ a b : Fin n,
      List.foldl (fun M i => HouseholderAccumulate n i M) M0 (List.range' 2 m)
          (Element n a b) =
        if (a : Nat) < 2 + m ∧ (b : Nat) < 2 + m then reflProd n M0 (List.range' 2 m) a b
        else M0 (Element n a b) := by
  intro m
  induction m with
  | zero =>
    intro _ a b
    show M0 (Element n a b) = _
    by_cases h : (a : Nat) < 2 + 0 ∧ (b : Nat) < 2 + 0
    · rw [if_pos h]
      show _ = (1 : Matrix (Fin n) (Fin n) ℝ) a b
      rw [Matrix.one_apply]
      have ha : (a : Nat) = 0 ∨ (a : Nat) = 1 := by omega
      have hb : (b : Nat) = 0 ∨ (b : Nat) = 1 := by omega
      rcases ha with ha | ha <;> rcases hb with hb | hb
      · rw [ha, hb, h00, if_pos (Fin.ext (by omega))]
      · rw [ha, hb, h01, if_neg (fun e => by rw [e] at ha; omega)]
      · rw [ha, hb, h10, if_neg (fun e => by rw [e] at ha; omega)]
      · rw [ha, hb, h11, if_pos (Fin.ext (by omega))]
    · rw [if_neg h]
  | succ m ih =>
    intro hm a b
    have hi : 2 + m < n := by omega
    have ih1 := ih (by omega)
    have hl : List.range' 2 (m + 1) = List.range' 2 m ++ [2 + m] := List.range'_1_concat _ _
    have hout := reflProd_outside (n := n) (j := 2 + m) M0 (List.range' 2 m)
      (fun r hr => by rw [List.mem_range'_1] at hr; omega)
    rw [hl, List.foldl_append, reflProd_concat]
    generalize List.foldl (fun M i => HouseholderAccumulate n i M) M0 (List.range' 2 m) = M
      at ih1 ⊢
    generalize reflProd n M0 (List.range' 2 m) = Q at ih1 hout ⊢
    show HouseholderAccumulate n (2 + m) M (Element n a b) = _
    rw [HouseholderAccumulate_spec hi M a b b.2]
    unfold reflection
    rw [mul_refl_apply]
    -- the entries of the array the pass reads
    have hcol : ∀ k, k < 2 + m → M (Element n k (2 + m)) = M0 (Element n k (2 + m)) := by
      intro k hk
      have := ih1 ⟨k, by omega⟩ ⟨2 + m, hi⟩
      rw [if_neg (by simp)] at this
      exact this
    have hdiag : M (Element n (2 + m) (2 + m)) = M0 (Element n (2 + m) (2 + m)) := by
      have := ih1 ⟨2 + m, hi⟩ ⟨2 + m, hi⟩
      rw [if_neg (by simp)] at this
      exact this
    have hrw : ∀ k, k < 2 + m → M (Element n (2 + m) k) = M0 (Element n k (2 + m)) := by
      intro k hk
      have := ih1 ⟨2 + m, hi⟩ ⟨k, by omega⟩
      rw [if_neg (by simp)] at this
      rw [← hrow (2 + m) (by omega) hi k hk]
      exact this
    have hv : ∀ k : Fin n, reflVec n (2 + m) M0 k =
        if (k : Nat) < 2 + m then M0 (Element n k (2 + m)) else 0 := fun k => rfl
    by_cases h1 : (a : Nat) < 2 + m ∧ (b : Nat) < 2 + m
    · rw [if_pos h1, if_pos (by omega : (a : Nat) < 2 + (m + 1) ∧ (b : Nat) < 2 + (m + 1)), hdiag,
        hrw b h1.2, hv b, if_pos h1.2]
      have e1 := ih1 a b
      rw [if_pos h1] at e1
      have e2 : (∑ k ∈ Finset.range (2 + m), M (Element n a k) * M (Element n k (2 + m))) =
          ∑ k : Fin n, Q a k * reflVec n (2 + m) M0 k := by
        rw [← sum_fin_lt hi.le (fun k => M (Element n a k) * M (Element n k (2 + m)))]
        apply Finset.sum_congr rfl
        intro k _
        rw [hv k]
        by_cases hk : (k : Nat) < 2 + m
        · have e3 := ih1 a k
          rw [if_pos ⟨h1.1, hk⟩] at e3
          rw [if_pos hk, if_pos hk, e3, hcol k hk]
        · rw [if_neg hk, if_neg hk, mul_zero]
      rw [e1, e2]
      ring
    · rw [if_neg h1]
      by_cases h2 : (a : Nat) = 2 + m ∧ (b : Nat) = 2 + m
      · rw [if_pos h2, if_pos (by omega : (a : Nat) < 2 + (m + 1) ∧ (b : Nat) < 2 + (m + 1)),
          hv b, if_neg (by omega : ¬ (b : Nat) < 2 + m), mul_zero, sub_zero, hout a b h1,
          Matrix.one_apply, if_pos (Fin.ext (by omega))]
      · rw [if_neg h2]
        by_cases h3 : ((a : Nat) = 2 + m ∧ (b : Nat) < 2 + m) ∨
            ((b : Nat) = 2 + m ∧ (a : Nat) < 2 + m)
        · rw [if_pos h3,
            if_pos (by omega : (a : Nat) < 2 + (m + 1) ∧ (b : Nat) < 2 + (m + 1)), hout a b h1,
            Matrix.one_apply, if_neg (fun e => by rw [e] at h3; omega)]
          rcases h3 with h3 | h3
          · have hs : (∑ k : Fin n, Q a k * reflVec n (2 + m) M0 k) = 0 := by
              apply Finset.sum_eq_zero
              intro k _
              rw [hout a k (by omega), Matrix.one_apply, hv k]
              by_cases hk : a = k
              · rw [if_pos hk, if_neg (by rw [← hk]; omega), mul_zero]
              · rw [if_neg hk, zero_mul]
            rw [hs]
            ring
          · rw [hv b, if_neg (by omega : ¬ (b : Nat) < 2 + m)]
            ring
        · rw [if_neg h3,
            if_neg (by omega : ¬ ((a : Nat) < 2 + (m + 1) ∧ (b : Nat) < 2 + (m + 1)))]
          have e1 := ih1 a b
          rw [if_neg h1] at e1
          exact e1

/-- A pass of the reduction over a row whose part above the diagonal is zero already: the
partial matrix is left as it is, the diagonal element is read out, the extradiagonal
element is zero, and the reflection stored is the unit matrix. -/
theorem HouseholderStep_passes {n i : Nat} (hi1 : 1 ≤ i) (hi : i < n) (t : Tridiag ℝ)
    (hz : ∀ k, k < i → t.Matr (Element n k i) = 0) :
    (∀ a b, a < i → b < i →
      (HouseholderStep Real.sqrt n i t).Matr (Element n a b) = t.Matr (Element n a b)) ∧
    (HouseholderStep Real.sqrt n i t).Diag i = t.Matr (Element n i i) ∧
    (HouseholderStep Real.sqrt n i t).ExDiag i = 0 ∧
    reflection n (HouseholderStep Real.sqrt n i t).Matr i = 1 := by
  obtain ⟨u, q, β, E, F1, FD, FE, _, _, _, _, F6⟩ := HouseholderStep_facts hi1 hi t
  have hS : (∑ k ∈ Finset.range i, t.Matr (Element n k i) * t.Matr (Element n k i)) = 0 := by
    apply Finset.sum_eq_zero
    intro k hk
    rw [Finset.mem_range] at hk
    rw [hz k hk, mul_zero]
  obtain ⟨hβ, hE, hu⟩ := F6 hS
  refine ⟨?_, ?_, ?_, ?_⟩
  · intro a b ha hb
    rw [F1 a b (by omega), if_pos ⟨ha, hb⟩, hu a ha, hu b hb]
    ring
  · rw [FD, Function.update_same]
  · rw [FE, hE, hz (i - 1) (by omega)]
  · unfold reflection
    rw [F1 i i hi, if_neg (by omega : ¬ (i < i ∧ i < i)), if_pos ⟨rfl, rfl⟩, hβ, zero_smul,
      sub_zero]

/-- The array `HouseholderSymm` starts the accumulation from: the array of the reduction
with the unit matrix in its first two rows and columns. -/
theorem init_cells {n : Nat} (hn : 2 ≤ n) (M : Nat → ℝ) (a b : Nat) (hb : b < n) :
    Function.update (Function.update (Function.update (Function.update M (Element n 0 0) 1)
      (Element n 1 0) 0) (Element n 0 1) 0) (Element n 1 1) 1 (Element n a b) =
      if a < 2 ∧ b < 2 then (if a = b then 1 else 0) else M (Element n a b) := by
  have e (x y : Nat) (hy : y < n) : Element n a b = Element n x y ↔ a = x ∧ b = y :=
    Element_eq_iff hb hy
  simp only [Function.update_apply, e 0 0 (by omega), e 1 0 (by omega), e 0 1 (by omega),
    e 1 1 (by omega)]
  by_cases h11 : a = 1 ∧ b = 1
  · rw [if_pos h11, if_pos (by omega), if_pos (by omega)]
  · rw [if_neg h11]
    by_cases h01 : a = 0 ∧ b = 1
    · rw [if_pos h01, if_pos (by omega), if_neg (by omega)]
    · rw [if_neg h01]
      by_cases h10 : a = 1 ∧ b = 0
      · rw [if_pos h10, if_pos (by omega), if_neg (by omega)]
      · rw [if_neg h10]
        by_cases h00 : a = 0 ∧ b = 0
        · rw [if_pos h00, if_pos (by omega), if_pos (by omega)]
        · rw [if_neg h00, if_neg (by omega)]

/-- The readout of the leftover 2 x 2 matrix completes the tridiagonal matrix. -/
theorem readout_tridiagonal {n : Nat} (t : Tridiag ℝ)
    (hsym : t.Matr (Element n 1 0) = t.Matr (Element n 0 1)) :
    partialTridiag n 2 t =
      tridiagonal n
        (Function.update (Function.update t.Diag 0 (t.Matr (Element n 0 0))) 1
          (t.Matr (Element n 1 1)))
        (Function.update (Function.update t.ExDiag 0 0) 1 (t.Matr (Element n 0 1))) := by
  ext a b
  by_cases h : (a : Nat) < 2 ∧ (b : Nat) < 2
  · rw [partialTridiag_block t a b h.1 h.2, tridiagonal_apply]
    have ha : (a : Nat) = 0 ∨ (a : Nat) = 1 := by omega
    have hb : (b : Nat) = 0 ∨ (b : Nat) = 1 := by omega
    rcases ha with ha | ha <;> rcases hb with hb | hb <;> rw [ha, hb]
    · simp
    · simp
    · simp [hsym]
    · simp
  · rw [partialTridiag_out t a b h]
    apply tridiagonal_congr
    · intro e
      rw [Function.update_noteq (by omega), Function.update_noteq (by omega)]
    · intro e
      rw [Function.update_noteq (by omega), Function.update_noteq (by omega)]
    · intro e
      rw [Function.update_noteq (by omega), Function.update_noteq (by omega)]

/-- For a symmetric input with at least two rows, the array `HouseholderSymm` returns
holds the product of the reflections of its reduction loop, an orthogonal matrix that
transforms the input into the tridiagonal matrix of `Diag` and `ExDiag`. -/
theorem HouseholderSymm_transform {n : Nat} (hn : 2 ≤ n) (s : Tridiag ℝ)
    (hsym : ∀ a b, a < n → b < n → s.Matr (Element n a b) = s.Matr (Element n b a)) :
    asMatrix n (HouseholderSymm Real.sqrt false n s).Matr *
        (asMatrix n (HouseholderSymm Real.sqrt false n s).Matr).transpose = 1 ∧
      asMatrix n (HouseholderSymm Real.sqrt false n s).Matr * asMatrix n s.Matr *
        (asMatrix n (HouseholderSymm Real.sqrt false n s).Matr).transpose =
          tridiagonal n (HouseholderSymm Real.sqrt false n s).Diag
            (HouseholderSymm Real.sqrt false n s).ExDiag := by
  obtain ⟨I1, I2, I3⟩ := reduction_inv s hsym (n - 2) 2 (by omega) (Or.inl (by omega))
  unfold HouseholderSymm
  simp only [List.foldl_reverse, if_pos (by omega : n > 1), if_true]
  generalize List.foldr (fun i t => HouseholderStep Real.sqrt n i t) s
    (List.range' 2 (n - 2)) = t at I1 I2 I3 ⊢
  have hmem : ∀ r, r ∈ List.range' 2 (n - 2) → 2 ≤ r ∧ r < n := by
    intro r hr
    rw [List.mem_range'_1] at hr
    omega
  obtain ⟨M0, hM0⟩ : ∃ M0 : Nat → ℝ, M0 = Function.update (Function.update (Function.update
    (Function.update t.Matr (Element n 0 0) 1) (Element n 1 0) 0) (Element n 0 1) 0)
    (Element n 1 1) 1 := ⟨_, rfl⟩
  rw [← hM0]
  have hc : ∀ a b, b < n → M0 (Element n a b) =
      if a < 2 ∧ b < 2 then (if a = b then 1 else 0) else t.Matr (Element n a b) := by
    intro a b hb
    rw [hM0]
    exact init_cells hn t.Matr a b hb
  have hP : reflProd n M0 (List.range' 2 (n - 2)) =
      reflProd n t.Matr (List.range' 2 (n - 2)) := by
    apply reflProd_congr
    intro r hr
    obtain ⟨h1, h2⟩ := hmem r hr
    apply reflection_congr
    · rw [hc r r h2, if_neg (by omega)]
    · intro a _ _
      rw [hc a r h2, if_neg (by omega)]
  have hQ : asMatrix n (List.foldl (fun M i => HouseholderAccumulate n i M) M0
      (List.range' 2 (n - 2))) = reflProd n t.Matr (List.range' 2 (n - 2)) := by
    rw [← hP]
    ext a b
    have h := accumulate_inv M0
      (by rw [hc 0 0 (by omega)]; simp) (by rw [hc 0 1 (by omega)]; simp)
      (by rw [hc 1 0 (by omega)]; simp) (by rw [hc 1 1 (by omega)]; simp)
      (fun r h1 h2 k hk => by
        rw [hc r k (by omega), if_neg (by omega), hc k r h2, if_neg (by omega)]
        exact (I2 r h1 h2).2 k hk)
      (n - 2) (by omega) a b
    rw [if_pos (by omega)] at h
    exact h
  rw [hQ]
  refine ⟨reflProd_orthogonal t.Matr _ (fun r hr => ⟨(hmem r hr).2,
    (I2 r (hmem r hr).1 (hmem r hr).2).1⟩), ?_⟩
  rw [I3]
  exact readout_tridiagonal t (I1 1 0 (by omega) (by omega) (by omega) (by omega))

/-- With one or two rows `HouseholderSymm` makes no reflection: the array returned holds
the unit matrix, and the entries of the input are read out as they are. -/
theorem HouseholderSymm_small {n : Nat} (hn1 : 1 ≤ n) (hn2 : n ≤ 2) (s : Tridiag ℝ) :
    asMatrix n (HouseholderSymm Real.sqrt false n s).Matr = 1 ∧
      (HouseholderSymm Real.sqrt false n s).Diag 0 = s.Matr (Element n 0 0) ∧
      (n = 2 → (HouseholderSymm Real.sqrt false n s).Diag 1 = s.Matr (Element n 1 1) ∧
        (HouseholderSymm Real.sqrt false n s).ExDiag 1 = s.Matr (Element n 0 1)) := by
  have hl : List.range' 2 (n - 2) = [] := by
    rw [show n - 2 = 0 by omega]
    rfl
  unfold HouseholderSymm
  simp only [hl, List.reverse_nil, List.foldl_nil, if_true]
  rcases (by omega : n = 1 ∨ n = 2) with h | h
  · subst h
    refine ⟨?_, ?_, fun h => absurd h (by decide)⟩
    · ext a b
      have ha : a = 0 := Subsingleton.elim _ _
      have hb : b = 0 := Subsingleton.elim _ _
      subst ha
      subst hb
      simp [asMatrix, Element]
    · simp
  · subst h
    refine ⟨?_, ?_, fun _ => ⟨?_, ?_⟩⟩
    · ext a b
      simp only [if_pos (by decide : 2 > 1)]
      show Function.update _ _ _ _ = _
      rw [init_cells (le_refl 2) s.Matr a b b.2, if_pos ⟨a.2, b.2⟩, Matrix.one_apply]
      by_cases h : a = b
      · rw [if_pos h, if_pos (by rw [h])]
      · rw [if_neg h, if_neg (fun e => h (Fin.ext e))]
    · simp
    · simp
    · simp

/-- With one row the input is its own tridiagonal form. -/
theorem HouseholderSymm_one (s : Tridiag ℝ) :
    asMatrix 1 s.Matr = tridiagonal 1 (HouseholderSymm Real.sqrt false 1 s).Diag
      (HouseholderSymm Real.sqrt false 1 s).ExDiag := by
  ext a b
  have ha : a = 0 := Subsingleton.elim _ _
  have hb : b = 0 := Subsingleton.elim _ _
  subst ha
  subst hb
  rw [tridiagonal_apply, if_pos rfl]
  exact ((HouseholderSymm_small (le_refl 1) (by decide) s).2.1).symm

/-! ## Strings and codes -/

theorem symbolMask_lt (ch : Char) (s : List Char) : symbolMask ch s < 2 ^ s.length := by
  induction s with
  | nil => simp [symbolMask]
  | cons c s ih =>
    have h : (if c = ch then 1 else 0) ≤ 1 := by split <;> omega
    simp only [symbolMask, List.length_cons, pow_succ]
    omega

theorem testBit_symbolMask (ch : Char) (s : List Char) (i : Nat) :
    (symbolMask ch s).testBit i = decide (s.get? i = some ch) := by
  induction s generalizing i with
  | nil => simp [symbolMask]
  | cons c s ih =>
    have hdiv : ((if c = ch then 1 else 0) + 2 * symbolMask ch s) / 2 = symbolMask ch s := by
      split <;> omega
    cases i with
    | zero =>
      simp only [symbolMask, Nat.testBit_zero, List.get?_cons_zero, Option.some.injEq]
      by_cases h : c = ch
      · rw [if_pos h, h]
        simp
      · rw [if_neg h]
        simp [h]
    | succ i =>
      simp only [symbolMask, Nat.testBit_succ, List.get?_cons_succ]
      rw [hdiv, ih]

theorem symbolMask_drop (ch : Char) (s : List Char) (i : Nat) (c : Char)
    (h : s.get? i = some c) :
    symbolMask ch (s.drop i) = (if c = ch then 1 else 0) + 2 * symbolMask ch (s.drop (i + 1)) := by
  have hi : i < s.length := by
    rw [List.get?_eq_getElem?, List.getElem?_eq_some] at h
    exact h.1
  have hc : s[i] = c := by
    rw [List.get?_eq_getElem?, List.getElem?_eq_some] at h
    exact h.2
  rw [List.drop_eq_getElem_cons hi, hc]
  rfl

theorem bitCount_symbolMask (ch : Char) (s : List Char) :
    bitCount 0 s.length (symbolMask ch s) = s.count ch := by
  induction s with
  | nil => simp [bitCount]
  | cons c s ih =>
    unfold bitCount at ih ⊢
    rw [← Finset.range_eq_Ico] at ih ⊢
    rw [List.length_cons, Finset.sum_range_succ']
    have h1 : ∀ i, (symbolMask ch (c :: s)).testBit (i + 1) = (symbolMask ch s).testBit i := by
      intro i
      rw [testBit_symbolMask, testBit_symbolMask, List.get?_cons_succ]
    simp only [h1, ih]
    rw [testBit_symbolMask, List.get?_cons_zero, List.count_cons]
    by_cases h : c = ch
    · simp [h]
    · have h' : ¬ (some c = some ch) := fun e => h (Option.some.inj e)
      simp [h, h']

namespace Pattern

theorem mask_step (ch : Char) (s : List Char) (hlen : s.length ≤ 32) (i : Nat) (c : Char)
    (h : s.get? i = some c) :
    (if c = ch then (symbolMask ch (s.drop (i + 1)) * 2 % wordSize + 1) % wordSize
      else symbolMask ch (s.drop (i + 1)) * 2 % wordSize) = symbolMask ch (s.drop i) := by
  have hi : i < s.length := by
    rw [List.get?_eq_getElem?, List.getElem?_eq_some] at h
    exact h.1
  have hlt := symbolMask_lt ch (s.drop (i + 1))
  rw [List.length_drop] at hlt
  have hpow : (2:Nat) ^ (s.length - (i + 1)) ≤ 2 ^ 31 :=
    Nat.pow_le_pow_right (by norm_num) (by omega)
  have h31 : (2:Nat) ^ 31 = 2147483648 := by norm_num
  rw [symbolMask_drop ch s i c h]
  unfold wordSize
  by_cases hc : c = ch
  · rw [if_pos hc, if_pos hc]
    omega
  · rw [if_neg hc, if_neg hc]
    omega

theorem assignLoop_ok (s : List Char) (hlen : s.length ≤ 32) :
    ∀ i, i ≤ s.length → (∀ j, j < i → s.get? j = some '.' ∨ s.get? j = some 'o') →
      assignLoop s i (symbolMask 'o' (s.drop i)) = .ok (symbolMask 'o' s) := by
  intro i
  induction i with
  | zero =>
    intro _ _
    rw [List.drop_zero]
    rfl
  | succ i ih =>
    intro hi hs
    obtain ⟨c, hc⟩ : ∃ c, s.get? i = some c := by
      rcases hs i (by omega) with h | h
      · exact ⟨_, h⟩
      · exact ⟨_, h⟩
    have hco : c = '.' ∨ c = 'o' := by
      rcases hs i (by omega) with h | h
      · rw [hc] at h
        exact Or.inl (Option.some.inj h)
      · rw [hc] at h
        exact Or.inr (Option.some.inj h)
    have hstep := mask_step 'o' s hlen i c hc
    unfold assignLoop
    simp only [hc, Option.some.injEq]
    rw [if_pos hco, hstep]
    exact ih (by omega) (fun j hj => hs j (by omega))

theorem assignLoop_error (s : List Char) :
    ∀ i, (∃ j, j < i ∧ ¬ (s.get? j = some '.' ∨ s.get? j = some 'o')) → ∀ Code,
      assignLoop s i Code = .error "Illegal Symbol in Pattern" := by
  intro i
  induction i with
  | zero =>
    rintro ⟨j, hj, _⟩
    omega
  | succ i ih =>
    rintro ⟨j, hj, hbad⟩ Code
    unfold assignLoop
    by_cases h : s.get? i = some '.' ∨ s.get? i = some 'o'
    · have hji : j ≠ i := fun e => hbad (e ▸ h)
      simp only [if_pos h]
      exact ih ⟨j, by omega, hbad⟩ _
    · simp only [if_neg h]

/-- The constructor in closed form: the code of a string of `p <= 32` symbols `.` and
`o`, an error message for every other string. -/
theorem assign_spec (p : Nat) (hp : p ≤ 32) (s : List Char) :
    (s.length = p ∧ (∀ ch, ch ∈ s → ch = 'o' ∨ ch = '.') ∧
      assign p s = .ok (symbolMask 'o' s)) ∨
    (s.length ≠ p ∧ assign p s = .error "Illegal Pattern Size") ∨
    (s.length = p ∧ (∃ ch, ch ∈ s ∧ ch ≠ 'o' ∧ ch ≠ '.') ∧
      assign p s = .error "Illegal Symbol in Pattern") := by
  unfold assign
  by_cases hlen : s.length = p
  · rw [if_neg (not_not.2 hlen)]
    by_cases hall : ∀ ch, ch ∈ s → ch = 'o' ∨ ch = '.'
    · left
      refine ⟨hlen, hall, ?_⟩
      have h := assignLoop_ok s (by omega) p (by omega) (fun j hj => by
        have hj' : j < s.length := by omega
        rw [List.get?_eq_getElem?, List.getElem?_eq_getElem hj']
        rcases hall s[j] (List.getElem_mem _) with h | h
        · exact Or.inr (by rw [h])
        · exact Or.inl (by rw [h]))
      rw [← hlen, List.drop_length] at h
      rw [← hlen]
      exact h
    · right
      right
      push_neg at hall
      obtain ⟨ch, hmem, h1, h2⟩ := hall
      refine ⟨hlen, ⟨ch, hmem, h1, h2⟩, ?_⟩
      obtain ⟨j, hj, hjc⟩ := List.getElem_of_mem hmem
      apply assignLoop_error
      refine ⟨j, by omega, ?_⟩
      rw [List.get?_eq_getElem?, List.getElem?_eq_getElem hj, hjc]
      rintro (h | h)
      · exact h2 (Option.some.inj h)
      · exact h1 (Option.some.inj h)
  · right
    left
    exact ⟨hlen, by rw [if_pos hlen]⟩

end Pattern

namespace Pattern

theorem foldl_append_symbol (f : Nat → Char) (g : Nat → Prop) [DecidablePred g]
    (hf : ∀ i, f i = if g i then 'o' else '.') (l : List Nat) (init : List Char) :
    l.foldl (fun (Comp : List Char) (i : Nat) => if g i then Comp ++ ['o'] else Comp ++ ['.'])
      init = init ++ l.map f := by
  induction l generalizing init with
  | nil => simp
  | cons a l ih =>
    rw [List.foldl_cons, ih, List.map_cons, hf a]
    by_cases h : g a
    · simp [h]
    · simp [h]

/-- The graphical string in closed form. -/
theorem Graphics_eq (p c : Nat) :
    Graphics p c = (List.range p).map (fun i => if c.testBit i = true then 'o' else '.') := by
  unfold Graphics
  rw [foldl_append_symbol (fun i => if c.testBit i = true then 'o' else '.')
    (fun i => c &&& exp2pow i = exp2pow i) (fun i => by
      show (if c.testBit i = true then 'o' else '.') =
        if c &&& exp2pow i = exp2pow i then 'o' else '.'
      by_cases h : c.testBit i = true
      · rw [if_pos h, if_pos ((and_exp2pow_eq_self c i).2 h)]
      · rw [if_neg h, if_neg (fun h' => h ((and_exp2pow_eq_self c i).1 h'))])]
  rfl

theorem Graphics_length (p c : Nat) : (Graphics p c).length = p := by
  rw [Graphics_eq, List.length_map, List.length_range]

theorem Graphics_get (p c i : Nat) :
    (Graphics p c).get? i =
      if i < p then some (if c.testBit i = true then 'o' else '.') else none := by
  rw [Graphics_eq, List.get?_eq_getElem?, List.getElem?_map]
  by_cases h : i < p
  · rw [if_pos h, List.getElem?_range h]
    rfl
  · rw [if_neg h, List.getElem?_eq_none (by rw [List.length_range]; omega)]
    rfl

theorem Graphics_symbols (p c : Nat) (ch : Char) (h : ch ∈ Graphics p c) :
    ch = 'o' ∨ ch = '.' := by
  rw [Graphics_eq, List.mem_map] at h
  obtain ⟨i, _, rfl⟩ := h
  by_cases hb : c.testBit i = true
  · left
    rw [if_pos hb]
  · right
    rw [if_neg hb]

/-- The code of the graphical string of a code is the code. -/
theorem symbolMask_Graphics {p c : Nat} (hc : c < 2 ^ p) :
    symbolMask 'o' (Graphics p c) = c := by
  apply Nat.eq_of_testBit_eq
  intro i
  rw [testBit_symbolMask, Graphics_get]
  by_cases hi : i < p
  · rw [if_pos hi]
    by_cases hb : c.testBit i = true
    · rw [if_pos hb, hb]
      simp
    · rw [if_neg hb]
      simp at hb
      rw [hb]
      simp
  · rw [if_neg hi, testBit_of_lt hc (by omega)]
    simp

/-- The graphical string of the code of a string of symbols `.` and `o` is the string. -/
theorem Graphics_symbolMask (s : List Char) (hs : ∀ ch, ch ∈ s → ch = 'o' ∨ ch = '.') :
    Graphics s.length (symbolMask 'o' s) = s := by
  apply List.ext_get?
  intro i
  rw [Graphics_get, testBit_symbolMask]
  by_cases hi : i < s.length
  · rw [if_pos hi, List.get?_eq_getElem?, List.getElem?_eq_getElem hi]
    rcases hs s[i] (List.getElem_mem _) with h | h
    · rw [h]
      simp
    · rw [h]
      simp
  · rw [if_neg hi, List.get?_eq_getElem?, List.getElem?_eq_none (by omega)]

end Pattern

theorem and_eq_self_iff (c a : Nat) :
    c &&& a = a ↔ ∀ i, a.testBit i = true → c.testBit i = true := by
  constructor
  · intro h i hi
    have := congrArg (fun x => x.testBit i) h
    simp only [Nat.testBit_and, hi, Bool.and_true] at this
    exact this
  · intro h
    apply Nat.eq_of_testBit_eq
    intro i
    rw [Nat.testBit_and]
    by_cases hi : a.testBit i = true
    · rw [hi, h i hi]
      rfl
    · simp only [Bool.not_eq_true] at hi
      rw [hi, Bool.and_false]

theorem and_eq_zero_iff_bits (c a : Nat) :
    c &&& a = 0 ↔ ∀ i, a.testBit i = true → c.testBit i = false := by
  constructor
  · intro h i hi
    have := congrArg (fun x => x.testBit i) h
    simp only [Nat.testBit_and, hi, Bool.and_true, Nat.zero_testBit] at this
    exact this
  · intro h
    apply Nat.eq_of_testBit_eq
    intro i
    rw [Nat.testBit_and, Nat.zero_testBit]
    by_cases hi : a.testBit i = true
    · rw [h i hi]
      rfl
    · simp only [Bool.not_eq_true] at hi
      rw [hi, Bool.and_false]

namespace Pattern

theorem MatchLoop_ok (s : List Char) (hlen : s.length ≤ 32) :
    ∀ i, i ≤ s.length →
      (∀ j, j < i → s.get? j = some '.' ∨ s.get? j = some 'o' ∨ s.get? j = some 'x') →
      MatchLoop s i (symbolMask 'o' (s.drop i)) (symbolMask '.' (s.drop i)) =
        .ok (symbolMask 'o' s, symbolMask '.' s) := by
  intro i
  induction i with
  | zero =>
    intro _ _
    rw [List.drop_zero]
    rfl
  | succ i ih =>
    intro hi hs
    obtain ⟨c, hc⟩ : ∃ c, s.get? i = some c := by
      rcases hs i (by omega) with h | h | h
      · exact ⟨_, h⟩
      · exact ⟨_, h⟩
      · exact ⟨_, h⟩
    have hco : ¬ (c ≠ '.' ∧ c ≠ 'o' ∧ c ≠ 'x') := by
      rcases hs i (by omega) with h | h | h
      · rw [hc] at h
        exact fun h' => h'.1 (Option.some.inj h)
      · rw [hc] at h
        exact fun h' => h'.2.1 (Option.some.inj h)
      · rw [hc] at h
        exact fun h' => h'.2.2 (Option.some.inj h)
    have hstepA := mask_step 'o' s hlen i c hc
    have hstepH := mask_step '.' s hlen i c hc
    unfold MatchLoop
    simp only [hc, Option.some.injEq, ne_eq]
    rw [if_neg hco, hstepA, hstepH]
    exact ih (by omega) (fun j hj => hs j (by omega))

theorem MatchLoop_error (s : List Char) :
    ∀ i, (∃ j, j < i ∧ s.get? j ≠ some '.' ∧ s.get? j ≠ some 'o' ∧ s.get? j ≠ some 'x') →
      ∀ A H, MatchLoop s i A H = .error "Illegal Symbol in Pattern" := by
  intro i
  induction i with
  | zero =>
    rintro ⟨j, hj, _⟩
    omega
  | succ i ih =>
    rintro ⟨j, hj, hbad⟩ A H
    unfold MatchLoop
    by_cases h : s.get? i ≠ some '.' ∧ s.get? i ≠ some 'o' ∧ s.get? i ≠ some 'x'
    · simp only [if_pos h]
    · have hji : j ≠ i := fun e => h (e ▸ hbad)
      simp only [if_neg h]
      exact ih ⟨j, by omega, hbad⟩ _ _

/-- The comparison in closed form, for a string of `p <= 32` symbols `.`, `o`, `x`. -/
theorem Match_ok (p c : Nat) (hp : p ≤ 32) (s : List Char) (hlen : s.length = p)
    (hs : ∀ ch, ch ∈ s → ch = 'o' ∨ ch = '.' ∨ ch = 'x') :
    Match p c s = .ok (decide (c &&& symbolMask 'o' s = symbolMask 'o' s ∧
      c &&& symbolMask '.' s = 0)) := by
  unfold Match
  rw [if_neg (not_not.2 hlen)]
  have h := MatchLoop_ok s (by omega) p (by omega) (fun j hj => by
    have hj' : j < s.length := by omega
    rw [List.get?_eq_getElem?, List.getElem?_eq_getElem hj']
    rcases hs s[j] (List.getElem_mem _) with h | h | h
    · exact Or.inr (Or.inl (by rw [h]))
    · exact Or.inl (by rw [h])
    · exact Or.inr (Or.inr (by rw [h])))
  rw [← hlen, List.drop_length] at h
  rw [← hlen]
  have h' : MatchLoop s s.length 0 0 = .ok (symbolMask 'o' s, symbolMask '.' s) := h
  rw [h']

/-- The comparison fails on a string of another length or with another symbol. -/
theorem Match_error (p c : Nat) (s : List Char)
    (h : s.length ≠ p ∨ ∃ ch, ch ∈ s ∧ ch ≠ 'o' ∧ ch ≠ '.' ∧ ch ≠ 'x') :
    ∃ e, Match p c s = .error e := by
  unfold Match
  by_cases hlen : s.length = p
  · rw [if_neg (not_not.2 hlen)]
    rcases h with h | ⟨ch, hmem, h1, h2, h3⟩
    · exact absurd hlen h
    · obtain ⟨j, hj, hjc⟩ := List.getElem_of_mem hmem
      have hget : s.get? j = some ch := by
        rw [List.get?_eq_getElem?, List.getElem?_eq_getElem hj, hjc]
      rw [MatchLoop_error s p ⟨j, by omega, by
        rw [hget]
        exact ⟨fun e => h2 (Option.some.inj e), fun e => h1 (Option.some.inj e),
          fun e => h3 (Option.some.inj e)⟩⟩]
      exact ⟨_, rfl⟩
  · rw [if_pos hlen]
    exact ⟨_, rfl⟩

end Pattern

/-! ## The checks of the initial state -/

theorem isPrime_fold (n : Nat) (l : List Nat) (b : Bool) :
    l.foldl (fun PrimeTest i => if n % i = 0 then false else PrimeTest) b = true ↔
      b = true ∧ ∀ i, i ∈ l → n % i ≠ 0 := by
  induction l generalizing b with
  | nil => simp
  | cons a l ih =>
    rw [List.foldl_cons, ih]
    by_cases h : n % a = 0
    · simp [h]
    · simp [h]

/-- The primality test in closed form. -/
theorem IsPrime_eq (n : Nat) :
    IsPrime n = true ↔ ∀ d, 2 ≤ d → d < n → ¬ d ∣ n := by
  unfold IsPrime
  rw [isPrime_fold]
  simp only [true_and, List.mem_range'_1]
  constructor
  · intro h d h2 hd hdvd
    exact h d ⟨h2, by omega⟩ (Nat.mod_eq_zero_of_dvd hdvd)
  · intro h i hi hmod
    exact h i hi.1 (by omega) (Nat.dvd_of_mod_eq_zero hmod)

theorem IsPrime_iff_prime {n : Nat} (hn : 2 ≤ n) : IsPrime n = true ↔ Nat.Prime n := by
  rw [IsPrime_eq, Nat.prime_def_lt]
  constructor
  · intro h
    refine ⟨hn, fun m hm hdvd => ?_⟩
    by_contra h1
    have h0 : m ≠ 0 := by
      rintro rfl
      rw [Nat.zero_dvd] at hdvd
      omega
    exact h m (by omega) hm hdvd
  · rintro ⟨_, h⟩ d h2 hd hdvd
    have := h d hd hdvd
    omega

theorem TestPattern_definite (s : List Char) :
    ((∀ ch, ch ∈ s → ch = 'o' ∨ ch = '.') ∧ TestPattern s false = .ok ()) ∨
    ((∃ ch, ch ∈ s ∧ ch ≠ 'o' ∧ ch ≠ '.') ∧
      TestPattern s false = .error "Illegal Symbol in Pattern") := by
  induction s with
  | nil =>
    left
    exact ⟨fun ch h => absurd h (List.not_mem_nil _), rfl⟩
  | cons c s ih =>
    unfold TestPattern
    by_cases h1 : c ≠ '.' ∧ c ≠ 'o' ∧ c ≠ 'x'
    · right
      exact ⟨⟨c, List.mem_cons_self _ _, h1.2.1, h1.1⟩, by rw [if_pos h1]⟩
    · rw [if_neg h1]
      by_cases h2 : c = 'x'
      · right
        refine ⟨⟨c, List.mem_cons_self _ _, ?_, ?_⟩, by rw [if_pos ⟨rfl, h2⟩]⟩
        · rw [h2]
          decide
        · rw [h2]
          decide
      · rw [if_neg (fun h => h2 h.2)]
        have hc : c = 'o' ∨ c = '.' := by
          by_contra hh
          push_neg at hh
          exact h1 ⟨hh.2, hh.1, h2⟩
        rcases ih with ⟨hall, hok⟩ | ⟨⟨ch, hmem, hbad⟩, herr⟩
        · left
          refine ⟨fun ch hmem => ?_, hok⟩
          rcases List.mem_cons.1 hmem with h | h
          · rw [h]
            exact hc
          · exact hall ch h
        · right
          exact ⟨⟨ch, List.mem_cons_of_mem _ hmem, hbad⟩, herr⟩

/-- The section "Fetch and test initial state" in closed form: the result for a string
that passes all the tests, and the message of the first test that fails. -/
theorem FetchInitialState_spec (s : List Char) :
    ((∀ ch, ch ∈ s → ch = 'o' ∨ ch = '.') ∧ 3 ≤ s.length ∧ s.length ≤ 31 ∧
      IsPrime s.length = true ∧ 0 < s.count 'o' ∧ s.count 'o' < s.length ∧
      FetchInitialState s = .ok (s.length, symbolMask 'o' s, s.count 'o')) ∨
    ((∃ ch, ch ∈ s ∧ ch ≠ 'o' ∧ ch ≠ '.') ∧
      FetchInitialState s = .error "Illegal Symbol in Pattern") ∨
    ((∀ ch, ch ∈ s → ch = 'o' ∨ ch = '.') ∧ s.length < 3 ∧
      FetchInitialState s = .error "At least three sites required") ∨
    ((∀ ch, ch ∈ s → ch = 'o' ∨ ch = '.') ∧ 31 < s.length ∧
      FetchInitialState s = .error "At most 31 sites permitted") ∨
    ((∀ ch, ch ∈ s → ch = 'o' ∨ ch = '.') ∧ 3 ≤ s.length ∧ s.length ≤ 31 ∧
      IsPrime s.length = false ∧
      FetchInitialState s = .error "Number of sites must be prime") ∨
    ((∀ ch, ch ∈ s → ch = 'o' ∨ ch = '.') ∧ 3 ≤ s.length ∧ s.length ≤ 31 ∧
      IsPrime s.length = true ∧ (s.count 'o' = 0 ∨ s.count 'o' = s.length) ∧
      FetchInitialState s = .error "No atoms (holes) present") := by
  unfold FetchInitialState
  rcases TestPattern_definite s with ⟨hall, hok⟩ | ⟨hbad, herr⟩
  · rw [hok]
    simp only []
    by_cases h3 : s.length < 3
    · rw [if_pos h3]
      exact Or.inr (Or.inr (Or.inl ⟨hall, h3, rfl⟩))
    · rw [if_neg h3]
      by_cases h31 : s.length > 31
      · rw [if_pos h31]
        exact Or.inr (Or.inr (Or.inr (Or.inl ⟨hall, h31, rfl⟩)))
      · rw [if_neg h31]
        by_cases hprime : IsPrime s.length = false
        · rw [if_pos hprime]
          exact Or.inr (Or.inr (Or.inr (Or.inr (Or.inl
            ⟨hall, by omega, by omega, hprime, rfl⟩))))
        · rw [if_neg hprime]
          have hassign : Pattern.assign s.length s = .ok (symbolMask 'o' s) := by
            rcases Pattern.assign_spec s.length (by omega) s with
              ⟨_, _, hok⟩ | ⟨h, _⟩ | ⟨_, ⟨ch, hmem, h1, h2⟩, _⟩
            · exact hok
            · exact absurd rfl h
            · rcases hall ch hmem with h | h
              · exact absurd h h1
              · exact absurd h h2
          rw [hassign]
          simp only []
          rw [Pattern.AtomNum_eq, bitCount_symbolMask]
          have hle : s.count 'o' ≤ s.length := List.count_le_length _ _
          simp only [Bool.not_eq_false] at hprime
          by_cases hk : s.count 'o' = 0 ∨ s.count 'o' = s.length
          · rw [if_pos hk]
            exact Or.inr (Or.inr (Or.inr (Or.inr (Or.inr
              ⟨hall, by omega, by omega, hprime, hk, rfl⟩))))
          · rw [if_neg hk]
            exact Or.inl ⟨hall, by omega, by omega, hprime, by omega, by omega, rfl⟩
  · rw [herr]
    exact Or.inr (Or.inl ⟨hbad, rfl⟩)

/-! ## The packed storage of the transformation matrices -/

theorem Cplx.eq_iff {K : Type} (a b : Cplx K) : a = b ↔ a.re = b.re ∧ a.im = b.im := by
  cases a
  cases b
  simp

/-- An element that is its own conjugate is real. -/
theorem Cplx.im_zero_of_conj {K : Type} [LinearOrderedField K] (a : Cplx K)
    (h : a = Cplx.conj a) : a.im = 0 := by
  have h2 := ((Cplx.eq_iff _ _).1 h).2
  simp only [Cplx.conj] at h2
  linarith

theorem Cplx.scale_eq_mul {K : Type} [Field K] (a : Cplx K) (x : K) :
    Cplx.scale a x = Cplx.mul a ⟨x, 0⟩ := by
  rw [Cplx.eq_iff]
  simp [Cplx.scale, Cplx.mul]

/-- One pass of the encoding loop on a row with the mirror symmetry: one real number is
stored and `qNonZero` is left as it is. -/
theorem EncodeStep_spec {K : Type} [LinearOrderedField K] {N : Nat} (OffsetM : Nat)
    (M : Nat → Nat) (hM : ∀ j, j < N → M j < N ∧ M (M j) = j) (Q : Nat → Cplx K)
    (hQ : ∀ i j, i < N → j < N → Q (Element N i (M j)) = Cplx.conj (Q (Element N i j)))
    (U : Nat → K) (i j : Nat) (hi : i < N) (hj : j < N)
    (hU : M j < j → U (OffsetM + Element N i (M j)) = (Q (Element N i (M j))).re) :
    EncodeStep N OffsetM M i j (U, Q) =
      (Function.update U (OffsetM + Element N i j)
        (if j < M j ∨ j = M j then (Q (Element N i j)).re else (Q (Element N i j)).im), Q) := by
  have hconj := hQ i j hi hj
  have hre : (Q (Element N i (M j))).re = (Q (Element N i j)).re := by
    rw [hconj]
    rfl
  have him : (Q (Element N i (M j))).im = -(Q (Element N i j)).im := by
    rw [hconj]
    rfl
  unfold EncodeStep
  by_cases h1 : j = M j
  · have him0 : (Q (Element N i j)).im = 0 := by
      apply Cplx.im_zero_of_conj
      rw [← hconj, ← h1]
    simp only [if_pos h1, if_pos (Or.inr h1 : j < M j ∨ j = M j), Function.update_same]
    have e : (⟨(Q (Element N i j)).re, 0⟩ : Cplx K) = Q (Element N i j) := by
      rw [Cplx.eq_iff]
      exact ⟨rfl, him0.symm⟩
    rw [e, Function.update_eq_self]
  · by_cases h2 : j < M j
    · simp only [if_neg h1, if_pos h2, if_pos (Or.inl h2 : j < M j ∨ j = M j)]
      rw [hre]
      have hv : 1 / 2 * ((Q (Element N i j)).re + (Q (Element N i j)).re) =
          (Q (Element N i j)).re := by ring
      rw [hv]
    · have h3 : M j < j := by omega
      have hne : OffsetM + Element N i (M j) ≠ OffsetM + Element N i j := by
        intro e
        have := (Element_eq_iff (hM j hj).1 hj).1 (Nat.add_left_cancel e)
        omega
      simp only [if_neg h1, if_neg h2, if_neg (by omega : ¬ (j < M j ∨ j = M j)),
        Function.update_same, Function.update_noteq hne]
      rw [him, hU h3, hre]
      have hv : 1 / 2 * ((Q (Element N i j)).im - -(Q (Element N i j)).im) =
          (Q (Element N i j)).im := by ring
      rw [hv]
      have e : (⟨(Q (Element N i j)).re, (Q (Element N i j)).im⟩ : Cplx K) =
          Q (Element N i j) := rfl
      rw [e, Function.update_eq_self, ← hconj, Function.update_eq_self]

/-- The encoding loop over the columns of one row. -/
theorem encode_row {K : Type} [LinearOrderedField K] {N : Nat} (OffsetM : Nat)
    (M : Nat → Nat) (hM : ∀ j, j < N → M j < N ∧ M (M j) = j) (Q : Nat → Cplx K)
    (hQ : ∀ i j, i < N → j < N → Q (Element N i (M j)) = Cplx.conj (Q (Element N i j)))
    (U : Nat → K) (i : Nat) (hi : i < N) :
    ∀ n, n ≤ N → ∃ U1 : Nat → K,
      (List.range n).foldl (fun s j => EncodeStep N OffsetM M i j s) (U, Q) = (U1, Q) ∧
      (∀ j, j < n → U1 (OffsetM + Element N i j) =
        if j < M j ∨ j = M j then (Q (Element N i j)).re else (Q (Element N i j)).im) ∧
      (∀ y, (∀ j, j < n → y ≠ OffsetM + Element N i j) → U1 y = U y) := by
  intro n
  induction n with
  | zero =>
    intro _
    exact ⟨U, rfl, fun j hj => absurd hj (Nat.not_lt_zero j), fun y _ => rfl⟩
  | succ n ih =>
    intro hn
    obtain ⟨U1, hfold, hcells, hrest⟩ := ih (by omega)
    rw [List.range_succ, List.foldl_append, hfold, List.foldl_cons, List.foldl_nil,
      EncodeStep_spec OffsetM M hM Q hQ U1 i n hi (by omega) (fun h => by
        rw [hcells (M n) h, if_pos (Or.inl (by rw [(hM n (by omega)).2]; exact h))])]
    refine ⟨_, rfl, ?_, ?_⟩
    · intro j hj
      by_cases hjn : j = n
      · rw [hjn, Function.update_same]
      · rw [Function.update_noteq, hcells j (by omega)]
        intro e
        have := (@Element_eq_iff N i j i n (by omega : j < N) (by omega : n < N)).1
          (Nat.add_left_cancel e)
        exact hjn this.2
    · intro y hy
      rw [Function.update_noteq (hy n (by omega)), hrest y (fun j hj => hy j (by omega))]

/-- The encoding loops in closed form, for a matrix whose rows have the mirror symmetry:
`qNonZero` is left as it is, and `Unitary` holds the real part of the element `(i, j)` if
`j` is not above its mirror image and the imaginary part if it is. -/
theorem EncodeUnitary_spec {K : Type} [LinearOrderedField K] {N : Nat} (OffsetM : Nat)
    (M : Nat → Nat) (hM : ∀ j, j < N → M j < N ∧ M (M j) = j) (Q : Nat → Cplx K)
    (hQ : ∀ i j, i < N → j < N → Q (Element N i (M j)) = Cplx.conj (Q (Element N i j)))
    (U : Nat → K) :
    (EncodeUnitary N OffsetM M (U, Q)).2 = Q ∧
    (∀ i j, i < N → j < N → (EncodeUnitary N OffsetM M (U, Q)).1 (OffsetM + Element N i j) =
      if j < M j ∨ j = M j then (Q (Element N i j)).re else (Q (Element N i j)).im) ∧
    (∀ y, (∀ i j, i < N → j < N → y ≠ OffsetM + Element N i j) →
      (EncodeUnitary N OffsetM M (U, Q)).1 y = U y) := by
  have key : ∀ m, m ≤ N → ∃ U1 : Nat → K,
      (List.range m).foldl (fun s i => (List.range N).foldl
        (fun s j => EncodeStep N OffsetM M i j s) s) (U, Q) = (U1, Q) ∧
      (∀ i j, i < m → j < N → U1 (OffsetM + Element N i j) =
        if j < M j ∨ j = M j then (Q (Element N i j)).re else (Q (Element N i j)).im) ∧
      (∀ y, (∀ i j, i < m → j < N → y ≠ OffsetM + Element N i j) → U1 y = U y) := by
    intro m
    induction m with
    | zero =>
      intro _
      exact ⟨U, rfl, fun i j hi => absurd hi (Nat.not_lt_zero i), fun y _ => rfl⟩
    | succ m ih =>
      intro hm
      obtain ⟨U1, hfold, hcells, hrest⟩ := ih (by omega)
      obtain ⟨U2, hfold2, hcells2, hrest2⟩ :=
        encode_row OffsetM M hM Q hQ U1 m (by omega) N (le_refl N)
      rw [List.range_succ, List.foldl_append, hfold, List.foldl_cons, List.foldl_nil, hfold2]
      refine ⟨U2, rfl, ?_, ?_⟩
      · intro i j hi hj
        by_cases him : i = m
        · rw [him]
          exact hcells2 j hj
        · rw [hrest2, hcells i j (by omega) hj]
          intro j' hj' e
          have := (@Element_eq_iff N i j m j' hj hj').1 (Nat.add_left_cancel e)
          exact him this.1
      · intro y hy
        rw [hrest2 y (fun j hj => hy m j (by omega) hj),
          hrest y (fun i j hi hj => hy i j (by omega) hj)]
  obtain ⟨U1, hfold, hcells, hrest⟩ := key N (le_refl N)
  unfold EncodeUnitary
  rw [hfold]
  exact ⟨rfl, hcells, hrest⟩

/-! ## The sweeps of the QR routines -/

theorem QRSymmRotate_fold_Dots {K : Type} [Field K] (b : Bool) (n : Nat)
    (C S O : Nat → K) (l : List Nat) (s : QRSymmState K) :
    (l.foldl (fun s j => QRSymmRotate b n C S O j s) s).Dots = s.Dots := by
  induction l generalizing s with
  | nil => rfl
  | cons a l ih =>
    rw [List.foldl_cons, ih]
    rfl

/-- A sweep of `QRSymm` writes no progress dot itself. -/
theorem QRSymmSweep_Dots {K : Type} [LinearOrderedField K] (sqrt : K → K) (b : Bool)
    (n i : Nat) (x : K) (s : QRSymmState K) : (QRSymmSweep sqrt b n i x s).Dots = s.Dots := by
  unfold QRSymmSweep
  simp only []
  rw [QRSymmRotate_fold_Dots]

theorem QRSymmJacobi_Dots {K : Type} [LinearOrderedField K] (sqrt : K → K) (b : Bool)
    (n i : Nat) (s : QRSymmState K) : (QRSymmJacobi sqrt b n i s).Dots = s.Dots := by
  unfold QRSymmJacobi
  cases QRSymmSplit sqrt (s.Diag (i - 1)) (s.Diag i) (s.ExDiag i) <;> rfl

/-- The inner loop of `QRSymm` with `m` sweeps left before the limit `MaxIter`: it ends,
returning after at most `m` sweeps with the test passed, or it ends the program after
exactly `m` sweeps with the test failed. -/
theorem QRSymmInner_spec {K : Type} [LinearOrderedField K] (sqrt : K → K) (b : Bool)
    (n i : Nat) :
    ∀ (m fuel Count : Nat) (t : QRTest K) (s : QRSymmState K), Count + m = MaxIter →
      m + 1 ≤ fuel →
      (∃ t1 s1, QRSymmInner sqrt b n i fuel Count t s = some (.Return (t1, s1)) ∧
        s1.Dots ≤ s.Dots + m ∧ (i ≤ 1 → s1.Dots = s.Dots) ∧
        ¬ (i > 1 ∧ t1.Ratio > Accu K)) ∨
      (∃ t1 s1, QRSymmInner sqrt b n i fuel Count t s = some (.NoConvergence (t1, s1)) ∧
        s1.Dots = s.Dots + m ∧ (i > 1 ∧ t1.Ratio > Accu K)) := by
  intro m
  induction m with
  | zero =>
    intro fuel Count t s hC hf
    obtain ⟨f, rfl⟩ : ∃ f, fuel = f + 1 := ⟨fuel - 1, by omega⟩
    unfold QRSymmInner
    by_cases hc : i > 1 ∧ t.Ratio > Accu K
    · right
      rw [if_pos hc]
      simp only []
      rw [if_pos (by omega)]
      exact ⟨t, s, rfl, rfl, hc⟩
    · left
      rw [if_neg hc]
      exact ⟨t, s, rfl, le_refl _, fun _ => rfl, hc⟩
  | succ m ih =>
    intro fuel Count t s hC hf
    obtain ⟨f, rfl⟩ : ∃ f, fuel = f + 1 := ⟨fuel - 1, by omega⟩
    unfold QRSymmInner
    by_cases hc : i > 1 ∧ t.Ratio > Accu K
    · rw [if_pos hc]
      simp only []
      rw [if_neg (by omega)]
      rcases ih f (Count + 1) (QRSymmTest (QRSymmSweep sqrt b n i t.SuperDiagNorm1 s).ExDiag i)
        ⟨(QRSymmSweep sqrt b n i t.SuperDiagNorm1 s).Matr,
          (QRSymmSweep sqrt b n i t.SuperDiagNorm1 s).Diag,
          (QRSymmSweep sqrt b n i t.SuperDiagNorm1 s).ExDiag,
          (QRSymmSweep sqrt b n i t.SuperDiagNorm1 s).Dots + 1⟩ (by omega) (by omega) with
        ⟨t1, s1, h1, h2, _, h4⟩ | ⟨t1, s1, h1, h2, h3⟩
      · left
        refine ⟨t1, s1, h1, ?_, fun h => by omega, h4⟩
        simp only [QRSymmSweep_Dots] at h2
        omega
      · right
        refine ⟨t1, s1, h1, ?_, h3⟩
        simp only [QRSymmSweep_Dots] at h2
        omega
    · left
      rw [if_neg hc]
      exact ⟨t, s, rfl, by omega, fun _ => rfl, hc⟩

/-- The outer loop of `QRSymm` from the index `i`: it ends, with at most
`30 (i - 1)` sweeps made. -/
theorem QRSymmOuter_spec {K : Type} [LinearOrderedField K] (sqrt : K → K) (b : Bool)
    (n F : Nat) (hF : MaxIter + 1 ≤ F) :
    ∀ (fuel : Nat) (i : Int) (s : QRSymmState K), i.toNat < fuel →
      ∃ s1, (QRSymmOuter sqrt b n F fuel i s = some (.Return s1) ∨
          QRSymmOuter sqrt b n F fuel i s = some (.NoConvergence s1)) ∧
        s1.Dots ≤ s.Dots + MaxIter * (i.toNat - 1) := by
  intro fuel
  induction fuel with
  | zero =>
    intro i s h
    omega
  | succ fuel ih =>
    intro i s hi
    unfold QRSymmOuter
    by_cases h0 : i > 0
    · rw [if_pos h0]
      rcases QRSymmInner_spec sqrt b n i.toNat MaxIter F 0 (QRSymmTest s.ExDiag i.toNat) s
        (Nat.zero_add _) hF with ⟨t1, s1, h1, h2, h3, _⟩ | ⟨t1, s1, h1, h2, h3⟩
      · rw [h1]
        simp only []
        have hd : s1.Dots + MaxIter * (i.toNat - 1 - 1) ≤ s.Dots + MaxIter * (i.toNat - 1) := by
          by_cases h1' : i.toNat ≤ 1
          · rw [h3 h1', show i.toNat - 1 - 1 = 0 by omega, show i.toNat - 1 = 0 by omega]
          · have e : i.toNat - 1 = (i.toNat - 1 - 1) + 1 := by omega
            rw [e, Nat.mul_succ]
            simp only [Nat.add_sub_cancel]
            omega
        by_cases hflag : t1.Flag = true
        · rw [if_pos hflag]
          obtain ⟨s2, h4, h5⟩ := ih (i - 1) s1 (by omega)
          refine ⟨s2, h4, ?_⟩
          have e1 : (i - 1).toNat - 1 = i.toNat - 1 - 1 := by omega
          rw [e1] at h5
          omega
        · rw [if_neg hflag]
          obtain ⟨s2, h4, h5⟩ := ih (i - 2) (QRSymmJacobi sqrt b n i.toNat s1) (by omega)
          refine ⟨s2, h4, ?_⟩
          rw [QRSymmJacobi_Dots] at h5
          have e1 : MaxIter * ((i - 2).toNat - 1) ≤ MaxIter * (i.toNat - 1 - 1) :=
            Nat.mul_le_mul_left _ (by omega)
          omega
      · rw [h1]
        refine ⟨s1, Or.inr rfl, ?_⟩
        have e : i.toNat - 1 = (i.toNat - 1 - 1) + 1 := by omega
        rw [h2, e, Nat.mul_succ]
        omega
    · rw [if_neg h0]
      exact ⟨s, Or.inl rfl, by omega⟩

theorem QRHermRotate_fold_Dots {K : Type} [Field K] (b : Bool) (n : Nat)
    (C S O : Nat → K) (l : List Nat) (s : QRHermState K) :
    (l.foldl (fun s j => QRHermRotate b n C S O j s) s).Dots = s.Dots := by
  induction l generalizing s with
  | nil => rfl
  | cons a l ih =>
    rw [List.foldl_cons, ih]
    rfl

/-- A sweep of `QRHerm` writes no progress dot itself. -/
theorem QRHermSweep_Dots {K : Type} [LinearOrderedField K] (sqrt : K → K) (b : Bool)
    (n i : Nat) (x : K) (s : QRHermState K) : (QRHermSweep sqrt b n i x s).Dots = s.Dots := by
  unfold QRHermSweep
  simp only []
  rw [QRHermRotate_fold_Dots]

theorem QRHermJacobi_Dots {K : Type} [LinearOrderedField K] (sqrt : K → K) (b : Bool)
    (n i : Nat) (s : QRHermState K) : (QRHermJacobi sqrt b n i s).Dots = s.Dots := by
  unfold QRHermJacobi
  cases QRHermSplit sqrt (s.Diag (i - 1)) (s.Diag i) (s.SupDiag i).re (s.SupDiag i).im <;> rfl

/-- The inner loop of `QRHerm` with `m` sweeps left before the limit `MaxIter`: it ends,
returning after at most `m` sweeps with the test passed, or it ends the program after
exactly `m` sweeps with the test failed. -/
theorem QRHermInner_spec {K : Type} [LinearOrderedField K] (sqrt : K → K) (b : Bool)
    (n i : Nat) :
    ∀ (m fuel Count : Nat) (t : QRTest K) (s : QRHermState K), Count + m = MaxIter →
      m + 1 ≤ fuel →
      (∃ t1 s1, QRHermInner sqrt b n i fuel Count t s = some (.Return (t1, s1)) ∧
        s1.Dots ≤ s.Dots + m ∧ (i ≤ 1 → s1.Dots = s.Dots) ∧
        ¬ (i > 1 ∧ t1.Ratio > Accu K * Accu K)) ∨
      (∃ t1 s1, QRHermInner sqrt b n i fuel Count t s = some (.NoConvergence (t1, s1)) ∧
        s1.Dots = s.Dots + m ∧ (i > 1 ∧ t1.Ratio > Accu K * Accu K)) := by
  intro m
  induction m with
  | zero =>
    intro fuel Count t s hC hf
    obtain ⟨f, rfl⟩ : ∃ f, fuel = f + 1 := ⟨fuel - 1, by omega⟩
    unfold QRHermInner
    by_cases hc : i > 1 ∧ t.Ratio > Accu K * Accu K
    · right
      rw [if_pos hc]
      simp only []
      rw [if_pos (by omega)]
      exact ⟨t, s, rfl, rfl, hc⟩
    · left
      rw [if_neg hc]
      exact ⟨t, s, rfl, le_refl _, fun _ => rfl, hc⟩
  | succ m ih =>
    intro fuel Count t s hC hf
    obtain ⟨f, rfl⟩ : ∃ f, fuel = f + 1 := ⟨fuel - 1, by omega⟩
    unfold QRHermInner
    by_cases hc : i > 1 ∧ t.Ratio > Accu K * Accu K
    · rw [if_pos hc]
      simp only []
      rw [if_neg (by omega)]
      rcases ih f (Count + 1) (QRHermTest (QRHermSweep sqrt b n i t.SuperDiagNorm1 s).SupDiag i)
        ⟨(QRHermSweep sqrt b n i t.SuperDiagNorm1 s).Matr,
          (QRHermSweep sqrt b n i t.SuperDiagNorm1 s).Diag,
          (QRHermSweep sqrt b n i t.SuperDiagNorm1 s).SupDiag,
          (QRHermSweep sqrt b n i t.SuperDiagNorm1 s).Dots + 1⟩ (by omega) (by omega) with
        ⟨t1, s1, h1, h2, _, h4⟩ | ⟨t1, s1, h1, h2, h3⟩
      · left
        refine ⟨t1, s1, h1, ?_, fun h => by omega, h4⟩
        simp only [QRHermSweep_Dots] at h2
        omega
      · right
        refine ⟨t1, s1, h1, ?_, h3⟩
        simp only [QRHermSweep_Dots] at h2
        omega
    · left
      rw [if_neg hc]
      exact ⟨t, s, rfl, by omega, fun _ => rfl, hc⟩

/-- The outer loop of `QRHerm` from the index `i`: it ends, with at most
`30 (i - 1)` sweeps made. -/
theorem QRHermOuter_spec {K : Type} [LinearOrderedField K] (sqrt : K → K) (b : Bool)
    (n F : Nat) (hF : MaxIter + 1 ≤ F) :
    ∀ (fuel : Nat) (i : Int) (s : QRHermState K), i.toNat < fuel →
      ∃ s1, (QRHermOuter sqrt b n F fuel i s = some (.Return s1) ∨
          QRHermOuter sqrt b n F fuel i s = some (.NoConvergence s1)) ∧
        s1.Dots ≤ s.Dots + MaxIter * (i.toNat - 1) := by
  intro fuel
  induction fuel with
  | zero =>
    intro i s h
    omega
  | succ fuel ih =>
    intro i s hi
    unfold QRHermOuter
    by_cases h0 : i > 0
    · rw [if_pos h0]
      rcases QRHermInner_spec sqrt b n i.toNat MaxIter F 0 (QRHermTest s.SupDiag i.toNat) s
        (Nat.zero_add _) hF with ⟨t1, s1, h1, h2, h3, _⟩ | ⟨t1, s1, h1, h2, h3⟩
      · rw [h1]
        simp only []
        have hd : s1.Dots + MaxIter * (i.toNat - 1 - 1) ≤ s.Dots + MaxIter * (i.toNat - 1) := by
          by_cases h1' : i.toNat ≤ 1
          · rw [h3 h1', show i.toNat - 1 - 1 = 0 by omega, show i.toNat - 1 = 0 by omega]
          · have e : i.toNat - 1 = (i.toNat - 1 - 1) + 1 := by omega
            rw [e, Nat.mul_succ]
            simp only [Nat.add_sub_cancel]
            omega
        by_cases hflag : t1.Flag = true
        · rw [if_pos hflag]
          obtain ⟨s2, h4, h5⟩ := ih (i - 1) s1 (by omega)
          refine ⟨s2, h4, ?_⟩
          have e1 : (i - 1).toNat - 1 = i.toNat - 1 - 1 := by omega
          rw [e1] at h5
          omega
        · rw [if_neg hflag]
          obtain ⟨s2, h4, h5⟩ := ih (i - 2) (QRHermJacobi sqrt b n i.toNat s1) (by omega)
          refine ⟨s2, h4, ?_⟩
          rw [QRHermJacobi_Dots] at h5
          have e1 : MaxIter * ((i - 2).toNat - 1) ≤ MaxIter * (i.toNat - 1 - 1) :=
            Nat.mul_le_mul_left _ (by omega)
          omega
      · rw [h1]
        refine ⟨s1, Or.inr rfl, ?_⟩
        have e : i.toNat - 1 = (i.toNat - 1 - 1) + 1 := by omega
        rw [h2, e, Nat.mul_succ]
        omega
    · rw [if_neg h0]
      exact ⟨s, Or.inl rfl, by omega⟩

/-- One stage of the outer loop of `QRSymm`: the inner loop starts with the counter 0; if
it does not end the program, the loop goes on with the index lowered by 1 or by 2 and at
most `MaxIter` sweeps more. -/
theorem QRSymmOuter_step {K : Type} [LinearOrderedField K] (sqrt : K → K) (b : Bool)
    (n F : Nat) (hF : MaxIter + 1 ≤ F) (fuel : Nat) (i : Int) (hi : 0 < i)
    (s : QRSymmState K) :
    (∃ s1, QRSymmOuter sqrt b n F (fuel + 1) i s = some (.NoConvergence s1) ∧ 1 < i ∧
      s1.Dots = s.Dots + MaxIter) ∨
    (∃ s1, QRSymmOuter sqrt b n F (fuel + 1) i s = QRSymmOuter sqrt b n F fuel (i - 1) s1 ∧
      s1.Dots ≤ s.Dots + MaxIter) ∨
    (∃ s1, QRSymmOuter sqrt b n F (fuel + 1) i s = QRSymmOuter sqrt b n F fuel (i - 2) s1 ∧
      s1.Dots ≤ s.Dots + MaxIter) := by
  rcases QRSymmInner_spec sqrt b n i.toNat MaxIter F 0 (QRSymmTest s.ExDiag i.toNat) s
    (Nat.zero_add _) hF with ⟨t1, s1, h1, h2, _, _⟩ | ⟨t1, s1, h1, h2, h3⟩
  · by_cases hflag : t1.Flag = true
    · have hval : QRSymmOuter sqrt b n F (fuel + 1) i s =
          QRSymmOuter sqrt b n F fuel (i - 1) s1 := by
        rw [QRSymmOuter, if_pos hi, h1]
        simp only []
        rw [if_pos hflag]
      exact Or.inr (Or.inl ⟨s1, hval, h2⟩)
    · have hval : QRSymmOuter sqrt b n F (fuel + 1) i s =
          QRSymmOuter sqrt b n F fuel (i - 2) (QRSymmJacobi sqrt b n i.toNat s1) := by
        rw [QRSymmOuter, if_pos hi, h1]
        simp only []
        rw [if_neg hflag]
      exact Or.inr (Or.inr ⟨_, hval, by rw [QRSymmJacobi_Dots]; exact h2⟩)
  · have hval : QRSymmOuter sqrt b n F (fuel + 1) i s = some (.NoConvergence s1) := by
      rw [QRSymmOuter, if_pos hi, h1]
    exact Or.inl ⟨s1, hval, by omega, h2⟩

/-- One stage of the outer loop of `QRHerm`, as `QRSymmOuter_step`. -/
theorem QRHermOuter_step {K : Type} [LinearOrderedField K] (sqrt : K → K) (b : Bool)
    (n F : Nat) (hF : MaxIter + 1 ≤ F) (fuel : Nat) (i : Int) (hi : 0 < i)
    (s : QRHermState K) :
    (∃ s1, QRHermOuter sqrt b n F (fuel + 1) i s = some (.NoConvergence s1) ∧ 1 < i ∧
      s1.Dots = s.Dots + MaxIter) ∨
    (∃ s1, QRHermOuter sqrt b n F (fuel + 1) i s = QRHermOuter sqrt b n F fuel (i - 1) s1 ∧
      s1.Dots ≤ s.Dots + MaxIter) ∨
    (∃ s1, QRHermOuter sqrt b n F (fuel + 1) i s = QRHermOuter sqrt b n F fuel (i - 2) s1 ∧
      s1.Dots ≤ s.Dots + MaxIter) := by
  rcases QRHermInner_spec sqrt b n i.toNat MaxIter F 0 (QRHermTest s.SupDiag i.toNat) s
    (Nat.zero_add _) hF with ⟨t1, s1, h1, h2, _, _⟩ | ⟨t1, s1, h1, h2, h3⟩
  · by_cases hflag : t1.Flag = true
    · have hval : QRHermOuter sqrt b n F (fuel + 1) i s =
          QRHermOuter sqrt b n F fuel (i - 1) s1 := by
        rw [QRHermOuter, if_pos hi, h1]
        simp only []
        rw [if_pos hflag]
      exact Or.inr (Or.inl ⟨s1, hval, h2⟩)
    · have hval : QRHermOuter sqrt b n F (fuel + 1) i s =
          QRHermOuter sqrt b n F fuel (i - 2) (QRHermJacobi sqrt b n i.toNat s1) := by
        rw [QRHermOuter, if_pos hi, h1]
        simp only []
        rw [if_neg hflag]
      exact Or.inr (Or.inr ⟨_, hval, by rw [QRHermJacobi_Dots]; exact h2⟩)
  · have hval : QRHermOuter sqrt b n F (fuel + 1) i s = some (.NoConvergence s1) := by
      rw [QRHermOuter, if_pos hi, h1]
    exact Or.inl ⟨s1, hval, by omega, h2⟩

/-- The routine `QRSymm` ends, with at most `30 (n - 1)` sweeps made. -/
theorem QRSymm_halts {K : Type} [LinearOrderedField K] (sqrt : K → K) (b : Bool)
    (n fuel : Nat) (hfuel : MaxIter + 1 ≤ fuel) (hn : n ≤ fuel) (s : QRSymmState K) :
    ∃ s1, (QRSymm sqrt b n fuel s = some (.Return s1) ∨
        QRSymm sqrt b n fuel s = some (.NoConvergence s1)) ∧
      s1.Dots ≤ s.Dots + MaxIter * (n - 1) := by
  unfold QRSymm
  obtain ⟨s1, h1, h2⟩ := QRSymmOuter_spec sqrt b n fuel hfuel fuel ((n : Int) - 1)
    ⟨s.Matr, s.Diag, Function.update s.ExDiag 0 0, s.Dots⟩ (by omega)
  refine ⟨s1, h1, ?_⟩
  have e : MaxIter * (((n : Int) - 1).toNat - 1) ≤ MaxIter * (n - 1) :=
    Nat.mul_le_mul_left _ (by omega)
  simp only [] at h2
  omega

/-- The routine `QRHerm` ends, with at most `30 (n - 1)` sweeps made. -/
theorem QRHerm_halts {K : Type} [LinearOrderedField K] (sqrt : K → K) (b : Bool)
    (n fuel : Nat) (hfuel : MaxIter + 1 ≤ fuel) (hn : n ≤ fuel) (s : QRHermState K) :
    ∃ s1, (QRHerm sqrt b n fuel s = some (.Return s1) ∨
        QRHerm sqrt b n fuel s = some (.NoConvergence s1)) ∧
      s1.Dots ≤ s.Dots + MaxIter * (n - 1) := by
  unfold QRHerm
  obtain ⟨s1, h1, h2⟩ := QRHermOuter_spec sqrt b n fuel hfuel fuel ((n : Int) - 1)
    ⟨s.Matr, s.Diag, Function.update s.SupDiag 0 ⟨0, 0⟩, s.Dots⟩ (by omega)
  refine ⟨s1, h1, ?_⟩
  have e : MaxIter * (((n : Int) - 1).toNat - 1) ≤ MaxIter * (n - 1) :=
    Nat.mul_le_mul_left _ (by omega)
  simp only [] at h2
  omega

/-! ## The complex numbers of the model and of the library -/

theorem Cplx.toComplex_zero : Cplx.toComplex ⟨0, 0⟩ = 0 := rfl

theorem Cplx.toComplex_add (a b : Cplx ℝ) :
    Cplx.toComplex (Cplx.add a b) = Cplx.toComplex a + Cplx.toComplex b := by
  apply Complex.ext <;> simp [Cplx.toComplex, Cplx.add]

theorem Cplx.toComplex_sub (a b : Cplx ℝ) :
    Cplx.toComplex (Cplx.sub a b) = Cplx.toComplex a - Cplx.toComplex b := by
  apply Complex.ext <;> simp [Cplx.toComplex, Cplx.sub]

theorem Cplx.toComplex_mul (a b : Cplx ℝ) :
    Cplx.toComplex (Cplx.mul a b) = Cplx.toComplex a * Cplx.toComplex b := by
  apply Complex.ext <;> simp [Cplx.toComplex, Cplx.mul]

theorem Cplx.toComplex_scale (a : Cplx ℝ) (x : ℝ) :
    Cplx.toComplex (Cplx.scale a x) = Cplx.toComplex a * (x : ℂ) := by
  apply Complex.ext <;> simp [Cplx.toComplex, Cplx.scale]

theorem Cplx.toComplex_divide (a : Cplx ℝ) (x : ℝ) :
    Cplx.toComplex (Cplx.divide a x) = Cplx.toComplex a / (x : ℂ) := by
  have h : Cplx.divide a x = Cplx.scale a x⁻¹ := by
    unfold Cplx.divide Cplx.scale
    rw [div_eq_mul_inv, div_eq_mul_inv]
  rw [h, Cplx.toComplex_scale, Complex.ofReal_inv, div_eq_mul_inv]

theorem Cplx.toComplex_conj (a : Cplx ℝ) :
    Cplx.toComplex (Cplx.conj a) = (starRingEnd ℂ) (Cplx.toComplex a) := by
  apply Complex.ext <;> simp [Cplx.toComplex, Cplx.conj]

theorem Cplx.toComplex_re (a : Cplx ℝ) : (Cplx.toComplex a).re = a.re := rfl

/-- The initial projection multiplies the prefactor by the element of the stored
transformation matrix. -/
theorem toComplex_InitialEntry (N O : Nat) (M : Nat → Nat) (U : Nat → ℝ) (S : Nat)
    (A : Cplx ℝ) (i : Nat) :
    Cplx.toComplex (InitialEntry N O M U S A i) =
      Cplx.toComplex A * Cplx.toComplex (InitialEntry N O M U S ⟨1, 0⟩ i) := by
  unfold InitialEntry
  by_cases h1 : S = M S
  · simp only [if_pos h1]
    apply Complex.ext <;> simp [Cplx.toComplex, Cplx.scale]
  · by_cases h2 : S < M S
    · simp only [if_neg h1, if_pos h2]
      apply Complex.ext <;> simp [Cplx.toComplex, Cplx.mul]
    · simp only [if_neg h1, if_neg h2]
      apply Complex.ext <;> simp [Cplx.toComplex, Cplx.mul]

/-- The final projection multiplies by the conjugate of the element of the stored
transformation matrix. -/
theorem toComplex_FinalEntry (N O : Nat) (M : Nat → Nat) (U : Nat → ℝ) (A : Cplx ℝ)
    (j i : Nat) :
    Cplx.toComplex (FinalEntry N O M U A j i) =
      Cplx.toComplex A * (starRingEnd ℂ) (Cplx.toComplex (InitialEntry N O M U i ⟨1, 0⟩ j)) := by
  unfold FinalEntry InitialEntry
  by_cases h1 : i = M i
  · simp only [if_pos h1]
    apply Complex.ext <;> simp [Cplx.toComplex, Cplx.scale]
  · by_cases h2 : i < M i
    · simp only [if_neg h1, if_pos h2]
      apply Complex.ext <;> simp [Cplx.toComplex, Cplx.mul]
    · simp only [if_neg h1, if_neg h2]
      apply Complex.ext <;> simp [Cplx.toComplex, Cplx.mul]

/-! ## Loops that fill arrays -/

/-- A loop that writes distinct cells of an array with values that do not depend on the
array. -/
theorem foldl_write {α C : Type} (key : α → Nat) (f : α → C) (l : List α) (V0 : Nat → C)
    (hnd : l.Nodup) (hinj : ∀ x x', x ∈ l → x' ∈ l → key x = key x' → x = x') :
    (∀ x, x ∈ l →
      l.foldl (fun (V : Nat → C) (x : α) => Function.update V (key x) (f x)) V0 (key x) =
        f x) ∧
    (∀ y, (∀ x, x ∈ l → y ≠ key x) →
      l.foldl (fun (V : Nat → C) (x : α) => Function.update V (key x) (f x)) V0 y = V0 y) :=
  foldl_cells key (fun _ x => f x) l V0 hnd hinj (fun _ _ _ _ _ => rfl)

/-- A loop that works on one cell of an array. -/
theorem foldl_one_cell {β C : Type} (h : C → β → C) (k : Nat) (l : List β) (V0 : Nat → C) :
    l.foldl (fun (V : Nat → C) (j : β) => Function.update V k (h (V k) j)) V0 =
      Function.update V0 k (l.foldl h (V0 k)) := by
  induction l generalizing V0 with
  | nil => simp
  | cons a l ih =>
    rw [List.foldl_cons, ih, Function.update_same, Function.update_idem, List.foldl_cons]

/-- The cells `(q - 1) N + i` of the vectors of the nonzero momenta are distinct. -/
theorem momentum_cell_inj {N q i q' i' : Nat} (hq : 1 ≤ q) (hq' : 1 ≤ q') (hi : i < N)
    (hi' : i' < N) (h : (q - 1) * N + i = (q' - 1) * N + i') : q = q' ∧ i = i' := by
  have h1 := (@Element_eq_iff N (q - 1) i (q' - 1) i' hi hi').1 h
  omega

/-- Two nested loops over the momenta `q = 1..m` and the indices `i < N` that write the
cells `(q - 1) N + i` of an array with values that do not depend on the array. -/
theorem momentum_write {C : Type} (N m : Nat) (val : Nat → Nat → C) (V0 : Nat → C)
    (q i : Nat) (hq1 : 1 ≤ q) (hqm : q ≤ m) (hi : i < N) :
    (List.range' 1 m).foldl
      (fun (V : Nat → C) (q : Nat) =>
        (List.range N).foldl
          (fun (V : Nat → C) (i : Nat) => Function.update V ((q - 1) * N + i) (val q i)) V)
      V0 ((q - 1) * N + i) = val q i := by
  rw [foldl_nested (fun (V : Nat → C) (q i : Nat) =>
    Function.update V ((q - 1) * N + i) (val q i))]
  have h := (foldl_write (fun (x : Nat × Nat) => (x.1 - 1) * N + x.2)
    (fun (x : Nat × Nat) => val x.1 x.2) (List.range' 1 m ×ˢ List.range N) V0
    (List.Nodup.product (List.nodup_range' 1 m) (List.nodup_range N))
    (fun x x' hx hx' hk => by
      rw [List.mem_product, List.mem_range'_1, List.mem_range] at hx hx'
      obtain ⟨h1, h2⟩ := momentum_cell_inj (by omega) (by omega) hx.2 hx'.2 hk
      exact Prod.ext h1 h2)).1 (q, i) (by
      rw [List.mem_product, List.mem_range'_1, List.mem_range]
      exact ⟨⟨hq1, by omega⟩, hi⟩)
  exact h

/-! ## The vectors of the evolution in closed form -/

theorem single_write {C : Type} (N : Nat) (val : Nat → C) (V0 : Nat → C) (i : Nat)
    (hi : i < N) :
    (List.range N).foldl (fun (V : Nat → C) (i : Nat) => Function.update V i (val i)) V0 i =
      val i :=
  (foldl_write (fun (x : Nat) => x) val (List.range N) V0 (List.nodup_range N)
    (fun _ _ _ _ h => h)).1 i (List.mem_range.2 hi)

theorem InitialZeroVec_apply {K : Type} [Field K] (sqrt : K → K) (g : Setup K) (i : Nat)
    (hi : i < g.PrimNum) :
    InitialZeroVec sqrt g i =
      1 / sqrt ((g.p : K) * g.EqEV g.State) * g.Unitary (Element g.PrimNum i g.State) := by
  unfold InitialZeroVec
  exact single_write g.PrimNum _ _ i hi

theorem InitialNonZeroVec_apply {K : Type} [Field K] (sqrt : K → K) (g : Setup K)
    (q i : Nat) (hq1 : 1 ≤ q) (hqm : q ≤ (g.p - 1) / 2) (hi : i < g.PrimNum) :
    InitialNonZeroVec sqrt g ((q - 1) * g.PrimNum + i) =
      InitialEntry g.PrimNum (q * g.PrimNum * g.PrimNum) g.MirrorImage g.Unitary g.State
        (Cplx.divide (g.UnityRoot (g.p - (g.Shift * q) % g.p))
          (sqrt ((g.p : K) * g.EqEV g.State))) i := by
  unfold InitialNonZeroVec
  exact momentum_write g.PrimNum ((g.p - 1) / 2)
    (fun q i => InitialEntry g.PrimNum (q * g.PrimNum * g.PrimNum) g.MirrorImage g.Unitary
      g.State (Cplx.divide (g.UnityRoot (g.p - (g.Shift * q) % g.p))
        (sqrt ((g.p : K) * g.EqEV g.State))) i) _ q i hq1 hqm hi

theorem IntermediateZeroVec_apply {K : Type} [Field K] (exp : K → K) (g : Setup K)
    (b : Bool) (e : Nat) (Time : K) (V : Nat → K) (i : Nat) (hi : i < g.PrimNum) :
    IntermediateZeroVec exp g b e Time V i =
      if i = e then (if b = true then 0 else V i) else exp (g.Diag i * Time) * V i := by
  unfold IntermediateZeroVec
  exact single_write g.PrimNum
    (fun i => if i = e then (if b = true then 0 else V i) else exp (g.Diag i * Time) * V i)
    _ i hi

theorem IntermediateNonZeroVec_apply {K : Type} [Field K] (exp : K → K) (g : Setup K)
    (Time : K) (V : Nat → Cplx K) (q i : Nat) (hq1 : 1 ≤ q) (hqm : q ≤ (g.p - 1) / 2)
    (hi : i < g.PrimNum) :
    IntermediateNonZeroVec exp g Time V ((q - 1) * g.PrimNum + i) =
      Cplx.scale (V ((q - 1) * g.PrimNum + i))
        (exp (g.Diag ((q - 1) * g.PrimNum + g.PrimNum + i) * Time)) := by
  unfold IntermediateNonZeroVec
  exact momentum_write g.PrimNum ((g.p - 1) / 2)
    (fun q i => Cplx.scale (V ((q - 1) * g.PrimNum + i))
      (exp (g.Diag ((q - 1) * g.PrimNum + g.PrimNum + i) * Time))) _ q i hq1 hqm hi

theorem FinalZeroVec_apply {K : Type} [Field K] (sqrt : K → K) (g : Setup K)
    (W : Nat → K) (i : Nat) (hi : i < g.PrimNum) :
    FinalZeroVec sqrt g W i =
      ∑ j ∈ Finset.range g.PrimNum,
        sqrt (g.EqEV i / (g.p : K)) * g.Unitary (Element g.PrimNum j i) * W j := by
  unfold FinalZeroVec
  have hbody : (fun (V : Nat → K) (i : Nat) =>
      (List.range g.PrimNum).foldl
        (fun (V : Nat → K) (j : Nat) =>
          Function.update V i
            (V i + sqrt (g.EqEV i / (g.p : K)) * g.Unitary (Element g.PrimNum j i) * W j))
        (Function.update V i 0)) =
      fun (V : Nat → K) (i : Nat) => Function.update V i
        (∑ j ∈ Finset.range g.PrimNum,
          sqrt (g.EqEV i / (g.p : K)) * g.Unitary (Element g.PrimNum j i) * W j) := by
    funext V i
    rw [foldl_add_entry, Function.update_same, Function.update_idem, zero_add]
  rw [hbody]
  exact single_write g.PrimNum _ _ i hi

theorem FinalNonZeroVec_apply {K : Type} [Field K] (sqrt : K → K) (g : Setup K)
    (W : Nat → Cplx K) (q i : Nat) (hq1 : 1 ≤ q) (hqm : q ≤ (g.p - 1) / 2)
    (hi : i < g.PrimNum) :
    FinalNonZeroVec sqrt g W ((q - 1) * g.PrimNum + i) =
      (List.range g.PrimNum).foldl
        (fun (a : Cplx K) (j : Nat) => Cplx.add a
          (FinalEntry g.PrimNum (q * g.PrimNum * g.PrimNum) g.MirrorImage g.Unitary
            (Cplx.scale (W ((q - 1) * g.PrimNum + j)) (sqrt (g.EqEV i / (g.p : K)))) j i))
        ⟨0, 0⟩ := by
  unfold FinalNonZeroVec
  have hbody : (fun (V : Nat → Cplx K) (q : Nat) =>
      let OffsetV := (q - 1) * g.PrimNum
      let OffsetM := q * g.PrimNum * g.PrimNum
      (List.range g.PrimNum).foldl
        (fun (V : Nat → Cplx K) (i : Nat) =>
          (List.range g.PrimNum).foldl
            (fun (V : Nat → Cplx K) (j : Nat) =>
              let AuxC := Cplx.scale (W (OffsetV + j)) (sqrt (g.EqEV i / (g.p : K)))
              Function.update V (OffsetV + i)
                (Cplx.add (V (OffsetV + i))
                  (FinalEntry g.PrimNum OffsetM g.MirrorImage g.Unitary AuxC j i)))
            (Function.update V (OffsetV + i) ⟨0, 0⟩))
        V) =
      fun (V : Nat → Cplx K) (q : Nat) =>
        (List.range g.PrimNum).foldl
          (fun (V : Nat → Cplx K) (i : Nat) =>
            Function.update V ((q - 1) * g.PrimNum + i)
              ((List.range g.PrimNum).foldl
                (fun (a : Cplx K) (j : Nat) => Cplx.add a
                  (FinalEntry g.PrimNum (q * g.PrimNum * g.PrimNum) g.MirrorImage g.Unitary
                    (Cplx.scale (W ((q - 1) * g.PrimNum + j))
                      (sqrt (g.EqEV i / (g.p : K)))) j i))
                ⟨0, 0⟩))
          V := by
    funext V q
    simp only []
    congr 1
    funext V i
    rw [foldl_one_cell (fun (a : Cplx K) (j : Nat) => Cplx.add a
      (FinalEntry g.PrimNum (q * g.PrimNum * g.PrimNum) g.MirrorImage g.Unitary
        (Cplx.scale (W ((q - 1) * g.PrimNum + j)) (sqrt (g.EqEV i / (g.p : K)))) j i)),
      Function.update_same, Function.update_idem]
  rw [hbody]
  exact momentum_write g.PrimNum ((g.p - 1) / 2) _ _ q i hq1 hqm hi

theorem ResultVec_apply {K : Type} [Field K] (g : Setup K) (Z : Nat → K) (W : Nat → Cplx K)
    (nu i : Nat) (hnu : nu < g.p) (hi : i < g.PrimNum) :
    ResultVec g Z W (nu * g.PrimNum + i) =
      (List.range' 1 ((g.p - 1) / 2)).foldl
        (fun (a : K) (q : Nat) =>
          a + 2 * (Cplx.mul (g.UnityRoot ((q * nu) % g.p))
            (W ((q - 1) * g.PrimNum + i))).re)
        (Z i) := by
  unfold ResultVec
  have hbody : (fun (R : Nat → K) (i nu : Nat) =>
      (List.range' 1 ((g.p - 1) / 2)).foldl
        (fun (R : Nat → K) (q : Nat) =>
          Function.update R (nu * g.PrimNum + i)
            (R (nu * g.PrimNum + i) +
              2 * (Cplx.mul (g.UnityRoot ((q * nu) % g.p))
                (W ((q - 1) * g.PrimNum + i))).re))
        (Function.update R (nu * g.PrimNum + i) (Z i))) =
      fun (R : Nat → K) (i nu : Nat) => Function.update R (nu * g.PrimNum + i)
        ((List.range' 1 ((g.p - 1) / 2)).foldl
          (fun (a : K) (q : Nat) =>
            a + 2 * (Cplx.mul (g.UnityRoot ((q * nu) % g.p))
              (W ((q - 1) * g.PrimNum + i))).re)
          (Z i)) := by
    funext R i nu
    rw [foldl_one_cell (fun (a : K) (q : Nat) =>
      a + 2 * (Cplx.mul (g.UnityRoot ((q * nu) % g.p)) (W ((q - 1) * g.PrimNum + i))).re),
      Function.update_same, Function.update_idem]
  rw [foldl_nested (fun (R : Nat → K) (i nu : Nat) =>
      (List.range' 1 ((g.p - 1) / 2)).foldl
        (fun (R : Nat → K) (q : Nat) =>
          Function.update R (nu * g.PrimNum + i)
            (R (nu * g.PrimNum + i) +
              2 * (Cplx.mul (g.UnityRoot ((q * nu) % g.p))
                (W ((q - 1) * g.PrimNum + i))).re))
        (Function.update R (nu * g.PrimNum + i) (Z i)))]
  have hb2 : (fun (R : Nat → K) (x : Nat × Nat) =>
      (fun (R : Nat → K) (i nu : Nat) =>
      (List.range' 1 ((g.p - 1) / 2)).foldl
        (fun (R : Nat → K) (q : Nat) =>
          Function.update R (nu * g.PrimNum + i)
            (R (nu * g.PrimNum + i) +
              2 * (Cplx.mul (g.UnityRoot ((q * nu) % g.p))
                (W ((q - 1) * g.PrimNum + i))).re))
        (Function.update R (nu * g.PrimNum + i) (Z i))) R x.1 x.2) =
      fun (R : Nat → K) (x : Nat × Nat) => Function.update R (x.2 * g.PrimNum + x.1)
        ((List.range' 1 ((g.p - 1) / 2)).foldl
          (fun (a : K) (q : Nat) =>
            a + 2 * (Cplx.mul (g.UnityRoot ((q * x.2) % g.p))
              (W ((q - 1) * g.PrimNum + x.1))).re)
          (Z x.1)) := by
    funext R x
    exact congrFun (congrFun (congrFun hbody R) x.1) x.2
  rw [hb2]
  exact (foldl_write (fun (x : Nat × Nat) => x.2 * g.PrimNum + x.1)
    (fun (x : Nat × Nat) => (List.range' 1 ((g.p - 1) / 2)).foldl
      (fun (a : K) (q : Nat) =>
        a + 2 * (Cplx.mul (g.UnityRoot ((q * x.2) % g.p))
          (W ((q - 1) * g.PrimNum + x.1))).re)
      (Z x.1))
    (List.range g.PrimNum ×ˢ List.range g.p) _
    (List.Nodup.product (List.nodup_range _) (List.nodup_range _))
    (fun x x' hx hx' hk => by
      rw [List.mem_product, List.mem_range, List.mem_range] at hx hx'
      have h1 := (@Element_eq_iff g.PrimNum x.2 x.1 x'.2 x'.1 hx.1 hx'.1).1 hk
      exact Prod.ext h1.2 h1.1)).1 (i, nu) (by
      rw [List.mem_product, List.mem_range, List.mem_range]
      exact ⟨hi, hnu⟩)

/-! ## Sums of roots of unity -/

/-- For a complex number `z` with `z^p = 1`, `p = 2 m + 1`, of modulus one: one plus twice
the real parts of `z, ..., z^m` is the real part of the sum of all the powers. -/
theorem half_sum_re (p m : Nat) (hp : p = 2 * m + 1) (z : ℂ) (hz : z ^ p = 1)
    (hconj : ∀ k, (starRingEnd ℂ) (z ^ k) * z ^ k = 1) :
    (1 : ℝ) + ∑ k ∈ Finset.range m, 2 * (z ^ (k + 1)).re =
      (∑ q ∈ Finset.range p, z ^ q).re := by
  have hsplit : (∑ q ∈ Finset.range p, z ^ q) =
      1 + ∑ k ∈ Finset.range m, (z ^ (k + 1) + (starRingEnd ℂ) (z ^ (k + 1))) := by
    have h1 : (∑ q ∈ Finset.range p, z ^ q) =
        (∑ q ∈ Finset.Ico 0 1, z ^ q) + (∑ q ∈ Finset.Ico 1 (m + 1), z ^ q) +
          ∑ q ∈ Finset.Ico (m + 1) p, z ^ q := by
      rw [Finset.sum_Ico_consecutive _ (by omega) (by omega),
        Finset.sum_Ico_consecutive _ (by omega) (by omega), Finset.range_eq_Ico]
    have h2 : (∑ q ∈ Finset.Ico (m + 1) p, z ^ q) =
        ∑ q ∈ Finset.Ico 1 (m + 1), z ^ (p - q) := by
      have := Finset.sum_Ico_reflect (fun q => z ^ q) 1 (by omega : m + 1 ≤ p + 1)
      rw [this]
      congr 1
      congr 1
      omega
    have h3 : ∀ q, q ∈ Finset.Ico 1 (m + 1) → z ^ (p - q) = (starRingEnd ℂ) (z ^ q) := by
      intro q hq
      rw [Finset.mem_Ico] at hq
      have hne : z ^ q ≠ 0 := by
        intro h0
        have := hconj q
        rw [h0, mul_zero] at this
        exact zero_ne_one this
      have e1 : z ^ (p - q) * z ^ q = 1 := by
        rw [← pow_add, Nat.sub_add_cancel (by omega), hz]
      exact mul_right_cancel₀ hne (e1.trans (hconj q).symm)
    rw [h1, h2, Finset.sum_congr rfl h3, add_assoc, ← Finset.sum_add_distrib,
      Finset.sum_Ico_eq_sum_range, Finset.sum_Ico_eq_sum_range]
    simp only [Nat.sub_zero, Nat.add_sub_cancel, Finset.sum_range_one, Nat.zero_add, pow_zero]
    congr 1
    apply Finset.sum_congr rfl
    intro k _
    rw [Nat.add_comm 1 k]
  rw [hsplit, Complex.add_re, Complex.one_re, Complex.re_sum]
  congr 1
  apply Finset.sum_congr rfl
  intro k _
  rw [Complex.add_re, Complex.conj_re]
  ring

/-- The sum of the powers `0..p-1` of a `p`-th root of unity. -/
theorem unity_geom_sum (p : Nat) (z : ℂ) (hz : z ^ p = 1) :
    (∑ q ∈ Finset.range p, z ^ q) = if z = 1 then (p : ℂ) else 0 := by
  by_cases h : z = 1
  · rw [if_pos h, h]
    simp
  · rw [if_neg h, geom_sum_eq h, hz, sub_self, zero_div]

/-! ## The table of the roots of unity -/

theorem Pi_arctan : Pi Real.arctan = Real.pi := by
  unfold Pi
  rw [Real.arctan_one]
  ring

theorem UnityRoots_apply {K : Type} [Field K] (cos sin : K → K) (P : K) (p r : Nat)
    (hr : r ≤ p) :
    UnityRoots cos sin P p r =
      ⟨cos (2 * (r : K) * P / (p : K)), sin (2 * (r : K) * P / (p : K))⟩ := by
  unfold UnityRoots
  exact single_write (p + 1)
    (fun i => (⟨cos (2 * (i : K) * P / (p : K)), sin (2 * (i : K) * P / (p : K))⟩ : Cplx K))
    _ r (by omega)

/-- The entry `r` of the table is the power `r` of the first root of unity. -/
theorem toComplex_UnityRoots (p r : Nat) (hr : r ≤ p) :
    Cplx.toComplex (UnityRoots Real.cos Real.sin (Pi Real.arctan) p r) =
      Complex.exp (2 * Real.pi * Complex.I / p) ^ r := by
  rw [UnityRoots_apply _ _ _ p r hr, Pi_arctan, ← Complex.exp_nat_mul]
  have h : (r : ℂ) * (2 * Real.pi * Complex.I / p) =
      ((2 * (r : ℝ) * Real.pi / (p : ℝ) : ℝ) : ℂ) * Complex.I := by
    push_cast
    ring
  rw [h, Complex.exp_mul_I, ← Complex.ofReal_cos, ← Complex.ofReal_sin]
  unfold Cplx.toComplex
  rw [Complex.mk_eq_add_mul_I]

theorem pow_mod_unity {z : ℂ} {p : Nat} (hz : z ^ p = 1) (a : Nat) : z ^ (a % p) = z ^ a := by
  conv_rhs => rw [← Nat.div_add_mod a p]
  rw [pow_add, pow_mul, hz, one_pow, one_mul]

/-- The product of the two roots of unity that meet in the result vector. -/
theorem unity_index {z : ℂ} {p : Nat} (hz : z ^ p = 1) (nu S q : Nat) (hp : 0 < p)
    (hS : S < p) :
    z ^ ((q * nu) % p) * z ^ (p - (S * q) % p) = (z ^ (nu + (p - S))) ^ q := by
  have hz0 : z ≠ 0 := by
    intro h
    rw [h, zero_pow (by omega)] at hz
    exact zero_ne_one hz
  have hX : z ^ (S * q) ≠ 0 := pow_ne_zero _ hz0
  apply mul_right_cancel₀ hX
  have hr : (S * q) % p < p := Nat.mod_lt _ hp
  have h1 : z ^ (p - (S * q) % p) * z ^ (S * q) = 1 := by
    rw [← pow_mod_unity hz (S * q), ← pow_add, Nat.sub_add_cancel hr.le, hz]
  have h2 : (z ^ (nu + (p - S))) ^ q * z ^ (S * q) = z ^ (q * nu) := by
    rw [← pow_mul, ← pow_add]
    have e : (nu + (p - S)) * q + S * q = q * nu + p * q := by
      have : (p - S) + S = p := Nat.sub_add_cancel hS.le
      calc (nu + (p - S)) * q + S * q = nu * q + ((p - S) + S) * q := by ring
        _ = q * nu + p * q := by rw [this]; ring
    rw [e, pow_add, pow_mul z p q, hz, one_pow, mul_one]
  rw [mul_assoc, h1, mul_one, h2, pow_mod_unity hz]

/-- The first root of unity. -/
theorem unity_root_pow (p : Nat) (hp : 0 < p) :
    Complex.exp (2 * Real.pi * Complex.I / p) ^ p = 1 :=
  (Complex.isPrimitiveRoot_exp p (by omega)).pow_eq_one

theorem unity_root_conj (p : Nat) (k : Nat) (e : Nat) :
    (starRingEnd ℂ) ((Complex.exp (2 * Real.pi * Complex.I / p) ^ e) ^ k) *
      (Complex.exp (2 * Real.pi * Complex.I / p) ^ e) ^ k = 1 := by
  have h : ∀ x : ℝ, (starRingEnd ℂ) (Complex.exp (x * Complex.I)) *
      Complex.exp (x * Complex.I) = 1 := by
    intro x
    rw [← Complex.exp_conj, ← Complex.exp_add]
    simp
  have e1 : (Complex.exp (2 * Real.pi * Complex.I / p) ^ e) ^ k =
      Complex.exp ((((k : ℝ) * ((e : ℝ) * (2 * Real.pi / (p : ℝ))) : ℝ) : ℂ) * Complex.I) := by
    rw [← Complex.exp_nat_mul, ← Complex.exp_nat_mul]
    congr 1
    push_cast
    ring
  rw [e1]
  exact h _

/-- The sum over the momenta in the result vector: `p` where the rotation is the shift of
the initial state, 0 elsewhere. -/
theorem unity_sum (p m : Nat) (hp : p = 2 * m + 1) (nu S : Nat) (hnu : nu < p) (hS : S < p) :
    (1 : ℝ) + ∑ k ∈ Finset.range m,
      2 * (Complex.exp (2 * Real.pi * Complex.I / p) ^ (((k + 1) * nu) % p) *
        Complex.exp (2 * Real.pi * Complex.I / p) ^ (p - (S * (k + 1)) % p)).re =
      if nu = S then (p : ℝ) else 0 := by
  have hp0 : 0 < p := by omega
  have hz := unity_root_pow p hp0
  have hprim := Complex.isPrimitiveRoot_exp p (by omega)
  have hterm : ∀ k, Complex.exp (2 * Real.pi * Complex.I / p) ^ (((k + 1) * nu) % p) *
      Complex.exp (2 * Real.pi * Complex.I / p) ^ (p - (S * (k + 1)) % p) =
      (Complex.exp (2 * Real.pi * Complex.I / p) ^ (nu + (p - S))) ^ (k + 1) :=
    fun k => unity_index hz nu S (k + 1) hp0 hS
  simp only [hterm]
  have hzp : (Complex.exp (2 * Real.pi * Complex.I / p) ^ (nu + (p - S))) ^ p = 1 := by
    rw [← pow_mul, mul_comm (nu + (p - S)) p, pow_mul, hz, one_pow]
  rw [half_sum_re p m hp _ hzp (fun k => unity_root_conj p k _), unity_geom_sum p _ hzp]
  have hone : Complex.exp (2 * Real.pi * Complex.I / p) ^ (nu + (p - S)) = 1 ↔ nu = S := by
    rw [hprim.pow_eq_one_iff_dvd]
    constructor
    · intro hd
      by_contra hne
      by_cases hlt : nu < S
      · have := Nat.le_of_dvd (by omega) hd
        omega
      · have e : nu + (p - S) = p + (nu - S) := by omega
        rw [e] at hd
        have hd2 : p ∣ nu - S := (Nat.dvd_add_right (dvd_refl p)).1 hd
        have := Nat.le_of_dvd (by omega) hd2
        omega
    · intro h
      rw [h, Nat.add_sub_cancel' hS.le]
  by_cases h : nu = S
  · rw [if_pos (hone.2 h), if_pos h]
    simp
  · rw [if_neg (fun h' => h (hone.1 h')), if_neg h]
    simp

/-! ## The evolution at the time zero -/

theorem toComplex_foldl_add (t : Nat → Cplx ℝ) (z : Cplx ℝ) (n : Nat) :
    Cplx.toComplex ((List.range n).foldl (fun (a : Cplx ℝ) (j : Nat) => Cplx.add a (t j)) z) =
      Cplx.toComplex z + ∑ j ∈ Finset.range n, Cplx.toComplex (t j) := by
  induction n with
  | zero => simp
  | succ n ih =>
    rw [List.range_succ, List.foldl_append, List.foldl_cons, List.foldl_nil,
      Cplx.toComplex_add, ih, Finset.sum_range_succ, add_assoc]

theorem foldl_add_range' {K : Type} [Field K] (f : Nat → K) (z : K) (m : Nat) :
    (List.range' 1 m).foldl (fun (a : K) (q : Nat) => a + f q) z =
      z + ∑ k ∈ Finset.range m, f (k + 1) := by
  induction m with
  | zero => simp
  | succ m ih =>
    rw [List.range'_1_concat, List.foldl_append, List.foldl_cons, List.foldl_nil, ih,
      Finset.sum_range_succ, add_assoc, Nat.add_comm 1 m]

/-- The two square roots of the projections cancel against the number of sites. -/
theorem sqrt_factors {x : ℝ} {p : ℝ} (hx : 0 < x) (hp : 0 < p) :
    Real.sqrt (x / p) * (1 / Real.sqrt (p * x)) = 1 / p := by
  rw [Real.sqrt_div hx.le, Real.sqrt_mul hp.le]
  have h1 : Real.sqrt x ≠ 0 := (Real.sqrt_pos.2 hx).ne'
  have h2 : Real.sqrt p ≠ 0 := (Real.sqrt_pos.2 hp).ne'
  have h3 : Real.sqrt p * Real.sqrt p = p := Real.mul_self_sqrt hp.le
  obtain ⟨a, ha⟩ : ∃ a, a = Real.sqrt x := ⟨_, rfl⟩
  obtain ⟨b, hb⟩ : ∃ b, b = Real.sqrt p := ⟨_, rfl⟩
  rw [← ha] at h1 ⊢
  rw [← hb] at h2 h3 ⊢
  rw [← h3]
  field_simp
  ring

/-- An orthogonal matrix in the array `Unitary`: the sums over products of two columns. -/
theorem orthogonal_columns {N : Nat} (U : Nat → ℝ)
    (hO : (asMatrix N U).transpose * asMatrix N U = 1) (a b : Nat) (ha : a < N) (hb : b < N) :
    (∑ j ∈ Finset.range N, U (Element N j a) * U (Element N j b)) =
      if a = b then 1 else 0 := by
  have h := congrFun (congrFun hO ⟨a, ha⟩) ⟨b, hb⟩
  rw [Matrix.mul_apply, Matrix.one_apply] at h
  rw [← sum_fin_range N (fun j => U (Element N j a) * U (Element N j b))]
  have e : (∑ k : Fin N, (asMatrix N U).transpose ⟨a, ha⟩ k * asMatrix N U k ⟨b, hb⟩) =
      ∑ k : Fin N, U (Element N k a) * U (Element N k b) := rfl
  rw [e] at h
  rw [h]
  by_cases hab : a = b
  · rw [if_pos hab, if_pos (Fin.ext hab)]
  · rw [if_neg hab, if_neg (fun h' => hab (Fin.mk.inj h'))]

/-- A unitary transformation matrix stored in `Unitary`: the sums over products of two
columns, one of them conjugated. -/
theorem unitary_columns {N : Nat} (O : Nat) (M : Nat → Nat) (U : Nat → ℝ)
    (hU : Matrix.conjTranspose ((storedTransform N O M U).map Cplx.toComplex) *
      (storedTransform N O M U).map Cplx.toComplex = 1)
    (a b : Nat) (ha : a < N) (hb : b < N) :
    (∑ j ∈ Finset.range N,
      (starRingEnd ℂ) (Cplx.toComplex (InitialEntry N O M U a ⟨1, 0⟩ j)) *
        Cplx.toComplex (InitialEntry N O M U b ⟨1, 0⟩ j)) = if a = b then 1 else 0 := by
  have h := congrFun (congrFun hU ⟨a, ha⟩) ⟨b, hb⟩
  rw [Matrix.mul_apply, Matrix.one_apply] at h
  rw [← sum_fin_range N (fun j =>
    (starRingEnd ℂ) (Cplx.toComplex (InitialEntry N O M U a ⟨1, 0⟩ j)) *
      Cplx.toComplex (InitialEntry N O M U b ⟨1, 0⟩ j))]
  have e : (∑ k : Fin N,
      Matrix.conjTranspose ((storedTransform N O M U).map Cplx.toComplex) ⟨a, ha⟩ k *
        ((storedTransform N O M U).map Cplx.toComplex) k ⟨b, hb⟩) =
      ∑ k : Fin N, (starRingEnd ℂ) (Cplx.toComplex (InitialEntry N O M U a ⟨1, 0⟩ k)) *
        Cplx.toComplex (InitialEntry N O M U b ⟨1, 0⟩ k) := rfl
  rw [e] at h
  rw [h]
  by_cases hab : a = b
  · rw [if_pos hab, if_pos (Fin.ext hab)]
  · rw [if_neg hab, if_neg (fun h' => hab (Fin.mk.inj h'))]

/-- The zero momentum part of the final projection at the time zero. -/
theorem final_zero (g : Setup ℝ) (e : Nat) (hp : 0 < g.p) (hS : g.State < g.PrimNum)
    (hpos : 0 < g.EqEV g.State)
    (hO : (asMatrix g.PrimNum g.Unitary).transpose * asMatrix g.PrimNum g.Unitary = 1)
    (i : Nat) (hi : i < g.PrimNum) :
    FinalZeroVec Real.sqrt g
      (IntermediateZeroVec Real.exp g false e 0 (InitialZeroVec Real.sqrt g)) i =
      if i = g.State then 1 / (g.p : ℝ) else 0 := by
  rw [FinalZeroVec_apply Real.sqrt g _ i hi]
  have hterm : ∀ j, j ∈ Finset.range g.PrimNum →
      Real.sqrt (g.EqEV i / (g.p : ℝ)) * g.Unitary (Element g.PrimNum j i) *
        IntermediateZeroVec Real.exp g false e 0 (InitialZeroVec Real.sqrt g) j =
      Real.sqrt (g.EqEV i / (g.p : ℝ)) * (1 / Real.sqrt ((g.p : ℝ) * g.EqEV g.State)) *
        (g.Unitary (Element g.PrimNum j i) * g.Unitary (Element g.PrimNum j g.State)) := by
    intro j hj
    rw [Finset.mem_range] at hj
    rw [IntermediateZeroVec_apply Real.exp g false e 0 _ j hj,
      InitialZeroVec_apply Real.sqrt g j hj]
    have h0 : Real.exp (g.Diag j * 0) = 1 := by rw [mul_zero, Real.exp_zero]
    by_cases hje : j = e
    · rw [if_pos hje, if_neg (by decide)]
      ring
    · rw [if_neg hje, h0]
      ring
  rw [Finset.sum_congr rfl hterm, ← Finset.mul_sum,
    orthogonal_columns g.Unitary hO i g.State hi hS]
  by_cases his : i = g.State
  · rw [if_pos his, if_pos his, his, mul_one]
    exact sqrt_factors hpos (by exact_mod_cast hp)
  · rw [if_neg his, if_neg his, mul_zero]

/-- The nonzero momentum part of the final projection at the time zero. -/
theorem final_nonzero (g : Setup ℝ) (hp : 0 < g.p) (hS : g.State < g.PrimNum)
    (hpos : 0 < g.EqEV g.State) (q : Nat) (hq1 : 1 ≤ q) (hqm : q ≤ (g.p - 1) / 2)
    (hU : Matrix.conjTranspose
        ((storedTransform g.PrimNum (q * g.PrimNum * g.PrimNum) g.MirrorImage
          g.Unitary).map Cplx.toComplex) *
      (storedTransform g.PrimNum (q * g.PrimNum * g.PrimNum) g.MirrorImage
        g.Unitary).map Cplx.toComplex = 1)
    (i : Nat) (hi : i < g.PrimNum) :
    Cplx.toComplex (FinalNonZeroVec Real.sqrt g
      (IntermediateNonZeroVec Real.exp g 0 (InitialNonZeroVec Real.sqrt g))
      ((q - 1) * g.PrimNum + i)) =
      if i = g.State then
        Cplx.toComplex (g.UnityRoot (g.p - (g.Shift * q) % g.p)) / (g.p : ℂ)
      else 0 := by
  rw [FinalNonZeroVec_apply Real.sqrt g _ q i hq1 hqm hi, toComplex_foldl_add,
    Cplx.toComplex_zero, zero_add]
  have hterm : ∀ j, j ∈ Finset.range g.PrimNum →
      Cplx.toComplex (FinalEntry g.PrimNum (q * g.PrimNum * g.PrimNum) g.MirrorImage
        g.Unitary
        (Cplx.scale (IntermediateNonZeroVec Real.exp g 0 (InitialNonZeroVec Real.sqrt g)
          ((q - 1) * g.PrimNum + j)) (Real.sqrt (g.EqEV i / (g.p : ℝ)))) j i) =
      (Cplx.toComplex (g.UnityRoot (g.p - (g.Shift * q) % g.p)) *
        (((Real.sqrt (g.EqEV i / (g.p : ℝ)) *
          (1 / Real.sqrt ((g.p : ℝ) * g.EqEV g.State)) : ℝ)) : ℂ)) *
        ((starRingEnd ℂ) (Cplx.toComplex (InitialEntry g.PrimNum
            (q * g.PrimNum * g.PrimNum) g.MirrorImage g.Unitary i ⟨1, 0⟩ j)) *
          Cplx.toComplex (InitialEntry g.PrimNum (q * g.PrimNum * g.PrimNum) g.MirrorImage
            g.Unitary g.State ⟨1, 0⟩ j)) := by
    intro j hj
    rw [Finset.mem_range] at hj
    rw [toComplex_FinalEntry, Cplx.toComplex_scale,
      IntermediateNonZeroVec_apply Real.exp g 0 _ q j hq1 hqm hj, Cplx.toComplex_scale,
      InitialNonZeroVec_apply Real.sqrt g q j hq1 hqm hj, toComplex_InitialEntry,
      Cplx.toComplex_divide, mul_zero, Real.exp_zero]
    push_cast
    ring
  rw [Finset.sum_congr rfl hterm, ← Finset.mul_sum,
    unitary_columns _ g.MirrorImage g.Unitary hU i g.State hi hS]
  by_cases his : i = g.State
  · rw [if_pos his, if_pos his, his, mul_one,
      sqrt_factors hpos (by exact_mod_cast hp : (0 : ℝ) < (g.p : ℝ))]
    push_cast
    rw [one_div, div_eq_mul_inv]
  · rw [if_neg his, if_neg his, mul_zero]

theorem re_mul_div_nat (z w : ℂ) (p : Nat) : (z * (w / (p : ℂ))).re = (z * w).re / (p : ℝ) := by
  have h : z * (w / (p : ℂ)) = (z * w) * (((p : ℝ)⁻¹ : ℝ) : ℂ) := by
    push_cast
    rw [div_eq_mul_inv, mul_assoc]
  rw [h, Complex.re_mul_ofReal, div_eq_mul_inv]

/-- The result vector at the time zero: the probability one for the primitive pattern of
the initial state at its shift, zero elsewhere. -/
theorem evolution_zero (g : Setup ℝ) (e m : Nat) (hp : g.p = 2 * m + 1)
    (hS : g.State < g.PrimNum) (hShift : g.Shift < g.p) (hpos : 0 < g.EqEV g.State)
    (hroots : g.UnityRoot = UnityRoots Real.cos Real.sin (Pi Real.arctan) g.p)
    (hO : (asMatrix g.PrimNum g.Unitary).transpose * asMatrix g.PrimNum g.Unitary = 1)
    (hU : ∀ q, 1 ≤ q → q ≤ (g.p - 1) / 2 →
      Matrix.conjTranspose
        ((storedTransform g.PrimNum (q * g.PrimNum * g.PrimNum) g.MirrorImage
          g.Unitary).map Cplx.toComplex) *
      (storedTransform g.PrimNum (q * g.PrimNum * g.PrimNum) g.MirrorImage
        g.Unitary).map Cplx.toComplex = 1)
    (nu i : Nat) (hnu : nu < g.p) (hi : i < g.PrimNum) :
    Evolution Real.sqrt Real.exp g false e 0 (nu * g.PrimNum + i) =
      if nu = g.Shift ∧ i = g.State then 1 else 0 := by
  have hp0 : 0 < g.p := by omega
  have hm : (g.p - 1) / 2 = m := by omega
  have hpR : (0 : ℝ) < (g.p : ℝ) := by exact_mod_cast hp0
  unfold Evolution
  rw [ResultVec_apply g _ _ nu i hnu hi, final_zero g e hp0 hS hpos hO i hi,
    foldl_add_range', hm]
  have hterm : ∀ k, k ∈ Finset.range m →
      2 * (Cplx.mul (g.UnityRoot (((k + 1) * nu) % g.p))
        (FinalNonZeroVec Real.sqrt g
          (IntermediateNonZeroVec Real.exp g 0 (InitialNonZeroVec Real.sqrt g))
          ((k + 1 - 1) * g.PrimNum + i))).re =
      if i = g.State then
        (2 * (Complex.exp (2 * Real.pi * Complex.I / g.p) ^ (((k + 1) * nu) % g.p) *
          Complex.exp (2 * Real.pi * Complex.I / g.p) ^
            (g.p - (g.Shift * (k + 1)) % g.p)).re) / (g.p : ℝ)
      else 0 := by
    intro k hk
    rw [Finset.mem_range] at hk
    rw [← Cplx.toComplex_re, Cplx.toComplex_mul,
      final_nonzero g hp0 hS hpos (k + 1) (by omega) (by omega)
        (hU (k + 1) (by omega) (by omega)) i hi]
    by_cases his : i = g.State
    · rw [if_pos his, if_pos his, hroots,
        toComplex_UnityRoots g.p _ (Nat.le_of_lt (Nat.mod_lt _ hp0)),
        toComplex_UnityRoots g.p _ (Nat.sub_le _ _), re_mul_div_nat]
      exact (mul_div_assoc _ _ _).symm
    · rw [if_neg his, if_neg his, mul_zero, Complex.zero_re, mul_zero]
  rw [Finset.sum_congr rfl hterm]
  by_cases his : i = g.State
  · have hc : (nu = g.Shift ∧ i = g.State) ↔ nu = g.Shift :=
      ⟨fun h => h.1, fun h => ⟨h, his⟩⟩
    simp only [if_pos his, hc]
    rw [← Finset.sum_div, ← add_div, unity_sum g.p m hp nu g.Shift hnu hShift]
    by_cases hn : nu = g.Shift
    · rw [if_pos hn, if_pos hn, div_self hpR.ne']
    · rw [if_neg hn, if_neg hn, zero_div]
  · have hc : ¬ (nu = g.Shift ∧ i = g.State) := fun h => his h.2
    simp only [if_neg his, if_neg hc, Finset.sum_const_zero, add_zero]

/-! ## The averages over the comparison patterns -/

theorem AverageSum_rotations {K : Type} [Field K] (N j : Nat) (f : Nat → K) (R : Nat → K)
    (n : Nat) (s : K × Nat) :
    (List.range n).foldl
      (fun (s : K × Nat) (nu : Nat) => (s.1 + f s.2 * R (nu * N + j), s.2 + 1)) s =
      (s.1 + ∑ nu ∈ Finset.range n, f (s.2 + nu) * R (nu * N + j), s.2 + n) := by
  induction n with
  | zero => simp
  | succ n ih =>
    rw [List.range_succ, List.foldl_append, List.foldl_cons, List.foldl_nil, ih,
      Finset.sum_range_succ]
    simp only [add_assoc]

theorem AverageSum_eq {K : Type} [Field K] (N p : Nat) (D : Nat → Bool) (R : Nat → K)
    (C : Nat) :
    AverageSum N p D R C =
      (∑ j ∈ Finset.range N, ∑ nu ∈ Finset.range p,
        (if D (C + j * p + nu) = true then 1 else 0) * R (nu * N + j), C + N * p) := by
  unfold AverageSum
  have h : ∀ m (s : K × Nat),
      (List.range m).foldl
        (fun (s : K × Nat) (j : Nat) =>
          (List.range p).foldl
            (fun (s : K × Nat) (nu : Nat) =>
              (s.1 + (if D s.2 = true then 1 else 0) * R (nu * N + j), s.2 + 1))
            s) s =
        (s.1 + ∑ j ∈ Finset.range m, ∑ nu ∈ Finset.range p,
          (if D (s.2 + j * p + nu) = true then 1 else 0) * R (nu * N + j), s.2 + m * p) := by
    intro m
    induction m with
    | zero => intro s; simp
    | succ m ih =>
      intro s
      rw [List.range_succ, List.foldl_append, List.foldl_cons, List.foldl_nil, ih,
        AverageSum_rotations N m (fun x => if D x = true then 1 else 0) R p,
        Finset.sum_range_succ]
      simp only [add_assoc, Nat.succ_mul]
  rw [h N (0, C)]
  simp only [zero_add]

/-- The sum for one comparison pattern when the result vector is the grid with the one
at the rotation `Shift` of the primitive pattern `State`. -/
theorem AverageSum_grid {K : Type} [Field K] (N p : Nat) (D : Nat → Bool) (R : Nat → K)
    (C Shift State : Nat) (hS : State < N) (hShift : Shift < p)
    (hR : ∀ nu i, nu < p → i < N →
      R (nu * N + i) = if nu = Shift ∧ i = State then 1 else 0) :
    AverageSum N p D R C =
      (if D (C + State * p + Shift) = true then 1 else 0, C + N * p) := by
  rw [AverageSum_eq]
  congr 1
  rw [Finset.sum_eq_single State, Finset.sum_eq_single Shift]
  · rw [hR Shift State hShift hS, if_pos (⟨rfl, rfl⟩ : Shift = Shift ∧ State = State), mul_one]
  · intro nu hnu hne
    rw [hR nu State (Finset.mem_range.1 hnu) hS,
      if_neg (fun h => hne h.1 : ¬ (nu = Shift ∧ State = State)), mul_zero]
  · intro h
    exact absurd (Finset.mem_range.2 hShift) h
  · intro j hj hne
    apply Finset.sum_eq_zero
    intro nu hnu
    rw [hR nu j (Finset.mem_range.1 hnu) (Finset.mem_range.1 hj),
      if_neg (fun h => hne h.2 : ¬ (nu = Shift ∧ j = State)), mul_zero]
  · intro h
    exact absurd (Finset.mem_range.2 hS) h

theorem Averages_eq {K : Type} [LinearOrderedField K] (N p A : Nat) (b : Bool)
    (D : Nat → Bool) (R : Nat → K) :
    Averages N p A b D R =
      ((List.range A).map (fun i =>
        if b = false then
          (if (AverageSum N p D R (i * (N * p))).1 < 0 then 0
            else (AverageSum N p D R (i * (N * p))).1)
        else (AverageSum N p D R (i * (N * p))).1), A * (N * p)) := by
  unfold Averages
  induction A with
  | zero => simp
  | succ A ih =>
    rw [List.range_succ, List.foldl_append, List.foldl_cons, List.foldl_nil, ih]
    simp only [List.map_append, List.map_cons, List.map_nil]
    rw [AverageSum_eq N p D R (A * (N * p))]
    simp only [Nat.succ_mul]

/-- The raw averages at the grid: the flag of the comparison pattern at the rotation
`Shift` of the primitive pattern `State`, as a number. -/
theorem Averages_grid {K : Type} [LinearOrderedField K] (N p A : Nat)
    (D : Nat → Bool) (R : Nat → K) (Shift State : Nat) (hS : State < N) (hShift : Shift < p)
    (hR : ∀ nu i, nu < p → i < N →
      R (nu * N + i) = if nu = Shift ∧ i = State then 1 else 0)
    (a : Nat) (ha : a < A) :
    (Averages N p A false D R).1.get? a =
      some (if D ((a * N + State) * p + Shift) = true then 1 else 0) := by
  rw [Averages_eq]
  simp only [List.get?_eq_getElem?, List.getElem?_map, List.getElem?_range ha, Option.map_some',
    if_true]
  rw [AverageSum_grid N p D R _ Shift State hS hShift hR]
  have hidx : a * (N * p) + State * p + Shift = (a * N + State) * p + Shift := by ring
  rw [hidx]
  by_cases hd : D ((a * N + State) * p + Shift) = true
  · simp only [if_pos hd]
    rw [if_neg (by norm_num)]
  · simp only [if_neg hd]
    rw [if_neg (by norm_num)]

/-! ## The flags of the comparison patterns -/

namespace Pattern

/-- After `p` forward rotations the code is back. -/
theorem iterate_rotateUp_period {p x : Nat} (hp1 : 1 ≤ p) (hp : p ≤ 31) (hx : x < 2 ^ p) :
    (rotateUp p)^[p] x = x := by
  have h1 := iterate_rotateDown_rotateUp hp1 hp hx p
  rw [iterate_rotateDown_period hp1 hp (iterate_rotateUp hp1 hp hx rfl p).1] at h1
  exact h1

end Pattern

theorem AssignFlagsShifts_spec (p : Nat) (s : List Char) (mt : Nat → Bool)
    (hm : ∀ c, Pattern.Match p c s = .ok (mt c)) :
    ∀ (m : Nat) (D : Nat → Bool) (c C : Nat),
      ∃ D2, AssignFlagsShifts p s m (D, c, C) = .ok (D2, (Pattern.rotateUp p)^[m] c, C + m) ∧
        (∀ x, x < C → D2 x = D x) ∧
        (∀ nu, nu < m → D2 (C + nu) = mt ((Pattern.rotateUp p)^[nu] c)) := by
  intro m
  induction m with
  | zero =>
    intro D c C
    exact ⟨D, rfl, fun _ _ => rfl, fun nu h => absurd h (Nat.not_lt_zero _)⟩
  | succ m ih =>
    intro D c C
    obtain ⟨D2, h1, h2, h3⟩ := ih (Function.update D C (mt c)) (Pattern.rotateUp p c) (C + 1)
    refine ⟨D2, ?_, ?_, ?_⟩
    · unfold AssignFlagsShifts
      simp only [hm c]
      rw [h1, Function.iterate_succ_apply, Nat.add_assoc, Nat.add_comm 1 m]
    · intro x hx
      rw [h2 x (by omega), Function.update_noteq (by omega)]
    · intro nu hnu
      rcases Nat.eq_zero_or_pos nu with h0 | h0
      · rw [h0, Nat.add_zero, h2 C (by omega), Function.update_same, Function.iterate_zero,
          id_eq]
      · obtain ⟨n, rfl⟩ : ∃ n, nu = n + 1 := ⟨nu - 1, by omega⟩
        have := h3 n (by omega)
        rw [Function.iterate_succ_apply, ← this]
        congr 1
        omega

theorem AssignFlagsPrims_spec (p : Nat) (hp1 : 1 ≤ p) (hp : p ≤ 31) (s : List Char)
    (mt : Nat → Bool) (hm : ∀ c, Pattern.Match p c s = .ok (mt c)) (P : Nat → Nat) :
    ∀ (m j : Nat) (D : Nat → Bool) (C : Nat), (∀ i, j ≤ i → i < j + m → P i < 2 ^ p) →
      ∃ D2, AssignFlagsPrims p s m j (D, P, C) = .ok (D2, P, C + m * p) ∧
        (∀ x, x < C → D2 x = D x) ∧
        (∀ i nu, i < m → nu < p →
          D2 (C + i * p + nu) = mt ((Pattern.rotateUp p)^[nu] (P (j + i)))) := by
  intro m
  induction m with
  | zero =>
    intro j D C _
    refine ⟨D, ?_, fun _ _ => rfl, fun i nu h => absurd h (Nat.not_lt_zero _)⟩
    rw [Nat.zero_mul, Nat.add_zero]
    rfl
  | succ m ih =>
    intro j D C hP
    obtain ⟨D1, a1, a2, a3⟩ := AssignFlagsShifts_spec p s mt hm p D (P j) C
    have hback : Function.update P j ((Pattern.rotateUp p)^[p] (P j)) = P := by
      rw [Pattern.iterate_rotateUp_period hp1 hp (hP j (le_refl _) (by omega))]
      exact Function.update_eq_self j P
    obtain ⟨D2, b1, b2, b3⟩ := ih (j + 1) D1 (C + p) (fun i h1 h2 => hP i (by omega) (by omega))
    refine ⟨D2, ?_, ?_, ?_⟩
    · unfold AssignFlagsPrims
      simp only [a1, hback]
      rw [b1, Nat.succ_mul, Nat.add_assoc, Nat.add_comm p (m * p)]
    · intro x hx
      rw [b2 x (by omega), a2 x hx]
    · intro i nu hi hnu
      rcases Nat.eq_zero_or_pos i with h0 | h0
      · rw [h0, Nat.zero_mul, Nat.add_zero, Nat.add_zero, b2 (C + nu) (by omega), a3 nu hnu]
      · obtain ⟨n, rfl⟩ : ∃ n, i = n + 1 := ⟨i - 1, by omega⟩
        have := b3 n nu (by omega) hnu
        rw [Nat.add_assoc j 1 n, Nat.add_comm 1 n] at this
        rw [← this]
        congr 1
        rw [Nat.succ_mul]
        omega

theorem AssignFlags_spec (p N : Nat) (hp1 : 1 ≤ p) (hp : p ≤ 31)
    (mt : List Char → Nat → Bool) (P : Nat → Nat) (hP : ∀ i, i < N → P i < 2 ^ p) :
    ∀ (AP : List (List Char)), (∀ s, s ∈ AP → ∀ c, Pattern.Match p c s = .ok (mt s c)) →
      ∀ (D : Nat → Bool) (C : Nat),
      ∃ D2, AssignFlags p N AP (D, P, C) = .ok (D2, P, C + AP.length * (N * p)) ∧
        (∀ x, x < C → D2 x = D x) ∧
        (∀ a s i nu, AP.get? a = some s → i < N → nu < p →
          D2 (C + (a * N + i) * p + nu) = mt s ((Pattern.rotateUp p)^[nu] (P i))) := by
  intro AP
  induction AP with
  | nil =>
    intro _ D C
    refine ⟨D, ?_, fun _ _ => rfl, ?_⟩
    · rw [List.length_nil, Nat.zero_mul, Nat.add_zero]
      rfl
    · intro a s i nu h
      simp at h
  | cons s0 AP ih =>
    intro hAP D C
    obtain ⟨D1, a1, a2, a3⟩ := AssignFlagsPrims_spec p hp1 hp s0 (mt s0)
      (hAP s0 (List.mem_cons_self _ _)) P N 0 D C (fun i _ h => hP i (by omega))
    obtain ⟨D2, b1, b2, b3⟩ := ih (fun s hs => hAP s (List.mem_cons_of_mem _ hs)) D1
      (C + N * p)
    refine ⟨D2, ?_, ?_, ?_⟩
    · unfold AssignFlags
      simp only [a1]
      rw [b1, List.length_cons, Nat.succ_mul, Nat.add_assoc, Nat.add_comm (N * p)]
    · intro x hx
      rw [b2 x (by omega), a2 x hx]
    · intro a s i nu ha hi hnu
      have hlt : i * p + nu < N * p := by
        calc i * p + nu < i * p + p := by omega
          _ = (i + 1) * p := by ring
          _ ≤ N * p := Nat.mul_le_mul_right p hi
      rcases Nat.eq_zero_or_pos a with h0 | h0
      · subst h0
        rw [List.get?_cons_zero] at ha
        cases ha
        rw [Nat.zero_mul, Nat.zero_add, b2 _ (by omega), a3 i nu hi hnu, Nat.zero_add]
      · obtain ⟨n, rfl⟩ : ∃ n, a = n + 1 := ⟨a - 1, by omega⟩
        rw [List.get?_cons_succ] at ha
        have := b3 n s i nu ha hi hnu
        rw [← this]
        congr 1
        ring

/-! ## The one-atom averaging patterns -/

theorem symbolMask_append (ch : Char) (s t : List Char) :
    symbolMask ch (s ++ t) = symbolMask ch s + 2 ^ s.length * symbolMask ch t := by
  induction s with
  | nil => simp [symbolMask]
  | cons c s ih =>
    show (if c = ch then 1 else 0) + 2 * symbolMask ch (s ++ t) =
      ((if c = ch then 1 else 0) + 2 * symbolMask ch s) +
        2 ^ (s.length + 1) * symbolMask ch t
    rw [ih, pow_succ]
    ring

theorem symbolMask_replicate (ch c : Char) (h : c ≠ ch) (n : Nat) :
    symbolMask ch (List.replicate n c) = 0 := by
  induction n with
  | zero => rfl
  | succ n ih =>
    rw [List.replicate_succ]
    simp only [symbolMask, ih, if_neg h]

theorem OneAtomPattern_length (p i : Nat) (hi : i < p) : (OneAtomPattern p i).length = p := by
  unfold OneAtomPattern
  simp only [List.length_append, List.length_replicate]
  omega

theorem OneAtomPattern_symbols (p i : Nat) (ch : Char) (h : ch ∈ OneAtomPattern p i) :
    ch = 'o' ∨ ch = '.' ∨ ch = 'x' := by
  unfold OneAtomPattern at h
  simp only [List.mem_append, List.mem_replicate] at h
  rcases h with (h | h) | h
  · exact Or.inr (Or.inr h.2)
  · exact Or.inl h.2
  · exact Or.inr (Or.inr h.2)

theorem OneAtomPattern_atoms (p i : Nat) : symbolMask 'o' (OneAtomPattern p i) = 2 ^ i := by
  unfold OneAtomPattern
  rw [symbolMask_append, symbolMask_append, symbolMask_replicate 'o' 'x' (by decide),
    symbolMask_replicate 'o' 'x' (by decide)]
  simp [symbolMask]

theorem OneAtomPattern_holes (p i : Nat) : symbolMask '.' (OneAtomPattern p i) = 0 := by
  unfold OneAtomPattern
  rw [symbolMask_append, symbolMask_append, symbolMask_replicate '.' 'x' (by decide),
    symbolMask_replicate '.' 'x' (by decide)]
  simp [symbolMask]

/-- A code matches the one-atom pattern of the site `i` if and only if it has an atom on
the site `i`. -/
theorem Match_OneAtomPattern (p c i : Nat) (hp : p ≤ 32) (hi : i < p) :
    Pattern.Match p c (OneAtomPattern p i) = .ok (c.testBit i) := by
  rw [Pattern.Match_ok p c hp _ (OneAtomPattern_length p i hi) (OneAtomPattern_symbols p i),
    OneAtomPattern_atoms, OneAtomPattern_holes]
  congr 1
  rw [Bool.eq_iff_iff, decide_eq_true_iff]
  constructor
  · intro h
    exact (and_eq_self_iff c (2 ^ i)).1 h.1 i (by rw [Nat.testBit_two_pow_self])
  · intro h
    refine ⟨(and_eq_self_iff c (2 ^ i)).2 (fun j hj => ?_), Nat.and_zero c⟩
    rw [Nat.testBit_two_pow, decide_eq_true_iff] at hj
    rw [← hj]
    exact h

/-! ## The initial state that passes the tests -/

theorem FetchInitialState_ok {s : List Char} {p c0 k : Nat}
    (h : FetchInitialState s = .ok (p, c0, k)) :
    p = s.length ∧ c0 = symbolMask 'o' s ∧ Nat.Prime p ∧ 3 ≤ p ∧ p ≤ 31 ∧ 0 < k ∧ k < p ∧
      c0 < 2 ^ p ∧ Pattern.AtomNum p c0 = k := by
  rcases FetchInitialState_spec s with
    ⟨_, h3, h31, hprime, hk0, hkp, hok⟩ | ⟨_, he⟩ | ⟨_, _, he⟩ | ⟨_, _, he⟩ |
    ⟨_, _, _, _, he⟩ | ⟨_, _, _, _, _, he⟩
  · rw [hok] at h
    injection h with h
    injection h with hp h
    injection h with hc hk
    subst hp hc hk
    refine ⟨rfl, rfl, (IsPrime_iff_prime (by omega)).1 hprime, h3, h31, hk0, hkp,
      symbolMask_lt _ _, ?_⟩
    rw [Pattern.AtomNum_eq, bitCount_symbolMask]
  all_goals
    rw [he] at h
    cases h

/-! ## Identity matrices in the storage -/

theorem identity_cell (N q i j : Nat) (hi : i < N) (hj : j < N) :
    ((q * N * N + Element N i j) / N % N = (q * N * N + Element N i j) % N) ↔ i = j := by
  have hN : 0 < N := by omega
  unfold Element
  have h1 : (q * N * N + (i * N + j)) % N = j := by
    have : q * N * N + (i * N + j) = j + N * (q * N + i) := by ring
    rw [this, Nat.add_mul_mod_self_left, Nat.mod_eq_of_lt hj]
  have h2 : (q * N * N + (i * N + j)) / N = q * N + i := by
    have : q * N * N + (i * N + j) = j + N * (q * N + i) := by ring
    rw [this, Nat.add_mul_div_left _ _ hN, Nat.div_eq_of_lt hj, Nat.zero_add]
  rw [h1, h2]
  have h3 : (q * N + i) % N = i := by
    rw [Nat.add_comm, Nat.add_mul_mod_self_right, Nat.mod_eq_of_lt hi]
  rw [h3]

/-- The array with the identity matrix in every block holds an orthogonal matrix for the
momentum zero. -/
theorem identity_orthogonal (N : Nat) :
    (asMatrix N (fun x => if x / N % N = x % N then (1 : ℝ) else 0)).transpose *
      asMatrix N (fun x => if x / N % N = x % N then (1 : ℝ) else 0) = 1 := by
  have h : asMatrix N (fun x => if x / N % N = x % N then (1 : ℝ) else 0) = 1 := by
    ext a b
    have := identity_cell N 0 a b a.2 b.2
    simp only [Nat.zero_mul, Nat.zero_add] at this
    simp only [asMatrix, Matrix.of_apply, Matrix.one_apply, this, Fin.ext_iff]
  rw [h, Matrix.transpose_one, Matrix.one_mul]

/-- The array with the identity matrix in every block holds a unitary matrix for every
momentum, when all the primitive patterns are palindromic. -/
theorem identity_unitary (N q : Nat) :
    Matrix.conjTranspose
        ((storedTransform N (q * N * N) (fun j => j)
          (fun x => if x / N % N = x % N then (1 : ℝ) else 0)).map Cplx.toComplex) *
      (storedTransform N (q * N * N) (fun j => j)
        (fun x => if x / N % N = x % N then (1 : ℝ) else 0)).map Cplx.toComplex = 1 := by
  have h : (storedTransform N (q * N * N) (fun j => j)
      (fun x => if x / N % N = x % N then (1 : ℝ) else 0)).map Cplx.toComplex = 1 := by
    ext a b
    all_goals
      have := identity_cell N q a b a.2 b.2
      simp only [storedTransform, Matrix.map_apply, Matrix.of_apply, InitialEntry, if_true,
        Cplx.scale, Cplx.toComplex, this, Matrix.one_apply, Fin.ext_iff]
      by_cases hab : (a : Nat) = b
      · simp only [hab, if_true, mul_one]
        apply Complex.ext <;> simp
      · simp only [hab, if_false, mul_zero]
        apply Complex.ext <;> simp
  rw [h, Matrix.conjTranspose_one, Matrix.one_mul]

/-! ## The clusters of a code -/

/-- A sum over the sites of a ring, read from a shifted site on. -/
theorem sum_range_shift {M : Type} [AddCommMonoid M] (p n : Nat) (hp1 : 1 ≤ p) (f : Nat → M) :
    (∑ i ∈ Finset.range p, f ((i + n) % p)) = ∑ i ∈ Finset.range p, f i := by
  have hinj : Set.InjOn (fun i => (i + n) % p) (Finset.range p : Set Nat) := by
    intro i hi j hj h
    exact shift_site_inj (Finset.mem_coe.1 hi |> Finset.mem_range.1)
      (Finset.mem_coe.1 hj |> Finset.mem_range.1) h
  have himg : (Finset.range p).image (fun i => (i + n) % p) = Finset.range p := by
    apply Finset.eq_of_subset_of_card_le
    · intro j hj
      obtain ⟨i, _, rfl⟩ := Finset.mem_image.1 hj
      exact Finset.mem_range.2 (Nat.mod_lt _ (by omega))
    · rw [Finset.card_image_of_injOn hinj]
  rw [← Finset.sum_image (f := f) hinj, himg]

/-- The bonds counted at their upper site. -/
theorem bonds_eq_upper (p c : Nat) (hp1 : 1 ≤ p) :
    bonds p c = ∑ i ∈ Finset.range p,
      if c.testBit i = true ∧ c.testBit ((i + p - 1) % p) = true then 1 else 0 := by
  unfold bonds
  rw [← sum_range_shift p (p - 1) hp1
    (fun i => if c.testBit i = true ∧ c.testBit ((i + 1) % p) = true then 1 else 0)]
  apply Finset.sum_congr rfl
  intro i hi
  rw [Finset.mem_range] at hi
  have e1 : ((i + (p - 1)) % p + 1) % p = i := by
    rw [Nat.mod_add_mod]
    have : (i + (p - 1) + 1) % p = i % p := mod_eq_of_add_mul 0 1 (by omega)
    rw [this, Nat.mod_eq_of_lt hi]
  have e2 : i + (p - 1) = i + p - 1 := by omega
  simp only [e1]
  rw [e2]
  by_cases h1 : c.testBit i = true <;> by_cases h2 : c.testBit ((i + p - 1) % p) = true <;>
    simp [h1, h2]

/-- Every atom starts a cluster or closes a bond. -/
theorem clusters_add_bonds (p c : Nat) (hp1 : 1 ≤ p) :
    clusters p c + bonds p c = bitCount 0 p c := by
  rw [bonds_eq_upper p c hp1]
  unfold clusters bitCount
  rw [← Finset.sum_add_distrib, ← Finset.range_eq_Ico]
  apply Finset.sum_congr rfl
  intro i _
  by_cases h1 : c.testBit i = true <;> by_cases h2 : c.testBit ((i + p - 1) % p) = true <;>
    simp [h1, h2]

/-- A code without clusters that has an atom is full. -/
theorem full_of_no_cluster {p c a : Nat} (hp1 : 1 ≤ p) (h : clusters p c = 0) (ha : a < p)
    (hbit : c.testBit a = true) : ∀ j, j < p → c.testBit j = true := by
  have hstep : ∀ i, i < p → c.testBit i = true → c.testBit ((i + p - 1) % p) = true := by
    intro i hi hb
    unfold clusters at h
    have h0 := (Finset.sum_eq_zero_iff.1 h) i (Finset.mem_range.2 hi)
    by_contra hn
    rw [if_pos ⟨hb, by simpa using hn⟩] at h0
    omega
  have hall : ∀ n, c.testBit ((a + n * (p - 1)) % p) = true := by
    intro n
    induction n with
    | zero => rw [Nat.zero_mul, Nat.add_zero, Nat.mod_eq_of_lt ha]; exact hbit
    | succ n ih =>
      have := hstep _ (Nat.mod_lt _ (by omega)) ih
      have e : ((a + n * (p - 1)) % p + p - 1) % p = (a + (n + 1) * (p - 1)) % p := by
        rw [Nat.add_sub_assoc hp1, Nat.mod_add_mod]
        congr 1
        ring
      rw [e] at this
      exact this
  intro j hj
  have e : (a + (a + p - j) * (p - 1)) % p = j := by
    have : (a + (a + p - j) * (p - 1)) % p = j % p := by
      apply mod_eq_of_add_mul 1 (a + p - j)
      obtain ⟨d, hd⟩ : ∃ d, a + p - j = d := ⟨_, rfl⟩
      obtain ⟨e, he⟩ : ∃ e, p - 1 = e := ⟨_, rfl⟩
      have hp' : p = e + 1 := by omega
      rw [hd, he, hp']
      have hj' : j + d = a + (e + 1) := by omega
      nlinarith
    rw [this, Nat.mod_eq_of_lt hj]
  rw [← e]
  exact hall _

/-- A code with an atom and a hole has a cluster. -/
theorem clusters_pos {p c : Nat} (hp1 : 1 ≤ p) (h0 : 0 < bitCount 0 p c)
    (hlt : bitCount 0 p c < p) : 1 ≤ clusters p c := by
  by_contra hn
  have hz : clusters p c = 0 := by omega
  have hex : ∃ a, a < p ∧ c.testBit a = true := by
    by_contra hno
    push_neg at hno
    have := bitCount_none (a := 0) (b := p) (c := c) (fun i _ hi => by
      have := hno i hi
      simpa using this)
    omega
  obtain ⟨a, ha, hbit⟩ := hex
  have hall := full_of_no_cluster hp1 hz ha hbit
  have := bitCount_all (a := 0) (b := p) (c := c) (fun i _ hi => hall i hi)
  omega

/-- The number of clusters in terms of the bonds. -/
theorem clusters_eq {p k c : Nat} (hp1 : 1 ≤ p) (hk : Pattern.AtomNum p c = k) :
    (clusters p c : Int) = (k : Int) - bonds p c := by
  have h := clusters_add_bonds p c hp1
  rw [← Pattern.AtomNum_eq, hk] at h
  omega

/-- A forward rotation keeps the number of bonds. -/
theorem bonds_iterate_rotateUp {p x : Nat} (hp1 : 1 ≤ p) (hp : p ≤ 31) (hx : x < 2 ^ p)
    (n : Nat) : bonds p ((Pattern.rotateUp p)^[n] x) = bonds p x := by
  have h := Pattern.bonds_iterate_rotateDown hp1 hp (Pattern.iterate_rotateUp hp1 hp hx rfl n).1 n
  rw [Pattern.iterate_rotateDown_rotateUp hp1 hp hx] at h
  exact h.symm

/-! ## Modulo division -/

/-- A number in the range of a `long` of 32 bits is stored as it is. -/
theorem toLong_eq (x : Int) (h1 : -2147483648 ≤ x) (h2 : x < 2147483648) : toLong x = x := by
  unfold toLong
  omega

/-- The loop of `ModuloDiv` on numbers that are not negative and small enough for the
sum `Aux + Denominator` not to leave the range of a `long`: it stops at the first
multiple of the denominator with the remainder `N`. -/
theorem ModuloDivLoop_run (p N D : Nat) (hp : 0 < p) (hpD : p + D ≤ 2147483648) :
    ∀ (d r fuel : Nat), (∀ j, r ≤ j → j < r + d → (j * D) % p ≠ N) →
      ((r + d) * D) % p = N → d < fuel → r + d < 2147483648 →
      ModuloDivLoop (p : Int) (N : Int) (D : Int) fuel (r : Int) (((r * D) % p : Nat) : Int) =
        some ((r + d : Nat) : Int) := by
  intro d
  induction d with
  | zero =>
    intro r fuel _ hN hf _
    obtain ⟨f, rfl⟩ : ∃ f, fuel = f + 1 := ⟨fuel - 1, by omega⟩
    rw [Nat.add_zero] at hN
    rw [ModuloDivLoop, hN, if_neg (by simp)]
    rfl
  | succ d ih =>
    intro r fuel hne hN hf hb
    obtain ⟨f, rfl⟩ : ∃ f, fuel = f + 1 := ⟨fuel - 1, by omega⟩
    have h0 : (((r * D) % p : Nat) : Int) ≠ (N : Int) := by
      intro h
      exact hne r (le_refl r) (by omega) (by exact_mod_cast h)
    have hlt : (r * D) % p < p := Nat.mod_lt _ hp
    have hsum : toLong ((((r * D) % p : Nat) : Int) + (D : Int)) =
        ((((r * D) % p : Nat) : Int) + (D : Int)) := toLong_eq _ (by omega) (by omega)
    have hres : toLong ((r : Int) + 1) = ((r + 1 : Nat) : Int) := by
      rw [toLong_eq _ (by omega) (by omega)]
      omega
    have hstep : ((((r * D) % p : Nat) : Int) + (D : Int)).tmod (p : Int) =
        ((((r + 1) * D) % p : Nat) : Int) := by
      have e : ((((r * D) % p : Nat) : Int) + (D : Int)) = (((r * D) % p + D : Nat) : Int) :=
        (Int.ofNat_add _ _).symm
      have e2 : r * D + D = (r + 1) * D := by ring
      rw [e, ← Int.ofNat_tmod, Nat.mod_add_mod, e2]
    have e3 : r + 1 + d = r + (d + 1) := by omega
    rw [ModuloDivLoop, if_pos h0, hsum, hstep, hres]
    have := ih (r + 1) f (fun j h1 h2 => hne j (by omega) (by omega))
      (by rw [e3]; exact hN) (by omega) (by omega)
    rw [this, e3]

/-- Modulo a prime `p` the multiples of a number `D` that `p` does not divide reach
every remainder, first at a factor below `p`. -/
theorem exists_least_multiple {p N D : Nat} (hprime : Nat.Prime p) (hN : N < p)
    (hD : ¬ p ∣ D) :
    ∃ r, r < p ∧ (r * D) % p = N ∧ ∀ j, (j * D) % p = N → r ≤ j := by
  classical
  have hco : Nat.Coprime D p := ((Nat.Prime.coprime_iff_not_dvd hprime).2 hD).symm
  obtain ⟨m, hm⟩ := Nat.exists_mul_emod_eq_one_of_coprime hco hprime.one_lt
  have hex : ∃ r, (r * D) % p = N := by
    refine ⟨m * N, ?_⟩
    have : m * N * D = D * m * N := by ring
    rw [this, Nat.mul_mod, hm, Nat.one_mul, Nat.mod_mod, Nat.mod_eq_of_lt hN]
  refine ⟨Nat.find hex, ?_, Nat.find_spec hex, fun j hj => Nat.find_min' hex hj⟩
  by_contra hge
  have hge' : p ≤ Nat.find hex := by omega
  have h1 : ((Nat.find hex - p) * D) % p = N := by
    have h2 := Nat.find_spec hex
    have e : Nat.find hex * D = (Nat.find hex - p) * D + p * D := by
      rw [← Nat.add_mul]
      congr 1
      omega
    rw [e, Nat.add_mul_mod_self_left] at h2
    exact h2
  have := Nat.find_min' hex h1
  have hp0 := hprime.pos
  omega

/-- What `ModuloDiv` returns for a numerator `0 <= N < p` and a positive denominator `D`
that the prime `p` does not divide, with `p + D <= 2^31`, so that no sum leaves the range
of a `long`. -/
theorem ModuloDiv_run {p N D : Nat} (hprime : Nat.Prime p) (hN : N < p) (hD : ¬ p ∣ D)
    (hpD : p + D ≤ 2147483648) :
    ∃ r, r < p ∧ (r * D) % p = N ∧ (∀ j, (j * D) % p = N → r ≤ j) ∧
      ∀ fuel, r < fuel → ModuloDiv fuel (p : Int) (N : Int) (D : Int) = some (r : Int) := by
  obtain ⟨r, hr, hrN, hmin⟩ := exists_least_multiple hprime hN hD
  refine ⟨r, hr, hrN, hmin, ?_⟩
  intro fuel hf
  have h := ModuloDivLoop_run p N D hprime.pos hpD r 0 fuel
    (fun j _ h2 hj => by have := hmin j hj; omega) (by rw [Nat.zero_add]; exact hrN) hf
    (by omega)
  rw [Nat.zero_mul, Nat.zero_mod, Nat.zero_add] at h
  exact h

/-- The remainder of C++ by a positive number lies above its negative. -/
theorem neg_lt_tmod (a b : Int) (hb : 0 < b) : -b < a.tmod b := by
  rcases le_or_lt 0 a with ha | ha
  · have := Int.tmod_nonneg b ha
    omega
  · obtain ⟨n, rfl⟩ : ∃ n : Nat, a = -(n : Int) := ⟨(-a).toNat, by omega⟩
    obtain ⟨k, rfl⟩ : ∃ k : Nat, b = (k : Int) := ⟨b.toNat, by omega⟩
    cases n with
    | zero => simp at ha
    | succ m =>
      have e : -((m + 1 : Nat) : Int) = Int.negSucc m := rfl
      rw [e]
      show -(k : Int) < -((Nat.succ m % k : Nat) : Int)
      have : Nat.succ m % k < k := Nat.mod_lt _ (by omega)
      omega

/-- The remainder of C++ of a number that is not positive is not positive. -/
theorem tmod_nonpos (a b : Int) (h : a ≤ 0) : a.tmod b ≤ 0 := by
  obtain ⟨n, rfl⟩ : ∃ n : Nat, a = -(n : Int) := ⟨(-a).toNat, by omega⟩
  cases n with
  | zero => simp
  | succ m =>
    have e : -((m + 1 : Nat) : Int) = Int.negSucc m := rfl
    rw [e]
    cases b with
    | ofNat k =>
      show -((Nat.succ m % k : Nat) : Int) ≤ 0
      omega
    | negSucc k =>
      show -((Nat.succ m % Nat.succ k : Nat) : Int) ≤ 0
      omega

/-- The loop of `Multiplicity` counts the rotations of the copy that match. -/
theorem MultiplicityLoop_spec (p : Nat) (s : List Char) (mt : Nat → Bool)
    (hm : ∀ c, Pattern.Match p c s = .ok (mt c)) :
    ∀ (n Copy Number : Nat),
      Pattern.MultiplicityLoop p s n Copy Number =
        .ok (Number + ∑ nu ∈ Finset.range n,
          if mt ((Pattern.rotateUp p)^[nu] Copy) = true then 1 else 0) := by
  intro n
  induction n with
  | zero =>
    intro Copy Number
    simp [Pattern.MultiplicityLoop]
  | succ n ih =>
    intro Copy Number
    rw [Pattern.MultiplicityLoop]
    simp only [hm Copy]
    rw [ih, Finset.sum_range_succ']
    simp only [Function.iterate_succ_apply, Function.iterate_zero, id_eq]
    congr 1
    by_cases h : mt Copy = true
    · simp only [if_pos h]
      omega
    · simp only [if_neg h]
      omega

namespace Pattern

/-- Forward rotations are backward rotations the other way round the ring. -/
theorem iterate_rotateUp_eq_rotateDown {p x nu : Nat} (hp1 : 1 ≤ p) (hp : p ≤ 31)
    (hx : x < 2 ^ p) (hnu : nu ≤ p) :
    (rotateUp p)^[nu] x = (rotateDown p)^[p - nu] x := by
  have h1 : (rotateUp p)^[p] x = (rotateUp p)^[p - nu] ((rotateUp p)^[nu] x) := by
    rw [← Function.iterate_add_apply]
    congr 1
    omega
  have h2 := iterate_rotateDown_rotateUp hp1 hp (iterate_rotateUp hp1 hp hx rfl nu).1 (p - nu)
  rw [← h1, iterate_rotateUp_period hp1 hp hx] at h2
  exact h2.symm

/-- The site `i` of a code after `nu <= p` forward rotations. -/
theorem testBit_iterate_rotateUp {p x nu i : Nat} (hp1 : 1 ≤ p) (hp : p ≤ 31)
    (hx : x < 2 ^ p) (hnu : nu ≤ p) (hi : i < p) :
    ((rotateUp p)^[nu] x).testBit i = x.testBit ((i + (p - nu)) % p) := by
  rw [iterate_rotateUp_eq_rotateDown hp1 hp hx hnu, testBit_iterate_rotateDown hp1 hp _ hx i hi]

end Pattern

/-- Among the `p` rotations of a code, as many have an atom on a given site as the code
has atoms. -/
theorem rotations_with_atom {p c a : Nat} (hp1 : 1 ≤ p) (hp : p ≤ 31) (hc : c < 2 ^ p)
    (ha : a < p) :
    (∑ nu ∈ Finset.range p,
      if ((Pattern.rotateUp p)^[nu] c).testBit a = true then 1 else 0) = bitCount 0 p c := by
  have hterm : ∀ nu ∈ Finset.range p,
      (if ((Pattern.rotateUp p)^[nu] c).testBit a = true then 1 else 0) =
        (fun j => if c.testBit ((j + (a + 1)) % p) = true then 1 else 0) (p - 1 - nu) := by
    intro nu hnu
    rw [Finset.mem_range] at hnu
    rw [Pattern.testBit_iterate_rotateUp hp1 hp hc (by omega) ha]
    have : a + (p - nu) = p - 1 - nu + (a + 1) := by omega
    simp only [this]
  rw [Finset.sum_congr rfl hterm,
    Finset.sum_range_reflect (fun j => if c.testBit ((j + (a + 1)) % p) = true then 1 else 0) p,
    sum_range_shift p (a + 1) hp1 (fun j => if c.testBit j = true then 1 else 0)]
  unfold bitCount
  rw [Finset.range_eq_Ico]

/-- For a single-site pattern `Multiplicity` returns the number of atoms of the code. -/
theorem Multiplicity_OneAtomPattern {p k c a : Nat} (hp1 : 1 ≤ p) (hp : p ≤ 31)
    (hc : c < 2 ^ p) (hk : Pattern.AtomNum p c = k) (ha : a < p) :
    Pattern.Multiplicity p c (OneAtomPattern p a) = .ok k := by
  unfold Pattern.Multiplicity
  rw [MultiplicityLoop_spec p (OneAtomPattern p a) (fun x => x.testBit a)
    (fun x => Match_OneAtomPattern p x a (by omega) ha), Nat.zero_add,
    rotations_with_atom hp1 hp hc ha, ← Pattern.AtomNum_eq, hk]

/-- The loop of `EqAverage` adds up the entries of `EqEV` times the multiplicities. -/
theorem EqAverageLoop_spec {K : Type} [Field K] (p : Nat) (P : Nat → Nat) (E : Nat → K)
    (s : List Char) (M : Nat → Nat) :
    ∀ (n i : Nat) (Sum : K),
      (∀ j, i ≤ j → j < i + n → Pattern.Multiplicity p (P j) s = .ok (M j)) →
      EqAverageLoop p P E s n i Sum =
        .ok (Sum + ∑ j ∈ Finset.range n, E (i + j) * (M (i + j) : K)) := by
  intro n
  induction n with
  | zero =>
    intro i Sum _
    simp [EqAverageLoop]
  | succ n ih =>
    intro i Sum h
    rw [EqAverageLoop]
    simp only [h i (le_refl i) (by omega)]
    rw [ih (i + 1) _ (fun j h1 h2 => h j (by omega) (by omega)), Finset.sum_range_succ']
    congr 1
    rw [Nat.add_zero, add_assoc, add_comm (E i * (M i : K))]
    congr 2
    apply Finset.sum_congr rfl
    intro j _
    rw [Nat.add_assoc, Nat.add_comm 1 j]

/-- The entries of a list add up to the sum over its positions. -/
theorem sum_EqEVAt {K : Type} [Field K] (E : List K) :
    (∑ j ∈ Finset.range E.length, EqEVAt E j) = E.sum := by
  induction E using List.reverseRecOn with
  | nil => simp
  | append_singleton E x ih =>
    rw [List.length_append, List.length_singleton, Finset.sum_range_succ, List.sum_append,
      List.sum_singleton, ← ih]
    congr 1
    · apply Finset.sum_congr rfl
      intro j hj
      rw [Finset.mem_range] at hj
      unfold EqEVAt
      rw [List.getD_eq_getElem?_getD, List.getD_eq_getElem?_getD,
        List.getElem?_append_left hj]
    · unfold EqEVAt
      rw [List.getD_eq_getElem?_getD, List.getElem?_append_right (le_refl _)]
      simp

/-! ## The indices into the roots of unity -/

/-- The index of the prefactors lies in `0..p-1` for every momentum, whatever the
product in 32 bits is. -/
theorem PrefactorIndex_range (p m q : Int) (hp : 0 < p) :
    0 ≤ PrefactorIndex p m q ∧ PrefactorIndex p m q < p := by
  unfold PrefactorIndex
  have h1 := neg_lt_tmod (toLong (m * q)) p hp
  have h2 := Int.tmod_lt_of_pos (toLong (m * q)) hp
  simp only []
  split
  · constructor <;> omega
  · constructor <;> omega

/-- The index of the projection lies in `0..p-1` when the product is not negative and
below `2^31`. -/
theorem ProjectionIndex_range (p q nu : Int) (hp : 0 < p) (h : 0 ≤ q * nu)
    (hb : q * nu < 2147483648) :
    0 ≤ ProjectionIndex p q nu ∧ ProjectionIndex p q nu < p := by
  unfold ProjectionIndex
  rw [toLong_eq _ (by omega) hb]
  exact ⟨Int.tmod_nonneg p h, Int.tmod_lt_of_pos _ hp⟩

/-- The index of the projection is negative when the product is negative, not below
`-2^31`, and no multiple of `p`. -/
theorem ProjectionIndex_negative (p q nu : Int) (h : q * nu < 0)
    (hb : -2147483648 ≤ q * nu) (hd : ¬ p ∣ q * nu) : ProjectionIndex p q nu < 0 := by
  unfold ProjectionIndex
  rw [toLong_eq _ hb (by omega)]
  have h1 := tmod_nonpos (q * nu) p (by omega)
  have h2 : (q * nu).tmod p ≠ 0 := fun h0 => hd (Int.dvd_of_tmod_eq_zero h0)
  omega

/-- The index of the weight lies in `1..p` when the product is not negative and below
`2^31`. -/
theorem WeightIndex_range (p Shift q : Int) (hp : 0 < p) (h : 0 ≤ Shift * q)
    (hb : Shift * q < 2147483648) :
    1 ≤ WeightIndex p Shift q ∧ WeightIndex p Shift q ≤ p := by
  unfold WeightIndex
  rw [toLong_eq _ (by omega) hb]
  have h1 := Int.tmod_nonneg p h
  have h2 := Int.tmod_lt_of_pos (Shift * q) hp
  constructor <;> omega

/-- The index of the weight lies above `p` when the product is negative, not below
`-2^31`, and no multiple of `p`. -/
theorem WeightIndex_above (p Shift q : Int) (h : Shift * q < 0)
    (hb : -2147483648 ≤ Shift * q) (hd : ¬ p ∣ Shift * q) : p < WeightIndex p Shift q := by
  unfold WeightIndex
  rw [toLong_eq _ hb (by omega)]
  have h1 := tmod_nonpos (Shift * q) p (by omega)
  have h2 : (Shift * q).tmod p ≠ 0 := fun h0 => hd (Int.dvd_of_tmod_eq_zero h0)
  omega

/-! ## The legal moves of a code and its clusters -/

theorem typeAt_lt (c u v : Nat) : typeAt c u v < 4 := by
  unfold typeAt
  split <;> split <;> omega

/-- The increments of a type that are not blocked, counted over the sites. -/
theorem legalIncrements_sites {p k c : Nat} (hp : p ≤ 31)
    (hk : Pattern.AtomNum p c = k) (T : Nat) :
    legalIncrements p k c T =
      ((Finset.range p).filter fun a => c.testBit a = true ∧
        (!c.testBit ((a + 1) % p) &&
          decide (typeAt (moveCode c a ((a + 1) % p)) ((a + p - 1) % p) ((a + 2) % p) = T)) =
            true).card := by
  have hk' := hk
  rw [Pattern.AtomNum_eq] at hk'
  unfold legalIncrements
  rw [← ord_site_count c _ p (by omega), hk']
  apply List.countP_congr
  intro nu hnu
  rw [mem_range'_one] at hnu
  obtain ⟨a, _, _, _, helem⟩ := Pattern.Element_exists (by omega : p ≤ 32) hk hnu.1 hnu.2
  rw [Pattern.IncrementSiteBlocked_eq helem, Pattern.Increment_eq helem, helem]
  simp only [decide_eq_true_eq, Option.map_some', Option.some.injEq, Bool.and_eq_true,
    Bool.not_eq_true']
  rfl

/-- The decrements of a type that are not blocked, counted over the sites. -/
theorem legalDecrements_sites {p k c : Nat} (hp2 : 2 ≤ p) (hp : p ≤ 31)
    (hk : Pattern.AtomNum p c = k) (T : Nat) :
    legalDecrements p k c T =
      ((Finset.range p).filter fun a => c.testBit a = true ∧
        (!c.testBit ((a + p - 1) % p) &&
          decide (typeAt (moveCode c a ((a + p - 1) % p)) ((a + 1) % p) ((a + p - 2) % p) = T)) =
            true).card := by
  have hk' := hk
  rw [Pattern.AtomNum_eq] at hk'
  unfold legalDecrements
  rw [← ord_site_count c _ p (by omega), hk']
  apply List.countP_congr
  intro nu hnu
  rw [mem_range'_one] at hnu
  obtain ⟨a, _, _, _, helem⟩ := Pattern.Element_exists (by omega : p ≤ 32) hk hnu.1 hnu.2
  rw [Pattern.DecrementSiteBlocked_eq hp2 hp hk hnu.1 hnu.2 helem, Pattern.Decrement_eq helem,
    helem]
  simp only [decide_eq_true_eq, Option.map_some', Option.some.injEq, Bool.and_eq_true,
    Bool.not_eq_true']
  rfl

/-- Sites counted by the type of their move add up to the sites. -/
theorem card_by_type (S : Finset Nat) (ty : Nat → Nat) (hty : ∀ a, ty a < 4) :
    (∑ T ∈ Finset.range 4, (S.filter fun a => ty a = T).card) = S.card :=
  (Finset.card_eq_sum_card_fiberwise (f := ty) (s := S) (t := Finset.range 4)
    (fun a _ => Finset.mem_range.2 (hty a))).symm

/-- The clusters counted at their upper end: the occupied sites whose next site is
empty. -/
theorem clusters_eq_upper (p c : Nat) (hp1 : 1 ≤ p) :
    ((Finset.range p).filter fun a =>
      c.testBit a = true ∧ c.testBit ((a + 1) % p) = false).card = clusters p c := by
  have h1 := clusters_add_bonds p c hp1
  have h2 : ((Finset.range p).filter fun a =>
      c.testBit a = true ∧ c.testBit ((a + 1) % p) = false).card + bonds p c =
        bitCount 0 p c := by
    unfold bonds bitCount
    rw [Finset.card_filter, ← Finset.sum_add_distrib, ← Finset.range_eq_Ico]
    apply Finset.sum_congr rfl
    intro i _
    by_cases h1 : c.testBit i = true <;> by_cases h2 : c.testBit ((i + 1) % p) = true <;>
      simp [h1, h2]
  omega

theorem clusters_eq_card (p c : Nat) :
    ((Finset.range p).filter fun a =>
      c.testBit a = true ∧ c.testBit ((a + p - 1) % p) = false).card = clusters p c := by
  unfold clusters
  rw [Finset.card_filter]

/-- All the increments that are not blocked: one for each cluster. -/
theorem sum_legalIncrements {p k c : Nat} (hp1 : 1 ≤ p) (hp : p ≤ 31)
    (hk : Pattern.AtomNum p c = k) :
    (∑ T ∈ Finset.range 4, legalIncrements p k c T) = clusters p c := by
  rw [← clusters_eq_upper p c hp1,
    ← card_by_type _ (fun a => typeAt (moveCode c a ((a + 1) % p)) ((a + p - 1) % p)
      ((a + 2) % p)) (fun a => typeAt_lt _ _ _)]
  apply Finset.sum_congr rfl
  intro T _
  rw [legalIncrements_sites hp hk T, Finset.filter_filter]
  congr 1
  apply Finset.filter_congr
  intro a _
  simp only [Bool.and_eq_true, Bool.not_eq_true', decide_eq_true_eq]
  tauto

/-- All the decrements that are not blocked: one for each cluster. -/
theorem sum_legalDecrements {p k c : Nat} (hp2 : 2 ≤ p) (hp : p ≤ 31)
    (hk : Pattern.AtomNum p c = k) :
    (∑ T ∈ Finset.range 4, legalDecrements p k c T) = clusters p c := by
  rw [← clusters_eq_card p c,
    ← card_by_type _ (fun a => typeAt (moveCode c a ((a + p - 1) % p)) ((a + 1) % p)
      ((a + p - 2) % p)) (fun a => typeAt_lt _ _ _)]
  apply Finset.sum_congr rfl
  intro T _
  rw [legalDecrements_sites hp2 hp hk T, Finset.filter_filter]
  congr 1
  apply Finset.filter_congr
  intro a _
  simp only [Bool.and_eq_true, Bool.not_eq_true', decide_eq_true_eq]
  tauto

/-- A code has no more clusters than atoms and no more clusters than holes. -/
theorem clusters_le {p k c : Nat} (hp1 : 1 ≤ p) (hk : Pattern.AtomNum p c = k) :
    clusters p c ≤ k ∧ clusters p c ≤ p - k := by
  have h1 := clusters_add_bonds p c hp1
  rw [← Pattern.AtomNum_eq, hk] at h1
  refine ⟨by omega, ?_⟩
  -- every cluster has its own hole before it
  have hholes : ((Finset.range p).filter fun b => c.testBit b = false).card = p - k := by
    have h2 : ((Finset.range p).filter fun b => c.testBit b = false).card +
        bitCount 0 p c = p := by
      unfold bitCount
      rw [Finset.card_filter, ← Finset.range_eq_Ico, ← Finset.sum_add_distrib]
      have : ∀ i ∈ Finset.range p,
          ((if c.testBit i = false then 1 else 0) + if c.testBit i = true then 1 else 0) =
            1 := by
        intro i _
        by_cases h : c.testBit i = true <;> simp [h]
      rw [Finset.sum_congr rfl this]
      simp
    rw [← Pattern.AtomNum_eq, hk] at h2
    omega
  rw [← clusters_eq_card p c, ← hholes]
  apply Finset.card_le_card_of_injOn (fun a => (a + p - 1) % p)
  · intro a ha
    rw [Finset.mem_filter, Finset.mem_range] at ha
    rw [Finset.mem_filter, Finset.mem_range]
    exact ⟨Nat.mod_lt _ (by omega), ha.2.2⟩
  · intro a ha b hb hab
    rw [Finset.mem_coe, Finset.mem_filter, Finset.mem_range] at ha hb
    have e : ∀ x, x + p - 1 = x + (p - 1) := fun x => by omega
    simp only [e] at hab
    exact shift_site_inj ha.1 hb.1 hab

/-! ## Rotations for any number of sites and the count of the primitive patterns -/

theorem turnUp_parts {p c : Nat} (hp1 : 1 ≤ p) (hc : c < 2 ^ p) :
    c % 2 ^ (p - 1) < 2 ^ (p - 1) ∧ c / 2 ^ (p - 1) < 2 := by
  have hpos : 0 < 2 ^ (p - 1) := Nat.two_pow_pos (p - 1)
  refine ⟨Nat.mod_lt _ hpos, ?_⟩
  rw [Nat.div_lt_iff_lt_mul hpos]
  have : 2 * 2 ^ (p - 1) = 2 ^ p := by
    obtain ⟨n, rfl⟩ : ∃ n, p = n + 1 := ⟨p - 1, by omega⟩
    rw [Nat.add_sub_cancel, pow_succ]
    ring
  omega

theorem turnUp_lt {p c : Nat} (hp1 : 1 ≤ p) (hc : c < 2 ^ p) : turnUp p c < 2 ^ p := by
  obtain ⟨h1, h2⟩ := turnUp_parts hp1 hc
  unfold turnUp
  have : 2 * 2 ^ (p - 1) = 2 ^ p := by
    obtain ⟨n, rfl⟩ : ∃ n, p = n + 1 := ⟨p - 1, by omega⟩
    rw [Nat.add_sub_cancel, pow_succ]
    ring
  omega

theorem turnDown_lt {p c : Nat} (hp1 : 1 ≤ p) (hc : c < 2 ^ p) : turnDown p c < 2 ^ p := by
  unfold turnDown
  have : 2 * 2 ^ (p - 1) = 2 ^ p := by
    obtain ⟨n, rfl⟩ : ∃ n, p = n + 1 := ⟨p - 1, by omega⟩
    rw [Nat.add_sub_cancel, pow_succ]
    ring
  have h2 : c % 2 < 2 := Nat.mod_lt _ (by norm_num)
  have h3 : 2 ^ (p - 1) * (c % 2) ≤ 2 ^ (p - 1) * 1 := Nat.mul_le_mul_left _ (by omega)
  omega

theorem turnDown_turnUp {p c : Nat} (hp1 : 1 ≤ p) (hc : c < 2 ^ p) :
    turnDown p (turnUp p c) = c := by
  obtain ⟨_, h2⟩ := turnUp_parts hp1 hc
  unfold turnDown turnUp
  have h3 := Nat.mod_add_div c (2 ^ (p - 1))
  generalize c % 2 ^ (p - 1) = x at h3 ⊢
  generalize c / 2 ^ (p - 1) = b at h2 h3 ⊢
  have e1 : (2 * x + b) / 2 = x := by omega
  have e2 : (2 * x + b) % 2 = b := by omega
  rw [e1, e2]
  exact h3

theorem turnUp_turnDown {p c : Nat} (hp1 : 1 ≤ p) (hc : c < 2 ^ p) :
    turnUp p (turnDown p c) = c := by
  have hpos : 0 < 2 ^ (p - 1) := Nat.two_pow_pos (p - 1)
  have hpw : 2 * 2 ^ (p - 1) = 2 ^ p := by
    obtain ⟨n, rfl⟩ : ∃ n, p = n + 1 := ⟨p - 1, by omega⟩
    rw [Nat.add_sub_cancel, pow_succ]
    ring
  have hhalf : c / 2 < 2 ^ (p - 1) := by omega
  unfold turnUp turnDown
  have e1 : (c / 2 + 2 ^ (p - 1) * (c % 2)) % 2 ^ (p - 1) = c / 2 := by
    rw [Nat.add_mul_mod_self_left, Nat.mod_eq_of_lt hhalf]
  have e2 : (c / 2 + 2 ^ (p - 1) * (c % 2)) / 2 ^ (p - 1) = c % 2 := by
    rw [Nat.add_mul_div_left _ _ hpos, Nat.div_eq_of_lt hhalf, Nat.zero_add]
  rw [e1, e2]
  omega

/-- The sites of a code after a rotation to higher values. -/
theorem testBit_turnUp {p c : Nat} (hp1 : 1 ≤ p) (hc : c < 2 ^ p) (i : Nat) :
    (turnUp p c).testBit i =
      if i = 0 then c.testBit (p - 1) else (decide (i < p) && c.testBit (i - 1)) := by
  obtain ⟨_, h2⟩ := turnUp_parts hp1 hc
  unfold turnUp
  cases i with
  | zero =>
    rw [if_pos rfl, Nat.testBit_zero, Nat.testBit_to_div_mod]
    have e : (2 * (c % 2 ^ (p - 1)) + c / 2 ^ (p - 1)) % 2 = c / 2 ^ (p - 1) % 2 := by
      generalize c % 2 ^ (p - 1) = x
      generalize c / 2 ^ (p - 1) = b
      omega
    rw [e]
  | succ i =>
    rw [if_neg (by omega), Nat.testBit_succ]
    have e : (2 * (c % 2 ^ (p - 1)) + c / 2 ^ (p - 1)) / 2 = c % 2 ^ (p - 1) := by
      generalize c % 2 ^ (p - 1) = x
      generalize c / 2 ^ (p - 1) = b at h2 ⊢
      omega
    rw [e, Nat.testBit_mod_two_pow, Nat.add_sub_cancel]
    congr 1
    rw [decide_eq_decide]
    omega

/-- A rotation keeps the number of atoms. -/
theorem bitCount_turnUp {p c : Nat} (hp1 : 1 ≤ p) (hc : c < 2 ^ p) :
    bitCount 0 p (turnUp p c) = bitCount 0 p c := by
  obtain ⟨n, rfl⟩ : ∃ n, p = n + 1 := ⟨p - 1, by omega⟩
  unfold bitCount
  rw [← Finset.range_eq_Ico, Finset.sum_range_succ', Finset.sum_range_succ]
  have h0 : (turnUp (n + 1) c).testBit 0 = c.testBit n := by
    rw [testBit_turnUp hp1 hc]; simp
  have hs : ∀ i ∈ Finset.range n,
      (if (turnUp (n + 1) c).testBit (i + 1) = true then 1 else 0) =
        if c.testBit i = true then 1 else 0 := by
    intro i hi
    rw [Finset.mem_range] at hi
    rw [testBit_turnUp hp1 hc]
    simp [hi]
  rw [Finset.sum_congr rfl hs, h0]

/-- A rotation adds the number of atoms to the sum of the occupied sites and takes off
`p` when the last site was occupied. -/
theorem rawSum_turnUp {p c : Nat} (hp1 : 1 ≤ p) (hc : c < 2 ^ p) :
    rawSum p (turnUp p c) + (if c.testBit (p - 1) = true then p else 0) =
      rawSum p c + bitCount 0 p c := by
  obtain ⟨n, rfl⟩ : ∃ n, p = n + 1 := ⟨p - 1, by omega⟩
  unfold bitCount rawSum
  rw [← Finset.range_eq_Ico, Finset.sum_range_succ', Finset.sum_range_succ, Finset.sum_range_succ]
  have hs : ∀ i ∈ Finset.range n,
      (if (turnUp (n + 1) c).testBit (i + 1) = true then i + 1 else 0) =
        (if c.testBit i = true then i else 0) + if c.testBit i = true then 1 else 0 := by
    intro i hi
    rw [Finset.mem_range] at hi
    rw [testBit_turnUp hp1 hc]
    by_cases h : c.testBit i = true <;> simp [hi, h]
  rw [Finset.sum_congr rfl hs, Finset.sum_add_distrib]
  simp only [Nat.add_sub_cancel]
  by_cases h : c.testBit n = true
  · simp [h]; omega
  · simp [h]

theorem PatternSum_turnUp {p c : Nat} (hp1 : 1 ≤ p) (hc : c < 2 ^ p) :
    Pattern.PatternSum p (turnUp p c) = (Pattern.PatternSum p c + Pattern.AtomNum p c) % p := by
  have h := rawSum_turnUp hp1 hc
  rw [Pattern.PatternSum_eq, Pattern.PatternSum_eq, Pattern.AtomNum_eq, Nat.mod_add_mod, ← h]
  by_cases hb : c.testBit (p - 1) = true
  · simp [hb]
  · simp [hb]

/-- Rotation carries the codes of pattern sum `r` onto those of pattern sum `r + k`, for
any number of sites. -/
theorem card_codesWithSum_turn {p k r : Nat} (hp1 : 1 ≤ p) (hr : r < p) :
    (codesWithSum p k r).card = (codesWithSum p k ((r + k) % p)).card := by
  apply Finset.card_nbij' (turnUp p) (turnDown p)
  · intro c hc
    rw [mem_codesWithSum] at hc ⊢
    obtain ⟨⟨hc1, hc2⟩, hc3⟩ := hc
    refine ⟨⟨turnUp_lt hp1 hc1, ?_⟩, ?_⟩
    · rw [Pattern.AtomNum_eq, bitCount_turnUp hp1 hc1, ← Pattern.AtomNum_eq, hc2]
    · rw [PatternSum_turnUp hp1 hc1, hc2, hc3]
  · intro c hc
    rw [mem_codesWithSum] at hc ⊢
    obtain ⟨⟨hc1, hc2⟩, hc3⟩ := hc
    have hd := turnDown_lt hp1 hc1
    have hk : Pattern.AtomNum p (turnDown p c) = k := by
      have := bitCount_turnUp hp1 hd
      rw [turnUp_turnDown hp1 hc1, ← Pattern.AtomNum_eq, ← Pattern.AtomNum_eq, hc2] at this
      exact this.symm
    refine ⟨⟨hd, hk⟩, ?_⟩
    have h1 := PatternSum_turnUp hp1 hd
    rw [turnUp_turnDown hp1 hc1, hk, hc3] at h1
    have hlt := Pattern.PatternSum_lt hp1 (turnDown p c)
    have h2 : Pattern.PatternSum p (turnDown p c) + k ≡ r + k [MOD p] := by
      unfold Nat.ModEq
      exact h1.symm
    have h3 := Nat.ModEq.add_right_cancel' k h2
    unfold Nat.ModEq at h3
    rw [Nat.mod_eq_of_lt hlt, Nat.mod_eq_of_lt hr] at h3
    exact h3
  · intro c hc
    rw [mem_codesWithSum] at hc
    exact turnDown_turnUp hp1 hc.1.1
  · intro c hc
    rw [mem_codesWithSum] at hc
    exact turnUp_turnDown hp1 hc.1.1

theorem card_codesWithSum_turn_mul {p k : Nat} (hp1 : 1 ≤ p) (j : Nat) :
    (codesWithSum p k ((j * k) % p)).card = (codesWithSum p k 0).card := by
  induction j with
  | zero => simp
  | succ j ih =>
    have h1 : (j + 1) * k % p = (j * k % p + k) % p := by
      rw [Nat.mod_add_mod]
      congr 1
      ring
    rw [h1, ← card_codesWithSum_turn hp1 (Nat.mod_lt _ hp1), ih]

/-- For a prime number of sites, of any size, the codes of pattern sum 0 are one in `p`
of the codes of `k` atoms. -/
theorem card_primitive_mul_any {p k : Nat} (hprime : Nat.Prime p) (hk0 : 0 < k)
    (hkp : k < p) : p * (codesWithSum p k 0).card = Nat.choose p k := by
  have hp1 : 1 ≤ p := hprime.one_lt.le
  have hall : ∀ r, r < p → (codesWithSum p k r).card = (codesWithSum p k 0).card := by
    intro r hr
    obtain ⟨j, _, hj⟩ := exists_mul_mod_eq hprime hk0 hkp hr
    have := card_codesWithSum_turn_mul (k := k) hp1 j
    rw [hj] at this
    exact this
  rw [← card_codes p k]
  have h := Finset.card_eq_sum_card_fiberwise (f := Pattern.PatternSum p) (s := codes p k)
    (t := Finset.range p) (fun c _ => Finset.mem_range.2 (Pattern.PatternSum_lt hp1 c))
  rw [h]
  have h2 : ∀ r ∈ Finset.range p,
      (Finset.filter (fun a => Pattern.PatternSum p a = r) (codes p k)).card =
        (codesWithSum p k 0).card := by
    intro r hr
    exact hall r (Finset.mem_range.1 hr)
  rw [Finset.sum_congr rfl h2]
  simp

/-! ## Palindromic codes -/

/-- A code below `2^p` is its own mirror image if and only if the sites `j` and `p - j`
agree for `0 < j < p`. -/
theorem mirror_fixed_iff {p c : Nat} (hp1 : 1 ≤ p) (hc : c < 2 ^ p) :
    Pattern.Mirror p c = c ↔ ∀ j, 1 ≤ j → j < p → c.testBit j = c.testBit (p - j) := by
  constructor
  · intro h j h1 h2
    have := congrArg (fun x => x.testBit j) h
    simp only [Pattern.testBit_Mirror hp1, if_neg (by omega : ¬ j = 0), h2, decide_True,
      Bool.true_and] at this
    exact this.symm
  · intro h
    apply Nat.eq_of_testBit_eq
    intro j
    rw [Pattern.testBit_Mirror hp1]
    by_cases h0 : j = 0
    · rw [if_pos h0, h0]
    · rw [if_neg h0]
      by_cases hj : j < p
      · simp only [hj, decide_True, Bool.true_and]
        exact (h j (by omega) hj).symm
      · simp only [hj, decide_False, Bool.false_and]
        exact (testBit_of_lt hc (by omega)).symm

/-- A code of an odd number of sites that is its own mirror image has pattern sum 0. -/
theorem PatternSum_of_mirror_fixed {p c : Nat} (hp1 : 1 ≤ p) (hodd : p % 2 = 1)
    (h : Pattern.Mirror p c = c) : Pattern.PatternSum p c = 0 := by
  have h1 := Pattern.rawSum_Mirror hp1 c
  rw [h] at h1
  rw [Pattern.PatternSum_eq]
  have h2 : p ∣ 2 * rawSum p c := ⟨bitCount 1 p c, by omega⟩
  have hco : Nat.Coprime p 2 := by
    rw [Nat.coprime_comm, Nat.Prime.coprime_iff_not_dvd Nat.prime_two]
    omega
  exact Nat.mod_eq_zero_of_dvd (hco.dvd_of_dvd_mul_left h2)

/-- The atoms of a palindromic code of `2h+1` sites: the site 0 and twice the atoms on
the sites `1..h`. -/
theorem bitCount_palindrome {h c : Nat}
    (hsym : ∀ j, 1 ≤ j → j < 2 * h + 1 → c.testBit j = c.testBit (2 * h + 1 - j)) :
    bitCount 0 (2 * h + 1) c = (if c.testBit 0 = true then 1 else 0) +
      2 * ∑ i ∈ Finset.range h, if c.testBit (i + 1) = true then 1 else 0 := by
  unfold bitCount
  rw [← Finset.range_eq_Ico, Finset.sum_range_succ', Nat.two_mul, Finset.sum_range_add]
  have hrefl : (∑ i ∈ Finset.range h, if c.testBit (h + i + 1) = true then 1 else 0) =
      ∑ i ∈ Finset.range h, if c.testBit (i + 1) = true then 1 else 0 := by
    rw [← Finset.sum_range_reflect (fun i => if c.testBit (i + 1) = true then 1 else 0) h]
    apply Finset.sum_congr rfl
    intro i hi
    rw [Finset.mem_range] at hi
    have := hsym (h - 1 - i + 1) (by omega) (by omega)
    have e : 2 * h + 1 - (h - 1 - i + 1) = h + i + 1 := by omega
    rw [e] at this
    simp only [this]
  rw [hrefl]
  omega

/-- The sites of the lower half of a code, without the site 0. -/
theorem testBit_half (h c i : Nat) :
    ((c / 2) % 2 ^ h).testBit i = (decide (i < h) && c.testBit (i + 1)) := by
  rw [Nat.testBit_mod_two_pow, Nat.testBit_div_two]

/-- The sites of the palindromic code built from its lower half `x` and the site 0. -/
theorem testBit_unfold {h x : Nat} (b : Nat) (hb : b < 2) (hx : x < 2 ^ h) (j : Nat) :
    (b ||| (x * 2) ||| Pattern.Mirror (2 * h + 1) (x * 2)).testBit j =
      if j = 0 then decide (b = 1)
      else if j ≤ h then x.testBit (j - 1)
      else if j < 2 * h + 1 then x.testBit (2 * h - j)
      else false := by
  have hb0 : ∀ i, b.testBit i = (decide (i = 0) && decide (b = 1)) := by
    intro i
    rcases Nat.lt_succ_iff.1 hb with hb1
    interval_cases b
    · simp
    · cases i with
      | zero => simp
      | succ i => simp [Nat.testBit_succ]
  rw [Nat.testBit_lor, Nat.testBit_lor, hb0, testBit_mul_two,
    Pattern.testBit_Mirror (by omega : 1 ≤ 2 * h + 1), testBit_mul_two, testBit_mul_two]
  by_cases h0 : j = 0
  · simp [h0]
  · simp only [h0, decide_False, Bool.false_and, Bool.false_or, if_false]
    by_cases h1 : j ≤ h
    · rw [if_pos h1, if_neg (by omega : ¬ 2 * h + 1 - j = 0)]
      have : x.testBit (2 * h + 1 - j - 1) = false := testBit_of_lt hx (by omega)
      simp [this]
    · rw [if_neg h1]
      have hxj : x.testBit (j - 1) = false := testBit_of_lt hx (by omega)
      by_cases h2 : j < 2 * h + 1
      · rw [if_pos h2, if_neg (by omega : ¬ 2 * h + 1 - j = 0)]
        have e : 2 * h + 1 - j - 1 = 2 * h - j := by omega
        simp [hxj, h2, e]
      · rw [if_neg h2]
        simp [hxj, h2]

/-! ## The number of the palindromic codes -/

theorem mem_palindromes {p k c : Nat} :
    c ∈ palindromes p k ↔ (c < 2 ^ p ∧ Pattern.AtomNum p c = k) ∧ Pattern.Mirror p c = c := by
  unfold palindromes
  rw [Finset.mem_filter, mem_codes]

/-- The lower half of a palindromic code of `k` atoms has `k / 2` atoms, and the site 0
is occupied exactly for an odd `k`. -/
theorem half_of_palindrome {h k c : Nat} (hc : c < 2 ^ (2 * h + 1))
    (hk : bitCount 0 (2 * h + 1) c = k) (hm : Pattern.Mirror (2 * h + 1) c = c) :
    bitCount 0 h ((c / 2) % 2 ^ h) = k / 2 ∧ c.testBit 0 = decide (k % 2 = 1) := by
  have hsym := (mirror_fixed_iff (by omega : 1 ≤ 2 * h + 1) hc).1 hm
  have h1 := bitCount_palindrome hsym
  rw [hk] at h1
  have h2 : bitCount 0 h ((c / 2) % 2 ^ h) =
      ∑ i ∈ Finset.range h, if c.testBit (i + 1) = true then 1 else 0 := by
    unfold bitCount
    rw [← Finset.range_eq_Ico]
    apply Finset.sum_congr rfl
    intro i hi
    rw [Finset.mem_range] at hi
    rw [testBit_half]
    simp [hi]
  rw [h2]
  by_cases hb : c.testBit 0 = true
  · rw [if_pos hb] at h1
    rw [hb]
    constructor
    · omega
    · symm
      rw [decide_eq_true_iff]
      omega
  · rw [if_neg hb] at h1
    have hb' : c.testBit 0 = false := by simpa using hb
    rw [hb']
    constructor
    · omega
    · symm
      rw [decide_eq_false_iff_not]
      omega

/-- The palindromic code built from a lower half. -/
theorem unfold_is_palindrome {h k x : Nat} (hx : x < 2 ^ h) (hk : bitCount 0 h x = k / 2) :
    (k % 2 ||| (x * 2) ||| Pattern.Mirror (2 * h + 1) (x * 2)) ∈ palindromes (2 * h + 1) k := by
  have hb : k % 2 < 2 := Nat.mod_lt _ (by norm_num)
  have hbits := testBit_unfold (k % 2) hb hx
  have hlt : (k % 2 ||| (x * 2) ||| Pattern.Mirror (2 * h + 1) (x * 2)) < 2 ^ (2 * h + 1) := by
    apply lt_two_pow_of_bits
    intro j hj
    rw [hbits, if_neg (by omega), if_neg (by omega), if_neg (by omega)]
  have hsym : ∀ j, 1 ≤ j → j < 2 * h + 1 →
      (k % 2 ||| (x * 2) ||| Pattern.Mirror (2 * h + 1) (x * 2)).testBit j =
        (k % 2 ||| (x * 2) ||| Pattern.Mirror (2 * h + 1) (x * 2)).testBit (2 * h + 1 - j) := by
    intro j h1 h2
    rw [hbits, hbits, if_neg (by omega), if_neg (by omega : ¬ 2 * h + 1 - j = 0)]
    by_cases hj : j ≤ h
    · rw [if_pos hj, if_neg (by omega), if_pos (by omega)]
      congr 1
      omega
    · rw [if_neg hj, if_pos h2, if_pos (by omega)]
      congr 1
      omega
  rw [mem_palindromes]
  refine ⟨⟨hlt, ?_⟩, (mirror_fixed_iff (by omega) hlt).2 hsym⟩
  rw [Pattern.AtomNum_eq, bitCount_palindrome hsym, hbits, if_pos rfl]
  have h2 : (∑ i ∈ Finset.range h,
      if (k % 2 ||| (x * 2) ||| Pattern.Mirror (2 * h + 1) (x * 2)).testBit (i + 1) = true
        then 1 else 0) = bitCount 0 h x := by
    unfold bitCount
    rw [← Finset.range_eq_Ico]
    apply Finset.sum_congr rfl
    intro i hi
    rw [Finset.mem_range] at hi
    rw [hbits, if_neg (by omega : ¬ i + 1 = 0), if_pos (by omega : i + 1 ≤ h),
      Nat.add_sub_cancel]
  rw [h2, hk]
  by_cases hodd : k % 2 = 1
  · rw [if_pos (by simpa using hodd)]
    omega
  · rw [if_neg (by simpa using hodd)]
    omega

/-- There are `C(h, k / 2)` palindromic codes of `k` atoms on `2h+1` sites. -/
theorem card_palindromes (h k : Nat) :
    (palindromes (2 * h + 1) k).card = Nat.choose h (k / 2) := by
  rw [← card_codes h (k / 2)]
  apply Finset.card_nbij' (fun c => (c / 2) % 2 ^ h)
    (fun x => k % 2 ||| (x * 2) ||| Pattern.Mirror (2 * h + 1) (x * 2))
  · intro c hc
    rw [mem_palindromes] at hc
    obtain ⟨⟨hc1, hc2⟩, hc3⟩ := hc
    rw [Pattern.AtomNum_eq] at hc2
    rw [mem_codes, Pattern.AtomNum_eq]
    exact ⟨Nat.mod_lt _ (Nat.two_pow_pos h), (half_of_palindrome hc1 hc2 hc3).1⟩
  · intro x hx
    rw [mem_codes, Pattern.AtomNum_eq] at hx
    exact unfold_is_palindrome hx.1 hx.2
  · intro c hc
    rw [mem_palindromes] at hc
    obtain ⟨⟨hc1, hc2⟩, hc3⟩ := hc
    rw [Pattern.AtomNum_eq] at hc2
    have hsym := (mirror_fixed_iff (by omega : 1 ≤ 2 * h + 1) hc1).1 hc3
    obtain ⟨_, hb0⟩ := half_of_palindrome hc1 hc2 hc3
    apply Nat.eq_of_testBit_eq
    intro j
    show (k % 2 ||| ((c / 2) % 2 ^ h * 2) |||
      Pattern.Mirror (2 * h + 1) ((c / 2) % 2 ^ h * 2)).testBit j = c.testBit j
    rw [testBit_unfold (k % 2) (Nat.mod_lt _ (by norm_num)) (Nat.mod_lt _ (Nat.two_pow_pos h))]
    by_cases h0 : j = 0
    · rw [if_pos h0, h0, hb0]
    · rw [if_neg h0]
      by_cases h1 : j ≤ h
      · rw [if_pos h1, testBit_half]
        have e : j - 1 + 1 = j := by omega
        simp [e, (by omega : j - 1 < h)]
      · rw [if_neg h1]
        by_cases h2 : j < 2 * h + 1
        · rw [if_pos h2, testBit_half, hsym j (by omega) h2]
          have e : 2 * h - j + 1 = 2 * h + 1 - j := by omega
          simp [e, (by omega : 2 * h - j < h)]
        · rw [if_neg h2]
          exact (testBit_of_lt hc1 (by omega)).symm
  · intro x hx
    rw [mem_codes] at hx
    apply Nat.eq_of_testBit_eq
    intro i
    show ((k % 2 ||| (x * 2) ||| Pattern.Mirror (2 * h + 1) (x * 2)) / 2 % 2 ^ h).testBit i =
      x.testBit i
    rw [testBit_half, testBit_unfold (k % 2) (Nat.mod_lt _ (by norm_num)) hx.1,
      if_neg (by omega)]
    by_cases hi : i < h
    · rw [if_pos (by omega), Nat.add_sub_cancel]
      simp [hi]
    · have : x.testBit i = false := testBit_of_lt hx.1 (by omega)
      simp [hi, this]

/-! ## The count of the palindromic patterns in `main` -/

/-- A loop that appends one value in each pass and counts the passes whose value is the
number of the pass. -/
theorem foldlM_append_count (g : Nat → Option Nat) :
    ∀ n : Nat, (∀ i, i < n → ∃ v, g i = some v) →
      ∃ M cnt, (List.range n).foldlM
          (fun (s : List Nat × Nat) (i : Nat) =>
            (g i).map fun (Pos : Nat) => (s.1 ++ [Pos], if Pos = i then s.2 + 1 else s.2))
          ([], 0) = some (M, cnt) ∧ M.length = n ∧ (∀ i, i < n → M.get? i = g i) ∧
        cnt = ((Finset.range n).filter fun i => g i = some i).card := by
  intro n
  induction n with
  | zero =>
    intro _
    exact ⟨[], 0, rfl, rfl, fun i hi => by omega, by simp⟩
  | succ n ih =>
    intro hall
    obtain ⟨M, cnt, hrun, hlen, hget, hcnt⟩ := ih (fun i hi => hall i (by omega))
    obtain ⟨v, hv⟩ := hall n (by omega)
    refine ⟨M ++ [v], if v = n then cnt + 1 else cnt, ?_, by simp [hlen], ?_, ?_⟩
    · rw [List.range_succ, List.foldlM_append, hrun]
      simp [hv]
    · intro i hi
      rw [List.get?_eq_getElem?]
      by_cases hin : i < n
      · rw [List.getElem?_append_left (by omega), ← List.get?_eq_getElem?]
        exact hget i hin
      · have : i = n := by omega
        rw [this, hv, List.getElem?_append_right (by omega), hlen]
        simp
    · rw [Finset.range_succ, Finset.filter_insert, hv]
      by_cases hvn : v = n
      · rw [if_pos hvn, if_pos (by rw [hvn]), Finset.card_insert_of_not_mem, hcnt]
        intro hmem
        have := (Finset.mem_filter.1 hmem).1
        rw [Finset.mem_range] at this
        omega
      · rw [if_neg hvn, if_neg (fun h => hvn (Option.some.inj h)), hcnt]

/-- The loop that fills `MirrorImage` on a good array of an odd number of sites: it
returns, and `PalinNum` is the number of the palindromic codes of `k` atoms. -/
theorem mirrorImages_run {p k fuel : Nat} {L : List Nat} (hL : GoodPrims p k L)
    (hp1 : 1 ≤ p) (hodd : p % 2 = 1) (hf2 : L.length ≤ fuel) :
    ∃ M n, MirrorImages fuel p L = some (M, n) ∧ M.length = L.length ∧
      (∀ i, i < L.length → ∃ c, L.get? i = some c ∧
        M.get? i = PatternPosition fuel L (Pattern.Mirror p c)) ∧
      n = ((Finset.range L.length).filter fun i => M.get? i = some i).card ∧
      n = (palindromes p k).card := by
  have hg : ∀ i, i < L.length → ∃ v,
      ((L.get? i).bind fun (c : Nat) => PatternPosition fuel L (Pattern.Mirror p c)) =
        some v := by
    intro i hi
    obtain ⟨c, hc⟩ := get_of_lt hi
    obtain ⟨mi, _, _, hpos⟩ := hL.mirror hp1 hf2 hc
    exact ⟨mi, by rw [hc, Option.some_bind, hpos]⟩
  obtain ⟨M, n, hrun, hMlen, hget, hcnt⟩ := foldlM_append_count _ L.length hg
  have hfun : (fun (s : List Nat × Nat) (i : Nat) =>
        (L.get? i).bind fun (Current : Nat) =>
          (PatternPosition fuel L (Pattern.Mirror p Current)).map fun (Pos : Nat) =>
            (s.1 ++ [Pos], if Pos = i then s.2 + 1 else s.2)) =
      fun (s : List Nat × Nat) (i : Nat) =>
        ((L.get? i).bind fun (c : Nat) => PatternPosition fuel L (Pattern.Mirror p c)).map
          fun (Pos : Nat) => (s.1 ++ [Pos], if Pos = i then s.2 + 1 else s.2) := by
    funext s i
    cases L.get? i <;> rfl
  have hfix : ∀ i c, L.get? i = some c →
      ((((L.get? i).bind fun (c : Nat) => PatternPosition fuel L (Pattern.Mirror p c)) =
        some i) ↔ Pattern.Mirror p c = c) := by
    intro i c hc
    obtain ⟨mi, _, hmget, hpos⟩ := hL.mirror hp1 hf2 hc
    rw [hc, Option.some_bind, hpos]
    constructor
    · intro h
      rw [Option.some.inj h, hc] at hmget
      exact (Option.some.inj hmget).symm
    · intro h
      rw [h] at hmget
      rw [get_inj hL.sorted hmget hc]
  refine ⟨M, n, ?_, hMlen, ?_, ?_, ?_⟩
  · unfold MirrorImages
    rw [hfun]
    exact hrun
  · intro i hi
    obtain ⟨c, hc⟩ := get_of_lt hi
    refine ⟨c, hc, ?_⟩
    rw [hget i hi, hc, Option.some_bind]
  · rw [hcnt]
    congr 1
    apply Finset.filter_congr
    intro i hi
    rw [Finset.mem_range] at hi
    rw [hget i hi]
  · rw [hcnt]
    apply Finset.card_bij (fun i _ => L.getD i 0)
    · intro i hi
      rw [Finset.mem_filter, Finset.mem_range] at hi
      obtain ⟨c, hc⟩ := get_of_lt hi.1
      have hval : L.getD i 0 = c := by
        rw [List.get?_eq_getElem?] at hc
        rw [List.getD_eq_getElem?_getD, hc]
        rfl
      rw [hval, mem_palindromes]
      exact ⟨⟨(hL.valid hc).1, (hL.valid hc).2.1⟩, (hfix i c hc).1 hi.2⟩
    · intro i hi j hj hij
      rw [Finset.mem_filter, Finset.mem_range] at hi hj
      obtain ⟨c, hc⟩ := get_of_lt hi.1
      obtain ⟨d, hd⟩ := get_of_lt hj.1
      have hvi : L.getD i 0 = c := by
        rw [List.get?_eq_getElem?] at hc
        rw [List.getD_eq_getElem?_getD, hc]
        rfl
      have hvj : L.getD j 0 = d := by
        rw [List.get?_eq_getElem?] at hd
        rw [List.getD_eq_getElem?_getD, hd]
        rfl
      simp only [hvi, hvj] at hij
      rw [← hij] at hd
      exact get_inj hL.sorted hc hd
    · intro c hc
      rw [mem_palindromes] at hc
      obtain ⟨⟨hc1, hc2⟩, hc3⟩ := hc
      have hmem : c ∈ L := (hL.mem c).2 (mem_codesWithSum.2
        ⟨⟨hc1, hc2⟩, PatternSum_of_mirror_fixed hp1 hodd hc3⟩)
      obtain ⟨i, hi, hget'⟩ := exists_get_of_mem hmem
      refine ⟨i, ?_, ?_⟩
      · rw [Finset.mem_filter, Finset.mem_range]
        exact ⟨hi, (hfix i c hget').2 hc3⟩
      · rw [List.get?_eq_getElem?] at hget'
        rw [List.getD_eq_getElem?_getD, hget']
        rfl

/-! ## The matrix of a momentum `q` that is not zero -/

/-- One pass of a loop that fills the row `i` and then changes the entry on the
diagonal. -/
theorem fill_row_then {V : Type} (N i : Nat) (hi : i < N) (e : Nat → V) (g : V → V)
    (U : Nat → V) (a b : Nat) (hb : b < N) :
    Function.update
        ((List.range N).foldl (fun (W : Nat → V) (j : Nat) =>
          Function.update W (Element N i j) (e j)) U)
        (Element N i i)
        (g ((List.range N).foldl (fun (W : Nat → V) (j : Nat) =>
          Function.update W (Element N i j) (e j)) U (Element N i i))) (Element N a b) =
      if a = i then (if a = b then g (e b) else e b) else U (Element N a b) := by
  have h1 := fill_row N i e U N (le_refl N) i i hi
  have h2 := fill_row N i e U N (le_refl N) a b hb
  rw [Function.update_apply, h1, h2]
  have hii : (i = i ∧ i < N) := ⟨rfl, hi⟩
  rw [if_pos hii]
  by_cases h : a = i ∧ b = i
  · obtain ⟨ha, hb'⟩ := h
    subst ha
    subst hb'
    simp
  · have hne : ¬ Element N a b = Element N i i := fun e' => h ((Element_eq_iff hb hi).1 e')
    rw [if_neg hne]
    by_cases har : a = i
    · subst har
      have hab : ¬ a = b := fun e' => h ⟨rfl, e'.symm⟩
      simp [hb, hab]
    · simp [har]

/-- The value a loop that fills the rows and changes the diagonal leaves in the entry
`(a, b)`. -/
theorem fill_rows {V : Type} (N : Nat) (e : Nat → Nat → V) (g : Nat → V → V) (U : Nat → V) :
    ∀ r, r ≤ N → ∀ a b, b < N →
      (List.range r).foldl
        (fun (U : Nat → V) (i : Nat) =>
          let U1 := (List.range N).foldl
            (fun (W : Nat → V) (j : Nat) => Function.update W (Element N i j) (e i j)) U
          Function.update U1 (Element N i i) (g i (U1 (Element N i i)))) U (Element N a b) =
        if a < r then (if a = b then g a (e a b) else e a b) else U (Element N a b) := by
  intro r
  induction r with
  | zero =>
    intro _ a b _
    simp
  | succ r ih =>
    intro hr a b hb
    rw [List.range_succ, List.foldl_append, List.foldl_cons, List.foldl_nil]
    simp only []
    rw [fill_row_then N r (by omega) (fun j => e r j) (g r) _ a b hb]
    by_cases har : a = r
    · subst har
      simp
    · rw [if_neg har, ih (by omega) a b hb]
      by_cases h2 : a < r
      · have h3 : a < r + 1 := by omega
        simp only [if_pos h2, if_pos h3]
      · have h3 : ¬ a < r + 1 := by omega
        simp only [if_neg h2, if_neg h3]

/-- The value the loop "Fill submatrix with momentum q" leaves in
`qNonZero[Element(i,j)]`. -/
theorem NonZeroMomentumMatrix_apply {K : Type} [Field K] (A B C D : K) (t : RateTables)
    (N : Nat) (f b : Cplx K) (U : Nat → Cplx K) {i j : Nat} (hi : i < N) (hj : j < N) :
    NonZeroMomentumMatrix A B C D t N f b U (Element N i j) =
      if i = j then Cplx.sub (NonZeroEntry A B C D t N f b i j)
          ⟨(t.Diagonal i).rate A B C D, 0⟩
      else NonZeroEntry A B C D t N f b i j := by
  unfold NonZeroMomentumMatrix
  have h := fill_rows N (fun i j => NonZeroEntry A B C D t N f b i j)
    (fun i x => Cplx.sub x ⟨(t.Diagonal i).rate A B C D, 0⟩) U N (le_refl N) i j hj
  rw [if_pos hi] at h
  exact h

/-- The inner loop of a symmetrization for the row `i`: the entry `(i, j)`, `j > i`, is
changed by `s`, and the entry `(j, i)` becomes the image under `c` of the new one. -/
theorem sym_row_gen {V : Type} (s : Nat → Nat → V → V) (c : V → V) (N i : Nat) (hi : i < N)
    (U : Nat → V) :
    ∀ n, i + 1 + n ≤ N → ∀ a b, a < N → b < N →
      (List.range' (i + 1) n).foldl
        (fun (W : Nat → V) (j : Nat) =>
          let W1 := Function.update W (Element N i j) (s i j (W (Element N i j)))
          Function.update W1 (Element N j i) (c (W1 (Element N i j)))) U (Element N a b) =
        if a = i ∧ i < b ∧ b < i + 1 + n then s i b (U (Element N i b))
        else if b = i ∧ i < a ∧ a < i + 1 + n then c (s i a (U (Element N i a)))
        else U (Element N a b) := by
  intro n
  induction n with
  | zero =>
    intro _ a b _ _
    have h1 : ¬ (a = i ∧ i < b ∧ b < i + 1 + 0) := by omega
    have h2 : ¬ (b = i ∧ i < a ∧ a < i + 1 + 0) := by omega
    simp only [List.range'_zero, List.foldl_nil, if_neg h1, if_neg h2]
  | succ n ih =>
    intro hn a b ha hb
    rw [List.range'_1_concat, List.foldl_append, List.foldl_cons, List.foldl_nil]
    have ihn := ih (by omega)
    generalize List.foldl _ U (List.range' (i + 1) n) = W at ihn ⊢
    have hcur := ihn i (i + 1 + n) hi (by omega)
    have hc1 : ¬ (i = i ∧ i < i + 1 + n ∧ i + 1 + n < i + 1 + n) := by omega
    have hc2 : ¬ (i + 1 + n = i ∧ i < i ∧ i < i + 1 + n) := by omega
    rw [if_neg hc1, if_neg hc2] at hcur
    simp only [Function.update_same]
    rw [Function.update_apply, Function.update_apply, hcur, ihn a b ha hb]
    by_cases h1 : a = i + 1 + n ∧ b = i
    · obtain ⟨h1a, h1b⟩ := h1
      have e1 : Element N a b = Element N (i + 1 + n) i := by rw [h1a, h1b]
      have e2 : ¬ (a = i ∧ i < b ∧ b < i + 1 + (n + 1)) := by omega
      have e3 : b = i ∧ i < a ∧ a < i + 1 + (n + 1) := by omega
      rw [if_pos e1, if_neg e2, if_pos e3, h1a]
    · have e1 : ¬ Element N a b = Element N (i + 1 + n) i :=
        fun e' => h1 ((Element_eq_iff hb hi).1 e')
      rw [if_neg e1]
      by_cases h2 : a = i ∧ b = i + 1 + n
      · obtain ⟨h2a, h2b⟩ := h2
        have e2 : Element N a b = Element N i (i + 1 + n) := by rw [h2a, h2b]
        have e3 : a = i ∧ i < b ∧ b < i + 1 + (n + 1) := by omega
        rw [if_pos e2, if_pos e3, h2b]
      · have e2 : ¬ Element N a b = Element N i (i + 1 + n) :=
          fun e' => h2 ((Element_eq_iff hb (by omega)).1 e')
        rw [if_neg e2]
        by_cases h3 : a = i ∧ i < b ∧ b < i + 1 + n
        · have e3 : a = i ∧ i < b ∧ b < i + 1 + (n + 1) := by omega
          rw [if_pos h3, if_pos e3]
        · have e3 : ¬ (a = i ∧ i < b ∧ b < i + 1 + (n + 1)) := by omega
          rw [if_neg h3, if_neg e3]
          by_cases h4 : b = i ∧ i < a ∧ a < i + 1 + n
          · have e4 : b = i ∧ i < a ∧ a < i + 1 + (n + 1) := by omega
            rw [if_pos h4, if_pos e4]
          · have e4 : ¬ (b = i ∧ i < a ∧ a < i + 1 + (n + 1)) := by omega
            rw [if_neg h4, if_neg e4]

/-- The value a symmetrization over all rows leaves in the entry `(a, b)`. -/
theorem sym_rows_gen {V : Type} (s : Nat → Nat → V → V) (c : V → V) (N : Nat) (U : Nat → V) :
    ∀ r, r ≤ N → ∀ a b, a < N → b < N →
      (List.range r).foldl
        (fun (U : Nat → V) (i : Nat) =>
          (List.range' (i + 1) (N - (i + 1))).foldl
            (fun (W : Nat → V) (j : Nat) =>
              let W1 := Function.update W (Element N i j) (s i j (W (Element N i j)))
              Function.update W1 (Element N j i) (c (W1 (Element N i j))))
            U) U (Element N a b) =
        if a < b ∧ a < r then s a b (U (Element N a b))
        else if b < a ∧ b < r then c (s b a (U (Element N b a)))
        else U (Element N a b) := by
  intro r
  induction r with
  | zero =>
    intro _ a b _ _
    have h1 : ¬ (a < b ∧ a < 0) := by omega
    have h2 : ¬ (b < a ∧ b < 0) := by omega
    simp only [List.range_zero, List.foldl_nil, if_neg h1, if_neg h2]
  | succ r ih =>
    intro hr a b ha hb
    rw [List.range_succ, List.foldl_append, List.foldl_cons, List.foldl_nil,
      sym_row_gen s c N r (by omega) _ (N - (r + 1)) (by omega) a b ha hb]
    by_cases h1 : a = r ∧ r < b ∧ b < r + 1 + (N - (r + 1))
    · rw [if_pos h1, ih (by omega) r b (by omega) hb]
      have e1 : ¬ (r < b ∧ r < r) := by omega
      have e2 : ¬ (b < r ∧ b < r) := by omega
      have e3 : a < b ∧ a < r + 1 := by omega
      rw [if_neg e1, if_neg e2, if_pos e3, h1.1]
    · rw [if_neg h1]
      by_cases h2 : b = r ∧ r < a ∧ a < r + 1 + (N - (r + 1))
      · rw [if_pos h2, ih (by omega) r a (by omega) ha]
        have e1 : ¬ (r < a ∧ r < r) := by omega
        have e2 : ¬ (a < r ∧ a < r) := by omega
        have e3 : ¬ (a < b ∧ a < r + 1) := by omega
        have e4 : b < a ∧ b < r + 1 := by omega
        rw [if_neg e1, if_neg e2, if_neg e3, if_pos e4, h2.1]
      · rw [if_neg h2, ih (by omega) a b ha hb]
        by_cases h3 : a < b ∧ a < r
        · have e3 : a < b ∧ a < r + 1 := by omega
          rw [if_pos h3, if_pos e3]
        · have e3 : ¬ (a < b ∧ a < r + 1) := by omega
          rw [if_neg h3, if_neg e3]
          by_cases h4 : b < a ∧ b < r
          · have e4 : b < a ∧ b < r + 1 := by omega
            rw [if_pos h4, if_pos e4]
          · have e4 : ¬ (b < a ∧ b < r + 1) := by omega
            rw [if_neg h4, if_neg e4]

/-- The value the loop "Symmetrization Procedure" leaves in `qNonZero[Element(a,b)]`. -/
theorem SymmetrizeHerm_apply {K : Type} [Field K] (sqrt : K → K) (E : Nat → K) (N : Nat)
    (U : Nat → Cplx K) {a b : Nat} (ha : a < N) (hb : b < N) :
    SymmetrizeHerm sqrt E N U (Element N a b) =
      if a < b then Cplx.scale (U (Element N a b)) (sqrt (E b / E a))
      else if b < a then Cplx.conj (Cplx.scale (U (Element N b a)) (sqrt (E a / E b)))
      else U (Element N a b) := by
  unfold SymmetrizeHerm
  have h := sym_rows_gen (fun i j x => Cplx.scale x (sqrt (E j / E i))) Cplx.conj N U N
    (le_refl N) a b ha hb
  by_cases h1 : a < b
  · rw [if_pos ⟨h1, ha⟩] at h
    rw [if_pos h1]
    exact h
  · have e1 : ¬ (a < b ∧ a < N) := fun h => h1 h.1
    rw [if_neg e1] at h
    rw [if_neg h1]
    by_cases h2 : b < a
    · rw [if_pos ⟨h2, hb⟩] at h
      rw [if_pos h2]
      exact h
    · have e2 : ¬ (b < a ∧ b < N) := fun h => h2 h.1
      rw [if_neg e2] at h
      rw [if_neg h2]
      exact h

/-! ## Detailed balance of the forward and the backward moves -/

/-- The rate of an entry of the rate tables in terms of the counters read by type. -/
theorem rate_coeff {K : Type} [Field K] (A B C D : K) (d : DecayCoefficients) :
    d.rate A B C D = A * ((d.coeff 0 : Nat) : K) + B * ((d.coeff 1 : Nat) : K) +
      C * ((d.coeff 2 : Nat) : K) + D * ((d.coeff 3 : Nat) : K) :=
  rfl

/-- Detailed balance by direction: the forward moves from `i` to `j` are in balance with
the backward moves from `j` to `i`, and the backward moves from `i` to `j` with the
forward moves from `j` to `i`, against the weights `(RateB/RateC)^(k - 1 - bonds)`. -/
theorem directional_balance {K : Type} [LinearOrderedField K] {p k fuel : Nat} {L : List Nat}
    {t : RateTables} (hL : GoodPrims p k L) (hprime : Nat.Prime p) (hp3 : 3 ≤ p) (hp : p ≤ 31)
    (hk0 : 0 < k) (hkp : k < p) (hf1 : p ≤ fuel) (hf2 : L.length ≤ fuel)
    (hasm : AssembleRates fuel p k L = some t) (A B C D N : K) (hB : 0 < B) (hC : 0 < C)
    {i j ci cj : Nat} (hi : L.get? i = some ci) (hj : L.get? j = some cj) :
    (t.Forward (Element L.length j i)).rate A B C D *
        ((B / C) ^ ((k : Int) - 1 - bonds p ci) * N) =
      (t.Backward (Element L.length i j)).rate A B C D *
        ((B / C) ^ ((k : Int) - 1 - bonds p cj) * N) ∧
    (t.Backward (Element L.length j i)).rate A B C D *
        ((B / C) ^ ((k : Int) - 1 - bonds p ci) * N) =
      (t.Forward (Element L.length i j)).rate A B C D *
        ((B / C) ^ ((k : Int) - 1 - bonds p cj) * N) := by
  obtain ⟨m, hm, hm0, hsites⟩ := rate_tables_sites hL hprime hp hk0 hkp hf1 hf2 hasm
  have hci := (hL.valid hi).1
  have hcj := (hL.valid hj).1
  have hmr : m + (p - m) = p := by omega
  -- the counters of the reverse moves are those of the moves with B and C exchanged
  have hrevF : ∀ T, T < 4 → (t.Backward (Element L.length i j)).coeff (swapBC T) =
      (t.Forward (Element L.length j i)).coeff T := by
    intro T hT
    rw [(hsites j i cj ci hj hi T hT).1,
      (hsites i j ci cj hi hj (swapBC T) (swapBC_lt hT)).2,
      card_incSites_eq hp3 hp hmr hci hcj]
  have hrevB : ∀ T, T < 4 → (t.Forward (Element L.length i j)).coeff (swapBC T) =
      (t.Backward (Element L.length j i)).coeff T := by
    intro T hT
    rw [(hsites j i cj ci hj hi T hT).2,
      (hsites i j ci cj hi hj (swapBC T) (swapBC_lt hT)).1,
      card_incSites_eq (T := swapBC T) hp3 hp hmr hcj hci, swapBC_swapBC]
  have hbondF : ∀ T, T < 4 → 0 < (t.Forward (Element L.length j i)).coeff T →
      (bonds p cj : Int) = bonds p ci + bondChange T := by
    intro T hT hpos
    rw [(hsites j i cj ci hj hi T hT).1] at hpos
    obtain ⟨a, ha⟩ := Finset.card_pos.1 hpos
    exact bonds_of_incSite hp3 hp hci ha
  have hbondB : ∀ T, T < 4 → 0 < (t.Backward (Element L.length j i)).coeff T →
      (bonds p cj : Int) = bonds p ci + bondChange T := by
    intro T hT hpos
    rw [(hsites j i cj ci hj hi T hT).2] at hpos
    obtain ⟨a, ha⟩ := Finset.card_pos.1 hpos
    exact bonds_of_decSite hp3 hp hci ha
  constructor
  · have r0 := hrevF 0 (by omega)
    have r1 := hrevF 1 (by omega)
    have r2 := hrevF 2 (by omega)
    have r3 := hrevF 3 (by omega)
    have b0 := hbondF 0 (by omega)
    have b1 := hbondF 1 (by omega)
    have b2 := hbondF 2 (by omega)
    have b3 := hbondF 3 (by omega)
    simp only [swapBC, bondChange] at r0 r1 r2 r3 b0 b1 b2 b3
    rw [rate_coeff, rate_coeff, r0, r1, r2, r3]
    have := balance_algebra A B C D N hB hC _ _ _ _ k (bonds p cj) (bonds p ci)
      (fun h => by have := b0 h; omega) (fun h => by have := b3 h; omega)
      (fun h => by have := b1 h; omega) (fun h => by have := b2 h; omega)
    rw [this]
    ring
  · have r0 := hrevB 0 (by omega)
    have r1 := hrevB 1 (by omega)
    have r2 := hrevB 2 (by omega)
    have r3 := hrevB 3 (by omega)
    have b0 := hbondB 0 (by omega)
    have b1 := hbondB 1 (by omega)
    have b2 := hbondB 2 (by omega)
    have b3 := hbondB 3 (by omega)
    simp only [swapBC, bondChange] at r0 r1 r2 r3 b0 b1 b2 b3
    rw [rate_coeff, rate_coeff, r0, r1, r2, r3]
    have := balance_algebra A B C D N hB hC _ _ _ _ k (bonds p cj) (bonds p ci)
      (fun h => by have := b0 h; omega) (fun h => by have := b3 h; omega)
      (fun h => by have := b1 h; omega) (fun h => by have := b2 h; omega)
    rw [this]
    ring

/-- With `BackwardRoot` the conjugate of `ForwardRoot`, the balance by direction makes
the entries of the matrix of the momentum `q` conjugate to each other up to the
weights. -/
theorem NonZeroEntry_balance {K : Type} [Field K] (A B C D : K) (t : RateTables) (n : Nat)
    (f : Cplx K) (i j : Nat) (wi wj : K)
    (h1 : (t.Forward (Element n j i)).rate A B C D * wi =
      (t.Backward (Element n i j)).rate A B C D * wj)
    (h2 : (t.Backward (Element n j i)).rate A B C D * wi =
      (t.Forward (Element n i j)).rate A B C D * wj) :
    Cplx.scale (NonZeroEntry A B C D t n f (Cplx.conj f) j i) wi =
      Cplx.scale (Cplx.conj (NonZeroEntry A B C D t n f (Cplx.conj f) i j)) wj := by
  rw [Cplx.eq_iff]
  simp only [NonZeroEntry, Cplx.scale, Cplx.add, Cplx.conj]
  constructor
  · linear_combination f.re * h1 + f.re * h2
  · linear_combination f.im * h1 - f.im * h2

/-! ## The prefactors of a momentum and the symmetrized matrix -/

/-- The entries `i` and `p - i` of the table of the roots of unity are conjugate. -/
theorem UnityRoots_conj (p i : Nat) (hp : 0 < p) (hi : i ≤ p) :
    UnityRoots Real.cos Real.sin (Pi Real.arctan) p i =
      Cplx.conj (UnityRoots Real.cos Real.sin (Pi Real.arctan) p (p - i)) := by
  rw [UnityRoots_apply _ _ _ p i hi, UnityRoots_apply _ _ _ p (p - i) (Nat.sub_le p i),
    Pi_arctan]
  have hp0 : (p : ℝ) ≠ 0 := Nat.cast_ne_zero.2 (by omega)
  have e : 2 * ((p - i : Nat) : ℝ) * Real.pi / (p : ℝ) =
      2 * Real.pi - 2 * (i : ℝ) * Real.pi / (p : ℝ) := by
    rw [Nat.cast_sub hi]
    field_simp
    ring
  rw [e, Real.cos_two_pi_sub, Real.sin_two_pi_sub]
  simp only [Cplx.conj, neg_neg]

/-- The prefactor `BackwardRoot` is the conjugate of `ForwardRoot`, for every momentum. -/
theorem prefactors_conj (p : Nat) (hp : 0 < p) (m q : Int) :
    BackwardRoot (UnityRoots Real.cos Real.sin (Pi Real.arctan) p) p m q =
      Cplx.conj (ForwardRoot (UnityRoots Real.cos Real.sin (Pi Real.arctan) p) p m q) := by
  obtain ⟨h0, h1⟩ := PrefactorIndex_range p m q (by exact_mod_cast hp)
  obtain ⟨i, hi⟩ := Int.eq_ofNat_of_zero_le h0
  unfold BackwardRoot ForwardRoot
  rw [hi] at h1 ⊢
  have hip : i < p := by exact_mod_cast h1
  have e : ((p : Int) - (i : Int)).toNat = p - i := by omega
  rw [Int.toNat_ofNat, e]
  exact UnityRoots_conj p i hp hip.le

/-- A complex matrix conjugated by a diagonal matrix of nonzero entries has the entries
`M i j * d j / d i`, and the same spectrum. -/
theorem diagonal_conj_complex {n : Nat} (M S : Matrix (Fin n) (Fin n) ℂ) (d : Fin n → ℂ)
    (hd : ∀ i, d i ≠ 0) (hS : ∀ i j, S i j = M i j * d j / d i) :
    S = Matrix.diagonal (fun i => (d i)⁻¹) * M * Matrix.diagonal d ∧
      spectrum ℂ S = spectrum ℂ M := by
  have h1 : S = Matrix.diagonal (fun i => (d i)⁻¹) * M * Matrix.diagonal d := by
    ext i j
    rw [Matrix.mul_diagonal, Matrix.diagonal_mul, hS i j]
    field_simp [hd i]
  have hinv1 : Matrix.diagonal (fun i => (d i)⁻¹) * Matrix.diagonal d = 1 := by
    rw [Matrix.diagonal_mul_diagonal]
    have : (fun i => (d i)⁻¹ * d i) = fun _ => (1 : ℂ) := by
      funext i
      exact inv_mul_cancel₀ (hd i)
    rw [this, Matrix.diagonal_one]
  have hinv2 : Matrix.diagonal d * Matrix.diagonal (fun i => (d i)⁻¹) = 1 := by
    rw [Matrix.diagonal_mul_diagonal]
    have : (fun i => d i * (d i)⁻¹) = fun _ => (1 : ℂ) := by
      funext i
      exact mul_inv_cancel₀ (hd i)
    rw [this, Matrix.diagonal_one]
  refine ⟨h1, ?_⟩
  have hu := spectrum.units_conjugate (R := ℂ) (a := M)
    (u := (⟨Matrix.diagonal (fun i => (d i)⁻¹), Matrix.diagonal d, hinv1, hinv2⟩ :
      (Matrix (Fin n) (Fin n) ℂ)ˣ))
  rw [h1]
  exact hu

/-- The symmetrized matrix of a momentum in terms of the matrix before: with entries
that are conjugate to each other up to positive weights and a real diagonal, every entry
is the one before times `sqrt(w b) / sqrt(w a)`, and the entries `(a, b)` and `(b, a)`
are conjugate. -/
theorem SymmetrizeHerm_similar (w : Nat → ℝ) (N : Nat) (G : Nat → Cplx ℝ)
    (hw : ∀ a, a < N → 0 < w a)
    (hbal : ∀ a b, a < N → b < N → a ≠ b →
      Cplx.scale (G (Element N b a)) (w a) = Cplx.scale (Cplx.conj (G (Element N a b))) (w b))
    (hdiag : ∀ a, a < N → (G (Element N a a)).im = 0) {a b : Nat} (ha : a < N) (hb : b < N) :
    SymmetrizeHerm Real.sqrt w N G (Element N a b) =
        Cplx.scale (G (Element N a b)) (Real.sqrt (w b) / Real.sqrt (w a)) ∧
      SymmetrizeHerm Real.sqrt w N G (Element N b a) =
        Cplx.conj (SymmetrizeHerm Real.sqrt w N G (Element N a b)) := by
  have hpa := hw a ha
  have hpb := hw b hb
  have hsa : 0 < Real.sqrt (w a) := Real.sqrt_pos.2 hpa
  have hsb : 0 < Real.sqrt (w b) := Real.sqrt_pos.2 hpb
  have hsa2 : Real.sqrt (w a) * Real.sqrt (w a) = w a := Real.mul_self_sqrt hpa.le
  have hsb2 : Real.sqrt (w b) * Real.sqrt (w b) = w b := Real.mul_self_sqrt hpb.le
  rw [SymmetrizeHerm_apply _ _ _ _ ha hb, SymmetrizeHerm_apply _ _ _ _ hb ha]
  rcases Nat.lt_trichotomy a b with h | h | h
  · rw [if_pos h, if_neg (by omega : ¬ b < a), if_pos h, Real.sqrt_div hpb.le]
    exact ⟨rfl, rfl⟩
  · subst h
    rw [if_neg (by omega : ¬ a < a), if_neg (by omega : ¬ a < a)]
    constructor
    · rw [div_self (ne_of_gt hsa), Cplx.eq_iff]
      simp [Cplx.scale]
    · rw [Cplx.eq_iff]
      simp [Cplx.conj, hdiag a ha]
  · rw [if_neg (by omega : ¬ a < b), if_pos h, if_pos h, Real.sqrt_div hpa.le]
    have hb' := hbal a b ha hb (by omega)
    rw [Cplx.eq_iff] at hb'
    simp only [Cplx.scale, Cplx.conj] at hb'
    obtain ⟨hre, him⟩ := hb'
    rw [← hsa2, ← hsb2] at hre him
    constructor
    · rw [Cplx.eq_iff]
      simp only [Cplx.scale, Cplx.conj]
      constructor
      · field_simp
        linear_combination hre
      · field_simp
        linear_combination (-1 : ℝ) * him
    · rw [Cplx.eq_iff]
      simp only [Cplx.scale, Cplx.conj, neg_neg, and_self]

/-! ## The inner loops of the QR routines, pass by pass -/

/-- A pass of the inner loop of `QRSymm` with the test failed and the limit not
reached. -/
theorem QRSymmInner_pass {K : Type} [LinearOrderedField K] (sqrt : K → K) (b : Bool)
    (n i fuel Count : Nat) (r : QRTest K × QRSymmState K)
    (hc : i > 1 ∧ r.1.Ratio > Accu K) (hC : Count + 1 ≤ MaxIter) :
    QRSymmInner sqrt b n i (fuel + 1) Count r.1 r.2 =
      QRSymmInner sqrt b n i fuel (Count + 1) (QRSymmPass sqrt b n i r).1
        (QRSymmPass sqrt b n i r).2 := by
  rw [QRSymmInner, if_pos hc]
  simp only []
  rw [if_neg (by omega : ¬ Count + 1 > MaxIter)]
  rfl

/-- The inner loop of `QRSymm` from the counter `Count`, pass by pass: when the test
fails before each of the first `j` passes, these are made; the loop returns after them
if the test is then passed, and it ends the program if the test fails still and the
counter has reached `MaxIter`. -/
theorem QRSymmInner_iterate {K : Type} [LinearOrderedField K] (sqrt : K → K) (b : Bool)
    (n i : Nat) :
    ∀ (j fuel Count : Nat) (r : QRTest K × QRSymmState K), Count + j ≤ MaxIter → j < fuel →
      (∀ j', j' < j → i > 1 ∧ ((QRSymmPass sqrt b n i)^[j'] r).1.Ratio > Accu K) →
      ((QRSymmPass sqrt b n i)^[j] r).2.Dots = r.2.Dots + j ∧
      (¬ (i > 1 ∧ ((QRSymmPass sqrt b n i)^[j] r).1.Ratio > Accu K) →
        QRSymmInner sqrt b n i fuel Count r.1 r.2 =
          some (.Return ((QRSymmPass sqrt b n i)^[j] r))) ∧
      (Count + j = MaxIter → (i > 1 ∧ ((QRSymmPass sqrt b n i)^[j] r).1.Ratio > Accu K) →
        QRSymmInner sqrt b n i fuel Count r.1 r.2 =
          some (.NoConvergence ((QRSymmPass sqrt b n i)^[j] r))) := by
  intro j
  induction j with
  | zero =>
    intro fuel Count r hC hf _
    obtain ⟨f, rfl⟩ : ∃ f, fuel = f + 1 := ⟨fuel - 1, by omega⟩
    refine ⟨rfl, ?_, ?_⟩
    · intro hc
      rw [Function.iterate_zero, id] at hc ⊢
      rw [QRSymmInner, if_neg hc]
    · intro hM hc
      rw [Function.iterate_zero, id] at hc ⊢
      rw [QRSymmInner, if_pos hc]
      simp only []
      rw [if_pos (by omega : Count + 1 > MaxIter)]
  | succ j ih =>
    intro fuel Count r hC hf hall
    obtain ⟨f, rfl⟩ : ∃ f, fuel = f + 1 := ⟨fuel - 1, by omega⟩
    have h0 := hall 0 (by omega)
    rw [Function.iterate_zero, id] at h0
    have hstep := QRSymmInner_pass sqrt b n i f Count r h0 (by omega)
    obtain ⟨h1, h2, h3⟩ := ih f (Count + 1) (QRSymmPass sqrt b n i r) (by omega) (by omega)
      (fun j' hj' => by
        have := hall (j' + 1) (by omega)
        rw [Function.iterate_succ_apply] at this
        exact this)
    rw [Function.iterate_succ_apply, hstep]
    refine ⟨?_, h2, fun hM => h3 (by omega)⟩
    rw [h1]
    show (QRSymmSweep sqrt b n i r.1.SuperDiagNorm1 r.2).Dots + 1 + j = r.2.Dots + (j + 1)
    rw [QRSymmSweep_Dots]
    omega

/-- A pass of the inner loop of `QRHerm` with the test failed and the limit not
reached. -/
theorem QRHermInner_pass {K : Type} [LinearOrderedField K] (sqrt : K → K) (b : Bool)
    (n i fuel Count : Nat) (r : QRTest K × QRHermState K)
    (hc : i > 1 ∧ r.1.Ratio > Accu K * Accu K) (hC : Count + 1 ≤ MaxIter) :
    QRHermInner sqrt b n i (fuel + 1) Count r.1 r.2 =
      QRHermInner sqrt b n i fuel (Count + 1) (QRHermPass sqrt b n i r).1
        (QRHermPass sqrt b n i r).2 := by
  rw [QRHermInner, if_pos hc]
  simp only []
  rw [if_neg (by omega : ¬ Count + 1 > MaxIter)]
  rfl

/-- The inner loop of `QRHerm` from the counter `Count`, pass by pass, as
`QRSymmInner_iterate`. -/
theorem QRHermInner_iterate {K : Type} [LinearOrderedField K] (sqrt : K → K) (b : Bool)
    (n i : Nat) :
    ∀ (j fuel Count : Nat) (r : QRTest K × QRHermState K), Count + j ≤ MaxIter → j < fuel →
      (∀ j', j' < j →
        i > 1 ∧ ((QRHermPass sqrt b n i)^[j'] r).1.Ratio > Accu K * Accu K) →
      ((QRHermPass sqrt b n i)^[j] r).2.Dots = r.2.Dots + j ∧
      (¬ (i > 1 ∧ ((QRHermPass sqrt b n i)^[j] r).1.Ratio > Accu K * Accu K) →
        QRHermInner sqrt b n i fuel Count r.1 r.2 =
          some (.Return ((QRHermPass sqrt b n i)^[j] r))) ∧
      (Count + j = MaxIter →
        (i > 1 ∧ ((QRHermPass sqrt b n i)^[j] r).1.Ratio > Accu K * Accu K) →
        QRHermInner sqrt b n i fuel Count r.1 r.2 =
          some (.NoConvergence ((QRHermPass sqrt b n i)^[j] r))) := by
  intro j
  induction j with
  | zero =>
    intro fuel Count r hC hf _
    obtain ⟨f, rfl⟩ : ∃ f, fuel = f + 1 := ⟨fuel - 1, by omega⟩
    refine ⟨rfl, ?_, ?_⟩
    · intro hc
      rw [Function.iterate_zero, id] at hc ⊢
      rw [QRHermInner, if_neg hc]
    · intro hM hc
      rw [Function.iterate_zero, id] at hc ⊢
      rw [QRHermInner, if_pos hc]
      simp only []
      rw [if_pos (by omega : Count + 1 > MaxIter)]
  | succ j ih =>
    intro fuel Count r hC hf hall
    obtain ⟨f, rfl⟩ : ∃ f, fuel = f + 1 := ⟨fuel - 1, by omega⟩
    have h0 := hall 0 (by omega)
    rw [Function.iterate_zero, id] at h0
    have hstep := QRHermInner_pass sqrt b n i f Count r h0 (by omega)
    obtain ⟨h1, h2, h3⟩ := ih f (Count + 1) (QRHermPass sqrt b n i r) (by omega) (by omega)
      (fun j' hj' => by
        have := hall (j' + 1) (by omega)
        rw [Function.iterate_succ_apply] at this
        exact this)
    rw [Function.iterate_succ_apply, hstep]
    refine ⟨?_, h2, fun hM => h3 (by omega)⟩
    rw [h1]
    show (QRHermSweep sqrt b n i r.1.SuperDiagNorm1 r.2).Dots + 1 + j = r.2.Dots + (j + 1)
    rw [QRHermSweep_Dots]
    omega

/-- One stage of the outer loop of `QRSymm` in terms of the passes of its inner loop,
which starts with the counter 0: when the test fails before each of the first `j`
passes, the stage ends the program if `j = MaxIter` and the test fails still, and else,
the test passed, the loop goes on with the index lowered by 1, or by 2 after the Jacobi
rotation. -/
theorem QRSymmOuter_stage {K : Type} [LinearOrderedField K] (sqrt : K → K) (b : Bool)
    (n F : Nat) (hF : MaxIter + 1 ≤ F) (f : Nat) (i : Int) (hi : 0 < i) (s : QRSymmState K)
    (j : Nat) (hj : j ≤ MaxIter) (r : QRTest K × QRSymmState K)
    (hr : r = (QRSymmPass sqrt b n i.toNat)^[j] (QRSymmTest s.ExDiag i.toNat, s))
    (hall : ∀ j', j' < j → i.toNat > 1 ∧
      ((QRSymmPass sqrt b n i.toNat)^[j'] (QRSymmTest s.ExDiag i.toNat, s)).1.Ratio > Accu K) :
    (j = MaxIter → (i.toNat > 1 ∧ r.1.Ratio > Accu K) →
      QRSymmOuter sqrt b n F (f + 1) i s = some (.NoConvergence r.2)) ∧
    (¬ (i.toNat > 1 ∧ r.1.Ratio > Accu K) → r.1.Flag = true →
      QRSymmOuter sqrt b n F (f + 1) i s = QRSymmOuter sqrt b n F f (i - 1) r.2) ∧
    (¬ (i.toNat > 1 ∧ r.1.Ratio > Accu K) → r.1.Flag = false →
      QRSymmOuter sqrt b n F (f + 1) i s =
        QRSymmOuter sqrt b n F f (i - 2) (QRSymmJacobi sqrt b n i.toNat r.2)) := by
  obtain ⟨_, h2, h3⟩ := QRSymmInner_iterate sqrt b n i.toNat j F 0
    (QRSymmTest s.ExDiag i.toNat, s) (by omega) (by omega) hall
  rw [← hr] at h2 h3
  refine ⟨?_, ?_, ?_⟩
  · intro hM hc
    rw [QRSymmOuter, if_pos hi, h3 (by omega) hc]
  · intro hc hflag
    rw [QRSymmOuter, if_pos hi, h2 hc]
    simp only []
    rw [if_pos hflag]
  · intro hc hflag
    rw [QRSymmOuter, if_pos hi, h2 hc]
    simp only []
    rw [if_neg (by rw [hflag]; exact Bool.false_ne_true)]

/-- One stage of the outer loop of `QRHerm`, as `QRSymmOuter_stage`. -/
theorem QRHermOuter_stage {K : Type} [LinearOrderedField K] (sqrt : K → K) (b : Bool)
    (n F : Nat) (hF : MaxIter + 1 ≤ F) (f : Nat) (i : Int) (hi : 0 < i) (s : QRHermState K)
    (j : Nat) (hj : j ≤ MaxIter) (r : QRTest K × QRHermState K)
    (hr : r = (QRHermPass sqrt b n i.toNat)^[j] (QRHermTest s.SupDiag i.toNat, s))
    (hall : ∀ j', j' < j → i.toNat > 1 ∧
      ((QRHermPass sqrt b n i.toNat)^[j'] (QRHermTest s.SupDiag i.toNat, s)).1.Ratio >
        Accu K * Accu K) :
    (j = MaxIter → (i.toNat > 1 ∧ r.1.Ratio > Accu K * Accu K) →
      QRHermOuter sqrt b n F (f + 1) i s = some (.NoConvergence r.2)) ∧
    (¬ (i.toNat > 1 ∧ r.1.Ratio > Accu K * Accu K) → r.1.Flag = true →
      QRHermOuter sqrt b n F (f + 1) i s = QRHermOuter sqrt b n F f (i - 1) r.2) ∧
    (¬ (i.toNat > 1 ∧ r.1.Ratio > Accu K * Accu K) → r.1.Flag = false →
      QRHermOuter sqrt b n F (f + 1) i s =
        QRHermOuter sqrt b n F f (i - 2) (QRHermJacobi sqrt b n i.toNat r.2)) := by
  obtain ⟨_, h2, h3⟩ := QRHermInner_iterate sqrt b n i.toNat j F 0
    (QRHermTest s.SupDiag i.toNat, s) (by omega) (by omega) hall
  rw [← hr] at h2 h3
  refine ⟨?_, ?_, ?_⟩
  · intro hM hc
    rw [QRHermOuter, if_pos hi, h3 (by omega) hc]
  · intro hc hflag
    rw [QRHermOuter, if_pos hi, h2 hc]
    simp only []
    rw [if_pos hflag]
  · intro hc hflag
    rw [QRHermOuter, if_pos hi, h2 hc]
    simp only []
    rw [if_neg (by rw [hflag]; exact Bool.false_ne_true)]

/-! ## The primitive basis: claims C1 to C4 -/

/-- C1: for a prime number `3 <= p <= 31` of sites and `0 < k < p` atoms the selection
loop of `main` ends (fuel `2^p` is enough), every code it has recorded in `Primitive`
lies below `2^p`, has exactly `k` atoms among its low `p` bits and pattern sum 0, and
the recorded sequence is strictly ascending, `Primitive[i].Code < Primitive[i+1].Code`,
hence free of duplicates. -/
theorem C1_recorded_codes_ascending {p k fuel : Nat} (hprime : Nat.Prime p) (_hp3 : 3 ≤ p)
    (hp : p ≤ 31) (hk0 : 0 < k) (hkp : k < p) (hfuel : 2 ^ p ≤ fuel) :
    ∃ L, SelectPrimitives fuel p k = some L ∧
      (∀ c ∈ L, c < 2 ^ p ∧ Pattern.AtomNum p c = k ∧ Pattern.PatternSum p c = 0) ∧
      (∀ (i : Nat) (h : i + 1 < L.length), L[i] < L[i + 1]) ∧
      L.Pairwise (· < ·) ∧ L.Nodup := by
  obtain ⟨L, V, _, hsel, hL1, hL2, _, _, _, _⟩ := selectPrimitives_run hprime hp hk0 hkp hfuel
  refine ⟨L, hsel, ?_, ?_, hL1, hL1.imp (fun h => Nat.ne_of_lt h)⟩
  · intro c hc
    have := mem_codesWithSum.1 ((hL2 c).1 hc)
    exact ⟨this.1.1, this.1.2, this.2⟩
  · intro i h
    exact List.pairwise_iff_getElem.1 hL1 i (i + 1) (by omega) h (by omega)

theorem C1_recorded_codes_ascending_witness :
    Nat.Prime 5 ∧ 3 ≤ 5 ∧ 5 ≤ 31 ∧ 0 < 2 ∧ 2 < 5 ∧ 2 ^ 5 ≤ 32 ∧
    ∃ L, SelectPrimitives 32 5 2 = some L ∧
      (∀ c ∈ L, c < 2 ^ 5 ∧ Pattern.AtomNum 5 c = 2 ∧ Pattern.PatternSum 5 c = 0) ∧
      (∀ (i : Nat) (h : i + 1 < L.length), L[i] < L[i + 1]) ∧
      L.Pairwise (· < ·) ∧ L.Nodup :=
  ⟨by norm_num, by decide, by decide, by decide, by decide, by decide,
    @C1_recorded_codes_ascending 5 2 32 (by norm_num) (by decide)
      (by decide) (by decide) (by decide) (by decide)⟩

/-- C2 as stated fails: for `p = 5`, `k = 2` the program computes `PrimNum = 2` and
records the two codes 12 and 18, while `C(p-1,k-1) = C(4,1) = 4`. -/
theorem C2_counterexample :
    PrimNum 5 2 = 2 ∧ SelectPrimitives 32 5 2 = some [12, 18] ∧
      Nat.choose (5 - 1) (2 - 1) = 4 ∧ PrimNum 5 2 ≠ Nat.choose (5 - 1) (2 - 1) := by
  have h : PrimNum 5 2 = 2 := by
    rw [PrimNum_eq_choose_div (by norm_num) (by norm_num) (by norm_num) (by norm_num)]
    decide
  refine ⟨h, ?_, by decide, ?_⟩
  · unfold SelectPrimitives
    rw [h]
    decide
  · rw [h]
    decide

/-- C2, amended: for a prime number `3 <= p <= 31` of sites and `0 < k < p` atoms the
number `PrimNum` that `main` computes (in exact arithmetic) is `C(p,k)/p`, which is
`C(p-1,k-1)/k`, and the selection loop records exactly `PrimNum` codes. -/
theorem C2_primNum_is_choose_div {p k fuel : Nat} (hprime : Nat.Prime p) (hp3 : 3 ≤ p)
    (hp : p ≤ 31) (hk0 : 0 < k) (hkp : k < p) (hfuel : 2 ^ p ≤ fuel) :
    PrimNum p k = Nat.choose p k / p ∧ p * PrimNum p k = Nat.choose p k ∧
      PrimNum p k = Nat.choose (p - 1) (k - 1) / k ∧
      k * PrimNum p k = Nat.choose (p - 1) (k - 1) ∧
      ∃ L, SelectPrimitives fuel p k = some L ∧ L.length = PrimNum p k := by
  obtain ⟨L, V, _, hsel, _, _, hlen, _, _, _⟩ := selectPrimitives_run hprime hp hk0 hkp hfuel
  have h1 : p * PrimNum p k = Nat.choose p k := by
    rw [PrimNum_eq_card hprime hp hk0 hkp]
    exact card_primitive_mul hprime hp hk0 hkp
  have h2 : k * PrimNum p k = Nat.choose (p - 1) (k - 1) := by
    obtain ⟨n, rfl⟩ : ∃ n, p = n + 1 := ⟨p - 1, by omega⟩
    obtain ⟨j, rfl⟩ : ∃ j, k = j + 1 := ⟨k - 1, by omega⟩
    have h3 := Nat.succ_mul_choose_eq n j
    simp only [Nat.add_sub_cancel]
    have h4 : (n + 1) * ((j + 1) * PrimNum (n + 1) (j + 1)) = (n + 1) * Nat.choose n j := by
      calc (n + 1) * ((j + 1) * PrimNum (n + 1) (j + 1))
          = ((n + 1) * PrimNum (n + 1) (j + 1)) * (j + 1) := by ring
        _ = Nat.choose (n + 1) (j + 1) * (j + 1) := by rw [h1]
        _ = (n + 1) * Nat.choose n j := h3.symm
    exact Nat.eq_of_mul_eq_mul_left (by omega) h4
  refine ⟨PrimNum_eq_choose_div hprime hp hk0 hkp, h1, ?_, h2, L, hsel, hlen⟩
  rw [← h2, Nat.mul_div_cancel_left _ hk0]

theorem C2_primNum_is_choose_div_witness :
    Nat.Prime 5 ∧ 3 ≤ 5 ∧ 5 ≤ 31 ∧ 0 < 2 ∧ 2 < 5 ∧ 2 ^ 5 ≤ 32 ∧
    (PrimNum 5 2 = Nat.choose 5 2 / 5 ∧ 5 * PrimNum 5 2 = Nat.choose 5 2 ∧
      PrimNum 5 2 = Nat.choose (5 - 1) (2 - 1) / 2 ∧
      2 * PrimNum 5 2 = Nat.choose (5 - 1) (2 - 1) ∧
      ∃ L, SelectPrimitives 32 5 2 = some L ∧ L.length = PrimNum 5 2) :=
  ⟨by norm_num, by decide, by decide, by decide, by decide, by decide,
    @C2_primNum_is_choose_div 5 2 32 (by norm_num) (by decide)
      (by decide) (by decide) (by decide) (by decide)⟩

/-- C3: for a prime number `3 <= p <= 31` of sites and `0 < k < p` atoms the selection
loop omits nothing: every integer below `2^p` with exactly `k` set bits and pattern
sum 0, that is with the sum of the indices of its set bits divisible by `p`, is in
`Primitive` when the loop ends. -/
theorem C3_no_primitive_omitted {p k fuel : Nat} (hprime : Nat.Prime p) (_hp3 : 3 ≤ p)
    (hp : p ≤ 31) (hk0 : 0 < k) (hkp : k < p) (hfuel : 2 ^ p ≤ fuel) :
    ∃ L, SelectPrimitives fuel p k = some L ∧ L.length = PrimNum p k ∧
      (∀ c, c < 2 ^ p → Pattern.AtomNum p c = k → Pattern.PatternSum p c = 0 → c ∈ L) ∧
      (∀ c, c < 2 ^ p → bitCount 0 p c = k → p ∣ rawSum p c → c ∈ L) := by
  obtain ⟨L, V, _, hsel, _, hL2, hlen, _, _, _⟩ := selectPrimitives_run hprime hp hk0 hkp hfuel
  refine ⟨L, hsel, hlen, ?_, ?_⟩
  · intro c h1 h2 h3
    exact (hL2 c).2 (mem_codesWithSum.2 ⟨⟨h1, h2⟩, h3⟩)
  · intro c h1 h2 h3
    refine (hL2 c).2 (mem_codesWithSum.2 ⟨⟨h1, ?_⟩, ?_⟩)
    · rw [Pattern.AtomNum_eq]; exact h2
    · rw [Pattern.PatternSum_eq]; exact Nat.mod_eq_zero_of_dvd h3

theorem C3_no_primitive_omitted_witness :
    Nat.Prime 5 ∧ 3 ≤ 5 ∧ 5 ≤ 31 ∧ 0 < 2 ∧ 2 < 5 ∧ 2 ^ 5 ≤ 32 ∧
    ∃ L, SelectPrimitives 32 5 2 = some L ∧ L.length = PrimNum 5 2 ∧
      (∀ c, c < 2 ^ 5 → Pattern.AtomNum 5 c = 2 → Pattern.PatternSum 5 c = 0 → c ∈ L) ∧
      (∀ c, c < 2 ^ 5 → bitCount 0 5 c = 2 → 5 ∣ rawSum 5 c → c ∈ L) :=
  ⟨by norm_num, by decide, by decide, by decide, by decide, by decide,
    @C3_no_primitive_omitted 5 2 32 (by norm_num) (by decide)
      (by decide) (by decide) (by decide) (by decide)⟩

/-- C4: for a prime number `3 <= p <= 31` of sites and `0 < k < p` atoms the
`do ... while` loop ends (fuel `2^p` is enough) with exactly `PrimNum` codes recorded.
Every value `Current` has at the head of a pass is a code of `k` atoms below `2^p`, not
above the largest such code `topCode p k`, and each pass that is followed by another
one takes `Current` to a larger value: the step from the largest code, which moves the
atom on site `p-1` to site 0 and loses an atom, is not taken before the last pass. -/
theorem C4_loop_ends_without_wrap {p k fuel : Nat} (hprime : Nat.Prime p) (_hp3 : 3 ≤ p)
    (hp : p ≤ 31) (hk0 : 0 < k) (hkp : k < p) (hfuel : 2 ^ p ≤ fuel) :
    ∃ L V, SelectTrace p (PrimNum p k) fuel (exp2pow k - 1) [] = some (L, V) ∧
      SelectPrimitives fuel p k = some L ∧ L.length = PrimNum p k ∧
      (∀ v ∈ V, v < 2 ^ p ∧ Pattern.AtomNum p v = k ∧ v ≤ topCode p k) ∧
      V.Chain' (fun v v' => SelectStep p v = some v' ∧ v < v') ∧
      (∀ (i : Nat) (h : i + 1 < V.length), V[i] < topCode p k) := by
  obtain ⟨L, V, htrace, hsel, _, _, hlen, hV1, hV2, hV3⟩ :=
    selectPrimitives_run hprime hp hk0 hkp hfuel
  refine ⟨L, V, htrace, hsel, hlen, ?_, hV3, ?_⟩
  · intro v hv
    have h := hV2 v hv
    exact ⟨(mem_codes.1 h).1, (mem_codes.1 h).2, le_topCode hk0 (Nat.le_of_lt hkp) h⟩
  · intro i h
    have h1 := List.pairwise_iff_getElem.1 hV1 i (i + 1) (by omega) h (by omega)
    have h2 := le_topCode hk0 (Nat.le_of_lt hkp) (hV2 V[i + 1] (List.getElem_mem _))
    omega

theorem C4_loop_ends_without_wrap_witness :
    Nat.Prime 5 ∧ 3 ≤ 5 ∧ 5 ≤ 31 ∧ 0 < 2 ∧ 2 < 5 ∧ 2 ^ 5 ≤ 32 ∧
    ∃ L V, SelectTrace 5 (PrimNum 5 2) 32 (exp2pow 2 - 1) [] = some (L, V) ∧
      SelectPrimitives 32 5 2 = some L ∧ L.length = PrimNum 5 2 ∧
      (∀ v ∈ V, v < 2 ^ 5 ∧ Pattern.AtomNum 5 v = 2 ∧ v ≤ topCode 5 2) ∧
      V.Chain' (fun v v' => SelectStep 5 v = some v' ∧ v < v') ∧
      (∀ (i : Nat) (h : i + 1 < V.length), V[i] < topCode 5 2) :=
  ⟨by norm_num, by decide, by decide, by decide, by decide, by decide,
    @C4_loop_ends_without_wrap 5 2 32 (by norm_num) (by decide)
      (by decide) (by decide) (by decide) (by decide)⟩

/-! ## The codec: claims C5 to C8 -/

/-- C5: for a prime `p <= 31`, `0 < k < p` and a code below `2^p` with exactly `k` set
bits, `Primitive()` ends after `s < p` backward rotations (fuel `s + 1 <= p` is enough),
leaves a code of pattern sum 0 and returns the shift `s`; rotating the result forward
`s` times gives back the original code.  The `p` forward rotations of the code are
pairwise different, exactly one of them has pattern sum 0, and the representative and
the shift are unique. -/
theorem C5_primitive_representative {p k c : Nat} (hprime : Nat.Prime p) (hp : p ≤ 31)
    (hk0 : 0 < k) (hkp : k < p) (hc : c < 2 ^ p) (hk : Pattern.AtomNum p c = k) :
    ∃ c' s, s < p ∧ Pattern.Primitive (s + 1) p c = some (c', s) ∧
      (∀ fuel, p ≤ fuel → Pattern.Primitive fuel p c = some (c', s)) ∧
      c' = (Pattern.rotateDown p)^[s] c ∧ Pattern.PatternSum p c' = 0 ∧
      (Pattern.rotateUp p)^[s] c' = c ∧
      (∀ i j, i < p → j < p → (Pattern.rotateUp p)^[i] c = (Pattern.rotateUp p)^[j] c → i = j) ∧
      (∃! j, j < p ∧ Pattern.PatternSum p ((Pattern.rotateUp p)^[j] c) = 0) ∧
      (∀ c'' s', c'' < 2 ^ p → s' < p → Pattern.PatternSum p c'' = 0 →
        (Pattern.rotateUp p)^[s'] c'' = c → c'' = c' ∧ s' = s) := by
  have hp1 : 1 ≤ p := hprime.one_lt.le
  obtain ⟨s, hs, hrun, h0, _, _, hback⟩ := Pattern.primitive_run hprime hp hk0 hkp hc hk
  refine ⟨_, s, hs, hrun (s + 1) (by omega), fun fuel hf => hrun fuel (by omega), rfl, h0,
    hback, ?_, Pattern.exists_unique_rotation hprime hp hk0 hkp hc hk, ?_⟩
  · intro i j hi hj h
    exact Pattern.rotations_distinct hprime hp hk0 hkp hc hk hi hj h
  · intro c'' s' hc'' hs' h0' hrot
    have h1 : (Pattern.rotateDown p)^[s'] c = c'' := by
      rw [← hrot]
      exact Pattern.iterate_rotateDown_rotateUp hp1 hp hc'' s'
    have h2 : s = s' :=
      Pattern.primitive_shift_unique hprime hp hk0 hkp hc hk hs hs' h0 (by rw [h1]; exact h0')
    subst h2
    exact ⟨h1.symm, rfl⟩

theorem C5_primitive_representative_witness :
    Nat.Prime 5 ∧ 5 ≤ 31 ∧ 0 < 2 ∧ 2 < 5 ∧ 3 < 2 ^ 5 ∧ Pattern.AtomNum 5 3 = 2 ∧
    ∃ c' s, s < 5 ∧ Pattern.Primitive (s + 1) 5 3 = some (c', s) ∧
      (∀ fuel, 5 ≤ fuel → Pattern.Primitive fuel 5 3 = some (c', s)) ∧
      c' = (Pattern.rotateDown 5)^[s] 3 ∧ Pattern.PatternSum 5 c' = 0 ∧
      (Pattern.rotateUp 5)^[s] c' = 3 ∧
      (∀ i j, i < 5 → j < 5 → (Pattern.rotateUp 5)^[i] 3 = (Pattern.rotateUp 5)^[j] 3 → i = j) ∧
      (∃! j, j < 5 ∧ Pattern.PatternSum 5 ((Pattern.rotateUp 5)^[j] 3) = 0) ∧
      (∀ c'' s', c'' < 2 ^ 5 → s' < 5 → Pattern.PatternSum 5 c'' = 0 →
        (Pattern.rotateUp 5)^[s'] c'' = 3 → c'' = c' ∧ s' = s) :=
  ⟨by norm_num, by decide, by decide, by decide, by decide, by decide,
    @C5_primitive_representative 5 2 3 (by norm_num) (by decide) (by decide) (by decide)
      (by decide) (by decide)⟩

/-- C6: for `3 <= p <= 31` and a code below `2^p` with exactly `k` set bits,
`0 < k < p`, each of `operator++`, `operator--`, `Mirror()`, `Primitive()` (whatever it
returns, and it does return when `p` is prime), `Increment(nu)` on an atom whose
increment is not blocked and `Decrement(nu)` on an atom whose decrement is not blocked
yields a code that is again below `2^p` and has exactly `k` set bits. -/
theorem C6_codec_keeps_invariant {p k c : Nat} (hp3 : 3 ≤ p) (hp : p ≤ 31) (hk0 : 0 < k)
    (hkp : k < p) (hc : c < 2 ^ p) (hk : Pattern.AtomNum p c = k) :
    (Pattern.rotateUp p c < 2 ^ p ∧ Pattern.AtomNum p (Pattern.rotateUp p c) = k) ∧
    (Pattern.rotateDown p c < 2 ^ p ∧ Pattern.AtomNum p (Pattern.rotateDown p c) = k) ∧
    (Pattern.Mirror p c < 2 ^ p ∧ Pattern.AtomNum p (Pattern.Mirror p c) = k) ∧
    (∀ fuel c' s, Pattern.Primitive fuel p c = some (c', s) →
      c' < 2 ^ p ∧ Pattern.AtomNum p c' = k) ∧
    (Nat.Prime p → ∃ c' s, Pattern.Primitive p p c = some (c', s) ∧
      c' < 2 ^ p ∧ Pattern.AtomNum p c' = k) ∧
    (∀ nu, 1 ≤ nu → nu ≤ k → Pattern.IncrementSiteBlocked p nu c = some false →
      ∃ c' T, Pattern.Increment p nu c = some (c', T) ∧
        c' < 2 ^ p ∧ Pattern.AtomNum p c' = k) ∧
    (∀ nu, 1 ≤ nu → nu ≤ k → Pattern.DecrementSiteBlocked p k nu c = some false →
      ∃ c' T, Pattern.Decrement p nu c = some (c', T) ∧
        c' < 2 ^ p ∧ Pattern.AtomNum p c' = k) := by
  have hp1 : 1 ≤ p := by omega
  refine ⟨⟨Pattern.rotateUp_lt hp1 hp hc, ?_⟩, ⟨Pattern.rotateDown_lt hp1 hc, ?_⟩,
    ⟨Pattern.Mirror_lt hp1 c, ?_⟩, ?_, ?_, ?_, ?_⟩
  · rw [Pattern.AtomNum_rotateUp hp1 hp hc, hk]
  · rw [Pattern.AtomNum_rotateDown hp1 hp hc, hk]
  · rw [Pattern.AtomNum_Mirror hp1, hk]
  · intro fuel c' s h
    exact Pattern.PrimitiveLoop_valid hp1 hp fuel c 0 c' s h hc hk
  · intro hprime
    obtain ⟨s, hs, hrun, _, h1, h2, _⟩ := Pattern.primitive_run hprime hp hk0 hkp hc hk
    exact ⟨_, s, hrun p hs, h1, h2⟩
  · intro nu h1 h2 hfree
    obtain ⟨a, c', T, _, _, _, _, hinc, _, h3, h4⟩ :=
      Pattern.Increment_valid (by omega) hp hc hk h1 h2 hfree
    exact ⟨c', T, hinc, h3, h4⟩
  · intro nu h1 h2 hfree
    obtain ⟨a, c', T, _, _, _, _, hdec, _, h3, h4⟩ :=
      Pattern.Decrement_valid (by omega) hp hc hk h1 h2 hfree
    exact ⟨c', T, hdec, h3, h4⟩

theorem C6_codec_keeps_invariant_witness :
    3 ≤ 5 ∧ 5 ≤ 31 ∧ 0 < 2 ∧ 2 < 5 ∧ 12 < 2 ^ 5 ∧ Pattern.AtomNum 5 12 = 2 ∧
    ((Pattern.rotateUp 5 12 < 2 ^ 5 ∧ Pattern.AtomNum 5 (Pattern.rotateUp 5 12) = 2) ∧
    (Pattern.rotateDown 5 12 < 2 ^ 5 ∧ Pattern.AtomNum 5 (Pattern.rotateDown 5 12) = 2) ∧
    (Pattern.Mirror 5 12 < 2 ^ 5 ∧ Pattern.AtomNum 5 (Pattern.Mirror 5 12) = 2) ∧
    (∀ fuel c' s, Pattern.Primitive fuel 5 12 = some (c', s) →
      c' < 2 ^ 5 ∧ Pattern.AtomNum 5 c' = 2) ∧
    (Nat.Prime 5 → ∃ c' s, Pattern.Primitive 5 5 12 = some (c', s) ∧
      c' < 2 ^ 5 ∧ Pattern.AtomNum 5 c' = 2) ∧
    (∀ nu, 1 ≤ nu → nu ≤ 2 → Pattern.IncrementSiteBlocked 5 nu 12 = some false →
      ∃ c' T, Pattern.Increment 5 nu 12 = some (c', T) ∧
        c' < 2 ^ 5 ∧ Pattern.AtomNum 5 c' = 2) ∧
    (∀ nu, 1 ≤ nu → nu ≤ 2 → Pattern.DecrementSiteBlocked 5 2 nu 12 = some false →
      ∃ c' T, Pattern.Decrement 5 nu 12 = some (c', T) ∧
        c' < 2 ^ 5 ∧ Pattern.AtomNum 5 c' = 2)) :=
  ⟨by decide, by decide, by decide, by decide, by decide, by decide,
    @C6_codec_keeps_invariant 5 2 12 (by decide) (by decide) (by decide) (by decide)
      (by decide) (by decide)⟩

/-- C7: for a code with exactly `k` set bits among its low `p` bits, `0 < k < p`,
`3 <= p <= 31`, and an ordinal `nu` in `1..k`, with `a = Element(nu)`:
`IncrementSiteBlocked(nu)` is true iff site `(a+1) mod p` is occupied, and
`DecrementSiteBlocked(nu)` is true iff site `(a-1) mod p` is occupied. -/
theorem C7_blocked_iff_target_occupied {p k c nu : Nat} (hp3 : 3 ≤ p) (hp : p ≤ 31)
    (_hk0 : 0 < k) (_hkp : k < p) (hk : Pattern.AtomNum p c = k) (h1 : 1 ≤ nu) (h2 : nu ≤ k) :
    ∃ a, Pattern.Element nu c = some a ∧ a < p ∧ c.testBit a = true ∧
      Pattern.IncrementSiteBlocked p nu c = some (c.testBit ((a + 1) % p)) ∧
      Pattern.DecrementSiteBlocked p k nu c = some (c.testBit ((a + p - 1) % p)) := by
  obtain ⟨a, hap, hbit, _, helem⟩ := Pattern.Element_exists (by omega) hk h1 h2
  exact ⟨a, helem, hap, hbit, Pattern.IncrementSiteBlocked_eq helem,
    Pattern.DecrementSiteBlocked_eq (by omega) hp hk h1 h2 helem⟩

theorem C7_blocked_iff_target_occupied_witness :
    3 ≤ 5 ∧ 5 ≤ 31 ∧ 0 < 2 ∧ 2 < 5 ∧ Pattern.AtomNum 5 12 = 2 ∧ 1 ≤ 2 ∧ 2 ≤ 2 ∧
    ∃ a, Pattern.Element 2 12 = some a ∧ a < 5 ∧ (12 : Nat).testBit a = true ∧
      Pattern.IncrementSiteBlocked 5 2 12 = some ((12 : Nat).testBit ((a + 1) % 5)) ∧
      Pattern.DecrementSiteBlocked 5 2 2 12 = some ((12 : Nat).testBit ((a + 5 - 1) % 5)) :=
  ⟨by decide, by decide, by decide, by decide, by decide, by decide, by decide,
    @C7_blocked_iff_target_occupied 5 2 12 2 (by decide) (by decide) (by decide) (by decide)
      (by decide) (by decide) (by decide)⟩

/-- C8: for `3 <= p <= 31` and the atom `nu` of a code of `k` atoms, on site `a`:
`Increment` leaves the code with that atom moved to site `(a+1) mod p` and returns the
type `[site (a-1) mod p occupied] + 2*[site (a+2) mod p occupied]`, `Decrement` leaves
the code with that atom moved to site `(a-1) mod p` and returns the type
`[site (a+1) mod p occupied] + 2*[site (a-2) mod p occupied]`, both read on the code
after the move (where these sites hold what they held before it); the types are
`0, 1, 2, 3` for A, B, C, D. -/
theorem C8_jump_type {p k c nu : Nat} (hp3 : 3 ≤ p) (hp : p ≤ 31) (hc : c < 2 ^ p)
    (hk : Pattern.AtomNum p c = k) (h1 : 1 ≤ nu) (h2 : nu ≤ k) :
    ∃ a, Pattern.Element nu c = some a ∧ a < p ∧ c.testBit a = true ∧
      (∃ c' T, Pattern.Increment p nu c = some (c', T) ∧
        (∀ i, c'.testBit i = (decide (i = (a + 1) % p) || (c.testBit i && !decide (i = a)))) ∧
        T = (if c'.testBit ((a + p - 1) % p) = true then 1 else 0) +
            2 * (if c'.testBit ((a + 2) % p) = true then 1 else 0) ∧
        T = (if c.testBit ((a + p - 1) % p) = true then 1 else 0) +
            2 * (if c.testBit ((a + 2) % p) = true then 1 else 0) ∧ T ≤ 3) ∧
      (∃ c' T, Pattern.Decrement p nu c = some (c', T) ∧
        (∀ i, c'.testBit i = (decide (i = (a + p - 1) % p) || (c.testBit i && !decide (i = a)))) ∧
        T = (if c'.testBit ((a + 1) % p) = true then 1 else 0) +
            2 * (if c'.testBit ((a + p - 2) % p) = true then 1 else 0) ∧
        T = (if c.testBit ((a + 1) % p) = true then 1 else 0) +
            2 * (if c.testBit ((a + p - 2) % p) = true then 1 else 0) ∧ T ≤ 3) := by
  obtain ⟨a, hap, hbit, _, helem⟩ := Pattern.Element_exists (by omega) hk h1 h2
  have e1 := site_add_one hap
  have e2 := site_add_two hap (by omega : 2 ≤ p)
  have e3 := site_sub_one hap
  have e4 := site_sub_two hap (by omega : 2 ≤ p)
  have n1 : (a + p - 1) % p ≠ (a + 1) % p := by rw [e1, e3]; split <;> split <;> omega
  have n2 : (a + p - 1) % p ≠ a := by rw [e3]; split <;> omega
  have n3 : (a + 2) % p ≠ (a + 1) % p := by rw [e1, e2]; split <;> split <;> omega
  have n4 : (a + 2) % p ≠ a := by rw [e2]; split <;> omega
  have n5 : (a + 1) % p ≠ a := by rw [e1]; split <;> omega
  have n6 : (a + p - 2) % p ≠ (a + p - 1) % p := by rw [e3, e4]; split <;> split <;> omega
  have n7 : (a + p - 2) % p ≠ a := by rw [e4]; split <;> omega
  refine ⟨a, helem, hap, hbit, ⟨_, _, Pattern.Increment_eq helem, testBit_move hp hc hap, ?_, ?_, ?_⟩,
    ⟨_, _, Pattern.Decrement_eq helem, testBit_move hp hc hap, ?_, ?_, ?_⟩⟩
  · split <;> split <;> rfl
  · rw [testBit_move hp hc hap, testBit_move hp hc hap]
    simp only [n1, n2, n3, n4, decide_False, Bool.false_or, Bool.not_false, Bool.and_true]
    split <;> split <;> rfl
  · split <;> split <;> omega
  · split <;> split <;> rfl
  · rw [testBit_move hp hc hap, testBit_move hp hc hap]
    simp only [n1.symm, n5, n6, n7, decide_False, Bool.false_or, Bool.not_false, Bool.and_true]
    split <;> split <;> rfl
  · split <;> split <;> omega

theorem C8_jump_type_witness :
    3 ≤ 5 ∧ 5 ≤ 31 ∧ 12 < 2 ^ 5 ∧ Pattern.AtomNum 5 12 = 2 ∧ 1 ≤ 2 ∧ 2 ≤ 2 ∧
    ∃ a, Pattern.Element 2 12 = some a ∧ a < 5 ∧ (12 : Nat).testBit a = true ∧
      (∃ c' T, Pattern.Increment 5 2 12 = some (c', T) ∧
        (∀ i, c'.testBit i =
          (decide (i = (a + 1) % 5) || ((12 : Nat).testBit i && !decide (i = a)))) ∧
        T = (if c'.testBit ((a + 5 - 1) % 5) = true then 1 else 0) +
            2 * (if c'.testBit ((a + 2) % 5) = true then 1 else 0) ∧
        T = (if (12 : Nat).testBit ((a + 5 - 1) % 5) = true then 1 else 0) +
            2 * (if (12 : Nat).testBit ((a + 2) % 5) = true then 1 else 0) ∧ T ≤ 3) ∧
      (∃ c' T, Pattern.Decrement 5 2 12 = some (c', T) ∧
        (∀ i, c'.testBit i =
          (decide (i = (a + 5 - 1) % 5) || ((12 : Nat).testBit i && !decide (i = a)))) ∧
        T = (if c'.testBit ((a + 1) % 5) = true then 1 else 0) +
            2 * (if c'.testBit ((a + 5 - 2) % 5) = true then 1 else 0) ∧
        T = (if (12 : Nat).testBit ((a + 1) % 5) = true then 1 else 0) +
            2 * (if (12 : Nat).testBit ((a + 5 - 2) % 5) = true then 1 else 0) ∧ T ≤ 3) :=
  ⟨by decide, by decide, by decide, by decide, by decide, by decide,
    @C8_jump_type 5 2 12 2 (by decide) (by decide) (by decide) (by decide) (by decide)
      (by decide)⟩

/-! ## The rate tables: claims C9 and C10 -/

/-- C9: for a prime number `3 <= p <= 31` of sites and `0 < k < p` atoms the part of
`main` up to the rate tables returns (fuel `2^p` is enough), and then for every
primitive index `i` and every type of jump `T` in `0..3`: `Diagonal[i].T` is the number
of increments that are not blocked plus the number of decrements that are not blocked,
of type `T`, over the ordinals `1..k` of `Primitive[i]`; it is the sum over all `j` of
`Forward[Element(j,i)].T + Backward[Element(j,i)].T`; the column of `Forward` adds up to
the increments and that of `Backward` to the decrements, each entry `(j,i)` being the
number of ordinals whose move leads to primitive `j`. -/
theorem C9_diagonal_counts_legal_moves {p k fuel : Nat} (hprime : Nat.Prime p)
    (_hp3 : 3 ≤ p) (hp : p ≤ 31) (hk0 : 0 < k) (hkp : k < p) (hfuel : 2 ^ p ≤ fuel) :
    ∃ L t, RateMatrix fuel p k = some (L, t) ∧ L.length = PrimNum p k ∧
      ∀ i c, L.get? i = some c → ∀ T, T < 4 →
        (t.Diagonal i).coeff T = legalIncrements p k c T + legalDecrements p k c T ∧
        (t.Diagonal i).coeff T = ∑ j ∈ Finset.range L.length,
          ((t.Forward (Element L.length j i)).coeff T +
            (t.Backward (Element L.length j i)).coeff T) ∧
        (∑ j ∈ Finset.range L.length, (t.Forward (Element L.length j i)).coeff T) =
          legalIncrements p k c T ∧
        (∑ j ∈ Finset.range L.length, (t.Backward (Element L.length j i)).coeff T) =
          legalDecrements p k c T ∧
        (∀ j, j < L.length → (t.Forward (Element L.length j i)).coeff T =
          (List.range' 1 k).countP fun nu =>
            decide (incMove fuel p L i nu = some (some (j, T)))) ∧
        (∀ j, j < L.length → (t.Backward (Element L.length j i)).coeff T =
          (List.range' 1 k).countP fun nu =>
            decide (decMove fuel p k L i nu = some (some (j, T)))) := by
  obtain ⟨L, t, hrate, _, hasm, hgood, hlen, hf1, hf2⟩ :=
    rateMatrix_run hprime hp hk0 hkp hfuel
  obtain ⟨t', hasm', hspec⟩ := assembleRates_spec hgood hprime hp hk0 hkp hf1 hf2
  rw [hasm] at hasm'
  cases hasm'
  refine ⟨L, t, hrate, hlen, ?_⟩
  intro i c hi T hT
  obtain ⟨h1, h2, h3, h4, h5⟩ := hspec i c hi T hT
  refine ⟨h1, ?_, h4, h5, h2, h3⟩
  rw [Finset.sum_add_distrib, h4, h5, h1]

theorem C9_diagonal_counts_legal_moves_witness :
    Nat.Prime 5 ∧ 3 ≤ 5 ∧ 5 ≤ 31 ∧ 0 < 2 ∧ 2 < 5 ∧ 2 ^ 5 ≤ 32 ∧
    ∃ L t, RateMatrix 32 5 2 = some (L, t) ∧ L.length = PrimNum 5 2 ∧
      ∀ i c, L.get? i = some c → ∀ T, T < 4 →
        (t.Diagonal i).coeff T = legalIncrements 5 2 c T + legalDecrements 5 2 c T ∧
        (t.Diagonal i).coeff T = ∑ j ∈ Finset.range L.length,
          ((t.Forward (Element L.length j i)).coeff T +
            (t.Backward (Element L.length j i)).coeff T) ∧
        (∑ j ∈ Finset.range L.length, (t.Forward (Element L.length j i)).coeff T) =
          legalIncrements 5 2 c T ∧
        (∑ j ∈ Finset.range L.length, (t.Backward (Element L.length j i)).coeff T) =
          legalDecrements 5 2 c T ∧
        (∀ j, j < L.length → (t.Forward (Element L.length j i)).coeff T =
          (List.range' 1 2).countP fun nu =>
            decide (incMove 32 5 L i nu = some (some (j, T)))) ∧
        (∀ j, j < L.length → (t.Backward (Element L.length j i)).coeff T =
          (List.range' 1 2).countP fun nu =>
            decide (decMove 32 5 2 L i nu = some (some (j, T)))) :=
  ⟨by norm_num, by decide, by decide, by decide, by decide, by decide,
    @C9_diagonal_counts_legal_moves 5 2 32 (by norm_num) (by decide) (by decide) (by decide)
      (by decide) (by decide)⟩

/-- C10 as stated fails: for `p = 5`, `k = 2` the primitives are 12 and 18 (indices 0
and 1); the one increment that leads from primitive 0 to primitive 1 has type B, so
`Forward[Element(1,0)].B = 1`, while the one decrement that leads from primitive 1 to
primitive 0 has type C, so `Backward[Element(0,1)].B = 0` and
`Backward[Element(0,1)].C = 1`. -/
theorem C10_counterexample :
    (RateMatrix 32 5 2).map (fun r => (r.1, (r.2.Forward (Element r.1.length 1 0)).coeff 1,
      (r.2.Backward (Element r.1.length 0 1)).coeff 1,
      (r.2.Backward (Element r.1.length 0 1)).coeff 2)) = some ([12, 18], 1, 0, 1) := by
  have h : PrimNum 5 2 = 2 := by
    rw [PrimNum_eq_choose_div (by norm_num) (by norm_num) (by norm_num) (by norm_num)]
    decide
  unfold RateMatrix SelectPrimitives
  rw [h]
  decide

/-- C10, amended: for a prime number `3 <= p <= 31` of sites and `0 < k < p` atoms, for
all primitive indices `i`, `j` (distinct or not) and every type of jump `T`, the count
`Forward[Element(j,i)].T` of the increments of type `T` from `i` to `j` equals the count
`Backward[Element(i,j)].T'` of the decrements from `j` to `i` of the type `T'` obtained
from `T` by exchanging B and C (A and D stay). -/
theorem C10_forward_is_swapped_backward {p k fuel : Nat} (hprime : Nat.Prime p)
    (hp3 : 3 ≤ p) (hp : p ≤ 31) (hk0 : 0 < k) (hkp : k < p) (hfuel : 2 ^ p ≤ fuel) :
    ∃ L t, RateMatrix fuel p k = some (L, t) ∧ L.length = PrimNum p k ∧
      ∀ i j, i < L.length → j < L.length → ∀ T, T < 4 →
        (t.Forward (Element L.length j i)).coeff T =
          (t.Backward (Element L.length i j)).coeff (swapBC T) := by
  obtain ⟨L, t, hrate, _, hasm, hgood, hlen, hf1, hf2⟩ :=
    rateMatrix_run hprime hp hk0 hkp hfuel
  obtain ⟨t', hasm', hspec⟩ := assembleRates_spec hgood hprime hp hk0 hkp hf1 hf2
  rw [hasm] at hasm'
  cases hasm'
  obtain ⟨m, hm, hmk⟩ := exists_mul_mod_eq hprime hk0 hkp hprime.one_lt
  refine ⟨L, t, hrate, hlen, ?_⟩
  intro i j hi hj T hT
  obtain ⟨ci, hci⟩ := get_of_lt hi
  obtain ⟨cj, hcj⟩ := get_of_lt hj
  obtain ⟨_, hF, _, _, _⟩ := hspec i ci hci T hT
  obtain ⟨_, _, hB, _, _⟩ := hspec j cj hcj (swapBC T) (swapBC_lt hT)
  rw [hF j hj, hB i hi,
    countP_incMove_sites hgood hprime hp hk0 hkp hf1 hf2 hm hmk hci hcj T,
    countP_decMove_sites hgood hprime hp hk0 hkp hf1 hf2 hm hmk hcj hci (swapBC T)]
  exact card_incSites_eq hp3 hp (by omega) (hgood.valid hci).1 (hgood.valid hcj).1

theorem C10_forward_is_swapped_backward_witness :
    Nat.Prime 5 ∧ 3 ≤ 5 ∧ 5 ≤ 31 ∧ 0 < 2 ∧ 2 < 5 ∧ 2 ^ 5 ≤ 32 ∧
    ∃ L t, RateMatrix 32 5 2 = some (L, t) ∧ L.length = PrimNum 5 2 ∧
      ∀ i j, i < L.length → j < L.length → ∀ T, T < 4 →
        (t.Forward (Element L.length j i)).coeff T =
          (t.Backward (Element L.length i j)).coeff (swapBC T) :=
  ⟨by norm_num, by decide, by decide, by decide, by decide, by decide,
    @C10_forward_is_swapped_backward 5 2 32 (by norm_num) (by decide) (by decide) (by decide)
      (by decide) (by decide)⟩

/-! ## The collapsing number: claim C11 -/

/-- C11 as stated fails: for `p = 5`, `k = 2` and the code 5 (atoms on the sites 0 and 2)
`CollapsingNumber` makes one decrement, of type C (2), which leaves the block 3, and
returns 1; the number of its jumps of type B less that of type C is -1. -/
theorem C11_counterexample :
    CollapsingTrace 5 5 2 5 = some (3, [2]) ∧ Pattern.CollapsingNumber 5 5 2 5 = some 1 ∧
    Pattern.CollapsingNumber 5 5 2 5 ≠
      some (((List.count 1 [2] : Nat) : Int) - (List.count 2 [2] : Nat)) := by
  decide

/-- C11, amended: for `2 <= p <= 31` sites and every code of `k` atoms, `1 <= k < p`,
`CollapsingNumber` returns (fuel `p` is enough for each of its loops); its decrements
pack the atoms `2..k` against atom 1, which stays on its site `a`, into the block on the
sites `a .. a+k-1`; and the number returned is the number of jumps of type C (2) less
the number of jumps of type B (1) among the decrements it makes. -/
theorem C11_collapsing_number_is_C_minus_B {p k c fuel : Nat} (hp2 : 2 ≤ p) (hp : p ≤ 31)
    (hk1 : 1 ≤ k) (hkp : k < p) (hc : c < 2 ^ p) (hk : Pattern.AtomNum p c = k)
    (hfuel : p ≤ fuel) :
    ∃ a final ts, Pattern.Element 1 c = some a ∧
      (∀ i, final.testBit i = decide (a ≤ i ∧ i < a + k)) ∧
      CollapsingTrace fuel p k c = some (final, ts) ∧
      Pattern.CollapsingNumber fuel p k c =
        some (((ts.count 2 : Nat) : Int) - (ts.count 1 : Nat)) := by
  obtain ⟨a, final, ts, h1, _, h2, h3, h4, _⟩ :=
    collapsingNumber_spec hp2 hp hk1 hkp hc hk hfuel
  exact ⟨a, final, ts, h1, h2, h3, h4⟩

theorem C11_collapsing_number_is_C_minus_B_witness :
    2 ≤ 5 ∧ 5 ≤ 31 ∧ 1 ≤ 2 ∧ 2 < 5 ∧ 5 < 2 ^ 5 ∧ Pattern.AtomNum 5 5 = 2 ∧ 5 ≤ 5 ∧
    ∃ a final ts, Pattern.Element 1 5 = some a ∧
      (∀ i, final.testBit i = decide (a ≤ i ∧ i < a + 2)) ∧
      CollapsingTrace 5 5 2 5 = some (final, ts) ∧
      Pattern.CollapsingNumber 5 5 2 5 =
        some (((ts.count 2 : Nat) : Int) - (ts.count 1 : Nat)) :=
  ⟨by decide, by decide, by decide, by decide, by decide, by decide, by decide,
    @C11_collapsing_number_is_C_minus_B 5 2 5 5 (by decide) (by decide) (by decide)
      (by decide) (by decide) (by decide) (by decide)⟩

/-! ## The equilibrium eigenvector: claim C12 -/

/-- C12: in exact arithmetic over an ordered field, for a prime number `p <= 31` of
sites, `0 < k < p` atoms and positive rates `RateB`, `RateC`, the equilibrium
eigenvector is computed (fuel `2^p` is enough) with one entry for each primitive
pattern; every entry is positive; the quotient of the entries `i` and `j` is `RateB/RateC`
to the power the difference of the collapsing numbers of `Primitive[i]` and
`Primitive[j]`; and the entries add up to `1/p`. -/
theorem C12_equilibrium_weights {K : Type} [LinearOrderedField K] {p k fuel : Nat}
    (hprime : Nat.Prime p) (hp : p ≤ 31) (hk0 : 0 < k) (hkp : k < p) (hfuel : 2 ^ p ≤ fuel)
    {RateB RateC : K} (hB : 0 < RateB) (hC : 0 < RateC) :
    ∃ (L : List Nat) (E : List K), SelectPrimitives fuel p k = some L ∧
      L.length = PrimNum p k ∧ EqEV fuel p k RateB RateC L = some E ∧
      E.length = L.length ∧
      (∀ i ei, E.get? i = some ei → 0 < ei) ∧
      (∀ i j ci cj, L.get? i = some ci → L.get? j = some cj →
        ∃ (ni nj : Int) (ei ej : K), Pattern.CollapsingNumber fuel p k ci = some ni ∧
          Pattern.CollapsingNumber fuel p k cj = some nj ∧ E.get? i = some ei ∧
          E.get? j = some ej ∧ ei / ej = (RateB / RateC) ^ (ni - nj)) ∧
      E.sum = 1 / (p : K) := by
  obtain ⟨L, t, E, N, _, hsel, _, hgood, hlen, hf1, _, _, hE, hN, hElen, hEget, hCN, hsum⟩ :=
    eqEV_run hprime hp hk0 hkp hfuel hB hC
  have hx : 0 < RateB / RateC := div_pos hB hC
  refine ⟨L, E, hsel, hlen, hE, hElen, ?_, ?_, hsum⟩
  · intro i ei hi
    have hiL : i < L.length := by
      rw [← hElen]
      have h := hi
      rw [List.get?_eq_getElem?, List.getElem?_eq_some] at h
      exact h.1
    obtain ⟨c, hc⟩ := get_of_lt hiL
    rw [hEget i c hc] at hi
    rw [← Option.some.inj hi]
    exact mul_pos (zpow_pos hx _) hN
  · intro i j ci cj hi hj
    refine ⟨_, _, _, _, hCN ci (List.get?_mem hi), hCN cj (List.get?_mem hj), hEget i ci hi,
      hEget j cj hj, ?_⟩
    rw [mul_div_mul_right _ _ (ne_of_gt hN)]
    exact (zpow_sub₀ (ne_of_gt hx) _ _).symm

theorem C12_equilibrium_weights_witness :
    Nat.Prime 5 ∧ 5 ≤ 31 ∧ 0 < 2 ∧ 2 < 5 ∧ 2 ^ 5 ≤ 32 ∧ (0 : ℚ) < 2 ∧ (0 : ℚ) < 3 ∧
    ∃ (L : List Nat) (E : List ℚ), SelectPrimitives 32 5 2 = some L ∧
      L.length = PrimNum 5 2 ∧ EqEV 32 5 2 (2 : ℚ) 3 L = some E ∧
      E.length = L.length ∧
      (∀ i ei, E.get? i = some ei → 0 < ei) ∧
      (∀ i j ci cj, L.get? i = some ci → L.get? j = some cj →
        ∃ (ni nj : Int) (ei ej : ℚ), Pattern.CollapsingNumber 32 5 2 ci = some ni ∧
          Pattern.CollapsingNumber 32 5 2 cj = some nj ∧ E.get? i = some ei ∧
          E.get? j = some ej ∧ ei / ej = ((2 : ℚ) / 3) ^ (ni - nj)) ∧
      E.sum = 1 / ((5 : Nat) : ℚ) :=
  ⟨by norm_num, by decide, by decide, by decide, by decide, by norm_num, by norm_num,
    @C12_equilibrium_weights ℚ _ 5 2 32 (by norm_num) (by decide) (by decide) (by decide)
      (by decide) 2 3 (by norm_num) (by norm_num)⟩

/-! ## The momentum `q = 0`: claims C13 and C14 -/

/-- C13: in exact real arithmetic, for a prime number `p <= 31` of sites, `0 < k < p`
atoms and positive rates `RateB`, `RateC` (any `RateA`, `RateD`), with
`M[i,j] = sum over T of Rate_T * (Forward[Element(i,j)].T + Backward[Element(i,j)].T)`
and `pi = EqEV`: `M[i,j] * pi[j] = M[j,i] * pi[i]` for all primitive indices `i != j`;
the matrix the code builds has `M[i,j] * sqrt(pi[j] / pi[i])` above the diagonal and the
same value in the mirrored entry below it; it equals `D^(-1/2) G D^(1/2)` with
`D = diag(pi)` and `G` the rate matrix with the decay rates subtracted on the diagonal;
it is symmetric; and it has the same spectrum as `G`. -/
theorem C13_detailed_balance_symmetrizes {p k fuel : Nat} (hprime : Nat.Prime p)
    (hp : p ≤ 31) (hk0 : 0 < k) (hkp : k < p) (hfuel : 2 ^ p ≤ fuel)
    {RateA RateB RateC RateD : ℝ} (hB : 0 < RateB) (hC : 0 < RateC) (Unitary : Nat → ℝ) :
    ∃ (L : List Nat) (t : RateTables) (E : List ℝ), RateMatrix fuel p k = some (L, t) ∧
      L.length = PrimNum p k ∧ EqEV fuel p k RateB RateC L = some E ∧
      E.length = L.length ∧
      (∀ i j, i < L.length → j < L.length → i ≠ j →
        RateEntry RateA RateB RateC RateD t L.length i j * EqEVAt E j =
          RateEntry RateA RateB RateC RateD t L.length j i * EqEVAt E i) ∧
      (∀ i j, i < j → j < L.length →
        Symmetrize Real.sqrt (EqEVAt E) L.length
            (ZeroMomentumMatrix RateA RateB RateC RateD t L.length Unitary)
            (Element L.length i j) =
          RateEntry RateA RateB RateC RateD t L.length i j *
            Real.sqrt (EqEVAt E j / EqEVAt E i) ∧
        Symmetrize Real.sqrt (EqEVAt E) L.length
            (ZeroMomentumMatrix RateA RateB RateC RateD t L.length Unitary)
            (Element L.length j i) =
          RateEntry RateA RateB RateC RateD t L.length i j *
            Real.sqrt (EqEVAt E j / EqEVAt E i)) ∧
      (Matrix.of fun (i j : Fin L.length) =>
          Symmetrize Real.sqrt (EqEVAt E) L.length
            (ZeroMomentumMatrix RateA RateB RateC RateD t L.length Unitary)
            (Element L.length i j)) =
        Matrix.diagonal (fun (i : Fin L.length) => (Real.sqrt (EqEVAt E i))⁻¹) *
          (Matrix.of fun (i j : Fin L.length) =>
            ZeroMomentumMatrix RateA RateB RateC RateD t L.length Unitary
              (Element L.length i j)) *
          Matrix.diagonal (fun (i : Fin L.length) => Real.sqrt (EqEVAt E i)) ∧
      (∀ i j, i < L.length → j < L.length →
        Symmetrize Real.sqrt (EqEVAt E) L.length
            (ZeroMomentumMatrix RateA RateB RateC RateD t L.length Unitary)
            (Element L.length i j) =
          Symmetrize Real.sqrt (EqEVAt E) L.length
            (ZeroMomentumMatrix RateA RateB RateC RateD t L.length Unitary)
            (Element L.length j i)) ∧
      spectrum ℝ (Matrix.of fun (i j : Fin L.length) =>
          Symmetrize Real.sqrt (EqEVAt E) L.length
            (ZeroMomentumMatrix RateA RateB RateC RateD t L.length Unitary)
            (Element L.length i j)) =
        spectrum ℝ (Matrix.of fun (i j : Fin L.length) =>
          ZeroMomentumMatrix RateA RateB RateC RateD t L.length Unitary
            (Element L.length i j)) := by
  obtain ⟨L, t, E, hrate, hlen, hE, hElen, hpos, hbal, _, hG, hS⟩ :=
    q0_run (A := RateA) (D := RateD) hprime hp hk0 hkp hfuel hB hC Unitary
  have hd : ∀ i : Fin L.length, Real.sqrt (EqEVAt E i) ≠ 0 :=
    fun i => ne_of_gt (Real.sqrt_pos.2 (hpos i i.2))
  obtain ⟨hconj, hspec⟩ := diagonal_conj
    (Matrix.of fun (i j : Fin L.length) =>
      ZeroMomentumMatrix RateA RateB RateC RateD t L.length Unitary (Element L.length i j))
    (Matrix.of fun (i j : Fin L.length) =>
      Symmetrize Real.sqrt (EqEVAt E) L.length
        (ZeroMomentumMatrix RateA RateB RateC RateD t L.length Unitary)
        (Element L.length i j))
    (fun i => Real.sqrt (EqEVAt E i)) hd (fun i j => hS i j i.2 j.2)
  have hup : ∀ i j, i < j → j < L.length →
      Symmetrize Real.sqrt (EqEVAt E) L.length
          (ZeroMomentumMatrix RateA RateB RateC RateD t L.length Unitary)
          (Element L.length i j) =
        RateEntry RateA RateB RateC RateD t L.length i j *
          Real.sqrt (EqEVAt E j / EqEVAt E i) ∧
      Symmetrize Real.sqrt (EqEVAt E) L.length
          (ZeroMomentumMatrix RateA RateB RateC RateD t L.length Unitary)
          (Element L.length j i) =
        RateEntry RateA RateB RateC RateD t L.length i j *
          Real.sqrt (EqEVAt E j / EqEVAt E i) := by
    intro i j hij hj
    have hi : i < L.length := by omega
    rw [Symmetrize_apply _ _ _ _ hi hj, Symmetrize_apply _ _ _ _ hj hi, if_pos hij,
      if_neg (by omega), if_pos hij, hG i j hi hj, if_neg (by omega), sub_zero]
    exact ⟨rfl, rfl⟩
  refine ⟨L, t, E, hrate, hlen, hE, hElen, fun i j hi hj _ => hbal i j hi hj, hup, hconj, ?_,
    hspec⟩
  intro i j hi hj
  rcases Nat.lt_trichotomy i j with h | h | h
  · rw [(hup i j h hj).1, (hup i j h hj).2]
  · rw [h]
  · rw [(hup j i h hi).1, (hup j i h hi).2]

theorem C13_detailed_balance_symmetrizes_witness :
    Nat.Prime 5 ∧ 5 ≤ 31 ∧ 0 < 2 ∧ 2 < 5 ∧ 2 ^ 5 ≤ 32 ∧ (0 : ℝ) < 2 ∧ (0 : ℝ) < 3 ∧
    ∃ (L : List Nat) (t : RateTables) (E : List ℝ), RateMatrix 32 5 2 = some (L, t) ∧
      L.length = PrimNum 5 2 ∧ EqEV 32 5 2 (2 : ℝ) 3 L = some E ∧
      E.length = L.length ∧
      (∀ i j, i < L.length → j < L.length → i ≠ j →
        RateEntry (1 : ℝ) 2 3 4 t L.length i j * EqEVAt E j =
          RateEntry (1 : ℝ) 2 3 4 t L.length j i * EqEVAt E i) ∧
      (∀ i j, i < j → j < L.length →
        Symmetrize Real.sqrt (EqEVAt E) L.length
            (ZeroMomentumMatrix (1 : ℝ) 2 3 4 t L.length (fun _ => 0))
            (Element L.length i j) =
          RateEntry (1 : ℝ) 2 3 4 t L.length i j *
            Real.sqrt (EqEVAt E j / EqEVAt E i) ∧
        Symmetrize Real.sqrt (EqEVAt E) L.length
            (ZeroMomentumMatrix (1 : ℝ) 2 3 4 t L.length (fun _ => 0))
            (Element L.length j i) =
          RateEntry (1 : ℝ) 2 3 4 t L.length i j *
            Real.sqrt (EqEVAt E j / EqEVAt E i)) ∧
      (Matrix.of fun (i j : Fin L.length) =>
          Symmetrize Real.sqrt (EqEVAt E) L.length
            (ZeroMomentumMatrix (1 : ℝ) 2 3 4 t L.length (fun _ => 0))
            (Element L.length i j)) =
        Matrix.diagonal (fun (i : Fin L.length) => (Real.sqrt (EqEVAt E i))⁻¹) *
          (Matrix.of fun (i j : Fin L.length) =>
            ZeroMomentumMatrix (1 : ℝ) 2 3 4 t L.length (fun _ => 0)
              (Element L.length i j)) *
          Matrix.diagonal (fun (i : Fin L.length) => Real.sqrt (EqEVAt E i)) ∧
      (∀ i j, i < L.length → j < L.length →
        Symmetrize Real.sqrt (EqEVAt E) L.length
            (ZeroMomentumMatrix (1 : ℝ) 2 3 4 t L.length (fun _ => 0))
            (Element L.length i j) =
          Symmetrize Real.sqrt (EqEVAt E) L.length
            (ZeroMomentumMatrix (1 : ℝ) 2 3 4 t L.length (fun _ => 0))
            (Element L.length j i)) ∧
      spectrum ℝ (Matrix.of fun (i j : Fin L.length) =>
          Symmetrize Real.sqrt (EqEVAt E) L.length
            (ZeroMomentumMatrix (1 : ℝ) 2 3 4 t L.length (fun _ => 0))
            (Element L.length i j)) =
        spectrum ℝ (Matrix.of fun (i j : Fin L.length) =>
          ZeroMomentumMatrix (1 : ℝ) 2 3 4 t L.length (fun _ => 0)
            (Element L.length i j)) :=
  ⟨by norm_num, by decide, by decide, by decide, by decide, by norm_num, by norm_num,
    @C13_detailed_balance_symmetrizes 5 2 32 (by norm_num) (by decide) (by decide)
      (by decide) (by decide) 1 2 3 4 (by norm_num) (by norm_num) (fun _ => 0)⟩

/-- C14: in exact real arithmetic, for a prime number `p <= 31` of sites, `0 < k < p`
atoms and positive rates `RateB`, `RateC` (any `RateA`, `RateD`), the matrix `G` the loop
"Calculate Rate Matrix" builds for the momentum `q = 0` (the rate entry off the diagonal,
the rate entry less the decay rate of `Diagonal[i]` on it) annihilates the equilibrium
eigenvector: the sum over `j` of `G[i,j] * EqEV[j]` is 0 for every primitive index `i`;
and the symmetrized matrix has the eigenvalue 0 with the eigenvector of the square roots
of `EqEV`, which are all positive. -/
theorem C14_generator_annihilates_equilibrium {p k fuel : Nat} (hprime : Nat.Prime p)
    (hp : p ≤ 31) (hk0 : 0 < k) (hkp : k < p) (hfuel : 2 ^ p ≤ fuel)
    {RateA RateB RateC RateD : ℝ} (hB : 0 < RateB) (hC : 0 < RateC) (Unitary : Nat → ℝ) :
    ∃ (L : List Nat) (t : RateTables) (E : List ℝ), RateMatrix fuel p k = some (L, t) ∧
      L.length = PrimNum p k ∧ EqEV fuel p k RateB RateC L = some E ∧
      E.length = L.length ∧
      (∀ i j, i < L.length → j < L.length →
        ZeroMomentumMatrix RateA RateB RateC RateD t L.length Unitary (Element L.length i j) =
          RateEntry RateA RateB RateC RateD t L.length i j -
            (if i = j then (t.Diagonal i).rate RateA RateB RateC RateD else 0)) ∧
      (∀ i, i < L.length → (∑ j ∈ Finset.range L.length,
        ZeroMomentumMatrix RateA RateB RateC RateD t L.length Unitary (Element L.length i j) *
          EqEVAt E j) = 0) ∧
      (∀ j, j < L.length → 0 < Real.sqrt (EqEVAt E j)) ∧
      (∀ i, i < L.length → (∑ j ∈ Finset.range L.length,
        Symmetrize Real.sqrt (EqEVAt E) L.length
            (ZeroMomentumMatrix RateA RateB RateC RateD t L.length Unitary)
            (Element L.length i j) * Real.sqrt (EqEVAt E j)) = 0) := by
  obtain ⟨L, t, E, hrate, hlen, hE, hElen, hpos, hbal, hcol, hG, hS⟩ :=
    q0_run (A := RateA) (D := RateD) hprime hp hk0 hkp hfuel hB hC Unitary
  have hzero : ∀ i, i < L.length → (∑ j ∈ Finset.range L.length,
      ZeroMomentumMatrix RateA RateB RateC RateD t L.length Unitary (Element L.length i j) *
        EqEVAt E j) = 0 := by
    intro i hi
    have h1 : ∀ j ∈ Finset.range L.length,
        ZeroMomentumMatrix RateA RateB RateC RateD t L.length Unitary (Element L.length i j) *
          EqEVAt E j =
        RateEntry RateA RateB RateC RateD t L.length j i * EqEVAt E i -
          (if i = j then (t.Diagonal i).rate RateA RateB RateC RateD * EqEVAt E i else 0) := by
      intro j hj
      rw [Finset.mem_range] at hj
      rw [hG i j hi hj, sub_mul, hbal i j hi hj]
      by_cases hij : i = j
      · rw [if_pos hij, if_pos hij, hij]
      · rw [if_neg hij, if_neg hij, zero_mul]
    rw [Finset.sum_congr rfl h1, Finset.sum_sub_distrib, ← Finset.sum_mul, hcol i hi,
      Finset.sum_ite_eq, if_pos (Finset.mem_range.2 hi), sub_self]
  refine ⟨L, t, E, hrate, hlen, hE, hElen, hG, hzero,
    fun j hj => Real.sqrt_pos.2 (hpos j hj), ?_⟩
  intro i hi
  have hsi : Real.sqrt (EqEVAt E i) ≠ 0 := ne_of_gt (Real.sqrt_pos.2 (hpos i hi))
  have h2 : ∀ j ∈ Finset.range L.length,
      Symmetrize Real.sqrt (EqEVAt E) L.length
          (ZeroMomentumMatrix RateA RateB RateC RateD t L.length Unitary)
          (Element L.length i j) * Real.sqrt (EqEVAt E j) =
        (ZeroMomentumMatrix RateA RateB RateC RateD t L.length Unitary (Element L.length i j) *
          EqEVAt E j) * (Real.sqrt (EqEVAt E i))⁻¹ := by
    intro j hj
    rw [Finset.mem_range] at hj
    rw [hS i j hi hj]
    have hsj2 : Real.sqrt (EqEVAt E j) * Real.sqrt (EqEVAt E j) = EqEVAt E j :=
      Real.mul_self_sqrt (hpos j hj).le
    nth_rewrite 3 [← hsj2]
    field_simp
    ring
  rw [Finset.sum_congr rfl h2, ← Finset.sum_mul, hzero i hi, zero_mul]

theorem C14_generator_annihilates_equilibrium_witness :
    Nat.Prime 5 ∧ 5 ≤ 31 ∧ 0 < 2 ∧ 2 < 5 ∧ 2 ^ 5 ≤ 32 ∧ (0 : ℝ) < 2 ∧ (0 : ℝ) < 3 ∧
    ∃ (L : List Nat) (t : RateTables) (E : List ℝ), RateMatrix 32 5 2 = some (L, t) ∧
      L.length = PrimNum 5 2 ∧ EqEV 32 5 2 (2 : ℝ) 3 L = some E ∧
      E.length = L.length ∧
      (∀ i j, i < L.length → j < L.length →
        ZeroMomentumMatrix (1 : ℝ) 2 3 4 t L.length (fun _ => 0) (Element L.length i j) =
          RateEntry (1 : ℝ) 2 3 4 t L.length i j -
            (if i = j then (t.Diagonal i).rate (1 : ℝ) 2 3 4 else 0)) ∧
      (∀ i, i < L.length → (∑ j ∈ Finset.range L.length,
        ZeroMomentumMatrix (1 : ℝ) 2 3 4 t L.length (fun _ => 0) (Element L.length i j) *
          EqEVAt E j) = 0) ∧
      (∀ j, j < L.length → 0 < Real.sqrt (EqEVAt E j)) ∧
      (∀ i, i < L.length → (∑ j ∈ Finset.range L.length,
        Symmetrize Real.sqrt (EqEVAt E) L.length
            (ZeroMomentumMatrix (1 : ℝ) 2 3 4 t L.length (fun _ => 0))
            (Element L.length i j) * Real.sqrt (EqEVAt E j)) = 0) :=
  ⟨by norm_num, by decide, by decide, by decide, by decide, by norm_num, by norm_num,
    @C14_generator_annihilates_equilibrium 5 2 32 (by norm_num) (by decide) (by decide)
      (by decide) (by decide) 1 2 3 4 (by norm_num) (by norm_num) (fun _ => 0)⟩

/-! ## The mirror map: claim C15 -/

/-- C15: for a prime number `p <= 31` of sites and `0 < k < p` atoms the loop that fills
`MirrorImage` returns (with fuel `2^p`, every lookup finds the mirror image in the array of
the primitive patterns); for every primitive index `i` the entry `mi = MirrorImage[i]`
is an index of the array, `Primitive[mi]` is the mirror image of `Primitive[i]`,
`MirrorImage[mi] = i`, and `mi = i` exactly when `Primitive[i].IsPalindromic()`. -/
theorem C15_mirror_map_is_involution {p k fuel : Nat} (hprime : Nat.Prime p) (hp : p ≤ 31)
    (hk0 : 0 < k) (hkp : k < p) (hfuel : 2 ^ p ≤ fuel) :
    ∃ L M n, SelectPrimitives fuel p k = some L ∧ L.length = PrimNum p k ∧
      MirrorImages fuel p L = some (M, n) ∧ M.length = L.length ∧
      ∀ i, i < L.length → ∃ c mi, L.get? i = some c ∧ M.get? i = some mi ∧
        mi < L.length ∧ L.get? mi = some (Pattern.Mirror p c) ∧ M.get? mi = some i ∧
        (mi = i ↔ Pattern.IsPalindromic p c = true) := by
  obtain ⟨L, hsel, hgood, hlen, hle⟩ := selectPrimitives_good hprime hp hk0 hkp hfuel
  have hp1 : 1 ≤ p := hprime.one_lt.le
  have hf2 : L.length ≤ fuel := by omega
  have hg : ∀ i, i < L.length → ∃ v,
      ((L.get? i).bind fun (c : Nat) => PatternPosition fuel L (Pattern.Mirror p c)) =
        some v := by
    intro i hi
    obtain ⟨c, hc⟩ := get_of_lt hi
    obtain ⟨mi, _, _, hpos⟩ := hgood.mirror hp1 hf2 hc
    exact ⟨mi, by rw [hc, Option.some_bind, hpos]⟩
  obtain ⟨M, n, hrun, hMlen, hget⟩ := foldlM_append_spec _ L.length hg
  have hfun : (fun (s : List Nat × Nat) (i : Nat) =>
        (L.get? i).bind fun (Current : Nat) =>
          (PatternPosition fuel L (Pattern.Mirror p Current)).map fun (Pos : Nat) =>
            (s.1 ++ [Pos], if Pos = i then s.2 + 1 else s.2)) =
      fun (s : List Nat × Nat) (i : Nat) =>
        ((L.get? i).bind fun (c : Nat) => PatternPosition fuel L (Pattern.Mirror p c)).map
          fun (Pos : Nat) => (s.1 ++ [Pos], if Pos = i then s.2 + 1 else s.2) := by
    funext s i
    cases L.get? i <;> rfl
  refine ⟨L, M, n, hsel, hlen, ?_, hMlen, ?_⟩
  · unfold MirrorImages
    rw [hfun]
    exact hrun
  · intro i hi
    obtain ⟨c, hc⟩ := get_of_lt hi
    obtain ⟨mi, hmi, hmget, hpos⟩ := hgood.mirror hp1 hf2 hc
    have hback : PatternPosition fuel L (Pattern.Mirror p (Pattern.Mirror p c)) = some i := by
      rw [Pattern.Mirror_Mirror hp1 (hgood.valid hc).1]
      exact PatternPosition_spec hgood.sorted hc hf2
    refine ⟨c, mi, hc, ?_, hmi, hmget, ?_, ?_⟩
    · rw [hget i hi, hc, Option.some_bind, hpos]
    · rw [hget mi hmi, hmget, Option.some_bind, hback]
    · unfold Pattern.IsPalindromic
      rw [decide_eq_true_eq]
      constructor
      · intro h
        rw [h, hc] at hmget
        exact (Option.some.inj hmget).symm
      · intro h
        rw [h] at hmget
        exact get_inj hgood.sorted hmget hc

theorem C15_mirror_map_is_involution_witness :
    Nat.Prime 5 ∧ 5 ≤ 31 ∧ 0 < 2 ∧ 2 < 5 ∧ 2 ^ 5 ≤ 32 ∧
    ∃ L M n, SelectPrimitives 32 5 2 = some L ∧ L.length = PrimNum 5 2 ∧
      MirrorImages 32 5 L = some (M, n) ∧ M.length = L.length ∧
      ∀ i, i < L.length → ∃ c mi, L.get? i = some c ∧ M.get? i = some mi ∧
        mi < L.length ∧ L.get? mi = some (Pattern.Mirror 5 c) ∧ M.get? mi = some i ∧
        (mi = i ↔ Pattern.IsPalindromic 5 c = true) :=
  ⟨by norm_num, by decide, by decide, by decide, by decide,
    @C15_mirror_map_is_involution 5 2 32 (by norm_num) (by decide) (by decide) (by decide)
      (by decide)⟩

/-! ## The lookup of a primitive pattern: claims C16 and C17 -/

/-- C16: in a strictly ascending array `Primitive` (its length `PrimNum` is then at
least 1) the lookup `PatternPosition` of a code that occurs at index `idx` returns, with
fuel `PrimNum` or more, that index; it is the only index that holds the code; the loop
makes at most `PrimNum` passes, and every position it reads lies in `0..PrimNum-1`. -/
theorem C16_lookup_returns_the_index {L : List Nat} {x idx fuel : Nat}
    (hL : L.Pairwise (· < ·)) (hidx : L.get? idx = some x) (hfuel : L.length ≤ fuel) :
    1 ≤ L.length ∧ PatternPosition fuel L x = some idx ∧
      (∀ j, L.get? j = some x → j = idx) ∧
      (PatternPositionProbes L x fuel 0 L.length).length ≤ L.length ∧
      ∀ c ∈ PatternPositionProbes L x fuel 0 L.length, c < L.length := by
  have hlt : idx < L.length := lt_of_get hidx
  obtain ⟨h1, h2⟩ := probes_present hL hidx fuel 0 L.length (Nat.zero_le _) hlt (le_refl _)
  exact ⟨by omega, PatternPosition_spec hL hidx hfuel, fun j hj => get_inj hL hj hidx,
    by omega, h2⟩

theorem C16_lookup_returns_the_index_witness :
    [12, 18].Pairwise (· < ·) ∧ [12, 18].get? 1 = some 18 ∧ [12, 18].length ≤ 2 ∧
    (1 ≤ [12, 18].length ∧ PatternPosition 2 [12, 18] 18 = some 1 ∧
      (∀ j, [12, 18].get? j = some 18 → j = 1) ∧
      (PatternPositionProbes [12, 18] 18 2 0 [12, 18].length).length ≤ [12, 18].length ∧
      ∀ c ∈ PatternPositionProbes [12, 18] 18 2 0 [12, 18].length, c < [12, 18].length) :=
  ⟨by decide, rfl, by decide,
    @C16_lookup_returns_the_index [12, 18] 18 1 2 (by decide) rfl (by decide)⟩

/-- C17 as stated fails: in the array of the primitive patterns of `p = 5`, `k = 2`,
which holds the codes 12 and 18, the lookup of the code 3 neither returns an index nor
ends in an error: after any number of passes the loop is still running (it has read as
many positions as passes were allowed), and every position read lies in the array. -/
theorem C17_counterexample :
    (∀ fuel, PatternPosition fuel [12, 18] 3 = none) ∧
    (∀ fuel, (PatternPositionProbes [12, 18] 3 fuel 0 2).length = fuel ∧
      ∀ c ∈ PatternPositionProbes [12, 18] 3 fuel 0 2, c < 2) :=
  ⟨fun fuel => (probes_absent (by decide : 3 ∉ [12, 18]) fuel 0 2 (by decide) (by decide)).1,
    fun fuel => (probes_absent (by decide : 3 ∉ [12, 18]) fuel 0 2 (by decide) (by decide)).2⟩

/-- C17, amended: when `PatternPosition` is called with a code that does not occur in
the array `Primitive` of length `PrimNum >= 1`, the lookup returns no index and does not
end: for every number of passes, the loop is still running after that many passes, and
every position it reads lies in `0..PrimNum-1`. -/
theorem C17_lookup_of_absent_code_runs_on {L : List Nat} {x : Nat} (hlen : 1 ≤ L.length)
    (hx : x ∉ L) (fuel : Nat) :
    PatternPosition fuel L x = none ∧
      (PatternPositionProbes L x fuel 0 L.length).length = fuel ∧
      ∀ c ∈ PatternPositionProbes L x fuel 0 L.length, c < L.length :=
  probes_absent hx fuel 0 L.length (by omega) (le_refl _)

theorem C17_lookup_of_absent_code_runs_on_witness :
    1 ≤ [12, 18].length ∧ 3 ∉ [12, 18] ∧
    (PatternPosition 7 [12, 18] 3 = none ∧
      (PatternPositionProbes [12, 18] 3 7 0 [12, 18].length).length = 7 ∧
      ∀ c ∈ PatternPositionProbes [12, 18] 3 7 0 [12, 18].length, c < [12, 18].length) :=
  ⟨by decide, by decide,
    @C17_lookup_of_absent_code_runs_on [12, 18] 3 (by decide) (by decide) 7⟩

/-! ## Sorting the eigenvalues: claim C18 -/

/-- C18: for `n >= 1` values of a linearly ordered type, `EigenSort` leaves the array of
the values as it was and leaves in `EVPointer[0..n-1]` a permutation of `0..n-1` (every
entry is below `n`, no two entries are equal, every index below `n` occurs) along which
the values ascend; the entries of `EVPointer` from `n` on are not written; and the
pointers below `n` are determined by the values below `n` alone: another run on an array
with the same `n` values, whatever `EVPointer` held before, fills in the same pointers. -/
theorem C18_eigenSort_sorts {α : Type} [LinearOrder α] (n : Nat) (hn : 1 ≤ n)
    (EVArray : Nat → α) (EVPointer : Nat → Nat) :
    (EigenSort n EVArray EVPointer).1 = EVArray ∧
      (∀ i, i < n → (EigenSort n EVArray EVPointer).2 i < n) ∧
      (∀ i j, i < n → j < n →
        (EigenSort n EVArray EVPointer).2 i = (EigenSort n EVArray EVPointer).2 j → i = j) ∧
      (∀ v, v < n → ∃ i, i < n ∧ (EigenSort n EVArray EVPointer).2 i = v) ∧
      (∀ i j, i ≤ j → j < n → EVArray ((EigenSort n EVArray EVPointer).2 i) ≤
        EVArray ((EigenSort n EVArray EVPointer).2 j)) ∧
      (∀ i, n ≤ i → (EigenSort n EVArray EVPointer).2 i = EVPointer i) ∧
      ∀ (EVArray' : Nat → α) (EVPointer' : Nat → Nat), (∀ v, v < n → EVArray' v = EVArray v) →
        ∀ i, i < n → (EigenSort n EVArray' EVPointer').2 i =
          (EigenSort n EVArray EVPointer).2 i := by
  obtain ⟨hP, _, hmin⟩ := EigenSortInit_spec EVArray EVPointer n
  have hstart : ∀ (F : Nat → α) (Q : Nat → Nat), (EigenSort n F Q).2 =
      EigenSortOuter F (EigenSortInit F n Q).2 n (fun i => if i < n then i else Q i) := by
    intro F Q
    show EigenSortOuter F (EigenSortInit F n Q).2 n (EigenSortInit F n Q).1 = _
    rw [(EigenSortInit_spec F Q n).1]
  obtain ⟨r1, r2, r3, r4⟩ := EigenSortOuter_spec EVArray (EigenSortInit EVArray n EVPointer).2
    n hmin n (fun i => if i < n then i else EVPointer i) (le_refl n)
    (fun a ha => by simp only [if_pos ha]; exact ha)
    (fun a b ha hb hab => by simpa only [if_pos ha, if_pos hb] using hab)
    (fun a b _ hnb hb => by omega)
  rw [hstart EVArray EVPointer]
  refine ⟨rfl, r1, r2, ?_, r3, ?_, ?_⟩
  · intro v hv
    obtain ⟨a, ha, hav⟩ := Finset.surj_on_of_inj_on_of_card_le
      (fun a (_ : a ∈ Finset.range n) => EigenSortOuter EVArray
        (EigenSortInit EVArray n EVPointer).2 n (fun i => if i < n then i else EVPointer i) a)
      (fun a ha => Finset.mem_range.2 (r1 a (Finset.mem_range.1 ha)))
      (fun a b ha hb hab => r2 a b (Finset.mem_range.1 ha) (Finset.mem_range.1 hb) hab)
      (le_refl _) v (Finset.mem_range.2 hv)
    exact ⟨a, Finset.mem_range.1 ha, hav.symm⟩
  · intro i hi
    rw [r4 i hi, if_neg (by omega)]
  · intro EVArray' EVPointer' hE i hi
    rw [hstart EVArray' EVPointer',
      EigenSortInit_congr EVArray' EVArray EVPointer' EVPointer (hE 0 (by omega)) n hE]
    exact EigenSortOuter_congr EVArray' EVArray _ n hE n _ _ (le_refl n)
      (fun a ha => by simp only [if_pos ha]; exact ha)
      (fun a ha => by simp only [if_pos ha]) i hi

theorem C18_eigenSort_sorts_witness :
    1 ≤ 3 ∧
    ((EigenSort 3 (fun i => [5, 2, 7].getD i 0) (fun _ => 0)).1 = (fun i => [5, 2, 7].getD i 0) ∧
      (∀ i, i < 3 → (EigenSort 3 (fun i => [5, 2, 7].getD i 0) (fun _ => 0)).2 i < 3) ∧
      (∀ i j, i < 3 → j < 3 →
        (EigenSort 3 (fun i => [5, 2, 7].getD i 0) (fun _ => 0)).2 i =
          (EigenSort 3 (fun i => [5, 2, 7].getD i 0) (fun _ => 0)).2 j → i = j) ∧
      (∀ v, v < 3 → ∃ i, i < 3 ∧
        (EigenSort 3 (fun i => [5, 2, 7].getD i 0) (fun _ => 0)).2 i = v) ∧
      (∀ i j, i ≤ j → j < 3 →
        (fun i => [5, 2, 7].getD i 0)
            ((EigenSort 3 (fun i => [5, 2, 7].getD i 0) (fun _ => 0)).2 i) ≤
          (fun i => [5, 2, 7].getD i 0)
            ((EigenSort 3 (fun i => [5, 2, 7].getD i 0) (fun _ => 0)).2 j)) ∧
      (∀ i, 3 ≤ i → (EigenSort 3 (fun i => [5, 2, 7].getD i 0) (fun _ => 0)).2 i =
        (fun _ => 0) i) ∧
      ∀ (EVArray' : Nat → Nat) (EVPointer' : Nat → Nat),
        (∀ v, v < 3 → EVArray' v = (fun i => [5, 2, 7].getD i 0) v) →
        ∀ i, i < 3 → (EigenSort 3 EVArray' EVPointer').2 i =
          (EigenSort 3 (fun i => [5, 2, 7].getD i 0) (fun _ => 0)).2 i) :=
  ⟨by decide, C18_eigenSort_sorts 3 (by decide) (fun i => [5, 2, 7].getD i 0) (fun _ => 0)⟩

/-! ## The Householder reduction: claim C19 -/

/-- C19: in exact real arithmetic, for every symmetric real matrix `A` with `n >= 1` rows
in `Matr`, `HouseholderSymm` with the transform requested (`EigenvaluesOnly = false`)
returns `Diag`, `ExDiag` and in `Matr` a matrix `Q` such that `Q Q^T = 1 = Q^T Q` and
`Q A Q^T` is the symmetric tridiagonal matrix with the diagonal `Diag[0..n-1]` and the
entries `ExDiag[i]` in the places `(i-1, i)` and `(i, i-1)`, `i = 1..n-1`; a pass of the
reduction loop over a row `i >= 2` whose entries above the diagonal are all zero leaves the
rows and columns below `i` as they are, reads out the diagonal element, sets `ExDiag[i]`
to zero and stores the unit matrix as its reflection; and for `n <= 2` the matrix `Q` is
the unit matrix and `Diag[0]`, `Diag[1]`, `ExDiag[1]` are the entries `A[0][0]`,
`A[1][1]`, `A[0][1]` of the input. -/
theorem C19_householder_tridiagonalizes (n : Nat) (hn : 1 ≤ n) (s : Tridiag ℝ)
    (hsym : ∀ a b, a < n → b < n → s.Matr (Element n a b) = s.Matr (Element n b a)) :
    asMatrix n (HouseholderSymm Real.sqrt false n s).Matr *
        (asMatrix n (HouseholderSymm Real.sqrt false n s).Matr).transpose = 1 ∧
      (asMatrix n (HouseholderSymm Real.sqrt false n s).Matr).transpose *
        asMatrix n (HouseholderSymm Real.sqrt false n s).Matr = 1 ∧
      asMatrix n (HouseholderSymm Real.sqrt false n s).Matr * asMatrix n s.Matr *
        (asMatrix n (HouseholderSymm Real.sqrt false n s).Matr).transpose =
          tridiagonal n (HouseholderSymm Real.sqrt false n s).Diag
            (HouseholderSymm Real.sqrt false n s).ExDiag ∧
      (∀ (t : Tridiag ℝ) (i : Nat), 2 ≤ i → i < n →
        (∀ k, k < i → t.Matr (Element n k i) = 0) →
          (∀ a b, a < i → b < i →
            (HouseholderStep Real.sqrt n i t).Matr (Element n a b) = t.Matr (Element n a b)) ∧
          (HouseholderStep Real.sqrt n i t).Diag i = t.Matr (Element n i i) ∧
          (HouseholderStep Real.sqrt n i t).ExDiag i = 0 ∧
          reflection n (HouseholderStep Real.sqrt n i t).Matr i = 1) ∧
      (n ≤ 2 →
        asMatrix n (HouseholderSymm Real.sqrt false n s).Matr = 1 ∧
        (HouseholderSymm Real.sqrt false n s).Diag 0 = s.Matr (Element n 0 0) ∧
        (n = 2 → (HouseholderSymm Real.sqrt false n s).Diag 1 = s.Matr (Element n 1 1) ∧
          (HouseholderSymm Real.sqrt false n s).ExDiag 1 = s.Matr (Element n 0 1))) := by
  have hmain : asMatrix n (HouseholderSymm Real.sqrt false n s).Matr *
        (asMatrix n (HouseholderSymm Real.sqrt false n s).Matr).transpose = 1 ∧
      asMatrix n (HouseholderSymm Real.sqrt false n s).Matr * asMatrix n s.Matr *
        (asMatrix n (HouseholderSymm Real.sqrt false n s).Matr).transpose =
          tridiagonal n (HouseholderSymm Real.sqrt false n s).Diag
            (HouseholderSymm Real.sqrt false n s).ExDiag := by
    by_cases h2 : 2 ≤ n
    · exact HouseholderSymm_transform h2 s hsym
    · have h1 : n = 1 := by omega
      subst h1
      rw [(HouseholderSymm_small (le_refl 1) (by decide) s).1, Matrix.transpose_one,
        Matrix.one_mul, Matrix.one_mul, Matrix.mul_one]
      exact ⟨rfl, HouseholderSymm_one s⟩
  exact ⟨hmain.1, Matrix.mul_eq_one_comm.1 hmain.1, hmain.2,
    fun t i hi2 hi hz => HouseholderStep_passes (by omega) hi t hz,
    fun h2 => HouseholderSymm_small hn h2 s⟩

theorem C19_householder_tridiagonalizes_witness :
    1 ≤ 3 ∧
    (∀ a b, a < 3 → b < 3 →
      (fun x => if x % 4 = 0 then (2 : ℝ) else 1) (Element 3 a b) =
        (fun x => if x % 4 = 0 then (2 : ℝ) else 1) (Element 3 b a)) ∧
    asMatrix 3 (HouseholderSymm Real.sqrt false 3 ⟨fun x => if x % 4 = 0 then 2 else 1, fun _ => 0, fun _ => 0⟩).Matr *
        (asMatrix 3 (HouseholderSymm Real.sqrt false 3 ⟨fun x => if x % 4 = 0 then 2 else 1, fun _ => 0, fun _ => 0⟩).Matr).transpose = 1 ∧
      (asMatrix 3 (HouseholderSymm Real.sqrt false 3 ⟨fun x => if x % 4 = 0 then 2 else 1, fun _ => 0, fun _ => 0⟩).Matr).transpose *
        asMatrix 3 (HouseholderSymm Real.sqrt false 3 ⟨fun x => if x % 4 = 0 then 2 else 1, fun _ => 0, fun _ => 0⟩).Matr = 1 ∧
      asMatrix 3 (HouseholderSymm Real.sqrt false 3 ⟨fun x => if x % 4 = 0 then 2 else 1, fun _ => 0, fun _ => 0⟩).Matr * asMatrix 3 (fun x => if x % 4 = 0 then (2 : ℝ) else 1) *
        (asMatrix 3 (HouseholderSymm Real.sqrt false 3 ⟨fun x => if x % 4 = 0 then 2 else 1, fun _ => 0, fun _ => 0⟩).Matr).transpose =
          tridiagonal 3 (HouseholderSymm Real.sqrt false 3 ⟨fun x => if x % 4 = 0 then 2 else 1, fun _ => 0, fun _ => 0⟩).Diag
            (HouseholderSymm Real.sqrt false 3 ⟨fun x => if x % 4 = 0 then 2 else 1, fun _ => 0, fun _ => 0⟩).ExDiag ∧
      (∀ (t : Tridiag ℝ) (i : Nat), 2 ≤ i → i < 3 →
        (∀ k, k < i → t.Matr (Element 3 k i) = 0) →
          (∀ a b, a < i → b < i →
            (HouseholderStep Real.sqrt 3 i t).Matr (Element 3 a b) = t.Matr (Element 3 a b)) ∧
          (HouseholderStep Real.sqrt 3 i t).Diag i = t.Matr (Element 3 i i) ∧
          (HouseholderStep Real.sqrt 3 i t).ExDiag i = 0 ∧
          reflection 3 (HouseholderStep Real.sqrt 3 i t).Matr i = 1) ∧
      (3 ≤ 2 →
        asMatrix 3 (HouseholderSymm Real.sqrt false 3 ⟨fun x => if x % 4 = 0 then 2 else 1, fun _ => 0, fun _ => 0⟩).Matr = 1 ∧
        (HouseholderSymm Real.sqrt false 3 ⟨fun x => if x % 4 = 0 then 2 else 1, fun _ => 0, fun _ => 0⟩).Diag 0 = (fun x => if x % 4 = 0 then (2 : ℝ) else 1) (Element 3 0 0) ∧
        (3 = 2 → (HouseholderSymm Real.sqrt false 3 ⟨fun x => if x % 4 = 0 then 2 else 1, fun _ => 0, fun _ => 0⟩).Diag 1 = (fun x => if x % 4 = 0 then (2 : ℝ) else 1) (Element 3 1 1) ∧
          (HouseholderSymm Real.sqrt false 3 ⟨fun x => if x % 4 = 0 then 2 else 1, fun _ => 0, fun _ => 0⟩).ExDiag 1 = (fun x => if x % 4 = 0 then (2 : ℝ) else 1) (Element 3 0 1))) :=
  ⟨by decide,
    fun a b ha hb => by
      have e : (Element 3 a b % 4 = 0) ↔ (Element 3 b a % 4 = 0) := by
        unfold Element
        omega
      simp only [e],
    C19_householder_tridiagonalizes 3 (by decide)
      ⟨fun x => if x % 4 = 0 then 2 else 1, fun _ => 0, fun _ => 0⟩
      (fun a b ha hb => by
        have e : (Element 3 a b % 4 = 0) ↔ (Element 3 b a % 4 = 0) := by
          unfold Element
          omega
        simp only [e])⟩

/-! ## The 2 x 2 split of the QR routines: claim C20 -/

/-- C20: in exact real arithmetic (`sqrt` the real square root), whenever the 2 x 2
split of `QRSymm` performs its Jacobi rotation on `d1 = Diag[i-1]`, `d2 = Diag[i]`,
`e = ExDiag[i]`, and whenever that of `QRHerm` performs it on `d1`, `d2` and the complex
`z = SupDiag[i]`, the new diagonal entries `d1'`, `d2'` satisfy `d1' + d2' = d1 + d2`
and `d1' d2' = d1 d2 - |e|^2` (respectively `d1 d2 - |z|^2`), and the rotation
coefficients satisfy `c^2 + s^2 = 1`. -/
theorem C20_jacobi_rotation_gives_eigenvalues (d1 d2 e : ℝ) (z : ℂ)
    (hs : |e| > Accu ℝ * (|d1| + |d2|))
    (hh : Real.sqrt (z.re * z.re + z.im * z.im) > Accu ℝ * (|d1| + |d2|)) :
    (∃ r, QRSymmSplit Real.sqrt d1 d2 e = some r ∧ r.Diag1 + r.Diag2 = d1 + d2 ∧
      r.Diag1 * r.Diag2 = d1 * d2 - |e| ^ 2 ∧ r.c ^ 2 + r.s ^ 2 = 1) ∧
    (∃ r, QRHermSplit Real.sqrt d1 d2 z.re z.im = some r ∧ r.Diag1 + r.Diag2 = d1 + d2 ∧
      r.Diag1 * r.Diag2 = d1 * d2 - Complex.abs z ^ 2 ∧ r.c ^ 2 + r.s ^ 2 = 1) := by
  have hsq : ∀ x : ℝ, 0 ≤ x → 0 ≤ Real.sqrt x ∧ Real.sqrt x * Real.sqrt x = x :=
    fun x hx => ⟨Real.sqrt_nonneg x, Real.mul_self_sqrt hx⟩
  obtain ⟨r, h1, h2, h3, h4⟩ := QRSymmSplit_spec Real.sqrt hsq d1 d2 e hs
  obtain ⟨r', h1', h2', h3', h4'⟩ := QRHermSplit_spec Real.sqrt hsq d1 d2 z.re z.im hh
  refine ⟨⟨r, h1, h2, ?_, ?_⟩, ⟨r', h1', h2', ?_, ?_⟩⟩
  · rw [h3, sq_abs]; ring
  · rw [← h4]; ring
  · rw [h3', Complex.sq_abs, Complex.normSq_apply]
  · rw [← h4']; ring

theorem C20_jacobi_rotation_gives_eigenvalues_witness :
    |(1 : ℝ)| > Accu ℝ * (|(2 : ℝ)| + |(1 : ℝ)|) ∧
    Real.sqrt ((⟨3, 4⟩ : ℂ).re * (⟨3, 4⟩ : ℂ).re + (⟨3, 4⟩ : ℂ).im * (⟨3, 4⟩ : ℂ).im) >
      Accu ℝ * (|(2 : ℝ)| + |(1 : ℝ)|) ∧
    ((∃ r, QRSymmSplit Real.sqrt 2 1 1 = some r ∧ r.Diag1 + r.Diag2 = 2 + 1 ∧
      r.Diag1 * r.Diag2 = 2 * 1 - |(1 : ℝ)| ^ 2 ∧ r.c ^ 2 + r.s ^ 2 = 1) ∧
    (∃ r, QRHermSplit Real.sqrt 2 1 (⟨3, 4⟩ : ℂ).re (⟨3, 4⟩ : ℂ).im = some r ∧
      r.Diag1 + r.Diag2 = 2 + 1 ∧
      r.Diag1 * r.Diag2 = 2 * 1 - Complex.abs (⟨3, 4⟩ : ℂ) ^ 2 ∧ r.c ^ 2 + r.s ^ 2 = 1)) := by
  have h1 : |(1 : ℝ)| > Accu ℝ * (|(2 : ℝ)| + |(1 : ℝ)|) := by
    unfold Accu
    norm_num
  have h2 : Real.sqrt ((⟨3, 4⟩ : ℂ).re * (⟨3, 4⟩ : ℂ).re +
      (⟨3, 4⟩ : ℂ).im * (⟨3, 4⟩ : ℂ).im) > Accu ℝ * (|(2 : ℝ)| + |(1 : ℝ)|) := by
    have h5 : Real.sqrt ((3 : ℝ) * 3 + 4 * 4) = 5 := by
      rw [show (3 : ℝ) * 3 + 4 * 4 = 5 ^ 2 by norm_num]
      exact Real.sqrt_sq (by norm_num)
    show Real.sqrt ((3 : ℝ) * 3 + 4 * 4) > _
    rw [h5]
    unfold Accu
    norm_num
  exact ⟨h1, h2, C20_jacobi_rotation_gives_eigenvalues 2 1 1 ⟨3, 4⟩ h1 h2⟩

/-! ## The sweeps of the QR routines: claim C21 -/

/-- C21: in `QRSymm` and in `QRHerm`, over any ordered field and with any function for
the square root, and with fuel at least 31 and at least `n = MatrixDim` for the two
`while` loops.  The routine is the outer loop from the index `n - 1`; the outer loop
returns when the index is not positive, and else every stage of it runs the inner loop
with the sweep counter 0 on the arrays as they are.  When the convergence test fails
before each of the first `j <= 30` passes of the inner loop, these `j` sweeps are made
(one progress dot each); if the test is passed after them, the inner loop returns and
the stage goes on with the index lowered by 1, or by 2 after the Jacobi rotation; if
`j = 30` and the test fails still, so that a 31st sweep would start, the inner loop ends
the program with "No convergence" and so does the outer loop, whatever stage it is in.
Hence the inner loop makes at most 30 sweeps, and the routine ends, by returning or with
"No convergence", after at most `30 (n - 1)` sweeps (none for `n = 0`). -/
theorem C21_qr_sweeps_are_bounded {K : Type} [LinearOrderedField K] (sqrt : K → K)
    ( EigenvaluesOnly : Bool) (n fuel : Nat) (hfuel : 31 ≤ fuel) (hnf : n ≤ fuel) :
    (∀ (i : Nat) (t : QRTest K) (s : QRSymmState K),
      (∃ t1 s1, QRSymmInner sqrt EigenvaluesOnly n i fuel 0 t s = some (.Return (t1, s1)) ∧
        s1.Dots ≤ s.Dots + 30 ∧ ¬ (i > 1 ∧ t1.Ratio > Accu K)) ∨
      (∃ t1 s1, QRSymmInner sqrt EigenvaluesOnly n i fuel 0 t s = some (.NoConvergence (t1, s1)) ∧
        s1.Dots = s.Dots + 30 ∧ (i > 1 ∧ t1.Ratio > Accu K))) ∧
    (∀ (f : Nat) (i : Int) (s : QRSymmState K), 0 < i →
      (∃ s1, QRSymmOuter sqrt EigenvaluesOnly n fuel (f + 1) i s = some (.NoConvergence s1) ∧
        1 < i ∧ s1.Dots = s.Dots + 30) ∨
      (∃ s1, QRSymmOuter sqrt EigenvaluesOnly n fuel (f + 1) i s =
          QRSymmOuter sqrt EigenvaluesOnly n fuel f (i - 1) s1 ∧ s1.Dots ≤ s.Dots + 30) ∨
      (∃ s1, QRSymmOuter sqrt EigenvaluesOnly n fuel (f + 1) i s =
          QRSymmOuter sqrt EigenvaluesOnly n fuel f (i - 2) s1 ∧ s1.Dots ≤ s.Dots + 30)) ∧
    (∀ s : QRSymmState K, ∃ s1,
      (QRSymm sqrt EigenvaluesOnly n fuel s = some (.Return s1) ∨
        QRSymm sqrt EigenvaluesOnly n fuel s = some (.NoConvergence s1)) ∧
      s1.Dots ≤ s.Dots + 30 * (n - 1)) ∧
    (∀ (i j : Nat) (t : QRTest K) (s : QRSymmState K) (r : QRTest K × QRSymmState K),
      j ≤ 30 → r = (QRSymmPass sqrt EigenvaluesOnly n i)^[j] (t, s) →
      (∀ j', j' < j → i > 1 ∧ ((QRSymmPass sqrt EigenvaluesOnly n i)^[j'] (t, s)).1.Ratio > Accu K) →
      r.2.Dots = s.Dots + j ∧
      (¬ (i > 1 ∧ r.1.Ratio > Accu K) →
        QRSymmInner sqrt EigenvaluesOnly n i fuel 0 t s = some (.Return r)) ∧
      (j = 30 → (i > 1 ∧ r.1.Ratio > Accu K) →
        QRSymmInner sqrt EigenvaluesOnly n i fuel 0 t s = some (.NoConvergence r))) ∧
    (∀ (f : Nat) (i : Int) (s : QRSymmState K), i ≤ 0 →
      QRSymmOuter sqrt EigenvaluesOnly n fuel (f + 1) i s = some (.Return s)) ∧
    (∀ (f : Nat) (i : Int) (s : QRSymmState K) (j : Nat) (r : QRTest K × QRSymmState K),
      0 < i → j ≤ 30 →
      r = (QRSymmPass sqrt EigenvaluesOnly n i.toNat)^[j] (QRSymmTest s.ExDiag i.toNat, s) →
      (∀ j', j' < j → i.toNat > 1 ∧
        ((QRSymmPass sqrt EigenvaluesOnly n i.toNat)^[j'] (QRSymmTest s.ExDiag i.toNat, s)).1.Ratio > Accu K) →
      (j = 30 → (i.toNat > 1 ∧ r.1.Ratio > Accu K) →
        QRSymmOuter sqrt EigenvaluesOnly n fuel (f + 1) i s = some (.NoConvergence r.2)) ∧
      (¬ (i.toNat > 1 ∧ r.1.Ratio > Accu K) → r.1.Flag = true →
        QRSymmOuter sqrt EigenvaluesOnly n fuel (f + 1) i s = QRSymmOuter sqrt EigenvaluesOnly n fuel f (i - 1) r.2) ∧
      (¬ (i.toNat > 1 ∧ r.1.Ratio > Accu K) → r.1.Flag = false →
        QRSymmOuter sqrt EigenvaluesOnly n fuel (f + 1) i s =
          QRSymmOuter sqrt EigenvaluesOnly n fuel f (i - 2) (QRSymmJacobi sqrt EigenvaluesOnly n i.toNat r.2))) ∧
    (∀ s : QRSymmState K, QRSymm sqrt EigenvaluesOnly n fuel s =
      QRSymmOuter sqrt EigenvaluesOnly n fuel fuel ((n : Int) - 1)
        ⟨s.Matr, s.Diag, Function.update s.ExDiag 0 0, s.Dots⟩) ∧
    (∀ (i : Nat) (t : QRTest K) (s : QRHermState K),
      (∃ t1 s1, QRHermInner sqrt EigenvaluesOnly n i fuel 0 t s = some (.Return (t1, s1)) ∧
        s1.Dots ≤ s.Dots + 30 ∧ ¬ (i > 1 ∧ t1.Ratio > Accu K * Accu K)) ∨
      (∃ t1 s1, QRHermInner sqrt EigenvaluesOnly n i fuel 0 t s = some (.NoConvergence (t1, s1)) ∧
        s1.Dots = s.Dots + 30 ∧ (i > 1 ∧ t1.Ratio > Accu K * Accu K))) ∧
    (∀ (f : Nat) (i : Int) (s : QRHermState K), 0 < i →
      (∃ s1, QRHermOuter sqrt EigenvaluesOnly n fuel (f + 1) i s = some (.NoConvergence s1) ∧
        1 < i ∧ s1.Dots = s.Dots + 30) ∨
      (∃ s1, QRHermOuter sqrt EigenvaluesOnly n fuel (f + 1) i s =
          QRHermOuter sqrt EigenvaluesOnly n fuel f (i - 1) s1 ∧ s1.Dots ≤ s.Dots + 30) ∨
      (∃ s1, QRHermOuter sqrt EigenvaluesOnly n fuel (f + 1) i s =
          QRHermOuter sqrt EigenvaluesOnly n fuel f (i - 2) s1 ∧ s1.Dots ≤ s.Dots + 30)) ∧
    (∀ s : QRHermState K, ∃ s1,
      (QRHerm sqrt EigenvaluesOnly n fuel s = some (.Return s1) ∨
        QRHerm sqrt EigenvaluesOnly n fuel s = some (.NoConvergence s1)) ∧
      s1.Dots ≤ s.Dots + 30 * (n - 1)) ∧
    (∀ (i j : Nat) (t : QRTest K) (s : QRHermState K) (r : QRTest K × QRHermState K),
      j ≤ 30 → r = (QRHermPass sqrt EigenvaluesOnly n i)^[j] (t, s) →
      (∀ j', j' < j → i > 1 ∧ ((QRHermPass sqrt EigenvaluesOnly n i)^[j'] (t, s)).1.Ratio > Accu K * Accu K) →
      r.2.Dots = s.Dots + j ∧
      (¬ (i > 1 ∧ r.1.Ratio > Accu K * Accu K) →
        QRHermInner sqrt EigenvaluesOnly n i fuel 0 t s = some (.Return r)) ∧
      (j = 30 → (i > 1 ∧ r.1.Ratio > Accu K * Accu K) →
        QRHermInner sqrt EigenvaluesOnly n i fuel 0 t s = some (.NoConvergence r))) ∧
    (∀ (f : Nat) (i : Int) (s : QRHermState K), i ≤ 0 →
      QRHermOuter sqrt EigenvaluesOnly n fuel (f + 1) i s = some (.Return s)) ∧
    (∀ (f : Nat) (i : Int) (s : QRHermState K) (j : Nat) (r : QRTest K × QRHermState K),
      0 < i → j ≤ 30 →
      r = (QRHermPass sqrt EigenvaluesOnly n i.toNat)^[j] (QRHermTest s.SupDiag i.toNat, s) →
      (∀ j', j' < j → i.toNat > 1 ∧
        ((QRHermPass sqrt EigenvaluesOnly n i.toNat)^[j'] (QRHermTest s.SupDiag i.toNat, s)).1.Ratio > Accu K * Accu K) →
      (j = 30 → (i.toNat > 1 ∧ r.1.Ratio > Accu K * Accu K) →
        QRHermOuter sqrt EigenvaluesOnly n fuel (f + 1) i s = some (.NoConvergence r.2)) ∧
      (¬ (i.toNat > 1 ∧ r.1.Ratio > Accu K * Accu K) → r.1.Flag = true →
        QRHermOuter sqrt EigenvaluesOnly n fuel (f + 1) i s = QRHermOuter sqrt EigenvaluesOnly n fuel f (i - 1) r.2) ∧
      (¬ (i.toNat > 1 ∧ r.1.Ratio > Accu K * Accu K) → r.1.Flag = false →
        QRHermOuter sqrt EigenvaluesOnly n fuel (f + 1) i s =
          QRHermOuter sqrt EigenvaluesOnly n fuel f (i - 2) (QRHermJacobi sqrt EigenvaluesOnly n i.toNat r.2))) ∧
    (∀ s : QRHermState K, QRHerm sqrt EigenvaluesOnly n fuel s =
      QRHermOuter sqrt EigenvaluesOnly n fuel fuel ((n : Int) - 1)
        ⟨s.Matr, s.Diag, Function.update s.SupDiag 0 ⟨0, 0⟩, s.Dots⟩) := by
  have hM : MaxIter = 30 := rfl
  have hF : MaxIter + 1 ≤ fuel := by omega
  refine ⟨?_, ?_, ?_, ?_, ?_, ?_, ?_, ?_, ?_, ?_, ?_, ?_, ?_, ?_⟩
  · intro i t s
    rcases QRSymmInner_spec sqrt EigenvaluesOnly n i MaxIter fuel 0 t s (Nat.zero_add _) hF
      with ⟨t1, s1, h1, h2, _, h4⟩ | ⟨t1, s1, h1, h2, h3⟩
    · exact Or.inl ⟨t1, s1, h1, by omega, h4⟩
    · exact Or.inr ⟨t1, s1, h1, by omega, h3⟩
  · intro f i s hi
    rcases QRSymmOuter_step sqrt EigenvaluesOnly n fuel hF f i hi s with
      ⟨s1, h1, h2, h3⟩ | ⟨s1, h1, h2⟩ | ⟨s1, h1, h2⟩
    · exact Or.inl ⟨s1, h1, h2, by omega⟩
    · exact Or.inr (Or.inl ⟨s1, h1, by omega⟩)
    · exact Or.inr (Or.inr ⟨s1, h1, by omega⟩)
  · intro s
    obtain ⟨s1, h1, h2⟩ := QRSymm_halts sqrt EigenvaluesOnly n fuel hF hnf s
    exact ⟨s1, h1, by rw [hM] at h2; exact h2⟩
  · intro i j t s r hj hr hall
    obtain ⟨h1, h2, h3⟩ := QRSymmInner_iterate sqrt EigenvaluesOnly n i j fuel 0 (t, s)
      (by omega) (by omega) hall
    rw [← hr] at h1 h2 h3
    exact ⟨h1, h2, fun h30 => h3 (by omega)⟩
  · intro f i s hi
    rw [QRSymmOuter, if_neg (by omega)]
  · intro f i s j r hi hj hr hall
    obtain ⟨h1, h2, h3⟩ := QRSymmOuter_stage sqrt EigenvaluesOnly n fuel hF f i hi s j
      (by omega) r hr hall
    exact ⟨fun h30 => h1 (by omega), h2, h3⟩
  · intro s
    rfl
  · intro i t s
    rcases QRHermInner_spec sqrt EigenvaluesOnly n i MaxIter fuel 0 t s (Nat.zero_add _) hF
      with ⟨t1, s1, h1, h2, _, h4⟩ | ⟨t1, s1, h1, h2, h3⟩
    · exact Or.inl ⟨t1, s1, h1, by omega, h4⟩
    · exact Or.inr ⟨t1, s1, h1, by omega, h3⟩
  · intro f i s hi
    rcases QRHermOuter_step sqrt EigenvaluesOnly n fuel hF f i hi s with
      ⟨s1, h1, h2, h3⟩ | ⟨s1, h1, h2⟩ | ⟨s1, h1, h2⟩
    · exact Or.inl ⟨s1, h1, h2, by omega⟩
    · exact Or.inr (Or.inl ⟨s1, h1, by omega⟩)
    · exact Or.inr (Or.inr ⟨s1, h1, by omega⟩)
  · intro s
    obtain ⟨s1, h1, h2⟩ := QRHerm_halts sqrt EigenvaluesOnly n fuel hF hnf s
    exact ⟨s1, h1, by rw [hM] at h2; exact h2⟩
  · intro i j t s r hj hr hall
    obtain ⟨h1, h2, h3⟩ := QRHermInner_iterate sqrt EigenvaluesOnly n i j fuel 0 (t, s)
      (by omega) (by omega) hall
    rw [← hr] at h1 h2 h3
    exact ⟨h1, h2, fun h30 => h3 (by omega)⟩
  · intro f i s hi
    rw [QRHermOuter, if_neg (by omega)]
  · intro f i s j r hi hj hr hall
    obtain ⟨h1, h2, h3⟩ := QRHermOuter_stage sqrt EigenvaluesOnly n fuel hF f i hi s j
      (by omega) r hr hall
    exact ⟨fun h30 => h1 (by omega), h2, h3⟩
  · intro s
    rfl

/-- C21 over the rational numbers for a matrix of dimension 3 and the fuel 31. -/
theorem C21_qr_sweeps_are_bounded_witness :
    31 ≤ 31 ∧ 3 ≤ 31 ∧
    ((∀ (i : Nat) (t : QRTest ℚ) (s : QRSymmState ℚ),
      (∃ t1 s1, QRSymmInner (fun x : ℚ => x) false 3 i 31 0 t s = some (.Return (t1, s1)) ∧
        s1.Dots ≤ s.Dots + 30 ∧ ¬ (i > 1 ∧ t1.Ratio > Accu ℚ)) ∨
      (∃ t1 s1, QRSymmInner (fun x : ℚ => x) false 3 i 31 0 t s = some (.NoConvergence (t1, s1)) ∧
        s1.Dots = s.Dots + 30 ∧ (i > 1 ∧ t1.Ratio > Accu ℚ))) ∧
    (∀ (f : Nat) (i : Int) (s : QRSymmState ℚ), 0 < i →
      (∃ s1, QRSymmOuter (fun x : ℚ => x) false 3 31 (f + 1) i s = some (.NoConvergence s1) ∧
        1 < i ∧ s1.Dots = s.Dots + 30) ∨
      (∃ s1, QRSymmOuter (fun x : ℚ => x) false 3 31 (f + 1) i s =
          QRSymmOuter (fun x : ℚ => x) false 3 31 f (i - 1) s1 ∧ s1.Dots ≤ s.Dots + 30) ∨
      (∃ s1, QRSymmOuter (fun x : ℚ => x) false 3 31 (f + 1) i s =
          QRSymmOuter (fun x : ℚ => x) false 3 31 f (i - 2) s1 ∧ s1.Dots ≤ s.Dots + 30)) ∧
    (∀ s : QRSymmState ℚ, ∃ s1,
      (QRSymm (fun x : ℚ => x) false 3 31 s = some (.Return s1) ∨
        QRSymm (fun x : ℚ => x) false 3 31 s = some (.NoConvergence s1)) ∧
      s1.Dots ≤ s.Dots + 30 * ((3 : Nat) - 1)) ∧
    (∀ (i j : Nat) (t : QRTest ℚ) (s : QRSymmState ℚ) (r : QRTest ℚ × QRSymmState ℚ),
      j ≤ 30 → r = (QRSymmPass (fun x : ℚ => x) false 3 i)^[j] (t, s) →
      (∀ j', j' < j → i > 1 ∧ ((QRSymmPass (fun x : ℚ => x) false 3 i)^[j'] (t, s)).1.Ratio > Accu ℚ) →
      r.2.Dots = s.Dots + j ∧
      (¬ (i > 1 ∧ r.1.Ratio > Accu ℚ) →
        QRSymmInner (fun x : ℚ => x) false 3 i 31 0 t s = some (.Return r)) ∧
      (j = 30 → (i > 1 ∧ r.1.Ratio > Accu ℚ) →
        QRSymmInner (fun x : ℚ => x) false 3 i 31 0 t s = some (.NoConvergence r))) ∧
    (∀ (f : Nat) (i : Int) (s : QRSymmState ℚ), i ≤ 0 →
      QRSymmOuter (fun x : ℚ => x) false 3 31 (f + 1) i s = some (.Return s)) ∧
    (∀ (f : Nat) (i : Int) (s : QRSymmState ℚ) (j : Nat) (r : QRTest ℚ × QRSymmState ℚ),
      0 < i → j ≤ 30 →
      r = (QRSymmPass (fun x : ℚ => x) false 3 i.toNat)^[j] (QRSymmTest s.ExDiag i.toNat, s) →
      (∀ j', j' < j → i.toNat > 1 ∧
        ((QRSymmPass (fun x : ℚ => x) false 3 i.toNat)^[j'] (QRSymmTest s.ExDiag i.toNat, s)).1.Ratio > Accu ℚ) →
      (j = 30 → (i.toNat > 1 ∧ r.1.Ratio > Accu ℚ) →
        QRSymmOuter (fun x : ℚ => x) false 3 31 (f + 1) i s = some (.NoConvergence r.2)) ∧
      (¬ (i.toNat > 1 ∧ r.1.Ratio > Accu ℚ) → r.1.Flag = true →
        QRSymmOuter (fun x : ℚ => x) false 3 31 (f + 1) i s = QRSymmOuter (fun x : ℚ => x) false 3 31 f (i - 1) r.2) ∧
      (¬ (i.toNat > 1 ∧ r.1.Ratio > Accu ℚ) → r.1.Flag = false →
        QRSymmOuter (fun x : ℚ => x) false 3 31 (f + 1) i s =
          QRSymmOuter (fun x : ℚ => x) false 3 31 f (i - 2) (QRSymmJacobi (fun x : ℚ => x) false 3 i.toNat r.2))) ∧
    (∀ s : QRSymmState ℚ, QRSymm (fun x : ℚ => x) false 3 31 s =
      QRSymmOuter (fun x : ℚ => x) false 3 31 31 (((3 : Nat) : Int) - 1)
        ⟨s.Matr, s.Diag, Function.update s.ExDiag 0 0, s.Dots⟩) ∧
    (∀ (i : Nat) (t : QRTest ℚ) (s : QRHermState ℚ),
      (∃ t1 s1, QRHermInner (fun x : ℚ => x) false 3 i 31 0 t s = some (.Return (t1, s1)) ∧
        s1.Dots ≤ s.Dots + 30 ∧ ¬ (i > 1 ∧ t1.Ratio > Accu ℚ * Accu ℚ)) ∨
      (∃ t1 s1, QRHermInner (fun x : ℚ => x) false 3 i 31 0 t s = some (.NoConvergence (t1, s1)) ∧
        s1.Dots = s.Dots + 30 ∧ (i > 1 ∧ t1.Ratio > Accu ℚ * Accu ℚ))) ∧
    (∀ (f : Nat) (i : Int) (s : QRHermState ℚ), 0 < i →
      (∃ s1, QRHermOuter (fun x : ℚ => x) false 3 31 (f + 1) i s = some (.NoConvergence s1) ∧
        1 < i ∧ s1.Dots = s.Dots + 30) ∨
      (∃ s1, QRHermOuter (fun x : ℚ => x) false 3 31 (f + 1) i s =
          QRHermOuter (fun x : ℚ => x) false 3 31 f (i - 1) s1 ∧ s1.Dots ≤ s.Dots + 30) ∨
      (∃ s1, QRHermOuter (fun x : ℚ => x) false 3 31 (f + 1) i s =
          QRHermOuter (fun x : ℚ => x) false 3 31 f (i - 2) s1 ∧ s1.Dots ≤ s.Dots + 30)) ∧
    (∀ s : QRHermState ℚ, ∃ s1,
      (QRHerm (fun x : ℚ => x) false 3 31 s = some (.Return s1) ∨
        QRHerm (fun x : ℚ => x) false 3 31 s = some (.NoConvergence s1)) ∧
      s1.Dots ≤ s.Dots + 30 * ((3 : Nat) - 1)) ∧
    (∀ (i j : Nat) (t : QRTest ℚ) (s : QRHermState ℚ) (r : QRTest ℚ × QRHermState ℚ),
      j ≤ 30 → r = (QRHermPass (fun x : ℚ => x) false 3 i)^[j] (t, s) →
      (∀ j', j' < j → i > 1 ∧ ((QRHermPass (fun x : ℚ => x) false 3 i)^[j'] (t, s)).1.Ratio > Accu ℚ * Accu ℚ) →
      r.2.Dots = s.Dots + j ∧
      (¬ (i > 1 ∧ r.1.Ratio > Accu ℚ * Accu ℚ) →
        QRHermInner (fun x : ℚ => x) false 3 i 31 0 t s = some (.Return r)) ∧
      (j = 30 → (i > 1 ∧ r.1.Ratio > Accu ℚ * Accu ℚ) →
        QRHermInner (fun x : ℚ => x) false 3 i 31 0 t s = some (.NoConvergence r))) ∧
    (∀ (f : Nat) (i : Int) (s : QRHermState ℚ), i ≤ 0 →
      QRHermOuter (fun x : ℚ => x) false 3 31 (f + 1) i s = some (.Return s)) ∧
    (∀ (f : Nat) (i : Int) (s : QRHermState ℚ) (j : Nat) (r : QRTest ℚ × QRHermState ℚ),
      0 < i → j ≤ 30 →
      r = (QRHermPass (fun x : ℚ => x) false 3 i.toNat)^[j] (QRHermTest s.SupDiag i.toNat, s) →
      (∀ j', j' < j → i.toNat > 1 ∧
        ((QRHermPass (fun x : ℚ => x) false 3 i.toNat)^[j'] (QRHermTest s.SupDiag i.toNat, s)).1.Ratio > Accu ℚ * Accu ℚ) →
      (j = 30 → (i.toNat > 1 ∧ r.1.Ratio > Accu ℚ * Accu ℚ) →
        QRHermOuter (fun x : ℚ => x) false 3 31 (f + 1) i s = some (.NoConvergence r.2)) ∧
      (¬ (i.toNat > 1 ∧ r.1.Ratio > Accu ℚ * Accu ℚ) → r.1.Flag = true →
        QRHermOuter (fun x : ℚ => x) false 3 31 (f + 1) i s = QRHermOuter (fun x : ℚ => x) false 3 31 f (i - 1) r.2) ∧
      (¬ (i.toNat > 1 ∧ r.1.Ratio > Accu ℚ * Accu ℚ) → r.1.Flag = false →
        QRHermOuter (fun x : ℚ => x) false 3 31 (f + 1) i s =
          QRHermOuter (fun x : ℚ => x) false 3 31 f (i - 2) (QRHermJacobi (fun x : ℚ => x) false 3 i.toNat r.2))) ∧
    (∀ s : QRHermState ℚ, QRHerm (fun x : ℚ => x) false 3 31 s =
      QRHermOuter (fun x : ℚ => x) false 3 31 31 (((3 : Nat) : Int) - 1)
        ⟨s.Matr, s.Diag, Function.update s.SupDiag 0 ⟨0, 0⟩, s.Dots⟩)) :=
  ⟨by decide, by decide,
    C21_qr_sweeps_are_bounded (fun x : ℚ => x) false 3 31 (by decide) (by decide)⟩

/-! ## The evolution at the time zero: claim C22 -/

/-- C22: in exact real arithmetic, let the initial state pass the tests of `main` with
`p` sites, the code `c0` and `k` atoms, let the rates B and C be positive, let the block
of `Unitary` for the momentum zero hold an orthogonal matrix and let, for every momentum
`q = 1, ..., (p-1)/2`, the transformation matrix that the evolution unpacks from
`Unitary` with the mirror images be unitary.  Then the program finds the primitive
patterns, the equilibrium eigenvector, and the primitive pattern `State` and the rotation
`Shift` of the initial state; the result vector of the evolution at the time 0 for the
raw averages is 1 at the rotation `Shift` of the primitive pattern `State` and 0 at every
other pair of a rotation and a primitive pattern; the flags of the one-atom averaging
patterns are assigned and leave the array `Primitive` as it was; and the average written
for the site `a` is 1 if the initial pattern has an atom `o` on the site `a`, and 0 if it
has none. -/
theorem C22_evolution_at_time_zero (InitialState : List Char) (p c0 k fuel : Nat)
    (RateB RateC : ℝ) (MirrorImage : Nat → Nat) (Unitary Diag : Nat → ℝ) (EqEVIndex : Nat)
    (D0 : Nat → Bool)
    (hinit : FetchInitialState InitialState = .ok (p, c0, k))
    (hfuel : 2 ^ p ≤ fuel) (hB : 0 < RateB) (hC : 0 < RateC)
    (hO : (asMatrix (PrimNum p k) Unitary).transpose * asMatrix (PrimNum p k) Unitary = 1)
    (hU : ∀ q, 1 ≤ q → q ≤ (p - 1) / 2 →
      Matrix.conjTranspose
          ((storedTransform (PrimNum p k) (q * PrimNum p k * PrimNum p k) MirrorImage
            Unitary).map Cplx.toComplex) *
        (storedTransform (PrimNum p k) (q * PrimNum p k * PrimNum p k) MirrorImage
          Unitary).map Cplx.toComplex = 1) :
    ∃ (L : List Nat) (E : List ℝ) (prim Shift State : Nat) (DoesMatch : Nat → Bool),
      SelectPrimitives fuel p k = some L ∧ L.length = PrimNum p k ∧
      EqEV fuel p k RateB RateC L = some E ∧
      Pattern.Primitive fuel p c0 = some (prim, Shift) ∧
      PatternPosition fuel L prim = some State ∧ Shift < p ∧ State < PrimNum p k ∧
      (∀ nu i, nu < p → i < PrimNum p k →
        Evolution Real.sqrt Real.exp
          (Setup.mk p (PrimNum p k) State Shift MirrorImage Unitary (EqEVAt E) Diag
            (UnityRoots Real.cos Real.sin (Pi Real.arctan) p))
          false EqEVIndex 0 (nu * PrimNum p k + i) =
          if nu = Shift ∧ i = State then 1 else 0) ∧
      AssignFlags p (PrimNum p k) ((List.range p).map (OneAtomPattern p))
          (D0, fun j => L.getD j 0, 0) =
        .ok (DoesMatch, fun j => L.getD j 0, p * (PrimNum p k * p)) ∧
      (∀ a, a < p →
        (Averages (PrimNum p k) p p false DoesMatch
          (Evolution Real.sqrt Real.exp
            (Setup.mk p (PrimNum p k) State Shift MirrorImage Unitary (EqEVAt E) Diag
              (UnityRoots Real.cos Real.sin (Pi Real.arctan) p))
            false EqEVIndex 0)).1.get? a =
          some (if InitialState.get? a = some 'o' then 1 else 0)) := by
  obtain ⟨_, hc_eq, hprime, hp3, hp, hk0, hkp, hc0, hk⟩ := FetchInitialState_ok hinit
  have hp1 : 1 ≤ p := by omega
  obtain ⟨L, t, E, Nn, _, hsel, _, hgood, hlen, hf1, hf2, _, hE, hN, _, hEget, _, _⟩ :=
    eqEV_run hprime hp hk0 hkp hfuel hB hC
  obtain ⟨s, P, hs, hprim, _, hP, hget, hposn⟩ :=
    hgood.lookup hprime hp hk0 hkp hf1 hf2 hc0 hk
  have hback : (Pattern.rotateUp p)^[s] ((Pattern.rotateDown p)^[s] c0) = c0 :=
    (Pattern.iterate_rotateDown hp1 hp hc0 hk s).2.2.2
  have hPN : P < PrimNum p k := by rw [← hlen]; exact hP
  have hEpos : 0 < EqEVAt E P := by
    rw [EqEVAt_of_get (hEget P _ hget)]
    exact mul_pos (zpow_pos (div_pos hB hC) _) hN
  have hodd : p = 2 * ((p - 1) / 2) + 1 := by
    rcases hprime.eq_two_or_odd with h | h
    · omega
    · omega
  -- the grid
  have hgrid := evolution_zero
    (Setup.mk p (PrimNum p k) P s MirrorImage Unitary (EqEVAt E) Diag
      (UnityRoots Real.cos Real.sin (Pi Real.arctan) p))
    EqEVIndex ((p - 1) / 2) hodd hPN hs hEpos rfl hO hU
  -- the flags
  have hgetD : ∀ i c, L.get? i = some c → L.getD i 0 = c := by
    intro i c h
    rw [List.get?_eq_getElem?] at h
    rw [List.getD_eq_getElem?_getD, h]
    rfl
  have hPlt : ∀ i, i < PrimNum p k → (fun j => L.getD j 0) i < 2 ^ p := by
    intro i hi
    obtain ⟨c, hc⟩ := get_of_lt (by rw [hlen]; exact hi : i < L.length)
    show L.getD i 0 < 2 ^ p
    rw [hgetD i c hc]
    exact (hgood.valid hc).1
  obtain ⟨mt, hmt⟩ : ∃ mt : List Char → Nat → Bool, mt = fun s c =>
      match Pattern.Match p c s with
      | .ok b => b
      | .error _ => false := ⟨_, rfl⟩
  have hmt1 : ∀ a, a < p → ∀ c, mt (OneAtomPattern p a) c = c.testBit a := by
    intro a ha c
    rw [hmt]
    simp only [Match_OneAtomPattern p c a (by omega) ha]
  have hAP : ∀ s, s ∈ (List.range p).map (OneAtomPattern p) →
      ∀ c, Pattern.Match p c s = .ok (mt s c) := by
    intro s hs c
    rw [List.mem_map] at hs
    obtain ⟨a, ha, rfl⟩ := hs
    rw [List.mem_range] at ha
    rw [hmt1 a ha c, Match_OneAtomPattern p c a (by omega) ha]
  obtain ⟨D2, b1, _, b3⟩ := AssignFlags_spec p (PrimNum p k) hp1 hp mt
    (fun j => L.getD j 0) hPlt _ hAP D0 0
  rw [List.length_map, List.length_range, Nat.zero_add] at b1
  refine ⟨L, E, (Pattern.rotateDown p)^[s] c0, s, P, D2, hsel, hlen, hE, hprim, hposn, hs,
    hPN, hgrid, b1, ?_⟩
  intro a ha
  rw [Averages_grid (PrimNum p k) p p D2 _ s P hPN hs hgrid a ha]
  have hAPget : ((List.range p).map (OneAtomPattern p)).get? a =
      some (OneAtomPattern p a) := by
    rw [List.get?_eq_getElem?, List.getElem?_map, List.getElem?_range ha]
    rfl
  have hcell := b3 a _ P s hAPget hPN hs
  rw [Nat.zero_add] at hcell
  have hval : L.getD P 0 = (Pattern.rotateDown p)^[s] c0 := hgetD P _ hget
  rw [hval, hback, hmt1 a ha, hc_eq, testBit_symbolMask] at hcell
  rw [hcell]
  by_cases ho : InitialState.get? a = some 'o'
  · rw [if_pos ho, if_pos (decide_eq_true ho)]
  · rw [if_neg ho, if_neg (by rw [decide_eq_true_iff]; exact ho)]

/-- C22 at the example of the claim: five sites, the initial pattern `oo...`, the rates
B = 2 and C = 3, and the identity matrix in every block of `Unitary` (both primitive
patterns of two atoms on five sites are palindromic): the average for the site 0 is 1 and
the average for the site 2 is 0. -/
theorem C22_evolution_at_time_zero_witness :
    (FetchInitialState ['o', 'o', '.', '.', '.'] = .ok (5, 3, 2) ∧ PrimNum 5 2 = 2) ∧
    ∃ (E : List ℝ) (Shift State : Nat) (DoesMatch : Nat → Bool),
      (Averages (PrimNum 5 2) 5 5 false DoesMatch
        (Evolution Real.sqrt Real.exp
          (Setup.mk 5 (PrimNum 5 2) State Shift (fun j => j)
            (fun x => if x / 2 % 2 = x % 2 then (1 : ℝ) else 0) (EqEVAt E) (fun _ => 0)
            (UnityRoots Real.cos Real.sin (Pi Real.arctan) 5))
          false 0 0)).1.get? 0 = some 1 ∧
      (Averages (PrimNum 5 2) 5 5 false DoesMatch
        (Evolution Real.sqrt Real.exp
          (Setup.mk 5 (PrimNum 5 2) State Shift (fun j => j)
            (fun x => if x / 2 % 2 = x % 2 then (1 : ℝ) else 0) (EqEVAt E) (fun _ => 0)
            (UnityRoots Real.cos Real.sin (Pi Real.arctan) 5))
          false 0 0)).1.get? 2 = some 0 := by
  have h : PrimNum 5 2 = 2 := by
    rw [PrimNum_eq_choose_div (by norm_num) (by norm_num) (by norm_num) (by norm_num)]
    decide
  refine ⟨⟨rfl, h⟩, ?_⟩
  obtain ⟨_, E, _, Shift, State, DoesMatch, _, _, _, _, _, _, _, _, _, hav⟩ :=
    C22_evolution_at_time_zero ['o', 'o', '.', '.', '.'] 5 3 2 32 2 3 (fun j => j)
      (fun x => if x / 2 % 2 = x % 2 then (1 : ℝ) else 0) (fun _ => 0) 0 (fun _ => false)
      rfl (by norm_num) (by norm_num) (by norm_num)
      (by rw [h]; exact identity_orthogonal 2)
      (fun q _ _ => by rw [h]; exact identity_unitary 2 q)
  refine ⟨E, Shift, State, DoesMatch, ?_, ?_⟩
  · have h0 := hav 0 (by norm_num)
    rw [h0]
    simp
  · have h2 := hav 2 (by norm_num)
    rw [h2]
    simp

/-! ## The packed transformation matrices: claim C23 -/

/-- C23: let `MirrorImage` be an involution of the `PrimNum` indices and let the rows of
the complex matrix `Q` in `qNonZero` satisfy `Q[i, MirrorImage[j]] = conj(Q[i, j])`.  Then
the encoding loops of `main` store in `Unitary` the real part of `Q[i, j]` for a
palindromic `j` and for `j < MirrorImage[j]`, and the imaginary part of `Q[i, j]` for
`j > MirrorImage[j]`; the matrix they leave in `qNonZero`, unpacked from `Unitary`, is `Q`
again; `Q[i, j]` is the stored real number for a palindromic `j`, the stored real part
plus `i` times the stored imaginary part at the higher index of a mirror pair, and the
conjugate of that at the lower index; and of the two places of the evolution that unpack
`Unitary`, the initial projection multiplies by `Q[i, State]` and the final projection by
`conj(Q[j, i])`. -/
theorem C23_packed_storage_round_trips {K : Type} [LinearOrderedField K] (N OffsetM : Nat)
    (M : Nat → Nat) (hM : ∀ j, j < N → M j < N ∧ M (M j) = j) (Q : Nat → Cplx K)
    (hQ : ∀ i j, i < N → j < N → Q (Element N i (M j)) = Cplx.conj (Q (Element N i j)))
    (U : Nat → K) :
    (EncodeUnitary N OffsetM M (U, Q)).2 = Q ∧
    (∀ i j, i < N → j < N →
      (EncodeUnitary N OffsetM M (U, Q)).1 (OffsetM + Element N i j) =
        if j = M j then (Q (Element N i j)).re
        else if j < M j then (Q (Element N i j)).re
        else (Q (Element N i j)).im) ∧
    (∀ i j, i < N → j < N →
      Q (Element N i j) =
        if j = M j then
          ⟨(EncodeUnitary N OffsetM M (U, Q)).1 (OffsetM + Element N i j), 0⟩
        else if M j < j then
          ⟨(EncodeUnitary N OffsetM M (U, Q)).1 (OffsetM + Element N i (M j)),
            (EncodeUnitary N OffsetM M (U, Q)).1 (OffsetM + Element N i j)⟩
        else
          Cplx.conj ⟨(EncodeUnitary N OffsetM M (U, Q)).1 (OffsetM + Element N i j),
            (EncodeUnitary N OffsetM M (U, Q)).1 (OffsetM + Element N i (M j))⟩) ∧
    (∀ (AuxC : Cplx K) (i State : Nat), i < N → State < N →
      InitialEntry N OffsetM M (EncodeUnitary N OffsetM M (U, Q)).1 State AuxC i =
        Cplx.mul AuxC (Q (Element N i State))) ∧
    (∀ (AuxC : Cplx K) (j i : Nat), j < N → i < N →
      FinalEntry N OffsetM M (EncodeUnitary N OffsetM M (U, Q)).1 AuxC j i =
        Cplx.mul AuxC (Cplx.conj (Q (Element N j i)))) := by
  obtain ⟨h1, h2, _⟩ := EncodeUnitary_spec OffsetM M hM Q hQ U
  have hre : ∀ i j, i < N → j < N →
      (Q (Element N i (M j))).re = (Q (Element N i j)).re := by
    intro i j hi hj
    rw [hQ i j hi hj]
    rfl
  have him : ∀ i j, i < N → j < N →
      (Q (Element N i (M j))).im = -(Q (Element N i j)).im := by
    intro i j hi hj
    rw [hQ i j hi hj]
    rfl
  have him0 : ∀ i j, i < N → j < N → j = M j → (Q (Element N i j)).im = 0 := by
    intro i j hi hj hjm
    apply Cplx.im_zero_of_conj
    rw [← hQ i j hi hj, ← hjm]
  -- the stored numbers
  have hpal : ∀ i j, i < N → j < N → j = M j →
      (EncodeUnitary N OffsetM M (U, Q)).1 (OffsetM + Element N i j) =
        (Q (Element N i j)).re := by
    intro i j hi hj h
    rw [h2 i j hi hj, if_pos (Or.inr h)]
  have hlow : ∀ i j, i < N → j < N → j < M j →
      (EncodeUnitary N OffsetM M (U, Q)).1 (OffsetM + Element N i j) =
        (Q (Element N i j)).re := by
    intro i j hi hj h
    rw [h2 i j hi hj, if_pos (Or.inl h)]
  have hhigh : ∀ i j, i < N → j < N → M j < j →
      (EncodeUnitary N OffsetM M (U, Q)).1 (OffsetM + Element N i j) =
        (Q (Element N i j)).im := by
    intro i j hi hj h
    rw [h2 i j hi hj, if_neg (by omega)]
  -- the element unpacked
  have hunpack : ∀ i j, i < N → j < N →
      Q (Element N i j) =
        if j = M j then
          ⟨(EncodeUnitary N OffsetM M (U, Q)).1 (OffsetM + Element N i j), 0⟩
        else if M j < j then
          ⟨(EncodeUnitary N OffsetM M (U, Q)).1 (OffsetM + Element N i (M j)),
            (EncodeUnitary N OffsetM M (U, Q)).1 (OffsetM + Element N i j)⟩
        else
          Cplx.conj ⟨(EncodeUnitary N OffsetM M (U, Q)).1 (OffsetM + Element N i j),
            (EncodeUnitary N OffsetM M (U, Q)).1 (OffsetM + Element N i (M j))⟩ := by
    intro i j hi hj
    obtain ⟨hMj, hMM⟩ := hM j hj
    by_cases e1 : j = M j
    · rw [if_pos e1, hpal i j hi hj e1, Cplx.eq_iff]
      exact ⟨rfl, him0 i j hi hj e1⟩
    · rw [if_neg e1]
      by_cases e2 : M j < j
      · rw [if_pos e2, hhigh i j hi hj e2,
          hlow i (M j) hi hMj (by rw [hMM]; exact e2), hre i j hi hj]
      · rw [if_neg e2, hlow i j hi hj (by omega),
          hhigh i (M j) hi hMj (by rw [hMM]; omega), him i j hi hj, Cplx.eq_iff]
        simp [Cplx.conj]
  refine ⟨h1, ?_, hunpack, ?_, ?_⟩
  · intro i j hi hj
    rw [h2 i j hi hj]
    by_cases e1 : j = M j
    · rw [if_pos (Or.inr e1), if_pos e1]
    · by_cases e2 : j < M j
      · rw [if_pos (Or.inl e2), if_neg e1, if_pos e2]
      · rw [if_neg (by omega), if_neg e1, if_neg e2]
  · intro AuxC i State hi hS
    obtain ⟨hMj, hMM⟩ := hM State hS
    unfold InitialEntry
    by_cases e1 : State = M State
    · rw [if_pos e1, Cplx.scale_eq_mul, hpal i State hi hS e1]
      congr 1
      rw [Cplx.eq_iff]
      exact ⟨rfl, (him0 i State hi hS e1).symm⟩
    · rw [if_neg e1]
      by_cases e2 : State < M State
      · rw [if_pos e2, hlow i State hi hS e2,
          hhigh i (M State) hi hMj (by rw [hMM]; exact e2), him i State hi hS]
        congr 1
        rw [Cplx.eq_iff]
        simp
      · rw [if_neg e2, hhigh i State hi hS (by omega),
          hlow i (M State) hi hMj (by rw [hMM]; omega), hre i State hi hS]
  · intro AuxC j i hj hi
    obtain ⟨hMj, hMM⟩ := hM i hi
    unfold FinalEntry
    by_cases e1 : i = M i
    · rw [if_pos e1, Cplx.scale_eq_mul, hpal j i hj hi e1]
      congr 1
      rw [Cplx.eq_iff]
      simp [Cplx.conj, him0 j i hj hi e1]
    · rw [if_neg e1]
      by_cases e2 : i < M i
      · rw [if_pos e2, hlow j i hj hi e2,
          hhigh j (M i) hj hMj (by rw [hMM]; exact e2), him j i hj hi]
        rfl
      · rw [if_neg e2, hhigh j i hj hi (by omega),
          hlow j (M i) hj hMj (by rw [hMM]; omega), hre j i hj hi]
        rfl

theorem C23_packed_storage_round_trips_witness :
    (∀ j, j < 2 → (fun j => 1 - j) j < 2 ∧ (fun j => 1 - j) ((fun j => 1 - j) j) = j) ∧
    (∀ i j, i < 2 → j < 2 →
      ((fun x => ⟨1, if x % 2 = 0 then 1 else -1⟩) : Nat → Cplx ℚ)
          (Element 2 i ((fun j => 1 - j) j)) =
        Cplx.conj (((fun x => ⟨1, if x % 2 = 0 then 1 else -1⟩) : Nat → Cplx ℚ)
          (Element 2 i j))) ∧
    ((EncodeUnitary 2 4 (fun j => 1 - j) (((fun _ => 0) : Nat → ℚ), ((fun x => ⟨1, if x % 2 = 0 then 1 else -1⟩) : Nat → Cplx ℚ))).2 = ((fun x => ⟨1, if x % 2 = 0 then 1 else -1⟩) : Nat → Cplx ℚ) ∧
    (∀ i j, i < 2 → j < 2 →
      (EncodeUnitary 2 4 (fun j => 1 - j) (((fun _ => 0) : Nat → ℚ), ((fun x => ⟨1, if x % 2 = 0 then 1 else -1⟩) : Nat → Cplx ℚ))).1 (4 + Element 2 i j) =
        if j = (fun j => 1 - j) j then (((fun x => ⟨1, if x % 2 = 0 then 1 else -1⟩) : Nat → Cplx ℚ) (Element 2 i j)).re
        else if j < (fun j => 1 - j) j then (((fun x => ⟨1, if x % 2 = 0 then 1 else -1⟩) : Nat → Cplx ℚ) (Element 2 i j)).re
        else (((fun x => ⟨1, if x % 2 = 0 then 1 else -1⟩) : Nat → Cplx ℚ) (Element 2 i j)).im) ∧
    (∀ i j, i < 2 → j < 2 →
      ((fun x => ⟨1, if x % 2 = 0 then 1 else -1⟩) : Nat → Cplx ℚ) (Element 2 i j) =
        if j = (fun j => 1 - j) j then
          ⟨(EncodeUnitary 2 4 (fun j => 1 - j) (((fun _ => 0) : Nat → ℚ), ((fun x => ⟨1, if x % 2 = 0 then 1 else -1⟩) : Nat → Cplx ℚ))).1 (4 + Element 2 i j), 0⟩
        else if (fun j => 1 - j) j < j then
          ⟨(EncodeUnitary 2 4 (fun j => 1 - j) (((fun _ => 0) : Nat → ℚ), ((fun x => ⟨1, if x % 2 = 0 then 1 else -1⟩) : Nat → Cplx ℚ))).1 (4 + Element 2 i ((fun j => 1 - j) j)),
            (EncodeUnitary 2 4 (fun j => 1 - j) (((fun _ => 0) : Nat → ℚ), ((fun x => ⟨1, if x % 2 = 0 then 1 else -1⟩) : Nat → Cplx ℚ))).1 (4 + Element 2 i j)⟩
        else
          Cplx.conj ⟨(EncodeUnitary 2 4 (fun j => 1 - j) (((fun _ => 0) : Nat → ℚ), ((fun x => ⟨1, if x % 2 = 0 then 1 else -1⟩) : Nat → Cplx ℚ))).1 (4 + Element 2 i j),
            (EncodeUnitary 2 4 (fun j => 1 - j) (((fun _ => 0) : Nat → ℚ), ((fun x => ⟨1, if x % 2 = 0 then 1 else -1⟩) : Nat → Cplx ℚ))).1 (4 + Element 2 i ((fun j => 1 - j) j))⟩) ∧
    (∀ (AuxC : Cplx ℚ) (i State : Nat), i < 2 → State < 2 →
      InitialEntry 2 4 (fun j => 1 - j) (EncodeUnitary 2 4 (fun j => 1 - j) (((fun _ => 0) : Nat → ℚ), ((fun x => ⟨1, if x % 2 = 0 then 1 else -1⟩) : Nat → Cplx ℚ))).1 State AuxC i =
        Cplx.mul AuxC (((fun x => ⟨1, if x % 2 = 0 then 1 else -1⟩) : Nat → Cplx ℚ) (Element 2 i State))) ∧
    (∀ (AuxC : Cplx ℚ) (j i : Nat), j < 2 → i < 2 →
      FinalEntry 2 4 (fun j => 1 - j) (EncodeUnitary 2 4 (fun j => 1 - j) (((fun _ => 0) : Nat → ℚ), ((fun x => ⟨1, if x % 2 = 0 then 1 else -1⟩) : Nat → Cplx ℚ))).1 AuxC j i =
        Cplx.mul AuxC (Cplx.conj (((fun x => ⟨1, if x % 2 = 0 then 1 else -1⟩) : Nat → Cplx ℚ) (Element 2 j i))))) :=
  ⟨fun j hj => by
      show 1 - j < 2 ∧ 1 - (1 - j) = j
      omega,
    fun i j hi hj => by
      interval_cases i <;> interval_cases j <;> simp [Element, Cplx.conj],
    C23_packed_storage_round_trips 2 4 (fun j => 1 - j)
      (fun j hj => by
        show 1 - j < 2 ∧ 1 - (1 - j) = j
        omega)
      (fun x => ⟨1, if x % 2 = 0 then 1 else -1⟩)
      (fun i j hi hj => by
        interval_cases i <;> interval_cases j <;> simp [Element, Cplx.conj])
      (fun _ => 0)⟩

/-! ## The checks of `main`: claims C24, C25 and C30 -/

/-- C24: the section "Fetch and test initial state" of `main` accepts the initial pattern
string `s` iff every character of `s` is `o` or `.`, its length `p` satisfies
`3 <= p <= 31`, `IsPrime(p)` holds, and the number `k` of characters `o` satisfies
`0 < k < p`; it then goes on with `p`, the code of `s` and `k`.  In every other case it
ends the program with an error message, before anything else is computed.  For `p >= 2`,
`IsPrime(p)` is true exactly when `p` has no divisor in `2..p-1`, that is when `p` is
prime. -/
theorem C24_input_validation (s : List Char) :
    ((∃ r, FetchInitialState s = .ok r) ↔
      ((∀ ch, ch ∈ s → ch = 'o' ∨ ch = '.') ∧ 3 ≤ s.length ∧ s.length ≤ 31 ∧
        IsPrime s.length = true ∧ 0 < s.count 'o' ∧ s.count 'o' < s.length)) ∧
    (∀ r, FetchInitialState s = .ok r →
      r.1 = s.length ∧ Pattern.assign s.length s = .ok r.2.1 ∧ r.2.2 = s.count 'o') ∧
    (¬ ((∀ ch, ch ∈ s → ch = 'o' ∨ ch = '.') ∧ 3 ≤ s.length ∧ s.length ≤ 31 ∧
        IsPrime s.length = true ∧ 0 < s.count 'o' ∧ s.count 'o' < s.length) →
      ∃ e, FetchInitialState s = .error e) ∧
    (∀ p, 2 ≤ p → (IsPrime p = true ↔ ∀ d, 2 ≤ d → d < p → ¬ d ∣ p)) ∧
    (∀ p, 2 ≤ p → (IsPrime p = true ↔ Nat.Prime p)) := by
  have hiff : (∃ r, FetchInitialState s = .ok r) ↔
      ((∀ ch, ch ∈ s → ch = 'o' ∨ ch = '.') ∧ 3 ≤ s.length ∧ s.length ≤ 31 ∧
        IsPrime s.length = true ∧ 0 < s.count 'o' ∧ s.count 'o' < s.length) := by
    rcases FetchInitialState_spec s with ⟨h1, h2, h3, h4, h5, h6, hok⟩ |
      ⟨⟨ch, hm, hb1, hb2⟩, he⟩ | ⟨_, h, he⟩ | ⟨_, h, he⟩ | ⟨_, _, _, h, he⟩ |
      ⟨_, _, _, _, h, he⟩
    · exact ⟨fun _ => ⟨h1, h2, h3, h4, h5, h6⟩, fun _ => ⟨_, hok⟩⟩
    · refine ⟨?_, ?_⟩
      · rintro ⟨r, hr⟩
        rw [he] at hr
        cases hr
      · rintro ⟨hall, _⟩
        rcases hall ch hm with h | h
        · exact absurd h hb1
        · exact absurd h hb2
    · refine ⟨?_, fun h' => by omega⟩
      rintro ⟨r, hr⟩
      rw [he] at hr
      cases hr
    · refine ⟨?_, fun h' => by omega⟩
      rintro ⟨r, hr⟩
      rw [he] at hr
      cases hr
    · refine ⟨?_, fun h' => ?_⟩
      · rintro ⟨r, hr⟩
        rw [he] at hr
        cases hr
      · rw [h'.2.2.2.1] at h
        cases h
    · refine ⟨?_, fun h' => by omega⟩
      rintro ⟨r, hr⟩
      rw [he] at hr
      cases hr
  refine ⟨hiff, ?_, ?_, fun p _ => IsPrime_eq p, fun p hp => IsPrime_iff_prime hp⟩
  · intro r hr
    obtain ⟨hall, h3, h31, _, _, _⟩ := hiff.1 ⟨r, hr⟩
    rcases FetchInitialState_spec s with ⟨_, _, _, _, _, _, hok⟩ | ⟨_, he⟩ |
      ⟨_, _, he⟩ | ⟨_, _, he⟩ | ⟨_, _, _, _, he⟩ | ⟨_, _, _, _, _, he⟩
    · rw [hok] at hr
      cases hr
      refine ⟨rfl, ?_, rfl⟩
      rcases Pattern.assign_spec s.length (by omega) s with
        ⟨_, _, hok⟩ | ⟨h, _⟩ | ⟨_, ⟨ch, hmem, h1, h2⟩, _⟩
      · exact hok
      · exact absurd rfl h
      · rcases hall ch hmem with h | h
        · exact absurd h h1
        · exact absurd h h2
    all_goals
      rw [he] at hr
      cases hr
  · intro hnot
    rcases FetchInitialState_spec s with ⟨h1, h2, h3, h4, h5, h6, _⟩ | ⟨_, he⟩ |
      ⟨_, _, he⟩ | ⟨_, _, he⟩ | ⟨_, _, _, _, he⟩ | ⟨_, _, _, _, _, he⟩
    · exact absurd ⟨h1, h2, h3, h4, h5, h6⟩ hnot
    all_goals exact ⟨_, he⟩

/-- The claim C25 fails: for `p = 3` the patterns `o..` with one atom and `oo.` with two
atoms pass the section "Fetch and test initial state". -/
theorem C25_counterexample :
    FetchInitialState ['o', '.', '.'] = .ok (3, 1, 1) ∧
      FetchInitialState ['o', 'o', '.'] = .ok (3, 3, 2) :=
  ⟨rfl, rfl⟩

/-- C25, as the source has it: for the minimum ring length `p = 3` an initial pattern of
characters `o` and `.` is accepted iff it has `k = 1` or `k = 2` atoms; only `k = 0` and
`k = 3` are rejected, with the message "No atoms (holes) present". -/
theorem C25_three_sites_accepts_one_and_two (s : List Char) (hlen : s.length = 3)
    (hs : ∀ ch, ch ∈ s → ch = 'o' ∨ ch = '.') :
    ((∃ r, FetchInitialState s = .ok r) ↔ (s.count 'o' = 1 ∨ s.count 'o' = 2)) ∧
    (s.count 'o' = 1 ∨ s.count 'o' = 2 →
      ∃ c, FetchInitialState s = .ok (3, c, s.count 'o')) ∧
    (s.count 'o' = 0 ∨ s.count 'o' = 3 →
      FetchInitialState s = .error "No atoms (holes) present") := by
  have hprime : IsPrime 3 = true := by decide
  rcases FetchInitialState_spec s with ⟨_, _, _, _, h5, h6, hok⟩ | ⟨⟨ch, hm, h1, h2⟩, _⟩ |
    ⟨_, h, _⟩ | ⟨_, h, _⟩ | ⟨_, _, _, h, _⟩ | ⟨_, _, _, _, h, he⟩
  · rw [hlen] at h6 hok
    refine ⟨⟨fun _ => by omega, fun _ => ⟨_, hok⟩⟩, fun _ => ⟨_, hok⟩, fun h => by omega⟩
  · rcases hs ch hm with h | h
    · exact absurd h h1
    · exact absurd h h2
  · omega
  · omega
  · rw [hlen, hprime] at h
    cases h
  · rw [hlen] at h
    refine ⟨⟨?_, fun h' => by omega⟩, fun h' => by omega, fun _ => he⟩
    rintro ⟨r, hr⟩
    rw [he] at hr
    cases hr

theorem C25_three_sites_accepts_one_and_two_witness :
    ['o', '.', '.'].length = 3 ∧
    (∀ ch, ch ∈ ['o', '.', '.'] → ch = 'o' ∨ ch = '.') ∧
    (((∃ r, FetchInitialState ['o', '.', '.'] = .ok r) ↔
      (['o', '.', '.'].count 'o' = 1 ∨ ['o', '.', '.'].count 'o' = 2)) ∧
    (['o', '.', '.'].count 'o' = 1 ∨ ['o', '.', '.'].count 'o' = 2 →
      ∃ c, FetchInitialState ['o', '.', '.'] = .ok (3, c, ['o', '.', '.'].count 'o')) ∧
    (['o', '.', '.'].count 'o' = 0 ∨ ['o', '.', '.'].count 'o' = 3 →
      FetchInitialState ['o', '.', '.'] = .error "No atoms (holes) present")) :=
  ⟨rfl, by decide, C25_three_sites_accepts_one_and_two ['o', '.', '.'] rfl (by decide)⟩

/-- C30: when block data are to be loaded, the section "Check block data file" of `main`
lets the run go on iff all six values stored at the head of the file (`p`, `k`, `RateA`,
`RateB`, `RateC`, `RateD`, in this order) equal the values of the current run; if one of
them differs, the program ends there with "Incompatible Parameter Sets", before the block
data are read.  The head that "Save block data" writes for a run passes the check of a
run with the same values. -/
theorem C30_reload_check {K : Type} [DecidableEq K] (h : BlockHeader K) (p k : Int)
    (RateA RateB RateC RateD : K) :
    (CheckBlockData true (some h) p k RateA RateB RateC RateD = .ok () ↔
      (h.p = p ∧ h.k = k ∧ h.RateA = RateA ∧ h.RateB = RateB ∧ h.RateC = RateC ∧
        h.RateD = RateD)) ∧
    (¬ (h.p = p ∧ h.k = k ∧ h.RateA = RateA ∧ h.RateB = RateB ∧ h.RateC = RateC ∧
        h.RateD = RateD) →
      CheckBlockData true (some h) p k RateA RateB RateC RateD =
        .error "Incompatible Parameter Sets") ∧
    CheckBlockData true (some (SaveBlockHeader p k RateA RateB RateC RateD))
      p k RateA RateB RateC RateD = .ok () ∧
    CheckBlockData true (none : Option (BlockHeader K)) p k RateA RateB RateC RateD =
      .error "Could Not Open Block Data File" := by
  have key : CheckBlockData true (some h) p k RateA RateB RateC RateD =
      if h.p = p ∧ h.k = k ∧ h.RateA = RateA ∧ h.RateB = RateB ∧ h.RateC = RateC ∧
        h.RateD = RateD then .ok () else .error "Incompatible Parameter Sets" := by
    unfold CheckBlockData
    by_cases h1 : h.p = p <;> by_cases h2 : h.k = k <;> by_cases h3 : h.RateA = RateA <;>
      by_cases h4 : h.RateB = RateB <;> by_cases h5 : h.RateC = RateC <;>
      by_cases h6 : h.RateD = RateD <;> simp [h1, h2, h3, h4, h5, h6]
  refine ⟨?_, ?_, ?_, rfl⟩
  · rw [key]
    by_cases hall : h.p = p ∧ h.k = k ∧ h.RateA = RateA ∧ h.RateB = RateB ∧
        h.RateC = RateC ∧ h.RateD = RateD
    · rw [if_pos hall]
      exact ⟨fun _ => hall, fun _ => rfl⟩
    · rw [if_neg hall]
      exact ⟨fun h' => (by cases h'), fun h' => absurd h' hall⟩
  · intro hall
    rw [key, if_neg hall]
  · unfold CheckBlockData SaveBlockHeader
    simp

/-! ## Patterns as strings: claims C26 to C29 -/

/-- C26: for `p <= 32` sites the constructor `Pattern(string)` (and `operator=(string)`)
succeeds exactly when the string has length `p` and every character is `o` or `.`; then
bit `i` of the code is set iff character `i` of the string is `o`, and `AtomNum()` is the
number of characters `o`.  It fails with "Illegal Pattern Size" when the length differs
from `p`, and it fails whenever a character lies outside `o`, `.`, `x`. -/
theorem C26_pattern_from_string (p : Nat) (hp : p ≤ 32) (s : List Char) :
    ((∃ c, Pattern.assign p s = .ok c) ↔
      (s.length = p ∧ ∀ ch, ch ∈ s → ch = 'o' ∨ ch = '.')) ∧
    (∀ c, Pattern.assign p s = .ok c →
      (∀ i, c.testBit i = true ↔ s.get? i = some 'o') ∧
        Pattern.AtomNum p c = s.count 'o') ∧
    (s.length ≠ p → Pattern.assign p s = .error "Illegal Pattern Size") ∧
    ((∃ ch, ch ∈ s ∧ ch ≠ 'o' ∧ ch ≠ '.' ∧ ch ≠ 'x') →
      ∃ e, Pattern.assign p s = .error e) := by
  rcases Pattern.assign_spec p hp s with ⟨hlen, hall, hok⟩ | ⟨hlen, herr⟩ | ⟨hlen, hbad, herr⟩
  · refine ⟨⟨fun _ => ⟨hlen, hall⟩, fun _ => ⟨_, hok⟩⟩, ?_, fun h => absurd hlen h, ?_⟩
    · intro c hc
      rw [hok] at hc
      cases hc
      refine ⟨fun i => ?_, ?_⟩
      · rw [testBit_symbolMask, decide_eq_true_iff]
      · rw [Pattern.AtomNum_eq, ← hlen, bitCount_symbolMask]
    · rintro ⟨ch, hmem, h1, h2, _⟩
      rcases hall ch hmem with h | h
      · exact absurd h h1
      · exact absurd h h2
  · refine ⟨⟨?_, fun h => absurd h.1 hlen⟩, ?_, fun _ => herr, fun _ => ⟨_, herr⟩⟩
    · rintro ⟨c, hc⟩
      rw [herr] at hc
      cases hc
    · intro c hc
      rw [herr] at hc
      cases hc
  · obtain ⟨ch, hmem, h1, h2⟩ := hbad
    refine ⟨⟨?_, ?_⟩, ?_, fun h => absurd hlen h, fun _ => ⟨_, herr⟩⟩
    · rintro ⟨c, hc⟩
      rw [herr] at hc
      cases hc
    · rintro ⟨_, hall⟩
      rcases hall ch hmem with h | h
      · exact absurd h h1
      · exact absurd h h2
    · intro c hc
      rw [herr] at hc
      cases hc

theorem C26_pattern_from_string_witness :
    5 ≤ 32 ∧
    (((∃ c, Pattern.assign 5 ['o', 'o', '.', '.', '.'] = .ok c) ↔
      (['o', 'o', '.', '.', '.'].length = 5 ∧
        ∀ ch, ch ∈ ['o', 'o', '.', '.', '.'] → ch = 'o' ∨ ch = '.')) ∧
    (∀ c, Pattern.assign 5 ['o', 'o', '.', '.', '.'] = .ok c →
      (∀ i, c.testBit i = true ↔ ['o', 'o', '.', '.', '.'].get? i = some 'o') ∧
        Pattern.AtomNum 5 c = ['o', 'o', '.', '.', '.'].count 'o') ∧
    (['o', 'o', '.', '.', '.'].length ≠ 5 →
      Pattern.assign 5 ['o', 'o', '.', '.', '.'] = .error "Illegal Pattern Size") ∧
    ((∃ ch, ch ∈ ['o', 'o', '.', '.', '.'] ∧ ch ≠ 'o' ∧ ch ≠ '.' ∧ ch ≠ 'x') →
      ∃ e, Pattern.assign 5 ['o', 'o', '.', '.', '.'] = .error e)) :=
  ⟨by decide, C26_pattern_from_string 5 (by decide) ['o', 'o', '.', '.', '.']⟩

/-- C27: for `p <= 32` sites encoding and decoding are mutually inverse: for every string
`s` of length `p` of characters `o` and `.` the constructor succeeds and `Graphics()` of
its code is `s`; and for every code `c` below `2^p` the constructor succeeds on
`Graphics()` of `c` and gives the code `c`. -/
theorem C27_codec_round_trip (p : Nat) (hp : p ≤ 32) :
    (∀ s : List Char, s.length = p → (∀ ch, ch ∈ s → ch = 'o' ∨ ch = '.') →
      ∃ c, Pattern.assign p s = .ok c ∧ Pattern.Graphics p c = s) ∧
    (∀ c, c < 2 ^ p → Pattern.assign p (Pattern.Graphics p c) = .ok c) := by
  constructor
  · intro s hlen hall
    refine ⟨symbolMask 'o' s, ?_, ?_⟩
    · rcases Pattern.assign_spec p hp s with ⟨_, _, hok⟩ | ⟨h, _⟩ | ⟨_, ⟨ch, hmem, h1, h2⟩, _⟩
      · exact hok
      · exact absurd hlen h
      · rcases hall ch hmem with h | h
        · exact absurd h h1
        · exact absurd h h2
    · rw [← hlen]
      exact Pattern.Graphics_symbolMask s hall
  · intro c hc
    rcases Pattern.assign_spec p hp (Pattern.Graphics p c) with
      ⟨_, _, hok⟩ | ⟨h, _⟩ | ⟨_, ⟨ch, hmem, h1, h2⟩, _⟩
    · rw [hok, Pattern.symbolMask_Graphics hc]
    · exact absurd (Pattern.Graphics_length p c) h
    · rcases Pattern.Graphics_symbols p c ch hmem with h | h
      · exact absurd h h1
      · exact absurd h h2

theorem C27_codec_round_trip_witness :
    5 ≤ 32 ∧
    ((∀ s : List Char, s.length = 5 → (∀ ch, ch ∈ s → ch = 'o' ∨ ch = '.') →
      ∃ c, Pattern.assign 5 s = .ok c ∧ Pattern.Graphics 5 c = s) ∧
    (∀ c, c < 2 ^ 5 → Pattern.assign 5 (Pattern.Graphics 5 c) = .ok c)) :=
  ⟨by decide, C27_codec_round_trip 5 (by decide)⟩

/-- C28: for `1 <= p <= 31` and every code below `2^p`, `operator++` moves the occupant
of every site `i` to the site `(i+1) mod p` and `operator--` moves it to the site
`(i-1) mod p`; both leave a code below `2^p`, each undoes the other, and no value
computed on the way (the doubled code, the code with the bit `p` cleared and incremented,
the code with the bit `p` set) reaches `2^32`. -/
theorem C28_rotations_move_sites (p : Nat) (hp1 : 1 ≤ p) (hp : p ≤ 31) (c : Nat)
    (hc : c < 2 ^ p) :
    (∀ i, i < p → (Pattern.rotateUp p c).testBit ((i + 1) % p) = c.testBit i) ∧
    (∀ i, i < p → (Pattern.rotateDown p c).testBit ((i + p - 1) % p) = c.testBit i) ∧
    Pattern.rotateUp p c < 2 ^ p ∧ Pattern.rotateDown p c < 2 ^ p ∧
    Pattern.rotateDown p (Pattern.rotateUp p c) = c ∧
    Pattern.rotateUp p (Pattern.rotateDown p c) = c ∧
    c * 2 < wordSize ∧ (c * 2 &&& bitNot (exp2pow p)) + 1 < wordSize ∧
    (c ||| exp2pow p) < wordSize := by
  have hpw : (2:Nat) ^ p ≤ 2 ^ 31 := Nat.pow_le_pow_right (by norm_num) hp
  have h31 : (2:Nat) ^ 31 = 2147483648 := by norm_num
  have h32 : (2:Nat) ^ 32 = 4294967296 := by norm_num
  refine ⟨?_, ?_, Pattern.rotateUp_lt hp1 hp hc, Pattern.rotateDown_lt hp1 hc,
    Pattern.rotateDown_rotateUp hp1 hp hc, Pattern.rotateUp_rotateDown hp1 hp hc, ?_, ?_, ?_⟩
  · intro i hi
    rw [Pattern.testBit_rotateUp hp1 hp hc]
    by_cases h : i + 1 = p
    · rw [h, Nat.mod_self, if_pos rfl]
      congr 1
      omega
    · rw [Nat.mod_eq_of_lt (by omega), if_neg (by omega)]
      simp only [Nat.add_sub_cancel]
      rw [decide_eq_true (by omega : i + 1 < p), Bool.true_and]
  · intro i hi
    rw [Pattern.testBit_rotateDown hp1 hc]
    by_cases h : i = 0
    · rw [h, Nat.zero_add, Nat.mod_eq_of_lt (by omega), if_pos rfl]
    · have e : (i + p - 1) % p = i - 1 := by
        rw [show i + p - 1 = (i - 1) + p by omega, Nat.add_mod_right,
          Nat.mod_eq_of_lt (by omega)]
      rw [e, if_neg (by omega), decide_eq_true (by omega : i - 1 < p), Bool.true_and]
      congr 1
      omega
  · unfold wordSize
    omega
  · have := Nat.and_le_left (n := c * 2) (m := bitNot (exp2pow p))
    unfold wordSize
    omega
  · have h1 : c < 2 ^ 32 := by omega
    have h2 : exp2pow p < 2 ^ 32 := by
      unfold exp2pow
      omega
    have := Nat.or_lt_two_pow h1 h2
    unfold wordSize
    omega

theorem C28_rotations_move_sites_witness :
    1 ≤ 5 ∧ 5 ≤ 31 ∧ 3 < 2 ^ 5 ∧
    ((∀ i, i < 5 → (Pattern.rotateUp 5 3).testBit ((i + 1) % 5) = (3 : Nat).testBit i) ∧
    (∀ i, i < 5 → (Pattern.rotateDown 5 3).testBit ((i + 5 - 1) % 5) = (3 : Nat).testBit i) ∧
    Pattern.rotateUp 5 3 < 2 ^ 5 ∧ Pattern.rotateDown 5 3 < 2 ^ 5 ∧
    Pattern.rotateDown 5 (Pattern.rotateUp 5 3) = 3 ∧
    Pattern.rotateUp 5 (Pattern.rotateDown 5 3) = 3 ∧
    3 * 2 < wordSize ∧ (3 * 2 &&& bitNot (exp2pow 5)) + 1 < wordSize ∧
    (3 ||| exp2pow 5) < wordSize) :=
  ⟨by decide, by decide, by decide,
    C28_rotations_move_sites 5 (by decide) (by decide) 3 (by decide)⟩

/-- C29: for `p <= 32`, every code below `2^p` and every comparison string of length `p`
of characters `o`, `.`, `x`, `Match` returns a truth value, and it returns `true` iff at
every site `i` the character `o` goes with a set bit `i` of the code and the character
`.` with a clear bit `i`; for a string of characters `o` and `.` only, `Match` returns
`true` iff the code is the one the constructor gives for the string. -/
theorem C29_match_tests_sites (p : Nat) (hp : p ≤ 32) (c : Nat) (hc : c < 2 ^ p)
    (s : List Char) (hlen : s.length = p)
    (hs : ∀ ch, ch ∈ s → ch = 'o' ∨ ch = '.' ∨ ch = 'x') :
    ∃ b, Pattern.Match p c s = .ok b ∧
      (b = true ↔ ∀ i, i < p → (s.get? i = some 'o' → c.testBit i = true) ∧
        (s.get? i = some '.' → c.testBit i = false)) ∧
      ((∀ ch, ch ∈ s → ch = 'o' ∨ ch = '.') →
        (b = true ↔ Pattern.assign p s = .ok c)) := by
  have hbits : (c &&& symbolMask 'o' s = symbolMask 'o' s ∧ c &&& symbolMask '.' s = 0) ↔
      ∀ i, i < p → (s.get? i = some 'o' → c.testBit i = true) ∧
        (s.get? i = some '.' → c.testBit i = false) := by
    rw [and_eq_self_iff, and_eq_zero_iff_bits]
    simp only [testBit_symbolMask, decide_eq_true_iff]
    constructor
    · rintro ⟨h1, h2⟩ i _
      exact ⟨h1 i, h2 i⟩
    · intro h
      refine ⟨fun i hi => ?_, fun i hi => ?_⟩
      · have hlt : i < s.length := by
          rw [List.get?_eq_getElem?, List.getElem?_eq_some] at hi
          exact hi.1
        exact (h i (by omega)).1 hi
      · have hlt : i < s.length := by
          rw [List.get?_eq_getElem?, List.getElem?_eq_some] at hi
          exact hi.1
        exact (h i (by omega)).2 hi
  refine ⟨_, Pattern.Match_ok p c hp s hlen hs, ?_, ?_⟩
  · rw [decide_eq_true_iff]
    exact hbits
  · intro hall
    rw [decide_eq_true_iff, hbits]
    have hok : Pattern.assign p s = .ok (symbolMask 'o' s) := by
      rcases Pattern.assign_spec p hp s with ⟨_, _, hok⟩ | ⟨h, _⟩ | ⟨_, ⟨ch, hmem, h1, h2⟩, _⟩
      · exact hok
      · exact absurd hlen h
      · rcases hall ch hmem with h | h
        · exact absurd h h1
        · exact absurd h h2
    rw [hok]
    constructor
    · intro h
      congr 1
      apply Nat.eq_of_testBit_eq
      intro i
      rw [testBit_symbolMask]
      by_cases hi : i < p
      · have hi' : i < s.length := by omega
        have hget : s.get? i = some s[i] := by
          rw [List.get?_eq_getElem?, List.getElem?_eq_getElem hi']
        rcases hall s[i] (List.getElem_mem _) with ho | hd
        · rw [ho] at hget
          rw [hget, (h i hi).1 hget]
          simp
        · rw [hd] at hget
          rw [hget, (h i hi).2 hget]
          simp
      · rw [testBit_of_lt hc (by omega), List.get?_eq_getElem?,
          List.getElem?_eq_none (by omega)]
        simp
    · intro h i _
      have hcm : symbolMask 'o' s = c := by
        cases h
        rfl
      rw [← hcm, testBit_symbolMask]
      refine ⟨fun ho => by rw [ho]; simp, fun hd => by rw [hd]; simp⟩

theorem C29_match_tests_sites_witness :
    5 ≤ 32 ∧ 3 < 2 ^ 5 ∧ ['x', 'o', '.', 'x', 'x'].length = 5 ∧
    (∀ ch, ch ∈ ['x', 'o', '.', 'x', 'x'] → ch = 'o' ∨ ch = '.' ∨ ch = 'x') ∧
    (∃ b, Pattern.Match 5 3 ['x', 'o', '.', 'x', 'x'] = .ok b ∧
      (b = true ↔ ∀ i, i < 5 →
        (['x', 'o', '.', 'x', 'x'].get? i = some 'o' → (3 : Nat).testBit i = true) ∧
        (['x', 'o', '.', 'x', 'x'].get? i = some '.' → (3 : Nat).testBit i = false)) ∧
      ((∀ ch, ch ∈ ['x', 'o', '.', 'x', 'x'] → ch = 'o' ∨ ch = '.') →
        (b = true ↔ Pattern.assign 5 ['x', 'o', '.', 'x', 'x'] = .ok 3))) :=
  ⟨by decide, by decide, rfl, by decide,
    C29_match_tests_sites 5 (by decide) 3 (by decide) ['x', 'o', '.', 'x', 'x'] rfl
      (by decide)⟩

/-! ## The matrix of a momentum that is not zero: claim C31 -/

/-- C31: in exact real arithmetic, for a prime number `3 <= p <= 31` of sites,
`0 < k < p` atoms, positive rates `RateB`, `RateC` (any `RateA`, `RateD`) and every
momentum `q`, so for each one that `p` does not divide (fuel `2^p` is enough): with
`m = ModuloDiv(1, k)`,
`f = ForwardRoot`, `b = BackwardRoot`, `pi = EqEV`,
`M[i,j] = f * sum_T Rate_T * Forward[Element(i,j)].T + b * sum_T Rate_T * Backward[Element(i,j)].T`,
`G` the array `qNonZero` after the loop "Fill submatrix" (`M` with the decay rate
subtracted on the diagonal) and `H` the array after the loop "Symmetrization Procedure":
`b = conj(f)`; all `pi[i]` are positive; `M[j,i] * pi[i] = conj(M[i,j]) * pi[j]` for all
`i != j`; every `M[i,i]` is real; `H[i,j] = M[i,j] * sqrt(pi[j] / pi[i])` and
`H[j,i] = conj(H[i,j])` for `i < j`; `H` is Hermitian; `H = D^(-1/2) G D^(1/2)` with
`D = diag(pi)`; and `H` has the spectrum of `G`. -/
theorem C31_momentum_matrix_is_hermitian {p k fuel : Nat} (hprime : Nat.Prime p)
    (hp3 : 3 ≤ p) (hp : p ≤ 31) (hk0 : 0 < k) (hkp : k < p) (hfuel : 2 ^ p ≤ fuel)
    {RateA RateB RateC RateD : ℝ} (hB : 0 < RateB) (hC : 0 < RateC) (q : Int)
    (qNonZero : Nat → Cplx ℝ) :
    ∃ (L : List Nat) (t : RateTables) (E : List ℝ) (m : Nat) (f b : Cplx ℝ)
      (G H : Nat → Cplx ℝ),
      RateMatrix fuel p k = some (L, t) ∧ L.length = PrimNum p k ∧
      EqEV fuel p k RateB RateC L = some E ∧ E.length = L.length ∧
      ModuloDiv fuel (p : Int) 1 (k : Int) = some (m : Int) ∧
      f = ForwardRoot (UnityRoots Real.cos Real.sin (Pi Real.arctan) p) p m q ∧
      b = BackwardRoot (UnityRoots Real.cos Real.sin (Pi Real.arctan) p) p m q ∧
      G = NonZeroMomentumMatrix RateA RateB RateC RateD t L.length f b qNonZero ∧
      H = SymmetrizeHerm Real.sqrt (EqEVAt E) L.length G ∧
      b = Cplx.conj f ∧
      (∀ i, i < L.length → 0 < EqEVAt E i) ∧
      (∀ i j, i < L.length → j < L.length → i ≠ j →
        Cplx.scale (NonZeroEntry RateA RateB RateC RateD t L.length f b j i) (EqEVAt E i) =
          Cplx.scale (Cplx.conj (NonZeroEntry RateA RateB RateC RateD t L.length f b i j))
            (EqEVAt E j)) ∧
      (∀ i, i < L.length →
        (NonZeroEntry RateA RateB RateC RateD t L.length f b i i).im = 0) ∧
      (∀ i j, i < L.length → j < L.length →
        G (Element L.length i j) =
          if i = j then Cplx.sub (NonZeroEntry RateA RateB RateC RateD t L.length f b i j)
            ⟨(t.Diagonal i).rate RateA RateB RateC RateD, 0⟩
          else NonZeroEntry RateA RateB RateC RateD t L.length f b i j) ∧
      (∀ i j, i < j → j < L.length →
        H (Element L.length i j) =
          Cplx.scale (NonZeroEntry RateA RateB RateC RateD t L.length f b i j)
            (Real.sqrt (EqEVAt E j / EqEVAt E i)) ∧
        H (Element L.length j i) = Cplx.conj (H (Element L.length i j))) ∧
      (Matrix.of fun (i j : Fin L.length) =>
        Cplx.toComplex (H (Element L.length i j))).IsHermitian ∧
      (Matrix.of fun (i j : Fin L.length) => Cplx.toComplex (H (Element L.length i j))) =
        Matrix.diagonal (fun (i : Fin L.length) => ((Real.sqrt (EqEVAt E i) : ℝ) : ℂ)⁻¹) *
          (Matrix.of fun (i j : Fin L.length) => Cplx.toComplex (G (Element L.length i j))) *
          Matrix.diagonal (fun (i : Fin L.length) => ((Real.sqrt (EqEVAt E i) : ℝ) : ℂ)) ∧
      spectrum ℂ (Matrix.of fun (i j : Fin L.length) =>
          Cplx.toComplex (H (Element L.length i j))) =
        spectrum ℂ (Matrix.of fun (i j : Fin L.length) =>
          Cplx.toComplex (G (Element L.length i j))) := by
  obtain ⟨L, t, E, N, hrate, _, hasm, hgood, hlen, hf1, hf2, _, hE, hN, hElen, hEget, _, _⟩ :=
    eqEV_run hprime hp hk0 hkp hfuel hB hC
  have hkdvd : ¬ p ∣ k := fun h => by
    have := Nat.le_of_dvd hk0 h
    omega
  obtain ⟨m, hm, _, _, hmrun⟩ := ModuloDiv_run hprime (by omega : 1 < p) hkdvd (by omega)
  have hmfuel : m < fuel := by omega
  have hx : 0 < RateB / RateC := div_pos hB hC
  have hpi : ∀ i c, L.get? i = some c →
      EqEVAt E i = (RateB / RateC) ^ ((k : Int) - 1 - bonds p c) * N :=
    fun i c hc => EqEVAt_of_get (hEget i c hc)
  have hpos : ∀ i, i < L.length → 0 < EqEVAt E i := by
    intro i hi
    obtain ⟨c, hc⟩ := get_of_lt hi
    rw [hpi i c hc]
    exact mul_pos (zpow_pos hx _) hN
  have hconj := prefactors_conj p (by omega) (m : Int) q
  obtain ⟨f, hf⟩ : ∃ f, f = ForwardRoot (UnityRoots Real.cos Real.sin (Pi Real.arctan) p)
    p m q := ⟨_, rfl⟩
  obtain ⟨b, hb⟩ : ∃ b, b = BackwardRoot (UnityRoots Real.cos Real.sin (Pi Real.arctan) p)
    p m q := ⟨_, rfl⟩
  rw [← hf, ← hb] at hconj
  obtain ⟨G, hG⟩ : ∃ G, G = NonZeroMomentumMatrix RateA RateB RateC RateD t L.length f b
    qNonZero := ⟨_, rfl⟩
  obtain ⟨H, hH⟩ : ∃ H, H = SymmetrizeHerm Real.sqrt (EqEVAt E) L.length G := ⟨_, rfl⟩
  -- the entries of the matrix are in balance with the equilibrium eigenvector
  have hbal : ∀ i j, i < L.length → j < L.length →
      Cplx.scale (NonZeroEntry RateA RateB RateC RateD t L.length f b j i) (EqEVAt E i) =
        Cplx.scale (Cplx.conj (NonZeroEntry RateA RateB RateC RateD t L.length f b i j))
          (EqEVAt E j) := by
    intro i j hi hj
    obtain ⟨ci, hci⟩ := get_of_lt hi
    obtain ⟨cj, hcj⟩ := get_of_lt hj
    obtain ⟨h1, h2⟩ := directional_balance hgood hprime hp3 hp hk0 hkp hf1 hf2 hasm
      RateA RateB RateC RateD N hB hC hci hcj
    rw [hpi i ci hci, hpi j cj hcj, hconj]
    exact NonZeroEntry_balance RateA RateB RateC RateD t L.length f i j _ _ h1 h2
  have hreal : ∀ i, i < L.length →
      (NonZeroEntry RateA RateB RateC RateD t L.length f b i i).im = 0 := by
    intro i hi
    have h := hbal i i hi hi
    rw [Cplx.eq_iff] at h
    have him := h.2
    simp only [Cplx.scale, Cplx.conj] at him
    have hw := hpos i hi
    have : 2 * (NonZeroEntry RateA RateB RateC RateD t L.length f b i i).im * EqEVAt E i = 0 := by
      linear_combination him
    rcases mul_eq_zero.1 this with h0 | h0
    · linarith
    · exact absurd h0 (ne_of_gt hw)
  have hGapp : ∀ i j, i < L.length → j < L.length →
      G (Element L.length i j) =
        if i = j then Cplx.sub (NonZeroEntry RateA RateB RateC RateD t L.length f b i j)
          ⟨(t.Diagonal i).rate RateA RateB RateC RateD, 0⟩
        else NonZeroEntry RateA RateB RateC RateD t L.length f b i j := by
    intro i j hi hj
    rw [hG]
    exact NonZeroMomentumMatrix_apply RateA RateB RateC RateD t L.length f b qNonZero hi hj
  have hGbal : ∀ a c, a < L.length → c < L.length → a ≠ c →
      Cplx.scale (G (Element L.length c a)) (EqEVAt E a) =
        Cplx.scale (Cplx.conj (G (Element L.length a c))) (EqEVAt E c) := by
    intro a c ha hc hac
    rw [hGapp c a hc ha, hGapp a c ha hc, if_neg (fun e => hac e.symm), if_neg hac]
    exact hbal a c ha hc
  have hGdiag : ∀ a, a < L.length → (G (Element L.length a a)).im = 0 := by
    intro a ha
    rw [hGapp a a ha ha, if_pos rfl]
    simp only [Cplx.sub, sub_zero]
    exact hreal a ha
  have hsim : ∀ a c, a < L.length → c < L.length →
      H (Element L.length a c) =
          Cplx.scale (G (Element L.length a c))
            (Real.sqrt (EqEVAt E c) / Real.sqrt (EqEVAt E a)) ∧
        H (Element L.length c a) = Cplx.conj (H (Element L.length a c)) := by
    intro a c ha hc
    rw [hH]
    exact SymmetrizeHerm_similar (EqEVAt E) L.length G hpos hGbal hGdiag ha hc
  have hd : ∀ i : Fin L.length, ((Real.sqrt (EqEVAt E i) : ℝ) : ℂ) ≠ 0 := by
    intro i
    exact Complex.ofReal_ne_zero.2 (ne_of_gt (Real.sqrt_pos.2 (hpos i i.2)))
  obtain ⟨hmat, hspec⟩ := diagonal_conj_complex
    (Matrix.of fun (i j : Fin L.length) => Cplx.toComplex (G (Element L.length i j)))
    (Matrix.of fun (i j : Fin L.length) => Cplx.toComplex (H (Element L.length i j)))
    (fun i => ((Real.sqrt (EqEVAt E i) : ℝ) : ℂ)) hd
    (fun i j => by
      simp only [Matrix.of_apply]
      rw [(hsim i j i.2 j.2).1, Cplx.toComplex_scale, Complex.ofReal_div, mul_div_assoc])
  refine ⟨L, t, E, m, f, b, G, H, hrate, hlen, hE, hElen, ?_, hf, hb, hG, hH, hconj, hpos,
    fun i j hi hj _ => hbal i j hi hj, hreal, hGapp, ?_, ?_, hmat, hspec⟩
  · exact_mod_cast hmrun fuel hmfuel
  · intro i j hij hj
    have hi : i < L.length := by omega
    refine ⟨?_, (hsim i j hi hj).2⟩
    rw [(hsim i j hi hj).1, hGapp i j hi hj, if_neg (by omega : ¬ i = j),
      Real.sqrt_div (hpos j hj).le]
  · apply Matrix.IsHermitian.ext
    intro i j
    simp only [Matrix.of_apply]
    rw [(hsim i j i.2 j.2).2, Cplx.toComplex_conj]
    simp

/-- C31 at five sites, two atoms, the rates 1, 2, 3, 4 and the momentum `q = 1`. -/
theorem C31_momentum_matrix_is_hermitian_witness :
    (Nat.Prime 5 ∧ 3 ≤ 5 ∧ 5 ≤ 31 ∧ 0 < 2 ∧ 2 < 5 ∧ 2 ^ 5 ≤ 32 ∧ (0 : ℝ) < 2 ∧ (0 : ℝ) < 3) ∧
    ∃ (L : List Nat) (t : RateTables) (E : List ℝ) (m : Nat) (f b : Cplx ℝ)
      (G H : Nat → Cplx ℝ),
      RateMatrix 32 5 2 = some (L, t) ∧ L.length = PrimNum 5 2 ∧
      EqEV 32 5 2 (2 : ℝ) 3 L = some E ∧ E.length = L.length ∧
      ModuloDiv 32 5 1 2 = some (m : Int) ∧
      f = ForwardRoot (UnityRoots Real.cos Real.sin (Pi Real.arctan) 5) 5 m 1 ∧
      b = BackwardRoot (UnityRoots Real.cos Real.sin (Pi Real.arctan) 5) 5 m 1 ∧
      G = NonZeroMomentumMatrix (1 : ℝ) 2 3 4 t L.length f b (fun _ => ⟨0, 0⟩) ∧
      H = SymmetrizeHerm Real.sqrt (EqEVAt E) L.length G ∧
      b = Cplx.conj f ∧
      (∀ i, i < L.length → 0 < EqEVAt E i) ∧
      (∀ i j, i < L.length → j < L.length → i ≠ j →
        Cplx.scale (NonZeroEntry (1 : ℝ) 2 3 4 t L.length f b j i) (EqEVAt E i) =
          Cplx.scale (Cplx.conj (NonZeroEntry (1 : ℝ) 2 3 4 t L.length f b i j))
            (EqEVAt E j)) ∧
      (∀ i, i < L.length →
        (NonZeroEntry (1 : ℝ) 2 3 4 t L.length f b i i).im = 0) ∧
      (∀ i j, i < L.length → j < L.length →
        G (Element L.length i j) =
          if i = j then Cplx.sub (NonZeroEntry (1 : ℝ) 2 3 4 t L.length f b i j)
            ⟨(t.Diagonal i).rate (1 : ℝ) 2 3 4, 0⟩
          else NonZeroEntry (1 : ℝ) 2 3 4 t L.length f b i j) ∧
      (∀ i j, i < j → j < L.length →
        H (Element L.length i j) =
          Cplx.scale (NonZeroEntry (1 : ℝ) 2 3 4 t L.length f b i j)
            (Real.sqrt (EqEVAt E j / EqEVAt E i)) ∧
        H (Element L.length j i) = Cplx.conj (H (Element L.length i j))) ∧
      (Matrix.of fun (i j : Fin L.length) =>
        Cplx.toComplex (H (Element L.length i j))).IsHermitian ∧
      (Matrix.of fun (i j : Fin L.length) => Cplx.toComplex (H (Element L.length i j))) =
        Matrix.diagonal (fun (i : Fin L.length) => ((Real.sqrt (EqEVAt E i) : ℝ) : ℂ)⁻¹) *
          (Matrix.of fun (i j : Fin L.length) => Cplx.toComplex (G (Element L.length i j))) *
          Matrix.diagonal (fun (i : Fin L.length) => ((Real.sqrt (EqEVAt E i) : ℝ) : ℂ)) ∧
      spectrum ℂ (Matrix.of fun (i j : Fin L.length) =>
          Cplx.toComplex (H (Element L.length i j))) =
        spectrum ℂ (Matrix.of fun (i j : Fin L.length) =>
          Cplx.toComplex (G (Element L.length i j))) :=
  ⟨⟨by norm_num, by decide, by decide, by decide, by decide, by decide, by norm_num,
      by norm_num⟩,
    @C31_momentum_matrix_is_hermitian 5 2 32 (by norm_num) (by decide) (by decide)
      (by decide) (by decide) (by decide) 1 2 3 4 (by norm_num) (by norm_num) 1
      (fun _ => ⟨0, 0⟩)⟩

/-! ## Reverse moves exchange the types B and C: claim C32 -/

/-- C32: for a prime number `3 <= p <= 31` of sites and `0 < k < p` atoms, with `m` the
inverse of `k` modulo `p`, for all primitive indices `i`, `j` (equal or not) and every
type of jump `T`: `Forward[Element(j,i)].T` counts the sites of `Primitive[i]` whose
increment is not blocked, has type `T` and leads to `Primitive[j]`;
`Backward[Element(i,j)].T'`, with `T'` the type `T` with B and C exchanged, counts the
sites of `Primitive[j]` whose decrement is not blocked, has type `T'` and leads to
`Primitive[i]`; `a -> (a + 1 + (p - m)) mod p` maps the first set of sites onto the
second, with the inverse `b -> (b + m + (p - 1)) mod p`; and the two counters are
equal. -/
theorem C32_reverse_moves_exchange_B_and_C {p k fuel : Nat} (hprime : Nat.Prime p)
    (hp3 : 3 ≤ p) (hp : p ≤ 31) (hk0 : 0 < k) (hkp : k < p) (hfuel : 2 ^ p ≤ fuel) :
    ∃ L t m, RateMatrix fuel p k = some (L, t) ∧ L.length = PrimNum p k ∧
      0 < m ∧ m < p ∧ m * k % p = 1 ∧
      ∀ i j ci cj, L.get? i = some ci → L.get? j = some cj → ∀ T, T < 4 →
        (t.Forward (Element L.length j i)).coeff T = (incSites p m ci cj T).card ∧
        (t.Backward (Element L.length i j)).coeff (swapBC T) =
          (decSites p (p - m) cj ci (swapBC T)).card ∧
        (∀ a, a ∈ incSites p m ci cj T →
          (a + 1 + (p - m)) % p ∈ decSites p (p - m) cj ci (swapBC T) ∧
          ((a + 1 + (p - m)) % p + m + (p - 1)) % p = a) ∧
        (∀ b, b ∈ decSites p (p - m) cj ci (swapBC T) →
          (b + m + (p - 1)) % p ∈ incSites p m ci cj T ∧
          ((b + m + (p - 1)) % p + 1 + (p - m)) % p = b) ∧
        (t.Forward (Element L.length j i)).coeff T =
          (t.Backward (Element L.length i j)).coeff (swapBC T) := by
  obtain ⟨L, t, hrate, _, hasm, hgood, hlen, hf1, hf2⟩ :=
    rateMatrix_run hprime hp hk0 hkp hfuel
  obtain ⟨t', hasm', hspec⟩ := assembleRates_spec hgood hprime hp hk0 hkp hf1 hf2
  rw [hasm] at hasm'
  cases hasm'
  obtain ⟨m, hm, hmk⟩ := exists_mul_mod_eq hprime hk0 hkp hprime.one_lt
  have hm0 : 0 < m := by
    rcases Nat.eq_zero_or_pos m with h | h
    · rw [h, Nat.zero_mul, Nat.zero_mod] at hmk
      omega
    · exact h
  have hmr : m + (p - m) = p := by omega
  refine ⟨L, t, m, hrate, hlen, hm0, hm, hmk, ?_⟩
  intro i j ci cj hci hcj T hT
  obtain ⟨_, hF, _, _, _⟩ := hspec i ci hci T hT
  obtain ⟨_, _, hB, _, _⟩ := hspec j cj hcj (swapBC T) (swapBC_lt hT)
  have hi := lt_of_get hci
  have hj := lt_of_get hcj
  have e1 : (t.Forward (Element L.length j i)).coeff T = (incSites p m ci cj T).card := by
    rw [hF j hj, countP_incMove_sites hgood hprime hp hk0 hkp hf1 hf2 hm hmk hci hcj T]
  have e2 : (t.Backward (Element L.length i j)).coeff (swapBC T) =
      (decSites p (p - m) cj ci (swapBC T)).card := by
    rw [hB i hi,
      countP_decMove_sites hgood hprime hp hk0 hkp hf1 hf2 hm hmk hcj hci (swapBC T)]
  refine ⟨e1, e2, ?_, ?_, ?_⟩
  · intro a ha
    refine ⟨incSites_to_decSites hp3 hp hmr (hgood.valid hci).1 ha, ?_⟩
    have hap := (mem_incSites.1 ha).1
    rw [Nat.add_assoc ((a + 1 + (p - m)) % p), Nat.mod_add_mod]
    have : (a + 1 + (p - m) + (m + (p - 1))) % p = a % p :=
      mod_eq_of_add_mul 0 2 (by omega)
    rw [this, Nat.mod_eq_of_lt hap]
  · intro b hb
    refine ⟨decSites_to_incSites hp3 hp hmr (hgood.valid hcj).1 hb, ?_⟩
    have hbp := (mem_decSites.1 hb).1
    rw [Nat.add_assoc ((b + m + (p - 1)) % p), Nat.mod_add_mod]
    have : (b + m + (p - 1) + (1 + (p - m))) % p = b % p :=
      mod_eq_of_add_mul 0 2 (by omega)
    rw [this, Nat.mod_eq_of_lt hbp]
  · rw [e1, e2]
    exact card_incSites_eq hp3 hp hmr (hgood.valid hci).1 (hgood.valid hcj).1

/-- C32 at five sites and two atoms. -/
theorem C32_reverse_moves_exchange_B_and_C_witness :
    (Nat.Prime 5 ∧ 3 ≤ 5 ∧ 5 ≤ 31 ∧ 0 < 2 ∧ 2 < 5 ∧ 2 ^ 5 ≤ 32) ∧
    ∃ L t m, RateMatrix 32 5 2 = some (L, t) ∧ L.length = PrimNum 5 2 ∧
      0 < m ∧ m < 5 ∧ m * 2 % 5 = 1 ∧
      ∀ i j ci cj, L.get? i = some ci → L.get? j = some cj → ∀ T, T < 4 →
        (t.Forward (Element L.length j i)).coeff T = (incSites 5 m ci cj T).card ∧
        (t.Backward (Element L.length i j)).coeff (swapBC T) =
          (decSites 5 (5 - m) cj ci (swapBC T)).card ∧
        (∀ a, a ∈ incSites 5 m ci cj T →
          (a + 1 + (5 - m)) % 5 ∈ decSites 5 (5 - m) cj ci (swapBC T) ∧
          ((a + 1 + (5 - m)) % 5 + m + (5 - 1)) % 5 = a) ∧
        (∀ b, b ∈ decSites 5 (5 - m) cj ci (swapBC T) →
          (b + m + (5 - 1)) % 5 ∈ incSites 5 m ci cj T ∧
          ((b + m + (5 - 1)) % 5 + 1 + (5 - m)) % 5 = b) ∧
        (t.Forward (Element L.length j i)).coeff T =
          (t.Backward (Element L.length i j)).coeff (swapBC T) :=
  ⟨⟨by norm_num, by decide, by decide, by decide, by decide, by decide⟩,
    @C32_reverse_moves_exchange_B_and_C 5 2 32 (by norm_num) (by decide) (by decide)
      (by decide) (by decide) (by decide)⟩

/-! ## The collapsing number counts the clusters: claim C33 -/

/-- C33: for `3 <= p <= 31` sites, `0 < k < p` and every code below `2^p` with exactly
`k` atoms, `CollapsingNumber` returns (fuel `p` is enough for each of its loops; the
model takes the code as a value, as the source works on the copy `Aux` and never
assigns `Code`), and the number returned is the number of cyclic clusters of the code
less one, a cluster being counted at its occupied site whose site before on the ring is
empty; the number is not negative; and it is the same for every forward and backward
rotation of the code. -/
theorem C33_collapsing_number_counts_clusters {p k c fuel : Nat} (hp3 : 3 ≤ p)
    (hp : p ≤ 31) (hk0 : 0 < k) (hkp : k < p) (hc : c < 2 ^ p)
    (hk : Pattern.AtomNum p c = k) (hfuel : p ≤ fuel) :
    Pattern.CollapsingNumber fuel p k c = some ((clusters p c : Int) - 1) ∧
    (0 : Int) ≤ (clusters p c : Int) - 1 ∧
    (∀ n, Pattern.CollapsingNumber fuel p k ((Pattern.rotateUp p)^[n] c) =
      Pattern.CollapsingNumber fuel p k c) ∧
    (∀ n, Pattern.CollapsingNumber fuel p k ((Pattern.rotateDown p)^[n] c) =
      Pattern.CollapsingNumber fuel p k c) := by
  have hp1 : 1 ≤ p := by omega
  have hval : ∀ x, x < 2 ^ p → Pattern.AtomNum p x = k →
      Pattern.CollapsingNumber fuel p k x = some ((k : Int) - 1 - bonds p x) := by
    intro x hx hxk
    obtain ⟨_, _, _, _, _, _, _, _, h⟩ :=
      collapsingNumber_spec (by omega : 2 ≤ p) hp hk0 hkp hx hxk hfuel
    exact h
  have hcl := clusters_eq hp1 hk
  have hpos : 1 ≤ clusters p c := by
    apply clusters_pos hp1
    · rw [← Pattern.AtomNum_eq, hk]; exact hk0
    · rw [← Pattern.AtomNum_eq, hk]; exact hkp
  refine ⟨?_, by omega, ?_, ?_⟩
  · rw [hval c hc hk, hcl]
    congr 1
    ring
  · intro n
    obtain ⟨h1, h2, _⟩ := Pattern.iterate_rotateUp hp1 hp hc hk n
    rw [hval _ h1 h2, hval c hc hk, bonds_iterate_rotateUp hp1 hp hc]
  · intro n
    obtain ⟨h1, h2, _⟩ := Pattern.iterate_rotateDown hp1 hp hc hk n
    rw [hval _ h1 h2, hval c hc hk, Pattern.bonds_iterate_rotateDown hp1 hp hc]

/-- C33 at five sites and the code 5 (atoms on the sites 0 and 2): two clusters, the
collapsing number is 1. -/
theorem C33_collapsing_number_counts_clusters_witness :
    (3 ≤ 5 ∧ 5 ≤ 31 ∧ 0 < 2 ∧ 2 < 5 ∧ 5 < 2 ^ 5 ∧ Pattern.AtomNum 5 5 = 2 ∧ 5 ≤ 5) ∧
    clusters 5 5 = 2 ∧
    Pattern.CollapsingNumber 5 5 2 5 = some ((clusters 5 5 : Int) - 1) ∧
    (0 : Int) ≤ (clusters 5 5 : Int) - 1 ∧
    (∀ n, Pattern.CollapsingNumber 5 5 2 ((Pattern.rotateUp 5)^[n] 5) =
      Pattern.CollapsingNumber 5 5 2 5) ∧
    (∀ n, Pattern.CollapsingNumber 5 5 2 ((Pattern.rotateDown 5)^[n] 5) =
      Pattern.CollapsingNumber 5 5 2 5) :=
  ⟨⟨by decide, by decide, by decide, by decide, by decide, by decide, by decide⟩,
    by decide,
    @C33_collapsing_number_counts_clusters 5 2 5 5 (by decide) (by decide) (by decide)
      (by decide) (by decide) (by decide) (by decide)⟩

/-! ## The shift after a move: claim C34 -/

/-- C35: in exact rational arithmetic, for every prime number `p` and `0 < k < p`, the
number `PrimNumAux` of `main` (the product of the `i` in `p-k+1 .. p-1`, divided in turn
by `2, ..., k`) is `C(p,k) / p`; `p` divides `C(p,k)`; `PrimNum`, the number
`PrimNumAux + 0.5` cut to an integer, is that quotient; and it is the number of the
integers below `2^p` with exactly `k` set bits whose set-bit indices add up to a multiple
of `p`. -/
theorem C35_primNum_counts_the_primitives {p k : Nat} (hprime : Nat.Prime p) (hk0 : 0 < k)
    (hkp : k < p) :
    PrimNumAux p k = (Nat.choose p k : ℚ) / (p : ℚ) ∧
    p ∣ Nat.choose p k ∧
    (PrimNum p k : ℚ) = PrimNumAux p k ∧
    PrimNum p k = Nat.choose p k / p ∧
    PrimNum p k =
      ((Finset.range (2 ^ p)).filter fun c => bitCount 0 p c = k ∧ p ∣ rawSum p c).card := by
  have h1 := card_primitive_mul_any hprime hk0 hkp
  have h2 : PrimNum p k = (codesWithSum p k 0).card := PrimNum_of_mul hk0 hkp.le h1
  have hp0 : (p : ℚ) ≠ 0 := by
    have := hprime.pos
    exact_mod_cast (by omega : p ≠ 0)
  have h3 : PrimNumAux p k = (Nat.choose p k : ℚ) / (p : ℚ) := by
    rw [eq_div_iff hp0]
    exact PrimNumAux_mul hk0 hkp.le
  have hset : codesWithSum p k 0 =
      (Finset.range (2 ^ p)).filter fun c => bitCount 0 p c = k ∧ p ∣ rawSum p c := by
    ext c
    rw [mem_codesWithSum, Finset.mem_filter, Finset.mem_range, Pattern.AtomNum_eq,
      Pattern.PatternSum_eq, Nat.dvd_iff_mod_eq_zero]
    tauto
  refine ⟨h3, ⟨_, h1.symm⟩, ?_, ?_, ?_⟩
  · rw [h3, h2, ← h1]
    push_cast
    field_simp
  · rw [h2, ← h1, Nat.mul_div_cancel_left _ hprime.pos]
  · rw [h2, hset]

/-- C35 at five sites and two atoms: `C(5,2) / 5 = 2`. -/
theorem C35_primNum_counts_the_primitives_witness :
    (Nat.Prime 5 ∧ 0 < 2 ∧ 2 < 5) ∧
    PrimNumAux 5 2 = (Nat.choose 5 2 : ℚ) / ((5 : Nat) : ℚ) ∧
    5 ∣ Nat.choose 5 2 ∧
    (PrimNum 5 2 : ℚ) = PrimNumAux 5 2 ∧
    PrimNum 5 2 = Nat.choose 5 2 / 5 ∧
    PrimNum 5 2 =
      ((Finset.range (2 ^ 5)).filter fun c => bitCount 0 5 c = 2 ∧ 5 ∣ rawSum 5 c).card :=
  ⟨⟨by norm_num, by decide, by decide⟩,
    @C35_primNum_counts_the_primitives 5 2 (by norm_num) (by decide) (by decide)⟩

/-! ## The number of palindromic patterns: claim C36 -/

/-- C36: for a prime number `3 <= p <= 31` of sites and `0 < k < p` atoms the loop that
fills `MirrorImage` returns (fuel `2^p` is enough), the number `PalinNum` it counts is
the number of the primitive indices `i` with `MirrorImage[i] = i`, and it is the binomial
coefficient `C((p-1)/2, floor(k/2))`; every code of `k` atoms below `2^p` that equals its
mirror image has pattern sum 0 and is one of the primitive patterns. -/
theorem C36_palindromic_patterns_counted {p k fuel : Nat} (hprime : Nat.Prime p)
    (hp3 : 3 ≤ p) (hp : p ≤ 31) (hk0 : 0 < k) (hkp : k < p) (hfuel : 2 ^ p ≤ fuel) :
    ∃ L M PalinNum, SelectPrimitives fuel p k = some L ∧ L.length = PrimNum p k ∧
      MirrorImages fuel p L = some (M, PalinNum) ∧
      PalinNum = ((Finset.range L.length).filter fun i => M.get? i = some i).card ∧
      PalinNum = Nat.choose ((p - 1) / 2) (k / 2) ∧
      ∀ c, c < 2 ^ p → Pattern.AtomNum p c = k → Pattern.Mirror p c = c →
        Pattern.PatternSum p c = 0 ∧ c ∈ L := by
  obtain ⟨L, hsel, hgood, hlen, hle⟩ := selectPrimitives_good hprime hp hk0 hkp hfuel
  have hp1 : 1 ≤ p := by omega
  have hodd : p % 2 = 1 := by
    rcases hprime.eq_two_or_odd with h | h
    · omega
    · exact h
  obtain ⟨M, n, hrun, _, _, hcnt, hpal⟩ := mirrorImages_run hgood hp1 hodd (le_trans hle hfuel)
  refine ⟨L, M, n, hsel, hlen, hrun, hcnt, ?_, ?_⟩
  · rw [hpal]
    have e : p = 2 * ((p - 1) / 2) + 1 := by omega
    have := card_palindromes ((p - 1) / 2) k
    rw [← e] at this
    exact this
  · intro c hc hk hm
    have h0 := PatternSum_of_mirror_fixed hp1 hodd hm
    exact ⟨h0, (hgood.mem c).2 (mem_codesWithSum.2 ⟨⟨hc, hk⟩, h0⟩)⟩

/-- C36 at five sites and two atoms: `C(2, 1) = 2` palindromic patterns. -/
theorem C36_palindromic_patterns_counted_witness :
    (Nat.Prime 5 ∧ 3 ≤ 5 ∧ 5 ≤ 31 ∧ 0 < 2 ∧ 2 < 5 ∧ 2 ^ 5 ≤ 32) ∧
    Nat.choose ((5 - 1) / 2) (2 / 2) = 2 ∧
    ∃ L M PalinNum, SelectPrimitives 32 5 2 = some L ∧ L.length = PrimNum 5 2 ∧
      MirrorImages 32 5 L = some (M, PalinNum) ∧
      PalinNum = ((Finset.range L.length).filter fun i => M.get? i = some i).card ∧
      PalinNum = Nat.choose ((5 - 1) / 2) (2 / 2) ∧
      ∀ c, c < 2 ^ 5 → Pattern.AtomNum 5 c = 2 → Pattern.Mirror 5 c = c →
        Pattern.PatternSum 5 c = 0 ∧ c ∈ L :=
  ⟨⟨by norm_num, by decide, by decide, by decide, by decide, by decide⟩, by decide,
    @C36_palindromic_patterns_counted 5 2 32 (by norm_num) (by decide) (by decide)
      (by decide) (by decide) (by decide)⟩

/-! ## The counters of the rate tables stay small: claim C37 -/

/-- C37: for a prime number `3 <= p <= 31` of sites and `0 < k < p` atoms the part of
`main` up to the rate tables returns (fuel `2^p` is enough), and for every primitive
index `i` the four counters of `Diagonal[i]` add up to twice the number of cyclic
clusters of `Primitive[i]`: the increments that are not blocked are as many as the
clusters, and so are the decrements that are not blocked.  The number of clusters is at
most `min(k, p - k)`, so every counter of `Diagonal`, `Forward` and `Backward` is at most
`2 * min(k, p - k) <= 30`, below the bound 127 of a signed `char`. -/
theorem C37_diagonal_counts_twice_the_clusters {p k fuel : Nat} (hprime : Nat.Prime p)
    (hp3 : 3 ≤ p) (hp : p ≤ 31) (hk0 : 0 < k) (hkp : k < p) (hfuel : 2 ^ p ≤ fuel) :
    ∃ L t, RateMatrix fuel p k = some (L, t) ∧ L.length = PrimNum p k ∧
      2 * min k (p - k) ≤ 30 ∧
      ∀ i c, L.get? i = some c →
        (t.Diagonal i).RateCoeffA + (t.Diagonal i).RateCoeffB + (t.Diagonal i).RateCoeffC +
          (t.Diagonal i).RateCoeffD = 2 * clusters p c ∧
        (∑ T ∈ Finset.range 4, legalIncrements p k c T) = clusters p c ∧
        (∑ T ∈ Finset.range 4, legalDecrements p k c T) = clusters p c ∧
        clusters p c ≤ min k (p - k) ∧
        ∀ T, T < 4 →
          (t.Diagonal i).coeff T ≤ 2 * min k (p - k) ∧
          ∀ j, j < L.length →
            (t.Forward (Element L.length j i)).coeff T ≤ 2 * min k (p - k) ∧
            (t.Backward (Element L.length j i)).coeff T ≤ 2 * min k (p - k) := by
  obtain ⟨L, t, hrate, _, hasm, hgood, hlen, hf1, hf2⟩ :=
    rateMatrix_run hprime hp hk0 hkp hfuel
  obtain ⟨t', hasm', hspec⟩ := assembleRates_spec hgood hprime hp hk0 hkp hf1 hf2
  rw [hasm] at hasm'
  cases hasm'
  have hp1 : 1 ≤ p := by omega
  refine ⟨L, t, hrate, hlen, by omega, ?_⟩
  intro i c hci
  obtain ⟨_, hck, _⟩ := hgood.valid hci
  have hinc := sum_legalIncrements hp1 hp hck
  have hdec := sum_legalDecrements (by omega : 2 ≤ p) hp hck
  obtain ⟨hle1, hle2⟩ := clusters_le hp1 hck
  have hmin : clusters p c ≤ min k (p - k) := le_min hle1 hle2
  have hdiag : (∑ T ∈ Finset.range 4, (t.Diagonal i).coeff T) = 2 * clusters p c := by
    have : ∀ T ∈ Finset.range 4, (t.Diagonal i).coeff T =
        legalIncrements p k c T + legalDecrements p k c T := by
      intro T hT
      exact (hspec i c hci T (Finset.mem_range.1 hT)).1
    rw [Finset.sum_congr rfl this, Finset.sum_add_distrib, hinc, hdec]
    omega
  refine ⟨?_, hinc, hdec, hmin, ?_⟩
  · rw [← hdiag]
    simp [Finset.sum_range_succ, DecayCoefficients.coeff]
  · intro T hT
    obtain ⟨_, _, _, h4, h5⟩ := hspec i c hci T hT
    have hTmem : T ∈ Finset.range 4 := Finset.mem_range.2 hT
    have hI : legalIncrements p k c T ≤ clusters p c := by
      rw [← hinc]
      exact Finset.single_le_sum (f := fun T => legalIncrements p k c T)
        (fun _ _ => Nat.zero_le _) hTmem
    have hD : legalDecrements p k c T ≤ clusters p c := by
      rw [← hdec]
      exact Finset.single_le_sum (f := fun T => legalDecrements p k c T)
        (fun _ _ => Nat.zero_le _) hTmem
    constructor
    · have := Finset.single_le_sum (f := fun T => (t.Diagonal i).coeff T)
        (fun _ _ => Nat.zero_le _) hTmem
      simp only [] at this
      omega
    · intro j hj
      have hjmem : j ∈ Finset.range L.length := Finset.mem_range.2 hj
      have hF := Finset.single_le_sum
        (f := fun j => (t.Forward (Element L.length j i)).coeff T)
        (fun _ _ => Nat.zero_le _) hjmem
      have hB := Finset.single_le_sum
        (f := fun j => (t.Backward (Element L.length j i)).coeff T)
        (fun _ _ => Nat.zero_le _) hjmem
      simp only [] at hF hB
      constructor <;> omega

/-- C37 at five sites and two atoms. -/
theorem C37_diagonal_counts_twice_the_clusters_witness :
    (Nat.Prime 5 ∧ 3 ≤ 5 ∧ 5 ≤ 31 ∧ 0 < 2 ∧ 2 < 5 ∧ 2 ^ 5 ≤ 32) ∧
    ∃ L t, RateMatrix 32 5 2 = some (L, t) ∧ L.length = PrimNum 5 2 ∧
      2 * min 2 (5 - 2) ≤ 30 ∧
      ∀ i c, L.get? i = some c →
        (t.Diagonal i).RateCoeffA + (t.Diagonal i).RateCoeffB + (t.Diagonal i).RateCoeffC +
          (t.Diagonal i).RateCoeffD = 2 * clusters 5 c ∧
        (∑ T ∈ Finset.range 4, legalIncrements 5 2 c T) = clusters 5 c ∧
        (∑ T ∈ Finset.range 4, legalDecrements 5 2 c T) = clusters 5 c ∧
        clusters 5 c ≤ min 2 (5 - 2) ∧
        ∀ T, T < 4 →
          (t.Diagonal i).coeff T ≤ 2 * min 2 (5 - 2) ∧
          ∀ j, j < L.length →
            (t.Forward (Element L.length j i)).coeff T ≤ 2 * min 2 (5 - 2) ∧
            (t.Backward (Element L.length j i)).coeff T ≤ 2 * min 2 (5 - 2) :=
  ⟨⟨by norm_num, by decide, by decide, by decide, by decide, by decide⟩,
    @C37_diagonal_counts_twice_the_clusters 5 2 32 (by norm_num) (by decide) (by decide)
      (by decide) (by decide) (by decide)⟩

/-! ## Single-site patterns: claim C38 -/

/-- C38: for a prime number `3 <= p <= 31` of sites, for every code below `2^p` and the
single-site pattern of every site `a` (one `o` on the site `a`, `x` elsewhere),
`Multiplicity` returns the number of atoms of the code (it counts the rotations of its
copy `Copy` that match; the code itself is a value here, as the source never assigns
`Code`); hence, in exact arithmetic over an ordered field, with `0 < k < p` atoms and
positive rates `RateB`, `RateC`, the primitive patterns and the equilibrium eigenvector
are computed (fuel `2^p` is enough) and `EqAverage` of every single-site pattern is
`k / p`. -/
theorem C38_single_site_multiplicity {K : Type} [LinearOrderedField K] {p k fuel : Nat}
    (hprime : Nat.Prime p) (hp3 : 3 ≤ p) (hp : p ≤ 31) (hk0 : 0 < k) (hkp : k < p)
    (hfuel : 2 ^ p ≤ fuel) (RateB RateC : K) (hB : 0 < RateB) (hC : 0 < RateC) :
    (∀ c n a, c < 2 ^ p → Pattern.AtomNum p c = n → a < p →
      Pattern.Multiplicity p c (OneAtomPattern p a) = .ok n) ∧
    ∃ (L : List Nat) (E : List K), SelectPrimitives fuel p k = some L ∧
      L.length = PrimNum p k ∧ EqEV fuel p k RateB RateC L = some E ∧
      ∀ a, a < p →
        EqAverage p (PrimNum p k) (fun i => L.getD i 0) (EqEVAt E) (OneAtomPattern p a) =
          .ok ((k : K) / (p : K)) := by
  have hp1 : 1 ≤ p := by omega
  refine ⟨fun c n a hc hn ha => Multiplicity_OneAtomPattern hp1 hp hc hn ha, ?_⟩
  obtain ⟨L, t, E, Nn, _, hsel, _, hgood, hlen, _, _, _, hE, _, hElen, _, _, hsum⟩ :=
    eqEV_run hprime hp hk0 hkp hfuel hB hC
  refine ⟨L, E, hsel, hlen, hE, ?_⟩
  intro a ha
  have hmul : ∀ j, 0 ≤ j → j < 0 + PrimNum p k →
      Pattern.Multiplicity p ((fun i => L.getD i 0) j) (OneAtomPattern p a) =
        .ok ((fun _ => k) j) := by
    intro j _ hj
    obtain ⟨c, hc⟩ := get_of_lt (by rw [hlen]; omega : j < L.length)
    have hval : L.getD j 0 = c := by
      rw [List.get?_eq_getElem?] at hc
      rw [List.getD_eq_getElem?_getD, hc]
      rfl
    show Pattern.Multiplicity p (L.getD j 0) (OneAtomPattern p a) = .ok k
    rw [hval]
    exact Multiplicity_OneAtomPattern hp1 hp (hgood.valid hc).1 (hgood.valid hc).2.1 ha
  unfold EqAverage
  rw [EqAverageLoop_spec p _ (EqEVAt E) _ (fun _ => k) (PrimNum p k) 0 0 hmul]
  congr 1
  simp only [Nat.zero_add, zero_add]
  rw [← Finset.sum_mul, ← hlen, ← hElen, sum_EqEVAt, hsum]
  ring

/-- C38 at five sites and two atoms with the rates B = 2 and C = 3: every single-site
equilibrium average is 2/5. -/
theorem C38_single_site_multiplicity_witness :
    (Nat.Prime 5 ∧ 3 ≤ 5 ∧ 5 ≤ 31 ∧ 0 < 2 ∧ 2 < 5 ∧ 2 ^ 5 ≤ 32 ∧ (0 : ℚ) < 2 ∧ (0 : ℚ) < 3) ∧
    Pattern.Multiplicity 5 12 (OneAtomPattern 5 0) = .ok 2 ∧
    (∀ c n a, c < 2 ^ 5 → Pattern.AtomNum 5 c = n → a < 5 →
      Pattern.Multiplicity 5 c (OneAtomPattern 5 a) = .ok n) ∧
    ∃ (L : List Nat) (E : List ℚ), SelectPrimitives 32 5 2 = some L ∧
      L.length = PrimNum 5 2 ∧ EqEV 32 5 2 (2 : ℚ) 3 L = some E ∧
      ∀ a, a < 5 →
        EqAverage 5 (PrimNum 5 2) (fun i => L.getD i 0) (EqEVAt E) (OneAtomPattern 5 a) =
          .ok (((2 : Nat) : ℚ) / ((5 : Nat) : ℚ)) :=
  ⟨⟨by norm_num, by decide, by decide, by decide, by decide, by decide, by norm_num,
      by norm_num⟩, rfl,
    @C38_single_site_multiplicity ℚ _ 5 2 32 (by norm_num) (by decide) (by decide)
      (by decide) (by decide) (by decide) 2 3 (by norm_num) (by norm_num)⟩

/-! ## The match table leaves the primitive patterns as they were: claim C39 -/

/-- C39: for `1 <= p <= 31` sites, `p` forward rotations (`operator++`) of a code below
`2^p` give the code back.  Hence the loops "Assign flags" of `main`, run on an array
`Primitive` of `PrimNum` codes below `2^p` and on averaging patterns of `p` symbols `o`,
`.` and `x`, return with the array `Primitive` as it was and the counter at
`AveragePatternNumber * PrimNum * p`, and `DoesMatch[(i * PrimNum + j) * p + nu]` is the
value `Match` returns for the averaging pattern `i` on `Primitive[j]` after `nu` forward
rotations. -/
theorem C39_match_table_restores_primitives (p PrimNum : Nat) (hp1 : 1 ≤ p) (hp : p ≤ 31)
    (Primitive : Nat → Nat) (hP : ∀ j, j < PrimNum → Primitive j < 2 ^ p)
    (AveragePattern : List (List Char))
    (hAP : ∀ s, s ∈ AveragePattern →
      s.length = p ∧ ∀ ch, ch ∈ s → ch = 'o' ∨ ch = '.' ∨ ch = 'x')
    (D0 : Nat → Bool) :
    (∀ c, c < 2 ^ p → (Pattern.rotateUp p)^[p] c = c) ∧
    ∃ DoesMatch, AssignFlags p PrimNum AveragePattern (D0, Primitive, 0) =
        .ok (DoesMatch, Primitive, AveragePattern.length * (PrimNum * p)) ∧
      ∀ i s j nu, AveragePattern.get? i = some s → j < PrimNum → nu < p →
        Pattern.Match p ((Pattern.rotateUp p)^[nu] (Primitive j)) s =
          .ok (DoesMatch ((i * PrimNum + j) * p + nu)) := by
  refine ⟨fun c hc => Pattern.iterate_rotateUp_period hp1 hp hc, ?_⟩
  obtain ⟨mt, hmt⟩ : ∃ mt : List Char → Nat → Bool, mt = fun s c =>
      decide (c &&& symbolMask 'o' s = symbolMask 'o' s ∧ c &&& symbolMask '.' s = 0) :=
    ⟨_, rfl⟩
  have hmatch : ∀ s, s ∈ AveragePattern → ∀ c, Pattern.Match p c s = .ok (mt s c) := by
    intro s hs c
    rw [hmt]
    exact Pattern.Match_ok p c (by omega) s (hAP s hs).1 (hAP s hs).2
  obtain ⟨D2, b1, _, b3⟩ := AssignFlags_spec p PrimNum hp1 hp mt Primitive hP AveragePattern
    hmatch D0 0
  rw [Nat.zero_add] at b1
  refine ⟨D2, b1, ?_⟩
  intro i s j nu hi hj hnu
  have hmem : s ∈ AveragePattern := by
    rw [List.get?_eq_getElem?, List.getElem?_eq_some] at hi
    obtain ⟨h, rfl⟩ := hi
    exact List.getElem_mem h
  have hcell := b3 i s j nu hi hj hnu
  rw [Nat.zero_add] at hcell
  rw [hcell]
  exact hmatch s hmem _

/-- C39 at five sites: the two primitive patterns 12 and 18 of two atoms and the
averaging patterns `oxxxx` and `x.oxx`. -/
theorem C39_match_table_restores_primitives_witness :
    (1 ≤ 5 ∧ 5 ≤ 31 ∧ (∀ j, j < 2 → [12, 18].getD j 0 < 2 ^ 5) ∧
      (∀ s, s ∈ [['o', 'x', 'x', 'x', 'x'], ['x', '.', 'o', 'x', 'x']] →
        s.length = 5 ∧ ∀ ch, ch ∈ s → ch = 'o' ∨ ch = '.' ∨ ch = 'x')) ∧
    (∀ c, c < 2 ^ 5 → (Pattern.rotateUp 5)^[5] c = c) ∧
    ∃ DoesMatch,
      AssignFlags 5 2 [['o', 'x', 'x', 'x', 'x'], ['x', '.', 'o', 'x', 'x']]
          (fun _ => false, fun j => [12, 18].getD j 0, 0) =
        .ok (DoesMatch, fun j => [12, 18].getD j 0, 2 * (2 * 5)) ∧
      ∀ i s j nu, [['o', 'x', 'x', 'x', 'x'], ['x', '.', 'o', 'x', 'x']].get? i = some s →
        j < 2 → nu < 5 →
        Pattern.Match 5 ((Pattern.rotateUp 5)^[nu] ([12, 18].getD j 0)) s =
          .ok (DoesMatch ((i * 2 + j) * 5 + nu)) := by
  have hP : ∀ j, j < 2 → [12, 18].getD j 0 < 2 ^ 5 := by
    intro j hj
    interval_cases j <;> decide
  have hAP : ∀ s, s ∈ [['o', 'x', 'x', 'x', 'x'], ['x', '.', 'o', 'x', 'x']] →
      s.length = 5 ∧ ∀ ch, ch ∈ s → ch = 'o' ∨ ch = '.' ∨ ch = 'x' := by
    intro s hs
    simp only [List.mem_cons, List.mem_singleton, List.not_mem_nil, or_false] at hs
    rcases hs with rfl | rfl
    · refine ⟨rfl, ?_⟩
      intro ch hch
      simp only [List.mem_cons, List.mem_singleton, List.not_mem_nil, or_false] at hch
      rcases hch with h | h | h | h | h <;> simp [h]
    · refine ⟨rfl, ?_⟩
      intro ch hch
      simp only [List.mem_cons, List.mem_singleton, List.not_mem_nil, or_false] at hch
      rcases hch with h | h | h | h | h <;> simp [h]
  exact ⟨⟨by norm_num, by norm_num, hP, hAP⟩,
    C39_match_table_restores_primitives 5 2 (by norm_num) (by norm_num)
      (fun j => [12, 18].getD j 0) hP _ hAP (fun _ => false)⟩

/-! ## The reads of the roots of unity: claim C40 -/

/-- C40 holds for the momenta `1..(p-1)/2` of the automatic range and fails for a single
subspace that is negative or large.  With the products taken in the 32 bits of a `long`
and `%` the remainder of C++: the indices `i` and `p - i` of the prefactors lie in `0..p`
for every momentum `q`, as `i` is corrected when it is negative; the index
`(q * nu) % p` of the projection and of the result vector and the index
`p - ((Shift * q) % p)` of the weight of the initial state lie in `0..p` when the product
lies in `0 .. 2^31 - 1`, as it does for `p <= 31`, `0 <= q <= (p-1)/2` and `nu`, `Shift`
in `0..p-1`; but for a product in `-2^31 .. -1` that `p` does not divide the index
`(q * nu) % p` is negative and the index `p - ((Shift * q) % p)` lies above `p`: with
`p = 5`, `q = -1` the site `nu = 2` gives the index -2 and the shift 3 gives the index
8, outside the table of `p + 1 = 6` entries; and a product that leaves the range of a
`long` does the same for a positive momentum: with `p = 5`, `q = 1073741823` the site
`nu = 3` gives the index -2 and the shift 3 gives the index 7. -/
theorem C40_unity_root_indices :
    (∀ p m q : Int, 0 < p →
      0 ≤ PrefactorIndex p m q ∧ PrefactorIndex p m q ≤ p ∧
      0 ≤ p - PrefactorIndex p m q ∧ p - PrefactorIndex p m q ≤ p) ∧
    (∀ p q nu : Int, 0 < p → 0 ≤ q * nu → q * nu < 2147483648 →
      0 ≤ ProjectionIndex p q nu ∧ ProjectionIndex p q nu ≤ p) ∧
    (∀ p Shift q : Int, 0 < p → 0 ≤ Shift * q → Shift * q < 2147483648 →
      0 ≤ WeightIndex p Shift q ∧ WeightIndex p Shift q ≤ p) ∧
    (∀ p q nu Shift : Int, 0 < p → p ≤ 31 → 0 ≤ q → q ≤ (p - 1) / 2 → 0 ≤ nu → nu < p →
      0 ≤ Shift → Shift < p →
      0 ≤ ProjectionIndex p q nu ∧ ProjectionIndex p q nu ≤ p ∧
      0 ≤ WeightIndex p Shift q ∧ WeightIndex p Shift q ≤ p) ∧
    (∀ p q nu : Int, q * nu < 0 → -2147483648 ≤ q * nu → ¬ p ∣ q * nu →
      ProjectionIndex p q nu < 0) ∧
    (∀ p Shift q : Int, Shift * q < 0 → -2147483648 ≤ Shift * q → ¬ p ∣ Shift * q →
      p < WeightIndex p Shift q) ∧
    ProjectionIndex 5 (-1) 2 = -2 ∧ WeightIndex 5 3 (-1) = 8 ∧
    ProjectionIndex 5 1073741823 3 = -2 ∧ WeightIndex 5 3 1073741823 = 7 := by
  refine ⟨?_, ?_, ?_, ?_, ?_, ?_, by decide, by decide, by decide, by decide⟩
  · intro p m q hp
    obtain ⟨h1, h2⟩ := PrefactorIndex_range p m q hp
    refine ⟨h1, ?_, ?_, ?_⟩ <;> omega
  · intro p q nu hp h hb
    obtain ⟨h1, h2⟩ := ProjectionIndex_range p q nu hp h hb
    exact ⟨h1, by omega⟩
  · intro p Shift q hp h hb
    obtain ⟨h1, h2⟩ := WeightIndex_range p Shift q hp h hb
    exact ⟨by omega, h2⟩
  · intro p q nu Shift hp hp31 hq hq2 hnu hnu2 hS hS2
    have hq3 : q ≤ 15 := by omega
    have e1 : q * nu ≤ 15 * 31 := mul_le_mul hq3 (by omega) hnu (by omega)
    have e2 : Shift * q ≤ 31 * 15 := mul_le_mul (by omega) hq3 hq (by omega)
    obtain ⟨h1, h2⟩ := ProjectionIndex_range p q nu hp (mul_nonneg hq hnu) (by omega)
    obtain ⟨h3, h4⟩ := WeightIndex_range p Shift q hp (mul_nonneg hS hq) (by omega)
    exact ⟨h1, by omega, by omega, h4⟩
  · intro p q nu h hb hd
    exact ProjectionIndex_negative p q nu h hb hd
  · intro p Shift q h hb hd
    exact WeightIndex_above p Shift q h hb hd

end Diffusion
